import Mathlib

/-! # aferosync: reconciliation of a filesystem tree against a tar stream

A shallow embedding of `sync.go`, `update.go`, `summary.go`, `opts.go` and
`lstat_or_stat.go`.

* Go strings are modelled by `String`, instants (`time.Time` compared with
  `Equal`) by `Int`, `fs.FileMode` (a `uint32`) by `Nat`, `int` by `Int`.
* The destination filesystem (`afero.Fs`) is an external collaborator: the
  engine is parametrised by a record `Fs σ` of its operations over an abstract
  state `σ`.  Reads return `Except Error _` and do not change the state;
  mutations return the error (if any) together with the state afterwards.
* The tar reader is a list of entries still to be read followed by an optional
  read failure.
* Every call made to a collaborator is appended to a ghost trace `Sync.log`.
-/

namespace Aferosync

/-! ## Errors -/

/-- Go `error` values: `notExist` is a chain ending in `fs.ErrNotExist`, `fault` any
other error of a collaborator, `wrap m c` is `fmt.Errorf("m: %w", c)` and `plain m`
is `fmt.Errorf("m")`. -/
inductive Error where
  | notExist : Error
  | fault (msg : String) : Error
  | wrap (msg : String) (cause : Error) : Error
  | plain (msg : String) : Error
deriving DecidableEq, Repr

/-- Go `errors.Is(err, fs.ErrNotExist)`. -/
def Error.isNotExist : Error → Bool
  | .notExist => true
  | .fault _ => false
  | .wrap _ c => c.isNotExist
  | .plain _ => false

/-- The text of `err.Error()`. -/
def Error.message : Error → String
  | .notExist => "file does not exist"
  | .fault m => m
  | .wrap m c => m ++ ": " ++ c.message
  | .plain m => m

/-! ## Paths: `filepath.Clean`, `filepath.Dir`, `normalizePath` -/

/-- Split a path at every separator `/`. -/
def splitSlash : List Char → List (List Char)
  | [] => [[]]
  | c :: cs =>
    if c = '/' then [] :: splitSlash cs
    else
      match splitSlash cs with
      | [] => [[c]]
      | seg :: segs => (c :: seg) :: segs

/-- The element loop of `filepath.Clean`: `out` is the output so far, last element
first.  Empty and `.` elements are dropped; `..` removes the last real element, is
kept when there is none and the path is not rooted, and is dropped at the root. -/
def cleanSegs (rooted : Bool) : List (List Char) → List (List Char) → List (List Char)
  | out, [] => out
  | out, seg :: rest =>
    if seg = [] ∨ seg = ['.'] then cleanSegs rooted out rest
    else if seg = ['.', '.'] then
      match out with
      | top :: below =>
        if top = ['.', '.'] then cleanSegs rooted (seg :: out) rest
        else cleanSegs rooted below rest
      | [] => if rooted then cleanSegs rooted [] rest else cleanSegs rooted [seg] rest
    else cleanSegs rooted (seg :: out) rest

/-- Join path elements with `/`. -/
def joinSlash : List (List Char) → List Char
  | [] => []
  | [seg] => seg
  | seg :: rest => seg ++ '/' :: joinSlash rest

/-- Go `filepath.Clean` (Unix) on the characters of a path. -/
def cleanChars (path : List Char) : List Char :=
  match path with
  | [] => ['.']
  | c :: _ =>
    let rooted : Bool := c = '/'
    let out := joinSlash (cleanSegs rooted [] (splitSlash path)).reverse
    if rooted then '/' :: out
    else if out = [] then ['.'] else out

/-- Go `filepath.Clean` (Unix). -/
def filepathClean (path : String) : String := String.mk (cleanChars path.data)

/-- The part of a path up to and including its last separator. -/
def dirChars : List Char → List Char
  | [] => []
  | c :: cs =>
    if cs.contains '/' then c :: dirChars cs
    else if c = '/' then ['/'] else []

/-- Go `filepath.Dir` (Unix): the cleaned part of the path before its last element. -/
def filepathDir (path : String) : String := String.mk (cleanChars (dirChars path.data))

/-- Source `normalizePath` (sync.go:578): clean the path, then drop one leading
separator. -/
def normalizePath (path : String) : String :=
  match cleanChars path.data with
  | [] => String.mk []
  | c :: cs => if c = '/' then String.mk cs else String.mk (c :: cs)

/-! ## File modes -/

def ModeDir : Nat := 2 ^ 31
def ModeSymlink : Nat := 2 ^ 27
def ModeDevice : Nat := 2 ^ 26
def ModeNamedPipe : Nat := 2 ^ 25
def ModeSocket : Nat := 2 ^ 24
def ModeSetuid : Nat := 2 ^ 23
def ModeSetgid : Nat := 2 ^ 22
def ModeCharDevice : Nat := 2 ^ 21
def ModeSticky : Nat := 2 ^ 20
def ModeIrregular : Nat := 2 ^ 19

/-- Go `fs.ModeType`. -/
def ModeType : Nat :=
  ModeDir ||| ModeSymlink ||| ModeNamedPipe ||| ModeSocket ||| ModeDevice |||
    ModeCharDevice ||| ModeIrregular

/-- Go `fs.ModePerm`. -/
def ModePerm : Nat := 0o777

/-- Go `FileMode.Type`. -/
def modeTypeOf (m : Nat) : Nat := m &&& ModeType

/-- Go `FileMode.Perm`. -/
def modePermOf (m : Nat) : Nat := m &&& ModePerm

/-- Go `FileMode.IsRegular`. -/
def modeIsRegular (m : Nat) : Bool := m &&& ModeType = 0

/-! ## Tar headers -/

def TypeReg : Nat := 48
def TypeLink : Nat := 49
def TypeSymlink : Nat := 50
def TypeChar : Nat := 51
def TypeBlock : Nat := 52
def TypeDir : Nat := 53
def TypeFifo : Nat := 54

/-- The fields of `tar.Header` the engine reads. -/
structure Header where
  typeflag : Nat
  name : String
  linkname : String
  size : Int
  mode : Int
  uid : Int
  gid : Int
  modTime : Int
deriving DecidableEq, Repr

/-- Go `hdr.FileInfo().Mode()` (archive/tar `headerFileInfo.Mode`): permission bits,
setuid/setgid/sticky, then the type bits from the mode field and from the typeflag. -/
def Header.fileMode (h : Header) : Nat :=
  let m : Nat := (h.mode % 4294967296).toNat
  let perm := m &&& 0o777
  let su := if m &&& 0o4000 ≠ 0 then ModeSetuid else 0
  let sg := if m &&& 0o2000 ≠ 0 then ModeSetgid else 0
  let st := if m &&& 0o1000 ≠ 0 then ModeSticky else 0
  let hi := m - (m &&& 0o7777)
  let fromMode :=
    if hi = 0o40000 then ModeDir
    else if hi = 0o10000 then ModeNamedPipe
    else if hi = 0o120000 then ModeSymlink
    else if hi = 0o60000 then ModeDevice
    else if hi = 0o20000 then ModeDevice ||| ModeCharDevice
    else if hi = 0o140000 then ModeSocket
    else 0
  let fromFlag :=
    if h.typeflag = TypeSymlink then ModeSymlink
    else if h.typeflag = TypeChar then ModeDevice ||| ModeCharDevice
    else if h.typeflag = TypeBlock then ModeDevice
    else if h.typeflag = TypeDir then ModeDir
    else if h.typeflag = TypeFifo then ModeNamedPipe
    else 0
  perm ||| su ||| sg ||| st ||| fromMode ||| fromFlag

/-- One entry of the tar stream: the header and the body that follows it. -/
structure TarEntry where
  hdr : Header
  body : String
deriving DecidableEq, Repr

/-- The state of `tar.Reader`: the entries not read yet, and the failure (if any) that
`Next` reports once they are exhausted instead of `io.EOF`. -/
structure TarReader where
  entries : List TarEntry
  fail : Option Error
deriving DecidableEq, Repr

/-! ## Updates (update.go) and the summary (summary.go) -/

structure Update where
  Added : Bool := false
  Deleted : Bool := false
  Mode : Option Nat := none
  Uid : Option Int := none
  Gid : Option Int := none
  ModTime : Option Int := none
  Link : Option String := none
deriving DecidableEq, Repr

structure PathUpdate where
  Path : String := ""
  update : Update := {}
deriving DecidableEq, Repr

/-- Source `Update.IsEmpty`: `upd == Update{}`. -/
def Update.IsEmpty (upd : Update) : Bool := decide (upd = {})

/-- Go `int` arithmetic (64 bits, two's complement): a result outside the range wraps
around. -/
def wrapInt64 (x : Int) : Int := (x + 2 ^ 63) % 2 ^ 64 - 2 ^ 63

structure Summary where
  Added : Int := 0
  Updated : Int := 0
  Deleted : Int := 0
deriving DecidableEq, Repr

/-- Source `Summary.Add` (summary.go:11); `++` on an `int` wraps around. -/
def Summary.Add (s : Summary) (upd : Update) : Summary :=
  if upd.Added then { s with Added := wrapInt64 (s.Added + 1) }
  else if upd.Deleted then { s with Deleted := wrapInt64 (s.Deleted + 1) }
  else { s with Updated := wrapInt64 (s.Updated + 1) }

/-! ## Options (opts.go) -/

structure Options where
  withSymlinks : Bool := false
  withHardLinks : Bool := false
  withOwnership : Bool := false
deriving DecidableEq, Repr

/-- An `Option` of opts.go: which field it sets, and to what. -/
inductive Opt where
  | WithSymlinks (v : Bool)
  | WithHardLinks (v : Bool)
  | WithOwnership (v : Bool)
deriving DecidableEq, Repr

def Opt.apply (o : Opt) (opts : Options) : Options :=
  match o with
  | .WithSymlinks v => { opts with withSymlinks := v }
  | .WithHardLinks v => { opts with withHardLinks := v }
  | .WithOwnership v => { opts with withOwnership := v }

def defaultOpts : List Opt := [.WithSymlinks true, .WithHardLinks true, .WithOwnership true]

/-! ## The destination filesystem -/

/-- What `fs.FileInfo` reports, together with the values of the optional interfaces
`FileInfoOwner` and `FileInfoInoer`. -/
structure FileInfo where
  size : Int
  mode : Nat
  modTime : Int
  uid : Int
  gid : Int
  ino : Int
deriving DecidableEq, Repr

/-- The destination filesystem as the engine sees it.  The `has…` flags say which
optional interfaces the value implements (`afero.Lstater`, `afero.Linker`,
`afero.LinkReader`, `Lchowner`, `Linker`), and `infoHasOwner` / `infoHasIno` whether
the `FileInfo` values it returns implement `FileInfoOwner` / `FileInfoInoer`.
`walk` is the list of paths visited by `Walk(".")`. -/
structure Fs (σ : Type) where
  hasLstater : Bool
  hasSymlinkCreate : Bool
  hasLinkReader : Bool
  hasLchowner : Bool
  hasHardLinker : Bool
  infoHasOwner : Bool
  infoHasIno : Bool
  stat : σ → String → Except Error FileInfo
  lstat : σ → String → Except Error FileInfo
  readlink : σ → String → Except Error String
  walk : σ → Except Error (List String)
  mkdir : σ → String → Nat → Option Error × σ
  writeReader : σ → String → String → Option Error × σ
  remove : σ → String → Option Error × σ
  removeAll : σ → String → Option Error × σ
  chmod : σ → String → Nat → Option Error × σ
  chown : σ → String → Int → Int → Option Error × σ
  lchown : σ → String → Int → Int → Option Error × σ
  chtimes : σ → String → Int → Int → Option Error × σ
  symlink : σ → String → String → Option Error × σ
  link : σ → String → String → Option Error × σ

/-- The type assertion `fs.(afero.Symlinker)`: `Lstater`, `Linker` and `LinkReader`. -/
def Fs.isSymlinker {σ : Type} (F : Fs σ) : Bool :=
  F.hasLstater && F.hasSymlinkCreate && F.hasLinkReader

/-- A call made to a collaborator. -/
inductive Call where
  | tarNext
  | stat (name : String)
  | lstat (name : String)
  | readlink (name : String)
  | walk
  | mkdir (name : String) (perm : Nat)
  | writeReader (name : String) (body : String)
  | remove (name : String)
  | removeAll (name : String)
  | chmod (name : String) (mode : Nat)
  | chown (name : String) (uid gid : Int)
  | lchown (name : String) (uid gid : Int)
  | chtimes (name : String) (atime mtime : Int)
  | symlink (target name : String)
  | link (oldname newname : String)
deriving DecidableEq, Repr

/-- The calls that change the destination. -/
def Call.isMutation : Call → Bool
  | .tarNext | .stat _ | .lstat _ | .readlink _ | .walk => false
  | _ => true

/-- The calls that reach the destination filesystem at all. -/
def Call.isFs : Call → Bool
  | .tarNext => false
  | _ => true

/-! ## Engine state (sync.go:18) -/

structure Sync (σ : Type) where
  fs : σ
  tarReader : TarReader
  opts : Options := {}
  pathMap : Option (List String) := none
  deletePaths : Option (List String) := none
  baseDirPath : String := ""
  baseDirModTime : Int := 0
  upd : PathUpdate := {}
  err : Option Error := none
  log : List Call := []

variable {σ : Type}

/-! ## Calls to the collaborators, recorded in the trace -/

/-- The mutation a call stands for, on a destination state; a read changes nothing. -/
def Fs.exec (F : Fs σ) (c : Call) (fs : σ) : Option Error × σ :=
  match c with
  | .mkdir name perm => F.mkdir fs name perm
  | .writeReader name body => F.writeReader fs name body
  | .remove name => F.remove fs name
  | .removeAll name => F.removeAll fs name
  | .chmod name mode => F.chmod fs name mode
  | .chown name uid gid => F.chown fs name uid gid
  | .lchown name uid gid => F.lchown fs name uid gid
  | .chtimes name atime mtime => F.chtimes fs name atime mtime
  | .symlink target name => F.symlink fs target name
  | .link oldname newname => F.link fs oldname newname
  | .tarNext | .stat _ | .lstat _ | .readlink _ | .walk => (none, fs)

/-- Record a call in the trace. -/
def Sync.logCall (s : Sync σ) (c : Call) : Sync σ := { s with log := s.log ++ [c] }

/-- A mutating filesystem call: make it, record it and install the state it leaves. -/
def Sync.call (F : Fs σ) (s : Sync σ) (c : Call) : Option Error × Sync σ :=
  ((F.exec c s.fs).1, { s with fs := (F.exec c s.fs).2, log := s.log ++ [c] })

/-- The metadata `LstatOrStat` reads: `LstatIfPossible` when the filesystem is an
`afero.Lstater`, `Stat` otherwise. -/
def Fs.lstatOrStat (F : Fs σ) (fs : σ) (name : String) : Except Error FileInfo :=
  if F.hasLstater then F.lstat fs name else F.stat fs name

/-- The call `LstatOrStat` makes. -/
def Fs.lstatCall (F : Fs σ) (name : String) : Call :=
  if F.hasLstater then .lstat name else .stat name

/-- Source `LstatOrStat` (lstat_or_stat.go:9). -/
def LstatOrStat (F : Fs σ) (name : String) (s : Sync σ) : Except Error FileInfo × Sync σ :=
  (F.lstatOrStat s.fs name, s.logCall (F.lstatCall name))

/-- An lstat result as the reconcilers use it: `fi` is nil when the call failed with a
not-exists error; any other failure is returned. -/
def statResult (r : Except Error FileInfo) : Except Error (Option FileInfo) :=
  match r with
  | .ok fi => .ok (some fi)
  | .error e => if e.isNotExist then .ok none else .error e

/-! ## The Base-Dir Preserver (sync.go:550) -/

/-- Source `Sync.preserveBaseDir`, lines 556-562: restore the mtime of the held
directory and release it. -/
def restoreBaseDir (F : Fs σ) (s : Sync σ) : Option Error × Sync σ :=
  if s.baseDirPath ≠ "" then
    let r := s.call F (.chtimes s.baseDirPath s.baseDirModTime s.baseDirModTime)
    match r.1 with
    | some e => (some (.wrap ("failed to preserve base dir modtime: " ++ s.baseDirPath) e), r.2)
    | none => (none, { r.2 with baseDirPath := "" })
  else (none, s)

/-- Source `Sync.preserveBaseDir`, lines 564-573: hold `baseDirPath` with the mtime it
has now. -/
def snapshotBaseDir (F : Fs σ) (baseDirPath : String) (s : Sync σ) : Option Error × Sync σ :=
  if baseDirPath ≠ "" then
    let r := LstatOrStat F baseDirPath s
    match r.1 with
    | .error e => (some (.wrap ("failed to stat base dir: " ++ baseDirPath) e), r.2)
    | .ok fi => (none, { r.2 with baseDirPath := baseDirPath, baseDirModTime := fi.modTime })
  else (none, s)

/-- Source `Sync.preserveBaseDir`. -/
def preserveBaseDir (F : Fs σ) (baseDirPath : String) (s : Sync σ) : Option Error × Sync σ :=
  if baseDirPath = s.baseDirPath then (none, s)
  else
    let r := restoreBaseDir F s
    match r.1 with
    | some e => (some e, r.2)
    | none => snapshotBaseDir F baseDirPath r.2

/-! ## The Metadata Syncer (sync.go:493) -/

/-- Set `s.upd.Uid` and `s.upd.Gid`. -/
def Sync.markOwner (s : Sync σ) (uid gid : Int) : Sync σ :=
  { s with upd := { s.upd with update := { s.upd.update with Uid := some uid, Gid := some gid } } }

/-- Set `s.upd.Mode`. -/
def Sync.markMode (s : Sync σ) (mode : Nat) : Sync σ :=
  { s with upd := { s.upd with update := { s.upd.update with Mode := some mode } } }

/-- Set `s.upd.ModTime`. -/
def Sync.markModTime (s : Sync σ) (t : Int) : Sync σ :=
  { s with upd := { s.upd with update := { s.upd.update with ModTime := some t } } }

/-- Set `s.upd.Added = true`. -/
def Sync.markAdded (s : Sync σ) : Sync σ :=
  { s with upd := { s.upd with update := { s.upd.update with Added := true } } }

/-- Set `s.upd.Link`. -/
def Sync.markLink (s : Sync σ) (target : String) : Sync σ :=
  { s with upd := { s.upd with update := { s.upd.update with Link := some target } } }

/-- The ownership call of `syncStat` (sync.go:509-513): `Lchown` for a symlink entry,
`Chown` otherwise. -/
def ownerCall (hdr : Header) : Call :=
  if hdr.typeflag = TypeSymlink then .lchown (normalizePath hdr.name) hdr.uid hdr.gid
  else .chown (normalizePath hdr.name) hdr.uid hdr.gid

/-- Source `Sync.syncStat`, lines 505-526: ownership.  Returns the metadata the later
comparisons use (re-read after a chown). -/
def syncStatOwner (F : Fs σ) (hdr : Header) (fi : FileInfo) (s : Sync σ) :
    Except Error FileInfo × Sync σ :=
  let path := normalizePath hdr.name
  if s.opts.withOwnership ∧ (hdr.uid ≠ fi.uid ∨ hdr.gid ≠ fi.gid) then
    let r := s.call F (ownerCall hdr)
    match r.1 with
    | some e => (.error (.wrap ("failed to chown: " ++ path) e), r.2)
    | none =>
      let l := LstatOrStat F path (r.2.markOwner hdr.uid hdr.gid)
      match l.1 with
      | .error e => (.error (.wrap ("failed to stat: " ++ path) e), l.2)
      | .ok fi2 => (.ok fi2, l.2)
  else (.ok fi, s)

/-- Source `Sync.syncStat`, lines 528-536: mode (never for a symlink entry). -/
def syncStatMode (F : Fs σ) (hdr : Header) (fi : FileInfo) (s : Sync σ) :
    Option Error × Sync σ :=
  let path := normalizePath hdr.name
  if hdr.typeflag ≠ TypeSymlink ∧ hdr.fileMode ≠ fi.mode then
    let r := s.call F (.chmod path hdr.fileMode)
    match r.1 with
    | some e => (some (.wrap ("failed to chmod: " ++ path) e), r.2)
    | none => (none, r.2.markMode hdr.fileMode)
  else (none, s)

/-- Source `Sync.syncStat`, lines 538-545: modification time. -/
def syncStatTime (F : Fs σ) (hdr : Header) (fi : FileInfo) (s : Sync σ) :
    Option Error × Sync σ :=
  let path := normalizePath hdr.name
  if hdr.modTime ≠ fi.modTime then
    let r := s.call F (.chtimes path hdr.modTime hdr.modTime)
    match r.1 with
    | some e => (some (.wrap ("failed to chtimes: " ++ path) e), r.2)
    | none => (none, r.2.markModTime hdr.modTime)
  else (none, s)

/-- Source `Sync.syncStat`, lines 505-547: what follows once `fi` is not nil. -/
def syncStatWith (F : Fs σ) (hdr : Header) (fi : FileInfo) (s : Sync σ) :
    Option Error × Sync σ :=
  let o := syncStatOwner F hdr fi s
  match o.1 with
  | .error e => (some e, o.2)
  | .ok fi2 =>
    let m := syncStatMode F hdr fi2 o.2
    match m.1 with
    | some e => (some e, m.2)
    | none => syncStatTime F hdr fi2 m.2

/-- Source `Sync.syncStat`: `fi` is the metadata read by the reconciler, or `none` (nil)
when the entry was just created and has to be read (lines 497-503). -/
def syncStat (F : Fs σ) (hdr : Header) (fi : Option FileInfo) (s : Sync σ) :
    Option Error × Sync σ :=
  let path := normalizePath hdr.name
  match fi with
  | some info => syncStatWith F hdr info s
  | none =>
    let l := LstatOrStat F path s
    match l.1 with
    | .error e => (some (.wrap ("failed to stat: " ++ path) e), l.2)
    | .ok info => syncStatWith F hdr info l.2

/-- The tail of every reconciler: `syncStat` with its error wrapped. -/
def syncStatWrapped (F : Fs σ) (hdr : Header) (fi : Option FileInfo) (s : Sync σ) :
    Option Error × Sync σ :=
  let r := syncStat F hdr fi s
  match r.1 with
  | some e => (some (.wrap "failed to sync stat" e), r.2)
  | none => (none, r.2)

/-! ## The per-type reconcilers -/

/-- The replace step shared by the reconcilers: `preserveBaseDir(filepath.Dir(path))`
followed by the removing call `c`, whose failure is wrapped with `msg`. -/
def removeExisting (F : Fs σ) (path : String) (c : Call) (msg : String) (s : Sync σ) :
    Option Error × Sync σ :=
  let p := preserveBaseDir F (filepathDir path) s
  match p.1 with
  | some e => (some e, p.2)
  | none =>
    let r := p.2.call F c
    match r.1 with
    | some e => (some (.wrap (msg ++ path) e), r.2)
    | none => (none, r.2)

/-- The first repair of every reconciler: an existing entry for which `keep` fails is
removed by `c` and `fi` becomes nil. -/
def dropUnless (F : Fs σ) (path : String) (keep : FileInfo → Bool) (c : Call) (msg : String)
    (fi : Option FileInfo) (s : Sync σ) : Option Error × Option FileInfo × Sync σ :=
  match fi with
  | none => (none, none, s)
  | some info =>
    if keep info then (none, some info, s)
    else
      let r := removeExisting F path c msg s
      (r.1, none, r.2)

/-- The creating step shared by the reconcilers: `preserveBaseDir(filepath.Dir(path))`,
the creating call `c` (failure wrapped with `msg`), the marks on the update, then
`syncStat(hdr, nil)`. -/
def createEntry (F : Fs σ) (hdr : Header) (c : Call) (msg : String) (mark : Sync σ → Sync σ)
    (s : Sync σ) : Option Error × Sync σ :=
  let path := normalizePath hdr.name
  let p := preserveBaseDir F (filepathDir path) s
  match p.1 with
  | some e => (some e, p.2)
  | none =>
    let r := p.2.call F c
    match r.1 with
    | some e => (some (.wrap (msg ++ path) e), r.2)
    | none => syncStatWrapped F hdr none (mark r.2)

/-- The test of sync.go:320: the file is there with the header's size and mtime. -/
def upToDate (hdr : Header) (fi : Option FileInfo) : Bool :=
  match fi with
  | none => false
  | some info => hdr.size = info.size ∧ hdr.modTime = info.modTime

/-- Source `Sync.syncRegularFile` (sync.go:301); `body` is what the tar reader yields
for the current entry. -/
def syncRegularFile (F : Fs σ) (hdr : Header) (body : String) (s : Sync σ) :
    Option Error × Sync σ :=
  let path := normalizePath hdr.name
  let l := LstatOrStat F path s
  match statResult l.1 with
  | .error e => (some (.wrap ("failed to stat: " ++ path) e), l.2)
  | .ok fi =>
    -- lines 309-318: something that is not a regular file is removed
    let d := dropUnless F path (fun info => modeIsRegular info.mode) (.removeAll path)
      "failed to remove: " fi l.2
    match d.1 with
    | some e => (some e, d.2.2)
    | none =>
      -- lines 320-336: absent, or size or mtime differ: write the body
      if upToDate hdr d.2.1 then syncStatWrapped F hdr d.2.1 d.2.2
      else createEntry F hdr (.writeReader path body) "failed to write file: " Sync.markAdded d.2.2

/-- Source `Sync.syncDir` (sync.go:341). -/
def syncDir (F : Fs σ) (hdr : Header) (s : Sync σ) : Option Error × Sync σ :=
  let path := normalizePath hdr.name
  let l := LstatOrStat F path s
  match statResult l.1 with
  | .error e => (some (.wrap ("failed to stat: " ++ path) e), l.2)
  | .ok fi =>
    -- lines 350-359: something that is not a directory is removed
    let d := dropUnless F path (fun info => modeTypeOf info.mode = ModeDir) (.remove path)
      "failed to remove: " fi l.2
    match d.1 with
    | some e => (some e, d.2.2)
    | none =>
      match d.2.1 with
      | some info => syncStatWrapped F hdr (some info) d.2.2
      | none =>
        -- lines 361-373: create the directory
        let perm := modePermOf hdr.fileMode
        createEntry F hdr (.mkdir path perm) "failed to make file: "
          (fun s => s.markAdded.markMode (perm ||| ModeDir)) d.2.2

/-- Source `Sync.syncSymlink`, lines 401-418: a symlink with another target is removed. -/
def retarget (F : Fs σ) (hdr : Header) (fi : Option FileInfo) (s : Sync σ) :
    Option Error × Option FileInfo × Sync σ :=
  let path := normalizePath hdr.name
  match fi with
  | none => (none, none, s)
  | some info =>
    let s1 := s.logCall (.readlink path)
    match F.readlink s.fs path with
    | .error e => (some (.wrap ("failed to read link: " ++ path) e), none, s1)
    | .ok target =>
      if target ≠ hdr.linkname then
        let r := removeExisting F path (.remove path) "failed to remove link: " s1
        (r.1, none, r.2)
      else (none, some info, s1)

/-- Source `Sync.syncSymlink` (sync.go:382). -/
def syncSymlink (F : Fs σ) (hdr : Header) (s : Sync σ) : Option Error × Sync σ :=
  let path := normalizePath hdr.name
  let s1 := s.logCall (.lstat path)
  match statResult (F.lstat s.fs path) with
  | .error e => (some (.wrap ("failed to lstat: " ++ path) e), s1)
  | .ok fi =>
    -- lines 390-399: something that is not a symlink is removed
    let d := dropUnless F path (fun info => modeTypeOf info.mode = ModeSymlink) (.removeAll path)
      "failed to remove: " fi s1
    match d.1 with
    | some e => (some e, d.2.2)
    | none =>
      let t := retarget F hdr d.2.1 d.2.2
      match t.1 with
      | some e => (some e, t.2.2)
      | none =>
        match t.2.1 with
        | some info => syncStatWrapped F hdr (some info) t.2.2
        | none =>
          -- lines 420-434: create the symlink
          createEntry F hdr (.symlink hdr.linkname path) "failed to make link: "
            (fun s => s.markAdded.markLink hdr.linkname) t.2.2

/-- Source `Sync.syncLink`, lines 452-471: an entry with another inode than the link
target is removed. -/
def checkLinkTarget (F : Fs σ) (hdr : Header) (fi : Option FileInfo) (s : Sync σ) :
    Option Error × Option FileInfo × Sync σ :=
  let path := normalizePath hdr.name
  let linkPath := normalizePath hdr.linkname
  match fi with
  | none => (none, none, s)
  | some info =>
    let l := LstatOrStat F linkPath s
    match l.1 with
    | .error e => (some (.wrap ("failed to stat link target: " ++ path) e), none, l.2)
    | .ok targetInfo =>
      if info.ino ≠ targetInfo.ino then
        let r := removeExisting F path (.removeAll path) "failed to remove link: " l.2
        (r.1, none, r.2)
      else (none, some info, l.2)

/-- Source `Sync.syncLink` (sync.go:443). -/
def syncLink (F : Fs σ) (hdr : Header) (s : Sync σ) : Option Error × Sync σ :=
  let path := normalizePath hdr.name
  let linkPath := normalizePath hdr.linkname
  let l := LstatOrStat F path s
  match statResult l.1 with
  | .error e => (some (.wrap ("failed to stat: " ++ path) e), l.2)
  | .ok fi =>
    let d := checkLinkTarget F hdr fi l.2
    match d.1 with
    | some e => (some e, d.2.2)
    | none =>
      match d.2.1 with
      | some info => syncStatWrapped F hdr (some info) d.2.2
      | none =>
        -- lines 473-484: create the hard link
        createEntry F hdr (.link linkPath path) "failed to make link: " Sync.markAdded d.2.2

/-! ## The path inventory (sync.go:245) -/

/-- Insert a key into a map used as a set. -/
def setInsert (m : List String) (k : String) : List String :=
  if k ∈ m then m else m ++ [k]

/-- Source `Sync.walkFs`: the set of the normalized paths visited by the walk.  Both
branches (the filesystem's own `Walk`, or `afero.Walk`) visit `F.walk`. -/
def walkFs (F : Fs σ) (s : Sync σ) : Except Error (List String) × Sync σ :=
  match F.walk s.fs with
  | .error e => (.error e, s.logCall .walk)
  | .ok paths => (.ok (paths.foldl (fun m p => setInsert m (normalizePath p)) []), s.logCall .walk)

/-- Byte-wise order on strings, as used by `sort.Strings`. -/
def strLt : List Char → List Char → Bool
  | [], [] => false
  | [], _ :: _ => true
  | _ :: _, [] => false
  | a :: as, b :: bs => if a.toNat < b.toNat then true else if b.toNat < a.toNat then false
    else strLt as bs

/-- Insert into an ascending list. -/
def insertSorted (k : String) : List String → List String
  | [] => [k]
  | x :: xs => if strLt x.data k.data then x :: insertSorted k xs else k :: x :: xs

/-- Go `sort.Strings`. -/
def sortStrings (l : List String) : List String := l.foldr insertSorted []

/-! ## The iterator (sync.go:96-243) -/

/-- How the body of the tar loop of `Next` ends for one entry. -/
inductive Dispatched where
  | failed (e : Error)   -- `s.err = …; return false`
  | skipped              -- `continue` (symlink or hard link with its option off)
  | synced               -- falls through to `delete(s.pathMap, path)`
deriving DecidableEq, Repr

/-- A reconciler's result as the `switch` of `Next` reads it. -/
def dispatched (msg path : String) (r : Option Error × Sync σ) : Dispatched × Sync σ :=
  match r.1 with
  | some e => (.failed (.wrap (msg ++ path) e), r.2)
  | none => (.synced, r.2)

/-- The `switch hdr.Typeflag` of `Next` (sync.go:133-165). -/
def dispatch (F : Fs σ) (ent : TarEntry) (s : Sync σ) : Dispatched × Sync σ :=
  let hdr := ent.hdr
  let path := normalizePath hdr.name
  if hdr.typeflag = TypeReg then
    dispatched "failed to sync regular file: " path (syncRegularFile F hdr ent.body s)
  else if hdr.typeflag = TypeDir then
    dispatched "failed to sync dir: " path (syncDir F hdr s)
  else if hdr.typeflag = TypeSymlink then
    if ¬ s.opts.withSymlinks then (.skipped, s)
    else dispatched "failed to sync symlink: " path (syncSymlink F hdr s)
  else if hdr.typeflag = TypeLink then
    if ¬ s.opts.withHardLinks then (.skipped, s)
    else dispatched "failed to sync hard link: " path (syncLink F hdr s)
  else
    (.failed (.plain ("unexpected file type in tar: " ++ path ++ ": " ++ toString hdr.typeflag)), s)

/-- The reader has handed out `ent`; `s.upd = PathUpdate{Path: path}` (sync.go:120-131). -/
def Sync.beginEntry (s : Sync σ) (ent : TarEntry) (rest : List TarEntry) : Sync σ :=
  { s with tarReader := { s.tarReader with entries := rest }, log := s.log ++ [.tarNext],
           upd := { Path := normalizePath ent.hdr.name } }

/-- Go `delete(s.pathMap, path)` (sync.go:167). -/
def Sync.forget (s : Sync σ) (path : String) : Sync σ :=
  { s with pathMap := s.pathMap.map (fun m => m.filter (fun k => k ≠ path)) }

/-- Record the sticky error. -/
def Sync.setErr (s : Sync σ) (e : Option Error) : Sync σ := { s with err := e }

/-- The tar loop of `Next` (sync.go:119-172), by recursion on the entries the reader
still holds.  `some b` is `return b`; `none` is the `break` at `io.EOF`. -/
def tarLoop (F : Fs σ) : List TarEntry → Sync σ → Option Bool × Sync σ
  | [], s =>
    match s.tarReader.fail with
    | none => (none, s.logCall .tarNext)
    | some e =>
      (some false, (s.logCall .tarNext).setErr (some (.wrap "failed to get next file in tar" e)))
  | ent :: rest, s =>
    let d := dispatch F ent (s.beginEntry ent rest)
    match d.1 with
    | .failed e => (some false, d.2.setErr (some e))
    | .skipped => tarLoop F rest d.2
    | .synced =>
      let s4 := d.2.forget (normalizePath ent.hdr.name)
      if ¬ s4.upd.update.IsEmpty then (some true, s4) else tarLoop F rest s4

/-- Drop the head of `s.deletePaths` (sync.go:189, 204). -/
def Sync.popDelete (s : Sync σ) (rest : List String) : Sync σ := { s with deletePaths := some rest }

/-- Source `Sync.Next`, lines 206-226: the path exists, or its lstat failed otherwise
(the failure is recorded and the code carries on): remove it and yield the deletion. -/
def deleteEntry (F : Fs σ) (path : String) (r : Except Error FileInfo) (s : Sync σ) :
    Bool × Sync σ :=
  let s2 : Sync σ :=
    match r with
    | .error e => s.setErr (some (.wrap ("failed to stat: " ++ path) e))
    | .ok _ => s
  let p := preserveBaseDir F (filepathDir path) s2
  match p.1 with
  | some e => (false, p.2.setErr (some e))
  | none =>
    let d := p.2.call F (.removeAll path)
    match d.1 with
    | some e => (false, d.2.setErr (some (.wrap ("failed to remove: " ++ path) e)))
    | none => (true, { d.2 with upd := { Path := path, update := { Deleted := true } } })

/-- A path of the deletion queue is passed over when its lstat reports not-exists
(sync.go:193). -/
def lstatSkips (r : Except Error FileInfo) : Bool :=
  match r with
  | .error e => e.isNotExist
  | .ok _ => false

/-- The deletion loop of `Next` (sync.go:184-227) and the final release of the base
directory (sync.go:229), by recursion on `s.deletePaths`. -/
def deleteLoop (F : Fs σ) : List String → Sync σ → Bool × Sync σ
  | [], s =>
    let p := preserveBaseDir F "" s
    (false, p.2.setErr p.1)
  | path :: rest, s =>
    if path = "." then deleteLoop F rest (s.popDelete rest)
    else
      let l := LstatOrStat F path s
      if lstatSkips l.1 then deleteLoop F rest (l.2.popDelete rest)
      else deleteEntry F path l.1 l.2

/-- Install the inventory (sync.go:111). -/
def Sync.setPathMap (s : Sync σ) (m : List String) : Sync σ := { s with pathMap := some m }

/-- Source `Sync.Next`, lines 109-116: the inventory is built on the first call. -/
def ensurePathMap (F : Fs σ) (s : Sync σ) : Option Error × Sync σ :=
  match s.pathMap with
  | some _ => (none, s)
  | none =>
    let w := walkFs F s
    match w.1 with
    | .error e => (some (.wrap "failed to walk disk" e), w.2)
    | .ok m => (none, w.2.setPathMap m)

/-- Source `Sync.Next`, lines 174-181: flatten `s.pathMap` into the sorted queue. -/
def flattenPathMap (s : Sync σ) : Sync σ :=
  match s.deletePaths with
  | some _ => s
  | none => { s with deletePaths := some (sortStrings (s.pathMap.getD [])) }

/-- Source `Sync.Next` (sync.go:104). -/
def Next (F : Fs σ) (s : Sync σ) : Bool × Sync σ :=
  if s.err.isSome then (false, s)
  else
    let w := ensurePathMap F s
    match w.1 with
    | some e => (false, w.2.setErr (some e))
    | none =>
      let t := tarLoop F w.2.tarReader.entries w.2
      match t.1 with
      | some b => (b, t.2)
      | none => deleteLoop F ((flattenPathMap t.2).deletePaths.getD []) (flattenPathMap t.2)

/-- Source `Sync.Update` (sync.go:233). -/
def Sync.Update (s : Sync σ) : PathUpdate :=
  if s.err.isSome then {} else s.upd

/-- Source `Sync.Err` (sync.go:241). -/
def Sync.Err (s : Sync σ) : Option Error := s.err

/-- The enabled options: the given ones applied over the defaults
(`append(defaultOpts, opts...)`, sync.go:47). -/
def resolveOptions (opts : List Opt) : Options :=
  (defaultOpts ++ opts).foldl (fun acc f => f.apply acc) {}

/-- Set the constructor error: `ret.err = fmt.Errorf(msg); return &ret`. -/
def Sync.fail (s : Sync σ) (msg : String) : Sync σ := { s with err := some (.plain msg) }

/-- Source `New`, lines 73-93: the checks that follow the probing `Stat(".")`. -/
def probeInfo (F : Fs σ) (ret : Sync σ) : Sync σ :=
  if ret.opts.withHardLinks ∧ ¬ F.hasHardLinker then
    ret.fail "hard link syncing is enabled but fs doesn't implement aferosync.Linker"
  else if ret.opts.withHardLinks ∧ ¬ F.infoHasIno then
    ret.fail "hard link syncing is enabled but fs returned a FileInfo that doesn't implement aferosync.FileInfoInoer"
  else if ret.opts.withOwnership ∧ ¬ F.infoHasOwner then
    ret.fail "hard link syncing is enabled but fs returned a FileInfo that doesn't implement aferosync.FileInfoInoer"
  else ret

/-- Source `New` (sync.go:41): apply the options over the defaults, then probe the
capabilities each enabled option needs. -/
def New (F : Fs σ) (fs : σ) (tarReader : TarReader) (opts : List Opt) : Sync σ :=
  let ret : Sync σ := { fs := fs, tarReader := tarReader, opts := resolveOptions opts }
  if ret.opts.withSymlinks ∧ ¬ F.isSymlinker then
    ret.fail "symlink syncing is enabled but fs doesn't implement afero.Symlinker"
  else if ret.opts.withSymlinks ∧ ¬ F.hasLchowner then
    ret.fail "symlink syncing is enabled but fs doesn't implement aferosync.Lchowner"
  else if ret.opts.withHardLinks ∨ ret.opts.withOwnership then
    let ret1 := ret.logCall (.stat ".")
    if ¬ (F.stat fs ".").isOk then
      ret1.fail "symlink syncing is enabled but fs doesn't implement aferosync.Lchowner"
    else probeInfo F ret1
  else probeInfo F ret

/-- The loop of `Run` (sync.go:98): `fuel` bounds the number of calls to `Next`; `none`
means the bound was reached before `Next` returned false. -/
def runLoop (F : Fs σ) : Nat → Sync σ → List PathUpdate → Option (List PathUpdate × Sync σ)
  | 0, _, _ => none
  | fuel + 1, s, updates =>
    match Next F s with
    | (true, s1) => runLoop F fuel s1 (updates ++ [s1.Update])
    | (false, s1) => some (updates, s1)

/-- Source `Sync.Run` (sync.go:96): the updates, the error, and the state left. -/
def Run (F : Fs σ) (fuel : Nat) (s : Sync σ) : Option (List PathUpdate × Option Error × Sync σ) :=
  match runLoop F fuel s [] with
  | none => none
  | some (updates, s1) => some (updates, s1.Err, s1)

/-! ## A reference destination

An in-memory POSIX-like model of the `afero.Fs` collaborator (spec §6, §4.9), used to
run the engine on concrete inputs and to state what a run leaves on the destination.

* Directory entries map a key (the cleaned elements of a path, `[]` for the root) to
  an inode number; attributes live in the inode, so hard links share them.
* Creating or removing an entry stamps the parent directory's mtime with the clock,
  which then advances.
* Paths are looked up literally: symlinks are followed only by `stat`, for the last
  element.
* A call that fails leaves the destination as it was.
-/

/-- A directory-entry key: the cleaned elements of a path. -/
abbrev Key := List (List Char)

/-- The key a name denotes. -/
def keyOf (name : String) : Key := (cleanSegs false [] (splitSlash name.data)).reverse

/-- The name the walk reports for a key. -/
def nameOf (k : Key) : String := if k = [] then "." else String.mk (joinSlash k)

structure Inode where
  mode : Nat
  uid : Int
  gid : Int
  mtime : Int
  content : String
  target : String
deriving DecidableEq, Repr

structure RefFs where
  ino : Key → Option Nat
  node : Nat → Inode
  known : List Key
  clock : Int
  nextIno : Nat
  chownClearsSetgid : Bool

namespace RefFs

/-- The permission, setuid, setgid and sticky bits: what `chmod` can change. -/
def chmodMask : Nat := ModePerm ||| ModeSetuid ||| ModeSetgid ||| ModeSticky

/-- An empty destination: only the root directory. -/
def init : RefFs where
  ino := fun k => if k = [] then some 0 else none
  node := fun _ => { mode := 0o755 ||| ModeDir, uid := 0, gid := 0, mtime := 0, content := "", target := "" }
  known := [[]]
  clock := 1
  nextIno := 1
  chownClearsSetgid := false

def isDirNode (n : Inode) : Bool := modeTypeOf n.mode = ModeDir

def infoOf (i : Nat) (n : Inode) : FileInfo :=
  { size := n.content.length, mode := n.mode, modTime := n.mtime, uid := n.uid, gid := n.gid,
    ino := i }

/-- Set the inode behind a key, when the key exists. -/
def setNode (fs : RefFs) (i : Nat) (n : Inode) : RefFs :=
  { fs with node := fun j => if j = i then n else fs.node j }

/-- Stamp the directory holding `k` with the clock. -/
def touchParent (fs : RefFs) (k : Key) : RefFs :=
  match fs.ino k.dropLast with
  | some pi => fs.setNode pi { fs.node pi with mtime := fs.clock }
  | none => fs

def tick (fs : RefFs) : RefFs := { fs with clock := fs.clock + 1 }

/-- Why an entry cannot be created at `k`, if it cannot: it exists, or its parent is
missing or is not a directory. -/
def createBlocked (fs : RefFs) (k : Key) : Option Error :=
  match fs.ino k with
  | some _ => some (.fault "file exists")
  | none =>
    match fs.ino k.dropLast with
    | none => some .notExist
    | some pi => if isDirNode (fs.node pi) then none else some (.fault "not a directory")

/-- Add a new entry `k` with a fresh inode `n`. -/
def addEntry (fs : RefFs) (k : Key) (n : Inode) : RefFs :=
  let fs1 : RefFs :=
    { fs with ino := fun q => if q = k then some fs.nextIno else fs.ino q,
              node := fun j => if j = fs.nextIno then n else fs.node j,
              known := k :: fs.known, nextIno := fs.nextIno + 1 }
  (fs1.touchParent k).tick

def lstat (fs : RefFs) (name : String) : Except Error FileInfo :=
  match fs.ino (keyOf name) with
  | none => .error .notExist
  | some i => .ok (infoOf i (fs.node i))

/-- Follow the symlinks at the last element of `k`, at most `fuel` times. -/
def resolve (fs : RefFs) : Nat → Key → Option Nat
  | 0, _ => none
  | fuel + 1, k =>
    match fs.ino k with
    | none => none
    | some i =>
      if modeTypeOf (fs.node i).mode = ModeSymlink then
        let t := (fs.node i).target
        if t.data.head? = some '/' then resolve fs fuel (keyOf t)
        else resolve fs fuel (keyOf (String.mk (joinSlash k.dropLast ++ '/' :: t.data)))
      else some i

def stat (fs : RefFs) (name : String) : Except Error FileInfo :=
  match fs.resolve 8 (keyOf name) with
  | none => .error .notExist
  | some i => .ok (infoOf i (fs.node i))

def readlink (fs : RefFs) (name : String) : Except Error String :=
  match fs.ino (keyOf name) with
  | none => .error .notExist
  | some i =>
    if modeTypeOf (fs.node i).mode = ModeSymlink then .ok (fs.node i).target
    else .error (.fault "invalid argument")

def walk (fs : RefFs) : Except Error (List String) :=
  .ok ((fs.known.filter (fun k => (fs.ino k).isSome)).map nameOf)

def mkdir (fs : RefFs) (name : String) (perm : Nat) : Option Error × RefFs :=
  let k := keyOf name
  match fs.createBlocked k with
  | some e => (some e, fs)
  | none =>
    (none, fs.addEntry k
      { mode := (perm &&& chmodMask) ||| ModeDir, uid := 0, gid := 0, mtime := fs.clock,
        content := "", target := "" })

/-- Go `afero.WriteReader`: create or truncate the file and copy the body.  Missing
parent directories are not created (afero would `MkdirAll` them): the engine never
writes before an lstat of the parent has succeeded. -/
def writeReader (fs : RefFs) (name : String) (body : String) : Option Error × RefFs :=
  let k := keyOf name
  match fs.ino k with
  | some i =>
    if modeIsRegular (fs.node i).mode then
      (none, (fs.setNode i { fs.node i with content := body, mtime := fs.clock }).tick)
    else (some (.fault "not a regular file"), fs)
  | none =>
    match fs.createBlocked k with
    | some e => (some e, fs)
    | none =>
      (none, fs.addEntry k
        { mode := 0o666, uid := 0, gid := 0, mtime := fs.clock, content := body, target := "" })

/-- Drop the entries for which `gone` holds, stamp the parent of `k`. -/
def dropEntries (fs : RefFs) (k : Key) (gone : Key → Bool) : RefFs :=
  let fs1 : RefFs := { fs with ino := fun q => if gone q then none else fs.ino q }
  (fs1.touchParent k).tick

def remove (fs : RefFs) (name : String) : Option Error × RefFs :=
  let k := keyOf name
  match fs.ino k with
  | none => (some .notExist, fs)
  | some _ =>
    if k = [] then (some (.fault "invalid argument"), fs)
    else if fs.known.any (fun q => q ≠ k && k.isPrefixOf q && (fs.ino q).isSome) then
      (some (.fault "directory not empty"), fs)
    else (none, fs.dropEntries k (fun q => q = k))

def removeAll (fs : RefFs) (name : String) : Option Error × RefFs :=
  let k := keyOf name
  if k = [] then (some (.fault "invalid argument"), fs)
  else
    match fs.ino k with
    | none => (none, fs)
    | some _ => (none, fs.dropEntries k (fun q => k.isPrefixOf q))

def chmod (fs : RefFs) (name : String) (mode : Nat) : Option Error × RefFs :=
  match fs.ino (keyOf name) with
  | none => (some .notExist, fs)
  | some i =>
    (none, fs.setNode i
      { fs.node i with mode := ((fs.node i).mode &&& ModeType) ||| (mode &&& chmodMask) })

def chown (fs : RefFs) (name : String) (uid gid : Int) : Option Error × RefFs :=
  match fs.ino (keyOf name) with
  | none => (some .notExist, fs)
  | some i =>
    let n := fs.node i
    let mode :=
      if fs.chownClearsSetgid ∧ ¬ isDirNode n then
        n.mode ^^^ (n.mode &&& (ModeSetuid ||| ModeSetgid))
      else n.mode
    (none, fs.setNode i { n with uid := uid, gid := gid, mode := mode })

def chtimes (fs : RefFs) (name : String) (_atime mtime : Int) : Option Error × RefFs :=
  match fs.ino (keyOf name) with
  | none => (some .notExist, fs)
  | some i => (none, fs.setNode i { fs.node i with mtime := mtime })

def symlink (fs : RefFs) (target name : String) : Option Error × RefFs :=
  let k := keyOf name
  match fs.createBlocked k with
  | some e => (some e, fs)
  | none =>
    (none, fs.addEntry k
      { mode := 0o777 ||| ModeSymlink, uid := 0, gid := 0, mtime := fs.clock, content := "",
        target := target })

def link (fs : RefFs) (oldname newname : String) : Option Error × RefFs :=
  let ko := keyOf oldname
  let kn := keyOf newname
  match fs.ino ko with
  | none => (some .notExist, fs)
  | some i =>
    if isDirNode (fs.node i) then (some (.fault "operation not permitted"), fs)
    else
      match fs.createBlocked kn with
      | some e => (some e, fs)
      | none =>
        let fs1 : RefFs :=
          { fs with ino := fun q => if q = kn then some i else fs.ino q, known := kn :: fs.known }
        (none, (fs1.touchParent kn).tick)

/-- The reference destination as a filesystem value with every optional interface. -/
def asFs : Fs RefFs where
  hasLstater := true
  hasSymlinkCreate := true
  hasLinkReader := true
  hasLchowner := true
  hasHardLinker := true
  infoHasOwner := true
  infoHasIno := true
  stat := stat
  lstat := lstat
  readlink := readlink
  walk := walk
  mkdir := mkdir
  writeReader := writeReader
  remove := remove
  removeAll := removeAll
  chmod := chmod
  chown := chown
  lchown := chown
  chtimes := chtimes
  symlink := symlink
  link := link

end RefFs

/-! ## Concrete inputs -/

deriving instance DecidableEq for Except

/-- The mtime used by the tests: 2025-01-01 00:00:00 UTC, in seconds. -/
def T2025 : Int := 1735689600

/-- A regular-file entry as `newTar` of the tests builds it (`Size` is the length of
the body). -/
def regEntry (name body : String) (mode : Int) (mtime : Int) : TarEntry :=
  { hdr := { typeflag := TypeReg, name := name, linkname := "", size := body.length,
             mode := mode, uid := 0, gid := 0, modTime := mtime },
    body := body }

def dirEntry (name : String) (mode : Int) (mtime : Int) : TarEntry :=
  { hdr := { typeflag := TypeDir, name := name, linkname := "", size := 0, mode := mode,
             uid := 0, gid := 0, modTime := mtime },
    body := "" }

def symlinkEntry (name target : String) (mtime : Int) : TarEntry :=
  { hdr := { typeflag := TypeSymlink, name := name, linkname := target, size := 0,
             mode := 0o777, uid := 0, gid := 0, modTime := mtime },
    body := "" }

def linkEntry (name target : String) (mode : Int) (mtime : Int) : TarEntry :=
  { hdr := { typeflag := TypeLink, name := name, linkname := target, size := 0, mode := mode,
             uid := 0, gid := 0, modTime := mtime },
    body := "" }

/-- Build a destination: apply the operations in order, ignoring their errors. -/
def RefFs.build (ops : List (RefFs → Option Error × RefFs)) : RefFs :=
  ops.foldl (fun fs op => (op fs).2) RefFs.init

/-- Go `afero.WriteFile(fs, name, body, perm)` followed by `Chtimes(name, t, t)`. -/
def RefFs.putFile (name body : String) (perm : Nat) (t : Int) : List (RefFs → Option Error × RefFs) :=
  [fun fs => fs.writeReader name body, fun fs => fs.chmod name perm,
   fun fs => fs.chtimes name t t]

/-- What a run returns: the updates and the error. -/
def runResult (F : Fs σ) (fs : σ) (tar : List TarEntry) (opts : List Opt) :
    Option (List PathUpdate × Option Error) :=
  (Run F 64 (New F fs ⟨tar, none⟩ opts)).map (fun r => (r.1, r.2.1))

/-- The destination a run leaves. -/
def runFs (F : Fs σ) (fs : σ) (tar : List TarEntry) (opts : List Opt) : Option σ :=
  (Run F 64 (New F fs ⟨tar, none⟩ opts)).map (fun r => r.2.2.fs)

/-- The trace a run leaves. -/
def runLog (F : Fs σ) (fs : σ) (tar : List TarEntry) (opts : List Opt) : Option (List Call) :=
  (Run F 64 (New F fs ⟨tar, none⟩ opts)).map (fun r => r.2.2.log)

/-- Disk of the hard-link scenario: `a` with a second name `l`. -/
def diskLinked : RefFs :=
  RefFs.build (RefFs.putFile "a" "some text" 0o777 T2025 ++ [fun fs => fs.link "a" "l"])

/-- Disk with one symlink `l -> t`. -/
def diskSymlink : RefFs :=
  RefFs.build [fun fs => fs.symlink "t" "l", fun fs => fs.chtimes "l" T2025 T2025]

/-- Disk with one regular file `test.txt`. -/
def diskFile : RefFs := RefFs.build (RefFs.putFile "test.txt" "some text" 0o777 T2025)

/-- Disk with a directory `test.txt`. -/
def diskDir : RefFs :=
  RefFs.build [fun fs => fs.mkdir "test.txt" 0o777, fun fs => fs.chtimes "test.txt" T2025 T2025]

/-- A destination whose `Lstat` fails on `locked` with an error that is not
not-exists. -/
def lockedFs : Fs RefFs :=
  { RefFs.asFs with
    lstat := fun fs name =>
      if name = "locked" then .error (.fault "permission denied") else fs.lstat name }

def diskLocked : RefFs := RefFs.build (RefFs.putFile "locked" "x" 0o600 T2025)

/-- The state in which a reconciler is run on a destination, outside a run. -/
def Sync.at (fs : σ) (o : Options) : Sync σ := { fs := fs, tarReader := ⟨[], none⟩, opts := o }

def allOn : Options := { withSymlinks := true, withHardLinks := true, withOwnership := true }

/-- The metadata of `test.txt` on `diskFile`. -/
def fileInfoOnDisk : FileInfo :=
  { size := 9, mode := 0o777, modTime := T2025, uid := 0, gid := 0, ino := 1 }

/-- The metadata of the directory `test.txt` on `diskDir`. -/
def dirInfoOnDisk : FileInfo :=
  { size := 0, mode := 0o777 ||| ModeDir, modTime := T2025, uid := 0, gid := 0, ino := 1 }

/-- Disk with a regular file `a`. -/
def diskOld : RefFs := RefFs.build (RefFs.putFile "a" "old" 0o777 5)

/-- Disk with a symlink `a -> x`. -/
def diskSymA : RefFs :=
  RefFs.build [fun fs => fs.symlink "x" "a", fun fs => fs.chtimes "a" T2025 T2025]

/-- Disk with a directory `etc` of mtime 5. -/
def diskEtc : RefFs :=
  RefFs.build [fun fs => fs.mkdir "etc" 0o755, fun fs => fs.chtimes "etc" 5 5]

/-- Disk of `Dir/PreserveModTime`: the directory `etc` (mtime `T2025`) holding the file
`todelete`. -/
def diskEtcFile : RefFs :=
  RefFs.build [fun fs => fs.mkdir "etc" 0o755, fun fs => fs.writeReader "etc/todelete" "x",
    fun fs => fs.chtimes "etc" T2025 T2025]

/-! ## Primitive actions and reachable states -/


/-- The calls that create or remove the entry at `path`. -/
def Call.isStructuralAt (path : String) : Call → Prop
  | .mkdir name _ | .writeReader name _ | .remove name | .removeAll name | .symlink _ name
  | .link _ name => name = path
  | _ => False

/-- The calls that change an attribute of the entry at `path`. -/
def Call.isAttrAt (path : String) : Call → Prop
  | .chmod name _ | .chown name _ _ | .lchown name _ _ | .chtimes name _ _ => name = path
  | _ => False

/-- What a primitive action does with the path it works on: hold its parent, create or
remove it, change an attribute of it, make a hard link to it. -/
inductive StepKind where
  | hold
  | structural
  | attr
  | target
deriving DecidableEq, Repr

/-- One primitive action of the engine; `Q k` holds of the paths it may work on in the
way `k`.
* `silent`: neither the destination, nor the held base directory, nor the trace change;
* `read`: a call that does not change the destination is recorded;
* `restore`, `restoreFailed`: the Preserver sets the held directory's mtime back, and
  releases it when the call succeeded;
* `snapshot`: the Preserver, holding nothing, holds the parent of `path` with the mtime
  it reads there;
* `structural`: the entry at `path` is created or removed while its parent is held (a
  hard link, to a target that `Q .target` allows);
* `attr`: an attribute of the entry at `path` is changed. -/
inductive Step (F : Fs σ) (Q : StepKind → String → Prop) : Sync σ → Sync σ → Prop
  | silent {s s' : Sync σ} (hfs : s'.fs = s.fs) (hp : s'.baseDirPath = s.baseDirPath)
      (hm : s'.baseDirModTime = s.baseDirModTime) (hl : s'.log = s.log) : Step F Q s s'
  | read {s : Sync σ} (c : Call) (hc : c.isMutation = false) : Step F Q s (s.logCall c)
  | restoreFailed {s : Sync σ} (h : s.baseDirPath ≠ "")
      (hr : (s.call F (.chtimes s.baseDirPath s.baseDirModTime s.baseDirModTime)).1 ≠ none) :
      Step F Q s (s.call F (.chtimes s.baseDirPath s.baseDirModTime s.baseDirModTime)).2
  | restore {s : Sync σ} (h : s.baseDirPath ≠ "")
      (hr : (s.call F (.chtimes s.baseDirPath s.baseDirModTime s.baseDirModTime)).1 = none) :
      Step F Q s
        { (s.call F (.chtimes s.baseDirPath s.baseDirModTime s.baseDirModTime)).2 with
          baseDirPath := "" }
  | snapshot {s : Sync σ} (path : String) (hQ : Q .hold path) (fi : FileInfo) (h : s.baseDirPath = "")
      (hD : filepathDir path ≠ "") (hfi : F.lstatOrStat s.fs (filepathDir path) = .ok fi) :
      Step F Q s { s with baseDirPath := filepathDir path, baseDirModTime := fi.modTime }
  | structural {s : Sync σ} (path : String) (hQ : Q .structural path) (c : Call)
      (hc : c.isStructuralAt path) (hl : ∀ old, c = .link old path → Q .target old)
      (h : s.baseDirPath = filepathDir path) : Step F Q s (s.call F c).2
  | attr {s : Sync σ} (path : String) (hQ : Q .attr path) (c : Call) (hc : c.isAttrAt path) :
      Step F Q s (s.call F c).2

/-- The states the engine can reach from `s` by actions that `Q` allows. -/
def Reach (F : Fs σ) (Q : StepKind → String → Prop) : Sync σ → Sync σ → Prop :=
  Relation.ReflTransGen (Step F Q)

/-- What the marks on the update leave alone. -/
def MarkOnly (mark : Sync σ → Sync σ) : Prop :=
  ∀ s : Sync σ, (mark s).fs = s.fs ∧ (mark s).baseDirPath = s.baseDirPath ∧
    (mark s).baseDirModTime = s.baseDirModTime ∧ (mark s).log = s.log


/-! ## Traces and frames -/

/-- The calls recorded in `s2` after those of `s1`. -/
def newCalls (s1 s2 : Sync σ) : List Call := s2.log.drop s1.log.length

/-- `s2` continues `s1`: its trace is the trace of `s1` followed by calls that all
satisfy `P`. -/
def Extends (P : Call → Prop) (s1 s2 : Sync σ) : Prop :=
  ∃ calls, s2.log = s1.log ++ calls ∧ ∀ c ∈ calls, P c

/-- The calls of the Metadata Syncer: reads of the path, the ownership call, `chmod` and
`chtimes` on the path with the header's values. -/
def isSyncStatCall (F : Fs σ) (hdr : Header) (c : Call) : Prop :=
  c = F.lstatCall (normalizePath hdr.name) ∨ c = ownerCall hdr ∨
    c = .chmod (normalizePath hdr.name) hdr.fileMode ∨
    c = .chtimes (normalizePath hdr.name) hdr.modTime hdr.modTime

/-- Everything in the state but the destination, the trace and the held base
directory. -/
def Sync.rest (s : Sync σ) :
    TarReader × Options × Option (List String) × Option (List String) × Option Error × PathUpdate :=
  (s.tarReader, s.opts, s.pathMap, s.deletePaths, s.err, s.upd)

/-- What the Metadata Syncer leaves alone besides the destination: the control state
and the path, `Added`, `Deleted` and `Link` of the update. -/
def Sync.stable (s : Sync σ) :
    TarReader × Options × Option (List String) × Option (List String) × Option Error ×
      String × Bool × Bool × Option String :=
  (s.tarReader, s.opts, s.pathMap, s.deletePaths, s.err, s.upd.Path, s.upd.update.Added,
    s.upd.update.Deleted, s.upd.update.Link)

/-! ## Replacing an entry of another kind -/

/-- The call that removes what is in the way of a tar entry: `Remove` for a directory
entry, `RemoveAll` for the other kinds. -/
def removeCallOf (hdr : Header) : Call :=
  if hdr.typeflag = TypeDir then .remove (normalizePath hdr.name)
  else .removeAll (normalizePath hdr.name)

/-- The call that creates a tar entry on the destination. -/
def createCallOf (ent : TarEntry) : Call :=
  if ent.hdr.typeflag = TypeReg then .writeReader (normalizePath ent.hdr.name) ent.body
  else if ent.hdr.typeflag = TypeDir then
    .mkdir (normalizePath ent.hdr.name) (modePermOf ent.hdr.fileMode)
  else if ent.hdr.typeflag = TypeSymlink then
    .symlink ent.hdr.linkname (normalizePath ent.hdr.name)
  else .link (normalizePath ent.hdr.linkname) (normalizePath ent.hdr.name)

/-- The path of a tar entry holds an entry of another kind, as the reconcilers test it:
for a regular-file, directory or symlink entry the file-mode type on disk differs; for a
hard-link entry the inode on disk is not the inode of the link target. -/
def OtherKindOnDisk (F : Fs σ) (ent : TarEntry) (s : Sync σ) : Prop :=
  (ent.hdr.typeflag = TypeReg ∧ ∃ fi, F.lstatOrStat s.fs (normalizePath ent.hdr.name) = .ok fi ∧
    modeIsRegular fi.mode = false) ∨
  (ent.hdr.typeflag = TypeDir ∧ ∃ fi, F.lstatOrStat s.fs (normalizePath ent.hdr.name) = .ok fi ∧
    modeTypeOf fi.mode ≠ ModeDir) ∨
  (ent.hdr.typeflag = TypeSymlink ∧ s.opts.withSymlinks = true ∧
    ∃ fi, F.lstat s.fs (normalizePath ent.hdr.name) = .ok fi ∧
      modeTypeOf fi.mode ≠ ModeSymlink) ∨
  (ent.hdr.typeflag = TypeLink ∧ s.opts.withHardLinks = true ∧
    ∃ fi ti, F.lstatOrStat s.fs (normalizePath ent.hdr.name) = .ok fi ∧
      F.lstatOrStat s.fs (normalizePath ent.hdr.linkname) = .ok ti ∧ fi.ino ≠ ti.ino)

/-- `a` is recorded before `b` in `l`. -/
def CalledBefore (a b : Call) (l : List Call) : Prop :=
  ∃ x y z, l = x ++ a :: (y ++ b :: z)

/-! ## A destination that already matches the tar -/

/-- The attributes the Metadata Syncer compares agree: uid and gid (with ownership
enabled), mode (not for a symlink entry) and mtime. -/
def AttrsMatch (o : Options) (hdr : Header) (fi : FileInfo) : Prop :=
  (o.withOwnership = true → hdr.uid = fi.uid ∧ hdr.gid = fi.gid) ∧
  (hdr.typeflag ≠ TypeSymlink → hdr.fileMode = fi.mode) ∧
  hdr.modTime = fi.modTime

/-- The destination already holds what a tar entry describes, as the reconcilers test
it. -/
def EntryMatches (F : Fs σ) (fs : σ) (o : Options) (ent : TarEntry) : Prop :=
  (ent.hdr.typeflag = TypeReg ∧ ∃ fi, F.lstatOrStat fs (normalizePath ent.hdr.name) = .ok fi ∧
    modeIsRegular fi.mode = true ∧ ent.hdr.size = fi.size ∧ AttrsMatch o ent.hdr fi) ∨
  (ent.hdr.typeflag = TypeDir ∧ ∃ fi, F.lstatOrStat fs (normalizePath ent.hdr.name) = .ok fi ∧
    modeTypeOf fi.mode = ModeDir ∧ AttrsMatch o ent.hdr fi) ∨
  (ent.hdr.typeflag = TypeSymlink ∧ o.withSymlinks = true ∧
    ∃ fi, F.lstat fs (normalizePath ent.hdr.name) = .ok fi ∧ modeTypeOf fi.mode = ModeSymlink ∧
      F.readlink fs (normalizePath ent.hdr.name) = .ok ent.hdr.linkname ∧
      AttrsMatch o ent.hdr fi) ∨
  (ent.hdr.typeflag = TypeLink ∧ o.withHardLinks = true ∧
    ∃ fi ti, F.lstatOrStat fs (normalizePath ent.hdr.name) = .ok fi ∧
      F.lstatOrStat fs (normalizePath ent.hdr.linkname) = .ok ti ∧ fi.ino = ti.ino ∧
      AttrsMatch o ent.hdr fi)

/-- `s2` is `s1` after calls that only read: the destination, the held base directory
and the rest of the state are the same. -/
def Quiet (s1 s2 : Sync σ) : Prop :=
  s2.fs = s1.fs ∧ s2.baseDirPath = s1.baseDirPath ∧ s2.baseDirModTime = s1.baseDirModTime ∧
    s2.rest = s1.rest ∧ Extends (fun c => c.isMutation = false) s1 s2

/-! ## Whole runs -/

/-- The control state of the iterator: what no reconciler touches. -/
def Sync.ctl (s : Sync σ) :
    TarReader × Options × Option (List String) × Option (List String) × Option Error :=
  (s.tarReader, s.opts, s.pathMap, s.deletePaths, s.err)

/-- The tar entries `Next` never skips: regular files, directories, and symlinks and
hard links whose option is enabled. -/
def AlwaysSynced (o : Options) (ent : TarEntry) : Prop :=
  ent.hdr.typeflag = TypeReg ∨ ent.hdr.typeflag = TypeDir ∨
    (ent.hdr.typeflag = TypeSymlink ∧ o.withSymlinks = true) ∨
    (ent.hdr.typeflag = TypeLink ∧ o.withHardLinks = true)

instance decAlwaysSynced (o : Options) (ent : TarEntry) : Decidable (AlwaysSynced o ent) := by
  unfold AlwaysSynced; infer_instance

/-- Every path of the inventory `m` that `P` protects is named by an entry the reader
still holds and `Next` will not skip. -/
def Guarded (P : String → Prop) (o : Options) (pending : List TarEntry) (m : List String) :
    Prop :=
  ∀ p ∈ m, p ≠ "." → P p → ∃ ent ∈ pending, AlwaysSynced o ent ∧ normalizePath ent.hdr.name = p

/-- The deletion phase will not touch a path that `P` protects: before the walk, the
walked paths are guarded; after it, the inventory is; and the deletion queue holds no
protected path. -/
def Inventory (F : Fs σ) (P : String → Prop) (s : Sync σ) : Prop :=
  (s.pathMap = none → s.deletePaths = none ∧
    ∀ paths, F.walk s.fs = .ok paths →
      Guarded P s.opts s.tarReader.entries (paths.map normalizePath)) ∧
  (∀ m, s.pathMap = some m → Guarded P s.opts s.tarReader.entries m) ∧
  (∀ l, s.deletePaths = some l → ∀ d ∈ l, d ≠ "." → ¬ P d)

/-- Only attribute changes are allowed. -/
def QAttr : StepKind → String → Prop := fun k _ => k = .attr

/-- The path `p` names `x` or a directory above `x`. -/
def Covers (p x : String) : Prop := (keyOf p).isPrefixOf (keyOf x) = true

instance decCovers (p x : String) : Decidable (Covers p x) := by
  unfold Covers; infer_instance

/-- Two names of the reference destination are on one inode. -/
def SameInode (fs : RefFs) (l a : String) : Prop :=
  ∃ i, fs.ino (keyOf l) = some i ∧ fs.ino (keyOf a) = some i

/-- Steps that neither create nor remove a path that `P` protects. -/
def Spares (P : String → Prop) : StepKind → String → Prop := fun k p => k ≠ .target → ¬ P p

instance decGuarded (P : String → Prop) [DecidablePred P] (o : Options)
    (pending : List TarEntry) (m : List String) : Decidable (Guarded P o pending m) := by
  unfold Guarded; infer_instance

/-- The state a run leaves (the state it started from when the fuel ran out). -/
def finalState (F : Fs σ) (fuel : Nat) (s : Sync σ) : Sync σ :=
  ((Run F fuel s).map (fun r => r.2.2)).getD s

/-- The updates a run returns. -/
def runUpdates (F : Fs σ) (fuel : Nat) (s : Sync σ) : List PathUpdate :=
  ((Run F fuel s).map (fun r => r.1)).getD []

/-! ## Clean paths -/

/-- A path element that `filepath.Clean` keeps. -/
def IsSeg (s : List Char) : Prop := s ≠ [] ∧ s ≠ ['.'] ∧ '/' ∉ s

/-- The output of the element loop of `filepath.Clean`, last element first: kept
elements, with `..` only at the bottom. -/
def GoodRev : List (List Char) → Prop
  | [] => True
  | top :: below => IsSeg top ∧ (top = ['.', '.'] → ∀ s ∈ below, s = ['.', '.']) ∧ GoodRev below

/-! ## Well-formed destinations -/

/-- Well-formed destinations: inode numbers in use are below the next free one, and a
directory has one name. -/
def RefFs.WF (fs : RefFs) : Prop :=
  (∀ k i, fs.ino k = some i → i < fs.nextIno) ∧
  (∀ k k' i, fs.ino k = some i → fs.ino k' = some i → RefFs.isDirNode (fs.node i) = true → k = k')

/-! ## Directory mtimes -/

/-- The key of the parent of `p` is the key of `p` without its last element (true of
every normalized path). -/
def Normal (p : String) : Prop := keyOf (filepathDir p) = (keyOf p).dropLast

instance decNormal (p : String) : Decidable (Normal p) := by
  unfold Normal; infer_instance

/-- The directory `D` is there with mtime `T`, or is held by the Preserver with the
mtime `T` to restore. -/
def DirKept (D : String) (T : Int) (s : Sync RefFs) : Prop :=
  RefFs.WF s.fs ∧ ∃ i, s.fs.ino (keyOf D) = some i ∧ RefFs.isDirNode (s.fs.node i) = true ∧
    (if s.baseDirPath ≠ "" ∧ keyOf s.baseDirPath = keyOf D then s.baseDirModTime = T
     else (s.fs.node i).mtime = T)

/-- The Preserver does not hold `D`. -/
def DirFree (D : String) (s : Sync RefFs) : Prop :=
  RefFs.WF s.fs ∧ ¬ (s.baseDirPath ≠ "" ∧ keyOf s.baseDirPath = keyOf D)

/-- Steps that do not hold the parent `D` of a path. -/
def NotInside (D : String) : StepKind → String → Prop :=
  fun k p => k ≠ .target → keyOf (filepathDir p) ≠ keyOf D

/-- Steps on normalized paths other than `D` and the directories above it. -/
def Outside (D : String) : StepKind → String → Prop :=
  fun k p => k ≠ .target → ¬ Covers p D ∧ Normal p

/-- The directory `D` is there, on inode `i`. -/
def Sits (D : String) (i : Nat) (s : Sync RefFs) : Prop :=
  RefFs.WF s.fs ∧ s.fs.ino (keyOf D) = some i ∧ RefFs.isDirNode (s.fs.node i) = true

/-- Every step is allowed. -/
def AnyStep : StepKind → String → Prop := fun _ _ => True

/-! ## Tidy destinations and kept entries -/

/-- No inode has two names: the destination holds no hard links. -/
def RefFs.NoShare (fs : RefFs) : Prop :=
  ∀ k k' i, fs.ino k = some i → fs.ino k' = some i → k = k'

/-- Tidy destinations: inode numbers in use are below the next free one, no inode has
two names, every name in use is recorded for the walk, and is a clean list of path
elements. -/
def RefFs.Tidy (fs : RefFs) : Prop :=
  (∀ k i, fs.ino k = some i → i < fs.nextIno) ∧ fs.NoShare ∧
  (∀ k i, fs.ino k = some i → k ∈ fs.known) ∧
  (∀ k i, fs.ino k = some i → GoodRev k.reverse)

/-- Steps on normalized paths other than `E` and the directories above it, none of
them a hard link. -/
def Apart (E : String) : StepKind → String → Prop :=
  fun k p => k ≠ .target ∧ ¬ Covers p E ∧ Normal p

/-- Steps that do not hold `E`, none of them a hard link. -/
def Before (E : String) : StepKind → String → Prop :=
  fun k p => k ≠ .target ∧ keyOf (filepathDir p) ≠ keyOf E

/-- A property of inodes that does not read the mtime. -/
def MtimeBlind (N : Inode → Prop) : Prop := ∀ n t, N n → N { n with mtime := t }

/-- The entry `E` is there, its inode satisfies `N`, and its mtime is `T` or will be
once the Preserver restores it. -/
def Kept (N : Inode → Prop) (E : String) (T : Int) (s : Sync RefFs) : Prop :=
  RefFs.Tidy s.fs ∧ ∃ i, s.fs.ino (keyOf E) = some i ∧ N (s.fs.node i) ∧
    (if s.baseDirPath ≠ "" ∧ keyOf s.baseDirPath = keyOf E then s.baseDirModTime = T
     else (s.fs.node i).mtime = T)

/-- The destination is tidy and the Preserver does not hold `E`. -/
def Free (E : String) (s : Sync RefFs) : Prop :=
  RefFs.Tidy s.fs ∧ ¬ (s.baseDirPath ≠ "" ∧ keyOf s.baseDirPath = keyOf E)

/-- Two inodes with the same content, link target and file type. -/
def SameBody (n n' : Inode) : Prop :=
  n'.content = n.content ∧ n'.target = n.target ∧ modeTypeOf n'.mode = modeTypeOf n.mode

/-- The header's mode is one `chmod` can give the inode: its type bits are those of
the inode and its other bits are permission, setuid, setgid or sticky bits. -/
def ModeFits (hdr : Header) (n : Inode) : Prop :=
  hdr.fileMode = modeTypeOf n.mode ||| (hdr.fileMode &&& RefFs.chmodMask)

/-- The tidy destination holds `E` on inode `i`. -/
def Placed (E : String) (i : Nat) (s : Sync RefFs) : Prop :=
  RefFs.Tidy s.fs ∧ s.fs.ino (keyOf E) = some i

/-- What a successful `syncStat` leaves of an entry that is there: the same content,
target and type, the header's owner (with ownership on), mode (when `chmod` can give it;
not for a symlink entry) and mtime; the Preserver holds what it held. -/
def StatDone (hdr : Header) (i : Nat) (s s' : Sync RefFs) : Prop :=
  Placed (normalizePath hdr.name) i s' ∧ SameBody (s.fs.node i) (s'.fs.node i) ∧
    (s.opts.withOwnership = true →
      hdr.uid = (s'.fs.node i).uid ∧ hdr.gid = (s'.fs.node i).gid) ∧
    (hdr.typeflag ≠ TypeSymlink → ModeFits hdr (s.fs.node i) →
      (s'.fs.node i).mode = hdr.fileMode) ∧
    (s'.fs.node i).mtime = hdr.modTime ∧
    s'.baseDirPath = s.baseDirPath ∧ s'.baseDirModTime = s.baseDirModTime ∧ s'.opts = s.opts

/-- Every step but a hard link is allowed. -/
def NoLink : StepKind → String → Prop := fun k _ => k ≠ .target

/-- The inode of a tar entry is what the entry describes, mtime apart: the kind (with the
size of a regular file and the target of a symlink), the owner (with ownership on) and
the mode (not for a symlink). -/
def NodeFits (o : Options) (ent : TarEntry) (n : Inode) : Prop :=
  ((ent.hdr.typeflag = TypeReg ∧ modeIsRegular n.mode = true ∧
      ent.hdr.size = n.content.length) ∨
    (ent.hdr.typeflag = TypeDir ∧ modeTypeOf n.mode = ModeDir) ∨
    (ent.hdr.typeflag = TypeSymlink ∧ modeTypeOf n.mode = ModeSymlink ∧
      n.target = ent.hdr.linkname)) ∧
  (o.withOwnership = true → ent.hdr.uid = n.uid ∧ ent.hdr.gid = n.gid) ∧
  (ent.hdr.typeflag ≠ TypeSymlink → ent.hdr.fileMode = n.mode)

/-- What the model asks of a tar header, besides its kind: a regular entry's `Size` is
the length of its body, and the mode of a regular or directory entry is one `chmod` can
give (no type bits but the directory bit of a directory entry). -/
def HeaderFits (ent : TarEntry) : Prop :=
  (ent.hdr.typeflag = TypeReg → ent.hdr.size = ent.body.length ∧
    ent.hdr.fileMode = 0 ||| (ent.hdr.fileMode &&& RefFs.chmodMask)) ∧
  (ent.hdr.typeflag = TypeDir →
    ent.hdr.fileMode = ModeDir ||| (ent.hdr.fileMode &&& RefFs.chmodMask))

instance decHeaderFits (ent : TarEntry) : Decidable (HeaderFits ent) := by
  unfold HeaderFits; infer_instance

/-- The kinds of tar entry that are reconciled on an inode of their own: regular files,
directories and symlinks. -/
def PlainKind (ent : TarEntry) : Prop :=
  ent.hdr.typeflag = TypeReg ∨ ent.hdr.typeflag = TypeDir ∨ ent.hdr.typeflag = TypeSymlink

instance decPlainKind (ent : TarEntry) : Decidable (PlainKind ent) := by
  unfold PlainKind; infer_instance

/-- Steps at the path `E`, none of them a hard link. -/
def AtPath (E : String) : StepKind → String → Prop := fun k p => k ≠ .target ∧ p = E

/-- Some entry of the tar names the key. -/
def NamedBy (tar : List TarEntry) (k : Key) : Prop :=
  ∃ e ∈ tar, keyOf (normalizePath e.hdr.name) = k

/-- The name of the key is in the inventory, or in the deletion queue once there is
one. -/
def Queued (s : Sync σ) (k : Key) : Prop :=
  match s.deletePaths with
  | some l => normalizePath (nameOf k) ∈ l
  | none => ∃ m, s.pathMap = some m ∧ normalizePath (nameOf k) ∈ m

/-- The root of the destination is a directory. -/
def RefFs.RootDir (fs : RefFs) : Prop :=
  ∃ i, fs.ino [] = some i ∧ RefFs.isDirNode (fs.node i) = true

/-- Parents first: no entry names the path of an earlier entry or a directory above
it. -/
def ParentsFirst (tar : List TarEntry) : Prop :=
  tar.Pairwise (fun a b => ¬ Covers (normalizePath b.hdr.name) (normalizePath a.hdr.name))

instance decParentsFirst (tar : List TarEntry) : Decidable (ParentsFirst tar) := by
  unfold ParentsFirst; infer_instance

/-- Every entry below the top level has its parent directory named in the tar. -/
def ParentsListed (tar : List TarEntry) : Prop :=
  ∀ e ∈ tar, (keyOf (normalizePath e.hdr.name)).dropLast = [] ∨
    ∃ e' ∈ tar, keyOf (normalizePath e'.hdr.name) = (keyOf (normalizePath e.hdr.name)).dropLast

instance decParentsListed (tar : List TarEntry) : Decidable (ParentsListed tar) := by
  unfold ParentsListed; infer_instance

/-- The quick check is sound for the entry: when its path holds a regular file with the
size and the mtime of the header, that file has the body of the entry. -/
def Quick (ent : TarEntry) (fs : RefFs) : Prop :=
  match fs.ino (keyOf (normalizePath ent.hdr.name)) with
  | none => True
  | some i => modeIsRegular (fs.node i).mode = true →
      ent.hdr.size = (fs.node i).content.length → (fs.node i).mtime = ent.hdr.modTime →
      (fs.node i).content = ent.body

instance decQuick (ent : TarEntry) (fs : RefFs) : Decidable (Quick ent fs) := by
  unfold Quick; split <;> infer_instance

/-- The inode is what the entry describes, mtime apart, and under the condition `C`
a regular file has the body of the entry. -/
def NodeHolds (C : Prop) (o : Options) (ent : TarEntry) (n : Inode) : Prop :=
  NodeFits o ent n ∧ (C → ent.hdr.typeflag = TypeReg → n.content = ent.body)

/-- Steps that neither hold `E`, nor work on it, nor on an entry directly inside it,
none of them a hard link. -/
def Aside (E : String) : StepKind → String → Prop :=
  fun k p => k ≠ .target ∧ keyOf (filepathDir p) ≠ keyOf E ∧ keyOf p ≠ keyOf E ∧
    (keyOf p).dropLast ≠ keyOf E

/-- Disk with a regular file `a` holding `SOME TEXT`, mtime `T2025`. -/
def diskUpper : RefFs := RefFs.build (RefFs.putFile "a" "SOME TEXT" 0o644 T2025)

/-- Disk with the directory `etc` (mtime `T2025`) holding an old `test.txt`, the file
`todelete` with a second name `etc/hardlink`, and a second name `spare` of `test.txt`. -/
def diskEtcLinks : RefFs :=
  RefFs.build [fun fs => fs.mkdir "etc" 0o755, fun fs => fs.writeReader "etc/test.txt" "old",
    fun fs => fs.writeReader "etc/todelete" "x",
    fun fs => fs.link "etc/todelete" "etc/hardlink", fun fs => fs.link "etc/test.txt" "spare",
    fun fs => fs.chtimes "etc" T2025 T2025]

/-- An archive of a directory with a file, a hard link to the file and a symlink. -/
def tarEtcLinks : List TarEntry :=
  [dirEntry "./etc/" 0o755 T2025, regEntry "./etc/test.txt" "some text" 0o777 T2025,
   linkEntry "./etc/hardlink" "./etc/test.txt" 0o777 T2025,
   symlinkEntry "./etc/l" "test.txt" T2025]

/-- Disk with a regular file `a` (content `old`, mtime 5) and a second name `b` of it. -/
def diskTwoNames : RefFs :=
  RefFs.build (RefFs.putFile "a" "old" 0o644 5 ++ [fun fs => fs.link "a" "b"])

/-- An archive of two regular files with bodies of one size. -/
def tarTwoBodies : List TarEntry :=
  [regEntry "./a" "one" 0o644 T2025, regEntry "./b" "two" 0o644 T2025]

/-- An archive of two regular files with one body and two modes. -/
def tarTwoModes : List TarEntry :=
  [regEntry "./a" "old" 0o644 5, regEntry "./b" "old" 0o600 5]

/-- An archive of a regular file and a hard link to it that carries another mode. -/
def tarLinkMode : List TarEntry :=
  [regEntry "./a" "body" 0o644 T2025, linkEntry "./l" "./a" 0o600 T2025]

/-- An archive that names a hard link before the regular file it links to. -/
def tarLinkFirst : List TarEntry :=
  [linkEntry "./l" "./a" 0o644 T2025, regEntry "./a" "body" 0o644 T2025]

/-- The content behind a name of the reference destination. -/
def RefFs.contentAt (fs : RefFs) (name : String) : Option String :=
  (fs.ino (keyOf name)).map (fun i => (fs.node i).content)

/-- The ownership comparison of `syncStat` (sync.go:505-507). -/
def ownerDiffers (o : Options) (hdr : Header) (fi : FileInfo) : Prop :=
  o.withOwnership = true ∧ (hdr.uid ≠ fi.uid ∨ hdr.gid ≠ fi.gid)

instance decOwnerDiffers (o : Options) (hdr : Header) (fi : FileInfo) :
    Decidable (ownerDiffers o hdr fi) := by
  unfold ownerDiffers; infer_instance

/-- The mode comparison of `syncStat` (sync.go:529). -/
def modeDiffers (hdr : Header) (fi : FileInfo) : Prop :=
  hdr.typeflag ≠ TypeSymlink ∧ hdr.fileMode ≠ fi.mode

instance decModeDiffers (hdr : Header) (fi : FileInfo) : Decidable (modeDiffers hdr fi) := by
  unfold modeDiffers; infer_instance

/-- The calls of the ownership step of `syncStat` when it has something to do. -/
def ownerPart (F : Fs σ) (hdr : Header) (fi : FileInfo) (o : Options) : List Call :=
  if ownerDiffers o hdr fi then [ownerCall hdr, F.lstatCall (normalizePath hdr.name)] else []

/-- The call of the mode step of `syncStat` when it has something to do. -/
def modePart (hdr : Header) (fi : FileInfo) : List Call :=
  if modeDiffers hdr fi then [.chmod (normalizePath hdr.name) hdr.fileMode] else []

/-- The call of the mtime step of `syncStat` when it has something to do. -/
def timePart (hdr : Header) (fi : FileInfo) : List Call :=
  if hdr.modTime ≠ fi.modTime then [.chtimes (normalizePath hdr.name) hdr.modTime hdr.modTime]
  else []

/-- The read that opens `syncStat` when the reconciler hands it no metadata. -/
def readPart (F : Fs σ) (hdr : Header) (fi : Option FileInfo) : List Call :=
  if fi = none then [F.lstatCall (normalizePath hdr.name)] else []

/-- The calls that set an owner or a mode; only the Metadata Syncer makes them. -/
def Call.isOwnerOrMode : Call → Bool
  | .chown _ _ _ | .lchown _ _ _ | .chmod _ _ => true
  | _ => false

/-- The marks a reconciler puts on the update when it creates its entry
(sync.go:330, 370-371, 431-432, 481). -/
def markOf (ent : TarEntry) (u : PathUpdate) : PathUpdate :=
  if ent.hdr.typeflag = TypeDir then
    { u with update := { u.update with Added := true,
                                        Mode := some (modePermOf ent.hdr.fileMode ||| ModeDir) } }
  else if ent.hdr.typeflag = TypeSymlink then
    { u with update := { u.update with Added := true, Link := some ent.hdr.linkname } }
  else { u with update := { u.update with Added := true } }

/-- The metadata a reconciler starts from (sync.go:304, 345, 385, 447): `Lstat` for a
symlink entry, `LstatOrStat` for the others. -/
def entryStat (F : Fs σ) (ent : TarEntry) (fs : σ) : Except Error FileInfo :=
  if ent.hdr.typeflag = TypeSymlink then F.lstat fs (normalizePath ent.hdr.name)
  else F.lstatOrStat fs (normalizePath ent.hdr.name)

/-- The destination after the calls of a trace, made in order. -/
def replay (F : Fs σ) (calls : List Call) (fs : σ) : σ :=
  calls.foldl (fun fs c => (F.exec c fs).2) fs

/-- The state `s'` continues `s` and its destination is what the calls recorded since
`s` have made of the destination of `s`. -/
def Traced (F : Fs σ) (s s' : Sync σ) : Prop :=
  ∃ calls, s'.log = s.log ++ calls ∧ s'.fs = replay F calls s.fs

/-- The state `s0` in which the Metadata Syncer starts, for a reconciler started in `s`:
no owner or mode was set on the way, and the control state is the same. -/
def Prepared (s s0 : Sync σ) : Prop :=
  Extends (fun c => c.isOwnerOrMode = false) s s0 ∧ s0.ctl = s.ctl

/-- A reconciler started in `s` has reached `s'` through a successful `syncStat`: either
the entry was there and was kept (`syncStat` gets its metadata, nothing was changed), or
it was created (the creating call was made, last before `syncStat`, on the destination
that the calls recorded so far have left; the update is marked, `syncStat` reads the
metadata itself). -/
def EndsInSyncStat (F : Fs σ) (ent : TarEntry) (s s' : Sync σ) : Prop :=
  ∃ fi0 s0, Prepared s s0 ∧
    ((∃ info, fi0 = some info ∧ entryStat F ent s.fs = .ok info ∧ s0.upd = s.upd ∧
        s0.fs = s.fs) ∨
      (fi0 = none ∧ s0.upd = markOf ent s.upd ∧ createCallOf ent ∈ newCalls s s0 ∧
        (∃ pre, newCalls s s0 = pre ++ [createCallOf ent]) ∧
        s0.fs = replay F (newCalls s s0) s.fs)) ∧
    (syncStat F ent.hdr fi0 s0).1 = none ∧ s' = (syncStat F ent.hdr fi0 s0).2

/-- The calls a symlink entry may cause: neither `chown` nor `chmod`. -/
def Call.isChownOrChmod : Call → Bool
  | .chown _ _ _ | .chmod _ _ => true
  | _ => false

/-- A regular-file entry with an owner. -/
def ownedEntry (name body : String) (mode : Int) (mtime uid gid : Int) : TarEntry :=
  { hdr := { typeflag := TypeReg, name := name, linkname := "", size := body.length,
             mode := mode, uid := uid, gid := gid, modTime := mtime },
    body := body }

/-- Disk with the file `test.txt`, mode `rwxrwxrwx` with setgid, owned by 0:0. -/
def diskSetgid : RefFs :=
  RefFs.build (RefFs.putFile "test.txt" "some text" (0o777 ||| ModeSetgid) T2025)

/-- The same disk on a filesystem whose `chown` clears setuid and setgid. -/
def diskSetgidClearing : RefFs := { diskSetgid with chownClearsSetgid := true }

/-- The header of `RegularFile/Chown/Setgid`. -/
def setgidHdr : Header := (ownedEntry "./test.txt" "some text" 0o2777 T2025 1000 1001).hdr

/-- The state in which the Metadata Syncer meets `test.txt` on the clearing
filesystem. -/
def setgidState : Sync RefFs := Sync.at diskSetgidClearing allOn

/-- The header of an entry for `test.txt` that differs from `diskFile` in the gid
only. -/
def gidHdr : Header := (ownedEntry "./test.txt" "some text" 0o777 T2025 0 1000).hdr

/-- The state in which the Metadata Syncer meets `test.txt` of `diskFile`. -/
def fileState : Sync RefFs := Sync.at diskFile allOn

/-- A symlink entry with an owner. -/
def ownedSymlinkEntry (name target : String) (mtime uid gid : Int) : TarEntry :=
  { hdr := { typeflag := TypeSymlink, name := name, linkname := target, size := 0,
             mode := 0o777, uid := uid, gid := gid, modTime := mtime },
    body := "" }

/-- The symlink `l -> t` of `diskSymlink`, owned by 1000:1000 in the tar. -/
def symEnt : TarEntry := ownedSymlinkEntry "./l" "t" T2025 1000 1000

/-- The state in which the symlink reconciler meets `diskSymlink`. -/
def symState : Sync RefFs := Sync.at diskSymlink allOn

/-- The directory entry of `Dir/Add`. -/
def etcEnt : TarEntry := dirEntry "./etc/" 0o755 T2025

/-- The state in which the directory reconciler meets an empty destination. -/
def emptyState : Sync RefFs := Sync.at RefFs.init allOn

/-- `Next` returns from its tar loop, with an update for a tar entry. -/
def yieldsFromTar (F : Fs σ) (s : Sync σ) : Prop :=
  (tarLoop F (ensurePathMap F s).2.tarReader.entries (ensurePathMap F s).2).1 = some true

instance decYieldsFromTar (F : Fs σ) (s : Sync σ) : Decidable (yieldsFromTar F s) := by
  unfold yieldsFromTar; infer_instance

/-- Strictly ascending in the byte-wise order of `sort.Strings`. -/
def Ascending (l : List String) : Prop := l.Pairwise (fun a b => strLt a.data b.data = true)

instance decAscending (l : List String) : Decidable (Ascending l) := by
  unfold Ascending; infer_instance

/-- The update `Next` yields for a deleted path (sync.go:220). -/
def deletionOf (p : String) : PathUpdate := { Path := p, update := { Deleted := true } }

/-- The path is in the inventory `m` and no reconciled entry of the tar has it. -/
def Unclaimed (o : Options) (tar : List TarEntry) (m : List String) (p : String) : Prop :=
  p ∈ m ∧ ∀ ent ∈ tar, AlwaysSynced o ent → normalizePath ent.hdr.name ≠ p

/-- Updates produced from tar entries: not marked deleted, for the path of a reconciled
entry of the tar. -/
def TarUpdates (o : Options) (tar : List TarEntry) (us : List PathUpdate) : Prop :=
  ∀ x ∈ us, x.update.Deleted = false ∧
    ∃ ent ∈ tar, AlwaysSynced o ent ∧ x.Path = normalizePath ent.hdr.name

/-- The state between two entries of the tar: the inventory is what is left of the walked
paths `m`, without repetition and without the paths of the reconciled entries read so
far. -/
def TarPhase (o : Options) (tar : List TarEntry) (m : List String) (s : Sync σ) : Prop :=
  ∃ pm done, s.pathMap = some pm ∧ s.deletePaths = none ∧ tar = done ++ s.tarReader.entries ∧
    s.opts = o ∧ pm.Nodup ∧ (∀ x ∈ pm, x ∈ m) ∧
    ∀ ent ∈ done, AlwaysSynced o ent → normalizePath ent.hdr.name ∉ pm

/-- The state of the deletion phase after the deletions `dels`: the deleted paths followed
by the queue are strictly ascending, where the head of the queue may still be the path
deleted last, which is gone from the destination. -/
def DelPhase (F : Fs σ) (o : Options) (tar : List TarEntry) (m : List String)
    (dels : List String) (s : Sync σ) : Prop :=
  ∃ q, s.deletePaths = some q ∧ s.pathMap ≠ none ∧ s.tarReader.entries = [] ∧
    (∀ x ∈ q, Unclaimed o tar m x) ∧
    (Ascending (dels ++ q) ∨
      ∃ d p rest, dels = d ++ [p] ∧ q = p :: rest ∧ Ascending (d ++ p :: rest) ∧
        lstatSkips (F.lstatOrStat s.fs p) = true)

/-- What a run has yielded so far, and the state it is in. -/
def RunPhase (F : Fs σ) (o : Options) (tar : List TarEntry) (m : List String) (fs0 : σ)
    (s : Sync σ) (us : List PathUpdate) : Prop :=
  (s.pathMap = none ∧ s.deletePaths = none ∧ s.fs = fs0 ∧ s.tarReader.entries = tar ∧
    s.opts = o ∧ us = []) ∨
  ∃ tu dels, us = tu ++ dels.map deletionOf ∧ TarUpdates o tar tu ∧
    (∀ d ∈ dels, Unclaimed o tar m d) ∧
    ((TarPhase o tar m s ∧ dels = []) ∨ DelPhase F o tar m dels s)

/-- `RegularFile/Add` of the tests, before the first `Next`: an empty destination and
the tar [regular file `./test.txt`]. -/
def addState : Sync RefFs :=
  New RefFs.asFs RefFs.init ⟨[regEntry "./test.txt" "some text" 0o777 T2025], none⟩ []

/-- `RegularFile/Delete` of the tests, before the first `Next`: `test.txt` on the
destination and an empty tar. -/
def deleteState : Sync RefFs := New RefFs.asFs diskFile ⟨[], none⟩ []

/-- A tar entry for a named pipe. -/
def fifoEnt : TarEntry :=
  { hdr := { typeflag := TypeFifo, name := "./run/pipe", linkname := "", size := 0, mode := 0o644,
             uid := 0, gid := 0, modTime := T2025 },
    body := "" }

/-- The state before the first `Next` of a run with `test.txt` on the destination and
the tar [named pipe `./run/pipe`]. -/
def fifoState : Sync RefFs := New RefFs.asFs diskFile ⟨[fifoEnt], none⟩ []

/-- Three files and a directory with a file in it, created out of order. -/
def diskMany : RefFs :=
  RefFs.build (RefFs.putFile "b" "x" 0o644 T2025 ++ [fun fs => fs.mkdir "d" 0o755] ++
    RefFs.putFile "d/x" "x" 0o644 T2025 ++ RefFs.putFile "a" "x" 0o644 T2025 ++
    RefFs.putFile "keep" "some text" 0o644 T2025)

/-- The reference destination with a walk that reports absolute paths: `/` for the
root and `/name` for the entry `name`. -/
def absWalkFs : Fs RefFs :=
  { RefFs.asFs with
    walk := fun fs =>
      match RefFs.walk fs with
      | .error e => .error e
      | .ok paths => .ok (paths.map (fun p => if p = "." then "/" else "/" ++ p)) }

/-- Disk holding the directory `etc` with the file `etc/test.txt` (mode 0644) in it. -/
def diskEtcTest : RefFs :=
  RefFs.build [fun fs => fs.mkdir "etc" 0o755, fun fs => fs.writeReader "etc/test.txt" "some text",
    fun fs => fs.chmod "etc/test.txt" 0o644, fun fs => fs.chtimes "etc/test.txt" T2025 T2025,
    fun fs => fs.chtimes "etc" T2025 T2025]

/-- The state after the last `Next` of a run that ended with a nil error: no error, the
inventory built, the tar at its end, the deletion queue empty and no base directory
held. -/
def Exhausted (s : Sync σ) : Prop :=
  s.err = none ∧ s.pathMap ≠ none ∧ s.tarReader = ⟨[], none⟩ ∧ s.deletePaths = some [] ∧
    s.baseDirPath = ""

/-- The text `Next` puts in front of the error of a reconciler (sync.go:136-158). -/
def syncMessage (ent : TarEntry) : String :=
  if ent.hdr.typeflag = TypeReg then "failed to sync regular file: "
  else if ent.hdr.typeflag = TypeDir then "failed to sync dir: "
  else if ent.hdr.typeflag = TypeSymlink then "failed to sync symlink: "
  else "failed to sync hard link: "

/-- The call with which a reconciler reads the metadata of its path: `Lstat` for a
symlink entry, `LstatOrStat` for the others. -/
def entryStatCall (F : Fs σ) (ent : TarEntry) : Call :=
  if ent.hdr.typeflag = TypeSymlink then .lstat (normalizePath ent.hdr.name)
  else F.lstatCall (normalizePath ent.hdr.name)

/-- The reference destination has an entry at `E`. -/
def Present (fs : RefFs) (E : String) : Prop := fs.ino (keyOf E) ≠ none

/-- The destination of the `Summary` test: `test2.txt` and `test3.txt` are not in the
tar, `test4.txt` to `test6.txt` have another mode than the tar gives them, `test7.txt` is
as the tar describes it. -/
def diskSummary : RefFs :=
  RefFs.build (RefFs.putFile "test2.txt" "some text" 0o777 T2025 ++
    RefFs.putFile "test3.txt" "some text" 0o777 T2025 ++
    RefFs.putFile "test4.txt" "some text" 0o644 T2025 ++
    RefFs.putFile "test5.txt" "some text" 0o644 T2025 ++
    RefFs.putFile "test6.txt" "some text" 0o644 T2025 ++
    RefFs.putFile "test7.txt" "some text" 0o777 T2025)

/-- The tar of the `Summary` test. -/
def tarSummary : List TarEntry :=
  [regEntry "./test1.txt" "some text" 0o777 T2025, regEntry "./test4.txt" "some text" 0o777 T2025,
   regEntry "./test5.txt" "some text" 0o777 T2025, regEntry "./test6.txt" "some text" 0o777 T2025,
   regEntry "./test7.txt" "some text" 0o777 T2025]

/-- The updates of the run of the `Summary` test. -/
def updatesSummary : List Update :=
  (runUpdates RefFs.asFs 64 (New RefFs.asFs diskSummary ⟨tarSummary, none⟩ [])).map
    (fun u => u.update)

/-- A state holding the directory `etc` of `diskEtc` with its mtime 5. -/
def heldEtc : Sync RefFs :=
  { Sync.at diskEtc allOn with baseDirPath := "etc", baseDirModTime := 5 }

/-! ## Destinations and archives with hard links -/

/-- Neat destinations: inode numbers in use are below the next free one, every name in
use is recorded for the walk, and is a clean list of path elements.  Names may share an
inode. -/
def RefFs.Neat (fs : RefFs) : Prop :=
  (∀ k i, fs.ino k = some i → i < fs.nextIno) ∧
  (∀ k i, fs.ino k = some i → k ∈ fs.known) ∧
  (∀ k i, fs.ino k = some i → GoodRev k.reverse)

/-- The root and the paths of the tar entries that are no hard links. -/
def solidKeys (tar : List TarEntry) : List Key :=
  [] :: (tar.filter (fun e => decide (e.hdr.typeflag ≠ TypeLink))).map
    (fun e => keyOf (normalizePath e.hdr.name))

/-- The root and the paths of the tar entries that are no hard links are on inodes of
their own: no two of them are names of one inode.  Other names (paths the tar does not
name, paths of hard-link entries) may share an inode with any name. -/
def PlainApart (tar : List TarEntry) (fs : RefFs) : Prop :=
  ∀ k ∈ solidKeys tar, ∀ k' ∈ solidKeys tar, fs.ino k ≠ none → fs.ino k = fs.ino k' → k = k'

instance decPlainApart (tar : List TarEntry) (fs : RefFs) : Decidable (PlainApart tar fs) := by
  unfold PlainApart; infer_instance

/-- The entry `E` is there on an inode that satisfies `N`, and its mtime is `T`, or will
be once the Preserver restores the directory it holds on that inode. -/
def Stays (N : Inode → Prop) (E : String) (T : Int) (s : Sync RefFs) : Prop :=
  ∃ i, s.fs.ino (keyOf E) = some i ∧ i < s.fs.nextIno ∧ N (s.fs.node i) ∧
    (if s.baseDirPath ≠ "" ∧ s.fs.ino (keyOf s.baseDirPath) = some i then s.baseDirModTime = T
     else (s.fs.node i).mtime = T)

/-- The name `E` is on inode `i`. -/
def OnInode (E : String) (i : Nat) (s : Sync RefFs) : Prop := s.fs.ino (keyOf E) = some i

/-- What a successful `syncStat` leaves of an entry on inode `i`: the same content,
target and type, the header's owner (with ownership on), mode (when `chmod` can give it;
not for a symlink entry) and mtime; the Preserver holds what it held. -/
def StatSet (hdr : Header) (i : Nat) (s s' : Sync RefFs) : Prop :=
  OnInode (normalizePath hdr.name) i s' ∧ SameBody (s.fs.node i) (s'.fs.node i) ∧
    (s.opts.withOwnership = true →
      hdr.uid = (s'.fs.node i).uid ∧ hdr.gid = (s'.fs.node i).gid) ∧
    (hdr.typeflag ≠ TypeSymlink → ModeFits hdr (s.fs.node i) →
      (s'.fs.node i).mode = hdr.fileMode) ∧
    (s'.fs.node i).mtime = hdr.modTime ∧
    s'.baseDirPath = s.baseDirPath ∧ s'.baseDirModTime = s.baseDirModTime ∧ s'.opts = s.opts

/-- The entry `E` is there on an inode that satisfies `N`, with mtime `T`, and the
Preserver does not hold it. -/
def Settled (N : Inode → Prop) (E : String) (T : Int) (s : Sync RefFs) : Prop :=
  ∃ i, s.fs.ino (keyOf E) = some i ∧ N (s.fs.node i) ∧ (s.fs.node i).mtime = T ∧
    ¬ (s.baseDirPath ≠ "" ∧ keyOf s.baseDirPath = keyOf E)

/-- Only the Preserver acts: it restores and releases, or snapshots and holds. -/
def HoldOnly : StepKind → String → Prop := fun k _ => k = .hold

/-- The destination is neat, its solid names are apart, and the entry `E` stays. -/
def KeptIn (tar : List TarEntry) (N : Inode → Prop) (E : String) (T : Int) (s : Sync RefFs) :
    Prop :=
  RefFs.Neat s.fs ∧ PlainApart tar s.fs ∧ Stays N E T s

/-- Attribute changes at the path `p` only. -/
def AttrAt (p : String) : StepKind → String → Prop := fun k q => k = .attr ∧ q = p

/-- Before the entry `ent` is reconciled: the destination is neat, its solid names are
apart, the Preserver holds a solid name that is not the path of `ent`, and the quick
check is still sound for `ent` if it was (`C`). -/
def PendingIn (tar : List TarEntry) (C : Prop) (ent : TarEntry) (s : Sync RefFs) : Prop :=
  RefFs.Neat s.fs ∧ PlainApart tar s.fs ∧
    (s.baseDirPath ≠ "" → keyOf s.baseDirPath ∈ solidKeys tar ∧
      keyOf s.baseDirPath ≠ keyOf (normalizePath ent.hdr.name)) ∧
    (C → Quick ent s.fs)

/-- The Preserver acts for the path `p` only. -/
def HoldAt (p : String) : StepKind → String → Prop := fun k q => k = .hold ∧ q = p

/-- Every entry below the top level has its parent directory named by a directory
entry of the tar. -/
def DirsListed (tar : List TarEntry) : Prop :=
  ∀ e ∈ tar, (keyOf (normalizePath e.hdr.name)).dropLast = [] ∨
    ∃ e' ∈ tar, e'.hdr.typeflag = TypeDir ∧
      keyOf (normalizePath e'.hdr.name) = (keyOf (normalizePath e.hdr.name)).dropLast

instance decDirsListed (tar : List TarEntry) : Decidable (DirsListed tar) := by
  unfold DirsListed; infer_instance

/-- The link name of the hard-link entry `e` names the regular-file entry `t`, and `e`
carries the owner, the mode and the mtime of `t`. -/
def LinkOf (t e : TarEntry) : Prop :=
  t.hdr.typeflag = TypeReg ∧
    keyOf (normalizePath t.hdr.name) = keyOf (normalizePath e.hdr.linkname) ∧
    t.hdr.uid = e.hdr.uid ∧ t.hdr.gid = e.hdr.gid ∧ t.hdr.fileMode = e.hdr.fileMode ∧
    t.hdr.modTime = e.hdr.modTime

instance decLinkOf (t e : TarEntry) : Decidable (LinkOf t e) := by
  unfold LinkOf; infer_instance

/-- Every hard-link entry follows the regular-file entry it links to. -/
def LinksFollow (tar : List TarEntry) : Prop :=
  ∀ e ∈ tar, e.hdr.typeflag = TypeLink →
    ∃ t ∈ tar.takeWhile (fun x => decide (x ≠ e)), LinkOf t e

instance decLinksFollow (tar : List TarEntry) : Decidable (LinksFollow tar) := by
  unfold LinksFollow; infer_instance

/-- An archive for the options `o`: regular files, directories, symlinks and hard links
that `Next` does not skip, with headers as `tar.FileInfoHeader` writes them, only
directories at the root, parents first, every parent named by a directory entry, and
every hard link after the regular file it links to, with its owner, mode and mtime. -/
def Archive (o : Options) (tar : List TarEntry) : Prop :=
  (∀ e ∈ tar, (PlainKind e ∨ e.hdr.typeflag = TypeLink) ∧ AlwaysSynced o e ∧ HeaderFits e ∧
    (e.hdr.typeflag ≠ TypeDir → keyOf (normalizePath e.hdr.name) ≠ [])) ∧
  ParentsFirst tar ∧ DirsListed tar ∧ LinksFollow tar

instance decArchive (o : Options) (tar : List TarEntry) : Decidable (Archive o tar) := by
  unfold Archive; infer_instance

/-- Steps at the path `E`, a hard link to any target among them. -/
def AtOrTarget (E : String) : StepKind → String → Prop := fun k p => k = .target ∨ p = E

/-! ## Paths: what `normalizePath` returns -/

theorem splitSlash_ne_nil (l : List Char) : splitSlash l ≠ [] := by
  cases l with
  | nil => simp [splitSlash]
  | cons c cs =>
    unfold splitSlash
    split
    · simp
    · split <;> simp

theorem splitSlash_noslash (l : List Char) : ∀ seg ∈ splitSlash l, '/' ∉ seg := by
  induction l with
  | nil => simp [splitSlash]
  | cons c cs ih =>
    unfold splitSlash
    split
    · intro seg hseg
      rcases List.mem_cons.mp hseg with h | h
      · subst h; simp
      · exact ih seg h
    · rename_i hc
      split
      · intro seg hseg
        simp only [List.mem_singleton] at hseg
        subst hseg
        simpa using Ne.symm hc
      · rename_i seg0 segs heq
        intro seg hseg
        rw [heq] at ih
        rcases List.mem_cons.mp hseg with h | h
        · subst h
          have := ih seg0 (List.mem_cons_self _ _)
          simp only [List.mem_cons, not_or]
          exact ⟨Ne.symm hc, this⟩
        · exact ih seg (List.mem_cons_of_mem _ h)

theorem splitSlash_of_noslash (a : List Char) (h : '/' ∉ a) : splitSlash a = [a] := by
  induction a with
  | nil => rfl
  | cons c cs ih =>
    simp only [List.mem_cons, not_or] at h
    unfold splitSlash
    rw [if_neg (Ne.symm h.1), ih h.2]

theorem splitSlash_append (a b : List Char) (h : '/' ∉ a) :
    splitSlash (a ++ '/' :: b) = a :: splitSlash b := by
  induction a with
  | nil => simp [splitSlash]
  | cons c cs ih =>
    simp only [List.mem_cons, not_or] at h
    rw [List.cons_append, splitSlash, if_neg (Ne.symm h.1), ih h.2]

theorem goodRev_tail {top : List Char} {below : List (List Char)} (h : GoodRev (top :: below)) :
    GoodRev below := h.2.2

theorem goodRev_append_right (A B : List (List Char)) (h : GoodRev (A ++ B)) : GoodRev B := by
  induction A with
  | nil => exact h
  | cons a as ih => exact ih (goodRev_tail h)

theorem goodRev_mem {l : List (List Char)} (h : GoodRev l) : ∀ s ∈ l, IsSeg s := by
  induction l with
  | nil => simp
  | cons a as ih =>
    intro s hs
    rcases List.mem_cons.mp hs with h1 | h1
    · subst h1; exact h.1
    · exact ih h.2.2 s h1

/-- The element loop of `filepath.Clean` keeps its output well-formed. -/
theorem cleanSegs_good (rooted : Bool) (segs : List (List Char)) :
    ∀ out, GoodRev out → (∀ seg ∈ segs, '/' ∉ seg) → GoodRev (cleanSegs rooted out segs) := by
  induction segs with
  | nil => intro out h _; exact h
  | cons seg rest ih =>
    intro out h hs
    have hrest : ∀ s ∈ rest, '/' ∉ s := fun s hm => hs s (List.mem_cons_of_mem _ hm)
    have hseg := hs seg (List.mem_cons_self _ _)
    unfold cleanSegs
    split
    · exact ih out h hrest
    · rename_i hne
      simp only [not_or] at hne
      split
      · rename_i hdd
        split
        · rename_i top below
          split
          · rename_i htop
            refine ih _ ⟨⟨hne.1, hne.2, hseg⟩, fun _ s hm => ?_, h⟩ hrest
            rcases List.mem_cons.mp hm with h1 | h1
            · rw [h1]; exact htop
            · exact h.2.1 htop s h1
          · exact ih _ h.2.2 hrest
        · split
          · exact ih _ trivial hrest
          · exact ih _ ⟨⟨hne.1, hne.2, hseg⟩, fun _ s hm => by simp at hm, trivial⟩ hrest
      · rename_i hdd
        exact ih _ ⟨⟨hne.1, hne.2, hseg⟩, fun h1 => absurd h1 hdd, h⟩ hrest

/-- On a list that is already clean the element loop changes nothing. -/
theorem cleanSegs_id (L : List (List Char)) :
    ∀ out, GoodRev (L.reverse ++ out) → cleanSegs false out L = L.reverse ++ out := by
  induction L with
  | nil => intro out _; rfl
  | cons seg rest ih =>
    intro out h
    have h' : GoodRev (rest.reverse ++ (seg :: out)) := by
      simpa [List.reverse_cons, List.append_assoc] using h
    have hs := goodRev_append_right _ _ h'
    obtain ⟨⟨s1, s2, _⟩, s4, _⟩ := hs
    have hgoal : (seg :: rest).reverse ++ out = rest.reverse ++ (seg :: out) := by
      simp [List.reverse_cons, List.append_assoc]
    rw [hgoal, ← ih _ h']
    cases out with
    | nil =>
      rw [cleanSegs, if_neg (by simp [s1, s2])]
      split
      · simp
      · rfl
    | cons top below =>
      rw [cleanSegs, if_neg (by simp [s1, s2])]
      split
      · rename_i hdd
        have htop : top = ['.', '.'] := s4 hdd top (List.mem_cons_self _ _)
        simp [htop]
      · rfl

theorem cleanSegs_cons (rooted : Bool) (out : List (List Char)) (seg : List Char)
    (rest : List (List Char)) :
    cleanSegs rooted out (seg :: rest) = cleanSegs rooted (cleanSegs rooted out [seg]) rest := by
  cases out with
  | nil =>
    simp only [cleanSegs]
    split_ifs <;> rfl
  | cons top below =>
    simp only [cleanSegs]
    split_ifs <;> rfl

theorem cleanSegs_append (rooted : Bool) (A B : List (List Char)) :
    ∀ out, cleanSegs rooted out (A ++ B) = cleanSegs rooted (cleanSegs rooted out A) B := by
  induction A with
  | nil => intro out; rfl
  | cons a as ih =>
    intro out
    rw [List.cons_append, cleanSegs_cons, ih, ← cleanSegs_cons]

theorem joinSlash_cons_cons (a b : List Char) (rest : List (List Char)) :
    joinSlash (a :: b :: rest) = a ++ '/' :: joinSlash (b :: rest) := rfl

theorem joinSlash_concat (init : List (List Char)) (a : List Char) (h : init ≠ []) :
    joinSlash (init ++ [a]) = joinSlash init ++ '/' :: a := by
  induction init with
  | nil => exact absurd rfl h
  | cons x xs ih =>
    cases xs with
    | nil => rfl
    | cons y ys =>
      rw [List.cons_append, List.cons_append, joinSlash_cons_cons, ← List.cons_append,
        ih (by simp), joinSlash_cons_cons, List.append_assoc]
      rfl

theorem splitSlash_joinSlash_append (segs : List (List Char)) (b : List Char) (h : segs ≠ [])
    (hs : ∀ seg ∈ segs, '/' ∉ seg) :
    splitSlash (joinSlash segs ++ '/' :: b) = segs ++ splitSlash b := by
  induction segs with
  | nil => exact absurd rfl h
  | cons x xs ih =>
    have hx := hs x (List.mem_cons_self _ _)
    cases xs with
    | nil => exact splitSlash_append x b hx
    | cons y ys =>
      rw [joinSlash_cons_cons, List.append_assoc, List.cons_append, splitSlash_append _ _ hx,
        ih (by simp) (fun seg hm => hs seg (List.mem_cons_of_mem _ hm))]
      rfl

theorem splitSlash_joinSlash (segs : List (List Char)) (h : segs ≠ [])
    (hs : ∀ seg ∈ segs, '/' ∉ seg) : splitSlash (joinSlash segs) = segs := by
  induction segs with
  | nil => exact absurd rfl h
  | cons x xs ih =>
    have hx := hs x (List.mem_cons_self _ _)
    cases xs with
    | nil => exact splitSlash_of_noslash x hx
    | cons y ys =>
      rw [joinSlash_cons_cons, splitSlash_append _ _ hx,
        ih (by simp) (fun seg hm => hs seg (List.mem_cons_of_mem _ hm))]

theorem dirChars_of_noslash (a : List Char) (h : '/' ∉ a) : dirChars a = [] := by
  cases a with
  | nil => rfl
  | cons c cs =>
    simp only [List.mem_cons, not_or] at h
    unfold dirChars
    simp [h.2, Ne.symm h.1]

theorem dirChars_append (pre a : List Char) (h : '/' ∉ a) :
    dirChars (pre ++ '/' :: a) = pre ++ ['/'] := by
  induction pre with
  | nil =>
    simp [dirChars, h]
  | cons c cs ih =>
    rw [List.cons_append, dirChars]
    have h1 : (cs ++ '/' :: a).contains '/' = true := by simp
    rw [if_pos h1, ih]
    rfl

theorem joinSlash_head (segs : List (List Char)) (c : Char) (cs : List Char)
    (hs : ∀ seg ∈ segs, IsSeg seg) (h : joinSlash segs = c :: cs) : c ≠ '/' := by
  cases segs with
  | nil => simp [joinSlash] at h
  | cons x xs =>
    obtain ⟨x1, _, x3⟩ := hs x (List.mem_cons_self _ _)
    cases x with
    | nil => exact absurd rfl x1
    | cons d ds =>
      have hd : c = d := by
        cases xs with
        | nil => simp [joinSlash] at h; exact h.1.symm
        | cons y ys => simp [joinSlash] at h; exact h.1.symm
      subst hd
      intro hc
      subst hc
      exact x3 (List.mem_cons_self _ _)

theorem joinSlash_ne_nil (segs : List (List Char)) (h : segs ≠ [])
    (hs : ∀ seg ∈ segs, IsSeg seg) : joinSlash segs ≠ [] := by
  cases segs with
  | nil => exact absurd rfl h
  | cons x xs =>
    obtain ⟨x1, _, _⟩ := hs x (List.mem_cons_self _ _)
    cases xs with
    | nil => exact x1
    | cons y ys => simp [joinSlash, x1]

/-- The key of a clean path is the list of its elements. -/
theorem key_joinSlash (segs : List (List Char)) (h : GoodRev segs.reverse) :
    (cleanSegs false [] (splitSlash (joinSlash segs))).reverse = segs := by
  by_cases hn : segs = []
  · subst hn
    simp [joinSlash, splitSlash, cleanSegs]
  · have hs : ∀ seg ∈ segs, '/' ∉ seg := fun seg hm =>
      (goodRev_mem h seg (by simpa using hm)).2.2
    rw [splitSlash_joinSlash segs hn hs, cleanSegs_id segs [] (by simpa using h)]
    simp

theorem cleanChars_ne_nil (path : List Char) : cleanChars path ≠ [] := by
  unfold cleanChars
  split
  · simp
  · simp only
    split
    · simp
    · split
      · simp
      · assumption

theorem filepathDir_ne_empty (path : String) : filepathDir path ≠ "" := by
  unfold filepathDir
  intro h
  have := congrArg String.data h
  simp only at this
  exact cleanChars_ne_nil _ this

/-- What `filepath.Clean` returns: a clean list of elements joined by `/`, after a `/`
for a rooted path; or `.`. -/
theorem cleanChars_shape (path : List Char) :
    ∃ segs, GoodRev segs.reverse ∧
      (cleanChars path = joinSlash segs ∧ segs ≠ [] ∨ cleanChars path = ['.'] ∧ segs = [] ∨
        cleanChars path = '/' :: joinSlash segs) := by
  unfold cleanChars
  split
  · exact ⟨[], trivial, Or.inr (Or.inl ⟨rfl, rfl⟩)⟩
  · rename_i c cs
    simp only
    have hg : GoodRev (cleanSegs (decide (c = '/')) [] (splitSlash (c :: cs))) :=
      cleanSegs_good _ _ [] trivial (splitSlash_noslash _)
    split
    · exact ⟨_, by simpa using hg, Or.inr (Or.inr rfl)⟩
    · split
      · exact ⟨[], trivial, Or.inr (Or.inl ⟨rfl, rfl⟩)⟩
      · rename_i hne
        refine ⟨_, by simpa using hg, Or.inl ⟨rfl, ?_⟩⟩
        intro h0
        rw [h0] at hne
        exact hne rfl

/-- What `normalizePath` returns: a clean list of elements joined by `/`, or `.`. -/
theorem normalizePath_shape (x : String) :
    ∃ segs, GoodRev segs.reverse ∧
      ((normalizePath x).data = joinSlash segs ∨ (normalizePath x).data = ['.'] ∧ segs = []) := by
  obtain ⟨segs, hg, h⟩ := cleanChars_shape x.data
  have hseg : ∀ seg ∈ segs, IsSeg seg := fun seg hm => goodRev_mem hg seg (by simpa using hm)
  unfold normalizePath
  rcases h with ⟨h, hn⟩ | ⟨h, hn⟩ | h
  · rw [h]
    cases hj : joinSlash segs with
    | nil => exact absurd hj (joinSlash_ne_nil segs hn hseg)
    | cons c cs =>
      simp only
      rw [if_neg (joinSlash_head segs c cs hseg hj)]
      exact ⟨segs, hg, Or.inl hj.symm⟩
  · rw [h]
    exact ⟨[], trivial, Or.inr ⟨by simp, rfl⟩⟩
  · rw [h]
    exact ⟨segs, hg, Or.inl (by simp)⟩

theorem keyOf_of_data (p : String) (l : List Char) (h : p.data = l) :
    keyOf p = (cleanSegs false [] (splitSlash l)).reverse := by
  unfold keyOf
  rw [h]

theorem keyOf_dot_data (p : String) (h : p.data = ['.']) : keyOf p = [] := by
  rw [keyOf_of_data p _ h]
  simp [splitSlash, cleanSegs]

theorem keyOf_filepathDir_nil (p : String) (h : dirChars p.data = []) :
    keyOf (filepathDir p) = [] := by
  unfold filepathDir
  rw [h]
  exact keyOf_dot_data _ (by simp [cleanChars])

/-- The key of `filepath.Dir` of a normalized path is the key of the path without its
last element. -/
theorem keyOf_filepathDir (x : String) :
    keyOf (filepathDir (normalizePath x)) = (keyOf (normalizePath x)).dropLast := by
  obtain ⟨segs, hg, h⟩ := normalizePath_shape x
  rcases h with h | ⟨h, hn⟩
  · have hk : keyOf (normalizePath x) = segs := by
      rw [keyOf_of_data _ _ h]
      exact key_joinSlash segs hg
    rw [hk]
    have hseg : ∀ seg ∈ segs, IsSeg seg := fun seg hm => goodRev_mem hg seg (by simpa using hm)
    rcases List.eq_nil_or_concat segs with h0 | ⟨init, a, h0⟩
    · subst h0
      exact keyOf_filepathDir_nil _ (by rw [h]; rfl)
    · subst h0
      have ha : '/' ∉ a := (hseg a (by simp)).2.2
      rw [List.concat_eq_append] at *
      rw [List.dropLast_concat]
      by_cases hi : init = []
      · subst hi
        exact keyOf_filepathDir_nil _ (by rw [h]; exact dirChars_of_noslash a ha)
      · have hgi : GoodRev init.reverse := by
          have : GoodRev (a :: init.reverse) := by simpa using hg
          exact this.2.2
        have hsi : ∀ seg ∈ init, IsSeg seg := fun seg hm => hseg seg (by simp [hm])
        have hd : dirChars (normalizePath x).data = joinSlash init ++ ['/'] := by
          rw [h, joinSlash_concat init a hi]
          exact dirChars_append _ a ha
        have hc : cleanChars (joinSlash init ++ ['/']) = joinSlash init := by
          cases hj : joinSlash init with
          | nil => exact absurd hj (joinSlash_ne_nil init hi hsi)
          | cons c cs =>
            have hcne := joinSlash_head init c cs hsi hj
            unfold cleanChars
            rw [List.cons_append]
            simp only [hcne, decide_False, Bool.false_eq_true, if_false]
            rw [← List.cons_append, ← hj, splitSlash_joinSlash_append init [] hi
              (fun seg hm => (hsi seg hm).2.2), cleanSegs_append,
              cleanSegs_id init [] (by simpa using hgi)]
            simp only [List.append_nil, splitSlash, cleanSegs, true_or, if_true,
              List.reverse_reverse]
            rw [if_neg (joinSlash_ne_nil init hi hsi)]
        unfold filepathDir
        rw [hd, hc]
        exact key_joinSlash init hgi
  · subst hn
    rw [keyOf_dot_data _ h]
    exact keyOf_filepathDir_nil _ (by rw [h]; rfl)

theorem isPrefixOf_dropLast (l : Key) : l.dropLast.isPrefixOf l = true := by
  rw [List.isPrefixOf_iff_prefix]
  exact List.dropLast_prefix l

/-! ## Every engine function is a sequence of primitive actions -/

theorem step_mono {F : Fs σ} {Q Q' : StepKind → String → Prop} (h : ∀ k p, Q k p → Q' k p) {s s' : Sync σ}
    (hs : Step F Q s s') : Step F Q' s s' := by
  cases hs with
  | silent hfs hp hm hl => exact .silent hfs hp hm hl
  | read c hc => exact .read c hc
  | restoreFailed h1 hr => exact .restoreFailed h1 hr
  | restore h1 hr => exact .restore h1 hr
  | snapshot path hQ fi h1 hD hfi => exact .snapshot path (h _ _ hQ) fi h1 hD hfi
  | structural path hQ c hc hl h1 =>
    exact .structural path (h _ _ hQ) c hc (fun old e => h _ _ (hl old e)) h1
  | attr path hQ c hc => exact .attr path (h _ _ hQ) c hc

theorem reach_refl (F : Fs σ) (Q : StepKind → String → Prop) (s : Sync σ) : Reach F Q s s :=
  Relation.ReflTransGen.refl

theorem reach_trans {F : Fs σ} {Q : StepKind → String → Prop} {s1 s2 s3 : Sync σ} (h1 : Reach F Q s1 s2)
    (h2 : Reach F Q s2 s3) : Reach F Q s1 s3 :=
  Relation.ReflTransGen.trans h1 h2

theorem reach_step {F : Fs σ} {Q : StepKind → String → Prop} {s1 s2 : Sync σ} (h : Step F Q s1 s2) :
    Reach F Q s1 s2 :=
  Relation.ReflTransGen.single h

theorem reach_mono {F : Fs σ} {Q Q' : StepKind → String → Prop} (h : ∀ k p, Q k p → Q' k p) {s s' : Sync σ}
    (hs : Reach F Q s s') : Reach F Q' s s' :=
  Relation.ReflTransGen.mono (fun _ _ => step_mono h) hs

theorem reach_silent {F : Fs σ} {Q : StepKind → String → Prop} {s s' : Sync σ} (hfs : s'.fs = s.fs)
    (hp : s'.baseDirPath = s.baseDirPath) (hm : s'.baseDirModTime = s.baseDirModTime)
    (hl : s'.log = s.log) : Reach F Q s s' :=
  reach_step (Step.silent hfs hp hm hl)

/-- An invariant of every action is an invariant of every reachable state. -/
theorem reach_invariant {F : Fs σ} {Q : StepKind → String → Prop} (I : Sync σ → Prop)
    (hI : ∀ s s', Step F Q s s' → I s → I s') {s s' : Sync σ} (h : Reach F Q s s')
    (h0 : I s) : I s' := by
  induction h with
  | refl => exact h0
  | tail _ hstep ih => exact hI _ _ hstep ih

theorem lstatCall_isMutation (F : Fs σ) (name : String) :
    (F.lstatCall name).isMutation = false := by
  unfold Fs.lstatCall; split <;> rfl

theorem reach_LstatOrStat (F : Fs σ) (Q : StepKind → String → Prop) (name : String) (s : Sync σ) :
    Reach F Q s (LstatOrStat F name s).2 :=
  reach_step (Step.read _ (lstatCall_isMutation F name))

theorem reach_restoreBaseDir (F : Fs σ) (Q : StepKind → String → Prop) (s : Sync σ) :
    Reach F Q s (restoreBaseDir F s).2 := by
  unfold restoreBaseDir
  split
  · rename_i h
    simp only
    split
    · rename_i e he
      exact reach_step (Step.restoreFailed h (by rw [he]; simp))
    · rename_i he
      exact reach_step (Step.restore h he)
  · exact reach_refl _ _ _

theorem restoreBaseDir_held (F : Fs σ) (s : Sync σ) (h : (restoreBaseDir F s).1 = none) :
    (restoreBaseDir F s).2.baseDirPath = "" := by
  unfold restoreBaseDir at h ⊢
  split
  · simp only at h ⊢
    split <;> simp_all
  · simp_all

theorem reach_snapshotBaseDir (F : Fs σ) (Q : StepKind → String → Prop) (path : String) (hQ : Q .hold path)
    (s : Sync σ) (h : s.baseDirPath = "") :
    Reach F Q s (snapshotBaseDir F (filepathDir path) s).2 := by
  unfold snapshotBaseDir
  split
  · rename_i hD
    simp only
    split
    · exact reach_LstatOrStat F Q _ s
    · rename_i fi hfi
      exact (reach_LstatOrStat F Q (filepathDir path) s).trans
        (reach_step (Step.snapshot (s := (LstatOrStat F (filepathDir path) s).2) path hQ fi h hD hfi))
  · exact reach_refl _ _ _

theorem snapshotBaseDir_held (F : Fs σ) (D : String) (s : Sync σ) (h0 : s.baseDirPath = "")
    (h : (snapshotBaseDir F D s).1 = none) : (snapshotBaseDir F D s).2.baseDirPath = D := by
  unfold snapshotBaseDir at h ⊢
  split
  · simp only at h ⊢
    split <;> simp_all
  · simp_all

/-- `preserveBaseDir` of the parent of a path. -/
theorem reach_preserveBaseDir (F : Fs σ) (Q : StepKind → String → Prop) (path : String) (hQ : Q .hold path)
    (s : Sync σ) : Reach F Q s (preserveBaseDir F (filepathDir path) s).2 := by
  unfold preserveBaseDir
  split
  · exact reach_refl _ _ _
  · simp only
    split
    · exact reach_restoreBaseDir F Q s
    · rename_i he
      exact (reach_restoreBaseDir F Q s).trans
        (reach_snapshotBaseDir F Q path hQ _ (restoreBaseDir_held F s he))

/-- The final `preserveBaseDir("")`. -/
theorem reach_releaseBaseDir (F : Fs σ) (Q : StepKind → String → Prop) (s : Sync σ) :
    Reach F Q s (preserveBaseDir F "" s).2 := by
  unfold preserveBaseDir
  split
  · exact reach_refl _ _ _
  · simp only
    split
    · exact reach_restoreBaseDir F Q s
    · refine (reach_restoreBaseDir F Q s).trans ?_
      unfold snapshotBaseDir
      simp only [ne_eq, not_true_eq_false, if_false]
      exact reach_refl _ _ _

theorem preserveBaseDir_held (F : Fs σ) (D : String) (s : Sync σ)
    (h : (preserveBaseDir F D s).1 = none) : (preserveBaseDir F D s).2.baseDirPath = D := by
  unfold preserveBaseDir at h ⊢
  by_cases h1 : D = s.baseDirPath
  · simp only [h1, if_true]
  · simp only [h1, if_false] at h ⊢
    cases he : (restoreBaseDir F s).1 with
    | some e => simp [he] at h
    | none =>
      simp only [he] at h ⊢
      exact snapshotBaseDir_held F D _ (restoreBaseDir_held F s he) h

/-- The calls `syncStat` makes to change an attribute are attribute calls at the path. -/
theorem ownerCall_isAttrAt (hdr : Header) : (ownerCall hdr).isAttrAt (normalizePath hdr.name) := by
  unfold ownerCall; split <;> simp [Call.isAttrAt]

theorem reach_syncStatOwner (F : Fs σ) (Q : StepKind → String → Prop) (hdr : Header)
    (hQ : Q .attr (normalizePath hdr.name)) (fi : FileInfo) (s : Sync σ) :
    Reach F Q s (syncStatOwner F hdr fi s).2 := by
  unfold syncStatOwner
  simp only
  split
  · have h1 : Reach F Q s (s.call F (ownerCall hdr)).2 :=
      reach_step (Step.attr _ hQ _ (ownerCall_isAttrAt hdr))
    split
    · exact h1
    · have h2 : Reach F Q (s.call F (ownerCall hdr)).2
          ((s.call F (ownerCall hdr)).2.markOwner hdr.uid hdr.gid) :=
        reach_silent rfl rfl rfl rfl
      have h3 := reach_LstatOrStat F Q (normalizePath hdr.name)
        ((s.call F (ownerCall hdr)).2.markOwner hdr.uid hdr.gid)
      split <;> exact (h1.trans h2).trans h3
  · exact reach_refl _ _ _

theorem reach_syncStatMode (F : Fs σ) (Q : StepKind → String → Prop) (hdr : Header)
    (hQ : Q .attr (normalizePath hdr.name)) (fi : FileInfo) (s : Sync σ) :
    Reach F Q s (syncStatMode F hdr fi s).2 := by
  unfold syncStatMode
  simp only
  split
  · have h1 : Reach F Q s (s.call F (.chmod (normalizePath hdr.name) hdr.fileMode)).2 :=
      reach_step (Step.attr _ hQ _ (by simp [Call.isAttrAt]))
    split
    · exact h1
    · exact h1.trans (reach_silent rfl rfl rfl rfl)
  · exact reach_refl _ _ _

theorem reach_syncStatTime (F : Fs σ) (Q : StepKind → String → Prop) (hdr : Header)
    (hQ : Q .attr (normalizePath hdr.name)) (fi : FileInfo) (s : Sync σ) :
    Reach F Q s (syncStatTime F hdr fi s).2 := by
  unfold syncStatTime
  simp only
  split
  · have h1 : Reach F Q s
        (s.call F (.chtimes (normalizePath hdr.name) hdr.modTime hdr.modTime)).2 :=
      reach_step (Step.attr _ hQ _ (by simp [Call.isAttrAt]))
    split
    · exact h1
    · exact h1.trans (reach_silent rfl rfl rfl rfl)
  · exact reach_refl _ _ _

theorem reach_syncStatWith (F : Fs σ) (Q : StepKind → String → Prop) (hdr : Header)
    (hQ : Q .attr (normalizePath hdr.name)) (fi : FileInfo) (s : Sync σ) :
    Reach F Q s (syncStatWith F hdr fi s).2 := by
  unfold syncStatWith
  simp only
  have h1 := reach_syncStatOwner F Q hdr hQ fi s
  split
  · exact h1
  · rename_i fi2 _
    have h2 := reach_syncStatMode F Q hdr hQ fi2 (syncStatOwner F hdr fi s).2
    split
    · exact h1.trans h2
    · exact (h1.trans h2).trans (reach_syncStatTime F Q hdr hQ fi2 _)

theorem reach_syncStat (F : Fs σ) (Q : StepKind → String → Prop) (hdr : Header)
    (hQ : Q .attr (normalizePath hdr.name)) (fi : Option FileInfo) (s : Sync σ) :
    Reach F Q s (syncStat F hdr fi s).2 := by
  unfold syncStat
  simp only
  split
  · exact reach_syncStatWith F Q hdr hQ _ s
  · have h1 := reach_LstatOrStat F Q (normalizePath hdr.name) s
    split
    · exact h1
    · exact h1.trans (reach_syncStatWith F Q hdr hQ _ _)

theorem reach_syncStatWrapped (F : Fs σ) (Q : StepKind → String → Prop) (hdr : Header)
    (hQ : Q .attr (normalizePath hdr.name)) (fi : Option FileInfo) (s : Sync σ) :
    Reach F Q s (syncStatWrapped F hdr fi s).2 := by
  unfold syncStatWrapped
  simp only
  split <;> exact reach_syncStat F Q hdr hQ fi s

theorem reach_removeExisting (F : Fs σ) (Q : StepKind → String → Prop) (path : String)
    (hQ : ∀ k, k ≠ .target → Q k path) (c : Call) (msg : String) (s : Sync σ)
    (hc : c.isStructuralAt path) (hl : ∀ old, c ≠ .link old path) :
    Reach F Q s (removeExisting F path c msg s).2 := by
  unfold removeExisting
  simp only
  have h1 := reach_preserveBaseDir F Q path (hQ _ (by decide)) s
  split
  · exact h1
  · rename_i he
    have h2 : Reach F Q (preserveBaseDir F (filepathDir path) s).2
        ((preserveBaseDir F (filepathDir path) s).2.call F c).2 :=
      reach_step (Step.structural path (hQ _ (by decide)) c hc (fun old e => absurd e (hl old))
        (preserveBaseDir_held F _ s he))
    split <;> exact h1.trans h2

theorem reach_dropUnless (F : Fs σ) (Q : StepKind → String → Prop) (path : String)
    (hQ : ∀ k, k ≠ .target → Q k path) (keep : FileInfo → Bool) (c : Call) (msg : String)
    (fi : Option FileInfo) (s : Sync σ) (hc : c.isStructuralAt path)
    (hl : ∀ old, c ≠ .link old path) :
    Reach F Q s (dropUnless F path keep c msg fi s).2.2 := by
  unfold dropUnless
  split
  · exact reach_refl _ _ _
  · split
    · exact reach_refl _ _ _
    · exact reach_removeExisting F Q path hQ c msg s hc hl

theorem reach_createEntry (F : Fs σ) (Q : StepKind → String → Prop) (hdr : Header)
    (hQ : ∀ k, k ≠ .target → Q k (normalizePath hdr.name)) (c : Call) (msg : String)
    (mark : Sync σ → Sync σ) (s : Sync σ) (hc : c.isStructuralAt (normalizePath hdr.name))
    (hl : ∀ old, c = .link old (normalizePath hdr.name) → Q .target old)
    (hmark : MarkOnly mark) : Reach F Q s (createEntry F hdr c msg mark s).2 := by
  unfold createEntry
  simp only
  have h1 := reach_preserveBaseDir F Q (normalizePath hdr.name) (hQ _ (by decide)) s
  split
  · exact h1
  · rename_i he
    have h2 : Reach F Q (preserveBaseDir F (filepathDir (normalizePath hdr.name)) s).2
        ((preserveBaseDir F (filepathDir (normalizePath hdr.name)) s).2.call F c).2 :=
      reach_step (Step.structural _ (hQ _ (by decide)) c hc hl (preserveBaseDir_held F _ s he))
    split
    · exact h1.trans h2
    · obtain ⟨m1, m2, m3, m4⟩ :=
        hmark ((preserveBaseDir F (filepathDir (normalizePath hdr.name)) s).2.call F c).2
      exact ((h1.trans h2).trans (reach_silent m1 m2 m3 m4)).trans
        (reach_syncStatWrapped F Q hdr (hQ _ (by decide)) none _)

theorem reach_syncRegularFile (F : Fs σ) (Q : StepKind → String → Prop) (hdr : Header)
    (hQ : ∀ k, k ≠ .target → Q k (normalizePath hdr.name)) (body : String) (s : Sync σ) :
    Reach F Q s (syncRegularFile F hdr body s).2 := by
  unfold syncRegularFile
  simp only
  have h1 := reach_LstatOrStat F Q (normalizePath hdr.name) s
  split
  · exact h1
  · rename_i fi _
    have h2 := reach_dropUnless F Q (normalizePath hdr.name) hQ
      (fun info => modeIsRegular info.mode)
      (.removeAll (normalizePath hdr.name)) "failed to remove: " fi
      (LstatOrStat F (normalizePath hdr.name) s).2 (by simp [Call.isStructuralAt])
      (fun _ h => by cases h)
    split
    · exact h1.trans h2
    · split
      · exact (h1.trans h2).trans (reach_syncStatWrapped F Q hdr (hQ _ (by decide)) _ _)
      · exact (h1.trans h2).trans (reach_createEntry F Q hdr hQ _ _ _ _
          (by simp [Call.isStructuralAt]) (fun _ h => by cases h)
          (fun s1 => ⟨rfl, rfl, rfl, rfl⟩))

theorem reach_syncDir (F : Fs σ) (Q : StepKind → String → Prop) (hdr : Header)
    (hQ : ∀ k, k ≠ .target → Q k (normalizePath hdr.name)) (s : Sync σ) : Reach F Q s (syncDir F hdr s).2 := by
  unfold syncDir
  simp only
  have h1 := reach_LstatOrStat F Q (normalizePath hdr.name) s
  split
  · exact h1
  · rename_i fi _
    have h2 := reach_dropUnless F Q (normalizePath hdr.name) hQ
      (fun info => modeTypeOf info.mode = ModeDir)
      (.remove (normalizePath hdr.name)) "failed to remove: " fi
      (LstatOrStat F (normalizePath hdr.name) s).2 (by simp [Call.isStructuralAt])
      (fun _ h => by cases h)
    split
    · exact h1.trans h2
    · split
      · exact (h1.trans h2).trans (reach_syncStatWrapped F Q hdr (hQ _ (by decide)) _ _)
      · exact (h1.trans h2).trans (reach_createEntry F Q hdr hQ _ _ _ _
          (by simp [Call.isStructuralAt]) (fun _ h => by cases h)
          (fun s1 => ⟨rfl, rfl, rfl, rfl⟩))

theorem reach_retarget (F : Fs σ) (Q : StepKind → String → Prop) (hdr : Header)
    (hQ : ∀ k, k ≠ .target → Q k (normalizePath hdr.name)) (fi : Option FileInfo) (s : Sync σ) :
    Reach F Q s (retarget F hdr fi s).2.2 := by
  unfold retarget
  simp only
  split
  · exact reach_refl _ _ _
  · have h1 : Reach F Q s (s.logCall (.readlink (normalizePath hdr.name))) :=
      reach_step (Step.read _ rfl)
    split
    · exact h1
    · split
      · exact h1.trans (reach_removeExisting F Q _ hQ _ _ _ (by simp [Call.isStructuralAt])
          (fun _ h => by cases h))
      · exact h1

theorem reach_syncSymlink (F : Fs σ) (Q : StepKind → String → Prop) (hdr : Header)
    (hQ : ∀ k, k ≠ .target → Q k (normalizePath hdr.name)) (s : Sync σ) : Reach F Q s (syncSymlink F hdr s).2 := by
  unfold syncSymlink
  simp only
  have h1 : Reach F Q s (s.logCall (.lstat (normalizePath hdr.name))) :=
    reach_step (Step.read _ rfl)
  split
  · exact h1
  · rename_i fi _
    have h2 := reach_dropUnless F Q (normalizePath hdr.name) hQ
      (fun info => modeTypeOf info.mode = ModeSymlink)
      (.removeAll (normalizePath hdr.name)) "failed to remove: " fi
      (s.logCall (.lstat (normalizePath hdr.name))) (by simp [Call.isStructuralAt])
      (fun _ h => by cases h)
    split
    · exact h1.trans h2
    · have h3 := reach_retarget F Q hdr hQ
        (dropUnless F (normalizePath hdr.name) (fun info => modeTypeOf info.mode = ModeSymlink)
          (.removeAll (normalizePath hdr.name)) "failed to remove: " fi
          (s.logCall (.lstat (normalizePath hdr.name)))).2.1
        (dropUnless F (normalizePath hdr.name) (fun info => modeTypeOf info.mode = ModeSymlink)
          (.removeAll (normalizePath hdr.name)) "failed to remove: " fi
          (s.logCall (.lstat (normalizePath hdr.name)))).2.2
      split
      · exact (h1.trans h2).trans h3
      · split
        · exact ((h1.trans h2).trans h3).trans (reach_syncStatWrapped F Q hdr (hQ _ (by decide)) _ _)
        · exact ((h1.trans h2).trans h3).trans
            (reach_createEntry F Q hdr hQ _ _ _ _ (by simp [Call.isStructuralAt])
              (fun _ h => by cases h) (fun s1 => ⟨rfl, rfl, rfl, rfl⟩))

theorem reach_checkLinkTarget (F : Fs σ) (Q : StepKind → String → Prop) (hdr : Header)
    (hQ : ∀ k, k ≠ .target → Q k (normalizePath hdr.name)) (fi : Option FileInfo) (s : Sync σ) :
    Reach F Q s (checkLinkTarget F hdr fi s).2.2 := by
  unfold checkLinkTarget
  simp only
  split
  · exact reach_refl _ _ _
  · have h1 := reach_LstatOrStat F Q (normalizePath hdr.linkname) s
    split
    · exact h1
    · split
      · exact h1.trans (reach_removeExisting F Q _ hQ _ _ _ (by simp [Call.isStructuralAt])
          (fun _ h => by cases h))
      · exact h1

theorem reach_syncLink (F : Fs σ) (Q : StepKind → String → Prop) (hdr : Header)
    (hQ : ∀ k, k ≠ .target → Q k (normalizePath hdr.name))
    (hT : Q .target (normalizePath hdr.linkname)) (s : Sync σ) :
    Reach F Q s (syncLink F hdr s).2 := by
  unfold syncLink
  simp only
  have h1 := reach_LstatOrStat F Q (normalizePath hdr.name) s
  split
  · exact h1
  · rename_i fi _
    have h2 := reach_checkLinkTarget F Q hdr hQ fi (LstatOrStat F (normalizePath hdr.name) s).2
    split
    · exact h1.trans h2
    · split
      · exact (h1.trans h2).trans (reach_syncStatWrapped F Q hdr (hQ _ (by decide)) _ _)
      · exact (h1.trans h2).trans (reach_createEntry F Q hdr hQ _ _ _ _
          (by simp [Call.isStructuralAt]) (fun old h => by cases h; exact hT)
          (fun s1 => ⟨rfl, rfl, rfl, rfl⟩))

theorem reach_dispatch (F : Fs σ) (Q : StepKind → String → Prop) (ent : TarEntry)
    (hQ : ∀ k, k ≠ .target → Q k (normalizePath ent.hdr.name))
    (hT : ent.hdr.typeflag = TypeLink → Q .target (normalizePath ent.hdr.linkname))
    (s : Sync σ) : Reach F Q s (dispatch F ent s).2 := by
  unfold dispatch dispatched
  simp only
  split_ifs
  · split <;> exact reach_syncRegularFile F Q ent.hdr hQ ent.body s
  · split <;> exact reach_syncDir F Q ent.hdr hQ s
  · split <;> exact reach_syncSymlink F Q ent.hdr hQ s
  · exact reach_refl _ _ _
  · have hL : ent.hdr.typeflag = TypeLink := by assumption
    split <;> exact reach_syncLink F Q ent.hdr hQ (hT hL) s
  · exact reach_refl _ _ _
  · exact reach_refl _ _ _

/-- The tar loop only acts on the paths of the entries it reads. -/
theorem reach_tarLoop (F : Fs σ) (Q : StepKind → String → Prop) (entries : List TarEntry) :
    ∀ s : Sync σ,
      (∀ ent ∈ entries, (∀ k, k ≠ .target → Q k (normalizePath ent.hdr.name)) ∧
        (ent.hdr.typeflag = TypeLink → Q .target (normalizePath ent.hdr.linkname))) →
      Reach F Q s (tarLoop F entries s).2 := by
  induction entries with
  | nil =>
    intro s _
    unfold tarLoop
    have h1 : Reach F Q s (s.logCall .tarNext) := reach_step (Step.read _ rfl)
    split
    · exact h1
    · exact h1.trans (reach_silent rfl rfl rfl rfl)
  | cons ent rest ih =>
    intro s hQ
    have hq := hQ ent (List.mem_cons_self _ _)
    have hrest : ∀ e ∈ rest, (∀ k, k ≠ .target → Q k (normalizePath e.hdr.name)) ∧
        (e.hdr.typeflag = TypeLink → Q .target (normalizePath e.hdr.linkname)) :=
      fun e he => hQ e (List.mem_cons_of_mem _ he)
    unfold tarLoop
    simp only
    have h0 : Reach F Q s (s.beginEntry ent rest) :=
      (reach_step (Step.read .tarNext rfl)).trans (reach_silent rfl rfl rfl rfl)
    have h1 := h0.trans (reach_dispatch F Q ent hq.1 hq.2 (s.beginEntry ent rest))
    split
    · exact h1.trans (reach_silent rfl rfl rfl rfl)
    · exact h1.trans (ih _ hrest)
    · have h2 : Reach F Q s ((dispatch F ent (s.beginEntry ent rest)).2.forget
          (normalizePath ent.hdr.name)) := h1.trans (reach_silent rfl rfl rfl rfl)
      split
      · exact h2
      · exact h2.trans (ih _ hrest)

theorem reach_deleteEntry (F : Fs σ) (Q : StepKind → String → Prop) (path : String)
    (hQ : ∀ k, k ≠ .target → Q k path)
    (r : Except Error FileInfo) (s : Sync σ) : Reach F Q s (deleteEntry F path r s).2 := by
  unfold deleteEntry
  simp only
  have h0 : Reach F Q s (match r with
      | .error e => s.setErr (some (.wrap ("failed to stat: " ++ path) e))
      | .ok _ => s) := by
    split
    · exact reach_silent rfl rfl rfl rfl
    · exact reach_refl _ _ _
  have h1 := h0.trans (reach_preserveBaseDir F Q path (hQ _ (by decide)) _)
  split
  · exact h1.trans (reach_silent rfl rfl rfl rfl)
  · rename_i he
    have h2 := h1.trans (reach_step (Step.structural path (hQ _ (by decide)) (.removeAll path)
      (by simp [Call.isStructuralAt]) (fun _ e => by cases e) (preserveBaseDir_held F _ _ he)))
    split <;> exact h2.trans (reach_silent rfl rfl rfl rfl)

/-- The deletion loop only acts on the paths of the queue other than `.`. -/
theorem reach_deleteLoop (F : Fs σ) (Q : StepKind → String → Prop) (paths : List String) :
    ∀ s : Sync σ, (∀ p ∈ paths, p ≠ "." → ∀ k, k ≠ .target → Q k p) →
      Reach F Q s (deleteLoop F paths s).2 := by
  induction paths with
  | nil =>
    intro s _
    unfold deleteLoop
    exact (reach_releaseBaseDir F Q s).trans (reach_silent rfl rfl rfl rfl)
  | cons path rest ih =>
    intro s hQ
    have hrest : ∀ p ∈ rest, p ≠ "." → ∀ k, k ≠ .target → Q k p :=
      fun p hp => hQ p (List.mem_cons_of_mem _ hp)
    unfold deleteLoop
    split
    · have h0 : Reach F Q s (s.popDelete rest) := reach_silent rfl rfl rfl rfl
      exact h0.trans (ih _ hrest)
    · rename_i hne
      simp only
      have h1 := reach_LstatOrStat F Q path s
      split
      · have h0 : Reach F Q (LstatOrStat F path s).2 ((LstatOrStat F path s).2.popDelete rest) :=
          reach_silent rfl rfl rfl rfl
        exact (h1.trans h0).trans (ih _ hrest)
      · exact h1.trans (reach_deleteEntry F Q path (hQ path (List.mem_cons_self _ _) hne) _ _)

/-! ## The calls each engine function makes, and what it leaves alone -/

theorem newCalls_of_log {s1 s2 : Sync σ} {l : List Call} (h : s2.log = s1.log ++ l) :
    newCalls s1 s2 = l := by
  simp [newCalls, h]

theorem extends_refl (P : Call → Prop) (s : Sync σ) : Extends P s s := ⟨[], by simp, by simp⟩

theorem extends_of_log_eq {P : Call → Prop} {s s' : Sync σ} (h : s'.log = s.log) :
    Extends P s s' := ⟨[], by simp [h], by simp⟩

theorem extends_trans {P : Call → Prop} {s1 s2 s3 : Sync σ} (h1 : Extends P s1 s2)
    (h2 : Extends P s2 s3) : Extends P s1 s3 := by
  obtain ⟨c1, e1, p1⟩ := h1
  obtain ⟨c2, e2, p2⟩ := h2
  refine ⟨c1 ++ c2, by rw [e2, e1, List.append_assoc], ?_⟩
  intro c hc
  rcases List.mem_append.1 hc with h | h
  · exact p1 c h
  · exact p2 c h

theorem extends_mono {P P' : Call → Prop} {s1 s2 : Sync σ} (h : Extends P s1 s2)
    (hpq : ∀ c, P c → P' c) : Extends P' s1 s2 := by
  obtain ⟨c1, e1, p1⟩ := h
  exact ⟨c1, e1, fun c hc => hpq c (p1 c hc)⟩

theorem extends_logCall {P : Call → Prop} (s : Sync σ) (c : Call) (hc : P c) :
    Extends P s (s.logCall c) := ⟨[c], rfl, by simpa using hc⟩

theorem extends_call {P : Call → Prop} (F : Fs σ) (s : Sync σ) (c : Call) (hc : P c) :
    Extends P s (s.call F c).2 := ⟨[c], rfl, by simpa using hc⟩

theorem extends_new {P : Call → Prop} {s1 s2 : Sync σ} (h : Extends P s1 s2) :
    ∀ c ∈ newCalls s1 s2, P c := by
  obtain ⟨l, e, p⟩ := h
  rw [newCalls_of_log e]
  exact p

theorem newCalls_append {P P' : Call → Prop} {s1 s2 s3 : Sync σ} (h1 : Extends P s1 s2)
    (h2 : Extends P' s2 s3) : newCalls s1 s3 = newCalls s1 s2 ++ newCalls s2 s3 := by
  obtain ⟨c1, e1, _⟩ := h1
  obtain ⟨c2, e2, _⟩ := h2
  rw [newCalls_of_log e1, newCalls_of_log e2]
  exact newCalls_of_log (by rw [e2, e1, List.append_assoc])

theorem extends_LstatOrStat {P : Call → Prop} (F : Fs σ) (name : String) (s : Sync σ)
    (hP : P (F.lstatCall name)) : Extends P s (LstatOrStat F name s).2 :=
  extends_logCall s _ hP

theorem extends_restoreBaseDir {P : Call → Prop} (F : Fs σ) (s : Sync σ)
    (hP : P (.chtimes s.baseDirPath s.baseDirModTime s.baseDirModTime)) :
    Extends P s (restoreBaseDir F s).2 := by
  unfold restoreBaseDir
  split
  · simp only
    split
    · exact extends_call F s _ hP
    · exact extends_trans (extends_call F s _ hP) (extends_of_log_eq rfl)
  · exact extends_refl _ _

theorem restoreBaseDir_modTime (F : Fs σ) (s : Sync σ) :
    (restoreBaseDir F s).2.baseDirModTime = s.baseDirModTime := by
  unfold restoreBaseDir
  split
  · simp only
    split <;> rfl
  · rfl

theorem extends_snapshotBaseDir {P : Call → Prop} (F : Fs σ) (D : String) (s : Sync σ)
    (hP : P (F.lstatCall D)) : Extends P s (snapshotBaseDir F D s).2 := by
  unfold snapshotBaseDir
  split
  · simp only
    split
    · exact extends_LstatOrStat F D s hP
    · exact extends_trans (extends_LstatOrStat F D s hP) (extends_of_log_eq rfl)
  · exact extends_refl _ _

theorem extends_preserveBaseDir {P : Call → Prop} (F : Fs σ) (D : String) (s : Sync σ)
    (hP1 : P (.chtimes s.baseDirPath s.baseDirModTime s.baseDirModTime))
    (hP2 : P (F.lstatCall D)) : Extends P s (preserveBaseDir F D s).2 := by
  unfold preserveBaseDir
  split
  · exact extends_refl _ _
  · simp only
    split
    · exact extends_restoreBaseDir F s hP1
    · exact extends_trans (extends_restoreBaseDir F s hP1) (extends_snapshotBaseDir F D _ hP2)

theorem extends_syncStatOwner {P : Call → Prop} (F : Fs σ) (hdr : Header) (fi : FileInfo)
    (s : Sync σ) (hP1 : P (ownerCall hdr)) (hP2 : P (F.lstatCall (normalizePath hdr.name))) :
    Extends P s (syncStatOwner F hdr fi s).2 := by
  unfold syncStatOwner
  simp only
  split
  · have h1 := extends_call F s (ownerCall hdr) hP1
    split
    · exact h1
    · have h2 : Extends P (s.call F (ownerCall hdr)).2
          ((s.call F (ownerCall hdr)).2.markOwner hdr.uid hdr.gid) := extends_of_log_eq rfl
      have h3 := extends_LstatOrStat F (normalizePath hdr.name)
        ((s.call F (ownerCall hdr)).2.markOwner hdr.uid hdr.gid) hP2
      split <;> exact extends_trans (extends_trans h1 h2) h3
  · exact extends_refl _ _

theorem extends_syncStatMode {P : Call → Prop} (F : Fs σ) (hdr : Header) (fi : FileInfo)
    (s : Sync σ) (hP : P (.chmod (normalizePath hdr.name) hdr.fileMode)) :
    Extends P s (syncStatMode F hdr fi s).2 := by
  unfold syncStatMode
  simp only
  split
  · have h1 := extends_call F s _ hP
    split
    · exact h1
    · exact extends_trans h1 (extends_of_log_eq rfl)
  · exact extends_refl _ _

theorem extends_syncStatTime {P : Call → Prop} (F : Fs σ) (hdr : Header) (fi : FileInfo)
    (s : Sync σ) (hP : P (.chtimes (normalizePath hdr.name) hdr.modTime hdr.modTime)) :
    Extends P s (syncStatTime F hdr fi s).2 := by
  unfold syncStatTime
  simp only
  split
  · have h1 := extends_call F s _ hP
    split
    · exact h1
    · exact extends_trans h1 (extends_of_log_eq rfl)
  · exact extends_refl _ _

theorem extends_syncStatWith (F : Fs σ) (hdr : Header) (fi : FileInfo) (s : Sync σ) :
    Extends (isSyncStatCall F hdr) s (syncStatWith F hdr fi s).2 := by
  unfold syncStatWith
  simp only
  have h1 := extends_syncStatOwner (P := isSyncStatCall F hdr) F hdr fi s (Or.inr (Or.inl rfl))
    (Or.inl rfl)
  split
  · exact h1
  · rename_i fi2 _
    have h2 := extends_syncStatMode (P := isSyncStatCall F hdr) F hdr fi2
      (syncStatOwner F hdr fi s).2 (Or.inr (Or.inr (Or.inl rfl)))
    split
    · exact extends_trans h1 h2
    · exact extends_trans (extends_trans h1 h2)
        (extends_syncStatTime F hdr fi2 _ (Or.inr (Or.inr (Or.inr rfl))))

theorem extends_syncStat (F : Fs σ) (hdr : Header) (fi : Option FileInfo) (s : Sync σ) :
    Extends (isSyncStatCall F hdr) s (syncStat F hdr fi s).2 := by
  unfold syncStat
  simp only
  split
  · exact extends_syncStatWith F hdr _ s
  · have h1 := extends_LstatOrStat (P := isSyncStatCall F hdr) F (normalizePath hdr.name) s
      (Or.inl rfl)
    split
    · exact h1
    · exact extends_trans h1 (extends_syncStatWith F hdr _ _)

theorem extends_syncStatWrapped (F : Fs σ) (hdr : Header) (fi : Option FileInfo) (s : Sync σ) :
    Extends (isSyncStatCall F hdr) s (syncStatWrapped F hdr fi s).2 := by
  unfold syncStatWrapped
  simp only
  split <;> exact extends_syncStat F hdr fi s

theorem stable_of_rest {s s' : Sync σ} (h : s'.rest = s.rest) : s'.stable = s.stable := by
  simp only [Sync.rest, Prod.mk.injEq] at h
  obtain ⟨h1, h2, h3, h4, h5, h6⟩ := h
  simp [Sync.stable, h1, h2, h3, h4, h5, h6]

theorem rest_restoreBaseDir (F : Fs σ) (s : Sync σ) : (restoreBaseDir F s).2.rest = s.rest := by
  unfold restoreBaseDir
  split
  · simp only
    split <;> rfl
  · rfl

theorem rest_snapshotBaseDir (F : Fs σ) (D : String) (s : Sync σ) :
    (snapshotBaseDir F D s).2.rest = s.rest := by
  unfold snapshotBaseDir
  split
  · simp only
    split <;> rfl
  · rfl

theorem rest_preserveBaseDir (F : Fs σ) (D : String) (s : Sync σ) :
    (preserveBaseDir F D s).2.rest = s.rest := by
  unfold preserveBaseDir
  split
  · rfl
  · simp only
    split
    · exact rest_restoreBaseDir F s
    · exact (rest_snapshotBaseDir F D _).trans (rest_restoreBaseDir F s)

theorem rest_removeExisting (F : Fs σ) (path : String) (c : Call) (msg : String) (s : Sync σ) :
    (removeExisting F path c msg s).2.rest = s.rest := by
  unfold removeExisting
  simp only
  split
  · exact rest_preserveBaseDir F _ s
  · split <;> exact rest_preserveBaseDir F _ s

theorem rest_dropUnless (F : Fs σ) (path : String) (keep : FileInfo → Bool) (c : Call)
    (msg : String) (fi : Option FileInfo) (s : Sync σ) :
    (dropUnless F path keep c msg fi s).2.2.rest = s.rest := by
  unfold dropUnless
  split
  · rfl
  · split
    · rfl
    · exact rest_removeExisting F path c msg s

theorem rest_retarget (F : Fs σ) (hdr : Header) (fi : Option FileInfo) (s : Sync σ) :
    (retarget F hdr fi s).2.2.rest = s.rest := by
  unfold retarget
  simp only
  split
  · rfl
  · split
    · rfl
    · split
      · exact rest_removeExisting F _ _ _ _
      · rfl

theorem rest_checkLinkTarget (F : Fs σ) (hdr : Header) (fi : Option FileInfo) (s : Sync σ) :
    (checkLinkTarget F hdr fi s).2.2.rest = s.rest := by
  unfold checkLinkTarget
  simp only
  split
  · rfl
  · split
    · rfl
    · split
      · exact rest_removeExisting F _ _ _ _
      · rfl

theorem stable_syncStatOwner (F : Fs σ) (hdr : Header) (fi : FileInfo) (s : Sync σ) :
    (syncStatOwner F hdr fi s).2.stable = s.stable := by
  unfold syncStatOwner
  simp only
  split
  · split
    · rfl
    · split <;> rfl
  · rfl

theorem stable_syncStatMode (F : Fs σ) (hdr : Header) (fi : FileInfo) (s : Sync σ) :
    (syncStatMode F hdr fi s).2.stable = s.stable := by
  unfold syncStatMode
  simp only
  split
  · split <;> rfl
  · rfl

theorem stable_syncStatTime (F : Fs σ) (hdr : Header) (fi : FileInfo) (s : Sync σ) :
    (syncStatTime F hdr fi s).2.stable = s.stable := by
  unfold syncStatTime
  simp only
  split
  · split <;> rfl
  · rfl

theorem stable_syncStatWith (F : Fs σ) (hdr : Header) (fi : FileInfo) (s : Sync σ) :
    (syncStatWith F hdr fi s).2.stable = s.stable := by
  unfold syncStatWith
  simp only
  split
  · exact stable_syncStatOwner F hdr fi s
  · split
    · exact (stable_syncStatMode F hdr _ _).trans (stable_syncStatOwner F hdr fi s)
    · exact ((stable_syncStatTime F hdr _ _).trans (stable_syncStatMode F hdr _ _)).trans
        (stable_syncStatOwner F hdr fi s)

theorem stable_syncStat (F : Fs σ) (hdr : Header) (fi : Option FileInfo) (s : Sync σ) :
    (syncStat F hdr fi s).2.stable = s.stable := by
  unfold syncStat
  simp only
  split
  · exact stable_syncStatWith F hdr _ s
  · split
    · rfl
    · exact stable_syncStatWith F hdr _ _

theorem stable_syncStatWrapped (F : Fs σ) (hdr : Header) (fi : Option FileInfo) (s : Sync σ) :
    (syncStatWrapped F hdr fi s).2.stable = s.stable := by
  unfold syncStatWrapped
  simp only
  split <;> exact stable_syncStat F hdr fi s

theorem added_of_stable {s s' : Sync σ} (h : s'.stable = s.stable) :
    s'.upd.update.Added = s.upd.update.Added := by
  simp only [Sync.stable, Prod.mk.injEq] at h
  exact h.2.2.2.2.2.2.1

/-! ## Regular files: when the body is written -/

/-- `syncRegularFile` on a path that holds a regular file: the Metadata Syncer alone
when size and mtime agree with the header, the write otherwise. -/
theorem syncRegularFile_of_regular (F : Fs σ) (hdr : Header) (body : String) (s : Sync σ)
    (fi : FileInfo) (hstat : F.lstatOrStat s.fs (normalizePath hdr.name) = .ok fi)
    (hreg : modeIsRegular fi.mode = true) :
    syncRegularFile F hdr body s =
      if hdr.size = fi.size ∧ hdr.modTime = fi.modTime then
        syncStatWrapped F hdr (some fi) (LstatOrStat F (normalizePath hdr.name) s).2
      else
        createEntry F hdr (.writeReader (normalizePath hdr.name) body) "failed to write file: "
          Sync.markAdded (LstatOrStat F (normalizePath hdr.name) s).2 := by
  have h1 : (LstatOrStat F (normalizePath hdr.name) s).1 = .ok fi := hstat
  unfold syncRegularFile
  simp only [h1, statResult, dropUnless, hreg, if_true, upToDate, decide_eq_true_eq]

theorem extends_createEntry {P : Call → Prop} (F : Fs σ) (hdr : Header) (c : Call)
    (msg : String) (mark : Sync σ → Sync σ) (s : Sync σ) (hmark : ∀ s1, (mark s1).log = s1.log)
    (hP1 : P (.chtimes s.baseDirPath s.baseDirModTime s.baseDirModTime))
    (hP2 : P (F.lstatCall (filepathDir (normalizePath hdr.name)))) (hP3 : P c)
    (hP4 : ∀ c', isSyncStatCall F hdr c' → P c') :
    Extends P s (createEntry F hdr c msg mark s).2 := by
  unfold createEntry
  simp only
  have h1 := extends_preserveBaseDir F (filepathDir (normalizePath hdr.name)) s hP1 hP2
  split
  · exact h1
  · have h2 := extends_trans h1 (extends_call F _ c hP3)
    split
    · exact h2
    · exact extends_trans (extends_trans h2 (extends_of_log_eq (hmark _)))
        (extends_mono (extends_syncStatWrapped F hdr none _) hP4)

/-- A successful `createEntry` has made its creating call and applied its marks. -/
theorem createEntry_ok (F : Fs σ) (hdr : Header) (c : Call) (msg : String)
    (mark : Sync σ → Sync σ) (s : Sync σ) (hmark : ∀ s1, (mark s1).log = s1.log)
    (hok : (createEntry F hdr c msg mark s).1 = none) :
    c ∈ newCalls s (createEntry F hdr c msg mark s).2 ∧
    (createEntry F hdr c msg mark s).2.stable =
      (mark ((preserveBaseDir F (filepathDir (normalizePath hdr.name)) s).2.call F c).2).stable := by
  unfold createEntry at hok ⊢
  simp only at hok ⊢
  have h1 := extends_preserveBaseDir (P := fun _ => True) F
    (filepathDir (normalizePath hdr.name)) s trivial trivial
  cases hp : (preserveBaseDir F (filepathDir (normalizePath hdr.name)) s).1 with
  | some e => simp [hp] at hok
  | none =>
    cases hcall : ((preserveBaseDir F (filepathDir (normalizePath hdr.name)) s).2.call F c).1 with
    | some e => simp [hp, hcall] at hok
    | none =>
      simp only [hp, hcall]
      constructor
      · have e1 := extends_call (P := fun _ => True) F
          (preserveBaseDir F (filepathDir (normalizePath hdr.name)) s).2 c trivial
        have e2 : Extends (fun _ => True)
            ((preserveBaseDir F (filepathDir (normalizePath hdr.name)) s).2.call F c).2
            (syncStatWrapped F hdr none
              (mark ((preserveBaseDir F (filepathDir (normalizePath hdr.name)) s).2.call F c).2)).2 :=
          extends_trans (extends_of_log_eq (hmark _))
            (extends_mono (extends_syncStatWrapped F hdr none _) (fun _ _ => trivial))
        rw [newCalls_append (extends_trans h1 e1) e2, newCalls_append h1 e1]
        simp [newCalls, Sync.call]
      · exact stable_syncStatWrapped F hdr none _

/-! ## Type changes: remove, then create -/

theorem calledBefore_append {a b : Call} {l1 l2 : List Call} (ha : a ∈ l1) (hb : b ∈ l2) :
    CalledBefore a b (l1 ++ l2) := by
  obtain ⟨x, y, rfl⟩ := List.append_of_mem ha
  obtain ⟨u, v, rfl⟩ := List.append_of_mem hb
  exact ⟨x, y ++ u, v, by simp⟩

theorem calledBefore_prepend {a b : Call} {l : List Call} (l0 : List Call)
    (h : CalledBefore a b l) : CalledBefore a b (l0 ++ l) := by
  obtain ⟨x, y, z, rfl⟩ := h
  exact ⟨l0 ++ x, y, z, by simp⟩

theorem extends_removeExisting {P : Call → Prop} (F : Fs σ) (path : String) (c : Call)
    (msg : String) (s : Sync σ)
    (hP1 : P (.chtimes s.baseDirPath s.baseDirModTime s.baseDirModTime))
    (hP2 : P (F.lstatCall (filepathDir path))) (hP3 : P c) :
    Extends P s (removeExisting F path c msg s).2 := by
  unfold removeExisting
  simp only
  have h1 := extends_preserveBaseDir F (filepathDir path) s hP1 hP2
  split
  · exact h1
  · split <;> exact extends_trans h1 (extends_call F _ c hP3)

/-- A successful `removeExisting` has made its removing call. -/
theorem removeExisting_ok (F : Fs σ) (path : String) (c : Call) (msg : String) (s : Sync σ)
    (hok : (removeExisting F path c msg s).1 = none) :
    c ∈ newCalls s (removeExisting F path c msg s).2 := by
  unfold removeExisting at hok ⊢
  simp only at hok ⊢
  have h1 := extends_preserveBaseDir (P := fun _ => True) F (filepathDir path) s trivial trivial
  cases hp : (preserveBaseDir F (filepathDir path) s).1 with
  | some e => simp [hp] at hok
  | none =>
    cases hcall : ((preserveBaseDir F (filepathDir path) s).2.call F c).1 with
    | some e => simp [hp, hcall] at hok
    | none =>
      simp only [hp, hcall]
      rw [newCalls_append h1 (extends_call (P := fun _ => True) F _ c trivial)]
      simp [newCalls, Sync.call]

/-- The heart of a replacement: `removeExisting` then `createEntry`, both successful,
record the removing call before the creating call and mark the update added. -/
theorem replace_ok (F : Fs σ) (hdr : Header) (rm mk : Call) (msg1 msg2 : String)
    (mark : Sync σ → Sync σ) (s : Sync σ) (hlog : ∀ s1, (mark s1).log = s1.log)
    (hadd : ∀ s1, (mark s1).upd.update.Added = true)
    (h1 : (removeExisting F (normalizePath hdr.name) rm msg1 s).1 = none)
    (h2 : (createEntry F hdr mk msg2 mark
      (removeExisting F (normalizePath hdr.name) rm msg1 s).2).1 = none) :
    CalledBefore rm mk (newCalls s (createEntry F hdr mk msg2 mark
      (removeExisting F (normalizePath hdr.name) rm msg1 s).2).2) ∧
    (createEntry F hdr mk msg2 mark
      (removeExisting F (normalizePath hdr.name) rm msg1 s).2).2.upd.update.Added = true := by
  have e1 := extends_removeExisting (P := fun _ => True) F (normalizePath hdr.name) rm msg1 s
    trivial trivial trivial
  have e2 := extends_createEntry (P := fun _ => True) F hdr mk msg2 mark
    (removeExisting F (normalizePath hdr.name) rm msg1 s).2 hlog trivial trivial trivial
    (fun _ _ => trivial)
  have c2 := createEntry_ok F hdr mk msg2 mark _ hlog h2
  constructor
  · rw [newCalls_append e1 e2]
    exact calledBefore_append (removeExisting_ok F _ rm msg1 s h1) c2.1
  · rw [added_of_stable c2.2]
    exact hadd _

theorem dispatched_synced (msg path : String) (r : Option Error × Sync σ)
    (h : (dispatched msg path r).1 = .synced) : r.1 = none ∧ (dispatched msg path r).2 = r.2 := by
  unfold dispatched at h ⊢
  cases hr : r.1 with
  | some e => simp [hr] at h
  | none => simp [hr]

theorem calledBefore_after_read {a b : Call} (s s1 s2 : Sync σ)
    (e0 : Extends (fun _ => True) s s1) (e1 : Extends (fun _ => True) s1 s2)
    (h : CalledBefore a b (newCalls s1 s2)) : CalledBefore a b (newCalls s s2) := by
  rw [newCalls_append e0 e1]
  exact calledBefore_prepend _ h

/-- C8 (amended): a tar entry whose path holds an entry of another file-mode type (for a
hard-link entry: an entry with another inode than the link target) is replaced: when
the step succeeds, the removing call is recorded, then the creating call, and the
update is marked added. -/
theorem typeChange_replaces (F : Fs σ) (ent : TarEntry) (s : Sync σ)
    (h : OtherKindOnDisk F ent s) (hok : (dispatch F ent s).1 = .synced) :
    CalledBefore (removeCallOf ent.hdr) (createCallOf ent) (newCalls s (dispatch F ent s).2) ∧
      (dispatch F ent s).2.upd.update.Added = true := by
  have hRD : TypeReg ≠ TypeDir := by decide
  have hSR : TypeSymlink ≠ TypeReg := by decide
  have hSD : TypeSymlink ≠ TypeDir := by decide
  have hLR : TypeLink ≠ TypeReg := by decide
  have hLD : TypeLink ≠ TypeDir := by decide
  have hLS : TypeLink ≠ TypeSymlink := by decide
  have hDR : TypeDir ≠ TypeReg := by decide
  rcases h with ⟨ht, fi, hfi, hk⟩ | ⟨ht, fi, hfi, hk⟩ | ⟨ht, ho, fi, hfi, hk⟩ |
    ⟨ht, ho, fi, ti, hfi, hti, hk⟩
  · -- regular file over something else
    have hl : (LstatOrStat F (normalizePath ent.hdr.name) s).1 = .ok fi := hfi
    have e0 := extends_LstatOrStat (P := fun _ => True) F (normalizePath ent.hdr.name) s trivial
    unfold dispatch at hok ⊢
    simp only [ht, if_true] at hok ⊢
    obtain ⟨h1, h2⟩ := dispatched_synced _ _ _ hok
    rw [h2]
    unfold syncRegularFile at h1 ⊢
    simp only [hl, statResult, dropUnless, hk, Bool.false_eq_true, if_false] at h1 ⊢
    cases hr : (removeExisting F (normalizePath ent.hdr.name)
        (.removeAll (normalizePath ent.hdr.name)) "failed to remove: "
        (LstatOrStat F (normalizePath ent.hdr.name) s).2).1 with
    | some e => simp [hr] at h1
    | none =>
      simp only [hr, upToDate, Bool.false_eq_true, if_false] at h1 ⊢
      have hrep := replace_ok F ent.hdr (.removeAll (normalizePath ent.hdr.name))
        (.writeReader (normalizePath ent.hdr.name) ent.body) "failed to remove: "
        "failed to write file: " Sync.markAdded (LstatOrStat F (normalizePath ent.hdr.name) s).2
        (fun _ => rfl) (fun _ => rfl) hr h1
      refine ⟨?_, hrep.2⟩
      simp only [removeCallOf, createCallOf, ht, hRD, if_false, if_true]
      exact calledBefore_after_read s _ _ e0
        (extends_trans (extends_removeExisting F _ _ _ _ trivial trivial trivial)
          (extends_createEntry F _ _ _ _ _ (fun _ => rfl) trivial trivial trivial
            (fun _ _ => trivial))) hrep.1
  · -- directory over something else
    have hl : (LstatOrStat F (normalizePath ent.hdr.name) s).1 = .ok fi := hfi
    have e0 := extends_LstatOrStat (P := fun _ => True) F (normalizePath ent.hdr.name) s trivial
    unfold dispatch at hok ⊢
    simp only [ht, hDR, if_false, if_true] at hok ⊢
    obtain ⟨h1, h2⟩ := dispatched_synced _ _ _ hok
    rw [h2]
    unfold syncDir at h1 ⊢
    simp only [hl, statResult, dropUnless, hk, decide_False, Bool.false_eq_true, if_false]
      at h1 ⊢
    cases hr : (removeExisting F (normalizePath ent.hdr.name)
        (.remove (normalizePath ent.hdr.name)) "failed to remove: "
        (LstatOrStat F (normalizePath ent.hdr.name) s).2).1 with
    | some e => simp [hr] at h1
    | none =>
      simp only [hr] at h1 ⊢
      have hrep := replace_ok F ent.hdr (.remove (normalizePath ent.hdr.name))
        (.mkdir (normalizePath ent.hdr.name) (modePermOf ent.hdr.fileMode)) "failed to remove: "
        "failed to make file: "
        (fun s => s.markAdded.markMode (modePermOf ent.hdr.fileMode ||| ModeDir))
        (LstatOrStat F (normalizePath ent.hdr.name) s).2
        (fun _ => rfl) (fun _ => rfl) hr h1
      refine ⟨?_, hrep.2⟩
      simp only [removeCallOf, createCallOf, ht, hDR, if_false, if_true]
      exact calledBefore_after_read s _ _ e0
        (extends_trans (extends_removeExisting F _ _ _ _ trivial trivial trivial)
          (extends_createEntry F _ _ _ _ _ (fun _ => rfl) trivial trivial trivial
            (fun _ _ => trivial))) hrep.1
  · -- symlink over something else
    have e0 : Extends (fun _ => True) s (s.logCall (.lstat (normalizePath ent.hdr.name))) :=
      extends_logCall s _ trivial
    unfold dispatch at hok ⊢
    simp only [ht, hSR, hSD, ho, not_true_eq_false, if_false, if_true] at hok ⊢
    obtain ⟨h1, h2⟩ := dispatched_synced _ _ _ hok
    rw [h2]
    unfold syncSymlink at h1 ⊢
    simp only [hfi, statResult, dropUnless, hk, decide_False, Bool.false_eq_true, if_false]
      at h1 ⊢
    cases hr : (removeExisting F (normalizePath ent.hdr.name)
        (.removeAll (normalizePath ent.hdr.name)) "failed to remove: "
        (s.logCall (.lstat (normalizePath ent.hdr.name)))).1 with
    | some e => simp [hr] at h1
    | none =>
      simp only [hr, retarget] at h1 ⊢
      have hrep := replace_ok F ent.hdr (.removeAll (normalizePath ent.hdr.name))
        (.symlink ent.hdr.linkname (normalizePath ent.hdr.name)) "failed to remove: "
        "failed to make link: "
        (fun s => s.markAdded.markLink ent.hdr.linkname)
        (s.logCall (.lstat (normalizePath ent.hdr.name)))
        (fun _ => rfl) (fun _ => rfl) hr h1
      refine ⟨?_, hrep.2⟩
      simp only [removeCallOf, createCallOf, ht, hSR, hSD, if_false, if_true]
      exact calledBefore_after_read s _ _ e0
        (extends_trans (extends_removeExisting F _ _ _ _ trivial trivial trivial)
          (extends_createEntry F _ _ _ _ _ (fun _ => rfl) trivial trivial trivial
            (fun _ _ => trivial))) hrep.1
  · -- hard link over an entry with another inode
    have hl : (LstatOrStat F (normalizePath ent.hdr.name) s).1 = .ok fi := hfi
    have hl2 : (LstatOrStat F (normalizePath ent.hdr.linkname)
        (LstatOrStat F (normalizePath ent.hdr.name) s).2).1 = .ok ti := hti
    have e0 := extends_trans
      (extends_LstatOrStat (P := fun _ => True) F (normalizePath ent.hdr.name) s trivial)
      (extends_LstatOrStat (P := fun _ => True) F (normalizePath ent.hdr.linkname) _ trivial)
    unfold dispatch at hok ⊢
    simp only [ht, hLR, hLD, hLS, ho, not_true_eq_false, if_false, if_true] at hok ⊢
    obtain ⟨h1, h2⟩ := dispatched_synced _ _ _ hok
    rw [h2]
    unfold syncLink at h1 ⊢
    simp only [hl, statResult, checkLinkTarget, hl2, ne_eq, hk, not_false_eq_true, if_true]
      at h1 ⊢
    cases hr : (removeExisting F (normalizePath ent.hdr.name)
        (.removeAll (normalizePath ent.hdr.name)) "failed to remove link: "
        (LstatOrStat F (normalizePath ent.hdr.linkname)
          (LstatOrStat F (normalizePath ent.hdr.name) s).2).2).1 with
    | some e => simp [hr] at h1
    | none =>
      simp only [hr] at h1 ⊢
      have hrep := replace_ok F ent.hdr (.removeAll (normalizePath ent.hdr.name))
        (.link (normalizePath ent.hdr.linkname) (normalizePath ent.hdr.name))
        "failed to remove link: " "failed to make link: " Sync.markAdded
        (LstatOrStat F (normalizePath ent.hdr.linkname)
          (LstatOrStat F (normalizePath ent.hdr.name) s).2).2
        (fun _ => rfl) (fun _ => rfl) hr h1
      refine ⟨?_, hrep.2⟩
      simp only [removeCallOf, createCallOf, ht, hLR, hLD, hLS, if_false, if_true]
      exact calledBefore_after_read s _ _ e0
        (extends_trans (extends_removeExisting F _ _ _ _ trivial trivial trivial)
          (extends_createEntry F _ _ _ _ _ (fun _ => rfl) trivial trivial trivial
            (fun _ _ => trivial))) hrep.1

/-! ## Noop detection -/

theorem quiet_refl (s : Sync σ) : Quiet s s := ⟨rfl, rfl, rfl, rfl, extends_refl _ _⟩

theorem quiet_trans {s1 s2 s3 : Sync σ} (h1 : Quiet s1 s2) (h2 : Quiet s2 s3) : Quiet s1 s3 :=
  ⟨h2.1.trans h1.1, h2.2.1.trans h1.2.1, h2.2.2.1.trans h1.2.2.1, h2.2.2.2.1.trans h1.2.2.2.1,
    extends_trans h1.2.2.2.2 h2.2.2.2.2⟩

theorem quiet_logCall (s : Sync σ) (c : Call) (hc : c.isMutation = false) :
    Quiet s (s.logCall c) := ⟨rfl, rfl, rfl, rfl, extends_logCall s c hc⟩

theorem quiet_LstatOrStat (F : Fs σ) (name : String) (s : Sync σ) :
    Quiet s (LstatOrStat F name s).2 := quiet_logCall s _ (lstatCall_isMutation F name)

/-- With matching attributes the Metadata Syncer does nothing at all. -/
theorem syncStatWith_noop (F : Fs σ) (hdr : Header) (fi : FileInfo) (s : Sync σ)
    (h : AttrsMatch s.opts hdr fi) : syncStatWith F hdr fi s = (none, s) := by
  obtain ⟨h1, h2, h3⟩ := h
  have ho : syncStatOwner F hdr fi s = (.ok fi, s) := by
    unfold syncStatOwner
    simp only
    split
    · rename_i hc
      obtain ⟨hw, hne⟩ := hc
      obtain ⟨hu, hg⟩ := h1 hw
      rcases hne with hne | hne
      · exact absurd hu hne
      · exact absurd hg hne
    · rfl
  have hm : syncStatMode F hdr fi s = (none, s) := by
    unfold syncStatMode
    simp only
    split
    · rename_i hc
      exact absurd (h2 hc.1) hc.2
    · rfl
  have ht : syncStatTime F hdr fi s = (none, s) := by
    unfold syncStatTime
    simp only
    split
    · rename_i hc
      exact absurd h3 hc
    · rfl
  unfold syncStatWith
  simp only [ho, hm, ht]

theorem syncStatWrapped_noop (F : Fs σ) (hdr : Header) (fi : FileInfo) (s : Sync σ)
    (h : AttrsMatch s.opts hdr fi) : syncStatWrapped F hdr (some fi) s = (none, s) := by
  unfold syncStatWrapped syncStat
  simp only [syncStatWith_noop F hdr fi s h]

theorem opts_of_rest {s s' : Sync σ} (h : s'.rest = s.rest) : s'.opts = s.opts := by
  simp only [Sync.rest, Prod.mk.injEq] at h
  exact h.2.1

/-- A tar entry that matches the destination is dispatched without a mutation and
without an update. -/
theorem dispatch_noop (F : Fs σ) (ent : TarEntry) (s : Sync σ)
    (h : EntryMatches F s.fs s.opts ent) :
    (dispatch F ent s).1 = .synced ∧ Quiet s (dispatch F ent s).2 := by
  have hRD : TypeReg ≠ TypeDir := by decide
  have hSR : TypeSymlink ≠ TypeReg := by decide
  have hSD : TypeSymlink ≠ TypeDir := by decide
  have hLR : TypeLink ≠ TypeReg := by decide
  have hLD : TypeLink ≠ TypeDir := by decide
  have hLS : TypeLink ≠ TypeSymlink := by decide
  have hDR : TypeDir ≠ TypeReg := by decide
  rcases h with ⟨ht, fi, hfi, hk, hsz, ha⟩ | ⟨ht, fi, hfi, hk, ha⟩ |
    ⟨ht, ho, fi, hfi, hk, hrl, ha⟩ | ⟨ht, ho, fi, ti, hfi, hti, hk, ha⟩
  · have hl : (LstatOrStat F (normalizePath ent.hdr.name) s).1 = .ok fi := hfi
    have hq := quiet_LstatOrStat F (normalizePath ent.hdr.name) s
    have ha' : AttrsMatch (LstatOrStat F (normalizePath ent.hdr.name) s).2.opts ent.hdr fi := ha
    have hr : syncRegularFile F ent.hdr ent.body s =
        (none, (LstatOrStat F (normalizePath ent.hdr.name) s).2) := by
      unfold syncRegularFile
      simp only [hl, statResult, dropUnless, hk, if_true, upToDate, hsz, ha.2.2, and_self,
        decide_True, syncStatWrapped_noop F ent.hdr fi _ ha']
    unfold dispatch dispatched
    simp only [ht, if_true, hr]
    exact ⟨trivial, hq⟩
  · have hl : (LstatOrStat F (normalizePath ent.hdr.name) s).1 = .ok fi := hfi
    have hq := quiet_LstatOrStat F (normalizePath ent.hdr.name) s
    have ha' : AttrsMatch (LstatOrStat F (normalizePath ent.hdr.name) s).2.opts ent.hdr fi := ha
    have hr : syncDir F ent.hdr s =
        (none, (LstatOrStat F (normalizePath ent.hdr.name) s).2) := by
      unfold syncDir
      simp only [hl, statResult, dropUnless, hk, decide_True, if_true,
        syncStatWrapped_noop F ent.hdr fi _ ha']
    unfold dispatch dispatched
    simp only [ht, hDR, if_false, if_true, hr]
    exact ⟨trivial, hq⟩
  · have hq := quiet_trans (quiet_logCall s (.lstat (normalizePath ent.hdr.name)) rfl)
      (quiet_logCall _ (.readlink (normalizePath ent.hdr.name)) rfl)
    have ha' : AttrsMatch ((s.logCall (.lstat (normalizePath ent.hdr.name))).logCall
        (.readlink (normalizePath ent.hdr.name))).opts ent.hdr fi := ha
    have hrl' : F.readlink (s.logCall (.lstat (normalizePath ent.hdr.name))).fs
        (normalizePath ent.hdr.name) = .ok ent.hdr.linkname := hrl
    have hr : syncSymlink F ent.hdr s =
        (none, (s.logCall (.lstat (normalizePath ent.hdr.name))).logCall
          (.readlink (normalizePath ent.hdr.name))) := by
      unfold syncSymlink
      simp only [hfi, statResult, dropUnless, hk, decide_True, if_true, retarget, hrl',
        ne_eq, not_true_eq_false, if_false, syncStatWrapped_noop F ent.hdr fi _ ha']
    unfold dispatch dispatched
    simp only [ht, hSR, hSD, ho, not_true_eq_false, if_false, if_true, hr]
    exact ⟨trivial, hq⟩
  · have hl : (LstatOrStat F (normalizePath ent.hdr.name) s).1 = .ok fi := hfi
    have hl2 : (LstatOrStat F (normalizePath ent.hdr.linkname)
        (LstatOrStat F (normalizePath ent.hdr.name) s).2).1 = .ok ti := hti
    have hq := quiet_trans (quiet_LstatOrStat F (normalizePath ent.hdr.name) s)
      (quiet_LstatOrStat F (normalizePath ent.hdr.linkname) _)
    have ha' : AttrsMatch (LstatOrStat F (normalizePath ent.hdr.linkname)
        (LstatOrStat F (normalizePath ent.hdr.name) s).2).2.opts ent.hdr fi := ha
    have hr : syncLink F ent.hdr s =
        (none, (LstatOrStat F (normalizePath ent.hdr.linkname)
          (LstatOrStat F (normalizePath ent.hdr.name) s).2).2) := by
      unfold syncLink
      simp only [hl, statResult, checkLinkTarget, hl2, ne_eq, hk, not_true_eq_false, if_false,
        syncStatWrapped_noop F ent.hdr fi _ ha']
    unfold dispatch dispatched
    simp only [ht, hLR, hLD, hLS, ho, not_true_eq_false, if_false, if_true, hr]
    exact ⟨trivial, hq⟩

theorem mem_insertSorted {k x : String} {l : List String} (h : x ∈ insertSorted k l) :
    x = k ∨ x ∈ l := by
  induction l with
  | nil => simpa [insertSorted] using h
  | cons y ys ih =>
    unfold insertSorted at h
    split at h
    · rcases List.mem_cons.1 h with h | h
      · exact Or.inr (by simp [h])
      · rcases ih h with h | h
        · exact Or.inl h
        · exact Or.inr (List.mem_cons_of_mem _ h)
    · rcases List.mem_cons.1 h with h | h
      · exact Or.inl h
      · exact Or.inr h

theorem mem_sortStrings {x : String} {l : List String} (h : x ∈ sortStrings l) : x ∈ l := by
  induction l with
  | nil => simp [sortStrings] at h
  | cons y ys ih =>
    have h' : x ∈ insertSorted y (sortStrings ys) := h
    rcases mem_insertSorted h' with h | h
    · simp [h]
    · exact List.mem_cons_of_mem _ (ih h)

theorem mem_setInsert {m : List String} {k x : String} (h : x ∈ setInsert m k) :
    x ∈ m ∨ x = k := by
  unfold setInsert at h
  split at h
  · exact Or.inl h
  · simpa using h

theorem mem_walk_fold (paths : List String) :
    ∀ (m : List String) (x : String),
      x ∈ paths.foldl (fun m p => setInsert m (normalizePath p)) m →
      x ∈ m ∨ ∃ p ∈ paths, x = normalizePath p := by
  induction paths with
  | nil => intro m x h; exact Or.inl h
  | cons p ps ih =>
    intro m x h
    rcases ih _ x h with h | ⟨q, hq, hx⟩
    · rcases mem_setInsert h with h | h
      · exact Or.inl h
      · exact Or.inr ⟨p, List.mem_cons_self _ _, h⟩
    · exact Or.inr ⟨q, List.mem_cons_of_mem _ hq, hx⟩

/-- The tar loop over entries that all match the destination reaches the end of the
stream without a mutation and without an update. -/
theorem tarLoop_noop (F : Fs σ) (entries : List TarEntry) :
    ∀ s : Sync σ, (∀ ent ∈ entries, EntryMatches F s.fs s.opts ent) →
      s.tarReader.fail = none →
      (tarLoop F entries s).1 = none ∧ (tarLoop F entries s).2.fs = s.fs ∧
      (tarLoop F entries s).2.baseDirPath = s.baseDirPath ∧
      (tarLoop F entries s).2.err = s.err ∧
      (tarLoop F entries s).2.deletePaths = s.deletePaths ∧
      Extends (fun c => c.isMutation = false) s (tarLoop F entries s).2 ∧
      (∀ k ∈ (tarLoop F entries s).2.pathMap.getD [],
        k ∈ s.pathMap.getD [] ∧ ∀ ent ∈ entries, k ≠ normalizePath ent.hdr.name) := by
  induction entries with
  | nil =>
    intro s _ hf
    unfold tarLoop
    simp only [hf]
    exact ⟨by trivial, by trivial, by trivial, by trivial, by trivial,
      extends_logCall s _ rfl, fun k hk => ⟨hk, by simp⟩⟩
  | cons ent rest ih =>
    intro s hm hf
    have hd := dispatch_noop F ent (s.beginEntry ent rest) (hm ent (List.mem_cons_self _ _))
    obtain ⟨hd1, hq1, hq2, hq3, hq4, hq5⟩ := hd
    have hupd : (dispatch F ent (s.beginEntry ent rest)).2.upd =
        { Path := normalizePath ent.hdr.name } := by
      simp only [Sync.rest, Prod.mk.injEq] at hq4
      exact hq4.2.2.2.2.2
    have hopts : (dispatch F ent (s.beginEntry ent rest)).2.opts = s.opts := by
      simp only [Sync.rest, Prod.mk.injEq] at hq4
      exact hq4.2.1
    have htr : (dispatch F ent (s.beginEntry ent rest)).2.tarReader.fail = none := by
      simp only [Sync.rest, Prod.mk.injEq] at hq4
      rw [hq4.1]
      exact hf
    have hpm : (dispatch F ent (s.beginEntry ent rest)).2.pathMap = s.pathMap := by
      simp only [Sync.rest, Prod.mk.injEq] at hq4
      exact hq4.2.2.1
    have herr : (dispatch F ent (s.beginEntry ent rest)).2.err = s.err := by
      simp only [Sync.rest, Prod.mk.injEq] at hq4
      exact hq4.2.2.2.2.1
    have hdp : (dispatch F ent (s.beginEntry ent rest)).2.deletePaths = s.deletePaths := by
      simp only [Sync.rest, Prod.mk.injEq] at hq4
      exact hq4.2.2.2.1
    have hempty : ((dispatch F ent (s.beginEntry ent rest)).2.forget
        (normalizePath ent.hdr.name)).upd.update.IsEmpty = true := by
      simp [Sync.forget, hupd, Update.IsEmpty]
    have hrec := ih ((dispatch F ent (s.beginEntry ent rest)).2.forget (normalizePath ent.hdr.name))
      (by
        intro e he
        have h1 : ((dispatch F ent (s.beginEntry ent rest)).2.forget
            (normalizePath ent.hdr.name)).fs = s.fs := hq1
        have h2 : ((dispatch F ent (s.beginEntry ent rest)).2.forget
            (normalizePath ent.hdr.name)).opts = s.opts := hopts
        rw [h1, h2]
        exact hm e (List.mem_cons_of_mem _ he))
      htr
    obtain ⟨r1, r2, r3, r4, r5, r6, r7⟩ := hrec
    have hbegin : Extends (fun c => c.isMutation = false) s (s.beginEntry ent rest) :=
      ⟨[.tarNext], rfl, by simp [Call.isMutation]⟩
    have hfor : Extends (fun c => c.isMutation = false)
        (dispatch F ent (s.beginEntry ent rest)).2
        ((dispatch F ent (s.beginEntry ent rest)).2.forget (normalizePath ent.hdr.name)) :=
      extends_of_log_eq rfl
    unfold tarLoop
    simp only [hd1, hempty, not_true_eq_false, if_false]
    refine ⟨r1, ?_, ?_, ?_, ?_, ?_, ?_⟩
    · rw [r2]; exact hq1
    · rw [r3]; exact hq2
    · rw [r4]; exact herr
    · rw [r5]; exact hdp
    · exact extends_trans (extends_trans (extends_trans hbegin hq5) hfor) r6
    · intro k hk
      obtain ⟨hk1, hk2⟩ := r7 k hk
      have hk3 : k ∈ (s.pathMap.getD []) ∧ k ≠ normalizePath ent.hdr.name := by
        simp only [Sync.forget] at hk1
        rw [hpm] at hk1
        cases hp : s.pathMap with
        | none => simp [hp] at hk1
        | some m => simpa [hp] using hk1
      refine ⟨hk3.1, ?_⟩
      intro e he
      rcases List.mem_cons.1 he with he | he
      · rw [he]; exact hk3.2
      · exact hk2 e he

/-- The deletion loop over a queue that holds nothing but `.` removes nothing. -/
theorem deleteLoop_dots (F : Fs σ) (paths : List String) :
    ∀ s : Sync σ, (∀ p ∈ paths, p = ".") → s.baseDirPath = "" →
      (deleteLoop F paths s).1 = false ∧ (deleteLoop F paths s).2.fs = s.fs ∧
      (deleteLoop F paths s).2.err = none ∧ (deleteLoop F paths s).2.log = s.log := by
  induction paths with
  | nil =>
    intro s _ hb
    unfold deleteLoop preserveBaseDir
    simp [hb, Sync.setErr]
  | cons p rest ih =>
    intro s hp hb
    have h1 : p = "." := hp p (List.mem_cons_self _ _)
    unfold deleteLoop
    simp only [h1, if_true]
    exact ih (s.popDelete rest) (fun q hq => hp q (List.mem_cons_of_mem _ hq)) hb

theorem New_fields (F : Fs σ) (fs : σ) (tar : TarReader) (opts : List Opt) :
    (New F fs tar opts).fs = fs ∧ (New F fs tar opts).tarReader = tar ∧
    (New F fs tar opts).opts = resolveOptions opts ∧ (New F fs tar opts).pathMap = none ∧
    (New F fs tar opts).deletePaths = none ∧ (New F fs tar opts).baseDirPath = "" ∧
    (∀ c ∈ (New F fs tar opts).log, c = .stat ".") := by
  unfold New probeInfo
  simp only
  split_ifs <;> simp [Sync.fail, Sync.logCall]

theorem flattenPathMap_fields (s : Sync σ) :
    (flattenPathMap s).fs = s.fs ∧ (flattenPathMap s).log = s.log ∧
    (flattenPathMap s).baseDirPath = s.baseDirPath ∧
    (flattenPathMap s).baseDirModTime = s.baseDirModTime ∧
    (flattenPathMap s).err = s.err ∧ (flattenPathMap s).opts = s.opts ∧
    (flattenPathMap s).tarReader = s.tarReader ∧ (flattenPathMap s).pathMap = s.pathMap := by
  unfold flattenPathMap
  split <;> simp

/-- `Next` once the inventory is there and the tar loop reaches the end of the
stream: the deletion loop on the flattened inventory. -/
theorem Next_of_eof (F : Fs σ) (s s1 : Sync σ) (he : s.err = none)
    (hw : ensurePathMap F s = (none, s1))
    (ht : (tarLoop F s1.tarReader.entries s1).1 = none) :
    Next F s = deleteLoop F
      ((flattenPathMap (tarLoop F s1.tarReader.entries s1).2).deletePaths.getD [])
      (flattenPathMap (tarLoop F s1.tarReader.entries s1).2) := by
  unfold Next
  simp only [he, Option.isSome_none, Bool.false_eq_true, if_false, hw, ht]

/-- A run over a tar whose entries all match the destination, on a destination that
holds nothing else, makes no change and yields no update. -/
theorem run_of_matching_destination (F : Fs σ) (fs : σ) (tar : TarReader) (opts : List Opt) (paths : List String)
    (fuel : Nat) (hfuel : 0 < fuel)
    (hnew : (New F fs tar opts).err = none) (hfail : tar.fail = none)
    (hwalk : F.walk fs = .ok paths)
    (hinv : ∀ p ∈ paths, normalizePath p = "." ∨
      ∃ ent ∈ tar.entries, normalizePath p = normalizePath ent.hdr.name)
    (hmatch : ∀ ent ∈ tar.entries, EntryMatches F fs (resolveOptions opts) ent) :
    ∃ s' : Sync σ, Run F fuel (New F fs tar opts) = some ([], none, s') ∧ s'.fs = fs ∧
      ∀ c ∈ s'.log, c.isMutation = false := by
  obtain ⟨n1, n2, n3, n4, n5, n6, n7⟩ := New_fields F fs tar opts
  -- the state after the walk
  obtain ⟨s1, hs1⟩ : ∃ s1, s1 = ((New F fs tar opts).logCall .walk).setPathMap
      (paths.foldl (fun m p => setInsert m (normalizePath p)) []) := ⟨_, rfl⟩
  have hw : ensurePathMap F (New F fs tar opts) = (none, s1) := by
    unfold ensurePathMap walkFs
    simp only [n4, n1, hwalk, hs1]
  have f1 : s1.fs = fs := by rw [hs1]; exact n1
  have f2 : s1.opts = resolveOptions opts := by rw [hs1]; exact n3
  have f3 : s1.tarReader = tar := by rw [hs1]; exact n2
  have f4 : s1.deletePaths = none := by rw [hs1]; exact n5
  have f5 : s1.baseDirPath = "" := by rw [hs1]; exact n6
  have f6 : s1.pathMap = some (paths.foldl (fun m p => setInsert m (normalizePath p)) []) := by
    rw [hs1]; rfl
  have f7 : s1.log = (New F fs tar opts).log ++ [.walk] := by rw [hs1]; rfl
  have htl := tarLoop_noop F tar.entries s1
    (by intro e he; rw [f1, f2]; exact hmatch e he) (by rw [f3]; exact hfail)
  obtain ⟨t1, t2, t3, t4, t5, t6, t7⟩ := htl
  obtain ⟨g1, g2, g3, g4, g5, g6, g7, g8⟩ := flattenPathMap_fields (tarLoop F tar.entries s1).2
  -- the queue holds nothing but `.`
  have hdots : ∀ p ∈ (flattenPathMap (tarLoop F tar.entries s1).2).deletePaths.getD [],
      p = "." := by
    intro p hp
    unfold flattenPathMap at hp
    rw [t5, f4] at hp
    simp only [Option.getD_some] at hp
    obtain ⟨k1, k2⟩ := t7 p (mem_sortStrings hp)
    rw [f6] at k1
    simp only [Option.getD_some] at k1
    rcases mem_walk_fold paths [] p k1 with h | ⟨q, hq, hpq⟩
    · simp at h
    · rcases hinv q hq with h | ⟨e, he, hqe⟩
      · rw [hpq]; exact h
      · exact absurd (hpq.trans hqe) (k2 e he)
  obtain ⟨d1, d2, d3, d4⟩ := deleteLoop_dots F _ _ hdots (by rw [g3, t3]; exact f5)
  have hnext := Next_of_eof F (New F fs tar opts) s1 hnew hw (by rw [f3]; exact t1)
  rw [f3] at hnext
  refine ⟨(deleteLoop F ((flattenPathMap (tarLoop F tar.entries s1).2).deletePaths.getD [])
    (flattenPathMap (tarLoop F tar.entries s1).2)).2, ?_, ?_, ?_⟩
  · obtain ⟨n, rfl⟩ : ∃ n, fuel = n + 1 := ⟨fuel - 1, by omega⟩
    unfold Run runLoop
    rw [hnext]
    generalize deleteLoop F ((flattenPathMap (tarLoop F tar.entries s1).2).deletePaths.getD [])
      (flattenPathMap (tarLoop F tar.entries s1).2) = r at d1 d3
    obtain ⟨b, s2⟩ := r
    simp only at d1 d3
    subst d1
    simp [Sync.Err, d3]
  · rw [d2, g1, t2]
    exact f1
  · rw [d4, g2]
    obtain ⟨calls, hc1, hc2⟩ := t6
    rw [hc1, f7]
    intro c hc
    rcases List.mem_append.1 hc with h | h
    · rcases List.mem_append.1 h with h | h
      · rw [n7 c h]; rfl
      · simp at h; rw [h]; rfl
    · exact hc2 c h

/-- C3 (amended): noop detection.  When the constructor records no error, the tar
stream ends without a read failure, every tar entry is of a kind whose option is
enabled and already matches the destination, and the walk reports no path absent from
the tar, `Run` returns an empty update list and a nil error, leaves the destination as
it was and records no mutating call. -/
theorem noop_run (F : Fs σ) (fs : σ) (tar : TarReader) (opts : List Opt) (paths : List String)
    (fuel : Nat) (hfuel : 0 < fuel)
    (hnew : (New F fs tar opts).err = none) (hfail : tar.fail = none)
    (hwalk : F.walk fs = .ok paths)
    (hinv : ∀ p ∈ paths, normalizePath p = "." ∨
      ∃ ent ∈ tar.entries, normalizePath p = normalizePath ent.hdr.name)
    (hmatch : ∀ ent ∈ tar.entries, EntryMatches F fs (resolveOptions opts) ent) :
    ∃ s' : Sync σ, Run F fuel (New F fs tar opts) = some ([], none, s') ∧ s'.fs = fs ∧
      ∀ c ∈ s'.log, c.isMutation = false :=
  run_of_matching_destination F fs tar opts paths fuel hfuel hnew hfail hwalk hinv hmatch

/-! ## The capability probe -/

/-- C6: `New` records an error exactly when an enabled option lacks its capability
(symlinks: `Symlinker` or `Lchowner`; hard links: `Linker` or an inode number in the
metadata; ownership: uid and gid in the metadata; hard links or ownership: the probing
`Stat(".")`), and with the error set the first `Next` returns false and leaves the
state, tar reader and trace included, as it was. -/
theorem New_err_iff_capability_missing (F : Fs σ) (fs : σ) (t : TarReader) (opts : List Opt) :
    ((New F fs t opts).err ≠ none ↔
      ((resolveOptions opts).withSymlinks = true ∧
          (F.hasLstater = false ∨ F.hasSymlinkCreate = false ∨ F.hasLinkReader = false ∨
            F.hasLchowner = false)) ∨
      ((resolveOptions opts).withHardLinks = true ∧
          (F.hasHardLinker = false ∨ F.infoHasIno = false)) ∨
      ((resolveOptions opts).withOwnership = true ∧ F.infoHasOwner = false) ∨
      (((resolveOptions opts).withHardLinks = true ∨ (resolveOptions opts).withOwnership = true) ∧
          (F.stat fs ".").isOk = false)) ∧
    ((New F fs t opts).err ≠ none →
      Next F (New F fs t opts) = (false, New F fs t opts)) := by
  constructor
  · unfold New
    generalize resolveOptions opts = o
    rcases o with ⟨a, b, c⟩
    simp only [Fs.isSymlinker, probeInfo, Sync.fail, Sync.logCall]
    split_ifs <;> simp_all
    rename_i h
    revert h
    cases F.hasLstater <;> cases F.hasSymlinkCreate <;> simp
    intro _ h
    simp [h]
  · intro h
    unfold Next
    have : (New F fs t opts).err.isSome = true := by
      cases h' : (New F fs t opts).err with
      | none => exact absurd h' h
      | some e => rfl
    simp [this]

/-! ## Invariants of a run -/

theorem ctl_of_rest {s s' : Sync σ} (h : s'.rest = s.rest) : s'.ctl = s.ctl := by
  simp only [Sync.rest, Prod.mk.injEq] at h
  obtain ⟨h1, h2, h3, h4, h5, _⟩ := h
  simp [Sync.ctl, h1, h2, h3, h4, h5]

theorem ctl_of_stable {s s' : Sync σ} (h : s'.stable = s.stable) : s'.ctl = s.ctl := by
  simp only [Sync.stable, Prod.mk.injEq] at h
  obtain ⟨h1, h2, h3, h4, h5, _⟩ := h
  simp [Sync.ctl, h1, h2, h3, h4, h5]


theorem ctl_logCall (s : Sync σ) (c : Call) : (s.logCall c).ctl = s.ctl := rfl

theorem ctl_LstatOrStat (F : Fs σ) (name : String) (s : Sync σ) :
    (LstatOrStat F name s).2.ctl = s.ctl := rfl

theorem ctl_preserveBaseDir (F : Fs σ) (D : String) (s : Sync σ) :
    (preserveBaseDir F D s).2.ctl = s.ctl := ctl_of_rest (rest_preserveBaseDir F D s)

theorem ctl_dropUnless (F : Fs σ) (path : String) (keep : FileInfo → Bool) (c : Call)
    (msg : String) (fi : Option FileInfo) (s : Sync σ) :
    (dropUnless F path keep c msg fi s).2.2.ctl = s.ctl :=
  ctl_of_rest (rest_dropUnless F path keep c msg fi s)

theorem ctl_retarget (F : Fs σ) (hdr : Header) (fi : Option FileInfo) (s : Sync σ) :
    (retarget F hdr fi s).2.2.ctl = s.ctl := ctl_of_rest (rest_retarget F hdr fi s)

theorem ctl_checkLinkTarget (F : Fs σ) (hdr : Header) (fi : Option FileInfo) (s : Sync σ) :
    (checkLinkTarget F hdr fi s).2.2.ctl = s.ctl := ctl_of_rest (rest_checkLinkTarget F hdr fi s)

theorem ctl_syncStatWrapped (F : Fs σ) (hdr : Header) (fi : Option FileInfo) (s : Sync σ) :
    (syncStatWrapped F hdr fi s).2.ctl = s.ctl := ctl_of_stable (stable_syncStatWrapped F hdr fi s)

theorem ctl_createEntry (F : Fs σ) (hdr : Header) (c : Call) (msg : String)
    (mark : Sync σ → Sync σ) (s : Sync σ) (hmark : ∀ s1, (mark s1).ctl = s1.ctl) :
    (createEntry F hdr c msg mark s).2.ctl = s.ctl := by
  unfold createEntry
  simp only
  split
  · exact ctl_preserveBaseDir F _ s
  · split
    · exact ctl_preserveBaseDir F _ s
    · simp only [ctl_syncStatWrapped, hmark]
      exact ctl_preserveBaseDir F _ s

theorem ctl_markAdded (s : Sync σ) : s.markAdded.ctl = s.ctl := rfl

theorem ctl_syncRegularFile (F : Fs σ) (hdr : Header) (body : String) (s : Sync σ) :
    (syncRegularFile F hdr body s).2.ctl = s.ctl := by
  unfold syncRegularFile
  simp only
  split
  · rfl
  · split
    · simp only [ctl_dropUnless, ctl_LstatOrStat]
    · split
      · simp only [ctl_syncStatWrapped, ctl_dropUnless, ctl_LstatOrStat]
      · refine Eq.trans (ctl_createEntry F hdr _ _ _ _ ?_) ?_
        · intro _; rfl
        · simp only [ctl_dropUnless, ctl_LstatOrStat]

theorem ctl_syncDir (F : Fs σ) (hdr : Header) (s : Sync σ) :
    (syncDir F hdr s).2.ctl = s.ctl := by
  unfold syncDir
  simp only
  split
  · rfl
  · split
    · simp only [ctl_dropUnless, ctl_LstatOrStat]
    · split
      · simp only [ctl_syncStatWrapped, ctl_dropUnless, ctl_LstatOrStat]
      · refine Eq.trans (ctl_createEntry F hdr _ _ _ _ ?_) ?_
        · intro _; rfl
        · simp only [ctl_dropUnless, ctl_LstatOrStat]

theorem ctl_syncSymlink (F : Fs σ) (hdr : Header) (s : Sync σ) :
    (syncSymlink F hdr s).2.ctl = s.ctl := by
  unfold syncSymlink
  simp only
  split
  · rfl
  · split
    · simp only [ctl_dropUnless, ctl_logCall]
    · split
      · simp only [ctl_retarget, ctl_dropUnless, ctl_logCall]
      · split
        · simp only [ctl_syncStatWrapped, ctl_retarget, ctl_dropUnless, ctl_logCall]
        · refine Eq.trans (ctl_createEntry F hdr _ _ _ _ ?_) ?_
          · intro _; rfl
          · simp only [ctl_retarget, ctl_dropUnless, ctl_logCall]

theorem ctl_syncLink (F : Fs σ) (hdr : Header) (s : Sync σ) :
    (syncLink F hdr s).2.ctl = s.ctl := by
  unfold syncLink
  simp only
  split
  · rfl
  · split
    · simp only [ctl_checkLinkTarget, ctl_LstatOrStat]
    · split
      · simp only [ctl_syncStatWrapped, ctl_checkLinkTarget, ctl_LstatOrStat]
      · refine Eq.trans (ctl_createEntry F hdr _ _ _ _ ?_) ?_
        · intro _; rfl
        · simp only [ctl_checkLinkTarget, ctl_LstatOrStat]

theorem ctl_dispatch (F : Fs σ) (ent : TarEntry) (s : Sync σ) :
    (dispatch F ent s).2.ctl = s.ctl := by
  unfold dispatch dispatched
  simp only
  split_ifs
  · split <;> exact ctl_syncRegularFile F ent.hdr ent.body s
  · split <;> exact ctl_syncDir F ent.hdr s
  · split <;> exact ctl_syncSymlink F ent.hdr s
  · rfl
  · split <;> exact ctl_syncLink F ent.hdr s
  · rfl
  · rfl

theorem ctl_fields {s s' : Sync σ} (h : s'.ctl = s.ctl) :
    s'.tarReader = s.tarReader ∧ s'.opts = s.opts ∧ s'.pathMap = s.pathMap ∧
      s'.deletePaths = s.deletePaths ∧ s'.err = s.err := by
  simpa [Sync.ctl] using h

theorem deleteEntry_error_err (F : Fs σ) (path : String) (e : Error) (s : Sync σ) :
    (deleteEntry F path (.error e) s).2.err ≠ none := by
  unfold deleteEntry
  simp only
  split
  · simp [Sync.setErr]
  · split
    · simp [Sync.setErr]
    · have h1 := (ctl_fields (ctl_preserveBaseDir F (filepathDir path)
        (s.setErr (some (.wrap ("failed to stat: " ++ path) e))))).2.2.2.2
      simp only [Sync.call, Sync.logCall]
      rw [h1]
      simp [Sync.setErr]

/-- The tar loop of one call to `Next` keeps an invariant that each of its stages
keeps. -/
theorem tarLoop_invariant (F : Fs σ) (J : Sync σ → Prop)
    (hentry : ∀ (s : Sync σ) (ent : TarEntry) (rest : List TarEntry), s.err = none →
      s.pathMap ≠ none → s.tarReader.entries = ent :: rest → J s →
      ((dispatch F ent (s.beginEntry ent rest)).1 = .synced →
        J ((dispatch F ent (s.beginEntry ent rest)).2.forget (normalizePath ent.hdr.name))) ∧
      ((dispatch F ent (s.beginEntry ent rest)).1 = .skipped →
        J (dispatch F ent (s.beginEntry ent rest)).2))
    (heof : ∀ s : Sync σ, s.err = none → s.pathMap ≠ none → s.tarReader.entries = [] → J s →
      J (flattenPathMap (s.logCall .tarNext)))
    (entries : List TarEntry) :
    ∀ s : Sync σ, s.err = none → s.pathMap ≠ none → s.tarReader.entries = entries → J s →
      ((tarLoop F entries s).1 = some true → J (tarLoop F entries s).2) ∧
      ((tarLoop F entries s).1 = some false → (tarLoop F entries s).2.err ≠ none) ∧
      ((tarLoop F entries s).1 = none → J (flattenPathMap (tarLoop F entries s).2) ∧
        (tarLoop F entries s).2.err = none ∧ (tarLoop F entries s).2.tarReader.entries = []) := by
  induction entries with
  | nil =>
    intro s he hp hent hJ
    unfold tarLoop
    split
    · exact ⟨by simp, by simp, fun _ => ⟨heof s he hp hent hJ, he, hent⟩⟩
    · exact ⟨by simp, fun _ => by simp [Sync.setErr], by simp⟩
  | cons ent rest ih =>
    intro s he hp hent hJ
    obtain ⟨hsy, hsk⟩ := hentry s ent rest he hp hent hJ
    obtain ⟨c1, _, c3, _, c5⟩ := ctl_fields (ctl_dispatch F ent (s.beginEntry ent rest))
    have de : (dispatch F ent (s.beginEntry ent rest)).2.err = none := c5.trans he
    have dp : (dispatch F ent (s.beginEntry ent rest)).2.pathMap ≠ none := by
      rw [c3]; exact hp
    have dt : (dispatch F ent (s.beginEntry ent rest)).2.tarReader.entries = rest := by
      rw [c1]; rfl
    unfold tarLoop
    simp only
    split
    · exact ⟨by simp, fun _ => by simp [Sync.setErr], by simp⟩
    · rename_i hd
      exact ih _ de dp dt (hsk hd)
    · rename_i hd
      have fp : ((dispatch F ent (s.beginEntry ent rest)).2.forget
          (normalizePath ent.hdr.name)).pathMap ≠ none := by
        simp only [Sync.forget, ne_eq, Option.map_eq_none']
        exact dp
      split
      · exact ⟨fun _ => hsy hd, by simp, by simp⟩
      · exact ih _ de fp dt (hsy hd)

/-- The deletion loop of one call to `Next` keeps an invariant that each of its stages
keeps. -/
theorem deleteLoop_invariant (F : Fs σ) (J Jfin : Sync σ → Prop)
    (hdot : ∀ (s : Sync σ) (rest : List String), s.err = none → s.tarReader.entries = [] →
      s.deletePaths = some ("." :: rest) → J s → J (s.popDelete rest))
    (hskip : ∀ (s : Sync σ) (path : String) (rest : List String), s.err = none →
      s.tarReader.entries = [] → s.deletePaths = some (path :: rest) → path ≠ "." →
      lstatSkips (F.lstatOrStat s.fs path) = true → J s →
      J ((LstatOrStat F path s).2.popDelete rest))
    (hdel : ∀ (s : Sync σ) (path : String) (rest : List String) (fi : FileInfo), s.err = none →
      s.tarReader.entries = [] → s.deletePaths = some (path :: rest) → path ≠ "." →
      F.lstatOrStat s.fs path = .ok fi → J s →
      (deleteEntry F path (.ok fi) (LstatOrStat F path s).2).1 = true →
      J (deleteEntry F path (.ok fi) (LstatOrStat F path s).2).2)
    (hfinal : ∀ s : Sync σ, s.err = none → s.tarReader.entries = [] → s.deletePaths = some [] →
      J s → (preserveBaseDir F "" s).1 = none → Jfin ((preserveBaseDir F "" s).2.setErr none))
    (paths : List String) :
    ∀ s : Sync σ, s.err = none → s.tarReader.entries = [] → s.deletePaths = some paths → J s →
      ((deleteLoop F paths s).1 = true → (deleteLoop F paths s).2.err = none →
        J (deleteLoop F paths s).2) ∧
      ((deleteLoop F paths s).1 = false → (deleteLoop F paths s).2.err = none →
        Jfin (deleteLoop F paths s).2) := by
  induction paths with
  | nil =>
    intro s he hent hd hJ
    unfold deleteLoop
    simp only
    refine ⟨by simp, fun _ h => ?_⟩
    have h1 : (preserveBaseDir F "" s).1 = none := by simpa [Sync.setErr] using h
    rw [h1]
    exact hfinal s he hent hd hJ h1
  | cons path rest ih =>
    intro s he hent hd hJ
    unfold deleteLoop
    split
    · rename_i hdotp
      subst hdotp
      exact ih _ he hent rfl (hdot s rest he hent hd hJ)
    · rename_i hne
      simp only
      split
      · rename_i hs
        exact ih _ he hent rfl (hskip s path rest he hent hd hne hs hJ)
      · cases hl : (LstatOrStat F path s).1 with
        | error e =>
          refine ⟨fun _ h => ?_, fun _ h => ?_⟩
          · exact absurd h (deleteEntry_error_err F path e _)
          · exact absurd h (deleteEntry_error_err F path e _)
        | ok fi =>
          refine ⟨fun h _ => hdel s path rest fi he hent hd hne hl hJ h, fun h h2 => ?_⟩
          exfalso
          revert h h2
          unfold deleteEntry
          simp only
          split
          · simp [Sync.setErr]
          · split
            · simp [Sync.setErr]
            · simp

theorem flattenPathMap_deletePaths (s : Sync σ) :
    (flattenPathMap s).deletePaths = some ((flattenPathMap s).deletePaths.getD []) := by
  unfold flattenPathMap
  split
  · rename_i l h
    simp [h]
  · rfl

/-- One call to `Next` keeps an invariant `J` that each of its stages keeps, and ends
in `Jfin` when it returns false without an error. -/
theorem Next_invariant (F : Fs σ) (J Jfin : Sync σ → Prop)
    (hwalk : ∀ (s : Sync σ) (m : List String), s.err = none → s.pathMap = none →
      (walkFs F s).1 = .ok m → J s → J ((walkFs F s).2.setPathMap m))
    (hentry : ∀ (s : Sync σ) (ent : TarEntry) (rest : List TarEntry), s.err = none →
      s.pathMap ≠ none → s.tarReader.entries = ent :: rest → J s →
      ((dispatch F ent (s.beginEntry ent rest)).1 = .synced →
        J ((dispatch F ent (s.beginEntry ent rest)).2.forget (normalizePath ent.hdr.name))) ∧
      ((dispatch F ent (s.beginEntry ent rest)).1 = .skipped →
        J (dispatch F ent (s.beginEntry ent rest)).2))
    (heof : ∀ s : Sync σ, s.err = none → s.pathMap ≠ none → s.tarReader.entries = [] → J s →
      J (flattenPathMap (s.logCall .tarNext)))
    (hdot : ∀ (s : Sync σ) (rest : List String), s.err = none → s.tarReader.entries = [] →
      s.deletePaths = some ("." :: rest) → J s → J (s.popDelete rest))
    (hskip : ∀ (s : Sync σ) (path : String) (rest : List String), s.err = none →
      s.tarReader.entries = [] → s.deletePaths = some (path :: rest) → path ≠ "." →
      lstatSkips (F.lstatOrStat s.fs path) = true → J s →
      J ((LstatOrStat F path s).2.popDelete rest))
    (hdel : ∀ (s : Sync σ) (path : String) (rest : List String) (fi : FileInfo), s.err = none →
      s.tarReader.entries = [] → s.deletePaths = some (path :: rest) → path ≠ "." →
      F.lstatOrStat s.fs path = .ok fi → J s →
      (deleteEntry F path (.ok fi) (LstatOrStat F path s).2).1 = true →
      J (deleteEntry F path (.ok fi) (LstatOrStat F path s).2).2)
    (hfinal : ∀ s : Sync σ, s.err = none → s.tarReader.entries = [] → s.deletePaths = some [] →
      J s → (preserveBaseDir F "" s).1 = none → Jfin ((preserveBaseDir F "" s).2.setErr none))
    (s : Sync σ) (hJ : J s) :
    ((Next F s).1 = true → (Next F s).2.err = none → J (Next F s).2) ∧
      ((Next F s).1 = false → (Next F s).2.err = none → Jfin (Next F s).2) := by
  unfold Next
  split
  · rename_i he
    refine ⟨by simp, fun _ h => ?_⟩
    simp only at h
    rw [h] at he
    simp at he
  · rename_i he
    have he0 : s.err = none := by
      cases h : s.err with
      | none => rfl
      | some e => simp [h] at he
    simp only
    have hw : (ensurePathMap F s).1 = none →
        (ensurePathMap F s).2.err = none ∧ (ensurePathMap F s).2.pathMap ≠ none ∧
          J (ensurePathMap F s).2 := by
      unfold ensurePathMap
      split
      · rename_i m hm
        intro _
        exact ⟨he0, by simp [hm], hJ⟩
      · rename_i hm
        simp only
        split
        · simp
        · rename_i m hwm
          intro _
          refine ⟨?_, by simp [Sync.setPathMap], hwalk s m he0 hm hwm hJ⟩
          unfold walkFs
          split <;> exact he0
    split
    · exact ⟨by simp, by simp [Sync.setErr]⟩
    · rename_i hwn
      obtain ⟨w1, w2, w3⟩ := hw hwn
      obtain ⟨t1, t2, t3⟩ := tarLoop_invariant F J hentry heof (ensurePathMap F s).2.tarReader.entries
        (ensurePathMap F s).2 w1 w2 rfl w3
      split
      · rename_i b hb
        cases b with
        | true => exact ⟨fun _ _ => t1 hb, by simp⟩
        | false => exact ⟨by simp, fun _ h => absurd h (t2 hb)⟩
      · rename_i hb
        obtain ⟨u1, u2, u3⟩ := t3 hb
        exact deleteLoop_invariant F J Jfin hdot hskip hdel hfinal _ _
          (by unfold flattenPathMap; split <;> exact u2)
          (by unfold flattenPathMap; split <;> exact u3)
          (flattenPathMap_deletePaths _) u1

/-- A run keeps an invariant of `Next`: when `Run` returns no error, the state it leaves
satisfies `Jfin`. -/
theorem runLoop_invariant (F : Fs σ) (J Jfin : Sync σ → Prop)
    (hnext : ∀ s : Sync σ, J s →
      ((Next F s).1 = true → (Next F s).2.err = none → J (Next F s).2) ∧
      ((Next F s).1 = false → (Next F s).2.err = none → Jfin (Next F s).2))
    (fuel : Nat) :
    ∀ (s : Sync σ) (u u' : List PathUpdate) (s' : Sync σ), (s.err = none → J s) →
      runLoop F fuel s u = some (u', s') → s'.err = none → Jfin s' := by
  induction fuel with
  | zero =>
    intro s u u' s' _ h
    simp [runLoop] at h
  | succ n ih =>
    intro s u u' s' hJ h herr
    unfold runLoop at h
    cases he : s.err with
    | some e =>
      have hN : Next F s = (false, s) := by
        unfold Next
        simp [he]
      rw [hN] at h
      simp only [Option.some.injEq, Prod.mk.injEq] at h
      rw [← h.2, he] at herr
      simp at herr
    | none =>
      obtain ⟨n1, n2⟩ := hnext s (hJ he)
      generalize Next F s = r at h n1 n2
      obtain ⟨b, s1⟩ := r
      cases b with
      | true =>
        simp only at h
        exact ih s1 _ u' s' (fun h1 => n1 rfl h1) h herr
      | false =>
        simp only [Option.some.injEq, Prod.mk.injEq] at h
        rw [← h.2] at herr ⊢
        exact n2 rfl herr

theorem Run_invariant (F : Fs σ) (J Jfin : Sync σ → Prop)
    (hnext : ∀ s : Sync σ, J s →
      ((Next F s).1 = true → (Next F s).2.err = none → J (Next F s).2) ∧
      ((Next F s).1 = false → (Next F s).2.err = none → Jfin (Next F s).2))
    (fuel : Nat) (s : Sync σ) (u : List PathUpdate) (s' : Sync σ) (hJ : J s)
    (h : Run F fuel s = some (u, none, s')) : Jfin s' := by
  unfold Run at h
  cases hr : runLoop F fuel s [] with
  | none => simp [hr] at h
  | some r =>
    obtain ⟨u1, s1⟩ := r
    simp only [hr, Option.some.injEq, Prod.mk.injEq] at h
    obtain ⟨_, h2, h3⟩ := h
    subst h3
    exact runLoop_invariant F J Jfin hnext fuel s [] u1 s1 (fun _ => hJ) hr h2

/-! ## The inventory and the deletion phase -/

theorem dispatch_alwaysSynced (F : Fs σ) (ent : TarEntry) (s : Sync σ)
    (h : AlwaysSynced s.opts ent) : (dispatch F ent s).1 ≠ .skipped := by
  have hSR : TypeSymlink ≠ TypeReg := by decide
  have hSD : TypeSymlink ≠ TypeDir := by decide
  have hLR : TypeLink ≠ TypeReg := by decide
  have hLD : TypeLink ≠ TypeDir := by decide
  have hLS : TypeLink ≠ TypeSymlink := by decide
  unfold dispatch dispatched
  simp only
  rcases h with h | h | ⟨h, ho⟩ | ⟨h, ho⟩
  · simp only [h, if_true]
    split <;> simp
  · split_ifs <;> (split <;> simp)
  · simp only [h, hSR, hSD, if_false, if_true, ho, not_true_eq_false]
    split <;> simp
  · simp only [h, hLR, hLD, hLS, if_false, if_true, ho, not_true_eq_false]
    split <;> simp

theorem inventory_walk (F : Fs σ) (P : String → Prop) (s : Sync σ) (m : List String)
    (hp : s.pathMap = none) (hw : (walkFs F s).1 = .ok m) (h : Inventory F P s) :
    Inventory F P ((walkFs F s).2.setPathMap m) := by
  obtain ⟨h1, _, _⟩ := h
  obtain ⟨hd, hg⟩ := h1 hp
  unfold walkFs at hw ⊢
  cases hwk : F.walk s.fs with
  | error e => simp [hwk] at hw
  | ok paths =>
    simp only [hwk, Except.ok.injEq] at hw ⊢
    refine ⟨fun h0 => by simp [Sync.setPathMap] at h0, ?_, ?_⟩
    · intro m' hm' p hpm hne hP
      simp only [Sync.setPathMap, Sync.logCall, Option.some.injEq] at hm'
      subst hm'
      rw [← hw] at hpm
      rcases mem_walk_fold paths [] p hpm with h0 | ⟨q, hq, hpq⟩
      · simp at h0
      · exact hg paths hwk p (by rw [hpq]; exact List.mem_map_of_mem _ hq) hne hP
    · intro l hl
      simp only [Sync.setPathMap, Sync.logCall] at hl
      rw [hd] at hl
      simp at hl

theorem inventory_entry (F : Fs σ) (P : String → Prop) (s : Sync σ) (ent : TarEntry)
    (rest : List TarEntry) (hp : s.pathMap ≠ none) (hent : s.tarReader.entries = ent :: rest)
    (h : Inventory F P s) :
    ((dispatch F ent (s.beginEntry ent rest)).1 = .synced →
      Inventory F P
        ((dispatch F ent (s.beginEntry ent rest)).2.forget (normalizePath ent.hdr.name))) ∧
    ((dispatch F ent (s.beginEntry ent rest)).1 = .skipped →
      Inventory F P (dispatch F ent (s.beginEntry ent rest)).2) := by
  obtain ⟨_, h2, h3⟩ := h
  obtain ⟨c1, c2, c3, c4, _⟩ := ctl_fields (ctl_dispatch F ent (s.beginEntry ent rest))
  have e1 : (dispatch F ent (s.beginEntry ent rest)).2.tarReader.entries = rest := by
    rw [c1]; rfl
  have e2 : (dispatch F ent (s.beginEntry ent rest)).2.opts = s.opts := c2
  have e3 : (dispatch F ent (s.beginEntry ent rest)).2.pathMap = s.pathMap := c3
  have e4 : (dispatch F ent (s.beginEntry ent rest)).2.deletePaths = s.deletePaths := c4
  constructor
  · intro _
    refine ⟨fun h0 => ?_, ?_, ?_⟩
    · simp only [Sync.forget, Option.map_eq_none'] at h0
      exact absurd (e3 ▸ h0) hp
    · intro m hm p hpm hne hP
      simp only [Sync.forget, Option.map_eq_some'] at hm
      obtain ⟨m0, hm0, hf⟩ := hm
      rw [e3] at hm0
      rw [← hf] at hpm
      simp only [List.mem_filter, decide_eq_true_eq] at hpm
      obtain ⟨e, he, ha, hn⟩ := h2 m0 hm0 p hpm.1 hne hP
      rw [hent] at he
      simp only [Sync.forget, e1, e2]
      rcases List.mem_cons.mp he with he | he
      · subst he
        exact absurd hn.symm hpm.2
      · exact ⟨e, he, ha, hn⟩
    · intro l hl
      simp only [Sync.forget] at hl
      rw [e4] at hl
      exact h3 l hl
  · intro hsk
    refine ⟨fun h0 => absurd (e3 ▸ h0) hp, ?_, ?_⟩
    · intro m hm p hpm hne hP
      rw [e3] at hm
      obtain ⟨e, he, ha, hn⟩ := h2 m hm p hpm hne hP
      rw [hent] at he
      rw [e1, e2]
      rcases List.mem_cons.mp he with he | he
      · subst he
        exact absurd hsk (dispatch_alwaysSynced F e (s.beginEntry e rest) ha)
      · exact ⟨e, he, ha, hn⟩
    · intro l hl
      rw [e4] at hl
      exact h3 l hl

theorem inventory_eof (F : Fs σ) (P : String → Prop) (s : Sync σ) (hp : s.pathMap ≠ none)
    (hent : s.tarReader.entries = []) (h : Inventory F P s) :
    Inventory F P (flattenPathMap (s.logCall .tarNext)) := by
  obtain ⟨_, h2, h3⟩ := h
  unfold flattenPathMap
  split
  · exact ⟨fun h0 => absurd h0 hp, h2, h3⟩
  · rename_i hd
    refine ⟨fun h0 => absurd h0 hp, h2, ?_⟩
    intro l hl d hdl hne hP
    simp only [Sync.logCall, Option.some.injEq] at hl
    subst hl
    cases hm : s.pathMap with
    | none => exact hp hm
    | some m =>
      simp only [hm, Option.getD_some] at hdl
      obtain ⟨e, he, _⟩ := h2 m hm d (mem_sortStrings hdl) hne hP
      rw [hent] at he
      simp at he

/-- A state with the same inventory, the same pending entries, the same options and a
deletion queue that is part of the old one. -/
theorem inventory_of_sub (F : Fs σ) (P : String → Prop) (s s' : Sync σ)
    (hp : s.pathMap ≠ none) (h1 : s'.pathMap = s.pathMap) (h2 : s'.tarReader = s.tarReader)
    (h3 : s'.opts = s.opts)
    (h4 : ∀ l', s'.deletePaths = some l' → ∃ l, s.deletePaths = some l ∧ ∀ d ∈ l', d ∈ l)
    (h : Inventory F P s) : Inventory F P s' := by
  obtain ⟨_, i2, i3⟩ := h
  refine ⟨fun h0 => absurd (h1 ▸ h0) hp, ?_, ?_⟩
  · intro m hm
    rw [h2, h3]
    exact i2 m (h1 ▸ hm)
  · intro l' hl' d hd
    obtain ⟨l, hl, hsub⟩ := h4 l' hl'
    exact i3 l hl d (hsub d hd)

/-- A successful `createEntry` has made its creating call with success, and what
follows only changes attributes. -/
theorem createEntry_elim (F : Fs σ) (hdr : Header) (c : Call) (msg : String)
    (mark : Sync σ → Sync σ) (s : Sync σ) (hmark : MarkOnly mark)
    (hok : (createEntry F hdr c msg mark s).1 = none) :
    (preserveBaseDir F (filepathDir (normalizePath hdr.name)) s).1 = none ∧
    ((preserveBaseDir F (filepathDir (normalizePath hdr.name)) s).2.call F c).1 = none ∧
    Reach F QAttr ((preserveBaseDir F (filepathDir (normalizePath hdr.name)) s).2.call F c).2
      (createEntry F hdr c msg mark s).2 := by
  unfold createEntry at hok ⊢
  simp only at hok ⊢
  cases hp : (preserveBaseDir F (filepathDir (normalizePath hdr.name)) s).1 with
  | some e => simp [hp] at hok
  | none =>
    cases hcall : ((preserveBaseDir F (filepathDir (normalizePath hdr.name)) s).2.call F c).1 with
    | some e => simp [hp, hcall] at hok
    | none =>
      simp only [hp, hcall]
      obtain ⟨m1, m2, m3, m4⟩ :=
        hmark ((preserveBaseDir F (filepathDir (normalizePath hdr.name)) s).2.call F c).2
      exact ⟨trivial, trivial, (reach_silent m1 m2 m3 m4).trans (reach_syncStatWrapped F QAttr hdr rfl none _)⟩

/-- The entry `checkLinkTarget` keeps has the inode of the link target. -/
theorem checkLinkTarget_kept (F : Fs σ) (hdr : Header) (fi : Option FileInfo) (s : Sync σ)
    (info : FileInfo) (h : (checkLinkTarget F hdr fi s).2.1 = some info) :
    fi = some info ∧ (checkLinkTarget F hdr fi s).2.2.fs = s.fs ∧
      ∃ ti, F.lstatOrStat s.fs (normalizePath hdr.linkname) = .ok ti ∧ info.ino = ti.ino := by
  unfold checkLinkTarget at h ⊢
  simp only at h ⊢
  cases fi with
  | none => simp at h
  | some info0 =>
    simp only at h ⊢
    cases hti : (LstatOrStat F (normalizePath hdr.linkname) s).1 with
    | error e => simp [hti] at h
    | ok ti =>
      simp only [hti] at h ⊢
      by_cases hino : info0.ino ≠ ti.ino
      · simp [hino] at h
      · simp only [hino, if_false, Option.some.injEq] at h ⊢
        subst h
        refine ⟨rfl, rfl, ti, hti, ?_⟩
        simpa using hino

theorem deleteEntry_fields (F : Fs σ) (path : String) (fi : FileInfo) (s : Sync σ) :
    (deleteEntry F path (.ok fi) s).2.tarReader = s.tarReader ∧
    (deleteEntry F path (.ok fi) s).2.opts = s.opts ∧
    (deleteEntry F path (.ok fi) s).2.pathMap = s.pathMap ∧
    (deleteEntry F path (.ok fi) s).2.deletePaths = s.deletePaths := by
  obtain ⟨c1, c2, c3, c4, _⟩ := ctl_fields (ctl_preserveBaseDir F (filepathDir path) s)
  unfold deleteEntry
  simp only
  split
  · exact ⟨c1, c2, c3, c4⟩
  · split
    · exact ⟨c1, c2, c3, c4⟩
    · exact ⟨c1, c2, c3, c4⟩

theorem inventory_pathMap (F : Fs σ) (P : String → Prop) (s : Sync σ) (l : List String)
    (hd : s.deletePaths = some l) (h : Inventory F P s) : s.pathMap ≠ none := by
  intro hp
  have := (h.1 hp).1
  rw [hd] at this
  simp at this

/-- A run keeps an invariant `Ph` that each stage of `Next` keeps, where the deletion
phase only has to keep it for the paths `P` does not protect, as long as the inventory
guards the protected paths. -/
theorem Run_guarded (F : Fs σ) (P : String → Prop) (Ph Phfin : Sync σ → Prop)
    (hwalk : ∀ (s : Sync σ) (m : List String), s.err = none → s.pathMap = none →
      (walkFs F s).1 = .ok m → Ph s → Ph ((walkFs F s).2.setPathMap m))
    (hentry : ∀ (s : Sync σ) (ent : TarEntry) (rest : List TarEntry), s.err = none →
      s.pathMap ≠ none → s.tarReader.entries = ent :: rest → Ph s →
      ((dispatch F ent (s.beginEntry ent rest)).1 = .synced →
        Ph ((dispatch F ent (s.beginEntry ent rest)).2.forget (normalizePath ent.hdr.name))) ∧
      ((dispatch F ent (s.beginEntry ent rest)).1 = .skipped →
        Ph (dispatch F ent (s.beginEntry ent rest)).2))
    (heof : ∀ s : Sync σ, s.err = none → s.pathMap ≠ none → s.tarReader.entries = [] → Ph s →
      Ph (flattenPathMap (s.logCall .tarNext)))
    (hdot : ∀ (s : Sync σ) (rest : List String), s.err = none → s.tarReader.entries = [] →
      s.deletePaths = some ("." :: rest) → Ph s → Ph (s.popDelete rest))
    (hskip : ∀ (s : Sync σ) (path : String) (rest : List String), s.err = none →
      s.tarReader.entries = [] → s.deletePaths = some (path :: rest) → path ≠ "." →
      lstatSkips (F.lstatOrStat s.fs path) = true → Ph s →
      Ph ((LstatOrStat F path s).2.popDelete rest))
    (hdel : ∀ (s : Sync σ) (path : String) (rest : List String) (fi : FileInfo), s.err = none →
      s.tarReader.entries = [] → s.deletePaths = some (path :: rest) → path ≠ "." → ¬ P path →
      F.lstatOrStat s.fs path = .ok fi → Ph s →
      (deleteEntry F path (.ok fi) (LstatOrStat F path s).2).1 = true →
      Ph (deleteEntry F path (.ok fi) (LstatOrStat F path s).2).2)
    (hfinal : ∀ s : Sync σ, s.err = none → s.tarReader.entries = [] → s.deletePaths = some [] →
      Ph s → (preserveBaseDir F "" s).1 = none → Phfin ((preserveBaseDir F "" s).2.setErr none))
    (fuel : Nat) (s : Sync σ) (u : List PathUpdate) (s' : Sync σ)
    (hI : Inventory F P s) (hP : Ph s) (h : Run F fuel s = some (u, none, s')) : Phfin s' := by
  refine Run_invariant F (fun t => Inventory F P t ∧ Ph t) Phfin ?_ fuel s u s' ⟨hI, hP⟩ h
  intro t ht
  refine Next_invariant F (fun t => Inventory F P t ∧ Ph t) Phfin ?_ ?_ ?_ ?_ ?_ ?_ ?_ t ht
  · intro s m he hp hw hJ
    exact ⟨inventory_walk F P s m hp hw hJ.1, hwalk s m he hp hw hJ.2⟩
  · intro s ent rest he hp hent hJ
    obtain ⟨i1, i2⟩ := inventory_entry F P s ent rest hp hent hJ.1
    obtain ⟨p1, p2⟩ := hentry s ent rest he hp hent hJ.2
    exact ⟨fun hd => ⟨i1 hd, p1 hd⟩, fun hd => ⟨i2 hd, p2 hd⟩⟩
  · intro s he hp hent hJ
    exact ⟨inventory_eof F P s hp hent hJ.1, heof s he hp hent hJ.2⟩
  · intro s rest he hent hd hJ
    refine ⟨inventory_of_sub F P s (s.popDelete rest) (inventory_pathMap F P s _ hd hJ.1)
      rfl rfl rfl ?_ hJ.1, hdot s rest he hent hd hJ.2⟩
    intro l' hl'
    refine ⟨_, hd, ?_⟩
    simp only [Sync.popDelete, Option.some.injEq] at hl'
    subst hl'
    intro d hdm
    exact List.mem_cons_of_mem _ hdm
  · intro s path rest he hent hd hne hsk hJ
    refine ⟨inventory_of_sub F P s ((LstatOrStat F path s).2.popDelete rest)
      (inventory_pathMap F P s _ hd hJ.1) rfl rfl rfl ?_ hJ.1,
      hskip s path rest he hent hd hne hsk hJ.2⟩
    intro l' hl'
    refine ⟨_, hd, ?_⟩
    simp only [Sync.popDelete, Option.some.injEq] at hl'
    subst hl'
    intro d hdm
    exact List.mem_cons_of_mem _ hdm
  · intro s path rest fi he hent hd hne hfi hJ hok
    obtain ⟨f1, f2, f3, f4⟩ := deleteEntry_fields F path fi (LstatOrStat F path s).2
    refine ⟨inventory_of_sub F P s _ (inventory_pathMap F P s _ hd hJ.1) f3 f1 f2 ?_ hJ.1,
      hdel s path rest fi he hent hd hne (hJ.1.2.2 _ hd path (List.mem_cons_self _ _) hne) hfi
        hJ.2 hok⟩
    intro l' hl'
    rw [f4] at hl'
    exact ⟨l', hl', fun d hdm => hdm⟩
  · intro s he hent hd hJ hok
    exact hfinal s he hent hd hJ.2 hok

theorem Run_eq_of_nil (F : Fs σ) (fuel : Nat) (s : Sync σ)
    (h : (Run F fuel s).map (fun r => r.2.1) = some none) :
    Run F fuel s = some (runUpdates F fuel s, none, finalState F fuel s) := by
  unfold runUpdates finalState
  cases hr : Run F fuel s with
  | none => simp [hr] at h
  | some r =>
    obtain ⟨u, e, s1⟩ := r
    simp only [hr, Option.map_some', Option.some.injEq] at h
    simp [h]

/-! ## The reference destination: what each call changes -/

theorem modeTypeOf_chmod (old mode : Nat) :
    modeTypeOf ((old &&& ModeType) ||| (mode &&& RefFs.chmodMask)) = modeTypeOf old := by
  unfold modeTypeOf
  have h0 : RefFs.chmodMask &&& ModeType = 0 := by decide
  rw [Nat.and_comm, Nat.and_or_distrib_left, Nat.and_comm ModeType (old &&& ModeType),
    Nat.and_assoc, Nat.and_self, Nat.and_comm ModeType (mode &&& RefFs.chmodMask), Nat.and_assoc,
    h0, Nat.and_zero, Nat.or_zero]

theorem modeTypeOf_clear (mode : Nat) :
    modeTypeOf (mode ^^^ (mode &&& (ModeSetuid ||| ModeSetgid))) = modeTypeOf mode := by
  unfold modeTypeOf
  have h0 : (ModeSetuid ||| ModeSetgid) &&& ModeType = 0 := by decide
  rw [Nat.and_xor_distrib_right, Nat.and_assoc, h0, Nat.and_zero, Nat.xor_zero]

theorem modeTypeOf_mkdir (perm : Nat) :
    modeTypeOf ((perm &&& RefFs.chmodMask) ||| ModeDir) = ModeDir := by
  unfold modeTypeOf
  have h0 : RefFs.chmodMask &&& ModeType = 0 := by decide
  have h1 : ModeType &&& ModeDir = ModeDir := by decide
  rw [Nat.and_comm, Nat.and_or_distrib_left, Nat.and_comm ModeType (perm &&& RefFs.chmodMask),
    Nat.and_assoc, h0, Nat.and_zero, h1, Nat.zero_or]

namespace RefFs

@[simp] theorem setNode_ino (fs : RefFs) (i : Nat) (n : Inode) : (fs.setNode i n).ino = fs.ino := rfl

@[simp] theorem tick_ino (fs : RefFs) : fs.tick.ino = fs.ino := rfl

@[simp] theorem touchParent_ino (fs : RefFs) (k : Key) : (fs.touchParent k).ino = fs.ino := by
  unfold touchParent; split <;> rfl

theorem addEntry_ino (fs : RefFs) (k : Key) (n : Inode) (q : Key) :
    (fs.addEntry k n).ino q = if q = k then some fs.nextIno else fs.ino q := by
  simp [addEntry]

theorem dropEntries_ino (fs : RefFs) (k : Key) (gone : Key → Bool) (q : Key) :
    (fs.dropEntries k gone).ino q = if gone q then none else fs.ino q := by
  simp [dropEntries]

theorem isPrefixOf_self (k : Key) : k.isPrefixOf k = true := by
  induction k with
  | nil => rfl
  | cons a as ih => simp [List.isPrefixOf, ih]

/-- A call that changes an attribute leaves the directory entries as they are. -/
theorem exec_attr_ino (c : Call) (path : String) (hc : c.isAttrAt path) (fs : RefFs) :
    (asFs.exec c fs).2.ino = fs.ino := by
  cases c <;> simp only [Call.isAttrAt] at hc <;>
    simp only [Fs.exec, asFs, chmod, chown, chtimes] <;> split <;> simp

/-- A call that creates or removes the entry at `path` leaves alone every key that
`path` is not a prefix of. -/
theorem exec_structural_ino (c : Call) (path : String) (hc : c.isStructuralAt path)
    (fs : RefFs) (q : Key) (hq : (keyOf path).isPrefixOf q = false) :
    (asFs.exec c fs).2.ino q = fs.ino q := by
  have hne : q ≠ keyOf path := by
    intro h
    rw [h, isPrefixOf_self] at hq
    simp at hq
  cases c <;> simp only [Call.isStructuralAt] at hc <;> subst hc
  · simp only [Fs.exec, asFs, mkdir]
    split
    · rfl
    · simp [addEntry_ino, hne]
  · simp only [Fs.exec, asFs, writeReader]
    split
    · split <;> simp
    · split
      · rfl
      · simp [addEntry_ino, hne]
  · simp only [Fs.exec, asFs, remove]
    split
    · rfl
    · split
      · rfl
      · split
        · rfl
        · simp [dropEntries_ino, hne]
  · simp only [Fs.exec, asFs, removeAll]
    split
    · rfl
    · split
      · rfl
      · simp [dropEntries_ino, hq]
  · simp only [Fs.exec, asFs, symlink]
    split
    · rfl
    · simp [addEntry_ino, hne]
  · simp only [Fs.exec, asFs, link]
    split
    · rfl
    · split
      · rfl
      · split
        · rfl
        · simp [hne]

/-- A successful `link` leaves both names on one inode. -/
theorem link_ok (fs : RefFs) (oldname newname : String) (h : (fs.link oldname newname).1 = none) :
    ∃ i, (fs.link oldname newname).2.ino (keyOf newname) = some i ∧
      (fs.link oldname newname).2.ino (keyOf oldname) = some i := by
  unfold link at h ⊢
  simp only at h ⊢
  split
  · simp_all
  · rename_i i hi
    split
    · simp_all
    · split
      · simp_all
      · rename_i hb
        refine ⟨i, by simp, ?_⟩
        simp only [tick_ino, touchParent_ino]
        split
        · rfl
        · exact hi

theorem lstat_ok (fs : RefFs) (name : String) (fi : FileInfo) (h : fs.lstat name = .ok fi) :
    ∃ i, fs.ino (keyOf name) = some i ∧ fi = infoOf i (fs.node i) := by
  unfold lstat at h
  split at h
  · simp at h
  · rename_i i hi
    exact ⟨i, hi, by simpa using h.symm⟩

theorem touchParent_node (fs : RefFs) (k : Key) (j : Nat) :
    (fs.touchParent k).node j =
      if fs.ino k.dropLast = some j then { fs.node j with mtime := fs.clock } else fs.node j := by
  unfold touchParent
  split
  · rename_i pi hpi
    simp only [setNode, hpi, Option.some.injEq]
    by_cases h : j = pi
    · subst h; simp
    · simp [h, Ne.symm h]
  · rename_i hpi
    simp [hpi]

@[simp] theorem touchParent_nextIno (fs : RefFs) (k : Key) :
    (fs.touchParent k).nextIno = fs.nextIno := by
  unfold touchParent; split <;> rfl

theorem touchParent_isDir (fs : RefFs) (k : Key) (j : Nat) :
    isDirNode ((fs.touchParent k).node j) = isDirNode (fs.node j) := by
  rw [touchParent_node]
  split <;> rfl

theorem wf_of_same (fs fs' : RefFs) (h1 : fs'.ino = fs.ino) (h2 : fs'.nextIno = fs.nextIno)
    (h3 : ∀ j, isDirNode (fs'.node j) = isDirNode (fs.node j)) (h : WF fs) : WF fs' := by
  obtain ⟨w1, w2⟩ := h
  refine ⟨fun k i hk => ?_, fun k k' i hk hk' hd => ?_⟩
  · rw [h2]; exact w1 k i (h1 ▸ hk)
  · exact w2 k k' i (h1 ▸ hk) (h1 ▸ hk') (by rw [← h3]; exact hd)

theorem wf_touchParent (fs : RefFs) (k : Key) (h : WF fs) : WF (fs.touchParent k) :=
  wf_of_same fs _ (touchParent_ino fs k) (touchParent_nextIno fs k) (touchParent_isDir fs k) h

theorem wf_tick (fs : RefFs) (h : WF fs) : WF fs.tick := h

theorem wf_addEntry (fs : RefFs) (k : Key) (n : Inode) (h : WF fs) : WF (fs.addEntry k n) := by
  obtain ⟨w1, w2⟩ := h
  unfold addEntry
  simp only
  refine wf_tick _ (wf_touchParent _ k ⟨fun q i hq => ?_, fun q q' i hq hq' hd => ?_⟩)
  · simp only at hq ⊢
    split at hq
    · simp only [Option.some.injEq] at hq
      omega
    · have := w1 q i hq
      omega
  · simp only at hq hq' hd
    by_cases hi : i = fs.nextIno
    · subst hi
      split at hq
      · split at hq'
        · simp_all
        · exact absurd (w1 q' _ hq') (by omega)
      · exact absurd (w1 q _ hq) (by omega)
    · simp only [hi, if_false] at hd
      split at hq
      · simp only [Option.some.injEq] at hq
        exact absurd hq.symm hi
      · split at hq'
        · simp only [Option.some.injEq] at hq'
          exact absurd hq'.symm hi
        · exact w2 q q' i hq hq' hd

theorem wf_dropEntries (fs : RefFs) (k : Key) (gone : Key → Bool) (h : WF fs) :
    WF (fs.dropEntries k gone) := by
  obtain ⟨w1, w2⟩ := h
  unfold dropEntries
  simp only
  refine wf_tick _ (wf_touchParent _ k ⟨fun q i hq => ?_, fun q q' i hq hq' hd => ?_⟩)
  · simp only at hq ⊢
    split at hq
    · simp at hq
    · exact w1 q i hq
  · simp only at hq hq' hd
    split at hq
    · simp at hq
    · split at hq'
      · simp at hq'
      · exact w2 q q' i hq hq' hd

theorem wf_setNode (fs : RefFs) (i : Nat) (n : Inode)
    (hn : isDirNode n = isDirNode (fs.node i)) (h : WF fs) : WF (fs.setNode i n) := by
  refine wf_of_same fs _ rfl rfl (fun j => ?_) h
  simp only [setNode]
  split
  · rename_i hj; subst hj; exact hn
  · rfl

theorem isDirNode_mode (n : Inode) (m : Nat) (h : modeTypeOf m = modeTypeOf n.mode) (n' : Inode)
    (hn : n'.mode = m) : isDirNode n' = isDirNode n := by
  unfold isDirNode
  rw [hn, h]

/-- Every call leaves a well-formed destination well-formed. -/
theorem wf_exec (c : Call) (fs : RefFs) (h : WF fs) : WF (asFs.exec c fs).2 := by
  cases c with
  | tarNext => exact h
  | stat _ => exact h
  | lstat _ => exact h
  | readlink _ => exact h
  | walk => exact h
  | mkdir name perm =>
    simp only [Fs.exec, asFs, mkdir]
    split
    · exact h
    · exact wf_addEntry _ _ _ h
  | writeReader name body =>
    simp only [Fs.exec, asFs, writeReader]
    split
    · split
      · exact wf_tick _ (wf_setNode _ _ _ rfl h)
      · exact h
    · split
      · exact h
      · exact wf_addEntry _ _ _ h
  | remove name =>
    simp only [Fs.exec, asFs, remove]
    split
    · exact h
    · split
      · exact h
      · split
        · exact h
        · exact wf_dropEntries _ _ _ h
  | removeAll name =>
    simp only [Fs.exec, asFs, removeAll]
    split
    · exact h
    · split
      · exact h
      · exact wf_dropEntries _ _ _ h
  | chmod name mode =>
    simp only [Fs.exec, asFs, chmod]
    split
    · exact h
    · exact wf_setNode _ _ _ (isDirNode_mode _ _ (modeTypeOf_chmod _ _) _ rfl) h
  | chown name uid gid =>
    simp only [Fs.exec, asFs, chown]
    split
    · exact h
    · refine wf_setNode _ _ _ ?_ h
      split
      · exact isDirNode_mode _ _ (modeTypeOf_clear _) _ rfl
      · rfl
  | lchown name uid gid =>
    simp only [Fs.exec, asFs, chown]
    split
    · exact h
    · refine wf_setNode _ _ _ ?_ h
      split
      · exact isDirNode_mode _ _ (modeTypeOf_clear _) _ rfl
      · rfl
  | chtimes name atime mtime =>
    simp only [Fs.exec, asFs, chtimes]
    split
    · exact h
    · exact wf_setNode _ _ _ rfl h
  | symlink target name =>
    simp only [Fs.exec, asFs, symlink]
    split
    · exact h
    · exact wf_addEntry _ _ _ h
  | link oldname newname =>
    simp only [Fs.exec, asFs, link]
    split
    · exact h
    · rename_i i hi
      split
      · exact h
      · rename_i hnd
        split
        · exact h
        · obtain ⟨w1, w2⟩ := h
          refine wf_tick _ (wf_touchParent _ _ ⟨fun q j hq => ?_, fun q q' j hq hq' hd => ?_⟩)
          · simp only at hq ⊢
            split at hq
            · simp only [Option.some.injEq] at hq
              subst hq
              exact w1 _ _ hi
            · exact w1 q j hq
          · simp only at hq hq' hd
            have hji : j ≠ i := by
              intro hji
              subst hji
              exact hnd hd
            split at hq
            · simp only [Option.some.injEq] at hq
              exact absurd hq.symm hji
            · split at hq'
              · simp only [Option.some.injEq] at hq'
                exact absurd hq'.symm hji
              · exact w2 q q' j hq hq' hd

theorem createBlocked_none (fs : RefFs) (k : Key) (h : fs.createBlocked k = none) :
    fs.ino k = none ∧ ∃ pi, fs.ino k.dropLast = some pi ∧ isDirNode (fs.node pi) = true := by
  unfold createBlocked at h
  split at h
  · simp at h
  · rename_i hn
    split at h
    · simp at h
    · rename_i pi hpi
      split at h
      · rename_i hd
        exact ⟨hn, pi, hpi, hd⟩
      · simp at h

theorem addEntry_node (fs : RefFs) (k : Key) (n : Inode) (j : Nat) (hj : j < fs.nextIno)
    (hk : fs.ino k = none) :
    (fs.addEntry k n).node j =
      if fs.ino k.dropLast = some j then { fs.node j with mtime := fs.clock } else fs.node j := by
  have hne : j ≠ fs.nextIno := by omega
  have hne' : fs.nextIno ≠ j := by omega
  simp only [addEntry, tick, touchParent_node]
  by_cases hkk : k.dropLast = k
  · simp [hkk, hne, hne', hk]
  · simp [hkk, hne]

theorem dropEntries_node (fs : RefFs) (k : Key) (gone : Key → Bool) (j : Nat)
    (hp : fs.ino k.dropLast ≠ some j) : (fs.dropEntries k gone).node j = fs.node j := by
  simp only [dropEntries, tick, touchParent_node]
  by_cases hg : gone k.dropLast = true
  · simp [hg]
  · simp [hg, hp]

theorem dropEntries_isDir (fs : RefFs) (k : Key) (gone : Key → Bool) (j : Nat) :
    isDirNode ((fs.dropEntries k gone).node j) = isDirNode (fs.node j) := by
  simp only [dropEntries, tick]
  exact touchParent_isDir _ k j

theorem addEntry_isDir (fs : RefFs) (k : Key) (n : Inode) (j : Nat) (hj : j < fs.nextIno) :
    isDirNode ((fs.addEntry k n).node j) = isDirNode (fs.node j) := by
  have hne : j ≠ fs.nextIno := by omega
  simp only [addEntry, tick]
  rw [touchParent_isDir]
  simp [hne]

theorem not_dir_of_regular (n : Inode) (h : modeIsRegular n.mode = true) :
    isDirNode n = false := by
  unfold modeIsRegular at h
  unfold isDirNode modeTypeOf
  have h0 : (0 : Nat) ≠ ModeDir := by decide
  simp only [decide_eq_true_eq] at h
  rw [h]
  simpa using h0

/-- A call that creates or removes the entry at `path` keeps the kind of every inode in
use. -/
theorem exec_structural_isDir (c : Call) (path : String) (hc : c.isStructuralAt path)
    (fs : RefFs) (j : Nat) (hj : j < fs.nextIno) :
    isDirNode ((asFs.exec c fs).2.node j) = isDirNode (fs.node j) := by
  cases c <;> simp only [Call.isStructuralAt] at hc <;> subst hc
  · simp only [Fs.exec, asFs, mkdir]
    split
    · rfl
    · exact addEntry_isDir _ _ _ j hj
  · simp only [Fs.exec, asFs, writeReader]
    split
    · split
      · simp only [tick, setNode]
        split
        · rename_i h; subst h; rfl
        · rfl
      · rfl
    · split
      · rfl
      · exact addEntry_isDir _ _ _ j hj
  · simp only [Fs.exec, asFs, remove]
    split
    · rfl
    · split
      · rfl
      · split
        · rfl
        · exact dropEntries_isDir _ _ _ j
  · simp only [Fs.exec, asFs, removeAll]
    split
    · rfl
    · split
      · rfl
      · exact dropEntries_isDir _ _ _ j
  · simp only [Fs.exec, asFs, symlink]
    split
    · rfl
    · exact addEntry_isDir _ _ _ j hj
  · simp only [Fs.exec, asFs, link]
    split
    · rfl
    · split
      · rfl
      · split
        · rfl
        · simp only [tick]
          exact touchParent_isDir _ _ j

/-- A call that creates or removes the entry at `path` changes no directory inode but
the one of the parent of `path`. -/
theorem exec_structural_node (c : Call) (path : String) (hc : c.isStructuralAt path)
    (fs : RefFs) (j : Nat) (hj : j < fs.nextIno) (hd : isDirNode (fs.node j) = true)
    (hp : fs.ino (keyOf path).dropLast ≠ some j) : (asFs.exec c fs).2.node j = fs.node j := by
  cases c <;> simp only [Call.isStructuralAt] at hc <;> subst hc
  · simp only [Fs.exec, asFs, mkdir]
    split
    · rfl
    · rename_i hb
      rw [addEntry_node _ _ _ j hj (createBlocked_none _ _ hb).1, if_neg hp]
  · simp only [Fs.exec, asFs, writeReader]
    split
    · split
      · rename_i i _ hreg
        simp only [tick, setNode]
        split
        · rename_i h
          subst h
          rw [not_dir_of_regular _ hreg] at hd
          simp at hd
        · rfl
      · rfl
    · split
      · rfl
      · rename_i hb
        dsimp only
        rw [addEntry_node _ _ _ j hj (createBlocked_none _ _ hb).1, if_neg hp]
  · simp only [Fs.exec, asFs, remove]
    split
    · rfl
    · split
      · rfl
      · split
        · rfl
        · exact dropEntries_node _ _ _ j hp
  · simp only [Fs.exec, asFs, removeAll]
    split
    · rfl
    · split
      · rfl
      · exact dropEntries_node _ _ _ j hp
  · simp only [Fs.exec, asFs, symlink]
    split
    · rfl
    · rename_i hb
      rw [addEntry_node _ _ _ j hj (createBlocked_none _ _ hb).1, if_neg hp]
  · simp only [Fs.exec, asFs, link]
    split
    · rfl
    · rename_i i hi
      split
      · rfl
      · rename_i hnd
        split
        · rfl
        · have hij : i ≠ j := by
            intro hij
            subst hij
            exact hnd hd
          simp only [tick, touchParent_node]
          refine if_neg (fun h => ?_)
          split at h
          · exact hij (Option.some.inj h)
          · exact hp h

/-- A call that changes an attribute of `path` changes no inode but the one of
`path`. -/
theorem exec_attr_node (c : Call) (path : String) (hc : c.isAttrAt path) (fs : RefFs) (j : Nat)
    (hp : fs.ino (keyOf path) ≠ some j) : (asFs.exec c fs).2.node j = fs.node j := by
  cases c <;> simp only [Call.isAttrAt] at hc <;> subst hc <;>
    simp only [Fs.exec, asFs, chmod, chown, chtimes] <;> split <;>
    first
    | rfl
    | (rename_i i hi
       simp only [setNode]
       split
       · rename_i h
         subst h
         exact absurd hi hp
       · rfl)

theorem exec_attr_isDir (c : Call) (path : String) (hc : c.isAttrAt path) (fs : RefFs) (j : Nat) :
    isDirNode ((asFs.exec c fs).2.node j) = isDirNode (fs.node j) := by
  cases c <;> simp only [Call.isAttrAt] at hc <;> subst hc
  · simp only [Fs.exec, asFs, chmod]
    split
    · rfl
    · simp only [setNode]
      split
      · rename_i h; subst h
        exact isDirNode_mode _ _ (modeTypeOf_chmod _ _) _ rfl
      · rfl
  · simp only [Fs.exec, asFs, chown]
    split
    · rfl
    · simp only [setNode]
      split
      · rename_i h; subst h
        split
        · exact isDirNode_mode _ _ (modeTypeOf_clear _) _ rfl
        · rfl
      · rfl
  · simp only [Fs.exec, asFs, chown]
    split
    · rfl
    · simp only [setNode]
      split
      · rename_i h; subst h
        split
        · exact isDirNode_mode _ _ (modeTypeOf_clear _) _ rfl
        · rfl
      · rfl
  · simp only [Fs.exec, asFs, chtimes]
    split
    · rfl
    · simp only [setNode]
      split
      · rename_i h; subst h; rfl
      · rfl

theorem exec_attr_nextIno (c : Call) (path : String) (hc : c.isAttrAt path) (fs : RefFs) :
    (asFs.exec c fs).2.nextIno = fs.nextIno := by
  cases c <;> simp only [Call.isAttrAt] at hc <;>
    simp only [Fs.exec, asFs, chmod, chown, chtimes] <;> split <;> rfl

/-- A successful `chtimes` sets the mtime of the inode behind the name. -/
theorem chtimes_ok (fs : RefFs) (name : String) (a t : Int) (h : (fs.chtimes name a t).1 = none) :
    ∃ j, fs.ino (keyOf name) = some j ∧ ((fs.chtimes name a t).2.node j).mtime = t := by
  unfold chtimes at h ⊢
  split
  · rename_i hn
    simp [hn] at h
  · rename_i j hj
    exact ⟨j, hj, by simp [setNode]⟩

/-- `chmod` and `chown` leave every mtime alone. -/
theorem chmod_mtime (fs : RefFs) (name : String) (mode : Nat) (j : Nat) :
    ((fs.chmod name mode).2.node j).mtime = (fs.node j).mtime := by
  unfold chmod
  split
  · rfl
  · simp only [setNode]
    split
    · rename_i h; subst h; rfl
    · rfl

theorem chown_mtime (fs : RefFs) (name : String) (uid gid : Int) (j : Nat) :
    ((fs.chown name uid gid).2.node j).mtime = (fs.node j).mtime := by
  unfold chown
  split
  · rfl
  · simp only [setNode]
    split
    · rename_i h; subst h; rfl
    · rfl

/-- A successful `mkdir` has made a directory with a fresh inode where nothing was. -/
theorem mkdir_ok (fs : RefFs) (name : String) (perm : Nat) (h : (fs.mkdir name perm).1 = none) :
    fs.ino (keyOf name) = none ∧ (∃ pi, fs.ino (keyOf name).dropLast = some pi) ∧
      (fs.mkdir name perm).2.ino (keyOf name) = some fs.nextIno ∧
      isDirNode ((fs.mkdir name perm).2.node fs.nextIno) = true := by
  unfold mkdir at h ⊢
  simp only at h ⊢
  cases hb : fs.createBlocked (keyOf name) with
  | some e => simp [hb] at h
  | none =>
    simp only [hb]
    have hb' := hb
    unfold createBlocked at hb'
    split at hb'
    · simp at hb'
    · rename_i hn
      split at hb'
      · simp at hb'
      · rename_i pi hpi
        refine ⟨hn, ⟨pi, hpi⟩, by simp [addEntry_ino], ?_⟩
        simp only [addEntry, tick]
        rw [touchParent_isDir]
        simp only [if_true]
        unfold isDirNode
        simp [modeTypeOf_mkdir]

theorem goodRev_keyOf (name : String) : GoodRev (keyOf name).reverse := by
  unfold keyOf
  rw [List.reverse_reverse]
  exact cleanSegs_good false _ [] trivial (splitSlash_noslash _)

theorem wf_of_tidy (fs : RefFs) (h : Tidy fs) : WF fs :=
  ⟨h.1, fun k k' i hk hk' _ => h.2.1 k k' i hk hk'⟩

theorem tidy_of_same (fs fs' : RefFs) (h1 : fs'.ino = fs.ino) (h2 : fs'.nextIno = fs.nextIno)
    (h3 : fs'.known = fs.known) (h : Tidy fs) : Tidy fs' := by
  obtain ⟨t1, t2, t3, t4⟩ := h
  refine ⟨fun k i hk => ?_, fun k k' i hk hk' => ?_, fun k i hk => ?_, fun k i hk => ?_⟩
  · rw [h2]; exact t1 k i (h1 ▸ hk)
  · exact t2 k k' i (h1 ▸ hk) (h1 ▸ hk')
  · rw [h3]; exact t3 k i (h1 ▸ hk)
  · exact t4 k i (h1 ▸ hk)

@[simp] theorem touchParent_known (fs : RefFs) (k : Key) : (fs.touchParent k).known = fs.known := by
  unfold touchParent; split <;> rfl

theorem tidy_touchParent (fs : RefFs) (k : Key) (h : Tidy fs) : Tidy (fs.touchParent k) :=
  tidy_of_same fs _ (touchParent_ino fs k) (touchParent_nextIno fs k) (touchParent_known fs k) h

theorem tidy_addEntry (fs : RefFs) (k : Key) (n : Inode) (hk : GoodRev k.reverse)
    (h : Tidy fs) : Tidy (fs.addEntry k n) := by
  obtain ⟨t1, t2, t3, t4⟩ := h
  unfold addEntry
  simp only
  refine tidy_of_same _ _ rfl rfl rfl (tidy_touchParent _ k
    ⟨fun q i hq => ?_, fun q q' i hq hq' => ?_, fun q i hq => ?_, fun q i hq => ?_⟩)
  · simp only at hq ⊢
    split at hq
    · simp only [Option.some.injEq] at hq
      omega
    · have := t1 q i hq
      omega
  · simp only at hq hq'
    split at hq
    · split at hq'
      · simp_all
      · simp only [Option.some.injEq] at hq
        subst hq
        exact absurd (t1 q' _ hq') (by omega)
    · split at hq'
      · simp only [Option.some.injEq] at hq'
        subst hq'
        exact absurd (t1 q _ hq) (by omega)
      · exact t2 q q' i hq hq'
  · simp only at hq ⊢
    split at hq
    · rename_i hqk
      rw [hqk]
      exact List.mem_cons_self _ _
    · exact List.mem_cons_of_mem _ (t3 q i hq)
  · simp only at hq
    split at hq
    · rename_i hqk
      rw [hqk]
      exact hk
    · exact t4 q i hq

theorem tidy_dropEntries (fs : RefFs) (k : Key) (gone : Key → Bool) (h : Tidy fs) :
    Tidy (fs.dropEntries k gone) := by
  obtain ⟨t1, t2, t3, t4⟩ := h
  unfold dropEntries
  simp only
  refine tidy_of_same _ _ rfl rfl rfl (tidy_touchParent _ k
    ⟨fun q i hq => ?_, fun q q' i hq hq' => ?_, fun q i hq => ?_, fun q i hq => ?_⟩)
  · simp only at hq ⊢
    split at hq
    · simp at hq
    · exact t1 q i hq
  · simp only at hq hq'
    split at hq
    · simp at hq
    · split at hq'
      · simp at hq'
      · exact t2 q q' i hq hq'
  · simp only at hq ⊢
    split at hq
    · simp at hq
    · exact t3 q i hq
  · simp only at hq
    split at hq
    · simp at hq
    · exact t4 q i hq

/-- Every call but `link` leaves a tidy destination tidy. -/
theorem tidy_exec (c : Call) (fs : RefFs) (hc : ∀ old new, c ≠ .link old new) (h : Tidy fs) :
    Tidy (asFs.exec c fs).2 := by
  cases c with
  | tarNext => exact h
  | stat _ => exact h
  | lstat _ => exact h
  | readlink _ => exact h
  | walk => exact h
  | mkdir name perm =>
    simp only [Fs.exec, asFs, mkdir]
    split
    · exact h
    · exact tidy_addEntry _ _ _ (goodRev_keyOf name) h
  | writeReader name body =>
    simp only [Fs.exec, asFs, writeReader]
    split
    · split
      · exact tidy_of_same fs _ rfl rfl rfl h
      · exact h
    · split
      · exact h
      · exact tidy_addEntry _ _ _ (goodRev_keyOf name) h
  | remove name =>
    simp only [Fs.exec, asFs, remove]
    split
    · exact h
    · split
      · exact h
      · split
        · exact h
        · exact tidy_dropEntries _ _ _ h
  | removeAll name =>
    simp only [Fs.exec, asFs, removeAll]
    split
    · exact h
    · split
      · exact h
      · exact tidy_dropEntries _ _ _ h
  | chmod name mode =>
    simp only [Fs.exec, asFs, chmod]
    split
    · exact h
    · exact tidy_of_same fs _ rfl rfl rfl h
  | chown name uid gid =>
    simp only [Fs.exec, asFs, chown]
    split
    · exact h
    · exact tidy_of_same fs _ rfl rfl rfl h
  | lchown name uid gid =>
    simp only [Fs.exec, asFs, chown]
    split
    · exact h
    · exact tidy_of_same fs _ rfl rfl rfl h
  | chtimes name atime mtime =>
    simp only [Fs.exec, asFs, chtimes]
    split
    · exact h
    · exact tidy_of_same fs _ rfl rfl rfl h
  | symlink target name =>
    simp only [Fs.exec, asFs, symlink]
    split
    · exact h
    · exact tidy_addEntry _ _ _ (goodRev_keyOf name) h
  | link oldname newname => exact absurd rfl (hc oldname newname)

/-- A call that creates or removes the entry at `path`, other than `link`, changes at
most the mtime of an inode in use that is not the one of `path`. -/
theorem exec_structural_mtime (c : Call) (path : String) (hc : c.isStructuralAt path)
    (hl : ∀ old, c ≠ .link old path) (fs : RefFs) (j : Nat) (hj : j < fs.nextIno)
    (hk : fs.ino (keyOf path) ≠ some j) :
    ∃ t, (asFs.exec c fs).2.node j = { fs.node j with mtime := t } := by
  have hsame : ∃ t, fs.node j = { fs.node j with mtime := t } := ⟨(fs.node j).mtime, rfl⟩
  have hadd : ∀ n, fs.ino (keyOf path) = none →
      ∃ t, (fs.addEntry (keyOf path) n).node j = { fs.node j with mtime := t } := by
    intro n hn
    rw [addEntry_node fs _ n j hj hn]
    by_cases hp : fs.ino (keyOf path).dropLast = some j
    · rw [if_pos hp]
      exact ⟨_, rfl⟩
    · rw [if_neg hp]
      exact hsame
  have hdrop : ∀ gone, ∃ t, (fs.dropEntries (keyOf path) gone).node j
      = { fs.node j with mtime := t } := by
    intro gone
    simp only [dropEntries, tick, touchParent_node]
    by_cases hp : (if gone (keyOf path).dropLast = true then none
        else fs.ino (keyOf path).dropLast) = some j
    · rw [if_pos hp]
      exact ⟨_, rfl⟩
    · rw [if_neg hp]
      exact hsame
  cases c <;> simp only [Call.isStructuralAt] at hc <;> subst hc
  · simp only [Fs.exec, asFs, mkdir]
    split
    · exact hsame
    · rename_i hb
      exact hadd _ (createBlocked_none _ _ hb).1
  · simp only [Fs.exec, asFs, writeReader]
    split
    · rename_i i hi
      split
      · simp only [tick, setNode]
        rw [if_neg (fun h => hk (by rw [hi, h]))]
        exact hsame
      · exact hsame
    · split
      · exact hsame
      · rename_i hb
        exact hadd _ (createBlocked_none _ _ hb).1
  · simp only [Fs.exec, asFs, remove]
    split
    · exact hsame
    · split
      · exact hsame
      · split
        · exact hsame
        · exact hdrop _
  · simp only [Fs.exec, asFs, removeAll]
    split
    · exact hsame
    · split
      · exact hsame
      · exact hdrop _
  · simp only [Fs.exec, asFs, symlink]
    split
    · exact hsame
    · rename_i hb
      exact hadd _ (createBlocked_none _ _ hb).1
  · exact absurd rfl (hl _)

/-- `chtimes` changes at most the mtime of an inode. -/
theorem chtimes_node (fs : RefFs) (name : String) (a t : Int) (j : Nat) :
    ∃ t', ((fs.chtimes name a t).2.node j) = { fs.node j with mtime := t' } := by
  unfold chtimes
  split
  · exact ⟨(fs.node j).mtime, rfl⟩
  · simp only [setNode]
    split
    · rename_i h; subst h; exact ⟨t, rfl⟩
    · exact ⟨(fs.node j).mtime, rfl⟩

theorem chown_at (fs : RefFs) (name : String) (uid gid : Int) (i : Nat)
    (hi : fs.ino (keyOf name) = some i) :
    ((fs.chown name uid gid).2.node i).uid = uid ∧ ((fs.chown name uid gid).2.node i).gid = gid ∧
      ((fs.chown name uid gid).2.node i).mtime = (fs.node i).mtime ∧
      SameBody (fs.node i) ((fs.chown name uid gid).2.node i) := by
  unfold chown
  simp only [hi, setNode, if_true]
  refine ⟨trivial, trivial, trivial, rfl, rfl, ?_⟩
  split
  · exact modeTypeOf_clear _
  · rfl

theorem chmod_at (fs : RefFs) (name : String) (mode : Nat) (i : Nat)
    (hi : fs.ino (keyOf name) = some i) :
    (fs.chmod name mode).2.node i =
      { fs.node i with mode := ((fs.node i).mode &&& ModeType) ||| (mode &&& chmodMask) } := by
  unfold chmod
  simp only [hi, setNode, if_true]

theorem chtimes_at (fs : RefFs) (name : String) (a t : Int) (i : Nat)
    (hi : fs.ino (keyOf name) = some i) :
    (fs.chtimes name a t).2.node i = { fs.node i with mtime := t } := by
  unfold chtimes
  simp only [hi, setNode, if_true]

theorem dropLast_ne_self (k : Key) (h : k ≠ []) : k.dropLast ≠ k := by
  intro hk
  have := congrArg List.length hk
  simp only [List.length_dropLast] at this
  cases k with
  | nil => exact h rfl
  | cons a as => simp at this

theorem isDirNode_iff (n : Inode) : isDirNode n = true ↔ modeTypeOf n.mode = ModeDir := by
  simp [isDirNode]

theorem modeIsRegular_iff (m : Nat) : modeIsRegular m = true ↔ modeTypeOf m = 0 := by
  simp [modeIsRegular, modeTypeOf]

/-- A successful `writeReader` leaves a regular file with the body. -/
theorem writeReader_ok (fs : RefFs) (name body : String)
    (h : (fs.writeReader name body).1 = none) :
    ∃ i, (fs.writeReader name body).2.ino (keyOf name) = some i ∧
      modeIsRegular ((fs.writeReader name body).2.node i).mode = true ∧
      ((fs.writeReader name body).2.node i).content = body := by
  unfold writeReader at h ⊢
  simp only at h ⊢
  cases hi : fs.ino (keyOf name) with
  | some i =>
    simp only [hi] at h ⊢
    by_cases hr : modeIsRegular (fs.node i).mode = true
    · simp only [hr, if_true]
      exact ⟨i, hi, by simp [tick, setNode, hr], by simp [tick, setNode]⟩
    · simp [hr] at h
  | none =>
    simp only [hi] at h ⊢
    cases hb : fs.createBlocked (keyOf name) with
    | some e => simp [hb] at h
    | none =>
      simp only [hb]
      refine ⟨fs.nextIno, by simp [addEntry_ino], ?_, ?_⟩
      · simp only [addEntry, tick, touchParent_node, if_true]
        split_ifs <;> exact (by decide : modeIsRegular 0o666 = true)
      · simp only [addEntry, tick, touchParent_node, if_true]
        split_ifs <;> rfl

/-- A successful `symlink` leaves a symlink with the target, with a fresh inode. -/
theorem symlink_ok (fs : RefFs) (target name : String) (h : (fs.symlink target name).1 = none) :
    (keyOf name).dropLast ≠ keyOf name ∧
      ∃ i, (fs.symlink target name).2.ino (keyOf name) = some i ∧
        modeTypeOf ((fs.symlink target name).2.node i).mode = ModeSymlink ∧
        ((fs.symlink target name).2.node i).target = target := by
  unfold symlink at h ⊢
  simp only at h ⊢
  cases hb : fs.createBlocked (keyOf name) with
  | some e => simp [hb] at h
  | none =>
    simp only [hb]
    obtain ⟨b1, pi, b2, _⟩ := createBlocked_none _ _ hb
    refine ⟨fun hk => ?_, fs.nextIno, by simp [addEntry_ino], ?_, ?_⟩
    · rw [hk, b1] at b2
      simp at b2
    · simp only [addEntry, tick, touchParent_node, if_true]
      split_ifs <;> exact (by decide : modeTypeOf (0o777 ||| ModeSymlink) = ModeSymlink)
    · simp only [addEntry, tick, touchParent_node, if_true]
      split_ifs <;> rfl

end RefFs

namespace RefFs

/-- A call that creates or removes the entry at `path` keeps the inode behind every
other name that is still there. -/
theorem exec_structural_keeps (c : Call) (path : String) (hc : c.isStructuralAt path)
    (fs : RefFs) (q : Key) (i : Nat) (hne : q ≠ keyOf path)
    (h : (asFs.exec c fs).2.ino q = some i) : fs.ino q = some i := by
  revert h
  cases c <;> simp only [Call.isStructuralAt] at hc <;> subst hc
  · simp only [Fs.exec, asFs, mkdir]
    split
    · exact id
    · simp [addEntry_ino, hne]
  · simp only [Fs.exec, asFs, writeReader]
    split
    · split <;> simp
    · split
      · exact id
      · simp [addEntry_ino, hne]
  · simp only [Fs.exec, asFs, remove]
    split
    · exact id
    · split
      · exact id
      · split
        · exact id
        · simp [dropEntries_ino, hne]
  · simp only [Fs.exec, asFs, removeAll]
    split
    · exact id
    · split
      · exact id
      · simp only [dropEntries_ino]
        split
        · simp
        · exact id
  · simp only [Fs.exec, asFs, symlink]
    split
    · exact id
    · simp [addEntry_ino, hne]
  · simp only [Fs.exec, asFs, link]
    split
    · exact id
    · split
      · exact id
      · split
        · exact id
        · simp [hne]

/-- A call that creates or removes the entry at `path`, not a hard link, changes no
inode but that of `path` and that of its parent. -/
theorem exec_structural_other (c : Call) (path : String) (hc : c.isStructuralAt path)
    (hl : ∀ old, c ≠ .link old path)
    (fs : RefFs) (j : Nat) (hj : j < fs.nextIno) (hk : fs.ino (keyOf path) ≠ some j)
    (hp : fs.ino (keyOf path).dropLast ≠ some j) : (asFs.exec c fs).2.node j = fs.node j := by
  cases c <;> simp only [Call.isStructuralAt] at hc <;> subst hc
  · simp only [Fs.exec, asFs, mkdir]
    split
    · rfl
    · rename_i hb
      rw [addEntry_node _ _ _ j hj (createBlocked_none _ _ hb).1, if_neg hp]
  · simp only [Fs.exec, asFs, writeReader]
    split
    · split
      · rename_i i hi hreg
        simp only [tick, setNode]
        split
        · rename_i h
          subst h
          exact absurd hi hk
        · rfl
      · rfl
    · split
      · rfl
      · rename_i hb
        dsimp only
        rw [addEntry_node _ _ _ j hj (createBlocked_none _ _ hb).1, if_neg hp]
  · simp only [Fs.exec, asFs, remove]
    split
    · rfl
    · split
      · rfl
      · split
        · rfl
        · exact dropEntries_node _ _ _ j hp
  · simp only [Fs.exec, asFs, removeAll]
    split
    · rfl
    · split
      · rfl
      · exact dropEntries_node _ _ _ j hp
  · simp only [Fs.exec, asFs, symlink]
    split
    · rfl
    · rename_i hb
      rw [addEntry_node _ _ _ j hj (createBlocked_none _ _ hb).1, if_neg hp]
  · exact absurd rfl (hl _)

end RefFs

/-! ## Hard links keep their inode -/

/-- A primitive action leaves the directory entry of a key alone when no path it may
create or remove is a prefix of the key. -/
theorem step_ino (Q : StepKind → String → Prop) (q : Key)
    (hq : ∀ p, Q .structural p → (keyOf p).isPrefixOf q = false) (s s' : Sync RefFs)
    (h : Step RefFs.asFs Q s s') : s'.fs.ino q = s.fs.ino q := by
  cases h with
  | silent hfs hp hm hl => rw [hfs]
  | read c hc => rfl
  | restoreFailed h1 hr =>
    exact congrFun (RefFs.exec_attr_ino _ s.baseDirPath (by simp [Call.isAttrAt]) s.fs) q
  | restore h1 hr =>
    exact congrFun (RefFs.exec_attr_ino _ s.baseDirPath (by simp [Call.isAttrAt]) s.fs) q
  | snapshot path hQ fi h1 hD hfi => rfl
  | structural path hQ c hc hl h1 => exact RefFs.exec_structural_ino c path hc s.fs q (hq path hQ)
  | attr path hQ c hc => exact congrFun (RefFs.exec_attr_ino c path hc s.fs) q

theorem reach_ino (Q : StepKind → String → Prop) (q : Key)
    (hq : ∀ p, Q .structural p → (keyOf p).isPrefixOf q = false) (s s' : Sync RefFs)
    (h : Reach RefFs.asFs Q s s') : s'.fs.ino q = s.fs.ino q := by
  refine reach_invariant (fun t => t.fs.ino q = s.fs.ino q) ?_ h rfl
  intro t t' hstep ht
  exact (step_ino Q q hq t t' hstep).trans ht

theorem reach_attr_ino (s s' : Sync RefFs) (h : Reach RefFs.asFs QAttr s s') (q : Key) :
    s'.fs.ino q = s.fs.ino q :=
  reach_ino QAttr q (fun p hp => by simp [QAttr] at hp) s s' h

theorem sameInode_reach (l a : String) (s s' : Sync RefFs)
    (h : Reach RefFs.asFs (Spares (fun p => Covers p l ∨ Covers p a)) s s')
    (h0 : SameInode s.fs l a) : SameInode s'.fs l a := by
  obtain ⟨i, h1, h2⟩ := h0
  refine ⟨i, ?_, ?_⟩
  · rw [reach_ino _ (keyOf l) ?_ s s' h]
    · exact h1
    · intro p hp
      have hp' := hp (by decide)
      simp only [Covers, not_or, Bool.not_eq_true] at hp'
      exact hp'.1
  · rw [reach_ino _ (keyOf a) ?_ s s' h]
    · exact h2
    · intro p hp
      have hp' := hp (by decide)
      simp only [Covers, not_or, Bool.not_eq_true] at hp'
      exact hp'.2

theorem statResult_some (r : Except Error FileInfo) (info : FileInfo)
    (h : statResult r = .ok (some info)) : r = .ok info := by
  cases r with
  | error e =>
    unfold statResult at h
    simp only at h
    split at h <;> simp at h
  | ok fi => simpa [statResult] using h

/-- A successful `syncLink` leaves the link path and the link target on one inode. -/
theorem syncLink_sameInode (hdr : Header) (s : Sync RefFs)
    (hok : (syncLink RefFs.asFs hdr s).1 = none) :
    SameInode (syncLink RefFs.asFs hdr s).2.fs (normalizePath hdr.name)
      (normalizePath hdr.linkname) := by
  unfold syncLink at hok ⊢
  simp only at hok ⊢
  cases hst : statResult (LstatOrStat RefFs.asFs (normalizePath hdr.name) s).1 with
  | error e => simp [hst] at hok
  | ok fi =>
    simp only [hst] at hok ⊢
    cases hd : (checkLinkTarget RefFs.asFs hdr fi
        (LstatOrStat RefFs.asFs (normalizePath hdr.name) s).2).1 with
    | some e => simp [hd] at hok
    | none =>
      simp only [hd] at hok ⊢
      cases hk : (checkLinkTarget RefFs.asFs hdr fi
          (LstatOrStat RefFs.asFs (normalizePath hdr.name) s).2).2.1 with
      | some info =>
        simp only [hk] at hok ⊢
        obtain ⟨k1, k2, ti, k3, k4⟩ := checkLinkTarget_kept RefFs.asFs hdr fi _ info hk
        have hfs : (LstatOrStat RefFs.asFs (normalizePath hdr.name) s).2.fs = s.fs := rfl
        have hl : RefFs.lstat s.fs (normalizePath hdr.name) = .ok info := by
          subst k1
          exact statResult_some _ _ hst
        have ha : RefFs.lstat s.fs (normalizePath hdr.linkname) = .ok ti := k3
        obtain ⟨i, hi, ei⟩ := RefFs.lstat_ok _ _ _ hl
        obtain ⟨j, hj, ej⟩ := RefFs.lstat_ok _ _ _ ha
        have hij : i = j := by
          rw [ei, ej] at k4
          simpa [RefFs.infoOf] using k4
        subst hij
        have hr := reach_syncStatWrapped RefFs.asFs QAttr hdr rfl (some info)
          (checkLinkTarget RefFs.asFs hdr fi
            (LstatOrStat RefFs.asFs (normalizePath hdr.name) s).2).2.2
        refine ⟨i, ?_, ?_⟩
        · rw [reach_attr_ino _ _ hr, k2]; exact hi
        · rw [reach_attr_ino _ _ hr, k2]; exact hj
      | none =>
        simp only [hk] at hok ⊢
        obtain ⟨_, c2, c3⟩ := createEntry_elim RefFs.asFs hdr _ _ Sync.markAdded _
          (fun s1 => ⟨rfl, rfl, rfl, rfl⟩) hok
        obtain ⟨i, hi, hj⟩ := RefFs.link_ok _ (normalizePath hdr.linkname) (normalizePath hdr.name) c2
        exact ⟨i, by rw [reach_attr_ino _ _ c3]; exact hi, by rw [reach_attr_ino _ _ c3]; exact hj⟩

theorem dispatch_link_synced (F : Fs σ) (ent : TarEntry) (s : Sync σ)
    (hL : ent.hdr.typeflag = TypeLink) (h : (dispatch F ent s).1 = .synced) :
    (syncLink F ent.hdr s).1 = none ∧ (dispatch F ent s).2 = (syncLink F ent.hdr s).2 := by
  have hLR : TypeLink ≠ TypeReg := by decide
  have hLD : TypeLink ≠ TypeDir := by decide
  have hLS : TypeLink ≠ TypeSymlink := by decide
  unfold dispatch at h ⊢
  simp only [hL, hLR, hLD, hLS, if_false, if_true] at h ⊢
  by_cases ho : s.opts.withHardLinks = true
  · simp only [ho, not_true_eq_false, if_false] at h ⊢
    exact dispatched_synced _ _ _ h
  · simp [ho] at h

/-- After a run that returns a nil error, the path of a hard-link entry and its link
target are on one inode, when no later entry names them or a directory above them and
the walked paths that do are named by the tar. -/
theorem link_sameInode_after_run (fs : RefFs) (pre post : List TarEntry) (entL : TarEntry)
    (fail : Option Error) (opts : List Opt) (fuel : Nat) (u : List PathUpdate)
    (s' : Sync RefFs)
    (hL : entL.hdr.typeflag = TypeLink)
    (ho : (resolveOptions opts).withHardLinks = true)
    (hpost : ∀ ent ∈ post,
      ¬ (Covers (normalizePath ent.hdr.name) (normalizePath entL.hdr.name) ∨
        Covers (normalizePath ent.hdr.name) (normalizePath entL.hdr.linkname)))
    (hwalk : ∀ paths, RefFs.walk fs = .ok paths →
      Guarded (fun p => Covers p (normalizePath entL.hdr.name) ∨
          Covers p (normalizePath entL.hdr.linkname))
        (resolveOptions opts) (pre ++ entL :: post) (paths.map normalizePath))
    (hrun : Run RefFs.asFs fuel (New RefFs.asFs fs ⟨pre ++ entL :: post, fail⟩ opts) =
      some (u, none, s')) :
    SameInode s'.fs (normalizePath entL.hdr.name) (normalizePath entL.hdr.linkname) := by
  obtain ⟨n1, n2, n3, n4, n5, _, _⟩ :=
    New_fields RefFs.asFs fs ⟨pre ++ entL :: post, fail⟩ opts
  refine Run_guarded RefFs.asFs
    (fun p => Covers p (normalizePath entL.hdr.name) ∨
      Covers p (normalizePath entL.hdr.linkname))
    (fun s => s.opts.withHardLinks = true ∧
      ((∃ pre', s.tarReader.entries = pre' ++ entL :: post) ∨
        ((∀ ent ∈ s.tarReader.entries,
            ¬ (Covers (normalizePath ent.hdr.name) (normalizePath entL.hdr.name) ∨
              Covers (normalizePath ent.hdr.name) (normalizePath entL.hdr.linkname))) ∧
          SameInode s.fs (normalizePath entL.hdr.name) (normalizePath entL.hdr.linkname))))
    (fun s => SameInode s.fs (normalizePath entL.hdr.name) (normalizePath entL.hdr.linkname))
    ?_ ?_ ?_ ?_ ?_ ?_ ?_ fuel _ u s' ?_ ?_ hrun
  · -- the walk
    intro s m _ _ hw hJ
    unfold walkFs
    split <;> exact hJ
  · -- one tar entry
    intro s ent rest _ _ hent hJ
    obtain ⟨hopt, hph⟩ := hJ
    obtain ⟨c1, c2, _, _, _⟩ := ctl_fields (ctl_dispatch RefFs.asFs ent (s.beginEntry ent rest))
    have e1 : (dispatch RefFs.asFs ent (s.beginEntry ent rest)).2.tarReader.entries = rest := by
      rw [c1]; rfl
    have e2 : (dispatch RefFs.asFs ent (s.beginEntry ent rest)).2.opts.withHardLinks = true := by
      rw [c2]; exact hopt
    rcases hph with ⟨pre', hpre⟩ | ⟨hsafe, hsame⟩
    · rw [hent] at hpre
      cases pre' with
      | nil =>
        simp only [List.nil_append, List.cons.injEq] at hpre
        obtain ⟨h1, h2⟩ := hpre
        subst h1
        subst h2
        constructor
        · intro hd
          obtain ⟨d1, d2⟩ := dispatch_link_synced RefFs.asFs ent _ hL hd
          refine ⟨e2, Or.inr ⟨?_, ?_⟩⟩
          · intro e he
            simp only [Sync.forget, e1] at he
            exact hpost e he
          · have := syncLink_sameInode ent.hdr (s.beginEntry ent rest) d1
            rw [← d2] at this
            exact this
        · intro hd
          exact absurd hd (dispatch_alwaysSynced RefFs.asFs ent _
            (Or.inr (Or.inr (Or.inr ⟨hL, hopt⟩))))
      | cons e pre'' =>
        simp only [List.cons_append, List.cons.injEq] at hpre
        obtain ⟨_, h2⟩ := hpre
        exact ⟨fun _ => ⟨e2, Or.inl ⟨pre'', by simp only [Sync.forget, e1]; exact h2⟩⟩,
          fun _ => ⟨e2, Or.inl ⟨pre'', by rw [e1]; exact h2⟩⟩⟩
    · have hq := hsafe ent (by rw [hent]; exact List.mem_cons_self _ _)
      have hrest : ∀ e ∈ rest,
          ¬ (Covers (normalizePath e.hdr.name) (normalizePath entL.hdr.name) ∨
            Covers (normalizePath e.hdr.name) (normalizePath entL.hdr.linkname)) :=
        fun e he => hsafe e (by rw [hent]; exact List.mem_cons_of_mem _ he)
      have hr : Reach RefFs.asFs (Spares (fun p => Covers p (normalizePath entL.hdr.name) ∨
          Covers p (normalizePath entL.hdr.linkname))) s
          (dispatch RefFs.asFs ent (s.beginEntry ent rest)).2 := by
        have h0 : Reach RefFs.asFs (Spares (fun p => Covers p (normalizePath entL.hdr.name) ∨
            Covers p (normalizePath entL.hdr.linkname))) s (s.beginEntry ent rest) :=
          (reach_step (Step.read .tarNext rfl)).trans (reach_silent rfl rfl rfl rfl)
        exact h0.trans (reach_dispatch RefFs.asFs _ ent (fun _ _ _ => hq)
          (fun _ h => absurd rfl h) (s.beginEntry ent rest))
      have hs := sameInode_reach _ _ _ _ hr hsame
      exact ⟨fun _ => ⟨e2, Or.inr ⟨by simp only [Sync.forget, e1]; exact hrest, hs⟩⟩,
        fun _ => ⟨e2, Or.inr ⟨by rw [e1]; exact hrest, hs⟩⟩⟩
  · -- the end of the stream
    intro s _ _ hent hJ
    obtain ⟨f1, _, _, _, _, f6, f7, _⟩ := flattenPathMap_fields (s.logCall .tarNext)
    obtain ⟨hopt, hph⟩ := hJ
    rcases hph with ⟨pre', hpre⟩ | ⟨_, hsame⟩
    · rw [hent] at hpre
      simp at hpre
    · refine ⟨by rw [f6]; exact hopt, Or.inr ⟨?_, by rw [f1]; exact hsame⟩⟩
      rw [f7]
      intro e he
      simp only [Sync.logCall, hent] at he
      simp at he
  · intro s rest _ _ _ hJ
    exact hJ
  · intro s path rest _ _ _ _ _ hJ
    exact hJ
  · -- a deletion
    intro s path _ fi _ hent _ hne hP hfi hJ hok
    obtain ⟨f1, f2, _, _⟩ := deleteEntry_fields RefFs.asFs path fi (LstatOrStat RefFs.asFs path s).2
    obtain ⟨hopt, hph⟩ := hJ
    rcases hph with ⟨pre', hpre⟩ | ⟨hsafe, hsame⟩
    · rw [hent] at hpre
      simp at hpre
    · have hr : Reach RefFs.asFs (Spares (fun p => Covers p (normalizePath entL.hdr.name) ∨
          Covers p (normalizePath entL.hdr.linkname))) s
          (deleteEntry RefFs.asFs path (.ok fi) (LstatOrStat RefFs.asFs path s).2).2 :=
        (reach_LstatOrStat RefFs.asFs _ path s).trans
          (reach_deleteEntry RefFs.asFs _ path (fun _ _ _ => hP) _ _)
      refine ⟨by rw [f2]; exact hopt, Or.inr ⟨?_, sameInode_reach _ _ _ _ hr hsame⟩⟩
      rw [f1]
      exact hsafe
  · -- the final release of the base directory
    intro s _ hent _ hJ _
    obtain ⟨_, hph⟩ := hJ
    rcases hph with ⟨pre', hpre⟩ | ⟨_, hsame⟩
    · rw [hent] at hpre
      simp at hpre
    · have hr : Reach RefFs.asFs (Spares (fun p => Covers p (normalizePath entL.hdr.name) ∨
          Covers p (normalizePath entL.hdr.linkname))) s
          ((preserveBaseDir RefFs.asFs "" s).2.setErr none) :=
        (reach_releaseBaseDir RefFs.asFs _ s).trans (reach_silent rfl rfl rfl rfl)
      exact sameInode_reach _ _ _ _ hr hsame
  · -- the inventory of the first state
    refine ⟨fun _ => ⟨n5, ?_⟩, fun m hm => ?_, fun l hl => ?_⟩
    · intro paths hp
      rw [n1] at hp
      rw [n2, n3]
      exact hwalk paths hp
    · rw [n4] at hm
      simp at hm
    · rw [n5] at hl
      simp at hl
  · exact ⟨by rw [n3]; exact ho, Or.inl ⟨pre, by rw [n2]⟩⟩

/-- C10 (amended): hard-link identity.  On the reference destination, with hard links
enabled, let the tar hold a hard-link entry for `l` with target `a`.  When no later
entry names `l`, `a` or a directory above them, and every walked path that is `l`, `a`
or a directory above them is named by a tar entry that is not skipped, then after a run
that returns a nil error `l` and `a` are there with the same inode number. -/
theorem hardlink_identity_after_run (fs : RefFs) (pre post : List TarEntry) (entL : TarEntry)
    (fail : Option Error) (opts : List Opt) (fuel : Nat) (u : List PathUpdate)
    (s' : Sync RefFs)
    (hL : entL.hdr.typeflag = TypeLink)
    (ho : (resolveOptions opts).withHardLinks = true)
    (hpost : ∀ ent ∈ post,
      ¬ (Covers (normalizePath ent.hdr.name) (normalizePath entL.hdr.name) ∨
        Covers (normalizePath ent.hdr.name) (normalizePath entL.hdr.linkname)))
    (hwalk : ∀ paths, RefFs.walk fs = .ok paths →
      Guarded (fun p => Covers p (normalizePath entL.hdr.name) ∨
          Covers p (normalizePath entL.hdr.linkname))
        (resolveOptions opts) (pre ++ entL :: post) (paths.map normalizePath))
    (hrun : Run RefFs.asFs fuel (New RefFs.asFs fs ⟨pre ++ entL :: post, fail⟩ opts) =
      some (u, none, s')) :
    ∃ fl fa, RefFs.lstat s'.fs (normalizePath entL.hdr.name) = .ok fl ∧
      RefFs.lstat s'.fs (normalizePath entL.hdr.linkname) = .ok fa ∧ fl.ino = fa.ino := by
  obtain ⟨i, hi, hj⟩ := link_sameInode_after_run fs pre post entL fail opts fuel u s' hL ho hpost
    hwalk hrun
  refine ⟨RefFs.infoOf i (s'.fs.node i), RefFs.infoOf i (s'.fs.node i), ?_, ?_, rfl⟩
  · simp [RefFs.lstat, hi]
  · simp [RefFs.lstat, hj]

/-! ## Directories keep the mtime of their tar entry -/

theorem wf_step (Q : StepKind → String → Prop) (s s' : Sync RefFs)
    (h : Step RefFs.asFs Q s s') (hw : RefFs.WF s.fs) : RefFs.WF s'.fs := by
  cases h with
  | silent hfs hp hm hl => rw [hfs]; exact hw
  | read c hc => exact hw
  | restoreFailed h1 hr => exact RefFs.wf_exec _ _ hw
  | restore h1 hr => exact RefFs.wf_exec _ _ hw
  | snapshot path hQ fi h1 hD hfi => exact hw
  | structural path hQ c hc hl h1 => exact RefFs.wf_exec _ _ hw
  | attr path hQ c hc => exact RefFs.wf_exec _ _ hw

theorem wf_reach (Q : StepKind → String → Prop) (s s' : Sync RefFs)
    (h : Reach RefFs.asFs Q s s') (hw : RefFs.WF s.fs) : RefFs.WF s'.fs :=
  reach_invariant (fun t => RefFs.WF t.fs) (fun t t' ht => wf_step Q t t' ht) h hw

theorem dirFree_step (D : String) (s s' : Sync RefFs)
    (h : Step RefFs.asFs (NotInside D) s s') (h0 : DirFree D s) : DirFree D s' := by
  refine ⟨wf_step _ s s' h h0.1, ?_⟩
  have hf := h0.2
  cases h with
  | silent hfs hp hm hl => rw [hp]; exact hf
  | read c hc => exact hf
  | restoreFailed h1 hr => exact hf
  | restore h1 hr => simp
  | snapshot path hQ fi h1 hD hfi =>
    intro hc
    exact hQ (by decide) hc.2
  | structural path hQ c hc hl h1 => exact hf
  | attr path hQ c hc => exact hf

theorem dirFree_reach (D : String) (s s' : Sync RefFs)
    (h : Reach RefFs.asFs (NotInside D) s s') (h0 : DirFree D s) : DirFree D s' :=
  reach_invariant (DirFree D) (fun t t' ht => dirFree_step D t t' ht) h h0

/-- An attribute call on another name than `D` leaves the inode of the directory `D`
as it is. -/
theorem attr_keeps_dir (D : String) (c : Call) (path : String) (hc : c.isAttrAt path)
    (fs : RefFs) (i : Nat) (hw : RefFs.WF fs) (hi : fs.ino (keyOf D) = some i)
    (hd : RefFs.isDirNode (fs.node i) = true) (hne : keyOf path ≠ keyOf D) :
    (RefFs.asFs.exec c fs).2.node i = fs.node i := by
  refine RefFs.exec_attr_node c path hc fs i (fun h => ?_)
  exact hne (hw.2 _ _ i h hi hd)

theorem dirKept_step (D : String) (T : Int) (s s' : Sync RefFs)
    (h : Step RefFs.asFs (Outside D) s s') (h0 : DirKept D T s) : DirKept D T s' := by
  refine ⟨wf_step _ s s' h h0.1, ?_⟩
  obtain ⟨hw, i, hi, hd, hm⟩ := h0
  cases h with
  | silent hfs hp hm' hl =>
    refine ⟨i, by rw [hfs]; exact hi, by rw [hfs]; exact hd, ?_⟩
    rw [hp, hm', hfs]
    exact hm
  | read c hc => exact ⟨i, hi, hd, hm⟩
  | restoreFailed h1 hr =>
    have hA : (Call.chtimes s.baseDirPath s.baseDirModTime s.baseDirModTime).isAttrAt
        s.baseDirPath := by simp [Call.isAttrAt]
    refine ⟨i, ?_, ?_, ?_⟩
    · exact (congrFun (RefFs.exec_attr_ino _ _ hA s.fs) _).trans hi
    · exact (RefFs.exec_attr_isDir _ _ hA s.fs i).trans hd
    · by_cases hk : keyOf s.baseDirPath = keyOf D
      · have hc : s.baseDirPath ≠ "" ∧ keyOf s.baseDirPath = keyOf D := ⟨h1, hk⟩
        rw [if_pos hc] at hm
        simp only [Sync.call]
        rw [if_pos hc]
        exact hm
      · have hc : ¬ (s.baseDirPath ≠ "" ∧ keyOf s.baseDirPath = keyOf D) := fun hc => hk hc.2
        rw [if_neg hc] at hm
        simp only [Sync.call]
        rw [if_neg hc, attr_keeps_dir D _ _ hA s.fs i hw hi hd hk]
        exact hm
  | restore h1 hr =>
    have hA : (Call.chtimes s.baseDirPath s.baseDirModTime s.baseDirModTime).isAttrAt
        s.baseDirPath := by simp [Call.isAttrAt]
    refine ⟨i, ?_, ?_, ?_⟩
    · exact (congrFun (RefFs.exec_attr_ino _ _ hA s.fs) _).trans hi
    · exact (RefFs.exec_attr_isDir _ _ hA s.fs i).trans hd
    · simp only [ne_eq, not_true_eq_false, false_and, if_false]
      by_cases hk : keyOf s.baseDirPath = keyOf D
      · have hc : s.baseDirPath ≠ "" ∧ keyOf s.baseDirPath = keyOf D := ⟨h1, hk⟩
        rw [if_pos hc] at hm
        obtain ⟨j, hj, hjm⟩ := RefFs.chtimes_ok s.fs s.baseDirPath s.baseDirModTime
          s.baseDirModTime hr
        rw [hk, hi] at hj
        simp only [Option.some.injEq] at hj
        subst hj
        simp only [Sync.call]
        exact hjm.trans hm
      · have hc : ¬ (s.baseDirPath ≠ "" ∧ keyOf s.baseDirPath = keyOf D) := fun hc => hk hc.2
        rw [if_neg hc] at hm
        simp only [Sync.call]
        rw [attr_keeps_dir D _ _ hA s.fs i hw hi hd hk]
        exact hm
  | snapshot path hQ fi h1 hD hfi =>
    refine ⟨i, hi, hd, ?_⟩
    have hc : ¬ (s.baseDirPath ≠ "" ∧ keyOf s.baseDirPath = keyOf D) := fun hc => hc.1 h1
    rw [if_neg hc] at hm
    simp only
    split
    · rename_i hk
      obtain ⟨j, hj, hfj⟩ := RefFs.lstat_ok s.fs _ fi hfi
      rw [hk.2, hi] at hj
      simp only [Option.some.injEq] at hj
      subst hj
      rw [hfj]
      exact hm
    · exact hm
  | structural path hQ c hc hl h1 =>
    obtain ⟨hcov, hnorm⟩ := hQ (by decide)
    have hlt : i < s.fs.nextIno := hw.1 _ _ hi
    refine ⟨i, ?_, ?_, ?_⟩
    · refine (RefFs.exec_structural_ino c path hc s.fs (keyOf D) ?_).trans hi
      unfold Covers at hcov
      simpa only [Bool.not_eq_true] using hcov
    · exact (RefFs.exec_structural_isDir c path hc s.fs i hlt).trans hd
    · simp only [Sync.call]
      split
      · rename_i hk
        rw [if_pos hk] at hm
        exact hm
      · rename_i hk
        rw [if_neg hk] at hm
        rw [RefFs.exec_structural_node c path hc s.fs i hlt hd ?_]
        · exact hm
        · intro hp
          have hkey : (keyOf path).dropLast = keyOf D := hw.2 _ _ i hp hi hd
          apply hk
          rw [h1]
          exact ⟨filepathDir_ne_empty path, hnorm.trans hkey⟩
  | attr path hQ c hc =>
    obtain ⟨hcov, _⟩ := hQ (by decide)
    have hne : keyOf path ≠ keyOf D := by
      intro hk
      apply hcov
      unfold Covers
      rw [hk]
      exact RefFs.isPrefixOf_self _
    refine ⟨i, ?_, ?_, ?_⟩
    · exact (congrFun (RefFs.exec_attr_ino c path hc s.fs) _).trans hi
    · exact (RefFs.exec_attr_isDir c path hc s.fs i).trans hd
    · simp only [Sync.call]
      rw [attr_keeps_dir D c path hc s.fs i hw hi hd hne]
      exact hm

theorem dirKept_reach (D : String) (T : Int) (s s' : Sync RefFs)
    (h : Reach RefFs.asFs (Outside D) s s') (h0 : DirKept D T s) : DirKept D T s' :=
  reach_invariant (DirKept D T) (fun t t' ht => dirKept_step D T t t' ht) h h0

theorem sits_attr (D : String) (i : Nat) (s : Sync RefFs) (c : Call) (path : String)
    (hc : c.isAttrAt path) (h : Sits D i s) : Sits D i (s.call RefFs.asFs c).2 :=
  ⟨RefFs.wf_exec _ _ h.1, (congrFun (RefFs.exec_attr_ino c path hc s.fs) _).trans h.2.1,
    (RefFs.exec_attr_isDir c path hc s.fs i).trans h.2.2⟩

theorem ownerCall_mtime (hdr : Header) (fs : RefFs) (j : Nat) :
    ((RefFs.asFs.exec (ownerCall hdr) fs).2.node j).mtime = (fs.node j).mtime := by
  unfold ownerCall
  split <;> exact RefFs.chown_mtime fs _ _ _ j

theorem lstat_sits (D : String) (i : Nat) (s : Sync RefFs) (fi : FileInfo) (h : Sits D i s)
    (hl : RefFs.lstat s.fs D = .ok fi) : fi = RefFs.infoOf i (s.fs.node i) := by
  obtain ⟨j, hj, hfj⟩ := RefFs.lstat_ok s.fs D fi hl
  rw [h.2.1] at hj
  simp only [Option.some.injEq] at hj
  subst hj
  exact hfj

theorem syncStatOwner_dir (hdr : Header) (fi fi2 : FileInfo) (s : Sync RefFs) (i : Nat)
    (h : Sits (normalizePath hdr.name) i s) (hfi : fi.modTime = (s.fs.node i).mtime)
    (hok : (syncStatOwner RefFs.asFs hdr fi s).1 = .ok fi2) :
    Sits (normalizePath hdr.name) i (syncStatOwner RefFs.asFs hdr fi s).2 ∧
      fi2.modTime = ((syncStatOwner RefFs.asFs hdr fi s).2.fs.node i).mtime ∧
      (syncStatOwner RefFs.asFs hdr fi s).2.baseDirPath = s.baseDirPath ∧
      (syncStatOwner RefFs.asFs hdr fi s).2.baseDirModTime = s.baseDirModTime := by
  unfold syncStatOwner at hok ⊢
  simp only at hok ⊢
  split at hok
  · rename_i hcond
    rw [if_pos hcond]
    cases hr : (s.call RefFs.asFs (ownerCall hdr)).1 with
    | some e => simp [hr] at hok
    | none =>
      simp only [hr] at hok ⊢
      have hs1 : Sits (normalizePath hdr.name) i
          ((s.call RefFs.asFs (ownerCall hdr)).2.markOwner hdr.uid hdr.gid) :=
        sits_attr _ i s _ _ (ownerCall_isAttrAt hdr) h
      cases hl : (LstatOrStat RefFs.asFs (normalizePath hdr.name)
          ((s.call RefFs.asFs (ownerCall hdr)).2.markOwner hdr.uid hdr.gid)).1 with
      | error e => simp [hl] at hok
      | ok fi3 =>
        simp only [hl, Except.ok.injEq] at hok ⊢
        subst hok
        refine ⟨hs1, ?_, rfl, rfl⟩
        rw [lstat_sits _ i _ fi3 hs1 hl]
        rfl
  · rename_i hcond
    rw [if_neg hcond]
    simp only [Except.ok.injEq] at hok
    subst hok
    exact ⟨h, hfi, rfl, rfl⟩

theorem syncStatMode_dir (hdr : Header) (fi : FileInfo) (s : Sync RefFs) (i : Nat)
    (h : Sits (normalizePath hdr.name) i s) :
    Sits (normalizePath hdr.name) i (syncStatMode RefFs.asFs hdr fi s).2 ∧
      ((syncStatMode RefFs.asFs hdr fi s).2.fs.node i).mtime = (s.fs.node i).mtime ∧
      (syncStatMode RefFs.asFs hdr fi s).2.baseDirPath = s.baseDirPath ∧
      (syncStatMode RefFs.asFs hdr fi s).2.baseDirModTime = s.baseDirModTime := by
  unfold syncStatMode
  simp only
  have hs1 : Sits (normalizePath hdr.name) i
      (s.call RefFs.asFs (.chmod (normalizePath hdr.name) hdr.fileMode)).2 :=
    sits_attr _ i s _ (normalizePath hdr.name) (by simp [Call.isAttrAt]) h
  have hm : ((s.call RefFs.asFs (.chmod (normalizePath hdr.name) hdr.fileMode)).2.fs.node i).mtime
      = (s.fs.node i).mtime := RefFs.chmod_mtime s.fs _ _ i
  split
  · split
    · exact ⟨hs1, hm, rfl, rfl⟩
    · exact ⟨hs1, hm, rfl, rfl⟩
  · exact ⟨h, rfl, rfl, rfl⟩

theorem syncStatTime_dir (hdr : Header) (fi : FileInfo) (s : Sync RefFs) (i : Nat)
    (h : Sits (normalizePath hdr.name) i s) (hfi : fi.modTime = (s.fs.node i).mtime)
    (hok : (syncStatTime RefFs.asFs hdr fi s).1 = none) :
    Sits (normalizePath hdr.name) i (syncStatTime RefFs.asFs hdr fi s).2 ∧
      ((syncStatTime RefFs.asFs hdr fi s).2.fs.node i).mtime = hdr.modTime ∧
      (syncStatTime RefFs.asFs hdr fi s).2.baseDirPath = s.baseDirPath ∧
      (syncStatTime RefFs.asFs hdr fi s).2.baseDirModTime = s.baseDirModTime := by
  unfold syncStatTime at hok ⊢
  simp only at hok ⊢
  split at hok
  · rename_i hcond
    rw [if_pos hcond]
    have hs1 : Sits (normalizePath hdr.name) i
        (s.call RefFs.asFs (.chtimes (normalizePath hdr.name) hdr.modTime hdr.modTime)).2 :=
      sits_attr _ i s _ (normalizePath hdr.name) (by simp [Call.isAttrAt]) h
    cases hr : (s.call RefFs.asFs
        (.chtimes (normalizePath hdr.name) hdr.modTime hdr.modTime)).1 with
    | some e => simp [hr] at hok
    | none =>
      simp only [hr]
      obtain ⟨j, hj, hjm⟩ := RefFs.chtimes_ok s.fs (normalizePath hdr.name) hdr.modTime
        hdr.modTime hr
      rw [h.2.1] at hj
      simp only [Option.some.injEq] at hj
      subst hj
      exact ⟨hs1, hjm, rfl, rfl⟩
  · rename_i hcond
    rw [if_neg hcond]
    simp only [ne_eq, not_not] at hcond
    exact ⟨h, by rw [hcond, hfi], rfl, rfl⟩

/-- `syncStat` on a directory that is there: when it succeeds the directory has the
header's mtime, and the Preserver holds what it held. -/
theorem syncStatWith_dir (hdr : Header) (fi : FileInfo) (s : Sync RefFs) (i : Nat)
    (h : Sits (normalizePath hdr.name) i s) (hfi : fi.modTime = (s.fs.node i).mtime)
    (hok : (syncStatWith RefFs.asFs hdr fi s).1 = none) :
    Sits (normalizePath hdr.name) i (syncStatWith RefFs.asFs hdr fi s).2 ∧
      ((syncStatWith RefFs.asFs hdr fi s).2.fs.node i).mtime = hdr.modTime ∧
      (syncStatWith RefFs.asFs hdr fi s).2.baseDirPath = s.baseDirPath ∧
      (syncStatWith RefFs.asFs hdr fi s).2.baseDirModTime = s.baseDirModTime := by
  unfold syncStatWith at hok ⊢
  simp only at hok ⊢
  cases ho : (syncStatOwner RefFs.asFs hdr fi s).1 with
  | error e => simp [ho] at hok
  | ok fi2 =>
    simp only [ho] at hok ⊢
    obtain ⟨o1, o2, o3, o4⟩ := syncStatOwner_dir hdr fi fi2 s i h hfi ho
    obtain ⟨m1, m2, m3, m4⟩ := syncStatMode_dir hdr fi2 (syncStatOwner RefFs.asFs hdr fi s).2 i o1
    cases hm : (syncStatMode RefFs.asFs hdr fi2 (syncStatOwner RefFs.asFs hdr fi s).2).1 with
    | some e => simp [hm] at hok
    | none =>
      simp only [hm] at hok ⊢
      obtain ⟨t1, t2, t3, t4⟩ := syncStatTime_dir hdr fi2 _ i m1 (by rw [m2]; exact o2) hok
      exact ⟨t1, t2, t3.trans (m3.trans o3), t4.trans (m4.trans o4)⟩

theorem syncStatWrapped_dir (hdr : Header) (fi : Option FileInfo) (s : Sync RefFs) (i : Nat)
    (h : Sits (normalizePath hdr.name) i s)
    (hfi : ∀ info, fi = some info → info.modTime = (s.fs.node i).mtime)
    (hok : (syncStatWrapped RefFs.asFs hdr fi s).1 = none) :
    Sits (normalizePath hdr.name) i (syncStatWrapped RefFs.asFs hdr fi s).2 ∧
      ((syncStatWrapped RefFs.asFs hdr fi s).2.fs.node i).mtime = hdr.modTime ∧
      (syncStatWrapped RefFs.asFs hdr fi s).2.baseDirPath = s.baseDirPath ∧
      (syncStatWrapped RefFs.asFs hdr fi s).2.baseDirModTime = s.baseDirModTime := by
  unfold syncStatWrapped at hok ⊢
  simp only at hok ⊢
  cases hr : (syncStat RefFs.asFs hdr fi s).1 with
  | some e => simp [hr] at hok
  | none =>
    simp only [hr]
    unfold syncStat at hr ⊢
    simp only at hr ⊢
    cases fi with
    | some info =>
      simp only at hr ⊢
      exact syncStatWith_dir hdr info s i h (hfi info rfl) hr
    | none =>
      simp only at hr ⊢
      cases hl : (LstatOrStat RefFs.asFs (normalizePath hdr.name) s).1 with
      | error e => simp [hl] at hr
      | ok info =>
        simp only [hl] at hr ⊢
        have hinfo := lstat_sits _ i s info h hl
        exact syncStatWith_dir hdr info _ i h (by rw [hinfo]; rfl) hr

theorem dropUnless_kept (F : Fs σ) (path : String) (keep : FileInfo → Bool) (c : Call)
    (msg : String) (fi : Option FileInfo) (s : Sync σ) (info : FileInfo)
    (h : (dropUnless F path keep c msg fi s).2.1 = some info) :
    fi = some info ∧ keep info = true ∧ (dropUnless F path keep c msg fi s).2.2 = s := by
  unfold dropUnless at h ⊢
  cases fi with
  | none => simp at h
  | some info0 =>
    simp only at h ⊢
    by_cases hk : keep info0 = true
    · simp only [hk, if_true, Option.some.injEq] at h ⊢
      subst h
      exact ⟨rfl, hk, trivial⟩
    · simp [hk] at h

/-- A successful `syncDir` leaves the directory with the header's mtime, when the
Preserver did not hold it. -/
theorem syncDir_dirKept (hdr : Header) (s : Sync RefFs)
    (h0 : DirFree (normalizePath hdr.name) s) (hok : (syncDir RefFs.asFs hdr s).1 = none) :
    DirKept (normalizePath hdr.name) hdr.modTime (syncDir RefFs.asFs hdr s).2 := by
  unfold syncDir at hok ⊢
  simp only at hok ⊢
  cases hst : statResult (LstatOrStat RefFs.asFs (normalizePath hdr.name) s).1 with
  | error e => simp [hst] at hok
  | ok fi =>
    simp only [hst] at hok ⊢
    cases hd : (dropUnless RefFs.asFs (normalizePath hdr.name)
        (fun info => decide (modeTypeOf info.mode = ModeDir)) (.remove (normalizePath hdr.name))
        "failed to remove: " fi (LstatOrStat RefFs.asFs (normalizePath hdr.name) s).2).1 with
    | some e => simp [hd] at hok
    | none =>
      simp only [hd] at hok ⊢
      cases hk : (dropUnless RefFs.asFs (normalizePath hdr.name)
          (fun info => decide (modeTypeOf info.mode = ModeDir)) (.remove (normalizePath hdr.name))
          "failed to remove: " fi (LstatOrStat RefFs.asFs (normalizePath hdr.name) s).2).2.1 with
      | some info =>
        simp only [hk] at hok ⊢
        obtain ⟨k1, k2, k3⟩ := dropUnless_kept RefFs.asFs _ _ _ _ fi _ info hk
        subst k1
        have hl : RefFs.lstat s.fs (normalizePath hdr.name) = .ok info :=
          statResult_some _ _ hst
        obtain ⟨i, hi, hfi⟩ := RefFs.lstat_ok _ _ _ hl
        have hdir : RefFs.isDirNode (s.fs.node i) = true := by
          rw [hfi] at k2
          simpa [RefFs.isDirNode, RefFs.infoOf] using k2
        rw [k3] at hok ⊢
        have hs : Sits (normalizePath hdr.name) i
            (LstatOrStat RefFs.asFs (normalizePath hdr.name) s).2 := ⟨h0.1, hi, hdir⟩
        obtain ⟨⟨t1, t2, t3⟩, t4, t5, t6⟩ := syncStatWrapped_dir hdr (some info) _ i hs
          (by
            intro info1 h1
            simp only [Option.some.injEq] at h1
            subst h1
            rw [hfi]
            rfl) hok
        refine ⟨t1, i, t2, t3, ?_⟩
        rw [if_neg ?_]
        · exact t4
        · rw [t5]
          exact h0.2
      | none =>
        simp only [hk] at hok ⊢
        have hr1 : Reach RefFs.asFs AnyStep s (dropUnless RefFs.asFs (normalizePath hdr.name)
            (fun info => decide (modeTypeOf info.mode = ModeDir))
            (.remove (normalizePath hdr.name)) "failed to remove: " fi
            (LstatOrStat RefFs.asFs (normalizePath hdr.name) s).2).2.2 :=
          (reach_LstatOrStat RefFs.asFs AnyStep (normalizePath hdr.name) s).trans
            (reach_dropUnless RefFs.asFs AnyStep (normalizePath hdr.name) (fun _ _ => trivial)
              _ _ _ fi _ (by simp [Call.isStructuralAt]) (fun _ h => by cases h))
        generalize (dropUnless RefFs.asFs (normalizePath hdr.name)
            (fun info => decide (modeTypeOf info.mode = ModeDir))
            (.remove (normalizePath hdr.name)) "failed to remove: " fi
            (LstatOrStat RefFs.asFs (normalizePath hdr.name) s).2).2.2 = s1 at hok hr1 ⊢
        have hw1 : RefFs.WF s1.fs := wf_reach _ _ _ hr1 h0.1
        unfold createEntry at hok ⊢
        simp only at hok ⊢
        cases hp : (preserveBaseDir RefFs.asFs (filepathDir (normalizePath hdr.name)) s1).1 with
        | some e => simp [hp] at hok
        | none =>
          simp only [hp] at hok ⊢
          have hheld := preserveBaseDir_held RefFs.asFs _ s1 hp
          have hw2 : RefFs.WF (preserveBaseDir RefFs.asFs
              (filepathDir (normalizePath hdr.name)) s1).2.fs :=
            wf_reach _ _ _ (reach_preserveBaseDir RefFs.asFs AnyStep (normalizePath hdr.name)
              trivial s1) hw1
          generalize (preserveBaseDir RefFs.asFs (filepathDir (normalizePath hdr.name)) s1).2 = s2
            at hok hheld hw2 ⊢
          cases hc : (s2.call RefFs.asFs
              (.mkdir (normalizePath hdr.name) (modePermOf hdr.fileMode))).1 with
          | some e => simp [hc] at hok
          | none =>
            simp only [hc] at hok ⊢
            obtain ⟨m1, ⟨pi, m2⟩, m3, m4⟩ := RefFs.mkdir_ok s2.fs (normalizePath hdr.name)
              (modePermOf hdr.fileMode) hc
            have hs : Sits (normalizePath hdr.name) s2.fs.nextIno
                (((s2.call RefFs.asFs (.mkdir (normalizePath hdr.name)
                  (modePermOf hdr.fileMode))).2.markAdded).markMode
                    (modePermOf hdr.fileMode ||| ModeDir)) :=
              ⟨RefFs.wf_exec _ _ hw2, m3, m4⟩
            obtain ⟨⟨t1, t2, t3⟩, t4, t5, t6⟩ := syncStatWrapped_dir hdr none _ _ hs
              (by intro info1 h1; simp at h1) hok
            refine ⟨t1, _, t2, t3, ?_⟩
            rw [if_neg ?_]
            · exact t4
            · rw [t5]
              intro hcond
              have hkey : keyOf s2.baseDirPath = (keyOf (normalizePath hdr.name)).dropLast := by
                rw [hheld]
                exact keyOf_filepathDir hdr.name
              have : keyOf (normalizePath hdr.name) = (keyOf (normalizePath hdr.name)).dropLast :=
                hcond.2.symm.trans hkey
              rw [← this, m1] at m2
              simp at m2

theorem dispatch_dir_synced (F : Fs σ) (ent : TarEntry) (s : Sync σ)
    (hD : ent.hdr.typeflag = TypeDir) (h : (dispatch F ent s).1 = .synced) :
    (syncDir F ent.hdr s).1 = none ∧ (dispatch F ent s).2 = (syncDir F ent.hdr s).2 := by
  have hDR : TypeDir ≠ TypeReg := by decide
  unfold dispatch at h ⊢
  simp only [hD, hDR, if_false, if_true] at h ⊢
  exact dispatched_synced _ _ _ h

theorem wf_init : RefFs.WF RefFs.init := by
  refine ⟨fun k i h => ?_, fun k k' i h h' _ => ?_⟩
  · simp only [RefFs.init] at h ⊢
    split at h
    · simp only [Option.some.injEq] at h
      omega
    · simp at h
  · simp only [RefFs.init] at h h'
    split at h
    · split at h'
      · simp_all
      · simp at h'
    · simp at h

/-- C9 (amended): directory mtime preservation.  On a well-formed reference
destination, let the tar hold a directory entry for `D` with mtime `T`.  When no
earlier entry lies directly inside `D`, no later entry names `D` or a directory above
it, and every walked path that is `D` or a directory above it is named by a tar entry
that is not skipped, then after a run that returns a nil error `D` is a directory with
mtime `T`, whatever was created, replaced or deleted inside it. -/
theorem dir_mtime_after_run (fs : RefFs) (pre post : List TarEntry) (entD : TarEntry)
    (fail : Option Error) (opts : List Opt) (fuel : Nat) (u : List PathUpdate)
    (s' : Sync RefFs)
    (hD : entD.hdr.typeflag = TypeDir)
    (hwf : RefFs.WF fs)
    (hpre : ∀ ent ∈ pre,
      keyOf (filepathDir (normalizePath ent.hdr.name)) ≠ keyOf (normalizePath entD.hdr.name))
    (hpost : ∀ ent ∈ post, ¬ Covers (normalizePath ent.hdr.name) (normalizePath entD.hdr.name))
    (hwalk : ∀ paths, RefFs.walk fs = .ok paths →
      Guarded (fun p => Covers p (normalizePath entD.hdr.name))
        (resolveOptions opts) (pre ++ entD :: post) (paths.map normalizePath))
    (hrun : Run RefFs.asFs fuel (New RefFs.asFs fs ⟨pre ++ entD :: post, fail⟩ opts) =
      some (u, none, s')) :
    ∃ fi, RefFs.lstat s'.fs (normalizePath entD.hdr.name) = .ok fi ∧
      modeTypeOf fi.mode = ModeDir ∧ fi.modTime = entD.hdr.modTime := by
  obtain ⟨n1, n2, n3, n4, n5, n6, _⟩ :=
    New_fields RefFs.asFs fs ⟨pre ++ entD :: post, fail⟩ opts
  have key : DirKept (normalizePath entD.hdr.name) entD.hdr.modTime s' ∧ s'.baseDirPath = "" := by
    refine Run_guarded RefFs.asFs
      (fun p => Covers p (normalizePath entD.hdr.name) ∨ ¬ Normal p)
      (fun s =>
        (∃ pre', s.tarReader.entries = pre' ++ entD :: post ∧
          (∀ ent ∈ pre', keyOf (filepathDir (normalizePath ent.hdr.name)) ≠
            keyOf (normalizePath entD.hdr.name)) ∧
          DirFree (normalizePath entD.hdr.name) s) ∨
        ((∀ ent ∈ s.tarReader.entries,
            ¬ Covers (normalizePath ent.hdr.name) (normalizePath entD.hdr.name)) ∧
          DirKept (normalizePath entD.hdr.name) entD.hdr.modTime s))
      (fun s => DirKept (normalizePath entD.hdr.name) entD.hdr.modTime s ∧ s.baseDirPath = "")
      ?_ ?_ ?_ ?_ ?_ ?_ ?_ fuel _ u s' ?_ ?_ hrun
    · -- the walk
      intro s m _ _ hw hJ
      unfold walkFs
      split <;> exact hJ
    · -- one tar entry
      intro s ent rest _ _ hent hJ
      obtain ⟨c1, _, _, _, _⟩ := ctl_fields (ctl_dispatch RefFs.asFs ent (s.beginEntry ent rest))
      have e1 : (dispatch RefFs.asFs ent (s.beginEntry ent rest)).2.tarReader.entries = rest := by
        rw [c1]; rfl
      rcases hJ with ⟨pre', hpre', hin, hfree⟩ | ⟨hsafe, hkept⟩
      · rw [hent] at hpre'
        have hfree' : DirFree (normalizePath entD.hdr.name) (s.beginEntry ent rest) := hfree
        cases pre' with
        | nil =>
          simp only [List.nil_append, List.cons.injEq] at hpre'
          obtain ⟨h1, h2⟩ := hpre'
          subst h1
          subst h2
          constructor
          · intro hd
            obtain ⟨d1, d2⟩ := dispatch_dir_synced RefFs.asFs ent _ hD hd
            refine Or.inr ⟨?_, ?_⟩
            · intro e he
              simp only [Sync.forget, e1] at he
              exact hpost e he
            · have := syncDir_dirKept ent.hdr (s.beginEntry ent rest) hfree' d1
              rw [← d2] at this
              exact this
          · intro hd
            exact absurd hd (dispatch_alwaysSynced RefFs.asFs ent _ (Or.inr (Or.inl hD)))
        | cons e pre'' =>
          simp only [List.cons_append, List.cons.injEq] at hpre'
          obtain ⟨h1, h2⟩ := hpre'
          subst h1
          have hq := hin ent (List.mem_cons_self _ _)
          have hin' : ∀ x ∈ pre'', keyOf (filepathDir (normalizePath x.hdr.name)) ≠
              keyOf (normalizePath entD.hdr.name) :=
            fun x hx => hin x (List.mem_cons_of_mem _ hx)
          have hr : Reach RefFs.asFs (NotInside (normalizePath entD.hdr.name))
              (s.beginEntry ent rest) (dispatch RefFs.asFs ent (s.beginEntry ent rest)).2 :=
            reach_dispatch RefFs.asFs _ ent (fun _ _ _ => hq) (fun _ h => absurd rfl h)
              (s.beginEntry ent rest)
          have hf := dirFree_reach _ _ _ hr hfree'
          exact ⟨fun _ => Or.inl ⟨pre'', by simp only [Sync.forget, e1]; exact h2, hin', hf⟩,
            fun _ => Or.inl ⟨pre'', by rw [e1]; exact h2, hin', hf⟩⟩
      · have hq := hsafe ent (by rw [hent]; exact List.mem_cons_self _ _)
        have hrest : ∀ e ∈ rest,
            ¬ Covers (normalizePath e.hdr.name) (normalizePath entD.hdr.name) :=
          fun e he => hsafe e (by rw [hent]; exact List.mem_cons_of_mem _ he)
        have hkept' : DirKept (normalizePath entD.hdr.name) entD.hdr.modTime
            (s.beginEntry ent rest) := hkept
        have hr : Reach RefFs.asFs (Outside (normalizePath entD.hdr.name))
            (s.beginEntry ent rest) (dispatch RefFs.asFs ent (s.beginEntry ent rest)).2 :=
          reach_dispatch RefFs.asFs _ ent (fun _ _ _ => ⟨hq, keyOf_filepathDir ent.hdr.name⟩)
            (fun _ h => absurd rfl h) (s.beginEntry ent rest)
        have hs := dirKept_reach _ _ _ _ hr hkept'
        exact ⟨fun _ => Or.inr ⟨by simp only [Sync.forget, e1]; exact hrest, hs⟩,
          fun _ => Or.inr ⟨by rw [e1]; exact hrest, hs⟩⟩
    · -- the end of the stream
      intro s _ _ hent hJ
      obtain ⟨f1, _, f3, f4, _, _, f7, _⟩ := flattenPathMap_fields (s.logCall .tarNext)
      rcases hJ with ⟨pre', hpre', _⟩ | ⟨_, hkept⟩
      · rw [hent] at hpre'
        simp at hpre'
      · refine Or.inr ⟨?_, ?_⟩
        · rw [f7]
          intro e he
          simp only [Sync.logCall, hent] at he
          simp at he
        · unfold DirKept
          rw [f1, f3, f4]
          exact hkept
    · intro s rest _ _ _ hJ
      exact hJ
    · intro s path rest _ _ _ _ _ hJ
      exact hJ
    · -- a deletion
      intro s path _ fi _ hent _ hne hP hfi hJ hok
      obtain ⟨f1, _, _, _⟩ := deleteEntry_fields RefFs.asFs path fi (LstatOrStat RefFs.asFs path s).2
      rcases hJ with ⟨pre', hpre', _⟩ | ⟨hsafe, hkept⟩
      · rw [hent] at hpre'
        simp at hpre'
      · have hout : ∀ k : StepKind, k ≠ .target →
            Outside (normalizePath entD.hdr.name) k path := by
          intro _ _ _
          simp only [not_or, not_not] at hP
          exact hP
        have hr : Reach RefFs.asFs (Outside (normalizePath entD.hdr.name)) s
            (deleteEntry RefFs.asFs path (.ok fi) (LstatOrStat RefFs.asFs path s).2).2 :=
          (reach_LstatOrStat RefFs.asFs _ path s).trans
            (reach_deleteEntry RefFs.asFs _ path hout _ _)
        refine Or.inr ⟨?_, dirKept_reach _ _ _ _ hr hkept⟩
        rw [f1]
        exact hsafe
    · -- the final release of the base directory
      intro s _ hent _ hJ hok
      rcases hJ with ⟨pre', hpre', _⟩ | ⟨_, hkept⟩
      · rw [hent] at hpre'
        simp at hpre'
      · have hr : Reach RefFs.asFs (Outside (normalizePath entD.hdr.name)) s
            ((preserveBaseDir RefFs.asFs "" s).2.setErr none) :=
          (reach_releaseBaseDir RefFs.asFs _ s).trans (reach_silent rfl rfl rfl rfl)
        exact ⟨dirKept_reach _ _ _ _ hr hkept, preserveBaseDir_held RefFs.asFs "" s hok⟩
    · -- the inventory of the first state
      refine ⟨fun _ => ⟨n5, ?_⟩, fun m hm => ?_, fun l hl => ?_⟩
      · intro paths hp p hpm hne hP
        rw [n1] at hp
        rw [n2, n3]
        refine hwalk paths hp p hpm hne ?_
        rcases hP with hP | hP
        · exact hP
        · exfalso
          obtain ⟨x, _, hx⟩ := List.mem_map.mp hpm
          apply hP
          rw [← hx]
          exact keyOf_filepathDir x
      · rw [n4] at hm
        simp at hm
      · rw [n5] at hl
        simp at hl
    · refine Or.inl ⟨pre, by rw [n2], hpre, ?_, ?_⟩
      · rw [n1]; exact hwf
      · rw [n6]; simp
  obtain ⟨⟨_, i, hi, hd, hm⟩, hheld⟩ := key
  rw [if_neg (by rw [hheld]; simp)] at hm
  refine ⟨RefFs.infoOf i (s'.fs.node i), by simp [RefFs.lstat, hi], ?_, hm⟩
  simpa [RefFs.isDirNode, RefFs.infoOf] using hd

/-! ## Every entry keeps what its tar entry gave it -/

theorem not_link_of_structural (Q : StepKind → String → Prop) (hQ : ∀ p, ¬ Q .target p)
    (c : Call) (path : String) (hc : c.isStructuralAt path)
    (hl : ∀ old, c = .link old path → Q .target old) : ∀ old new, c ≠ .link old new := by
  intro old new h
  subst h
  simp only [Call.isStructuralAt] at hc
  subst hc
  exact hQ old (hl old rfl)

theorem tidy_step (Q : StepKind → String → Prop) (hQ : ∀ p, ¬ Q .target p) (s s' : Sync RefFs)
    (h : Step RefFs.asFs Q s s') (hw : RefFs.Tidy s.fs) : RefFs.Tidy s'.fs := by
  cases h with
  | silent hfs hp hm hl => rw [hfs]; exact hw
  | read c hc => exact hw
  | restoreFailed h1 hr => exact RefFs.tidy_exec _ _ (fun _ _ h => by cases h) hw
  | restore h1 hr => exact RefFs.tidy_exec _ _ (fun _ _ h => by cases h) hw
  | snapshot path hQ fi h1 hD hfi => exact hw
  | structural path hQ' c hc hl h1 =>
    exact RefFs.tidy_exec _ _ (not_link_of_structural Q hQ c path hc hl) hw
  | attr path hQ' c hc =>
    refine RefFs.tidy_exec _ _ ?_ hw
    intro old new h
    subst h
    simp [Call.isAttrAt] at hc

theorem tidy_reach (Q : StepKind → String → Prop) (hQ : ∀ p, ¬ Q .target p) (s s' : Sync RefFs)
    (h : Reach RefFs.asFs Q s s') (hw : RefFs.Tidy s.fs) : RefFs.Tidy s'.fs :=
  reach_invariant (fun t => RefFs.Tidy t.fs) (fun t t' ht => tidy_step Q hQ t t' ht) h hw

theorem before_target (E p : String) : ¬ Before E .target p := fun h => h.1 rfl

theorem apart_target (E p : String) : ¬ Apart E .target p := fun h => h.1 rfl

theorem free_step (E : String) (s s' : Sync RefFs) (h : Step RefFs.asFs (Before E) s s')
    (h0 : Free E s) : Free E s' := by
  refine ⟨tidy_step _ (before_target E) s s' h h0.1, ?_⟩
  have hf := h0.2
  cases h with
  | silent hfs hp hm hl => rw [hp]; exact hf
  | read c hc => exact hf
  | restoreFailed h1 hr => exact hf
  | restore h1 hr => simp
  | snapshot path hQ fi h1 hD hfi =>
    intro hc
    exact hQ.2 hc.2
  | structural path hQ c hc hl h1 => exact hf
  | attr path hQ c hc => exact hf

theorem free_reach (E : String) (s s' : Sync RefFs) (h : Reach RefFs.asFs (Before E) s s')
    (h0 : Free E s) : Free E s' :=
  reach_invariant (Free E) (fun t t' ht => free_step E t t' ht) h h0

theorem kept_step (N : Inode → Prop) (hN : MtimeBlind N) (E : String) (T : Int)
    (s s' : Sync RefFs) (h : Step RefFs.asFs (Apart E) s s') (h0 : Kept N E T s) :
    Kept N E T s' := by
  refine ⟨tidy_step _ (apart_target E) s s' h h0.1, ?_⟩
  obtain ⟨hw, i, hi, hn, hm⟩ := h0
  have hlt : i < s.fs.nextIno := hw.1 _ _ hi
  cases h with
  | silent hfs hp hm' hl =>
    refine ⟨i, by rw [hfs]; exact hi, by rw [hfs]; exact hn, ?_⟩
    rw [hp, hm', hfs]
    exact hm
  | read c hc => exact ⟨i, hi, hn, hm⟩
  | restoreFailed h1 hr =>
    have hA : (Call.chtimes s.baseDirPath s.baseDirModTime s.baseDirModTime).isAttrAt
        s.baseDirPath := by simp [Call.isAttrAt]
    obtain ⟨t, ht⟩ := RefFs.chtimes_node s.fs s.baseDirPath s.baseDirModTime s.baseDirModTime i
    refine ⟨i, (congrFun (RefFs.exec_attr_ino _ _ hA s.fs) _).trans hi, ?_, ?_⟩
    · simp only [Sync.call, Fs.exec, RefFs.asFs]
      rw [ht]
      exact hN _ t hn
    · by_cases hk : keyOf s.baseDirPath = keyOf E
      · have hc : s.baseDirPath ≠ "" ∧ keyOf s.baseDirPath = keyOf E := ⟨h1, hk⟩
        rw [if_pos hc] at hm
        simp only [Sync.call]
        rw [if_pos hc]
        exact hm
      · have hc : ¬ (s.baseDirPath ≠ "" ∧ keyOf s.baseDirPath = keyOf E) := fun hc => hk hc.2
        rw [if_neg hc] at hm
        simp only [Sync.call]
        rw [if_neg hc, RefFs.exec_attr_node _ _ hA s.fs i
          (fun h => hk (hw.2.1 _ _ i h hi))]
        exact hm
  | restore h1 hr =>
    have hA : (Call.chtimes s.baseDirPath s.baseDirModTime s.baseDirModTime).isAttrAt
        s.baseDirPath := by simp [Call.isAttrAt]
    obtain ⟨t, ht⟩ := RefFs.chtimes_node s.fs s.baseDirPath s.baseDirModTime s.baseDirModTime i
    refine ⟨i, (congrFun (RefFs.exec_attr_ino _ _ hA s.fs) _).trans hi, ?_, ?_⟩
    · simp only [Sync.call, Fs.exec, RefFs.asFs]
      rw [ht]
      exact hN _ t hn
    · simp only [ne_eq, not_true_eq_false, false_and, if_false]
      by_cases hk : keyOf s.baseDirPath = keyOf E
      · have hc : s.baseDirPath ≠ "" ∧ keyOf s.baseDirPath = keyOf E := ⟨h1, hk⟩
        rw [if_pos hc] at hm
        obtain ⟨j, hj, hjm⟩ := RefFs.chtimes_ok s.fs s.baseDirPath s.baseDirModTime
          s.baseDirModTime hr
        rw [hk, hi] at hj
        simp only [Option.some.injEq] at hj
        subst hj
        simp only [Sync.call]
        exact hjm.trans hm
      · have hc : ¬ (s.baseDirPath ≠ "" ∧ keyOf s.baseDirPath = keyOf E) := fun hc => hk hc.2
        rw [if_neg hc] at hm
        simp only [Sync.call]
        rw [RefFs.exec_attr_node _ _ hA s.fs i (fun h => hk (hw.2.1 _ _ i h hi))]
        exact hm
  | snapshot path hQ fi h1 hD hfi =>
    refine ⟨i, hi, hn, ?_⟩
    have hc : ¬ (s.baseDirPath ≠ "" ∧ keyOf s.baseDirPath = keyOf E) := fun hc => hc.1 h1
    rw [if_neg hc] at hm
    simp only
    split
    · rename_i hk
      obtain ⟨j, hj, hfj⟩ := RefFs.lstat_ok s.fs _ fi hfi
      rw [hk.2, hi] at hj
      simp only [Option.some.injEq] at hj
      subst hj
      rw [hfj]
      exact hm
    · exact hm
  | structural path hQ c hc hl h1 =>
    obtain ⟨_, hcov, hnorm⟩ := hQ
    have hnl : ∀ old, c ≠ .link old path := fun old h => apart_target E old (hl old h)
    have hkey : s.fs.ino (keyOf path) ≠ some i := by
      intro h
      apply hcov
      unfold Covers
      rw [hw.2.1 _ _ i h hi]
      exact RefFs.isPrefixOf_self _
    obtain ⟨t, ht⟩ := RefFs.exec_structural_mtime c path hc hnl s.fs i hlt hkey
    refine ⟨i, ?_, ?_, ?_⟩
    · refine (RefFs.exec_structural_ino c path hc s.fs (keyOf E) ?_).trans hi
      unfold Covers at hcov
      simpa only [Bool.not_eq_true] using hcov
    · simp only [Sync.call]
      rw [ht]
      exact hN _ t hn
    · simp only [Sync.call]
      split
      · rename_i hk
        rw [if_pos hk] at hm
        exact hm
      · rename_i hk
        rw [if_neg hk] at hm
        by_cases hp : s.fs.ino (keyOf path).dropLast = some i
        · exfalso
          apply hk
          rw [h1]
          exact ⟨filepathDir_ne_empty path, hnorm.trans (hw.2.1 _ _ i hp hi)⟩
        · have hsame : (RefFs.asFs.exec c s.fs).2.node i = s.fs.node i := by
            cases c <;> simp only [Call.isStructuralAt] at hc <;> subst hc
            · simp only [Fs.exec, RefFs.asFs, RefFs.mkdir]
              split
              · rfl
              · rename_i hb
                rw [RefFs.addEntry_node _ _ _ i hlt (RefFs.createBlocked_none _ _ hb).1, if_neg hp]
            · simp only [Fs.exec, RefFs.asFs, RefFs.writeReader]
              split
              · rename_i j hj
                split
                · simp only [RefFs.tick, RefFs.setNode]
                  rw [if_neg (fun h => hkey (by rw [hj, h]))]
                · rfl
              · split
                · rfl
                · rename_i hb
                  dsimp only
                  rw [RefFs.addEntry_node _ _ _ i hlt (RefFs.createBlocked_none _ _ hb).1,
                    if_neg hp]
            · simp only [Fs.exec, RefFs.asFs, RefFs.remove]
              split
              · rfl
              · split
                · rfl
                · split
                  · rfl
                  · exact RefFs.dropEntries_node _ _ _ i hp
            · simp only [Fs.exec, RefFs.asFs, RefFs.removeAll]
              split
              · rfl
              · split
                · rfl
                · exact RefFs.dropEntries_node _ _ _ i hp
            · simp only [Fs.exec, RefFs.asFs, RefFs.symlink]
              split
              · rfl
              · rename_i hb
                rw [RefFs.addEntry_node _ _ _ i hlt (RefFs.createBlocked_none _ _ hb).1, if_neg hp]
            · exact absurd rfl (hnl _)
          rw [hsame]
          exact hm
  | attr path hQ c hc =>
    obtain ⟨_, hcov, _⟩ := hQ
    have hne : s.fs.ino (keyOf path) ≠ some i := by
      intro h
      apply hcov
      unfold Covers
      rw [hw.2.1 _ _ i h hi]
      exact RefFs.isPrefixOf_self _
    have hsame := RefFs.exec_attr_node c path hc s.fs i hne
    refine ⟨i, (congrFun (RefFs.exec_attr_ino c path hc s.fs) _).trans hi, ?_, ?_⟩
    · simp only [Sync.call]
      rw [hsame]
      exact hn
    · simp only [Sync.call]
      rw [hsame]
      exact hm

theorem kept_reach (N : Inode → Prop) (hN : MtimeBlind N) (E : String) (T : Int)
    (s s' : Sync RefFs) (h : Reach RefFs.asFs (Apart E) s s') (h0 : Kept N E T s) :
    Kept N E T s' :=
  reach_invariant (Kept N E T) (fun t t' ht => kept_step N hN E T t t' ht) h h0

theorem sameBody_refl (n : Inode) : SameBody n n := ⟨rfl, rfl, rfl⟩

theorem sameBody_trans {a b c : Inode} (h1 : SameBody a b) (h2 : SameBody b c) : SameBody a c :=
  ⟨h2.1.trans h1.1, h2.2.1.trans h1.2.1, h2.2.2.trans h1.2.2⟩

theorem placed_attr (E : String) (i : Nat) (s : Sync RefFs) (c : Call) (path : String)
    (hc : c.isAttrAt path) (h : Placed E i s) : Placed E i (s.call RefFs.asFs c).2 := by
  refine ⟨RefFs.tidy_exec _ _ ?_ h.1, (congrFun (RefFs.exec_attr_ino c path hc s.fs) _).trans h.2⟩
  intro old new hl
  subst hl
  simp [Call.isAttrAt] at hc

theorem lstat_placed (E : String) (i : Nat) (s : Sync RefFs) (fi : FileInfo) (h : Placed E i s)
    (hl : RefFs.lstat s.fs E = .ok fi) : fi = RefFs.infoOf i (s.fs.node i) := by
  obtain ⟨j, hj, hfj⟩ := RefFs.lstat_ok s.fs E fi hl
  rw [h.2] at hj
  simp only [Option.some.injEq] at hj
  subst hj
  exact hfj

theorem ownerCall_exec (hdr : Header) (fs : RefFs) :
    RefFs.asFs.exec (ownerCall hdr) fs = fs.chown (normalizePath hdr.name) hdr.uid hdr.gid := by
  unfold ownerCall
  split <;> rfl

theorem syncStatOwner_post (hdr : Header) (fi fi2 : FileInfo) (s : Sync RefFs) (i : Nat)
    (h : Placed (normalizePath hdr.name) i s) (hfi : fi = RefFs.infoOf i (s.fs.node i))
    (hok : (syncStatOwner RefFs.asFs hdr fi s).1 = .ok fi2) :
    Placed (normalizePath hdr.name) i (syncStatOwner RefFs.asFs hdr fi s).2 ∧
      fi2 = RefFs.infoOf i ((syncStatOwner RefFs.asFs hdr fi s).2.fs.node i) ∧
      SameBody (s.fs.node i) ((syncStatOwner RefFs.asFs hdr fi s).2.fs.node i) ∧
      (s.opts.withOwnership = true →
        hdr.uid = ((syncStatOwner RefFs.asFs hdr fi s).2.fs.node i).uid ∧
        hdr.gid = ((syncStatOwner RefFs.asFs hdr fi s).2.fs.node i).gid) ∧
      (syncStatOwner RefFs.asFs hdr fi s).2.baseDirPath = s.baseDirPath ∧
      (syncStatOwner RefFs.asFs hdr fi s).2.baseDirModTime = s.baseDirModTime ∧
      (syncStatOwner RefFs.asFs hdr fi s).2.opts = s.opts := by
  unfold syncStatOwner at hok ⊢
  simp only at hok ⊢
  split at hok
  · rename_i hcond
    rw [if_pos hcond]
    cases hr : (s.call RefFs.asFs (ownerCall hdr)).1 with
    | some e => simp [hr] at hok
    | none =>
      simp only [hr] at hok ⊢
      have hs1 : Placed (normalizePath hdr.name) i
          ((s.call RefFs.asFs (ownerCall hdr)).2.markOwner hdr.uid hdr.gid) :=
        placed_attr _ i s _ _ (ownerCall_isAttrAt hdr) h
      cases hl : (LstatOrStat RefFs.asFs (normalizePath hdr.name)
          ((s.call RefFs.asFs (ownerCall hdr)).2.markOwner hdr.uid hdr.gid)).1 with
      | error e => simp [hl] at hok
      | ok fi3 =>
        simp only [hl, Except.ok.injEq] at hok ⊢
        subst hok
        obtain ⟨c1, c2, _, c4⟩ := RefFs.chown_at s.fs (normalizePath hdr.name) hdr.uid hdr.gid i h.2
        refine ⟨hs1, lstat_placed _ i _ fi3 hs1 hl, ?_, fun _ => ?_, rfl, rfl, rfl⟩
        · simp only [LstatOrStat, Sync.logCall, Sync.markOwner, Sync.call, ownerCall_exec]
          exact c4
        · simp only [LstatOrStat, Sync.logCall, Sync.markOwner, Sync.call, ownerCall_exec]
          exact ⟨c1.symm, c2.symm⟩
  · rename_i hcond
    rw [if_neg hcond]
    simp only [Except.ok.injEq] at hok
    subst hok
    refine ⟨h, hfi, sameBody_refl _, fun ho => ?_, rfl, rfl, rfl⟩
    simp only [ho, true_and, not_or, not_not] at hcond
    rw [hfi] at hcond
    exact hcond

theorem syncStatMode_post (hdr : Header) (fi : FileInfo) (s : Sync RefFs) (i : Nat)
    (h : Placed (normalizePath hdr.name) i s) (hfi : fi = RefFs.infoOf i (s.fs.node i))
    (hok : (syncStatMode RefFs.asFs hdr fi s).1 = none) :
    Placed (normalizePath hdr.name) i (syncStatMode RefFs.asFs hdr fi s).2 ∧
      SameBody (s.fs.node i) ((syncStatMode RefFs.asFs hdr fi s).2.fs.node i) ∧
      ((syncStatMode RefFs.asFs hdr fi s).2.fs.node i).uid = (s.fs.node i).uid ∧
      ((syncStatMode RefFs.asFs hdr fi s).2.fs.node i).gid = (s.fs.node i).gid ∧
      ((syncStatMode RefFs.asFs hdr fi s).2.fs.node i).mtime = (s.fs.node i).mtime ∧
      (hdr.typeflag ≠ TypeSymlink → ModeFits hdr (s.fs.node i) →
        ((syncStatMode RefFs.asFs hdr fi s).2.fs.node i).mode = hdr.fileMode) ∧
      (syncStatMode RefFs.asFs hdr fi s).2.baseDirPath = s.baseDirPath ∧
      (syncStatMode RefFs.asFs hdr fi s).2.baseDirModTime = s.baseDirModTime ∧
      (syncStatMode RefFs.asFs hdr fi s).2.opts = s.opts := by
  unfold syncStatMode at hok ⊢
  simp only at hok ⊢
  split at hok
  · rename_i hcond
    rw [if_pos hcond]
    cases hr : (s.call RefFs.asFs (.chmod (normalizePath hdr.name) hdr.fileMode)).1 with
    | some e => simp [hr] at hok
    | none =>
      simp only [hr]
      have hs1 : Placed (normalizePath hdr.name) i
          (s.call RefFs.asFs (.chmod (normalizePath hdr.name) hdr.fileMode)).2 :=
        placed_attr _ i s _ (normalizePath hdr.name) (by simp [Call.isAttrAt]) h
      have hn := RefFs.chmod_at s.fs (normalizePath hdr.name) hdr.fileMode i h.2
      have hn' : ((s.call RefFs.asFs (.chmod (normalizePath hdr.name) hdr.fileMode)).2.markMode
          hdr.fileMode).fs.node i = { s.fs.node i with
            mode := ((s.fs.node i).mode &&& ModeType) ||| (hdr.fileMode &&& RefFs.chmodMask) } := hn
      rw [hn']
      refine ⟨hs1, ⟨rfl, rfl, modeTypeOf_chmod _ _⟩, rfl, rfl, rfl, fun _ hfit => ?_, rfl, rfl, rfl⟩
      exact hfit.symm
  · rename_i hcond
    rw [if_neg hcond]
    refine ⟨h, sameBody_refl _, rfl, rfl, rfl, fun hsym _ => ?_, rfl, rfl, rfl⟩
    simp only [hsym, ne_eq, not_false_eq_true, true_and, not_not] at hcond
    rw [hcond, hfi]
    rfl

theorem syncStatTime_post (hdr : Header) (fi : FileInfo) (s : Sync RefFs) (i : Nat)
    (h : Placed (normalizePath hdr.name) i s) (hfi : fi.modTime = (s.fs.node i).mtime)
    (hok : (syncStatTime RefFs.asFs hdr fi s).1 = none) :
    Placed (normalizePath hdr.name) i (syncStatTime RefFs.asFs hdr fi s).2 ∧
      (syncStatTime RefFs.asFs hdr fi s).2.fs.node i =
        { s.fs.node i with mtime := hdr.modTime } ∧
      (syncStatTime RefFs.asFs hdr fi s).2.baseDirPath = s.baseDirPath ∧
      (syncStatTime RefFs.asFs hdr fi s).2.baseDirModTime = s.baseDirModTime ∧
      (syncStatTime RefFs.asFs hdr fi s).2.opts = s.opts := by
  unfold syncStatTime at hok ⊢
  simp only at hok ⊢
  split at hok
  · rename_i hcond
    rw [if_pos hcond]
    have hs1 : Placed (normalizePath hdr.name) i
        (s.call RefFs.asFs (.chtimes (normalizePath hdr.name) hdr.modTime hdr.modTime)).2 :=
      placed_attr _ i s _ (normalizePath hdr.name) (by simp [Call.isAttrAt]) h
    cases hr : (s.call RefFs.asFs
        (.chtimes (normalizePath hdr.name) hdr.modTime hdr.modTime)).1 with
    | some e => simp [hr] at hok
    | none =>
      simp only [hr]
      exact ⟨hs1, RefFs.chtimes_at s.fs (normalizePath hdr.name) hdr.modTime hdr.modTime i h.2,
        rfl, rfl, rfl⟩
  · rename_i hcond
    rw [if_neg hcond]
    simp only [ne_eq, not_not] at hcond
    refine ⟨h, ?_, rfl, rfl, rfl⟩
    rw [hcond, hfi]

theorem modeFits_of_sameBody (hdr : Header) {n n' : Inode} (h : SameBody n n')
    (hf : ModeFits hdr n) : ModeFits hdr n' := by
  unfold ModeFits at hf ⊢
  rw [h.2.2]
  exact hf

theorem syncStatWith_post (hdr : Header) (fi : FileInfo) (s : Sync RefFs) (i : Nat)
    (h : Placed (normalizePath hdr.name) i s) (hfi : fi = RefFs.infoOf i (s.fs.node i))
    (hok : (syncStatWith RefFs.asFs hdr fi s).1 = none) :
    StatDone hdr i s (syncStatWith RefFs.asFs hdr fi s).2 := by
  unfold syncStatWith at hok ⊢
  simp only at hok ⊢
  cases ho : (syncStatOwner RefFs.asFs hdr fi s).1 with
  | error e => simp [ho] at hok
  | ok fi2 =>
    simp only [ho] at hok ⊢
    obtain ⟨o1, o2, o3, o4, o5, o6, o7⟩ := syncStatOwner_post hdr fi fi2 s i h hfi ho
    cases hm : (syncStatMode RefFs.asFs hdr fi2 (syncStatOwner RefFs.asFs hdr fi s).2).1 with
    | some e => simp [hm] at hok
    | none =>
      simp only [hm] at hok ⊢
      obtain ⟨m1, m2, m3, m4, m5, m6, m7, m8, m9⟩ :=
        syncStatMode_post hdr fi2 (syncStatOwner RefFs.asFs hdr fi s).2 i o1 o2 hm
      obtain ⟨t1, t2, t3, t4, t5⟩ := syncStatTime_post hdr fi2 _ i m1
        (by rw [m5, o2]; rfl) hok
      refine ⟨t1, ?_, fun hown => ?_, fun hsym hfit => ?_, ?_, t3.trans (m7.trans o5),
        t4.trans (m8.trans o6), t5.trans (m9.trans o7)⟩
      · rw [t2]
        exact sameBody_trans o3 m2
      · rw [t2]
        simp only
        rw [m3, m4]
        exact o4 hown
      · rw [t2]
        simp only
        exact m6 hsym (modeFits_of_sameBody hdr o3 hfit)
      · rw [t2]

theorem syncStatWrapped_post (hdr : Header) (fi : Option FileInfo) (s : Sync RefFs) (i : Nat)
    (h : Placed (normalizePath hdr.name) i s)
    (hfi : ∀ info, fi = some info → info = RefFs.infoOf i (s.fs.node i))
    (hok : (syncStatWrapped RefFs.asFs hdr fi s).1 = none) :
    StatDone hdr i s (syncStatWrapped RefFs.asFs hdr fi s).2 := by
  unfold syncStatWrapped at hok ⊢
  simp only at hok ⊢
  cases hr : (syncStat RefFs.asFs hdr fi s).1 with
  | some e => simp [hr] at hok
  | none =>
    simp only [hr]
    unfold syncStat at hr ⊢
    simp only at hr ⊢
    cases fi with
    | some info =>
      simp only at hr ⊢
      exact syncStatWith_post hdr info s i h (hfi info rfl) hr
    | none =>
      simp only at hr ⊢
      cases hl : (LstatOrStat RefFs.asFs (normalizePath hdr.name) s).1 with
      | error e => simp [hl] at hr
      | ok info =>
        simp only [hl] at hr ⊢
        have hinfo := lstat_placed _ i s info h hl
        exact syncStatWith_post hdr info (LstatOrStat RefFs.asFs (normalizePath hdr.name) s).2 i
          h hinfo hr

theorem noLink_target (p : String) : ¬ NoLink .target p := fun h => h rfl

theorem nodeFits_blind (o : Options) (ent : TarEntry) : MtimeBlind (NodeFits o ent) :=
  fun _ _ h => h

/-- A successful `createEntry` whose creating call makes an entry with body `B`: the
entry is there with that body and the header's attributes, and the Preserver holds its
parent. -/
theorem createEntry_kept (hdr : Header) (c : Call) (msg : String)
    (mark : Sync RefFs → Sync RefFs) (s : Sync RefFs) (B : Inode → Prop)
    (hB : ∀ n n', SameBody n n' → B n → B n')
    (hmark : MarkOnly mark) (hmo : ∀ s1, (mark s1).opts = s1.opts)
    (hnl : ∀ old new, c ≠ .link old new)
    (hcall : ∀ fs : RefFs, RefFs.Tidy fs → (RefFs.asFs.exec c fs).1 = none →
      (keyOf (normalizePath hdr.name)).dropLast ≠ keyOf (normalizePath hdr.name) ∧
      ∃ i, (RefFs.asFs.exec c fs).2.ino (keyOf (normalizePath hdr.name)) = some i ∧
        B ((RefFs.asFs.exec c fs).2.node i))
    (hT : RefFs.Tidy s.fs) (hok : (createEntry RefFs.asFs hdr c msg mark s).1 = none) :
    ∃ i, Placed (normalizePath hdr.name) i (createEntry RefFs.asFs hdr c msg mark s).2 ∧
      B ((createEntry RefFs.asFs hdr c msg mark s).2.fs.node i) ∧
      (s.opts.withOwnership = true →
        hdr.uid = ((createEntry RefFs.asFs hdr c msg mark s).2.fs.node i).uid ∧
        hdr.gid = ((createEntry RefFs.asFs hdr c msg mark s).2.fs.node i).gid) ∧
      (hdr.typeflag ≠ TypeSymlink → (∀ n, B n → ModeFits hdr n) →
        ((createEntry RefFs.asFs hdr c msg mark s).2.fs.node i).mode = hdr.fileMode) ∧
      ((createEntry RefFs.asFs hdr c msg mark s).2.fs.node i).mtime = hdr.modTime ∧
      ¬ ((createEntry RefFs.asFs hdr c msg mark s).2.baseDirPath ≠ "" ∧
        keyOf (createEntry RefFs.asFs hdr c msg mark s).2.baseDirPath =
          keyOf (normalizePath hdr.name)) := by
  unfold createEntry at hok ⊢
  simp only at hok ⊢
  cases hp : (preserveBaseDir RefFs.asFs (filepathDir (normalizePath hdr.name)) s).1 with
  | some e => simp [hp] at hok
  | none =>
    simp only [hp] at hok ⊢
    have hheld := preserveBaseDir_held RefFs.asFs _ s hp
    have hw2 : RefFs.Tidy (preserveBaseDir RefFs.asFs
        (filepathDir (normalizePath hdr.name)) s).2.fs :=
      tidy_reach NoLink noLink_target _ _
        (reach_preserveBaseDir RefFs.asFs NoLink (normalizePath hdr.name)
          (fun h => by cases h) s) hT
    have hopt : (preserveBaseDir RefFs.asFs (filepathDir (normalizePath hdr.name)) s).2.opts
        = s.opts := (ctl_fields (ctl_preserveBaseDir RefFs.asFs _ s)).2.1
    generalize (preserveBaseDir RefFs.asFs (filepathDir (normalizePath hdr.name)) s).2 = s2
      at hok hheld hw2 hopt ⊢
    cases hc : (s2.call RefFs.asFs c).1 with
    | some e => simp [hc] at hok
    | none =>
      simp only [hc] at hok ⊢
      obtain ⟨hdrop, i, hi, hb⟩ := hcall s2.fs hw2 hc
      obtain ⟨k1, k2, k3, _⟩ := hmark (s2.call RefFs.asFs c).2
      have hpl : Placed (normalizePath hdr.name) i (mark (s2.call RefFs.asFs c).2) := by
        unfold Placed
        rw [k1]
        exact ⟨RefFs.tidy_exec c _ hnl hw2, hi⟩
      obtain ⟨t1, t2, t3, t4, t5, t6, _, _⟩ := syncStatWrapped_post hdr none _ i hpl
        (by intro info h1; simp at h1) hok
      refine ⟨i, t1, hB _ _ t2 (by rw [k1]; exact hb), fun ho => t3 ?_, fun hsym hfit => ?_, t5, ?_⟩
      · rw [hmo]
        exact hopt.symm ▸ ho
      · exact t4 hsym (hfit _ (by rw [k1]; exact hb))
      · rw [t6, k2]
        intro hcond
        have hkey : keyOf s2.baseDirPath = (keyOf (normalizePath hdr.name)).dropLast := by
          rw [hheld]
          exact keyOf_filepathDir hdr.name
        exact hdrop (hkey.symm.trans hcond.2)

theorem nodeHolds_blind (C : Prop) (o : Options) (ent : TarEntry) :
    MtimeBlind (NodeHolds C o ent) :=
  fun _ _ h => h

theorem kept_mono (N N' : Inode → Prop) (h : ∀ n, N n → N' n) (E : String) (T : Int)
    (s : Sync RefFs) (hk : Kept N E T s) : Kept N' E T s := by
  obtain ⟨ht, i, hi, hn, hm⟩ := hk
  exact ⟨ht, i, hi, h _ hn, hm⟩

theorem aside_target (E p : String) : ¬ Aside E .target p := fun h => h.1 rfl

theorem aside_of_not_covers (E x : String) (k : StepKind) (hk : k ≠ .target)
    (h : ¬ Covers E (normalizePath x)) : Aside E k (normalizePath x) := by
  refine ⟨hk, ?_, ?_, ?_⟩
  · intro heq
    apply h
    unfold Covers
    rw [← heq, keyOf_filepathDir]
    exact isPrefixOf_dropLast _
  · intro heq
    apply h
    unfold Covers
    rw [← heq]
    exact RefFs.isPrefixOf_self _
  · intro heq
    apply h
    unfold Covers
    rw [← heq]
    exact isPrefixOf_dropLast _

theorem quick_of_node (ent : TarEntry) (fs fs' : RefFs)
    (h : ∀ i, fs'.ino (keyOf (normalizePath ent.hdr.name)) = some i →
      fs.ino (keyOf (normalizePath ent.hdr.name)) = some i ∧ fs'.node i = fs.node i)
    (hq : Quick ent fs) : Quick ent fs' := by
  unfold Quick at hq ⊢
  cases hi : fs'.ino (keyOf (normalizePath ent.hdr.name)) with
  | none => trivial
  | some i =>
    obtain ⟨h1, h2⟩ := h i hi
    rw [h1] at hq
    simp only at hq ⊢
    rw [h2]
    exact hq

/-- Steps aside of the entry keep the quick check sound for it. -/
theorem quick_step (ent : TarEntry) (s s' : Sync RefFs)
    (h : Step RefFs.asFs (Aside (normalizePath ent.hdr.name)) s s')
    (h0 : Free (normalizePath ent.hdr.name) s) (hq : Quick ent s.fs) : Quick ent s'.fs := by
  obtain ⟨ht, hfree⟩ := h0
  have hattr : ∀ (c : Call) (path : String), c.isAttrAt path →
      keyOf path ≠ keyOf (normalizePath ent.hdr.name) →
      Quick ent (s.call RefFs.asFs c).2.fs := by
    intro c path hc hne
    refine quick_of_node ent s.fs _ (fun i hi => ?_) hq
    have hi' : s.fs.ino (keyOf (normalizePath ent.hdr.name)) = some i :=
      (congrFun (RefFs.exec_attr_ino c path hc s.fs) _).symm.trans hi
    refine ⟨hi', RefFs.exec_attr_node c path hc s.fs i (fun hp => ?_)⟩
    exact hne (ht.2.1 _ _ i hp hi')
  cases h with
  | silent hfs hp hm hl => rw [hfs]; exact hq
  | read c hc => exact hq
  | restoreFailed h1 hr =>
    exact hattr (.chtimes s.baseDirPath s.baseDirModTime s.baseDirModTime) s.baseDirPath
      (by simp [Call.isAttrAt]) (fun hk => hfree ⟨h1, hk⟩)
  | restore h1 hr =>
    exact hattr (.chtimes s.baseDirPath s.baseDirModTime s.baseDirModTime) s.baseDirPath
      (by simp [Call.isAttrAt]) (fun hk => hfree ⟨h1, hk⟩)
  | snapshot path hQ fi h1 hD hfi => exact hq
  | structural path hQ c hc hl h1 =>
    refine quick_of_node ent s.fs _ (fun i hi => ?_) hq
    have hi' : s.fs.ino (keyOf (normalizePath ent.hdr.name)) = some i :=
      RefFs.exec_structural_keeps c path hc s.fs _ i (Ne.symm hQ.2.2.1) hi
    refine ⟨hi', RefFs.exec_structural_other c path hc ?_ s.fs i (ht.1 _ _ hi') ?_ ?_⟩
    · intro old hco
      exact aside_target _ _ (hl old hco)
    · intro hp
      exact hQ.2.2.1 (ht.2.1 _ _ i hp hi')
    · intro hp
      exact hQ.2.2.2 (ht.2.1 _ _ i hp hi')
  | attr path hQ c hc => exact hattr c path hc hQ.2.2.1

theorem quick_reach (ent : TarEntry) (s s' : Sync RefFs)
    (h : Reach RefFs.asFs (Aside (normalizePath ent.hdr.name)) s s')
    (h0 : Free (normalizePath ent.hdr.name) s) (hq : Quick ent s.fs) : Quick ent s'.fs :=
  (reach_invariant (fun t => Free (normalizePath ent.hdr.name) t ∧ Quick ent t.fs)
    (fun t t' hs hI => ⟨free_step _ t t' (step_mono (fun _ _ h => ⟨h.1, h.2.1⟩) hs) hI.1,
      quick_step ent t t' hs hI.1 hI.2⟩) h ⟨h0, hq⟩).2

/-- A successful `syncRegularFile` leaves the regular file its entry describes, with
the body of the entry when the quick check was sound. -/
theorem syncRegularFile_kept (C : Prop) (ent : TarEntry) (s : Sync RefFs)
    (hReg : ent.hdr.typeflag = TypeReg) (hfit : HeaderFits ent)
    (hroot : keyOf (normalizePath ent.hdr.name) ≠ [])
    (h0 : Free (normalizePath ent.hdr.name) s) (hq : C → Quick ent s.fs)
    (hok : (syncRegularFile RefFs.asFs ent.hdr ent.body s).1 = none) :
    Kept (NodeHolds C s.opts ent) (normalizePath ent.hdr.name) ent.hdr.modTime
      (syncRegularFile RefFs.asFs ent.hdr ent.body s).2 := by
  obtain ⟨hsize, hmode⟩ := hfit.1 hReg
  have hSR : ent.hdr.typeflag ≠ TypeSymlink := by rw [hReg]; decide
  unfold syncRegularFile at hok ⊢
  simp only at hok ⊢
  cases hst : statResult (LstatOrStat RefFs.asFs (normalizePath ent.hdr.name) s).1 with
  | error e => simp [hst] at hok
  | ok fi =>
    simp only [hst] at hok ⊢
    cases hd : (dropUnless RefFs.asFs (normalizePath ent.hdr.name)
        (fun info => modeIsRegular info.mode) (.removeAll (normalizePath ent.hdr.name))
        "failed to remove: " fi (LstatOrStat RefFs.asFs (normalizePath ent.hdr.name) s).2).1 with
    | some e => simp [hd] at hok
    | none =>
      simp only [hd] at hok ⊢
      have hr1 : Reach RefFs.asFs NoLink s (dropUnless RefFs.asFs (normalizePath ent.hdr.name)
          (fun info => modeIsRegular info.mode) (.removeAll (normalizePath ent.hdr.name))
          "failed to remove: " fi
          (LstatOrStat RefFs.asFs (normalizePath ent.hdr.name) s).2).2.2 :=
        (reach_LstatOrStat RefFs.asFs NoLink (normalizePath ent.hdr.name) s).trans
          (reach_dropUnless RefFs.asFs NoLink (normalizePath ent.hdr.name) (fun _ hk => hk)
            _ _ _ fi _ (by simp [Call.isStructuralAt]) (fun _ h => by cases h))
      have hopt1 : (dropUnless RefFs.asFs (normalizePath ent.hdr.name)
          (fun info => modeIsRegular info.mode) (.removeAll (normalizePath ent.hdr.name))
          "failed to remove: " fi
          (LstatOrStat RefFs.asFs (normalizePath ent.hdr.name) s).2).2.2.opts = s.opts :=
        (ctl_fields (ctl_dropUnless RefFs.asFs _ _ _ _ fi _)).2.1
      by_cases hup : upToDate ent.hdr (dropUnless RefFs.asFs (normalizePath ent.hdr.name)
          (fun info => modeIsRegular info.mode) (.removeAll (normalizePath ent.hdr.name))
          "failed to remove: " fi
          (LstatOrStat RefFs.asFs (normalizePath ent.hdr.name) s).2).2.1 = true
      · rw [if_pos hup] at hok ⊢
        cases hk : (dropUnless RefFs.asFs (normalizePath ent.hdr.name)
            (fun info => modeIsRegular info.mode) (.removeAll (normalizePath ent.hdr.name))
            "failed to remove: " fi
            (LstatOrStat RefFs.asFs (normalizePath ent.hdr.name) s).2).2.1 with
        | none =>
          rw [hk] at hup
          simp [upToDate] at hup
        | some info =>
          rw [hk] at hup
          obtain ⟨k1, k2, k3⟩ := dropUnless_kept RefFs.asFs _ _ _ _ fi _ info hk
          subst k1
          simp only [hk, k3] at hok ⊢
          have hl : RefFs.lstat s.fs (normalizePath ent.hdr.name) = .ok info :=
            statResult_some _ _ hst
          obtain ⟨i, hi, hfi⟩ := RefFs.lstat_ok _ _ _ hl
          have hpl : Placed (normalizePath ent.hdr.name) i
              (LstatOrStat RefFs.asFs (normalizePath ent.hdr.name) s).2 := ⟨h0.1, hi⟩
          obtain ⟨t1, t2, t3, t4, t5, t6, _, _⟩ := syncStatWrapped_post ent.hdr (some info) _ i hpl
            (by
              intro info1 h1
              simp only [Option.some.injEq] at h1
              subst h1
              exact hfi) hok
          have hreg0 : modeTypeOf (s.fs.node i).mode = 0 := by
            rw [hfi] at k2
            exact (RefFs.modeIsRegular_iff _).mp k2
          simp only [upToDate, decide_eq_true_eq] at hup
          refine ⟨t1.1, i, t1.2, ⟨⟨Or.inl ⟨hReg, ?_, ?_⟩, t3, fun _ => ?_⟩, fun hC _ => ?_⟩, ?_⟩
          · exact (RefFs.modeIsRegular_iff _).mpr (t2.2.2.trans hreg0)
          · rw [t2.1, hup.1, hfi]
            rfl
          · have hmf : ModeFits ent.hdr (s.fs.node i) := by
              unfold ModeFits
              rw [hreg0]
              exact hmode
            exact (t4 hSR hmf).symm
          · rw [t2.1]
            have hqq := hq hC
            unfold Quick at hqq
            rw [hi] at hqq
            refine hqq ((RefFs.modeIsRegular_iff _).mpr hreg0) ?_ ?_
            · rw [hup.1, hfi]
              rfl
            · have := hup.2
              rw [hfi] at this
              exact this.symm
          · rw [if_neg ?_]
            · exact t5
            · rw [t6]
              exact h0.2
      · rw [if_neg hup] at hok ⊢
        generalize (dropUnless RefFs.asFs (normalizePath ent.hdr.name)
            (fun info => modeIsRegular info.mode) (.removeAll (normalizePath ent.hdr.name))
            "failed to remove: " fi
            (LstatOrStat RefFs.asFs (normalizePath ent.hdr.name) s).2).2.2 = s1
          at hok hr1 hopt1 ⊢
        have hw1 : RefFs.Tidy s1.fs := tidy_reach NoLink noLink_target _ _ hr1 h0.1
        obtain ⟨i, c1, c2, c3, c4, c5, c6⟩ := createEntry_kept ent.hdr
          (.writeReader (normalizePath ent.hdr.name) ent.body) "failed to write file: "
          Sync.markAdded s1
          (fun n => modeIsRegular n.mode = true ∧ n.content = ent.body)
          (fun n n' hs hn => ⟨(RefFs.modeIsRegular_iff _).mpr
            (hs.2.2.trans ((RefFs.modeIsRegular_iff _).mp hn.1)), hs.1.trans hn.2⟩)
          (fun _ => ⟨rfl, rfl, rfl, rfl⟩) (fun _ => rfl) (fun _ _ h => by cases h)
          (fun fs _ hc => ⟨RefFs.dropLast_ne_self _ hroot,
            RefFs.writeReader_ok fs (normalizePath ent.hdr.name) ent.body hc⟩)
          hw1 hok
        refine ⟨c1.1, i, c1.2, ⟨⟨Or.inl ⟨hReg, c2.1, ?_⟩, fun ho => c3 (hopt1 ▸ ho), fun _ => ?_⟩,
          fun _ _ => c2.2⟩, ?_⟩
        · rw [c2.2]
          exact hsize
        · refine (c4 hSR ?_).symm
          intro n hn
          unfold ModeFits
          rw [(RefFs.modeIsRegular_iff _).mp hn.1]
          exact hmode
        · rw [if_neg c6]
          exact c5

/-- A successful `syncDir` leaves the directory its entry describes. -/
theorem syncDir_kept (ent : TarEntry) (s : Sync RefFs)
    (hDir : ent.hdr.typeflag = TypeDir) (hfit : HeaderFits ent)
    (h0 : Free (normalizePath ent.hdr.name) s)
    (hok : (syncDir RefFs.asFs ent.hdr s).1 = none) :
    Kept (NodeFits s.opts ent) (normalizePath ent.hdr.name) ent.hdr.modTime
      (syncDir RefFs.asFs ent.hdr s).2 := by
  have hmode := hfit.2 hDir
  have hSR : ent.hdr.typeflag ≠ TypeSymlink := by rw [hDir]; decide
  unfold syncDir at hok ⊢
  simp only at hok ⊢
  cases hst : statResult (LstatOrStat RefFs.asFs (normalizePath ent.hdr.name) s).1 with
  | error e => simp [hst] at hok
  | ok fi =>
    simp only [hst] at hok ⊢
    cases hd : (dropUnless RefFs.asFs (normalizePath ent.hdr.name)
        (fun info => decide (modeTypeOf info.mode = ModeDir))
        (.remove (normalizePath ent.hdr.name))
        "failed to remove: " fi (LstatOrStat RefFs.asFs (normalizePath ent.hdr.name) s).2).1 with
    | some e => simp [hd] at hok
    | none =>
      simp only [hd] at hok ⊢
      have hr1 : Reach RefFs.asFs NoLink s (dropUnless RefFs.asFs (normalizePath ent.hdr.name)
          (fun info => decide (modeTypeOf info.mode = ModeDir))
          (.remove (normalizePath ent.hdr.name)) "failed to remove: " fi
          (LstatOrStat RefFs.asFs (normalizePath ent.hdr.name) s).2).2.2 :=
        (reach_LstatOrStat RefFs.asFs NoLink (normalizePath ent.hdr.name) s).trans
          (reach_dropUnless RefFs.asFs NoLink (normalizePath ent.hdr.name) (fun _ hk => hk)
            _ _ _ fi _ (by simp [Call.isStructuralAt]) (fun _ h => by cases h))
      have hopt1 : (dropUnless RefFs.asFs (normalizePath ent.hdr.name)
          (fun info => decide (modeTypeOf info.mode = ModeDir))
          (.remove (normalizePath ent.hdr.name)) "failed to remove: " fi
          (LstatOrStat RefFs.asFs (normalizePath ent.hdr.name) s).2).2.2.opts = s.opts :=
        (ctl_fields (ctl_dropUnless RefFs.asFs _ _ _ _ fi _)).2.1
      cases hk : (dropUnless RefFs.asFs (normalizePath ent.hdr.name)
          (fun info => decide (modeTypeOf info.mode = ModeDir))
          (.remove (normalizePath ent.hdr.name)) "failed to remove: " fi
          (LstatOrStat RefFs.asFs (normalizePath ent.hdr.name) s).2).2.1 with
      | some info =>
        simp only [hk] at hok ⊢
        obtain ⟨k1, k2, k3⟩ := dropUnless_kept RefFs.asFs _ _ _ _ fi _ info hk
        subst k1
        simp only [k3] at hok ⊢
        have hl : RefFs.lstat s.fs (normalizePath ent.hdr.name) = .ok info :=
          statResult_some _ _ hst
        obtain ⟨i, hi, hfi⟩ := RefFs.lstat_ok _ _ _ hl
        have hpl : Placed (normalizePath ent.hdr.name) i
            (LstatOrStat RefFs.asFs (normalizePath ent.hdr.name) s).2 := ⟨h0.1, hi⟩
        obtain ⟨t1, t2, t3, t4, t5, t6, _, _⟩ := syncStatWrapped_post ent.hdr (some info) _ i hpl
          (by
            intro info1 h1
            simp only [Option.some.injEq] at h1
            subst h1
            exact hfi) hok
        have hdir0 : modeTypeOf (s.fs.node i).mode = ModeDir := by
          rw [hfi] at k2
          simpa [RefFs.infoOf] using k2
        have hmf : ModeFits ent.hdr (s.fs.node i) := by
          unfold ModeFits
          rw [hdir0]
          exact hmode
        refine ⟨t1.1, i, t1.2, ⟨Or.inr (Or.inl ⟨hDir, t2.2.2.trans hdir0⟩), t3,
          fun _ => (t4 hSR hmf).symm⟩, ?_⟩
        rw [if_neg ?_]
        · exact t5
        · rw [t6]
          exact h0.2
      | none =>
        simp only [hk] at hok ⊢
        generalize (dropUnless RefFs.asFs (normalizePath ent.hdr.name)
            (fun info => decide (modeTypeOf info.mode = ModeDir))
            (.remove (normalizePath ent.hdr.name)) "failed to remove: " fi
            (LstatOrStat RefFs.asFs (normalizePath ent.hdr.name) s).2).2.2 = s1
          at hok hr1 hopt1 ⊢
        have hw1 : RefFs.Tidy s1.fs := tidy_reach NoLink noLink_target _ _ hr1 h0.1
        obtain ⟨i, c1, c2, c3, c4, c5, c6⟩ := createEntry_kept ent.hdr
          (.mkdir (normalizePath ent.hdr.name) (modePermOf ent.hdr.fileMode))
          "failed to make file: "
          (fun s => s.markAdded.markMode (modePermOf ent.hdr.fileMode ||| ModeDir)) s1
          (fun n => modeTypeOf n.mode = ModeDir)
          (fun n n' hs hn => hs.2.2.trans hn)
          (fun _ => ⟨rfl, rfl, rfl, rfl⟩) (fun _ => rfl) (fun _ _ h => by cases h)
          (fun fs _ hc => by
            obtain ⟨m1, ⟨pi, m2⟩, m3, m4⟩ := RefFs.mkdir_ok fs (normalizePath ent.hdr.name)
              (modePermOf ent.hdr.fileMode) hc
            refine ⟨fun hkk => ?_, fs.nextIno, m3, (RefFs.isDirNode_iff _).mp m4⟩
            rw [hkk, m1] at m2
            simp at m2)
          hw1 hok
        refine ⟨c1.1, i, c1.2, ⟨Or.inr (Or.inl ⟨hDir, c2⟩), fun ho => c3 (hopt1 ▸ ho),
          fun _ => ?_⟩, ?_⟩
        · refine (c4 hSR ?_).symm
          intro n hn
          unfold ModeFits
          rw [hn]
          exact hmode
        · rw [if_neg c6]
          exact c5

/-- The entry `retarget` keeps is a symlink with the header's target. -/
theorem retarget_kept (hdr : Header) (fi : Option FileInfo) (s : Sync RefFs)
    (info : FileInfo) (h : (retarget RefFs.asFs hdr fi s).2.1 = some info) :
    fi = some info ∧ (retarget RefFs.asFs hdr fi s).2.2.fs = s.fs ∧
      (retarget RefFs.asFs hdr fi s).2.2.baseDirPath = s.baseDirPath ∧
      RefFs.readlink s.fs (normalizePath hdr.name) = .ok hdr.linkname := by
  unfold retarget at h ⊢
  simp only at h ⊢
  cases fi with
  | none => simp at h
  | some info0 =>
    simp only at h ⊢
    cases hr : RefFs.asFs.readlink s.fs (normalizePath hdr.name) with
    | error e => simp [hr] at h
    | ok target =>
      simp only [hr] at h ⊢
      by_cases ht : target ≠ hdr.linkname
      · simp [ht] at h
      · simp only [ht, if_false, Option.some.injEq] at h ⊢
        subst h
        simp only [ne_eq, not_not] at ht
        subst ht
        exact ⟨rfl, rfl, rfl, hr⟩

theorem readlink_ok (fs : RefFs) (name target : String) (i : Nat)
    (hi : fs.ino (keyOf name) = some i) (h : fs.readlink name = .ok target) :
    (fs.node i).target = target := by
  unfold RefFs.readlink at h
  rw [hi] at h
  simp only at h
  split at h
  · simpa using h
  · simp at h

/-- A successful `syncSymlink` leaves the symlink its entry describes. -/
theorem syncSymlink_kept (ent : TarEntry) (s : Sync RefFs)
    (hSym : ent.hdr.typeflag = TypeSymlink)
    (h0 : Free (normalizePath ent.hdr.name) s)
    (hok : (syncSymlink RefFs.asFs ent.hdr s).1 = none) :
    Kept (NodeFits s.opts ent) (normalizePath ent.hdr.name) ent.hdr.modTime
      (syncSymlink RefFs.asFs ent.hdr s).2 := by
  unfold syncSymlink at hok ⊢
  simp only at hok ⊢
  cases hst : statResult (RefFs.asFs.lstat s.fs (normalizePath ent.hdr.name)) with
  | error e => simp [hst] at hok
  | ok fi =>
    simp only [hst] at hok ⊢
    cases hd : (dropUnless RefFs.asFs (normalizePath ent.hdr.name)
        (fun info => decide (modeTypeOf info.mode = ModeSymlink))
        (.removeAll (normalizePath ent.hdr.name))
        "failed to remove: " fi (s.logCall (.lstat (normalizePath ent.hdr.name)))).1 with
    | some e => simp [hd] at hok
    | none =>
      simp only [hd] at hok ⊢
      have hr1 : Reach RefFs.asFs NoLink s (dropUnless RefFs.asFs (normalizePath ent.hdr.name)
          (fun info => decide (modeTypeOf info.mode = ModeSymlink))
          (.removeAll (normalizePath ent.hdr.name)) "failed to remove: " fi
          (s.logCall (.lstat (normalizePath ent.hdr.name)))).2.2 := by
        have r0 : Reach RefFs.asFs NoLink s (s.logCall (.lstat (normalizePath ent.hdr.name))) :=
          reach_step (Step.read _ rfl)
        exact r0.trans
          (reach_dropUnless RefFs.asFs NoLink (normalizePath ent.hdr.name) (fun _ hk => hk)
            _ _ _ fi _ (by simp [Call.isStructuralAt]) (fun _ h => by cases h))
      have hopt1 : (dropUnless RefFs.asFs (normalizePath ent.hdr.name)
          (fun info => decide (modeTypeOf info.mode = ModeSymlink))
          (.removeAll (normalizePath ent.hdr.name)) "failed to remove: " fi
          (s.logCall (.lstat (normalizePath ent.hdr.name)))).2.2.opts = s.opts :=
        (ctl_fields (ctl_dropUnless RefFs.asFs _ _ _ _ fi _)).2.1
      have hkeep : ∀ info, (dropUnless RefFs.asFs (normalizePath ent.hdr.name)
          (fun info => decide (modeTypeOf info.mode = ModeSymlink))
          (.removeAll (normalizePath ent.hdr.name)) "failed to remove: " fi
          (s.logCall (.lstat (normalizePath ent.hdr.name)))).2.1 = some info →
          fi = some info ∧ modeTypeOf info.mode = ModeSymlink ∧
          (dropUnless RefFs.asFs (normalizePath ent.hdr.name)
            (fun info => decide (modeTypeOf info.mode = ModeSymlink))
            (.removeAll (normalizePath ent.hdr.name)) "failed to remove: " fi
            (s.logCall (.lstat (normalizePath ent.hdr.name)))).2.2 =
              s.logCall (.lstat (normalizePath ent.hdr.name)) := by
        intro info hk
        obtain ⟨k1, k2, k3⟩ := dropUnless_kept RefFs.asFs _ _ _ _ fi _ info hk
        exact ⟨k1, by simpa using k2, k3⟩
      generalize (dropUnless RefFs.asFs (normalizePath ent.hdr.name)
          (fun info => decide (modeTypeOf info.mode = ModeSymlink))
          (.removeAll (normalizePath ent.hdr.name)) "failed to remove: " fi
          (s.logCall (.lstat (normalizePath ent.hdr.name)))).2 = d at hok hr1 hopt1 hkeep ⊢
      cases ht : (retarget RefFs.asFs ent.hdr d.1 d.2).1 with
      | some e => simp [ht] at hok
      | none =>
        simp only [ht] at hok ⊢
        have hr2 : Reach RefFs.asFs NoLink s (retarget RefFs.asFs ent.hdr d.1 d.2).2.2 :=
          hr1.trans (reach_retarget RefFs.asFs NoLink ent.hdr (fun _ hk => hk) d.1 d.2)
        have hopt2 : (retarget RefFs.asFs ent.hdr d.1 d.2).2.2.opts = s.opts :=
          ((ctl_fields (ctl_retarget RefFs.asFs ent.hdr d.1 d.2)).2.1).trans hopt1
        cases hk : (retarget RefFs.asFs ent.hdr d.1 d.2).2.1 with
        | some info =>
          simp only [hk] at hok ⊢
          obtain ⟨r1, r2, r3, r4⟩ := retarget_kept ent.hdr d.1 d.2 info hk
          obtain ⟨k1, k2, k3⟩ := hkeep info r1
          subst k1
          have hfs : (retarget RefFs.asFs ent.hdr d.1 d.2).2.2.fs = s.fs := by
            rw [r2, k3]; rfl
          have hheld : (retarget RefFs.asFs ent.hdr d.1 d.2).2.2.baseDirPath = s.baseDirPath := by
            rw [r3, k3]; rfl
          have hl : RefFs.lstat s.fs (normalizePath ent.hdr.name) = .ok info :=
            statResult_some _ _ hst
          obtain ⟨i, hi, hfi⟩ := RefFs.lstat_ok _ _ _ hl
          have hpl : Placed (normalizePath ent.hdr.name) i
              (retarget RefFs.asFs ent.hdr d.1 d.2).2.2 := by
            unfold Placed
            rw [hfs]
            exact ⟨h0.1, hi⟩
          obtain ⟨t1, t2, t3, _, t5, t6, _, _⟩ := syncStatWrapped_post ent.hdr (some info) _ i hpl
            (by
              intro info1 h1
              simp only [Option.some.injEq] at h1
              subst h1
              rw [hfs]
              exact hfi) hok
          rw [hfs] at t2
          have htype : modeTypeOf (s.fs.node i).mode = ModeSymlink := by
            rw [hfi] at k2
            exact k2
          have htarget : (s.fs.node i).target = ent.hdr.linkname := by
            refine readlink_ok s.fs _ _ i hi ?_
            rw [k3] at r4
            exact r4
          refine ⟨t1.1, i, t1.2, ⟨Or.inr (Or.inr ⟨hSym, t2.2.2.trans htype,
            t2.2.1.trans htarget⟩), fun ho => t3 (hopt2 ▸ ho), fun hne => absurd hSym hne⟩, ?_⟩
          rw [if_neg ?_]
          · exact t5
          · rw [t6, hheld]
            exact h0.2
        | none =>
          simp only [hk] at hok ⊢
          generalize (retarget RefFs.asFs ent.hdr d.1 d.2).2.2 = s1 at hok hr2 hopt2 ⊢
          have hw1 : RefFs.Tidy s1.fs := tidy_reach NoLink noLink_target _ _ hr2 h0.1
          obtain ⟨i, c1, c2, c3, _, c5, c6⟩ := createEntry_kept ent.hdr
            (.symlink ent.hdr.linkname (normalizePath ent.hdr.name)) "failed to make link: "
            (fun s => s.markAdded.markLink ent.hdr.linkname) s1
            (fun n => modeTypeOf n.mode = ModeSymlink ∧ n.target = ent.hdr.linkname)
            (fun n n' hs hn => ⟨hs.2.2.trans hn.1, hs.2.1.trans hn.2⟩)
            (fun _ => ⟨rfl, rfl, rfl, rfl⟩) (fun _ => rfl) (fun _ _ h => by cases h)
            (fun fs _ hc => RefFs.symlink_ok fs ent.hdr.linkname (normalizePath ent.hdr.name) hc)
            hw1 hok
          refine ⟨c1.1, i, c1.2, ⟨Or.inr (Or.inr ⟨hSym, c2.1, c2.2⟩),
            fun ho => c3 (hopt2 ▸ ho), fun hne => absurd hSym hne⟩, ?_⟩
          rw [if_neg c6]
          exact c5

theorem dispatch_reg_synced (F : Fs σ) (ent : TarEntry) (s : Sync σ)
    (hR : ent.hdr.typeflag = TypeReg) (h : (dispatch F ent s).1 = .synced) :
    (syncRegularFile F ent.hdr ent.body s).1 = none ∧
      (dispatch F ent s).2 = (syncRegularFile F ent.hdr ent.body s).2 := by
  unfold dispatch at h ⊢
  simp only [hR, if_true] at h ⊢
  exact dispatched_synced _ _ _ h

theorem dispatch_symlink_synced (F : Fs σ) (ent : TarEntry) (s : Sync σ)
    (hS : ent.hdr.typeflag = TypeSymlink) (h : (dispatch F ent s).1 = .synced) :
    (syncSymlink F ent.hdr s).1 = none ∧ (dispatch F ent s).2 = (syncSymlink F ent.hdr s).2 := by
  have hSR : TypeSymlink ≠ TypeReg := by decide
  have hSD : TypeSymlink ≠ TypeDir := by decide
  unfold dispatch at h ⊢
  simp only [hS, hSR, hSD, if_false, if_true] at h ⊢
  by_cases ho : s.opts.withSymlinks = true
  · simp only [ho, not_true_eq_false, if_false] at h ⊢
    exact dispatched_synced _ _ _ h
  · simp [ho] at h

/-- A synced entry of a plain kind is left as its tar entry describes it. -/
theorem dispatch_kept (C : Prop) (ent : TarEntry) (s : Sync RefFs) (hkind : PlainKind ent)
    (hfit : HeaderFits ent)
    (hroot : ent.hdr.typeflag ≠ TypeDir → keyOf (normalizePath ent.hdr.name) ≠ [])
    (h0 : Free (normalizePath ent.hdr.name) s) (hq : C → Quick ent s.fs)
    (hd : (dispatch RefFs.asFs ent s).1 = .synced) :
    Kept (NodeHolds C s.opts ent) (normalizePath ent.hdr.name) ent.hdr.modTime
      (dispatch RefFs.asFs ent s).2 := by
  rcases hkind with hk | hk | hk
  · obtain ⟨d1, d2⟩ := dispatch_reg_synced RefFs.asFs ent s hk hd
    rw [d2]
    exact syncRegularFile_kept C ent s hk hfit (hroot (by rw [hk]; decide)) h0 hq d1
  · obtain ⟨d1, d2⟩ := dispatch_dir_synced RefFs.asFs ent s hk hd
    rw [d2]
    exact kept_mono _ _ (fun n hn => ⟨hn, fun _ hR => absurd (hk.symm.trans hR) (by decide)⟩) _ _ _
      (syncDir_kept ent s hk hfit h0 d1)
  · obtain ⟨d1, d2⟩ := dispatch_symlink_synced RefFs.asFs ent s hk hd
    rw [d2]
    exact kept_mono _ _ (fun n hn => ⟨hn, fun _ hR => absurd (hk.symm.trans hR) (by decide)⟩) _ _ _
      (syncSymlink_kept ent s hk h0 d1)

/-- One entry through a whole run.  On a tidy reference destination, let the tar hold
no hard-link entry and an entry `ent` of a plain kind that is not skipped.  When no
earlier entry lies at or below its path, no later entry names its path or a
directory above it, and every walked path that is its path or a directory above it is
named by a tar entry that is not skipped, then after a run that returns a nil error the
path is there as `ent` describes it, a regular file with the body of the entry when the
quick check was sound on the destination. -/
theorem entry_kept_after_run (fs : RefFs) (pre post : List TarEntry) (ent : TarEntry)
    (fail : Option Error) (opts : List Opt) (fuel : Nat) (u : List PathUpdate)
    (s' : Sync RefFs)
    (hkind : PlainKind ent) (hsync : AlwaysSynced (resolveOptions opts) ent)
    (hfit : HeaderFits ent)
    (hroot : ent.hdr.typeflag ≠ TypeDir → keyOf (normalizePath ent.hdr.name) ≠ [])
    (htidy : RefFs.Tidy fs)
    (hnolink : ∀ e ∈ pre ++ ent :: post, e.hdr.typeflag ≠ TypeLink)
    (hpre : ∀ e ∈ pre, ¬ Covers (normalizePath ent.hdr.name) (normalizePath e.hdr.name))
    (hpost : ∀ e ∈ post, ¬ Covers (normalizePath e.hdr.name) (normalizePath ent.hdr.name))
    (hwalk : ∀ paths, RefFs.walk fs = .ok paths →
      Guarded (fun p => Covers p (normalizePath ent.hdr.name))
        (resolveOptions opts) (pre ++ ent :: post) (paths.map normalizePath))
    (hrun : Run RefFs.asFs fuel (New RefFs.asFs fs ⟨pre ++ ent :: post, fail⟩ opts) =
      some (u, none, s')) :
    RefFs.Tidy s'.fs ∧ ∃ i, s'.fs.ino (keyOf (normalizePath ent.hdr.name)) = some i ∧
      NodeHolds (Quick ent fs) (resolveOptions opts) ent (s'.fs.node i) ∧
      (s'.fs.node i).mtime = ent.hdr.modTime := by
  obtain ⟨n1, n2, n3, n4, n5, n6, _⟩ :=
    New_fields RefFs.asFs fs ⟨pre ++ ent :: post, fail⟩ opts
  have hN := nodeHolds_blind (Quick ent fs) (resolveOptions opts) ent
  have key : Kept (NodeHolds (Quick ent fs) (resolveOptions opts) ent) (normalizePath ent.hdr.name)
      ent.hdr.modTime s' ∧ s'.baseDirPath = "" := by
    refine Run_guarded RefFs.asFs
      (fun p => Covers p (normalizePath ent.hdr.name) ∨ ¬ Normal p)
      (fun s => s.opts = resolveOptions opts ∧
        ((∃ pre', s.tarReader.entries = pre' ++ ent :: post ∧
          (∀ e ∈ pre', ¬ Covers (normalizePath ent.hdr.name) (normalizePath e.hdr.name) ∧
            e.hdr.typeflag ≠ TypeLink) ∧
          Free (normalizePath ent.hdr.name) s ∧ (Quick ent fs → Quick ent s.fs)) ∨
        ((∀ e ∈ s.tarReader.entries,
            ¬ Covers (normalizePath e.hdr.name) (normalizePath ent.hdr.name) ∧
              e.hdr.typeflag ≠ TypeLink) ∧
          Kept (NodeHolds (Quick ent fs) (resolveOptions opts) ent) (normalizePath ent.hdr.name)
            ent.hdr.modTime s)))
      (fun s => Kept (NodeHolds (Quick ent fs) (resolveOptions opts) ent) (normalizePath ent.hdr.name)
        ent.hdr.modTime s ∧ s.baseDirPath = "")
      ?_ ?_ ?_ ?_ ?_ ?_ ?_ fuel _ u s' ?_ ?_ hrun
    · -- the walk
      intro s m _ _ hw hJ
      unfold walkFs
      split <;> exact hJ
    · -- one tar entry
      intro s e rest _ _ hent hJ
      obtain ⟨hopt, hJ⟩ := hJ
      obtain ⟨c1, c2, _, _, _⟩ := ctl_fields (ctl_dispatch RefFs.asFs e (s.beginEntry e rest))
      have e1 : (dispatch RefFs.asFs e (s.beginEntry e rest)).2.tarReader.entries = rest := by
        rw [c1]; rfl
      have e2 : (dispatch RefFs.asFs e (s.beginEntry e rest)).2.opts = resolveOptions opts := by
        rw [c2]; exact hopt
      rcases hJ with ⟨pre', hpre', hin, hfree, hquick⟩ | ⟨hsafe, hkept⟩
      · rw [hent] at hpre'
        have hfree' : Free (normalizePath ent.hdr.name) (s.beginEntry e rest) := hfree
        cases pre' with
        | nil =>
          simp only [List.nil_append, List.cons.injEq] at hpre'
          obtain ⟨h1, h2⟩ := hpre'
          subst h1
          subst h2
          constructor
          · intro hd
            refine ⟨e2, Or.inr ⟨?_, ?_⟩⟩
            · intro x hx
              simp only [Sync.forget, e1] at hx
              exact ⟨hpost x hx, hnolink x (by simp [hx])⟩
            · have := dispatch_kept (Quick e fs) e (s.beginEntry e rest) hkind hfit hroot hfree'
                hquick hd
              have ho : (s.beginEntry e rest).opts = resolveOptions opts := hopt
              rw [ho] at this
              exact this
          · intro hd
            exact absurd hd (dispatch_alwaysSynced RefFs.asFs e _ (by
              have ho : (s.beginEntry e rest).opts = resolveOptions opts := hopt
              rw [ho]
              exact hsync))
        | cons x pre'' =>
          simp only [List.cons_append, List.cons.injEq] at hpre'
          obtain ⟨h1, h2⟩ := hpre'
          subst h1
          have hq := hin e (List.mem_cons_self _ _)
          have hin' : ∀ x ∈ pre'', ¬ Covers (normalizePath ent.hdr.name)
              (normalizePath x.hdr.name) ∧ x.hdr.typeflag ≠ TypeLink :=
            fun x hx => hin x (List.mem_cons_of_mem _ hx)
          have hr : Reach RefFs.asFs (Aside (normalizePath ent.hdr.name))
              (s.beginEntry e rest) (dispatch RefFs.asFs e (s.beginEntry e rest)).2 :=
            reach_dispatch RefFs.asFs _ e (fun _ hk => aside_of_not_covers _ _ _ hk hq.1)
              (fun h => absurd h hq.2) (s.beginEntry e rest)
          have hf := free_reach _ _ _ (reach_mono (fun _ _ h => ⟨h.1, h.2.1⟩) hr) hfree'
          have hf : Free (normalizePath ent.hdr.name)
                (dispatch RefFs.asFs e (s.beginEntry e rest)).2 ∧
              (Quick ent fs → Quick ent (dispatch RefFs.asFs e (s.beginEntry e rest)).2.fs) :=
            ⟨hf, fun hC => quick_reach ent _ _ hr hfree' (hquick hC)⟩
          exact ⟨fun _ => ⟨e2, Or.inl ⟨pre'', by simp only [Sync.forget, e1]; exact h2, hin', hf⟩⟩,
            fun _ => ⟨e2, Or.inl ⟨pre'', by rw [e1]; exact h2, hin', hf⟩⟩⟩
      · have hq := hsafe e (by rw [hent]; exact List.mem_cons_self _ _)
        have hrest : ∀ x ∈ rest,
            ¬ Covers (normalizePath x.hdr.name) (normalizePath ent.hdr.name) ∧
              x.hdr.typeflag ≠ TypeLink :=
          fun x hx => hsafe x (by rw [hent]; exact List.mem_cons_of_mem _ hx)
        have hkept' : Kept (NodeHolds (Quick ent fs) (resolveOptions opts) ent) (normalizePath ent.hdr.name)
            ent.hdr.modTime (s.beginEntry e rest) := hkept
        have hr : Reach RefFs.asFs (Apart (normalizePath ent.hdr.name))
            (s.beginEntry e rest) (dispatch RefFs.asFs e (s.beginEntry e rest)).2 :=
          reach_dispatch RefFs.asFs _ e
            (fun _ hk => ⟨hk, hq.1, keyOf_filepathDir e.hdr.name⟩) (fun h => absurd h hq.2)
            (s.beginEntry e rest)
        have hs := kept_reach _ hN _ _ _ _ hr hkept'
        exact ⟨fun _ => ⟨e2, Or.inr ⟨by simp only [Sync.forget, e1]; exact hrest, hs⟩⟩,
          fun _ => ⟨e2, Or.inr ⟨by rw [e1]; exact hrest, hs⟩⟩⟩
    · -- the end of the stream
      intro s _ _ hent hJ
      obtain ⟨hopt, hJ⟩ := hJ
      obtain ⟨f1, _, f3, f4, _, f6, f7, _⟩ := flattenPathMap_fields (s.logCall .tarNext)
      rcases hJ with ⟨pre', hpre', _⟩ | ⟨_, hkept⟩
      · rw [hent] at hpre'
        simp at hpre'
      · refine ⟨by rw [f6]; exact hopt, Or.inr ⟨?_, ?_⟩⟩
        · rw [f7]
          intro x hx
          simp only [Sync.logCall, hent] at hx
          simp at hx
        · unfold Kept
          rw [f1, f3, f4]
          exact hkept
    · intro s rest _ _ _ hJ
      exact hJ
    · intro s path rest _ _ _ _ _ hJ
      exact hJ
    · -- a deletion
      intro s path _ fi _ hent _ hne hP hfi hJ hok
      obtain ⟨hopt, hJ⟩ := hJ
      obtain ⟨f1, f2, _, _⟩ := deleteEntry_fields RefFs.asFs path fi (LstatOrStat RefFs.asFs path s).2
      rcases hJ with ⟨pre', hpre', _⟩ | ⟨hsafe, hkept⟩
      · rw [hent] at hpre'
        simp at hpre'
      · have hout : ∀ k : StepKind, k ≠ .target → Apart (normalizePath ent.hdr.name) k path := by
          intro _ hk
          simp only [not_or, not_not] at hP
          exact ⟨hk, hP⟩
        have hr : Reach RefFs.asFs (Apart (normalizePath ent.hdr.name)) s
            (deleteEntry RefFs.asFs path (.ok fi) (LstatOrStat RefFs.asFs path s).2).2 :=
          (reach_LstatOrStat RefFs.asFs _ path s).trans
            (reach_deleteEntry RefFs.asFs _ path hout _ _)
        refine ⟨by rw [f2]; exact hopt, Or.inr ⟨?_, kept_reach _ hN _ _ _ _ hr hkept⟩⟩
        rw [f1]
        exact hsafe
    · -- the final release of the base directory
      intro s _ hent _ hJ hok
      obtain ⟨_, hJ⟩ := hJ
      rcases hJ with ⟨pre', hpre', _⟩ | ⟨_, hkept⟩
      · rw [hent] at hpre'
        simp at hpre'
      · have hr : Reach RefFs.asFs (Apart (normalizePath ent.hdr.name)) s
            ((preserveBaseDir RefFs.asFs "" s).2.setErr none) :=
          (reach_releaseBaseDir RefFs.asFs _ s).trans (reach_silent rfl rfl rfl rfl)
        exact ⟨kept_reach _ hN _ _ _ _ hr hkept, preserveBaseDir_held RefFs.asFs "" s hok⟩
    · -- the inventory of the first state
      refine ⟨fun _ => ⟨n5, ?_⟩, fun m hm => ?_, fun l hl => ?_⟩
      · intro paths hp p hpm hne hP
        rw [n1] at hp
        rw [n2, n3]
        refine hwalk paths hp p hpm hne ?_
        rcases hP with hP | hP
        · exact hP
        · exfalso
          obtain ⟨x, _, hx⟩ := List.mem_map.mp hpm
          apply hP
          rw [← hx]
          exact keyOf_filepathDir x
      · rw [n4] at hm
        simp at hm
      · rw [n5] at hl
        simp at hl
    · refine ⟨n3, Or.inl ⟨pre, by rw [n2], fun e he => ⟨hpre e he, hnolink e (by simp [he])⟩,
        ⟨?_, ?_⟩, ?_⟩⟩
      · rw [n1]; exact htidy
      · rw [n6]; simp
      · rw [n1]; exact id
  obtain ⟨⟨ht, i, hi, hn, hm⟩, hheld⟩ := key
  rw [if_neg (by rw [hheld]; simp)] at hm
  exact ⟨ht, i, hi, hn, hm⟩

/-! ## What a run leaves on the destination: the names -/

theorem mem_insertSorted_of {x k : String} {l : List String} (h : x = k ∨ x ∈ l) :
    x ∈ insertSorted k l := by
  induction l with
  | nil =>
    rcases h with h | h
    · simp [insertSorted, h]
    · simp at h
  | cons y ys ih =>
    unfold insertSorted
    split
    · rcases h with h | h
      · exact List.mem_cons_of_mem _ (ih (Or.inl h))
      · rcases List.mem_cons.1 h with h | h
        · simp [h]
        · exact List.mem_cons_of_mem _ (ih (Or.inr h))
    · rcases h with h | h
      · simp [h]
      · exact List.mem_cons_of_mem _ h

theorem mem_sortStrings_of {x : String} {l : List String} (h : x ∈ l) : x ∈ sortStrings l := by
  induction l with
  | nil => simp at h
  | cons y ys ih =>
    have : sortStrings (y :: ys) = insertSorted y (sortStrings ys) := rfl
    rw [this]
    rcases List.mem_cons.1 h with h | h
    · exact mem_insertSorted_of (Or.inl h)
    · exact mem_insertSorted_of (Or.inr (ih h))

theorem mem_setInsert_of {m : List String} {k x : String} (h : x ∈ m ∨ x = k) :
    x ∈ setInsert m k := by
  unfold setInsert
  split
  · rcases h with h | h
    · exact h
    · rw [h]; assumption
  · rcases h with h | h
    · exact List.mem_append_left _ h
    · simp [h]

theorem mem_walk_fold_of (paths : List String) :
    ∀ (m : List String) (x : String), (x ∈ m ∨ ∃ p ∈ paths, x = normalizePath p) →
      x ∈ paths.foldl (fun m p => setInsert m (normalizePath p)) m := by
  induction paths with
  | nil =>
    intro m x h
    rcases h with h | ⟨p, hp, _⟩
    · exact h
    · simp at hp
  | cons p ps ih =>
    intro m x h
    refine ih _ x ?_
    rcases h with h | ⟨q, hq, hx⟩
    · exact Or.inl (mem_setInsert_of (Or.inl h))
    · rcases List.mem_cons.1 hq with h1 | h1
      · subst h1
        exact Or.inl (mem_setInsert_of (Or.inr hx))
      · exact Or.inr ⟨q, h1, hx⟩

theorem goodRev_segs (k : Key) (hg : GoodRev k.reverse) : ∀ seg ∈ k, IsSeg seg :=
  fun seg hm => goodRev_mem hg seg (by simpa using hm)

/-- The walk's name of a key is a normalized path. -/
theorem normalizePath_nameOf (k : Key) (hg : GoodRev k.reverse) (hk : k ≠ []) :
    normalizePath (nameOf k) = String.mk (joinSlash k) := by
  have hs := goodRev_segs k hg
  have hne := joinSlash_ne_nil k hk hs
  have hkey := key_joinSlash k hg
  unfold nameOf
  rw [if_neg hk]
  unfold normalizePath
  simp only
  cases hj : joinSlash k with
  | nil => exact absurd hj hne
  | cons c cs =>
    have hc := joinSlash_head k c cs hs hj
    rw [hj] at hkey
    have hcc : cleanChars (c :: cs) = c :: cs := by
      unfold cleanChars
      simp only [hc, decide_False, hkey, Bool.false_eq_true, if_false, hj]
      simp
    rw [hcc]
    simp only [hc, if_false]

theorem keyOf_joinSlash (k : Key) (hg : GoodRev k.reverse) : keyOf (String.mk (joinSlash k)) = k :=
  key_joinSlash k hg

theorem keyOf_normalizePath_nameOf (k : Key) (hg : GoodRev k.reverse) :
    keyOf (normalizePath (nameOf k)) = k := by
  by_cases hk : k = []
  · subst hk
    decide
  · rw [normalizePath_nameOf k hg hk]
    exact keyOf_joinSlash k hg

/-- A normalized path is determined by its key, the root apart. -/
theorem normalizePath_of_key (x : String) (k : Key) (hk : k ≠ [])
    (h : keyOf (normalizePath x) = k) : normalizePath x = String.mk (joinSlash k) := by
  obtain ⟨segs, hg, hsh⟩ := normalizePath_shape x
  rcases hsh with hd | ⟨hd, _⟩
  · have h2 : keyOf (normalizePath x) = segs := by
      rw [keyOf_of_data _ _ hd]
      exact key_joinSlash segs hg
    rw [h] at h2
    subst h2
    rw [← hd]
  · rw [keyOf_dot_data _ hd] at h
    exact absurd h.symm hk

theorem normalizePath_nameOf_ne_dot (k : Key) (hg : GoodRev k.reverse) (hk : k ≠ []) :
    normalizePath (nameOf k) ≠ "." := by
  intro h
  have h1 := keyOf_normalizePath_nameOf k hg
  rw [h] at h1
  exact hk (h1.symm.trans (by decide))

namespace RefFs

/-- A call that creates or removes the entry at `path` adds no other name. -/
theorem exec_structural_sub (c : Call) (path : String) (hc : c.isStructuralAt path)
    (fs : RefFs) (q : Key) (h : (asFs.exec c fs).2.ino q ≠ none) :
    fs.ino q ≠ none ∨ q = keyOf path := by
  by_cases hne : q = keyOf path
  · exact Or.inr hne
  refine Or.inl ?_
  revert h
  cases c <;> simp only [Call.isStructuralAt] at hc <;> subst hc
  · simp only [Fs.exec, asFs, mkdir]
    split
    · exact id
    · simp [addEntry_ino, hne]
  · simp only [Fs.exec, asFs, writeReader]
    split
    · split <;> simp
    · split
      · exact id
      · simp [addEntry_ino, hne]
  · simp only [Fs.exec, asFs, remove]
    split
    · exact id
    · split
      · exact id
      · split
        · exact id
        · simp [dropEntries_ino, hne]
  · simp only [Fs.exec, asFs, removeAll]
    split
    · exact id
    · split
      · exact id
      · simp only [dropEntries_ino]
        split
        · simp
        · exact id
  · simp only [Fs.exec, asFs, symlink]
    split
    · exact id
    · simp [addEntry_ino, hne]
  · simp only [Fs.exec, asFs, link]
    split
    · exact id
    · split
      · exact id
      · split
        · exact id
        · simp [hne]

end RefFs

theorem step_sub (Q : StepKind → String → Prop) (s s' : Sync RefFs)
    (h : Step RefFs.asFs Q s s') (q : Key) (hq : s'.fs.ino q ≠ none) :
    s.fs.ino q ≠ none ∨ ∃ p, Q .structural p ∧ q = keyOf p := by
  cases h with
  | silent hfs hp hm hl => rw [hfs] at hq; exact Or.inl hq
  | read c hc => exact Or.inl hq
  | restoreFailed h1 hr =>
    have := congrFun (RefFs.exec_attr_ino
      (.chtimes s.baseDirPath s.baseDirModTime s.baseDirModTime) s.baseDirPath
      (by simp [Call.isAttrAt]) s.fs) q
    exact Or.inl (by rw [← this]; exact hq)
  | restore h1 hr =>
    have := congrFun (RefFs.exec_attr_ino
      (.chtimes s.baseDirPath s.baseDirModTime s.baseDirModTime) s.baseDirPath
      (by simp [Call.isAttrAt]) s.fs) q
    exact Or.inl (by rw [← this]; exact hq)
  | snapshot path hQ fi h1 hD hfi => exact Or.inl hq
  | structural path hQ c hc hl h1 =>
    rcases RefFs.exec_structural_sub c path hc s.fs q hq with h | h
    · exact Or.inl h
    · exact Or.inr ⟨path, hQ, h⟩
  | attr path hQ c hc =>
    have := congrFun (RefFs.exec_attr_ino c path hc s.fs) q
    exact Or.inl (by rw [← this]; exact hq)

/-- Steps at the path `E` add no name but that of `E`. -/
theorem reach_sub (E : String) (s s' : Sync RefFs) (h : Reach RefFs.asFs (AtPath E) s s')
    (q : Key) (hq : s'.fs.ino q ≠ none) : s.fs.ino q ≠ none ∨ q = keyOf E := by
  induction h with
  | refl => exact Or.inl hq
  | tail _ hstep ih =>
    rcases step_sub _ _ _ hstep q hq with h | ⟨p, hp, h⟩
    · exact ih h
    · rw [hp.2] at h
      exact Or.inr h

theorem atPath_target (E p : String) : ¬ AtPath E .target p := fun h => h.1 rfl

/-- Nothing is created or removed at the root while it is a directory. -/
theorem exec_structural_root (c : Call) (path : String) (hc : c.isStructuralAt path)
    (fs : RefFs) (hk : keyOf path = []) (i : Nat) (hi : fs.ino [] = some i)
    (hd : RefFs.isDirNode (fs.node i) = true) : (RefFs.asFs.exec c fs).2 = fs := by
  have hb : fs.createBlocked [] = some (.fault "file exists") := by
    unfold RefFs.createBlocked
    rw [hi]
  have hreg : modeIsRegular (fs.node i).mode = false := by
    cases hm : modeIsRegular (fs.node i).mode with
    | false => rfl
    | true =>
      have h1 := (RefFs.modeIsRegular_iff _).mp hm
      have h2 := (RefFs.isDirNode_iff _).mp hd
      rw [h1] at h2
      exact absurd h2 (by decide)
  cases c <;> simp only [Call.isStructuralAt] at hc <;> subst hc
  · simp only [Fs.exec, RefFs.asFs, RefFs.mkdir, hk, hb]
  · simp only [Fs.exec, RefFs.asFs, RefFs.writeReader, hk, hi, hreg]
    simp
  · simp only [Fs.exec, RefFs.asFs, RefFs.remove, hk, hi]
    simp
  · simp only [Fs.exec, RefFs.asFs, RefFs.removeAll, hk]
    simp
  · simp only [Fs.exec, RefFs.asFs, RefFs.symlink, hk, hb]
  · simp only [Fs.exec, RefFs.asFs, RefFs.link, hk, hb]
    split
    · rfl
    · split <;> rfl

theorem rootDir_step (Q : StepKind → String → Prop) (s s' : Sync RefFs)
    (h : Step RefFs.asFs Q s s') (ht : RefFs.Tidy s.fs) (hr : RefFs.RootDir s.fs) :
    RefFs.RootDir s'.fs := by
  obtain ⟨i, hi, hd⟩ := hr
  have hattr : ∀ (c : Call) (path : String), c.isAttrAt path →
      RefFs.RootDir (s.call RefFs.asFs c).2.fs := by
    intro c path hc
    refine ⟨i, (congrFun (RefFs.exec_attr_ino c path hc s.fs) _).trans hi, ?_⟩
    exact (RefFs.exec_attr_isDir c path hc s.fs i).trans hd
  cases h with
  | silent hfs hp hm hl => rw [hfs]; exact ⟨i, hi, hd⟩
  | read c hc => exact ⟨i, hi, hd⟩
  | restoreFailed h1 hr =>
    exact hattr (.chtimes s.baseDirPath s.baseDirModTime s.baseDirModTime) s.baseDirPath
      (by simp [Call.isAttrAt])
  | restore h1 hr =>
    exact hattr (.chtimes s.baseDirPath s.baseDirModTime s.baseDirModTime) s.baseDirPath
      (by simp [Call.isAttrAt])
  | snapshot path hQ fi h1 hD hfi => exact ⟨i, hi, hd⟩
  | structural path hQ c hc hl h1 =>
    by_cases hk : keyOf path = []
    · have : (s.call RefFs.asFs c).2.fs = s.fs := exec_structural_root c path hc s.fs hk i hi hd
      rw [this]
      exact ⟨i, hi, hd⟩
    · refine ⟨i, ?_, ?_⟩
      · refine (RefFs.exec_structural_ino c path hc s.fs [] ?_).trans hi
        cases hkk : keyOf path with
        | nil => exact absurd hkk hk
        | cons a as => rfl
      · exact (RefFs.exec_structural_isDir c path hc s.fs i (ht.1 [] i hi)).trans hd
  | attr path hQ c hc => exact hattr c path hc

theorem rootDir_reach (Q : StepKind → String → Prop) (hQ : ∀ p, ¬ Q .target p)
    (s s' : Sync RefFs) (h : Reach RefFs.asFs Q s s') (ht : RefFs.Tidy s.fs)
    (hr : RefFs.RootDir s.fs) : RefFs.RootDir s'.fs :=
  (reach_invariant (fun t => RefFs.Tidy t.fs ∧ RefFs.RootDir t.fs)
    (fun t t' hs hI => ⟨tidy_step Q hQ t t' hs hI.1, rootDir_step Q t t' hs hI.1 hI.2⟩) h
    ⟨ht, hr⟩).2

theorem lstatOrStat_asFs (fs : RefFs) (name : String) :
    RefFs.asFs.lstatOrStat fs name = fs.lstat name := rfl

theorem lstat_none_of_skips (fs : RefFs) (name : String)
    (h : lstatSkips (fs.lstat name) = true) : fs.ino (keyOf name) = none := by
  unfold RefFs.lstat at h
  split at h
  · assumption
  · simp [lstatSkips] at h

theorem lstat_some_of_ok (fs : RefFs) (name : String) (fi : FileInfo)
    (h : fs.lstat name = .ok fi) : fs.ino (keyOf name) ≠ none := by
  obtain ⟨i, hi, _⟩ := RefFs.lstat_ok fs name fi h
  rw [hi]
  simp

/-- A skipped entry leaves the state as it is. -/
theorem dispatch_skipped_state (F : Fs σ) (ent : TarEntry) (s : Sync σ)
    (h : (dispatch F ent s).1 = .skipped) : (dispatch F ent s).2 = s := by
  unfold dispatch dispatched at h ⊢
  simp only at h ⊢
  split_ifs at h ⊢
  all_goals first
    | rfl
    | (split at h <;> simp at h)

/-- Only entries that are never skipped are reconciled. -/
theorem dispatch_synced_alwaysSynced (F : Fs σ) (ent : TarEntry) (s : Sync σ)
    (h : (dispatch F ent s).1 = .synced) : AlwaysSynced s.opts ent := by
  unfold dispatch dispatched at h
  simp only at h
  unfold AlwaysSynced
  have hSR : TypeSymlink ≠ TypeReg := by decide
  have hSD : TypeSymlink ≠ TypeDir := by decide
  have hLR : TypeLink ≠ TypeReg := by decide
  have hLD : TypeLink ≠ TypeDir := by decide
  have hLS : TypeLink ≠ TypeSymlink := by decide
  by_cases h1 : ent.hdr.typeflag = TypeReg
  · exact Or.inl h1
  by_cases h2 : ent.hdr.typeflag = TypeDir
  · exact Or.inr (Or.inl h2)
  by_cases h3 : ent.hdr.typeflag = TypeSymlink
  · by_cases h4 : s.opts.withSymlinks = true
    · exact Or.inr (Or.inr (Or.inl ⟨h3, h4⟩))
    · simp [h3, hSR, hSD, h4] at h
  by_cases h5 : ent.hdr.typeflag = TypeLink
  · by_cases h6 : s.opts.withHardLinks = true
    · exact Or.inr (Or.inr (Or.inr ⟨h5, h6⟩))
    · simp [h5, hLR, hLD, hLS, h6] at h
  simp [h1, h2, h3, h5] at h

/-- After a run with a nil error over a tar whose reconciled entries are no hard links,
the destination holds no name but the root and the names of the reconciled tar entries:
a name that only skipped entries have is not there. -/
theorem only_synced_after_run (fs : RefFs) (tar : List TarEntry) (fail : Option Error)
    (opts : List Opt) (fuel : Nat) (u : List PathUpdate) (s' : Sync RefFs)
    (htidy : RefFs.Tidy fs)
    (hsync : ∀ e ∈ tar, AlwaysSynced (resolveOptions opts) e → e.hdr.typeflag ≠ TypeLink)
    (hrun : Run RefFs.asFs fuel (New RefFs.asFs fs ⟨tar, fail⟩ opts) = some (u, none, s')) :
    RefFs.Tidy s'.fs ∧ (RefFs.RootDir fs → RefFs.RootDir s'.fs) ∧
      ∀ k, s'.fs.ino k ≠ none →
        k = [] ∨ NamedBy (tar.filter (fun e => decide (AlwaysSynced (resolveOptions opts) e))) k := by
  generalize hT : tar.filter (fun e => decide (AlwaysSynced (resolveOptions opts) e)) = T
  have hTm : ∀ e ∈ tar, AlwaysSynced (resolveOptions opts) e → e ∈ T := by
    intro e he ha
    rw [← hT]
    exact List.mem_filter.mpr ⟨he, by simpa using ha⟩
  obtain ⟨n1, n2, n3, n4, n5, n6, _⟩ := New_fields RefFs.asFs fs ⟨tar, fail⟩ opts
  refine Run_guarded RefFs.asFs (fun _ => False)
    (fun s => s.opts = resolveOptions opts ∧ (∀ e ∈ s.tarReader.entries, e ∈ tar) ∧
      (RefFs.Tidy s.fs ∧ (RefFs.RootDir fs → RefFs.RootDir s.fs)) ∧
      (s.pathMap = none → s.deletePaths = none) ∧
      (s.pathMap ≠ none → ∀ k, s.fs.ino k ≠ none → k = [] ∨ NamedBy T k ∨ Queued s k))
    (fun s => RefFs.Tidy s.fs ∧ (RefFs.RootDir fs → RefFs.RootDir s.fs) ∧
      ∀ k, s.fs.ino k ≠ none → k = [] ∨ NamedBy T k)
    ?_ ?_ ?_ ?_ ?_ ?_ ?_ fuel _ u s' ?_ ?_ hrun
  · -- the walk
    intro s m _ hp hw hJ
    obtain ⟨hopt, hin, ⟨ht, hrd⟩, hdp, _⟩ := hJ
    have hfs : (walkFs RefFs.asFs s).2 = s.logCall .walk := by
      unfold walkFs; split <;> rfl
    rw [hfs]
    refine ⟨hopt, hin, ⟨ht, hrd⟩, fun h => by simp [Sync.setPathMap] at h, ?_⟩
    intro _ k hk
    refine Or.inr (Or.inr ?_)
    have hd : ((s.logCall .walk).setPathMap m).deletePaths = none := hdp hp
    unfold Queued
    rw [hd]
    refine ⟨m, rfl, ?_⟩
    have hw' : (walkFs RefFs.asFs s).1 =
        .ok ((((s.fs.known.filter (fun k => (s.fs.ino k).isSome)).map nameOf).foldl
          (fun m p => setInsert m (normalizePath p)) [])) := rfl
    rw [hw'] at hw
    simp only [Except.ok.injEq] at hw
    rw [← hw]
    refine mem_walk_fold_of _ _ _ (Or.inr ⟨nameOf k, ?_, rfl⟩)
    have hk' : ((s.logCall .walk).setPathMap m).fs.ino k = s.fs.ino k := rfl
    rw [hk'] at hk
    obtain ⟨i, hi⟩ := Option.ne_none_iff_exists'.mp hk
    refine List.mem_map.mpr ⟨k, List.mem_filter.mpr ⟨ht.2.2.1 k i hi, by simp [hi]⟩, rfl⟩
  · -- one tar entry
    intro s e rest _ hpm hent hJ
    obtain ⟨hopt, hin, ⟨ht, hrd⟩, hdp, hq⟩ := hJ
    obtain ⟨c1, c2, c3, c4, _⟩ := ctl_fields (ctl_dispatch RefFs.asFs e (s.beginEntry e rest))
    have e1 : (dispatch RefFs.asFs e (s.beginEntry e rest)).2.tarReader.entries = rest := by
      rw [c1]; rfl
    have e2 : (dispatch RefFs.asFs e (s.beginEntry e rest)).2.opts = resolveOptions opts := by
      rw [c2]; exact hopt
    have e3 : (dispatch RefFs.asFs e (s.beginEntry e rest)).2.pathMap = s.pathMap := by
      rw [c3]; rfl
    have e4 : (dispatch RefFs.asFs e (s.beginEntry e rest)).2.deletePaths = s.deletePaths := by
      rw [c4]; rfl
    have hmem : e ∈ tar := hin e (by rw [hent]; exact List.mem_cons_self _ _)
    constructor
    · intro hdy
      have hal : AlwaysSynced (resolveOptions opts) e := by
        have := dispatch_synced_alwaysSynced RefFs.asFs e (s.beginEntry e rest) hdy
        have ho : (s.beginEntry e rest).opts = resolveOptions opts := hopt
        rw [ho] at this
        exact this
      have hs := hsync e hmem hal
      have hmT : e ∈ T := hTm e hmem hal
      have hr : Reach RefFs.asFs (AtPath (normalizePath e.hdr.name))
          (s.beginEntry e rest) (dispatch RefFs.asFs e (s.beginEntry e rest)).2 :=
        reach_dispatch RefFs.asFs _ e (fun _ hk => ⟨hk, rfl⟩) (fun h => absurd h hs)
          (s.beginEntry e rest)
      have ht' := tidy_reach _ (atPath_target _) _ _ hr ht
      have hrd' : RefFs.RootDir fs →
          RefFs.RootDir (dispatch RefFs.asFs e (s.beginEntry e rest)).2.fs :=
        fun h => rootDir_reach _ (atPath_target _) _ _ hr ht (hrd h)
      refine ⟨e2, ?_, ⟨ht', hrd'⟩, ?_, ?_⟩
      · intro x hx
        simp only [Sync.forget, e1] at hx
        exact hin x (by rw [hent]; exact List.mem_cons_of_mem _ hx)
      · intro h
        simp only [Sync.forget, e3, Option.map_eq_none'] at h
        exact absurd h hpm
      · intro _ k hk
        have hk' : (dispatch RefFs.asFs e (s.beginEntry e rest)).2.fs.ino k ≠ none := hk
        rcases reach_sub _ _ _ hr k hk' with h | h
        · have h' : s.fs.ino k ≠ none := h
          rcases hq hpm k h' with h1 | h1 | h1
          · exact Or.inl h1
          · exact Or.inr (Or.inl h1)
          · obtain ⟨i, hi⟩ := Option.ne_none_iff_exists'.mp h'
            have hg := ht.2.2.2 k i hi
            by_cases hnm : normalizePath (nameOf k) = normalizePath e.hdr.name
            · refine Or.inr (Or.inl ⟨e, hmT, ?_⟩)
              rw [← hnm]
              exact keyOf_normalizePath_nameOf k hg
            · refine Or.inr (Or.inr ?_)
              unfold Queued at h1 ⊢
              simp only [Sync.forget, e3, e4]
              cases hd : s.deletePaths with
              | some l => rw [hd] at h1; exact h1
              | none =>
                rw [hd] at h1
                obtain ⟨m, hm, hmm⟩ := h1
                refine ⟨m.filter (fun k => k ≠ normalizePath e.hdr.name), by rw [hm]; rfl, ?_⟩
                exact List.mem_filter.mpr ⟨hmm, by simpa using hnm⟩
        · exact Or.inr (Or.inl ⟨e, hmT, h.symm⟩)
    · intro hd
      rw [dispatch_skipped_state RefFs.asFs e _ hd]
      refine ⟨hopt, ?_, ⟨ht, hrd⟩, hdp, ?_⟩
      · intro x hx
        exact hin x (by rw [hent]; exact List.mem_cons_of_mem _ hx)
      · intro _ k hk
        exact hq hpm k hk
  · -- the end of the stream
    intro s _ hpm hent hJ
    obtain ⟨hopt, hin, ⟨ht, hrd⟩, hdp, hq⟩ := hJ
    obtain ⟨f1, _, f3, f4, _, f6, f7, f8⟩ := flattenPathMap_fields (s.logCall .tarNext)
    refine ⟨by rw [f6]; exact hopt, ?_, by rw [f1]; exact ⟨ht, hrd⟩, ?_, ?_⟩
    · rw [f7]; exact hin
    · intro h
      rw [f8] at h
      exact absurd h hpm
    · intro _ k hk
      rw [f1] at hk
      rcases hq hpm k hk with h1 | h1 | h1
      · exact Or.inl h1
      · exact Or.inr (Or.inl h1)
      · refine Or.inr (Or.inr ?_)
        unfold Queued at h1 ⊢
        unfold flattenPathMap
        cases hd : s.deletePaths with
        | some l =>
          rw [hd] at h1
          have : (s.logCall .tarNext).deletePaths = some l := hd
          simp only [this]
          exact h1
        | none =>
          rw [hd] at h1
          obtain ⟨m, hm, hmm⟩ := h1
          have h2 : (s.logCall .tarNext).deletePaths = none := hd
          have h3 : (s.logCall .tarNext).pathMap = some m := hm
          simp only [h2, h3, Option.getD_some]
          exact mem_sortStrings_of hmm
  · -- the root in the queue
    intro s rest _ hent hd hJ
    obtain ⟨hopt, hin, ⟨ht, hrd⟩, hdp, hq⟩ := hJ
    have hpm : s.pathMap ≠ none := fun h => by rw [hdp h] at hd; simp at hd
    refine ⟨hopt, hin, ⟨ht, hrd⟩, fun h => absurd h hpm, ?_⟩
    intro _ k hk
    have hk' : s.fs.ino k ≠ none := hk
    rcases hq hpm k hk' with h1 | h1 | h1
    · exact Or.inl h1
    · exact Or.inr (Or.inl h1)
    · by_cases hk0 : k = []
      · exact Or.inl hk0
      · refine Or.inr (Or.inr ?_)
        obtain ⟨i, hi⟩ := Option.ne_none_iff_exists'.mp hk'
        have hg := ht.2.2.2 k i hi
        unfold Queued at h1 ⊢
        rw [hd] at h1
        simp only [Sync.popDelete]
        rcases List.mem_cons.1 h1 with h2 | h2
        · exact absurd h2 (normalizePath_nameOf_ne_dot k hg hk0)
        · exact h2
  · -- a path that is gone
    intro s path rest _ hent hd hne hsk hJ
    obtain ⟨hopt, hin, ⟨ht, hrd⟩, hdp, hq⟩ := hJ
    have hpm : s.pathMap ≠ none := fun h => by rw [hdp h] at hd; simp at hd
    refine ⟨hopt, hin, ⟨ht, hrd⟩, fun h => absurd h hpm, ?_⟩
    intro _ k hk
    have hk' : s.fs.ino k ≠ none := hk
    rcases hq hpm k hk' with h1 | h1 | h1
    · exact Or.inl h1
    · exact Or.inr (Or.inl h1)
    · refine Or.inr (Or.inr ?_)
      obtain ⟨i, hi⟩ := Option.ne_none_iff_exists'.mp hk'
      have hg := ht.2.2.2 k i hi
      unfold Queued at h1 ⊢
      rw [hd] at h1
      simp only [Sync.popDelete]
      rcases List.mem_cons.1 h1 with h2 | h2
      · exfalso
        have h3 := lstat_none_of_skips s.fs path hsk
        rw [← h2, keyOf_normalizePath_nameOf k hg] at h3
        exact hk' h3
      · exact h2
  · -- a deletion
    intro s path rest fi _ hent hd hne _ hfi hJ hok
    obtain ⟨hopt, hin, ⟨ht, hrd⟩, hdp, hq⟩ := hJ
    have hpm : s.pathMap ≠ none := fun h => by rw [hdp h] at hd; simp at hd
    obtain ⟨f1, f2, f3, f4⟩ :=
      deleteEntry_fields RefFs.asFs path fi (LstatOrStat RefFs.asFs path s).2
    have hr : Reach RefFs.asFs (AtPath path) s
        (deleteEntry RefFs.asFs path (.ok fi) (LstatOrStat RefFs.asFs path s).2).2 :=
      (reach_LstatOrStat RefFs.asFs _ path s).trans
        (reach_deleteEntry RefFs.asFs _ path (fun _ hk => ⟨hk, rfl⟩) _ _)
    refine ⟨by rw [f2]; exact hopt, by rw [f1]; exact hin,
      ⟨tidy_reach _ (atPath_target _) _ _ hr ht,
        fun h => rootDir_reach _ (atPath_target _) _ _ hr ht (hrd h)⟩, ?_, ?_⟩
    · intro h
      rw [f3] at h
      exact absurd h hpm
    · intro _ k hk
      have hk' : s.fs.ino k ≠ none := by
        rcases reach_sub _ _ _ hr k hk with h | h
        · exact h
        · rw [h]
          exact lstat_some_of_ok s.fs path fi hfi
      rcases hq hpm k hk' with h1 | h1 | h1
      · exact Or.inl h1
      · exact Or.inr (Or.inl h1)
      · refine Or.inr (Or.inr ?_)
        unfold Queued at h1 ⊢
        rw [f4, f3]
        exact h1
  · -- the final release of the base directory
    intro s _ hent hd hJ hok
    obtain ⟨hopt, hin, ⟨ht, hrd⟩, hdp, hq⟩ := hJ
    have hpm : s.pathMap ≠ none := fun h => by rw [hdp h] at hd; simp at hd
    have hr : Reach RefFs.asFs (AtPath "") s
        ((preserveBaseDir RefFs.asFs "" s).2.setErr none) :=
      (reach_releaseBaseDir RefFs.asFs _ s).trans (reach_silent rfl rfl rfl rfl)
    have hino : ∀ k, ((preserveBaseDir RefFs.asFs "" s).2.setErr none).fs.ino k = s.fs.ino k := by
      intro k
      have hr0 : Reach RefFs.asFs QAttr s ((preserveBaseDir RefFs.asFs "" s).2.setErr none) :=
        (reach_releaseBaseDir RefFs.asFs _ s).trans (reach_silent rfl rfl rfl rfl)
      exact reach_attr_ino _ _ hr0 k
    refine ⟨tidy_reach _ (atPath_target _) _ _ hr ht,
      fun h => rootDir_reach _ (atPath_target _) _ _ hr ht (hrd h), ?_⟩
    intro k hk
    rw [hino k] at hk
    rcases hq hpm k hk with h1 | h1 | h1
    · exact Or.inl h1
    · exact Or.inr h1
    · exfalso
      unfold Queued at h1
      rw [hd] at h1
      simp at h1
  · -- the inventory of the first state
    refine ⟨fun _ => ⟨n5, ?_⟩, fun m hm => ?_, fun l hl => ?_⟩
    · intro paths _ p _ _ hP
      exact absurd hP id
    · intro p _ _ hP
      exact absurd hP id
    · rw [n5] at hl
      simp at hl
  · refine ⟨n3, ?_, by rw [n1]; exact ⟨htidy, id⟩, fun _ => n5, fun h => absurd n4 h⟩
    rw [n2]
    exact fun e he => he

/-- After a run with a nil error over a tar of entries that are never skipped, none of
them a hard link, the destination holds no name but the root and the names of the tar
entries. -/
theorem only_tar_after_run (fs : RefFs) (tar : List TarEntry) (fail : Option Error)
    (opts : List Opt) (fuel : Nat) (u : List PathUpdate) (s' : Sync RefFs)
    (htidy : RefFs.Tidy fs)
    (hsync : ∀ e ∈ tar, AlwaysSynced (resolveOptions opts) e ∧ e.hdr.typeflag ≠ TypeLink)
    (hrun : Run RefFs.asFs fuel (New RefFs.asFs fs ⟨tar, fail⟩ opts) = some (u, none, s')) :
    RefFs.Tidy s'.fs ∧ (RefFs.RootDir fs → RefFs.RootDir s'.fs) ∧
      ∀ k, s'.fs.ino k ≠ none → k = [] ∨ NamedBy tar k := by
  obtain ⟨h1, h2, h3⟩ := only_synced_after_run fs tar fail opts fuel u s' htidy
    (fun e he _ => (hsync e he).2) hrun
  refine ⟨h1, h2, fun k hk => ?_⟩
  rcases h3 k hk with h | ⟨e, he, hek⟩
  · exact Or.inl h
  · exact Or.inr ⟨e, (List.mem_filter.mp he).1, hek⟩

/-! ## What a run leaves on the destination: canonical archives -/

theorem prefix_dropLast_of_ne (k K : Key) (h : k <+: K) (hne : k ≠ K) : k <+: K.dropLast := by
  obtain ⟨t, ht⟩ := h
  subst ht
  have htn : t ≠ [] := by
    intro h0
    subst h0
    simp at hne
  rw [List.dropLast_append_of_ne_nil _ htn]
  exact List.prefix_append _ _

/-- In a tar that names every parent, every directory above an entry is named. -/
theorem named_of_prefix (tar : List TarEntry) (h : ParentsListed tar) :
    ∀ (n : Nat) (e : TarEntry), e ∈ tar → (keyOf (normalizePath e.hdr.name)).length ≤ n →
      ∀ k : Key, k ≠ [] → k <+: keyOf (normalizePath e.hdr.name) → NamedBy tar k := by
  intro n
  induction n with
  | zero =>
    intro e _ hl k hk hp
    have h0 : keyOf (normalizePath e.hdr.name) = [] := List.length_eq_zero.mp (Nat.le_zero.mp hl)
    rw [h0] at hp
    exact absurd (List.prefix_nil.mp hp) hk
  | succ n ih =>
    intro e he hl k hk hp
    by_cases heq : k = keyOf (normalizePath e.hdr.name)
    · exact ⟨e, he, heq.symm⟩
    · have hp' := prefix_dropLast_of_ne k _ hp heq
      rcases h e he with h0 | ⟨e', he', hk'⟩
      · rw [h0] at hp'
        exact absurd (List.prefix_nil.mp hp') hk
      · refine ih e' he' ?_ k hk (by rw [hk']; exact hp')
        rw [hk', List.length_dropLast]
        omega

/-- What the reconcilers test on the destination, from the inode behind the path. -/
theorem entryMatches_of_nodeFits (fs : RefFs) (o : Options) (ent : TarEntry) (i : Nat)
    (hi : fs.ino (keyOf (normalizePath ent.hdr.name)) = some i)
    (hn : NodeFits o ent (fs.node i)) (hm : (fs.node i).mtime = ent.hdr.modTime)
    (hs : AlwaysSynced o ent) : EntryMatches RefFs.asFs fs o ent := by
  have hl : RefFs.lstat fs (normalizePath ent.hdr.name) = .ok (RefFs.infoOf i (fs.node i)) := by
    unfold RefFs.lstat
    rw [hi]
  obtain ⟨hkind, hown, hmode⟩ := hn
  have hattrs : AttrsMatch o ent.hdr (RefFs.infoOf i (fs.node i)) :=
    ⟨hown, hmode, hm.symm⟩
  rcases hkind with ⟨ht, hreg, hsize⟩ | ⟨ht, hdir⟩ | ⟨ht, hsym, htgt⟩
  · exact Or.inl ⟨ht, _, hl, hreg, by simpa [RefFs.infoOf] using hsize, hattrs⟩
  · exact Or.inr (Or.inl ⟨ht, _, hl, hdir, hattrs⟩)
  · have ho : o.withSymlinks = true := by
      rcases hs with h | h | h | h
      · rw [ht] at h; exact absurd h (by decide)
      · rw [ht] at h; exact absurd h (by decide)
      · exact h.2
      · rw [ht] at h; exact absurd h.1 (by decide)
    refine Or.inr (Or.inr (Or.inl ⟨ht, ho, _, hl, hsym, ?_, hattrs⟩))
    show RefFs.readlink fs (normalizePath ent.hdr.name) = .ok ent.hdr.linkname
    unfold RefFs.readlink
    rw [hi]
    simp only
    have hsym' : modeTypeOf (fs.node i).mode = ModeSymlink := hsym
    rw [if_pos hsym', htgt]

theorem stat_root (fs : RefFs) (h : RefFs.RootDir fs) : (RefFs.stat fs ".").isOk = true := by
  obtain ⟨i, hi, hd⟩ := h
  have hk : keyOf "." = [] := by decide
  have hne : modeTypeOf (fs.node i).mode ≠ ModeSymlink := by
    rw [(RefFs.isDirNode_iff _).mp hd]
    decide
  unfold RefFs.stat
  rw [hk]
  simp only [RefFs.resolve, hi, if_neg hne]
  rfl

/-- The reference destination has every capability: `New` records no error on a
destination whose root is a directory. -/
theorem New_asFs_err (fs : RefFs) (tar : TarReader) (opts : List Opt) (h : RefFs.RootDir fs) :
    (New RefFs.asFs fs tar opts).err = none := by
  have hst := stat_root fs h
  have hst' : (RefFs.asFs.stat fs ".").isOk = true := hst
  unfold New probeInfo
  simp only [hst']
  simp only [RefFs.asFs, Fs.isSymlinker, Sync.fail, Sync.logCall]
  simp only [Bool.and_self, not_true_eq_false, and_false, if_false]
  split <;> rfl

theorem tidy_init : RefFs.Tidy RefFs.init := by
  refine ⟨fun k i h => ?_, fun k k' i h h' => ?_, fun k i h => ?_, fun k i h => ?_⟩
  · simp only [RefFs.init] at h ⊢
    split at h
    · simp only [Option.some.injEq] at h
      omega
    · simp at h
  · simp only [RefFs.init] at h h'
    split at h
    · split at h'
      · simp_all
      · simp at h'
    · simp at h
  · simp only [RefFs.init] at h ⊢
    split at h
    · simp_all
    · simp at h
  · simp only [RefFs.init] at h
    split at h
    · rename_i hk
      subst hk
      trivial
    · simp at h

/-! ## The Metadata Syncer, call by call -/

/-- A successful ownership step of `syncStat`: either nothing was to be done, or the
ownership call succeeded, the update carries uid and gid, and the metadata was read
again. -/
theorem syncStatOwner_ok (F : Fs σ) (hdr : Header) (fi fi2 : FileInfo) (s : Sync σ)
    (h : (syncStatOwner F hdr fi s).1 = .ok fi2) :
    (ownerDiffers s.opts hdr fi ∧ (F.exec (ownerCall hdr) s.fs).1 = none ∧
      F.lstatOrStat (F.exec (ownerCall hdr) s.fs).2 (normalizePath hdr.name) = .ok fi2 ∧
      (syncStatOwner F hdr fi s).2 =
        (((s.call F (ownerCall hdr)).2.markOwner hdr.uid hdr.gid).logCall
          (F.lstatCall (normalizePath hdr.name)))) ∨
    (¬ ownerDiffers s.opts hdr fi ∧ fi2 = fi ∧ (syncStatOwner F hdr fi s).2 = s) := by
  unfold syncStatOwner at h ⊢
  simp only at h ⊢
  by_cases hc : s.opts.withOwnership = true ∧ (hdr.uid ≠ fi.uid ∨ hdr.gid ≠ fi.gid)
  · rw [if_pos hc] at h ⊢
    left
    cases h1 : (s.call F (ownerCall hdr)).1 with
    | some e => simp [h1] at h
    | none =>
      simp only [h1] at h ⊢
      cases h2 : (LstatOrStat F (normalizePath hdr.name)
          ((s.call F (ownerCall hdr)).2.markOwner hdr.uid hdr.gid)).1 with
      | error e => simp [h2] at h
      | ok x =>
        simp only [h2, Except.ok.injEq] at h ⊢
        subst h
        exact ⟨hc, h1, h2, rfl⟩
  · rw [if_neg hc] at h ⊢
    right
    simp only [Except.ok.injEq] at h
    exact ⟨hc, h.symm, rfl⟩

theorem syncStatMode_ok (F : Fs σ) (hdr : Header) (fi : FileInfo) (s : Sync σ)
    (h : (syncStatMode F hdr fi s).1 = none) :
    (modeDiffers hdr fi ∧
      (F.exec (.chmod (normalizePath hdr.name) hdr.fileMode) s.fs).1 = none ∧
      (syncStatMode F hdr fi s).2 =
        (s.call F (.chmod (normalizePath hdr.name) hdr.fileMode)).2.markMode hdr.fileMode) ∨
    (¬ modeDiffers hdr fi ∧ (syncStatMode F hdr fi s).2 = s) := by
  unfold syncStatMode at h ⊢
  simp only at h ⊢
  by_cases hc : hdr.typeflag ≠ TypeSymlink ∧ hdr.fileMode ≠ fi.mode
  · rw [if_pos hc] at h ⊢
    left
    cases h1 : (s.call F (.chmod (normalizePath hdr.name) hdr.fileMode)).1 with
    | some e => simp [h1] at h
    | none => exact ⟨hc, h1, rfl⟩
  · rw [if_neg hc] at h ⊢
    exact Or.inr ⟨hc, rfl⟩

theorem syncStatTime_ok (F : Fs σ) (hdr : Header) (fi : FileInfo) (s : Sync σ)
    (h : (syncStatTime F hdr fi s).1 = none) :
    (hdr.modTime ≠ fi.modTime ∧
      (F.exec (.chtimes (normalizePath hdr.name) hdr.modTime hdr.modTime) s.fs).1 = none ∧
      (syncStatTime F hdr fi s).2 =
        (s.call F (.chtimes (normalizePath hdr.name) hdr.modTime hdr.modTime)).2.markModTime
          hdr.modTime) ∨
    (hdr.modTime = fi.modTime ∧ (syncStatTime F hdr fi s).2 = s) := by
  unfold syncStatTime at h ⊢
  simp only at h ⊢
  by_cases hc : hdr.modTime ≠ fi.modTime
  · rw [if_pos hc] at h ⊢
    left
    cases h1 : (s.call F (.chtimes (normalizePath hdr.name) hdr.modTime hdr.modTime)).1 with
    | some e => simp [h1] at h
    | none => exact ⟨hc, h1, rfl⟩
  · rw [if_neg hc] at h ⊢
    exact Or.inr ⟨not_not.mp hc, rfl⟩

/-- The three steps of a successful `syncStat`, once the metadata is there. -/
theorem syncStatWith_ok (F : Fs σ) (hdr : Header) (fi : FileInfo) (s : Sync σ)
    (h : (syncStatWith F hdr fi s).1 = none) :
    ∃ fi2, (syncStatOwner F hdr fi s).1 = .ok fi2 ∧
      (syncStatMode F hdr fi2 (syncStatOwner F hdr fi s).2).1 = none ∧
      (syncStatTime F hdr fi2 (syncStatMode F hdr fi2 (syncStatOwner F hdr fi s).2).2).1 = none ∧
      (syncStatWith F hdr fi s).2 =
        (syncStatTime F hdr fi2 (syncStatMode F hdr fi2 (syncStatOwner F hdr fi s).2).2).2 := by
  unfold syncStatWith at h ⊢
  simp only at h ⊢
  cases ho : (syncStatOwner F hdr fi s).1 with
  | error e => simp [ho] at h
  | ok fi2 =>
    simp only [ho] at h ⊢
    cases hm : (syncStatMode F hdr fi2 (syncStatOwner F hdr fi s).2).1 with
    | some e => simp [hm] at h
    | none =>
      simp only [hm] at h ⊢
      exact ⟨fi2, rfl, hm, h, rfl⟩

/-- A successful `syncStat` is `syncStatWith` on the metadata it was given or has
read. -/
theorem syncStat_ok (F : Fs σ) (hdr : Header) (fi : Option FileInfo) (s : Sync σ)
    (h : (syncStat F hdr fi s).1 = none) :
    ∃ info s0, (fi = some info ∧ s0 = s ∨
        fi = none ∧ F.lstatOrStat s.fs (normalizePath hdr.name) = .ok info ∧
          s0 = s.logCall (F.lstatCall (normalizePath hdr.name))) ∧
      (syncStatWith F hdr info s0).1 = none ∧
      (syncStat F hdr fi s).2 = (syncStatWith F hdr info s0).2 := by
  unfold syncStat at h ⊢
  simp only at h ⊢
  cases fi with
  | some info => exact ⟨info, s, Or.inl ⟨rfl, rfl⟩, h, rfl⟩
  | none =>
    simp only at h ⊢
    cases hl : (LstatOrStat F (normalizePath hdr.name) s).1 with
    | error e => simp [hl] at h
    | ok info =>
      simp only [hl] at h ⊢
      exact ⟨info, _, Or.inr ⟨trivial, hl, rfl⟩, h, rfl⟩

theorem newCalls_self (s : Sync σ) : newCalls s s = [] := by simp [newCalls]

/-- A successful `syncStat` on the metadata `fi`, in full: the metadata `fi2` that the
mode and mtime comparisons use is `fi`, or what is read after the ownership call; the
calls are the ownership call and the read (when uid or gid differ), `chmod` (when the
mode differs from that of `fi2`; never for a symlink entry) and `chtimes` (when the
mtime differs from that of `fi2`), in this order; the destination is what these calls
leave; and the update gains uid and gid, mode and mtime exactly with these calls. -/
theorem syncStatWith_exact (F : Fs σ) (hdr : Header) (fi : FileInfo) (s : Sync σ)
    (hok : (syncStatWith F hdr fi s).1 = none) :
    ∃ fi2,
      (ownerDiffers s.opts hdr fi →
        (F.exec (ownerCall hdr) s.fs).1 = none ∧
        F.lstatOrStat (F.exec (ownerCall hdr) s.fs).2 (normalizePath hdr.name) = .ok fi2) ∧
      (¬ ownerDiffers s.opts hdr fi → fi2 = fi) ∧
      newCalls s (syncStatWith F hdr fi s).2 =
        ownerPart F hdr fi s.opts ++ modePart hdr fi2 ++ timePart hdr fi2 ∧
      (syncStatWith F hdr fi s).2.fs =
        replay F (ownerPart F hdr fi s.opts ++ modePart hdr fi2 ++ timePart hdr fi2) s.fs ∧
      (syncStatWith F hdr fi s).2.upd =
        { s.upd with update :=
          { s.upd.update with
            Uid := if ownerDiffers s.opts hdr fi then some hdr.uid else s.upd.update.Uid,
            Gid := if ownerDiffers s.opts hdr fi then some hdr.gid else s.upd.update.Gid,
            Mode := if modeDiffers hdr fi2 then some hdr.fileMode else s.upd.update.Mode,
            ModTime := if hdr.modTime ≠ fi2.modTime then some hdr.modTime
              else s.upd.update.ModTime } } := by
  obtain ⟨fi2, ho, hm, ht, hfin⟩ := syncStatWith_ok F hdr fi s hok
  refine ⟨fi2, ?_⟩
  rw [hfin]
  have hro : (F.exec (F.lstatCall (normalizePath hdr.name))) = fun fs => (none, fs) := by
    funext fs
    unfold Fs.lstatCall
    split <;> rfl
  rcases syncStatOwner_ok F hdr fi fi2 s ho with ⟨od, o1, o2, o3⟩ | ⟨od, o2, o3⟩
  · rcases syncStatMode_ok F hdr fi2 _ hm with ⟨md, m1, m3⟩ | ⟨md, m3⟩
    · rcases syncStatTime_ok F hdr fi2 _ ht with ⟨td, t1, t3⟩ | ⟨td, t3⟩
      · rw [t3, m3, o3]
        refine ⟨fun _ => ⟨o1, o2⟩, fun h => absurd od h, ?_, ?_, ?_⟩
        · simp [newCalls, Sync.call, Sync.logCall, Sync.markOwner, Sync.markMode,
            Sync.markModTime, ownerPart, modePart, timePart, od, md, td]
        · simp [replay, Sync.call, Sync.logCall, Sync.markOwner, Sync.markMode,
            Sync.markModTime, ownerPart, modePart, timePart, od, md, td, hro]
        · simp [Sync.call, Sync.logCall, Sync.markOwner, Sync.markMode,
            Sync.markModTime, od, md, td]
      · rw [t3, m3, o3]
        refine ⟨fun _ => ⟨o1, o2⟩, fun h => absurd od h, ?_, ?_, ?_⟩
        · simp [newCalls, Sync.call, Sync.logCall, Sync.markOwner, Sync.markMode,
            Sync.markModTime, ownerPart, modePart, timePart, od, md, td]
        · simp [replay, Sync.call, Sync.logCall, Sync.markOwner, Sync.markMode,
            Sync.markModTime, ownerPart, modePart, timePart, od, md, td, hro]
        · simp [Sync.call, Sync.logCall, Sync.markOwner, Sync.markMode,
            Sync.markModTime, od, md, td]
    · rcases syncStatTime_ok F hdr fi2 _ ht with ⟨td, t1, t3⟩ | ⟨td, t3⟩
      · rw [t3, m3, o3]
        refine ⟨fun _ => ⟨o1, o2⟩, fun h => absurd od h, ?_, ?_, ?_⟩
        · simp [newCalls, Sync.call, Sync.logCall, Sync.markOwner, Sync.markMode,
            Sync.markModTime, ownerPart, modePart, timePart, od, md, td]
        · simp [replay, Sync.call, Sync.logCall, Sync.markOwner, Sync.markMode,
            Sync.markModTime, ownerPart, modePart, timePart, od, md, td, hro]
        · simp [Sync.call, Sync.logCall, Sync.markOwner, Sync.markMode,
            Sync.markModTime, od, md, td]
      · rw [t3, m3, o3]
        refine ⟨fun _ => ⟨o1, o2⟩, fun h => absurd od h, ?_, ?_, ?_⟩
        · simp [newCalls, Sync.call, Sync.logCall, Sync.markOwner, Sync.markMode,
            Sync.markModTime, ownerPart, modePart, timePart, od, md, td]
        · simp [replay, Sync.call, Sync.logCall, Sync.markOwner, Sync.markMode,
            Sync.markModTime, ownerPart, modePart, timePart, od, md, td, hro]
        · simp [Sync.call, Sync.logCall, Sync.markOwner, Sync.markMode,
            Sync.markModTime, od, md, td]
  · subst o2
    rcases syncStatMode_ok F hdr fi2 _ hm with ⟨md, m1, m3⟩ | ⟨md, m3⟩
    · rcases syncStatTime_ok F hdr fi2 _ ht with ⟨td, t1, t3⟩ | ⟨td, t3⟩
      · rw [t3, m3, o3]
        refine ⟨fun h => absurd h od, fun _ => rfl, ?_, ?_, ?_⟩
        · simp [newCalls, Sync.call, Sync.logCall, Sync.markOwner, Sync.markMode,
            Sync.markModTime, ownerPart, modePart, timePart, od, md, td]
        · simp [replay, Sync.call, Sync.logCall, Sync.markOwner, Sync.markMode,
            Sync.markModTime, ownerPart, modePart, timePart, od, md, td]
        · simp [Sync.call, Sync.logCall, Sync.markOwner, Sync.markMode,
            Sync.markModTime, od, md, td]
      · rw [t3, m3, o3]
        refine ⟨fun h => absurd h od, fun _ => rfl, ?_, ?_, ?_⟩
        · simp [newCalls, Sync.call, Sync.logCall, Sync.markOwner, Sync.markMode,
            Sync.markModTime, ownerPart, modePart, timePart, od, md, td]
        · simp [replay, Sync.call, Sync.logCall, Sync.markOwner, Sync.markMode,
            Sync.markModTime, ownerPart, modePart, timePart, od, md, td]
        · simp [Sync.call, Sync.logCall, Sync.markOwner, Sync.markMode,
            Sync.markModTime, od, md, td]
    · rcases syncStatTime_ok F hdr fi2 _ ht with ⟨td, t1, t3⟩ | ⟨td, t3⟩
      · rw [t3, m3, o3]
        refine ⟨fun h => absurd h od, fun _ => rfl, ?_, ?_, ?_⟩
        · simp [newCalls, Sync.call, Sync.logCall, Sync.markOwner, Sync.markMode,
            Sync.markModTime, ownerPart, modePart, timePart, od, md, td]
        · simp [replay, Sync.call, Sync.logCall, Sync.markOwner, Sync.markMode,
            Sync.markModTime, ownerPart, modePart, timePart, od, md, td]
        · simp [Sync.call, Sync.logCall, Sync.markOwner, Sync.markMode,
            Sync.markModTime, od, md, td]
      · rw [t3, m3, o3]
        refine ⟨fun h => absurd h od, fun _ => rfl, ?_, ?_, ?_⟩
        · simp [newCalls, Sync.call, Sync.logCall, Sync.markOwner, Sync.markMode,
            Sync.markModTime, ownerPart, modePart, timePart, od, md, td]
        · simp [replay, Sync.call, Sync.logCall, Sync.markOwner, Sync.markMode,
            Sync.markModTime, ownerPart, modePart, timePart, od, md, td]
        · simp [Sync.call, Sync.logCall, Sync.markOwner, Sync.markMode,
            Sync.markModTime, od, md, td]

theorem replay_read (F : Fs σ) (c : Call) (hc : c.isMutation = false) (l : List Call) (fs : σ) :
    replay F (c :: l) fs = replay F l fs := by
  cases c <;> simp [Call.isMutation] at hc <;> rfl

/-- A successful `syncStat`, in full: see `syncStatWith_exact`; `info` is the metadata
the reconciler handed over, or what `syncStat` reads first. -/
theorem syncStat_exact (F : Fs σ) (hdr : Header) (fi : Option FileInfo) (s : Sync σ)
    (hok : (syncStat F hdr fi s).1 = none) :
    ∃ info fi2,
      (fi = some info ∨ fi = none ∧ F.lstatOrStat s.fs (normalizePath hdr.name) = .ok info) ∧
      (ownerDiffers s.opts hdr info →
        (F.exec (ownerCall hdr) s.fs).1 = none ∧
        F.lstatOrStat (F.exec (ownerCall hdr) s.fs).2 (normalizePath hdr.name) = .ok fi2) ∧
      (¬ ownerDiffers s.opts hdr info → fi2 = info) ∧
      newCalls s (syncStat F hdr fi s).2 =
        readPart F hdr fi ++ (ownerPart F hdr info s.opts ++ modePart hdr fi2 ++ timePart hdr fi2) ∧
      (syncStat F hdr fi s).2.fs =
        replay F (ownerPart F hdr info s.opts ++ modePart hdr fi2 ++ timePart hdr fi2) s.fs ∧
      (syncStat F hdr fi s).2.upd =
        { s.upd with update :=
          { s.upd.update with
            Uid := if ownerDiffers s.opts hdr info then some hdr.uid else s.upd.update.Uid,
            Gid := if ownerDiffers s.opts hdr info then some hdr.gid else s.upd.update.Gid,
            Mode := if modeDiffers hdr fi2 then some hdr.fileMode else s.upd.update.Mode,
            ModTime := if hdr.modTime ≠ fi2.modTime then some hdr.modTime
              else s.upd.update.ModTime } } := by
  obtain ⟨info, s0, h0, hw, hfin⟩ := syncStat_ok F hdr fi s hok
  obtain ⟨fi2, e1, e2, e3, e4, e5⟩ := syncStatWith_exact F hdr info s0 hw
  refine ⟨info, fi2, ?_⟩
  rw [hfin]
  rcases h0 with ⟨hf, hs⟩ | ⟨hf, hl, hs⟩
  · subst hs
    refine ⟨Or.inl hf, e1, e2, ?_, e4, e5⟩
    rw [e3]
    simp [readPart, hf]
  · subst hs
    refine ⟨Or.inr ⟨hf, hl⟩, e1, e2, ?_, e4, e5⟩
    have hx : Extends (fun _ => True) s (s.logCall (F.lstatCall (normalizePath hdr.name))) :=
      extends_logCall s _ trivial
    have hy := extends_mono (extends_syncStatWith F hdr info
      (s.logCall (F.lstatCall (normalizePath hdr.name)))) (fun _ _ => trivial)
    rw [newCalls_append hx hy, e3]
    simp [readPart, hf, newCalls, Sync.logCall]

theorem filter_ownerPart (F : Fs σ) (hdr : Header) (fi : FileInfo) (o : Options) :
    (ownerPart F hdr fi o).filter (fun c => c.isMutation) =
      if ownerDiffers o hdr fi then [ownerCall hdr] else [] := by
  unfold ownerPart
  have h1 : (ownerCall hdr).isMutation = true := by
    unfold ownerCall; split <;> rfl
  have h2 := lstatCall_isMutation F (normalizePath hdr.name)
  split <;> simp [h1, h2]

/-- C11 (amended): the order of the Metadata Syncer.  In a successful `syncStat` for an
entry that is not a symlink, the mutating calls are, in this order: `chown` on the path
when ownership is enabled and uid or gid differ, `chmod` with the header's mode when it
differs from the mode of `fi2`, and `chtimes` with the header's mtime when it differs
from the mtime of `fi2`, where `fi2` is the metadata read again after the `chown` (the
metadata `syncStat` started from when there was no `chown`).  The destination is left as
these calls leave it, the update carries uid and gid when `chown` was called, and it
gains the header's mode exactly when `chmod` was called: in particular when the header
mode has setgid and the metadata read after the `chown` has lost it. -/
theorem syncStat_chown_chmod_chtimes (F : Fs σ) (hdr : Header) (fi : Option FileInfo)
    (s : Sync σ) (hns : hdr.typeflag ≠ TypeSymlink) (hok : (syncStat F hdr fi s).1 = none) :
    ∃ info fi2,
      (fi = some info ∨ fi = none ∧ F.lstatOrStat s.fs (normalizePath hdr.name) = .ok info) ∧
      (newCalls s (syncStat F hdr fi s).2).filter (fun c => c.isMutation) =
        (if ownerDiffers s.opts hdr info
          then [Call.chown (normalizePath hdr.name) hdr.uid hdr.gid] else []) ++
        (if hdr.fileMode ≠ fi2.mode
          then [Call.chmod (normalizePath hdr.name) hdr.fileMode] else []) ++
        (if hdr.modTime ≠ fi2.modTime
          then [Call.chtimes (normalizePath hdr.name) hdr.modTime hdr.modTime] else []) ∧
      (syncStat F hdr fi s).2.fs = replay F (newCalls s (syncStat F hdr fi s).2) s.fs ∧
      (ownerDiffers s.opts hdr info →
        (F.chown s.fs (normalizePath hdr.name) hdr.uid hdr.gid).1 = none ∧
        F.lstatOrStat (F.chown s.fs (normalizePath hdr.name) hdr.uid hdr.gid).2
          (normalizePath hdr.name) = .ok fi2 ∧
        (syncStat F hdr fi s).2.upd.update.Uid = some hdr.uid ∧
        (syncStat F hdr fi s).2.upd.update.Gid = some hdr.gid) ∧
      (¬ ownerDiffers s.opts hdr info → fi2 = info) ∧
      (syncStat F hdr fi s).2.upd.update.Mode =
        (if hdr.fileMode ≠ fi2.mode then some hdr.fileMode else s.upd.update.Mode) ∧
      (hdr.fileMode &&& ModeSetgid ≠ 0 → fi2.mode &&& ModeSetgid = 0 →
        (syncStat F hdr fi s).2.upd.update.Mode = some hdr.fileMode ∧
        Call.chmod (normalizePath hdr.name) hdr.fileMode ∈
          newCalls s (syncStat F hdr fi s).2) := by
  obtain ⟨info, fi2, h0, e1, e2, e3, e4, e5⟩ := syncStat_exact F hdr fi s hok
  have hoc : ownerCall hdr = .chown (normalizePath hdr.name) hdr.uid hdr.gid := by
    unfold ownerCall
    rw [if_neg hns]
  have hmd : modeDiffers hdr fi2 ↔ hdr.fileMode ≠ fi2.mode := by
    unfold modeDiffers
    exact ⟨fun h => h.2, fun h => ⟨hns, h⟩⟩
  have hmode : (syncStat F hdr fi s).2.upd.update.Mode =
      (if hdr.fileMode ≠ fi2.mode then some hdr.fileMode else s.upd.update.Mode) := by
    rw [e5]
    by_cases h : hdr.fileMode ≠ fi2.mode
    · simp [hmd.mpr h, h]
    · have h' : ¬ modeDiffers hdr fi2 := fun hh => h (hmd.mp hh)
      simp only [h', if_false]
      rw [if_neg h]
  refine ⟨info, fi2, h0, ?_, ?_, ?_, e2, hmode, ?_⟩
  · rw [e3]
    simp only [List.filter_append, filter_ownerPart, hoc]
    have hr : (readPart F hdr fi).filter (fun c => c.isMutation) = [] := by
      unfold readPart
      split
      · simp [lstatCall_isMutation]
      · rfl
    rw [hr]
    unfold modePart timePart
    by_cases h1 : hdr.fileMode ≠ fi2.mode
    · by_cases h2 : hdr.modTime ≠ fi2.modTime
      · simp [hmd.mpr h1, h1, h2, Call.isMutation]
      · simp [hmd.mpr h1, h1, h2, Call.isMutation]
    · have h' : ¬ modeDiffers hdr fi2 := fun hh => h1 (hmd.mp hh)
      by_cases h2 : hdr.modTime ≠ fi2.modTime
      · simp [h', h1, h2, Call.isMutation]
      · simp [h', h1, h2, Call.isMutation]
  · rw [e4, e3]
    unfold readPart
    split
    · rw [List.singleton_append, replay_read F _ (lstatCall_isMutation F _)]
    · rfl
  · intro hod
    obtain ⟨a, b⟩ := e1 hod
    rw [hoc] at a b
    refine ⟨a, b, ?_, ?_⟩
    · rw [e5]; simp [hod]
    · rw [e5]; simp [hod]
  · intro hset hclr
    have hne : hdr.fileMode ≠ fi2.mode := by
      intro heq
      rw [heq] at hset
      exact hset hclr
    refine ⟨by rw [hmode, if_pos hne], ?_⟩
    rw [e3]
    unfold modePart
    simp [hmd.mpr hne]

/-- C13 (amended): the optional fields of an update.  A successful `syncStat` sets uid
and gid together, to the header's values, exactly when ownership is enabled and the uid
or the gid of the metadata it starts from differs from the header's; it sets the mode
exactly when the entry is not a symlink and the header's mode differs from the mode of
`fi2`, and the mtime exactly when the header's mtime differs from the mtime of `fi2`,
where `fi2` is the metadata read again after the ownership call (the metadata it started
from when there was no such call).  Every field it does not set keeps the value the
reconciler gave it, and `Added`, `Deleted`, `Link` and the path are left alone. -/
theorem syncStat_sets_fields (F : Fs σ) (hdr : Header) (fi : Option FileInfo) (s : Sync σ)
    (hok : (syncStat F hdr fi s).1 = none) :
    ∃ info fi2,
      (fi = some info ∨ fi = none ∧ F.lstatOrStat s.fs (normalizePath hdr.name) = .ok info) ∧
      (ownerDiffers s.opts hdr info →
        F.lstatOrStat (F.exec (ownerCall hdr) s.fs).2 (normalizePath hdr.name) = .ok fi2) ∧
      (¬ ownerDiffers s.opts hdr info → fi2 = info) ∧
      (syncStat F hdr fi s).2.upd.update.Uid =
        (if ownerDiffers s.opts hdr info then some hdr.uid else s.upd.update.Uid) ∧
      (syncStat F hdr fi s).2.upd.update.Gid =
        (if ownerDiffers s.opts hdr info then some hdr.gid else s.upd.update.Gid) ∧
      (syncStat F hdr fi s).2.upd.update.Mode =
        (if hdr.typeflag ≠ TypeSymlink ∧ hdr.fileMode ≠ fi2.mode then some hdr.fileMode
          else s.upd.update.Mode) ∧
      (syncStat F hdr fi s).2.upd.update.ModTime =
        (if hdr.modTime ≠ fi2.modTime then some hdr.modTime else s.upd.update.ModTime) ∧
      (syncStat F hdr fi s).2.upd.update.Link = s.upd.update.Link ∧
      (syncStat F hdr fi s).2.upd.update.Added = s.upd.update.Added ∧
      (syncStat F hdr fi s).2.upd.update.Deleted = s.upd.update.Deleted ∧
      (syncStat F hdr fi s).2.upd.Path = s.upd.Path := by
  obtain ⟨info, fi2, h0, e1, e2, _, _, e5⟩ := syncStat_exact F hdr fi s hok
  refine ⟨info, fi2, h0, fun h => (e1 h).2, e2, ?_⟩
  rw [e5]
  refine ⟨rfl, rfl, ?_, rfl, rfl, rfl, rfl, rfl⟩
  simp only [modeDiffers]

/-! ## Every reconciler ends in the Metadata Syncer -/

theorem lstatCall_pre (F : Fs σ) (name : String) : (F.lstatCall name).isOwnerOrMode = false := by
  unfold Fs.lstatCall; split <;> rfl

theorem replay_append (F : Fs σ) (a b : List Call) (fs : σ) :
    replay F (a ++ b) fs = replay F b (replay F a fs) := by
  unfold replay
  rw [List.foldl_append]

theorem traced_refl (F : Fs σ) (s : Sync σ) : Traced F s s := ⟨[], by simp, rfl⟩

theorem traced_trans {F : Fs σ} {s1 s2 s3 : Sync σ} (h1 : Traced F s1 s2) (h2 : Traced F s2 s3) :
    Traced F s1 s3 := by
  obtain ⟨a, ha, hfa⟩ := h1
  obtain ⟨b, hb, hfb⟩ := h2
  exact ⟨a ++ b, by rw [hb, ha, List.append_assoc], by rw [hfb, hfa, replay_append]⟩

theorem traced_step {F : Fs σ} {Q : StepKind → String → Prop} {s s' : Sync σ}
    (h : Step F Q s s') : Traced F s s' := by
  cases h with
  | silent hfs hp hm hl => exact ⟨[], by simpa using hl, by simpa [replay] using hfs⟩
  | read c hc => exact ⟨[c], rfl, by cases c <;> simp [Call.isMutation] at hc <;> rfl⟩
  | restoreFailed h1 hr => exact ⟨[_], rfl, rfl⟩
  | restore h1 hr => exact ⟨[_], rfl, rfl⟩
  | snapshot path hQ fi h1 hD hfi => exact ⟨[], by simp, rfl⟩
  | structural path hQ c hc hl h1 => exact ⟨[c], rfl, rfl⟩
  | attr path hQ c hc => exact ⟨[c], rfl, rfl⟩

/-- The destination of a state the engine has reached is what the recorded calls have
made of the destination it started from. -/
theorem traced_reach {F : Fs σ} {Q : StepKind → String → Prop} {s s' : Sync σ}
    (h : Reach F Q s s') : Traced F s s' :=
  reach_invariant (fun t => Traced F s t) (fun _ _ hst ht => traced_trans ht (traced_step hst)) h
    (traced_refl F s)

theorem traced_fs {F : Fs σ} {s s' : Sync σ} (h : Traced F s s') :
    s'.fs = replay F (newCalls s s') s.fs := by
  obtain ⟨c, hc, hf⟩ := h
  rw [newCalls_of_log hc]
  exact hf

theorem prepared_refl (s : Sync σ) : Prepared s s := ⟨extends_refl _ _, rfl⟩

theorem prepared_trans {s1 s2 s3 : Sync σ} (h1 : Prepared s1 s2) (h2 : Prepared s2 s3) :
    Prepared s1 s3 := ⟨extends_trans h1.1 h2.1, h2.2.trans h1.2⟩

theorem prepared_logCall (s : Sync σ) (c : Call) (hc : c.isOwnerOrMode = false) :
    Prepared s (s.logCall c) := ⟨extends_logCall s c hc, rfl⟩

theorem prepared_LstatOrStat (F : Fs σ) (name : String) (s : Sync σ) :
    Prepared s (LstatOrStat F name s).2 := prepared_logCall s _ (lstatCall_pre F name)

theorem prepared_preserveBaseDir (F : Fs σ) (D : String) (s : Sync σ) :
    Prepared s (preserveBaseDir F D s).2 :=
  ⟨extends_preserveBaseDir F D s rfl (lstatCall_pre F D), ctl_preserveBaseDir F D s⟩

theorem prepared_removeExisting (F : Fs σ) (path : String) (c : Call) (msg : String)
    (s : Sync σ) (hc : c.isOwnerOrMode = false) : Prepared s (removeExisting F path c msg s).2 :=
  ⟨extends_removeExisting F path c msg s rfl (lstatCall_pre F _) hc,
    ctl_of_rest (rest_removeExisting F path c msg s)⟩

theorem prepared_dropUnless (F : Fs σ) (path : String) (keep : FileInfo → Bool) (c : Call)
    (msg : String) (fi : Option FileInfo) (s : Sync σ) (hc : c.isOwnerOrMode = false) :
    Prepared s (dropUnless F path keep c msg fi s).2.2 := by
  unfold dropUnless
  split
  · exact prepared_refl s
  · split
    · exact prepared_refl s
    · exact prepared_removeExisting F path c msg s hc

theorem prepared_retarget (F : Fs σ) (hdr : Header) (fi : Option FileInfo) (s : Sync σ) :
    Prepared s (retarget F hdr fi s).2.2 := by
  unfold retarget
  simp only
  split
  · exact prepared_refl s
  · have h1 := prepared_logCall s (.readlink (normalizePath hdr.name)) rfl
    split
    · exact h1
    · split
      · exact prepared_trans h1 (prepared_removeExisting F _ _ _ _ rfl)
      · exact h1

theorem prepared_checkLinkTarget (F : Fs σ) (hdr : Header) (fi : Option FileInfo)
    (s : Sync σ) : Prepared s (checkLinkTarget F hdr fi s).2.2 := by
  unfold checkLinkTarget
  simp only
  split
  · exact prepared_refl s
  · have h1 := prepared_LstatOrStat F (normalizePath hdr.linkname) s
    split
    · exact h1
    · split
      · exact prepared_trans h1 (prepared_removeExisting F _ _ _ _ rfl)
      · exact h1

theorem upd_of_rest {s s' : Sync σ} (h : s'.rest = s.rest) : s'.upd = s.upd := by
  simp only [Sync.rest, Prod.mk.injEq] at h
  exact h.2.2.2.2.2

theorem mem_newCalls_of_prepared {s1 s2 s3 : Sync σ} {c : Call} (h1 : Prepared s1 s2)
    (h2 : Prepared s2 s3) (hc : c ∈ newCalls s2 s3) : c ∈ newCalls s1 s3 := by
  rw [newCalls_append h1.1 h2.1]
  exact List.mem_append_right _ hc

theorem mem_newCalls_left {s1 s2 s3 : Sync σ} {c : Call} (h1 : Prepared s1 s2)
    (h2 : Prepared s2 s3) (hc : c ∈ newCalls s1 s2) : c ∈ newCalls s1 s3 := by
  rw [newCalls_append h1.1 h2.1]
  exact List.mem_append_left _ hc

theorem syncStatWrapped_ok (F : Fs σ) (hdr : Header) (fi : Option FileInfo) (s : Sync σ)
    (h : (syncStatWrapped F hdr fi s).1 = none) :
    (syncStat F hdr fi s).1 = none ∧ (syncStatWrapped F hdr fi s).2 = (syncStat F hdr fi s).2 := by
  unfold syncStatWrapped at h ⊢
  simp only at h ⊢
  cases hr : (syncStat F hdr fi s).1 with
  | some e => simp [hr] at h
  | none => simp [hr]

/-- A successful `createEntry` has made its creating call and its marks, and ends in a
successful `syncStat` that reads the metadata itself. -/
theorem createEntry_ends (F : Fs σ) (hdr : Header) (c : Call) (msg : String)
    (mark : Sync σ → Sync σ) (mu : PathUpdate → PathUpdate) (s : Sync σ)
    (hc : c.isOwnerOrMode = false)
    (hmark : ∀ s1, (mark s1).log = s1.log ∧ (mark s1).ctl = s1.ctl ∧ (mark s1).upd = mu s1.upd ∧
      (mark s1).fs = s1.fs)
    (hok : (createEntry F hdr c msg mark s).1 = none) :
    ∃ s0, Prepared s s0 ∧ c ∈ newCalls s s0 ∧ s0.upd = mu s.upd ∧
      (syncStat F hdr none s0).1 = none ∧
      (createEntry F hdr c msg mark s).2 = (syncStat F hdr none s0).2 ∧
      Traced F s s0 ∧ ∃ pre, newCalls s s0 = pre ++ [c] := by
  unfold createEntry at hok ⊢
  simp only at hok ⊢
  have h1 := prepared_preserveBaseDir F (filepathDir (normalizePath hdr.name)) s
  have u1 := upd_of_rest (rest_preserveBaseDir F (filepathDir (normalizePath hdr.name)) s)
  cases hp : (preserveBaseDir F (filepathDir (normalizePath hdr.name)) s).1 with
  | some e => simp [hp] at hok
  | none =>
    simp only [hp] at hok ⊢
    cases hcall : ((preserveBaseDir F (filepathDir (normalizePath hdr.name)) s).2.call F c).1 with
    | some e => simp [hcall] at hok
    | none =>
      simp only [hcall] at hok ⊢
      obtain ⟨k1, k2⟩ := syncStatWrapped_ok F hdr none _ hok
      obtain ⟨m1, m2, m3, m4⟩ :=
        hmark ((preserveBaseDir F (filepathDir (normalizePath hdr.name)) s).2.call F c).2
      have h2 : Prepared (preserveBaseDir F (filepathDir (normalizePath hdr.name)) s).2
          (mark ((preserveBaseDir F (filepathDir (normalizePath hdr.name)) s).2.call F c).2) :=
        ⟨⟨[c], by rw [m1]; rfl, by simpa using hc⟩, m2⟩
      have hn2 : newCalls (preserveBaseDir F (filepathDir (normalizePath hdr.name)) s).2
          (mark ((preserveBaseDir F (filepathDir (normalizePath hdr.name)) s).2.call F c).2) =
          [c] := by
        unfold newCalls
        rw [m1]
        simp [Sync.call]
      have t1 : Traced F s (preserveBaseDir F (filepathDir (normalizePath hdr.name)) s).2 :=
        traced_reach (reach_preserveBaseDir F AnyStep (normalizePath hdr.name) trivial s)
      have t2 : Traced F (preserveBaseDir F (filepathDir (normalizePath hdr.name)) s).2
          (mark ((preserveBaseDir F (filepathDir (normalizePath hdr.name)) s).2.call F c).2) :=
        ⟨[c], by rw [m1]; rfl, by rw [m4]; rfl⟩
      refine ⟨_, prepared_trans h1 h2, ?_, ?_, k1, k2, traced_trans t1 t2, ?_⟩
      · refine mem_newCalls_of_prepared h1 h2 ?_
        rw [hn2]
        exact List.mem_singleton.mpr rfl
      · rw [m3]
        exact congrArg mu u1
      · exact ⟨_, by rw [newCalls_append h1.1 h2.1, hn2]⟩

theorem created_last {s s1 s0 : Sync σ} {c : Call} (h1 : Prepared s s1) (h2 : Prepared s1 s0)
    (h : ∃ pre, newCalls s1 s0 = pre ++ [c]) : ∃ pre, newCalls s s0 = pre ++ [c] := by
  obtain ⟨pre, hp⟩ := h
  exact ⟨newCalls s s1 ++ pre, by rw [newCalls_append h1.1 h2.1, hp, List.append_assoc]⟩

theorem syncRegularFile_ends (F : Fs σ) (ent : TarEntry) (s : Sync σ)
    (hR : ent.hdr.typeflag = TypeReg)
    (hok : (syncRegularFile F ent.hdr ent.body s).1 = none) :
    EndsInSyncStat F ent s (syncRegularFile F ent.hdr ent.body s).2 := by
  have hRD : TypeReg ≠ TypeDir := by decide
  have hRS : TypeReg ≠ TypeSymlink := by decide
  have hl := prepared_LstatOrStat F (normalizePath ent.hdr.name) s
  unfold syncRegularFile at hok ⊢
  simp only at hok ⊢
  cases hst : statResult (LstatOrStat F (normalizePath ent.hdr.name) s).1 with
  | error e => simp [hst] at hok
  | ok fi =>
    simp only [hst] at hok ⊢
    have hd := prepared_dropUnless F (normalizePath ent.hdr.name)
      (fun info => modeIsRegular info.mode) (.removeAll (normalizePath ent.hdr.name))
      "failed to remove: " fi (LstatOrStat F (normalizePath ent.hdr.name) s).2 rfl
    have hu := upd_of_rest (rest_dropUnless F (normalizePath ent.hdr.name)
      (fun info => modeIsRegular info.mode) (.removeAll (normalizePath ent.hdr.name))
      "failed to remove: " fi (LstatOrStat F (normalizePath ent.hdr.name) s).2)
    cases hd1 : (dropUnless F (normalizePath ent.hdr.name)
        (fun info => modeIsRegular info.mode) (.removeAll (normalizePath ent.hdr.name))
        "failed to remove: " fi (LstatOrStat F (normalizePath ent.hdr.name) s).2).1 with
    | some e => simp [hd1] at hok
    | none =>
      simp only [hd1] at hok ⊢
      by_cases hup : upToDate ent.hdr (dropUnless F (normalizePath ent.hdr.name)
          (fun info => modeIsRegular info.mode) (.removeAll (normalizePath ent.hdr.name))
          "failed to remove: " fi (LstatOrStat F (normalizePath ent.hdr.name) s).2).2.1 = true
      · rw [if_pos hup] at hok ⊢
        cases hk : (dropUnless F (normalizePath ent.hdr.name)
            (fun info => modeIsRegular info.mode) (.removeAll (normalizePath ent.hdr.name))
            "failed to remove: " fi (LstatOrStat F (normalizePath ent.hdr.name) s).2).2.1 with
        | none =>
          rw [hk] at hup
          simp [upToDate] at hup
        | some info =>
          obtain ⟨k1, _, k3⟩ := dropUnless_kept F _ _ _ _ fi _ info hk
          subst k1
          rw [hk] at hok
          rw [k3] at hok ⊢
          obtain ⟨w1, w2⟩ := syncStatWrapped_ok F ent.hdr (some info) _ hok
          refine ⟨some info, _, hl, Or.inl ⟨info, rfl, ?_, rfl, rfl⟩, w1, w2⟩
          unfold entryStat
          rw [hR, if_neg hRS]
          exact statResult_some _ _ hst
      · rw [if_neg hup] at hok ⊢
        obtain ⟨s0, c1, c2, c3, c4, c5, c6, c7⟩ := createEntry_ends F ent.hdr
          (.writeReader (normalizePath ent.hdr.name) ent.body) "failed to write file: "
          Sync.markAdded (fun u => { u with update := { u.update with Added := true } }) _ rfl
          (fun _ => ⟨rfl, rfl, rfl, rfl⟩) hok
        have hcc : createCallOf ent = .writeReader (normalizePath ent.hdr.name) ent.body := by
          unfold createCallOf
          rw [if_pos hR]
        have tr : Traced F s (dropUnless F (normalizePath ent.hdr.name)
            (fun info => modeIsRegular info.mode) (.removeAll (normalizePath ent.hdr.name))
            "failed to remove: " fi (LstatOrStat F (normalizePath ent.hdr.name) s).2).2.2 :=
          traced_trans (traced_reach (reach_LstatOrStat F AnyStep _ s))
            (traced_reach (reach_dropUnless F AnyStep _ (fun _ _ => trivial) _ _ _ fi _
              (by simp [Call.isStructuralAt]) (fun _ h => by cases h)))
        refine ⟨none, s0, prepared_trans (prepared_trans hl hd) c1,
          Or.inr ⟨rfl, ?_, ?_, ?_, traced_fs (traced_trans tr c6)⟩, c4, c5⟩
        · rw [c3, hu]
          unfold markOf
          rw [hR, if_neg hRD, if_neg hRS]
          rfl
        · rw [hcc]
          exact mem_newCalls_of_prepared (prepared_trans hl hd) c1 c2
        · rw [hcc]
          exact created_last (prepared_trans hl hd) c1 c7

theorem syncDir_ends (F : Fs σ) (ent : TarEntry) (s : Sync σ)
    (hD : ent.hdr.typeflag = TypeDir) (hok : (syncDir F ent.hdr s).1 = none) :
    EndsInSyncStat F ent s (syncDir F ent.hdr s).2 := by
  have hDR : TypeDir ≠ TypeReg := by decide
  have hDS : TypeDir ≠ TypeSymlink := by decide
  have hl := prepared_LstatOrStat F (normalizePath ent.hdr.name) s
  unfold syncDir at hok ⊢
  simp only at hok ⊢
  cases hst : statResult (LstatOrStat F (normalizePath ent.hdr.name) s).1 with
  | error e => simp [hst] at hok
  | ok fi =>
    simp only [hst] at hok ⊢
    have hd := prepared_dropUnless F (normalizePath ent.hdr.name)
      (fun info => decide (modeTypeOf info.mode = ModeDir))
      (.remove (normalizePath ent.hdr.name))
      "failed to remove: " fi (LstatOrStat F (normalizePath ent.hdr.name) s).2 rfl
    have hu := upd_of_rest (rest_dropUnless F (normalizePath ent.hdr.name)
      (fun info => decide (modeTypeOf info.mode = ModeDir))
      (.remove (normalizePath ent.hdr.name))
      "failed to remove: " fi (LstatOrStat F (normalizePath ent.hdr.name) s).2)
    cases hd1 : (dropUnless F (normalizePath ent.hdr.name)
        (fun info => decide (modeTypeOf info.mode = ModeDir))
        (.remove (normalizePath ent.hdr.name))
        "failed to remove: " fi (LstatOrStat F (normalizePath ent.hdr.name) s).2).1 with
    | some e => simp [hd1] at hok
    | none =>
      simp only [hd1] at hok ⊢
      cases hk : (dropUnless F (normalizePath ent.hdr.name)
          (fun info => decide (modeTypeOf info.mode = ModeDir))
          (.remove (normalizePath ent.hdr.name))
          "failed to remove: " fi (LstatOrStat F (normalizePath ent.hdr.name) s).2).2.1 with
      | some info =>
        obtain ⟨k1, _, k3⟩ := dropUnless_kept F _ _ _ _ fi _ info hk
        subst k1
        simp only [hk] at hok ⊢
        rw [k3] at hok ⊢
        obtain ⟨w1, w2⟩ := syncStatWrapped_ok F ent.hdr (some info) _ hok
        refine ⟨some info, _, hl, Or.inl ⟨info, rfl, ?_, rfl, rfl⟩, w1, w2⟩
        unfold entryStat
        rw [hD, if_neg hDS]
        exact statResult_some _ _ hst
      | none =>
        simp only [hk] at hok ⊢
        obtain ⟨s0, c1, c2, c3, c4, c5, c6, c7⟩ := createEntry_ends F ent.hdr
          (.mkdir (normalizePath ent.hdr.name) (modePermOf ent.hdr.fileMode))
          "failed to make file: "
          (fun s => s.markAdded.markMode (modePermOf ent.hdr.fileMode ||| ModeDir))
          (fun u => { u with update :=
            { u.update with Added := true, Mode := some (modePermOf ent.hdr.fileMode ||| ModeDir) } })
          _ rfl
          (fun _ => ⟨rfl, rfl, rfl, rfl⟩) hok
        have hcc : createCallOf ent =
            .mkdir (normalizePath ent.hdr.name) (modePermOf ent.hdr.fileMode) := by
          unfold createCallOf
          rw [hD, if_neg hDR, if_pos rfl]
        have tr : Traced F s (dropUnless F (normalizePath ent.hdr.name)
            (fun info => decide (modeTypeOf info.mode = ModeDir))
            (.remove (normalizePath ent.hdr.name))
            "failed to remove: " fi (LstatOrStat F (normalizePath ent.hdr.name) s).2).2.2 :=
          traced_trans (traced_reach (reach_LstatOrStat F AnyStep _ s))
            (traced_reach (reach_dropUnless F AnyStep _ (fun _ _ => trivial) _ _ _ fi _
              (by simp [Call.isStructuralAt]) (fun _ h => by cases h)))
        refine ⟨none, s0, prepared_trans (prepared_trans hl hd) c1,
          Or.inr ⟨rfl, ?_, ?_, ?_, traced_fs (traced_trans tr c6)⟩, c4, c5⟩
        · rw [c3, hu]
          unfold markOf
          rw [if_pos hD]
          rfl
        · rw [hcc]
          exact mem_newCalls_of_prepared (prepared_trans hl hd) c1 c2
        · rw [hcc]
          exact created_last (prepared_trans hl hd) c1 c7

theorem retarget_some (F : Fs σ) (hdr : Header) (fi : Option FileInfo) (s : Sync σ)
    (info : FileInfo) (h : (retarget F hdr fi s).2.1 = some info) :
    fi = some info ∧ (retarget F hdr fi s).2.2 = s.logCall (.readlink (normalizePath hdr.name)) := by
  unfold retarget at h ⊢
  simp only at h ⊢
  cases fi with
  | none => simp at h
  | some info0 =>
    simp only at h ⊢
    cases hr : F.readlink s.fs (normalizePath hdr.name) with
    | error e => simp [hr] at h
    | ok target =>
      simp only [hr] at h ⊢
      by_cases ht : target ≠ hdr.linkname
      · simp [ht] at h
      · simp only [ht, if_false, Option.some.injEq] at h ⊢
        exact ⟨h, trivial⟩

theorem syncSymlink_ends (F : Fs σ) (ent : TarEntry) (s : Sync σ)
    (hS : ent.hdr.typeflag = TypeSymlink) (hok : (syncSymlink F ent.hdr s).1 = none) :
    EndsInSyncStat F ent s (syncSymlink F ent.hdr s).2 := by
  have hSR : TypeSymlink ≠ TypeReg := by decide
  have hSD : TypeSymlink ≠ TypeDir := by decide
  have hl := prepared_logCall s (.lstat (normalizePath ent.hdr.name)) rfl
  unfold syncSymlink at hok ⊢
  simp only at hok ⊢
  cases hst : statResult (F.lstat s.fs (normalizePath ent.hdr.name)) with
  | error e => simp [hst] at hok
  | ok fi =>
    simp only [hst] at hok ⊢
    have hd := prepared_dropUnless F (normalizePath ent.hdr.name)
      (fun info => decide (modeTypeOf info.mode = ModeSymlink))
      (.removeAll (normalizePath ent.hdr.name))
      "failed to remove: " fi (s.logCall (.lstat (normalizePath ent.hdr.name))) rfl
    have hu := upd_of_rest (rest_dropUnless F (normalizePath ent.hdr.name)
      (fun info => decide (modeTypeOf info.mode = ModeSymlink))
      (.removeAll (normalizePath ent.hdr.name))
      "failed to remove: " fi (s.logCall (.lstat (normalizePath ent.hdr.name))))
    have td : Traced F s (dropUnless F (normalizePath ent.hdr.name)
        (fun info => decide (modeTypeOf info.mode = ModeSymlink))
        (.removeAll (normalizePath ent.hdr.name))
        "failed to remove: " fi (s.logCall (.lstat (normalizePath ent.hdr.name)))).2.2 :=
      traced_trans (traced_step (Q := AnyStep) (Step.read (.lstat (normalizePath ent.hdr.name)) rfl))
        (traced_reach (reach_dropUnless F AnyStep _ (fun _ _ => trivial) _ _ _ fi _
          (by simp [Call.isStructuralAt]) (fun _ h => by cases h)))
    cases hd1 : (dropUnless F (normalizePath ent.hdr.name)
        (fun info => decide (modeTypeOf info.mode = ModeSymlink))
        (.removeAll (normalizePath ent.hdr.name))
        "failed to remove: " fi (s.logCall (.lstat (normalizePath ent.hdr.name)))).1 with
    | some e => simp [hd1] at hok
    | none =>
      simp only [hd1] at hok ⊢
      generalize hdd : (dropUnless F (normalizePath ent.hdr.name)
        (fun info => decide (modeTypeOf info.mode = ModeSymlink))
        (.removeAll (normalizePath ent.hdr.name))
        "failed to remove: " fi (s.logCall (.lstat (normalizePath ent.hdr.name)))) = d
        at hok hd hu hd1 td ⊢
      have ht := prepared_retarget F ent.hdr d.2.1 d.2.2
      have tt : Traced F d.2.2 (retarget F ent.hdr d.2.1 d.2.2).2.2 :=
        traced_reach (reach_retarget F AnyStep ent.hdr (fun _ _ => trivial) d.2.1 d.2.2)
      have htu := upd_of_rest (rest_retarget F ent.hdr d.2.1 d.2.2)
      cases ht1 : (retarget F ent.hdr d.2.1 d.2.2).1 with
      | some e => simp [ht1] at hok
      | none =>
        simp only [ht1] at hok ⊢
        cases hk : (retarget F ent.hdr d.2.1 d.2.2).2.1 with
        | some info =>
          simp only [hk] at hok ⊢
          obtain ⟨r1, r2⟩ := retarget_some F ent.hdr _ _ info hk
          have r1' : (dropUnless F (normalizePath ent.hdr.name)
              (fun info => decide (modeTypeOf info.mode = ModeSymlink))
              (.removeAll (normalizePath ent.hdr.name))
              "failed to remove: " fi (s.logCall (.lstat (normalizePath ent.hdr.name)))).2.1 =
              some info := by rw [hdd]; exact r1
          obtain ⟨k1, _, k3⟩ := dropUnless_kept F _ _ _ _ fi _ info r1'
          rw [hdd] at k3
          subst k1
          obtain ⟨w1, w2⟩ := syncStatWrapped_ok F ent.hdr (some info) _ hok
          refine ⟨some info, _, prepared_trans (prepared_trans hl hd) ht,
            Or.inl ⟨info, rfl, ?_, ?_, ?_⟩, w1, w2⟩
          · unfold entryStat
            rw [if_pos hS]
            exact statResult_some _ _ hst
          · rw [htu, hu]
            rfl
          · rw [r2, k3]
            rfl
        | none =>
          simp only [hk] at hok ⊢
          obtain ⟨s0, c1, c2, c3, c4, c5, c6, c7⟩ := createEntry_ends F ent.hdr
            (.symlink ent.hdr.linkname (normalizePath ent.hdr.name)) "failed to make link: "
            (fun s => s.markAdded.markLink ent.hdr.linkname)
            (fun u => { u with update :=
              { u.update with Added := true, Link := some ent.hdr.linkname } })
            _ rfl (fun _ => ⟨rfl, rfl, rfl, rfl⟩) hok
          have hcc : createCallOf ent =
              .symlink ent.hdr.linkname (normalizePath ent.hdr.name) := by
            unfold createCallOf
            rw [hS, if_neg hSR, if_neg hSD, if_pos rfl]
          refine ⟨none, s0, prepared_trans (prepared_trans (prepared_trans hl hd) ht) c1,
            Or.inr ⟨rfl, ?_, ?_, ?_, traced_fs (traced_trans (traced_trans td tt) c6)⟩, c4, c5⟩
          · rw [c3, htu, hu]
            unfold markOf
            rw [hS, if_neg hSD, if_pos rfl]
            rfl
          · rw [hcc]
            exact mem_newCalls_of_prepared (prepared_trans (prepared_trans hl hd) ht) c1 c2
          · rw [hcc]
            exact created_last (prepared_trans (prepared_trans hl hd) ht) c1 c7

theorem syncLink_ends (F : Fs σ) (ent : TarEntry) (s : Sync σ)
    (hL : ent.hdr.typeflag = TypeLink) (hok : (syncLink F ent.hdr s).1 = none) :
    EndsInSyncStat F ent s (syncLink F ent.hdr s).2 := by
  have hLR : TypeLink ≠ TypeReg := by decide
  have hLD : TypeLink ≠ TypeDir := by decide
  have hLS : TypeLink ≠ TypeSymlink := by decide
  have hl := prepared_LstatOrStat F (normalizePath ent.hdr.name) s
  unfold syncLink at hok ⊢
  simp only at hok ⊢
  cases hst : statResult (LstatOrStat F (normalizePath ent.hdr.name) s).1 with
  | error e => simp [hst] at hok
  | ok fi =>
    simp only [hst] at hok ⊢
    have hd := prepared_checkLinkTarget F ent.hdr fi (LstatOrStat F (normalizePath ent.hdr.name) s).2
    have hu := upd_of_rest (rest_checkLinkTarget F ent.hdr fi
      (LstatOrStat F (normalizePath ent.hdr.name) s).2)
    cases hd1 : (checkLinkTarget F ent.hdr fi (LstatOrStat F (normalizePath ent.hdr.name) s).2).1 with
    | some e => simp [hd1] at hok
    | none =>
      simp only [hd1] at hok ⊢
      cases hk : (checkLinkTarget F ent.hdr fi
          (LstatOrStat F (normalizePath ent.hdr.name) s).2).2.1 with
      | some info =>
        simp only [hk] at hok ⊢
        obtain ⟨k1, k2, _⟩ := checkLinkTarget_kept F ent.hdr fi _ info hk
        subst k1
        obtain ⟨w1, w2⟩ := syncStatWrapped_ok F ent.hdr (some info) _ hok
        refine ⟨some info, _, prepared_trans hl hd, Or.inl ⟨info, rfl, ?_, ?_, ?_⟩, w1, w2⟩
        · unfold entryStat
          rw [hL, if_neg hLS]
          exact statResult_some _ _ hst
        · rw [hu]
          rfl
        · rw [k2]
          rfl
      | none =>
        simp only [hk] at hok ⊢
        obtain ⟨s0, c1, c2, c3, c4, c5, c6, c7⟩ := createEntry_ends F ent.hdr
          (.link (normalizePath ent.hdr.linkname) (normalizePath ent.hdr.name))
          "failed to make link: " Sync.markAdded
          (fun u => { u with update := { u.update with Added := true } }) _ rfl
          (fun _ => ⟨rfl, rfl, rfl, rfl⟩) hok
        have hcc : createCallOf ent =
            .link (normalizePath ent.hdr.linkname) (normalizePath ent.hdr.name) := by
          unfold createCallOf
          rw [hL, if_neg hLR, if_neg hLD, if_neg hLS]
        have tr : Traced F s (checkLinkTarget F ent.hdr fi
            (LstatOrStat F (normalizePath ent.hdr.name) s).2).2.2 :=
          traced_trans (traced_reach (reach_LstatOrStat F AnyStep _ s))
            (traced_reach (reach_checkLinkTarget F AnyStep ent.hdr (fun _ _ => trivial) fi _))
        refine ⟨none, s0, prepared_trans (prepared_trans hl hd) c1,
          Or.inr ⟨rfl, ?_, ?_, ?_, traced_fs (traced_trans tr c6)⟩, c4, c5⟩
        · rw [c3, hu]
          unfold markOf
          rw [hL, if_neg hLD, if_neg hLS]
          rfl
        · rw [hcc]
          exact mem_newCalls_of_prepared (prepared_trans hl hd) c1 c2
        · rw [hcc]
          exact created_last (prepared_trans hl hd) c1 c7

/-- Every successful reconciliation ends in a successful `syncStat`. -/
theorem dispatch_ends (F : Fs σ) (ent : TarEntry) (s : Sync σ)
    (hd : (dispatch F ent s).1 = .synced) : EndsInSyncStat F ent s (dispatch F ent s).2 := by
  by_cases hR : ent.hdr.typeflag = TypeReg
  · obtain ⟨d1, d2⟩ := dispatch_reg_synced F ent s hR hd
    rw [d2]
    exact syncRegularFile_ends F ent s hR d1
  by_cases hD : ent.hdr.typeflag = TypeDir
  · obtain ⟨d1, d2⟩ := dispatch_dir_synced F ent s hD hd
    rw [d2]
    exact syncDir_ends F ent s hD d1
  by_cases hS : ent.hdr.typeflag = TypeSymlink
  · obtain ⟨d1, d2⟩ := dispatch_symlink_synced F ent s hS hd
    rw [d2]
    exact syncSymlink_ends F ent s hS d1
  by_cases hL : ent.hdr.typeflag = TypeLink
  · obtain ⟨d1, d2⟩ := dispatch_link_synced F ent s hL hd
    rw [d2]
    exact syncLink_ends F ent s hL d1
  · exfalso
    unfold dispatch at hd
    simp [hR, hD, hS, hL] at hd

theorem syncStatMode_symlink (F : Fs σ) (hdr : Header) (fi : FileInfo) (s : Sync σ)
    (hS : hdr.typeflag = TypeSymlink) : syncStatMode F hdr fi s = (none, s) := by
  unfold syncStatMode
  simp [hS]

theorem ownerCall_symlink (hdr : Header) (hS : hdr.typeflag = TypeSymlink) :
    ownerCall hdr = .lchown (normalizePath hdr.name) hdr.uid hdr.gid := by
  unfold ownerCall
  rw [if_pos hS]

theorem lstatCall_noChown (F : Fs σ) (name : String) :
    (F.lstatCall name).isChownOrChmod = false := by
  unfold Fs.lstatCall; split <;> rfl

theorem extends_syncStatWrapped_symlink (F : Fs σ) (hdr : Header) (fi : Option FileInfo)
    (s : Sync σ) (hS : hdr.typeflag = TypeSymlink) :
    Extends (fun c => c.isChownOrChmod = false) s (syncStatWrapped F hdr fi s).2 := by
  have hw : ∀ (info : FileInfo) (s1 : Sync σ),
      Extends (fun c => c.isChownOrChmod = false) s1 (syncStatWith F hdr info s1).2 := by
    intro info s1
    unfold syncStatWith
    simp only
    have h1 := extends_syncStatOwner (P := fun c => c.isChownOrChmod = false) F hdr info s1
      (by rw [ownerCall_symlink hdr hS]; rfl) (lstatCall_noChown F _)
    split
    · exact h1
    · rename_i fi2 _
      rw [syncStatMode_symlink F hdr fi2 _ hS]
      simp only
      exact extends_trans h1 (extends_syncStatTime F hdr fi2 _ rfl)
  unfold syncStatWrapped syncStat
  simp only
  cases fi with
  | some info =>
    simp only
    split <;> exact hw info s
  | none =>
    simp only
    have h1 := extends_LstatOrStat (P := fun c => c.isChownOrChmod = false) F
      (normalizePath hdr.name) s (lstatCall_noChown F _)
    cases hl : (LstatOrStat F (normalizePath hdr.name) s).1 with
    | error e => simp only [hl]; exact h1
    | ok info =>
      simp only [hl]
      split <;> exact extends_trans h1 (hw info _)

theorem noChown_of_pre {s s' : Sync σ} (h : Prepared s s') :
    Extends (fun c => c.isChownOrChmod = false) s s' :=
  extends_mono h.1 (fun c hc => by cases c <;> simp_all [Call.isOwnerOrMode, Call.isChownOrChmod])

/-- The calls of `syncSymlink`: neither `chown` nor `chmod`. -/
theorem extends_syncSymlink (F : Fs σ) (hdr : Header) (s : Sync σ)
    (hS : hdr.typeflag = TypeSymlink) :
    Extends (fun c => c.isChownOrChmod = false) s (syncSymlink F hdr s).2 := by
  have hl := prepared_logCall s (.lstat (normalizePath hdr.name)) rfl
  unfold syncSymlink
  simp only
  split
  · exact noChown_of_pre hl
  · rename_i fi _
    have hd := prepared_dropUnless F (normalizePath hdr.name)
      (fun info => decide (modeTypeOf info.mode = ModeSymlink))
      (.removeAll (normalizePath hdr.name))
      "failed to remove: " fi (s.logCall (.lstat (normalizePath hdr.name))) rfl
    generalize (dropUnless F (normalizePath hdr.name)
      (fun info => decide (modeTypeOf info.mode = ModeSymlink))
      (.removeAll (normalizePath hdr.name))
      "failed to remove: " fi (s.logCall (.lstat (normalizePath hdr.name)))) = d at hd ⊢
    split
    · exact noChown_of_pre (prepared_trans hl hd)
    · have ht := prepared_retarget F hdr d.2.1 d.2.2
      generalize (retarget F hdr d.2.1 d.2.2) = t at ht ⊢
      have h3 := prepared_trans (prepared_trans hl hd) ht
      split
      · exact noChown_of_pre h3
      · split
        · exact extends_trans (noChown_of_pre h3) (extends_syncStatWrapped_symlink F hdr _ _ hS)
        · unfold createEntry
          simp only
          have h4 := prepared_preserveBaseDir F (filepathDir (normalizePath hdr.name)) t.2.2
          split
          · exact noChown_of_pre (prepared_trans h3 h4)
          · have h5 : Extends (fun c => c.isChownOrChmod = false)
                (preserveBaseDir F (filepathDir (normalizePath hdr.name)) t.2.2).2
                ((preserveBaseDir F (filepathDir (normalizePath hdr.name)) t.2.2).2.call F
                  (.symlink hdr.linkname (normalizePath hdr.name))).2 :=
              extends_call F _ _ rfl
            have h6 := extends_trans (noChown_of_pre (prepared_trans h3 h4)) h5
            split
            · exact h6
            · exact extends_trans (extends_trans h6 (extends_of_log_eq rfl))
                (extends_syncStatWrapped_symlink F hdr none _ hS)

theorem dispatch_symlink_state (F : Fs σ) (ent : TarEntry) (s : Sync σ)
    (hS : ent.hdr.typeflag = TypeSymlink) :
    (dispatch F ent s).2 = s ∨ (dispatch F ent s).2 = (syncSymlink F ent.hdr s).2 := by
  have hSR : TypeSymlink ≠ TypeReg := by decide
  have hSD : TypeSymlink ≠ TypeDir := by decide
  unfold dispatch dispatched
  simp only [hS, hSR, hSD, if_false, if_true]
  split
  · exact Or.inl rfl
  · split <;> exact Or.inr rfl
/-- A successful reconciliation leaves the path and the deleted mark of the update
alone. -/
theorem dispatch_upd (F : Fs σ) (ent : TarEntry) (s : Sync σ)
    (hd : (dispatch F ent s).1 = .synced) :
    (dispatch F ent s).2.upd.Path = s.upd.Path ∧
      (dispatch F ent s).2.upd.update.Deleted = s.upd.update.Deleted := by
  obtain ⟨fi0, s0, hp, hbr, hok, hfin⟩ := dispatch_ends F ent s hd
  obtain ⟨info, fi2, _, _, _, _, _, e5⟩ := syncStat_exact F ent.hdr fi0 s0 hok
  rw [hfin, e5]
  rcases hbr with ⟨_, _, _, hu, _⟩ | ⟨_, hu, _⟩
  · rw [hu]
    exact ⟨rfl, rfl⟩
  · rw [hu]
    unfold markOf
    split
    · exact ⟨rfl, rfl⟩
    · split <;> exact ⟨rfl, rfl⟩

/-- The tar loop returns true only with a non-empty update for one of its entries that
is not marked deleted, and without touching the error. -/
theorem tarLoop_true (F : Fs σ) (entries : List TarEntry) :
    ∀ s : Sync σ, (tarLoop F entries s).1 = some true →
      (tarLoop F entries s).2.upd.update.Deleted = false ∧
      (tarLoop F entries s).2.upd.update.IsEmpty = false ∧
      (tarLoop F entries s).2.err = s.err ∧
      ∃ ent ∈ entries, AlwaysSynced s.opts ent ∧
        (tarLoop F entries s).2.upd.Path = normalizePath ent.hdr.name := by
  induction entries with
  | nil =>
    intro s h
    unfold tarLoop at h
    split at h <;> simp at h
  | cons ent rest ih =>
    intro s h
    unfold tarLoop at h ⊢
    simp only at h ⊢
    obtain ⟨_, c2, _, _, c5⟩ := ctl_fields (ctl_dispatch F ent (s.beginEntry ent rest))
    have c2' : (dispatch F ent (s.beginEntry ent rest)).2.opts = s.opts := c2
    cases hd : (dispatch F ent (s.beginEntry ent rest)).1 with
    | failed e => simp [hd] at h
    | skipped =>
      simp only [hd] at h ⊢
      obtain ⟨i1, i2, i3, e, he, ia, i4⟩ := ih _ h
      exact ⟨i1, i2, i3.trans c5, e, List.mem_cons_of_mem _ he, by rw [← c2']; exact ia, i4⟩
    | synced =>
      simp only [hd] at h ⊢
      obtain ⟨u1, u2⟩ := dispatch_upd F ent (s.beginEntry ent rest) hd
      by_cases hem : ((dispatch F ent (s.beginEntry ent rest)).2.forget
          (normalizePath ent.hdr.name)).upd.update.IsEmpty = true
      · simp only [hem, not_true_eq_false, if_false] at h ⊢
        obtain ⟨i1, i2, i3, e, he, ia, i4⟩ := ih _ h
        exact ⟨i1, i2, i3.trans c5, e, List.mem_cons_of_mem _ he, by rw [← c2']; exact ia, i4⟩
      · simp only [hem, if_true]
        exact ⟨u2, by simpa using hem, c5, ent, List.mem_cons_self _ _,
          dispatch_synced_alwaysSynced F ent (s.beginEntry ent rest) hd, u1⟩

theorem deleteEntry_true (F : Fs σ) (path : String) (r : Except Error FileInfo) (s : Sync σ)
    (h : (deleteEntry F path r s).1 = true) :
    (deleteEntry F path r s).2.upd = { Path := path, update := { Deleted := true } } := by
  have key : ∀ s2 : Sync σ,
      (match (preserveBaseDir F (filepathDir path) s2).1 with
        | some e => (false, (preserveBaseDir F (filepathDir path) s2).2.setErr (some e))
        | none =>
          match ((preserveBaseDir F (filepathDir path) s2).2.call F (.removeAll path)).1 with
          | some e =>
            (false, ((preserveBaseDir F (filepathDir path) s2).2.call F (.removeAll path)).2.setErr
              (some (.wrap ("failed to remove: " ++ path) e)))
          | none =>
            (true, { ((preserveBaseDir F (filepathDir path) s2).2.call F (.removeAll path)).2 with
              upd := { Path := path, update := { Deleted := true } } })).1 = true →
      (match (preserveBaseDir F (filepathDir path) s2).1 with
        | some e => (false, (preserveBaseDir F (filepathDir path) s2).2.setErr (some e))
        | none =>
          match ((preserveBaseDir F (filepathDir path) s2).2.call F (.removeAll path)).1 with
          | some e =>
            (false, ((preserveBaseDir F (filepathDir path) s2).2.call F (.removeAll path)).2.setErr
              (some (.wrap ("failed to remove: " ++ path) e)))
          | none =>
            (true, { ((preserveBaseDir F (filepathDir path) s2).2.call F (.removeAll path)).2 with
              upd := { Path := path, update := { Deleted := true } } })).2.upd =
        { Path := path, update := { Deleted := true } } := by
    intro s2 h
    cases h1 : (preserveBaseDir F (filepathDir path) s2).1 with
    | some e => simp [h1] at h
    | none =>
      simp only [h1] at h ⊢
      cases h2 : ((preserveBaseDir F (filepathDir path) s2).2.call F (.removeAll path)).1 with
      | some e => simp [h2] at h
      | none => simp only [h2]
  cases r with
  | error e => exact key _ h
  | ok fi => exact key _ h

/-- The deletion loop returns true only after a removal, with the update of a deleted
path of the queue. -/
theorem deleteLoop_true (F : Fs σ) (l : List String) :
    ∀ s : Sync σ, (deleteLoop F l s).1 = true →
      ∃ path ∈ l, path ≠ "." ∧
        (deleteLoop F l s).2.upd = { Path := path, update := { Deleted := true } } := by
  induction l with
  | nil =>
    intro s h
    simp [deleteLoop] at h
  | cons path rest ih =>
    intro s h
    unfold deleteLoop at h ⊢
    by_cases hp : path = "."
    · simp only [hp, if_true] at h ⊢
      obtain ⟨p, hm, h1, h2⟩ := ih _ h
      exact ⟨p, List.mem_cons_of_mem _ hm, h1, h2⟩
    · simp only [hp, if_false] at h ⊢
      by_cases hs : lstatSkips (LstatOrStat F path s).1 = true
      · simp only [hs, if_true] at h ⊢
        obtain ⟨p, hm, h1, h2⟩ := ih _ h
        exact ⟨p, List.mem_cons_of_mem _ hm, h1, h2⟩
      · simp only [hs, if_false] at h ⊢
        exact ⟨path, List.mem_cons_self _ _, hp, deleteEntry_true F path _ _ h⟩

/-- `Next` as its two loops: the tar loop, then the deletion loop. -/
theorem Next_true (F : Fs σ) (s : Sync σ) (h : (Next F s).1 = true) :
    s.err = none ∧ (ensurePathMap F s).1 = none ∧
    ((yieldsFromTar F s ∧
        Next F s = (true, (tarLoop F (ensurePathMap F s).2.tarReader.entries
          (ensurePathMap F s).2).2)) ∨
      ((tarLoop F (ensurePathMap F s).2.tarReader.entries (ensurePathMap F s).2).1 = none ∧
        Next F s = deleteLoop F ((flattenPathMap (tarLoop F (ensurePathMap F s).2.tarReader.entries
            (ensurePathMap F s).2).2).deletePaths.getD [])
          (flattenPathMap (tarLoop F (ensurePathMap F s).2.tarReader.entries
            (ensurePathMap F s).2).2))) := by
  unfold Next at h ⊢
  cases he : s.err with
  | some e => simp [he] at h
  | none =>
    simp only [he, Option.isSome_none, Bool.false_eq_true, if_false] at h ⊢
    cases hw : (ensurePathMap F s).1 with
    | some e => simp [hw] at h
    | none =>
      simp only [hw] at h ⊢
      cases ht : (tarLoop F (ensurePathMap F s).2.tarReader.entries (ensurePathMap F s).2).1 with
      | some b =>
        simp only [ht] at h ⊢
        subst h
        exact ⟨trivial, trivial, Or.inl ⟨ht, rfl⟩⟩
      | none =>
        simp only [ht]
        exact ⟨trivial, trivial, Or.inr ⟨trivial, trivial⟩⟩

theorem ensurePathMap_err (F : Fs σ) (s : Sync σ) : (ensurePathMap F s).2.err = s.err := by
  unfold ensurePathMap
  split
  · rfl
  · simp only
    split
    · unfold walkFs; split <;> rfl
    · unfold walkFs; split <;> rfl

theorem update_of_not_empty (u : Update) (h : u.IsEmpty = false) (hd : u.Deleted = false) :
    u.Added = true ∨ u.Mode ≠ none ∨ u.Uid ≠ none ∨ u.Gid ≠ none ∨ u.ModTime ≠ none ∨
      u.Link ≠ none := by
  by_contra hc
  simp only [not_or, not_not, Bool.not_eq_true] at hc
  obtain ⟨h1, h2, h3, h4, h5, h6⟩ := hc
  obtain ⟨a, d, m, ui, g, t, l⟩ := u
  simp only at h1 h2 h3 h4 h5 h6 hd
  subst h1 h2 h3 h4 h5 h6 hd
  simp [Update.IsEmpty] at h

theorem Update_of_err (s : Sync σ) (h : s.err = none) : s.Update = s.upd := by
  unfold Sync.Update
  rw [h]
  rfl

/-- What `Next` leaves in `s.upd` when it returns true: from the tar loop, a non-empty
update that is not marked deleted, and no error; from the deletion loop, an update that
is marked deleted and nothing else. -/
theorem Next_upd (F : Fs σ) (s : Sync σ) (h : (Next F s).1 = true) :
    (yieldsFromTar F s → (Next F s).2.upd.update.Deleted = false ∧
      (Next F s).2.upd.update.IsEmpty = false ∧ (Next F s).2.err = none) ∧
    (¬ yieldsFromTar F s → (Next F s).2.upd.update = { Deleted := true }) := by
  obtain ⟨he, _, hcase⟩ := Next_true F s h
  rcases hcase with ⟨ht, hn⟩ | ⟨ht, hn⟩
  · refine ⟨fun _ => ?_, fun hc => absurd ht hc⟩
    rw [hn]
    obtain ⟨t1, t2, t3, _⟩ := tarLoop_true F _ _ ht
    exact ⟨t1, t2, by rw [t3, ensurePathMap_err, he]⟩
  · refine ⟨fun hc => ?_, fun _ => ?_⟩
    · unfold yieldsFromTar at hc
      rw [ht] at hc
      simp at hc
    · rw [hn] at h ⊢
      obtain ⟨p, _, _, hu⟩ := deleteLoop_true F _ _ h
      rw [hu]

/-- C14 (amended): what a yielded update is marked with.  When `Next` returns true and
has recorded no error, the update it yields is either marked deleted and nothing else
(not added, no mode, uid, gid, mtime or link), or it is not marked deleted and is marked
added or carries at least one of mode, uid, gid, mtime and link; an added update may
carry fields too. -/
theorem yielded_update_is_marked (F : Fs σ) (s : Sync σ) (h : (Next F s).1 = true)
    (he : (Next F s).2.err = none) :
    (Next F s).2.Update.update = { Deleted := true } ∨
      ((Next F s).2.Update.update.Deleted = false ∧
        ((Next F s).2.Update.update.Added = true ∨ (Next F s).2.Update.update.Mode ≠ none ∨
          (Next F s).2.Update.update.Uid ≠ none ∨ (Next F s).2.Update.update.Gid ≠ none ∨
          (Next F s).2.Update.update.ModTime ≠ none ∨
          (Next F s).2.Update.update.Link ≠ none)) := by
  rw [Update_of_err _ he]
  obtain ⟨h1, h2⟩ := Next_upd F s h
  by_cases ht : yieldsFromTar F s
  · obtain ⟨a, b, _⟩ := h1 ht
    exact Or.inr ⟨a, update_of_not_empty _ b a⟩
  · exact Or.inl (h2 ht)

/-- C15: added and deleted exclude each other.  When `Next` returns true, the update it
yields is not marked both added and deleted: an update from the tar loop is not marked
deleted, and the deletion loop sets an update that is marked deleted and nothing else,
which is the update yielded when no error is recorded. -/
theorem added_excludes_deleted (F : Fs σ) (s : Sync σ) (h : (Next F s).1 = true) :
    ¬ ((Next F s).2.Update.update.Added = true ∧ (Next F s).2.Update.update.Deleted = true) ∧
    (yieldsFromTar F s → (Next F s).2.upd.update.Deleted = false ∧
      (Next F s).2.Update.update.Deleted = false) ∧
    (¬ yieldsFromTar F s → (Next F s).2.upd.update = { Deleted := true } ∧
      ((Next F s).2.err = none → (Next F s).2.Update.update = { Deleted := true })) := by
  obtain ⟨h1, h2⟩ := Next_upd F s h
  have hT : yieldsFromTar F s → (Next F s).2.upd.update.Deleted = false ∧
      (Next F s).2.Update.update.Deleted = false := by
    intro ht
    obtain ⟨a, _, c⟩ := h1 ht
    exact ⟨a, by rw [Update_of_err _ c]; exact a⟩
  have hD : ¬ yieldsFromTar F s → (Next F s).2.upd.update = { Deleted := true } ∧
      ((Next F s).2.err = none → (Next F s).2.Update.update = { Deleted := true }) := by
    intro ht
    exact ⟨h2 ht, fun he => by rw [Update_of_err _ he]; exact h2 ht⟩
  refine ⟨?_, hT, hD⟩
  intro ⟨ha, hd⟩
  by_cases ht : yieldsFromTar F s
  · rw [(hT ht).2] at hd
    exact Bool.false_ne_true hd
  · cases he : (Next F s).2.err with
    | none =>
      rw [(hD ht).2 he] at ha
      exact Bool.false_ne_true ha
    | some e =>
      unfold Sync.Update at ha
      rw [he] at ha
      exact Bool.false_ne_true ha

/-- C17: the deletion loop passes over the root path `"."` and over a path whose lstat
reports not-exists.  For such a path at the head of the queue the loop goes on with the
rest of the queue: nothing is removed and nothing is yielded for it, no error is
recorded, the destination, the update and the held base directory stay as they are, and
the only call made is the lstat of the path (none for `"."`). -/
theorem deleteLoop_skips (F : Fs σ) (path : String) (rest : List String) (s : Sync σ)
    (h : path = "." ∨ lstatSkips (F.lstatOrStat s.fs path) = true) :
    deleteLoop F (path :: rest) s =
      deleteLoop F rest { s with
        log := s.log ++ (if path = "." then [] else [F.lstatCall path]),
        deletePaths := some rest } := by
  conv_lhs => rw [deleteLoop]
  by_cases hp : path = "."
  · simp [hp, Sync.popDelete]
  · have hs : lstatSkips (F.lstatOrStat s.fs path) = true := h.resolve_left hp
    simp [hp, LstatOrStat, hs, Sync.popDelete, Sync.logCall]

/-- C19: a tar entry whose typeflag is none of regular file, directory, symlink and hard
link is fatal.  The iteration of the tar loop that reads it returns false with the error
"unexpected file type in tar: <path>: <typeflag>" recorded, having made no filesystem
call; so does the call of `Next` that finds it first in the reader, and every later call
of `Next` returns false and leaves the state as it is. -/
theorem unknown_typeflag_is_fatal (F : Fs σ) (ent : TarEntry)
    (hflag : ent.hdr.typeflag ≠ TypeReg ∧ ent.hdr.typeflag ≠ TypeDir ∧
      ent.hdr.typeflag ≠ TypeSymlink ∧ ent.hdr.typeflag ≠ TypeLink) :
    (∀ (rest : List TarEntry) (s : Sync σ),
      tarLoop F (ent :: rest) s =
        (some false, (s.beginEntry ent rest).setErr (some (.plain
          ("unexpected file type in tar: " ++ normalizePath ent.hdr.name ++ ": " ++
            toString ent.hdr.typeflag))))) ∧
    (∀ (rest : List TarEntry) (s : Sync σ), s.err = none → (ensurePathMap F s).1 = none →
      s.tarReader.entries = ent :: rest →
      Next F s =
        (false, ((ensurePathMap F s).2.beginEntry ent rest).setErr (some (.plain
          ("unexpected file type in tar: " ++ normalizePath ent.hdr.name ++ ": " ++
            toString ent.hdr.typeflag)))) ∧
      (Next F s).2.fs = s.fs ∧
      (∀ c ∈ newCalls s (Next F s).2, c.isFs = true → c = .walk) ∧
      Next F (Next F s).2 = (false, (Next F s).2)) := by
  obtain ⟨h1, h2, h3, h4⟩ := hflag
  have hloop : ∀ (rest : List TarEntry) (s : Sync σ),
      tarLoop F (ent :: rest) s =
        (some false, (s.beginEntry ent rest).setErr (some (.plain
          ("unexpected file type in tar: " ++ normalizePath ent.hdr.name ++ ": " ++
            toString ent.hdr.typeflag)))) := by
    intro rest s
    unfold tarLoop
    simp [dispatch, h1, h2, h3, h4]
  refine ⟨hloop, ?_⟩
  intro rest s herr hpm hent
  have htr : (ensurePathMap F s).2.tarReader = s.tarReader := by
    unfold ensurePathMap
    split
    · rfl
    · simp only
      split
      · unfold walkFs; split <;> rfl
      · unfold walkFs; split <;> rfl
  have hfs : (ensurePathMap F s).2.fs = s.fs := by
    unfold ensurePathMap
    split
    · rfl
    · simp only
      split
      · unfold walkFs; split <;> rfl
      · unfold walkFs; split <;> rfl
  have hN : Next F s =
      (false, ((ensurePathMap F s).2.beginEntry ent rest).setErr (some (.plain
        ("unexpected file type in tar: " ++ normalizePath ent.hdr.name ++ ": " ++
          toString ent.hdr.typeflag)))) := by
    unfold Next
    simp only [herr, Option.isSome_none, Bool.false_eq_true, if_false, hpm, htr, hent, hloop]
  refine ⟨hN, ?_, ?_, ?_⟩
  · rw [hN]
    exact hfs
  · rw [hN]
    intro c hc hfsc
    have hlog : ∃ l, (ensurePathMap F s).2.log = s.log ++ l ∧ ∀ c ∈ l, c = Call.walk := by
      unfold ensurePathMap
      split
      · exact ⟨[], by simp, by simp⟩
      · simp only
        split
        · unfold walkFs; split <;> exact ⟨[.walk], rfl, by simp⟩
        · unfold walkFs; split <;> exact ⟨[.walk], rfl, by simp⟩
    obtain ⟨l, hl, hw⟩ := hlog
    simp only [newCalls, Sync.setErr, Sync.beginEntry, hl, List.append_assoc,
      List.drop_left, List.mem_append, List.mem_singleton] at hc
    rcases hc with hc | hc
    · exact hw c hc
    · subst hc
      simp [Call.isFs] at hfsc
  · rw [hN]
    unfold Next
    simp [Sync.setErr]

/-- C18 (amended): a symlink entry with symlink syncing off, or a hard-link entry with
hard-link syncing off, is not reconciled, and its path is not taken out of the inventory
either.  The iteration of the tar loop that reads it goes on with the next entry having
changed neither the destination nor the inventory, on every filesystem.  So the path is
left to the deletion phase: after a run with a nil error on the reference destination
(tidy, the reconciled entries of the tar no hard links), the path of the skipped entry is
not on the destination, unless a reconciled entry of the tar has the same path. -/
theorem skipped_entry_left_to_deletion (fs : RefFs) (tar : List TarEntry) (fail : Option Error)
    (opts : List Opt) (fuel : Nat) (u : List PathUpdate) (s' : Sync RefFs) (ent : TarEntry)
    (htidy : RefFs.Tidy fs)
    (hsync : ∀ e ∈ tar, AlwaysSynced (resolveOptions opts) e → e.hdr.typeflag ≠ TypeLink)
    (hoff : (ent.hdr.typeflag = TypeSymlink ∧ (resolveOptions opts).withSymlinks = false) ∨
      (ent.hdr.typeflag = TypeLink ∧ (resolveOptions opts).withHardLinks = false))
    (hother : ∀ e ∈ tar, AlwaysSynced (resolveOptions opts) e →
      keyOf (normalizePath e.hdr.name) ≠ keyOf (normalizePath ent.hdr.name))
    (hroot : keyOf (normalizePath ent.hdr.name) ≠ [])
    (hrun : Run RefFs.asFs fuel (New RefFs.asFs fs ⟨tar, fail⟩ opts) = some (u, none, s')) :
    (∀ (τ : Type) (F : Fs τ) (rest : List TarEntry) (s : Sync τ), s.opts = resolveOptions opts →
      tarLoop F (ent :: rest) s = tarLoop F rest (s.beginEntry ent rest)) ∧
    s'.fs.lstat (normalizePath ent.hdr.name) = .error .notExist := by
  have hSR : TypeSymlink ≠ TypeReg := by decide
  have hSD : TypeSymlink ≠ TypeDir := by decide
  have hLR : TypeLink ≠ TypeReg := by decide
  have hLD : TypeLink ≠ TypeDir := by decide
  have hLS : TypeLink ≠ TypeSymlink := by decide
  constructor
  · intro τ F rest s ho
    have hd : dispatch F ent (s.beginEntry ent rest) = (.skipped, s.beginEntry ent rest) := by
      have ho' : (s.beginEntry ent rest).opts = resolveOptions opts := ho
      unfold dispatch
      rcases hoff with ⟨h, hb⟩ | ⟨h, hb⟩
      · simp [h, hSR, hSD, ho', hb]
      · simp [h, hLR, hLD, hLS, ho', hb]
    conv_lhs => rw [tarLoop]
    simp only [hd]
  · obtain ⟨_, _, hk⟩ := only_synced_after_run fs tar fail opts fuel u s' htidy hsync hrun
    have hnone : s'.fs.ino (keyOf (normalizePath ent.hdr.name)) = none := by
      by_contra hne
      rcases hk _ hne with h | ⟨e, he, hek⟩
      · exact hroot h
      · obtain ⟨hm, ha⟩ := List.mem_filter.mp he
        exact hother e hm (by simpa using ha) hek
    unfold RefFs.lstat
    rw [hnone]

/-! ## The order of the deletion queue -/

theorem strLt_irrefl (a : List Char) : strLt a a = false := by
  induction a with
  | nil => rfl
  | cons c cs ih => simp [strLt, ih]

theorem strLt_trans : ∀ (a b c : List Char), strLt a b = true → strLt b c = true →
    strLt a c = true := by
  intro a
  induction a with
  | nil =>
    intro b c h1 h2
    cases b with
    | nil => simp [strLt] at h1
    | cons y ys =>
      cases c with
      | nil => simp [strLt] at h2
      | cons z zs => rfl
  | cons x xs ih =>
    intro b c h1 h2
    cases b with
    | nil => simp [strLt] at h1
    | cons y ys =>
      cases c with
      | nil => simp [strLt] at h2
      | cons z zs =>
        simp only [strLt] at h1 h2 ⊢
        by_cases hxy : x.toNat < y.toNat
        · by_cases hyz : y.toNat < z.toNat
          · have : x.toNat < z.toNat := lt_trans hxy hyz
            simp [this]
          · by_cases hzy : z.toNat < y.toNat
            · simp [hyz, hzy] at h2
            · have : x.toNat < z.toNat := by omega
              simp [this]
        · by_cases hyx : y.toNat < x.toNat
          · simp [hxy, hyx] at h1
          · simp only [hxy, hyx, if_false] at h1
            by_cases hyz : y.toNat < z.toNat
            · have : x.toNat < z.toNat := by omega
              simp [this]
            · by_cases hzy : z.toNat < y.toNat
              · simp [hyz, hzy] at h2
              · simp only [hyz, hzy, if_false] at h2
                have e1 : ¬ x.toNat < z.toNat := by omega
                have e2 : ¬ z.toNat < x.toNat := by omega
                simp only [e1, e2, if_false]
                exact ih ys zs h1 h2

theorem char_eq_of_toNat (a b : Char) (h : a.toNat = b.toNat) : a = b := by
  apply Char.ext
  apply UInt32.ext
  exact h

theorem strLt_total : ∀ (a b : List Char), strLt a b = false → a ≠ b → strLt b a = true := by
  intro a
  induction a with
  | nil =>
    intro b h hne
    cases b with
    | nil => exact absurd rfl hne
    | cons y ys => simp [strLt] at h
  | cons x xs ih =>
    intro b h hne
    cases b with
    | nil => rfl
    | cons y ys =>
      simp only [strLt] at h ⊢
      by_cases hxy : x.toNat < y.toNat
      · simp [hxy] at h
      · by_cases hyx : y.toNat < x.toNat
        · simp [hyx]
        · simp only [hxy, hyx, if_false] at h ⊢
          have hxe : x = y := char_eq_of_toNat x y (by omega)
          subst hxe
          exact ih ys h (fun he => hne (by rw [he]))

theorem ascending_insertSorted (k : String) (l : List String) (h : Ascending l) (hk : k ∉ l) :
    Ascending (insertSorted k l) := by
  unfold Ascending at h ⊢
  induction l with
  | nil => simp [insertSorted]
  | cons y ys ih =>
    obtain ⟨hy, hys⟩ := List.pairwise_cons.1 h
    have hky : k ≠ y := fun e => hk (by simp [e])
    have hkys : k ∉ ys := fun e => hk (List.mem_cons_of_mem _ e)
    unfold insertSorted
    split
    · rename_i hlt
      refine List.pairwise_cons.2 ⟨?_, ih hys hkys⟩
      intro z hz
      rcases mem_insertSorted hz with hz | hz
      · rw [hz]; exact hlt
      · exact hy z hz
    · rename_i hlt
      have hlt' : strLt k.data y.data = true :=
        strLt_total y.data k.data (by simpa using hlt)
          (fun e => hky (String.ext e).symm)
      refine List.pairwise_cons.2 ⟨?_, h⟩
      intro z hz
      rcases List.mem_cons.1 hz with hz | hz
      · rw [hz]; exact hlt'
      · exact strLt_trans _ _ _ hlt' (hy z hz)

/-- The sorted queue of an inventory without repetition is strictly ascending. -/
theorem ascending_sortStrings (l : List String) (h : l.Nodup) : Ascending (sortStrings l) := by
  induction l with
  | nil => simp [sortStrings, Ascending]
  | cons y ys ih =>
    obtain ⟨hy, hys⟩ := List.nodup_cons.1 h
    have e : sortStrings (y :: ys) = insertSorted y (sortStrings ys) := rfl
    rw [e]
    exact ascending_insertSorted y _ (ih hys) (fun hm => hy (mem_sortStrings hm))

theorem nodup_setInsert (m : List String) (k : String) (h : m.Nodup) : (setInsert m k).Nodup := by
  unfold setInsert
  split
  · exact h
  · rename_i hk
    exact List.Nodup.append h (List.nodup_singleton k) (by
      intro x hx hx'
      rw [List.mem_singleton.1 hx'] at hx
      exact hk hx)

theorem nodup_walk_fold (paths : List String) :
    ∀ m : List String, m.Nodup →
      (paths.foldl (fun m p => setInsert m (normalizePath p)) m).Nodup := by
  induction paths with
  | nil => exact fun m h => h
  | cons p ps ih => exact fun m h => ih _ (nodup_setInsert m _ h)

/-! ## The order of the updates of a run -/

theorem deleteEntry_removed (F : Fs σ) (path : String) (r : Except Error FileInfo) (s : Sync σ)
    (h : (deleteEntry F path r s).1 = true) :
    ∃ fs1, (F.exec (.removeAll path) fs1).1 = none ∧
      (deleteEntry F path r s).2.fs = (F.exec (.removeAll path) fs1).2 := by
  have key : ∀ s2 : Sync σ,
      (match (preserveBaseDir F (filepathDir path) s2).1 with
        | some e => (false, (preserveBaseDir F (filepathDir path) s2).2.setErr (some e))
        | none =>
          match ((preserveBaseDir F (filepathDir path) s2).2.call F (.removeAll path)).1 with
          | some e =>
            (false, ((preserveBaseDir F (filepathDir path) s2).2.call F (.removeAll path)).2.setErr
              (some (.wrap ("failed to remove: " ++ path) e)))
          | none =>
            (true, { ((preserveBaseDir F (filepathDir path) s2).2.call F (.removeAll path)).2 with
              upd := { Path := path, update := { Deleted := true } } })).1 = true →
      ∃ fs1, (F.exec (.removeAll path) fs1).1 = none ∧
      (match (preserveBaseDir F (filepathDir path) s2).1 with
        | some e => (false, (preserveBaseDir F (filepathDir path) s2).2.setErr (some e))
        | none =>
          match ((preserveBaseDir F (filepathDir path) s2).2.call F (.removeAll path)).1 with
          | some e =>
            (false, ((preserveBaseDir F (filepathDir path) s2).2.call F (.removeAll path)).2.setErr
              (some (.wrap ("failed to remove: " ++ path) e)))
          | none =>
            (true, { ((preserveBaseDir F (filepathDir path) s2).2.call F (.removeAll path)).2 with
              upd := { Path := path, update := { Deleted := true } } })).2.fs =
        (F.exec (.removeAll path) fs1).2 := by
    intro s2 h
    cases h1 : (preserveBaseDir F (filepathDir path) s2).1 with
    | some e => simp [h1] at h
    | none =>
      simp only [h1] at h ⊢
      cases h2 : ((preserveBaseDir F (filepathDir path) s2).2.call F (.removeAll path)).1 with
      | some e => simp [h2] at h
      | none =>
        simp only [h2]
        exact ⟨(preserveBaseDir F (filepathDir path) s2).2.fs, h2, rfl⟩
  cases r with
  | error e => exact key _ h
  | ok fi => exact key _ h

/-- The deletion loop returns true, with no error recorded, only for the first path of
the queue that is not `"."` and that lstat finds: the path stays at the head of the
queue, the update is its deletion, and (on a filesystem whose `RemoveAll` removes) lstat
no longer finds it. -/
theorem deleteLoop_yield (F : Fs σ)
    (hgone : ∀ (fs : σ) (p : String), (F.exec (.removeAll p) fs).1 = none →
      lstatSkips (F.lstatOrStat (F.exec (.removeAll p) fs).2 p) = true)
    (q : List String) :
    ∀ s : Sync σ, s.deletePaths = some q → (deleteLoop F q s).1 = true →
      (deleteLoop F q s).2.err = none →
      ∃ pre p rest, q = pre ++ p :: rest ∧ p ≠ "." ∧
        lstatSkips (F.lstatOrStat s.fs p) = false ∧
        (deleteLoop F q s).2.upd = deletionOf p ∧
        (deleteLoop F q s).2.deletePaths = some (p :: rest) ∧
        (deleteLoop F q s).2.tarReader = s.tarReader ∧
        (deleteLoop F q s).2.pathMap = s.pathMap ∧
        lstatSkips (F.lstatOrStat (deleteLoop F q s).2.fs p) = true := by
  induction q with
  | nil =>
    intro s _ h
    simp [deleteLoop] at h
  | cons path rest ih =>
    intro s hd h he
    unfold deleteLoop at h he ⊢
    by_cases hp : path = "."
    · simp only [hp, if_true] at h he ⊢
      obtain ⟨pre, p, r, e1, e2, e3, e4, e5, e6, e7, e8⟩ := ih (s.popDelete rest) rfl h he
      exact ⟨"." :: pre, p, r, by rw [e1]; rfl, e2, e3, e4, e5, e6, e7, e8⟩
    · simp only [hp, if_false] at h he ⊢
      by_cases hs : lstatSkips (LstatOrStat F path s).1 = true
      · simp only [hs, if_true] at h he ⊢
        obtain ⟨pre, p, r, e1, e2, e3, e4, e5, e6, e7, e8⟩ :=
          ih ((LstatOrStat F path s).2.popDelete rest) rfl h he
        exact ⟨path :: pre, p, r, by rw [e1]; rfl, e2, e3, e4, e5, e6, e7, e8⟩
      · simp only [hs, Bool.false_eq_true, if_false] at h he ⊢
        cases hl : (LstatOrStat F path s).1 with
        | error e =>
          rw [hl] at he
          exact absurd he (deleteEntry_error_err F path e _)
        | ok fi =>
          rw [hl] at h he
          obtain ⟨f1, _, f3, f4⟩ := deleteEntry_fields F path fi (LstatOrStat F path s).2
          obtain ⟨fs1, g1, g2⟩ := deleteEntry_removed F path _ _ h
          refine ⟨[], path, rest, rfl, hp, ?_, deleteEntry_true F path _ _ h, ?_, f1, f3, ?_⟩
          · have : F.lstatOrStat s.fs path = (LstatOrStat F path s).1 := rfl
            rw [this, hl]
            rfl
          · rw [f4]
            exact hd
          · rw [g2]
            exact hgone fs1 path g1

theorem ensurePathMap_fields (F : Fs σ) (s : Sync σ) :
    (ensurePathMap F s).2.fs = s.fs ∧ (ensurePathMap F s).2.tarReader = s.tarReader ∧
    (ensurePathMap F s).2.opts = s.opts ∧ (ensurePathMap F s).2.deletePaths = s.deletePaths ∧
    (ensurePathMap F s).2.err = s.err ∧
    (∀ pm, s.pathMap = some pm → (ensurePathMap F s).2.pathMap = some pm) ∧
    (s.pathMap = none → (ensurePathMap F s).1 = none →
      ∃ paths, F.walk s.fs = .ok paths ∧
        (ensurePathMap F s).2.pathMap =
          some (paths.foldl (fun m p => setInsert m (normalizePath p)) [])) := by
  unfold ensurePathMap
  cases hp : s.pathMap with
  | some pm => simp [hp]
  | none =>
    simp only
    unfold walkFs
    cases hw : F.walk s.fs with
    | error e => simp [Sync.logCall]
    | ok paths => simp [Sync.logCall, Sync.setPathMap]

/-- The tar loop keeps the phase of the run. -/
theorem tarLoop_phase (F : Fs σ) (o : Options) (tar : List TarEntry) (m dels : List String)
    (s : Sync σ) (he : s.err = none) (hp : s.pathMap ≠ none)
    (hJ : (TarPhase o tar m s ∧ dels = []) ∨ DelPhase F o tar m dels s) :
    ((tarLoop F s.tarReader.entries s).1 = some true →
      (TarPhase o tar m (tarLoop F s.tarReader.entries s).2 ∧ dels = []) ∨
        DelPhase F o tar m dels (tarLoop F s.tarReader.entries s).2) ∧
    ((tarLoop F s.tarReader.entries s).1 = none →
      DelPhase F o tar m dels (flattenPathMap (tarLoop F s.tarReader.entries s).2)) := by
  refine (fun k => ?main) (tarLoop_invariant F
    (fun t => (TarPhase o tar m t ∧ dels = []) ∨ DelPhase F o tar m dels t)
    ?hentry ?heof s.tarReader.entries s he hp rfl hJ)
  case main =>
    obtain ⟨t1, _, t3⟩ := k
    refine ⟨t1, fun h => ?_⟩
    obtain ⟨h1, _, _⟩ := t3 h
    rcases h1 with ⟨⟨pm, done, _, a2, _⟩, _⟩ | h1
    · have := flattenPathMap_deletePaths (tarLoop F s.tarReader.entries s).2
      rw [a2] at this
      simp at this
    · exact h1
  case hentry =>
    intro t ent rest _ hpm hent hJt
    obtain ⟨c1, c2, c3, c4, _⟩ := ctl_fields (ctl_dispatch F ent (t.beginEntry ent rest))
    rcases hJt with ⟨⟨pm, done, a1, a2, a3, a4, a5, a6, a7⟩, hdl⟩ | ⟨q, _, _, b3, _⟩
    · have hdone : tar = (done ++ [ent]) ++ rest := by
        rw [a3, hent]; simp
      constructor
      · intro _
        refine Or.inl ⟨⟨pm.filter (fun k => k ≠ normalizePath ent.hdr.name), done ++ [ent],
          ?_, ?_, ?_, ?_, a5.filter _, ?_, ?_⟩, hdl⟩
        · simp only [Sync.forget, c3]
          have : (t.beginEntry ent rest).pathMap = some pm := a1
          rw [this]
          rfl
        · simp only [Sync.forget, c4]
          exact a2
        · simp only [Sync.forget, c1]
          exact hdone
        · simp only [Sync.forget, c2]
          exact a4
        · intro x hx
          exact a6 x (List.mem_filter.mp hx).1
        · intro e he ha hm
          obtain ⟨hm1, hm2⟩ := List.mem_filter.mp hm
          rcases List.mem_append.1 he with he | he
          · exact a7 e he ha hm1
          · rw [List.mem_singleton.1 he] at hm2
            simp at hm2
      · intro hsk
        rw [dispatch_skipped_state F ent _ hsk]
        refine Or.inl ⟨⟨pm, done ++ [ent], a1, a2, hdone, a4, a5, a6, ?_⟩, hdl⟩
        intro e he ha
        rcases List.mem_append.1 he with he | he
        · exact a7 e he ha
        · rw [List.mem_singleton.1 he] at ha
          have ho : (t.beginEntry ent rest).opts = o := a4
          exact absurd hsk (dispatch_alwaysSynced F ent _ (by rw [ho]; exact ha))
    · rw [hent] at b3
      simp at b3
  case heof =>
    intro t _ hpm hent hJt
    obtain ⟨f1, _, _, _, _, _, f7, f8⟩ := flattenPathMap_fields (t.logCall .tarNext)
    rcases hJt with ⟨⟨pm, done, a1, a2, a3, a4, a5, a6, a7⟩, hdl⟩ | ⟨q, b1, b2, b3, b4, b5⟩
    · refine Or.inr ⟨sortStrings pm, ?_, ?_, ?_, ?_, Or.inl ?_⟩
      · unfold flattenPathMap
        have h1 : (t.logCall .tarNext).deletePaths = none := a2
        have h2 : (t.logCall .tarNext).pathMap = some pm := a1
        simp only [h1, h2, Option.getD_some]
      · rw [f8]
        exact hpm
      · rw [f7]
        exact hent
      · intro x hx
        have hx' := mem_sortStrings hx
        refine ⟨a6 x hx', ?_⟩
        intro e he ha hn
        rw [hent, List.append_nil] at a3
        rw [a3] at he
        exact a7 e he ha (by rw [hn]; exact hx')
      · rw [hdl]
        exact ascending_sortStrings pm a5
    · have hfl : flattenPathMap (t.logCall .tarNext) = t.logCall .tarNext := by
        unfold flattenPathMap
        have h1 : (t.logCall .tarNext).deletePaths = some q := b1
        simp only [h1]
      rw [hfl]
      exact Or.inr ⟨q, b1, b2, b3, b4, b5⟩

theorem ensurePathMap_some (F : Fs σ) (s : Sync σ) (pm : List String)
    (h : s.pathMap = some pm) : ensurePathMap F s = (none, s) := by
  unfold ensurePathMap
  simp [h]

/-- One call to `Next` that yields an update, with no error recorded, keeps the phase of
the run. -/
theorem Next_phase (F : Fs σ)
    (hgone : ∀ (fs : σ) (p : String), (F.exec (.removeAll p) fs).1 = none →
      lstatSkips (F.lstatOrStat (F.exec (.removeAll p) fs).2 p) = true)
    (o : Options) (tar : List TarEntry) (paths : List String) (fs0 : σ)
    (hw : F.walk fs0 = .ok paths) (s : Sync σ) (us : List PathUpdate)
    (hR : RunPhase F o tar (paths.foldl (fun m p => setInsert m (normalizePath p)) []) fs0 s us)
    (h : (Next F s).1 = true) (he : (Next F s).2.err = none) :
    RunPhase F o tar (paths.foldl (fun m p => setInsert m (normalizePath p)) []) fs0
      (Next F s).2 (us ++ [(Next F s).2.Update]) := by
  generalize hm : paths.foldl (fun m p => setInsert m (normalizePath p)) [] = m at hR ⊢
  obtain ⟨he0, hpm, hcase⟩ := Next_true F s h
  obtain ⟨e1, e2, e3, e4, e5, _, e7⟩ := ensurePathMap_fields F s
  rw [Update_of_err _ he]
  have hJ : (ensurePathMap F s).2.pathMap ≠ none ∧
      ∃ tu dels, us = tu ++ dels.map deletionOf ∧ TarUpdates o tar tu ∧
        (∀ d ∈ dels, Unclaimed o tar m d) ∧
        ((TarPhase o tar m (ensurePathMap F s).2 ∧ dels = []) ∨
          DelPhase F o tar m dels (ensurePathMap F s).2) := by
    rcases hR with ⟨p1, p2, p3, p4, p5, p6⟩ | ⟨tu, dels, r1, r2, r3, r4⟩
    · obtain ⟨paths', w1, w2⟩ := e7 p1 hpm
      rw [p3, hw] at w1
      simp only [Except.ok.injEq] at w1
      subst w1
      rw [hm] at w2
      refine ⟨by rw [w2]; simp, [], [], by simp [p6], fun x hx => by simp at hx,
        fun x hx => by simp at hx, Or.inl ⟨⟨m, [], w2, by rw [e4]; exact p2, ?_, by rw [e3]; exact p5,
          ?_, fun x hx => hx, fun x hx => by simp at hx⟩, rfl⟩⟩
      · rw [e2, p4]; rfl
      · rw [← hm]
        exact nodup_walk_fold paths [] List.nodup_nil
    · have hsome : ∃ pm, s.pathMap = some pm := by
        rcases r4 with ⟨⟨pm, _, a1, _⟩, _⟩ | ⟨_, _, b2, _⟩
        · exact ⟨pm, a1⟩
        · exact Option.ne_none_iff_exists'.mp b2
      obtain ⟨pm, hpmm⟩ := hsome
      rw [ensurePathMap_some F s pm hpmm]
      exact ⟨by simp [hpmm], tu, dels, r1, r2, r3, r4⟩
  obtain ⟨hp', tu, dels, r1, r2, r3, r4⟩ := hJ
  obtain ⟨T1, T2⟩ := tarLoop_phase F o tar m dels (ensurePathMap F s).2 (by rw [e5]; exact he0)
    hp' r4
  rcases hcase with ⟨ht, hn⟩ | ⟨ht, hn⟩
  · -- an update from the tar loop
    have ht' : (tarLoop F (ensurePathMap F s).2.tarReader.entries (ensurePathMap F s).2).1 =
        some true := ht
    rw [hn]
    obtain ⟨u1, _, _, ent, hent, ha, hpath⟩ := tarLoop_true F _ _ ht'
    rcases r4 with ⟨⟨pm, done, a1, a2, a3, a4, _⟩, hdl⟩ | ⟨q, _, _, b3, _⟩
    · subst hdl
      refine Or.inr ⟨tu ++ [(tarLoop F (ensurePathMap F s).2.tarReader.entries
        (ensurePathMap F s).2).2.upd], [], by simp [r1], ?_, fun x hx => by simp at hx,
        T1 ht'⟩
      intro x hx
      rcases List.mem_append.1 hx with hx | hx
      · exact r2 x hx
      · rw [List.mem_singleton.1 hx]
        refine ⟨u1, ent, ?_, by rw [← a4]; exact ha, hpath⟩
        rw [a3]
        exact List.mem_append_right _ hent
    · rw [b3] at hent
      simp at hent
  · -- an update from the deletion loop
    obtain ⟨q, d1, d2, d3, d4, d5⟩ := T2 ht
    have hq : (flattenPathMap (tarLoop F (ensurePathMap F s).2.tarReader.entries
        (ensurePathMap F s).2).2).deletePaths.getD [] = q := by rw [d1]; rfl
    rw [hq] at hn
    rw [hn] at h he ⊢
    obtain ⟨pre, p, rest, y1, y2, y3, y4, y5, y6, y7, y8⟩ := deleteLoop_yield F hgone q _ d1 h he
    have hpq : p ∈ q := by rw [y1]; simp
    have hsub : ∀ x ∈ p :: rest, x ∈ q := by
      intro x hx
      rw [y1]
      exact List.mem_append_right _ hx
    have hasc : Ascending (dels ++ p :: rest) := by
      rcases d5 with d5 | ⟨d, p0, rest0, k1, k2, k3, k4⟩
      · unfold Ascending at d5 ⊢
        rw [y1] at d5
        exact List.Pairwise.sublist
          (List.Sublist.append (List.Sublist.refl dels) (List.sublist_append_right pre (p :: rest)))
          d5
      · cases pre with
        | nil =>
          rw [k2] at y1
          simp only [List.nil_append, List.cons.injEq] at y1
          rw [y1.1, y3] at k4
          exact absurd k4 (by simp)
        | cons x pre' =>
          rw [k2] at y1
          simp only [List.cons_append, List.cons.injEq] at y1
          obtain ⟨hx, hr⟩ := y1
          unfold Ascending at k3 ⊢
          rw [hr] at k3
          rw [k1, List.append_assoc]
          exact List.Pairwise.sublist
            (List.Sublist.append (List.Sublist.refl d)
              (List.Sublist.cons₂ p0 (List.sublist_append_right pre' (p :: rest)))) k3
    refine Or.inr ⟨tu, dels ++ [p], ?_, r2, ?_, Or.inr ⟨p :: rest, y5, ?_, ?_,
      fun x hx => d4 x (hsub x hx), Or.inr ⟨dels, p, rest, rfl, rfl, hasc, y8⟩⟩⟩
    · rw [r1, y4]
      simp
    · intro x hx
      rcases List.mem_append.1 hx with hx | hx
      · exact r3 x hx
      · rw [List.mem_singleton.1 hx]
        exact d4 p hpq
    · rw [y7]
      exact d2
    · rw [y6]
      exact d3

/-- The loop of `Run` keeps a relation between the state and the updates yielded so far
that each call of `Next` keeps. -/
theorem runLoop_phase (F : Fs σ) (R : Sync σ → List PathUpdate → Prop)
    (hstep : ∀ s us, R s us → (Next F s).1 = true → (Next F s).2.err = none →
      R (Next F s).2 (us ++ [(Next F s).2.Update]))
    (fuel : Nat) :
    ∀ (s : Sync σ) (us u' : List PathUpdate) (s' : Sync σ), (s.err = none → R s us) →
      runLoop F fuel s us = some (u', s') → s'.err = none → ∃ s1, R s1 u' := by
  induction fuel with
  | zero =>
    intro s us u' s' _ h
    simp [runLoop] at h
  | succ n ih =>
    intro s us u' s' hJ h herr
    unfold runLoop at h
    cases he : s.err with
    | some e =>
      have hN : Next F s = (false, s) := by
        unfold Next
        simp [he]
      rw [hN] at h
      simp only [Option.some.injEq, Prod.mk.injEq] at h
      rw [← h.2, he] at herr
      simp at herr
    | none =>
      have n1 := hstep s us (hJ he)
      generalize Next F s = r at h n1
      obtain ⟨b, s1⟩ := r
      cases b with
      | true =>
        simp only at h
        exact ih s1 _ u' s' (fun h1 => n1 rfl h1) h herr
      | false =>
        simp only [Option.some.injEq, Prod.mk.injEq] at h
        rw [← h.1]
        exact ⟨s, hJ he⟩

/-- A run that ends with a nil error has walked the destination. -/
theorem Run_walk_ok (F : Fs σ) (fuel : Nat) (s : Sync σ) (u : List PathUpdate) (s' : Sync σ)
    (hp : s.pathMap = none) (h : Run F fuel s = some (u, none, s')) :
    ∃ paths, F.walk s.fs = .ok paths := by
  cases hw : F.walk s.fs with
  | ok paths => exact ⟨paths, rfl⟩
  | error e =>
    exfalso
    have hN : (Next F s).1 = false ∧ (Next F s).2.err ≠ none := by
      unfold Next
      cases he : s.err with
      | some e' => simp [he]
      | none =>
        simp only [Option.isSome_none, Bool.false_eq_true, if_false]
        have : (ensurePathMap F s).1 = some (.wrap "failed to walk disk" e) := by
          unfold ensurePathMap walkFs
          simp [hp, hw]
        simp [this, Sync.setErr]
    unfold Run at h
    cases fuel with
    | zero => simp [runLoop] at h
    | succ n =>
      unfold runLoop at h
      obtain ⟨n1, n2⟩ := hN
      generalize Next F s = r at h n1 n2
      obtain ⟨b, s1⟩ := r
      simp only at n1 n2
      subst n1
      simp only [Sync.Err, Option.some.injEq, Prod.mk.injEq] at h
      exact n2 h.2.1

/-- C16: the order of the updates of a run that ends with a nil error, on a filesystem
whose `RemoveAll` removes (after a successful `RemoveAll` of a path, lstat reports
not-exists for it).  The run has walked the destination at its first `Next`; its updates
are the updates produced from tar entries (none marked deleted, each for the path of a
reconciled entry) followed by the deletions; the deleted paths are strictly ascending in
the byte-wise order; and each deleted path is in the inventory that the walk built and is
not the normalized path of any reconciled tar entry. -/
theorem deletions_follow_in_order (F : Fs σ) (fs : σ) (tar : List TarEntry)
    (fail : Option Error) (opts : List Opt) (fuel : Nat) (u : List PathUpdate) (s' : Sync σ)
    (hgone : ∀ (fs : σ) (p : String), (F.exec (.removeAll p) fs).1 = none →
      lstatSkips (F.lstatOrStat (F.exec (.removeAll p) fs).2 p) = true)
    (hrun : Run F fuel (New F fs ⟨tar, fail⟩ opts) = some (u, none, s')) :
    ∃ (m : List String) (tarUpds : List PathUpdate) (dels : List String),
      (walkFs F (New F fs ⟨tar, fail⟩ opts)).1 = .ok m ∧
      u = tarUpds ++ dels.map deletionOf ∧
      (∀ x ∈ tarUpds, x.update.Deleted = false ∧
        ∃ ent ∈ tar, AlwaysSynced (resolveOptions opts) ent ∧
          x.Path = normalizePath ent.hdr.name) ∧
      Ascending dels ∧
      ∀ p ∈ dels, p ∈ m ∧
        ∀ ent ∈ tar, AlwaysSynced (resolveOptions opts) ent → normalizePath ent.hdr.name ≠ p := by
  obtain ⟨n1, n2, n3, n4, n5, _, _⟩ := New_fields F fs ⟨tar, fail⟩ opts
  obtain ⟨paths, hw⟩ := Run_walk_ok F fuel _ u s' n4 hrun
  rw [n1] at hw
  have hwalk : (walkFs F (New F fs ⟨tar, fail⟩ opts)).1 =
      .ok (paths.foldl (fun m p => setInsert m (normalizePath p)) []) := by
    unfold walkFs
    rw [n1, hw]
  have hloop : ∃ s1, RunPhase F (resolveOptions opts) tar
      (paths.foldl (fun m p => setInsert m (normalizePath p)) []) fs s1 u := by
    unfold Run at hrun
    cases hr : runLoop F fuel (New F fs ⟨tar, fail⟩ opts) [] with
    | none => simp [hr] at hrun
    | some r =>
      obtain ⟨u1, s1⟩ := r
      simp only [hr, Option.some.injEq, Prod.mk.injEq] at hrun
      obtain ⟨h1, h2, _⟩ := hrun
      subst h1
      exact runLoop_phase F _
        (fun s us hR h he => Next_phase F hgone (resolveOptions opts) tar paths fs hw s us hR h he)
        fuel _ [] u1 s1 (fun _ => Or.inl ⟨n4, n5, n1, by rw [n2], n3, rfl⟩) hr h2
  obtain ⟨s1, hR⟩ := hloop
  refine ⟨paths.foldl (fun m p => setInsert m (normalizePath p)) [], ?_⟩
  rcases hR with ⟨_, _, _, _, _, p6⟩ | ⟨tu, dels, r1, r2, r3, r4⟩
  · exact ⟨[], [], hwalk, by simp [p6], fun x hx => by simp at hx, by simp [Ascending],
      fun x hx => by simp at hx⟩
  · refine ⟨tu, dels, hwalk, r1, r2, ?_, r3⟩
    rcases r4 with ⟨_, hdl⟩ | ⟨q, _, _, _, _, d5⟩
    · rw [hdl]
      simp [Ascending]
    · rcases d5 with d5 | ⟨d, p0, rest0, k1, _, k3, _⟩
      · unfold Ascending at d5 ⊢
        exact List.Pairwise.sublist (List.sublist_append_left dels q) d5
      · unfold Ascending at k3 ⊢
        rw [k1]
        exact List.Pairwise.sublist
          (List.Sublist.append (List.Sublist.refl d)
            (List.Sublist.cons₂ p0 (List.nil_sublist rest0))) k3
/-! ## The summary -/

theorem wrapInt64_succ (x : Int) (h1 : -(2 : Int) ^ 63 ≤ x) (h2 : x < 2 ^ 63 - 1) :
    wrapInt64 (x + 1) = x + 1 := by
  unfold wrapInt64
  norm_num at h1 h2 ⊢
  omega

/-- The counters after adding a list of updates to a summary, as long as no counter
leaves the range of an `int`. -/
theorem summary_fold (us : List Update) :
    ∀ s : Summary, 0 ≤ s.Added → 0 ≤ s.Updated → 0 ≤ s.Deleted →
      s.Added + s.Updated + s.Deleted + us.length < 2 ^ 63 →
      (us.foldl Summary.Add s).Added = s.Added + (us.filter (fun u => u.Added)).length ∧
      (us.foldl Summary.Add s).Deleted =
        s.Deleted + (us.filter (fun u => !u.Added && u.Deleted)).length ∧
      (us.foldl Summary.Add s).Updated =
        s.Updated + (us.filter (fun u => !u.Added && !u.Deleted)).length := by
  induction us with
  | nil => intro s _ _ _ _; simp
  | cons u rest ih =>
    intro s ha hu hd hlen
    simp only [List.length_cons, Nat.cast_add, Nat.cast_one] at hlen
    simp only [List.foldl_cons]
    by_cases h1 : u.Added = true
    · have hA : s.Add u = { s with Added := s.Added + 1 } := by
        unfold Summary.Add
        rw [if_pos h1, wrapInt64_succ _ (by norm_num; omega) (by norm_num at hlen ⊢; omega)]
      rw [hA]
      obtain ⟨i1, i2, i3⟩ := ih { s with Added := s.Added + 1 } (by simp; omega) hu hd
        (by simp only; omega)
      simp only at i1 i2 i3
      rw [i1, i2, i3]
      simp [h1]
      omega
    · have h1' : u.Added = false := by simpa using h1
      by_cases h2 : u.Deleted = true
      · have hA : s.Add u = { s with Deleted := s.Deleted + 1 } := by
          unfold Summary.Add
          rw [if_neg h1, if_pos h2,
            wrapInt64_succ _ (by norm_num; omega) (by norm_num at hlen ⊢; omega)]
        rw [hA]
        obtain ⟨i1, i2, i3⟩ := ih { s with Deleted := s.Deleted + 1 } ha hu (by simp; omega)
          (by simp only; omega)
        simp only at i1 i2 i3
        rw [i1, i2, i3]
        simp [h1', h2]
        omega
      · have h2' : u.Deleted = false := by simpa using h2
        have hA : s.Add u = { s with Updated := s.Updated + 1 } := by
          unfold Summary.Add
          rw [if_neg h1, if_neg h2,
            wrapInt64_succ _ (by norm_num; omega) (by norm_num at hlen ⊢; omega)]
        rw [hA]
        obtain ⟨i1, i2, i3⟩ := ih { s with Updated := s.Updated + 1 } ha (by simp; omega) hd
          (by simp only; omega)
        simp only at i1 i2 i3
        rw [i1, i2, i3]
        simp [h1', h2']
        omega

theorem filter_three (us : List Update) :
    (us.filter (fun u => u.Added)).length + (us.filter (fun u => !u.Added && u.Deleted)).length +
      (us.filter (fun u => !u.Added && !u.Deleted)).length = us.length := by
  induction us with
  | nil => rfl
  | cons u rest ih =>
    simp only [List.filter_cons, List.length_cons]
    cases u.Added <;> cases u.Deleted <;> simp <;> omega

/-- C21: `Summary.Add` adds one to exactly one counter and leaves the other two alone:
to `Added` when the update is marked added, otherwise to `Deleted` when it is marked
deleted, otherwise to `Updated`; the addition is the `++` of a Go `int`, which is the
successor for every counter below the largest `int`.  Hence, after adding every update
of a list (of a length an `int` can hold) to a zero summary, each counter is the number
of updates of its kind and `Added + Updated + Deleted` is the length of the list. -/
theorem summary_add_counts (us : List Update) (hlen : (us.length : Int) < 2 ^ 63) :
    (∀ (s : Summary) (upd : Update),
      (upd.Added = true → s.Add upd = { s with Added := wrapInt64 (s.Added + 1) }) ∧
      (upd.Added = false → upd.Deleted = true →
        s.Add upd = { s with Deleted := wrapInt64 (s.Deleted + 1) }) ∧
      (upd.Added = false → upd.Deleted = false →
        s.Add upd = { s with Updated := wrapInt64 (s.Updated + 1) })) ∧
    (∀ x : Int, -(2 : Int) ^ 63 ≤ x → x < 2 ^ 63 - 1 → wrapInt64 (x + 1) = x + 1) ∧
    (us.foldl Summary.Add {}).Added = (us.filter (fun u => u.Added)).length ∧
    (us.foldl Summary.Add {}).Deleted = (us.filter (fun u => !u.Added && u.Deleted)).length ∧
    (us.foldl Summary.Add {}).Updated = (us.filter (fun u => !u.Added && !u.Deleted)).length ∧
    (us.foldl Summary.Add {}).Added + (us.foldl Summary.Add {}).Updated +
      (us.foldl Summary.Add {}).Deleted = us.length := by
  refine ⟨fun s upd => ⟨fun h => ?_, fun h h' => ?_, fun h h' => ?_⟩,
    fun x a b => wrapInt64_succ x a b, ?_⟩
  · unfold Summary.Add
    rw [if_pos h]
  · unfold Summary.Add
    rw [if_neg (by simp [h]), if_pos h']
  · unfold Summary.Add
    rw [if_neg (by simp [h]), if_neg (by simp [h'])]
  · obtain ⟨i1, i2, i3⟩ := summary_fold us {} (le_refl _) (le_refl _) (le_refl _)
      (by simpa using hlen)
    have h3 := filter_three us
    simp only [zero_add] at i1 i2 i3
    refine ⟨i1, i2, i3, ?_⟩
    rw [i1, i2, i3]
    omega

/-! ## Spellings of a path -/

/-- On elements that are all kept, none of them `..`, the element loop of
`filepath.Clean` changes nothing, rooted or not. -/
theorem cleanSegs_plain (rooted : Bool) (L : List (List Char))
    (h : ∀ seg ∈ L, IsSeg seg ∧ seg ≠ ['.', '.']) :
    ∀ out, cleanSegs rooted out L = L.reverse ++ out := by
  induction L with
  | nil => intro out; rfl
  | cons seg rest ih =>
    intro out
    obtain ⟨⟨s1, s2, _⟩, s3⟩ := h seg (List.mem_cons_self _ _)
    unfold cleanSegs
    rw [if_neg (by simp [s1, s2]), if_neg s3,
      ih (fun x hx => h x (List.mem_cons_of_mem _ hx))]
    simp

/-- A clean list of elements whose first element is not `..` holds no `..`. -/
theorem goodRev_no_dotdot : ∀ (r : List (List Char)), GoodRev r →
    r.getLast? ≠ some ['.', '.'] → ∀ s ∈ r, s ≠ ['.', '.'] := by
  intro r
  induction r with
  | nil => intro _ _ s hs; simp at hs
  | cons top below ih =>
    intro hg hl s hs
    cases below with
    | nil =>
      simp only [List.mem_singleton] at hs
      subst hs
      simpa using hl
    | cons b bs =>
      have hl' : (b :: bs).getLast? ≠ some ['.', '.'] := by
        simpa [List.getLast?_cons_cons] using hl
      have hb := ih hg.2.2 hl'
      rcases List.mem_cons.1 hs with h | h
      · subst h
        intro htop
        exact hb b (List.mem_cons_self _ _) (hg.2.1 htop b (List.mem_cons_self _ _))
      · exact hb s h

/-- A clean relative path other than `.` whose first element is not `..` is a list of
kept elements, none of them `..`, joined by `/`. -/
theorem clean_relative_shape (p : String) (hclean : filepathClean p = p)
    (hrel : p.data.head? ≠ some '/') (hdot : p ≠ ".")
    (hup : (splitSlash p.data).head? ≠ some ['.', '.']) :
    ∃ segs, segs ≠ [] ∧ (∀ seg ∈ segs, IsSeg seg ∧ seg ≠ ['.', '.']) ∧ p.data = joinSlash segs := by
  have hc : cleanChars p.data = p.data := by
    have := congrArg String.data hclean
    simpa [filepathClean] using this
  obtain ⟨segs, hg, hsh⟩ := cleanChars_shape p.data
  have hseg : ∀ seg ∈ segs, IsSeg seg := fun seg hm => goodRev_mem hg seg (by simpa using hm)
  rcases hsh with ⟨h, hn⟩ | ⟨h, _⟩ | h
  · rw [hc] at h
    refine ⟨segs, hn, fun seg hm => ⟨hseg seg hm, ?_⟩, h⟩
    rw [h, splitSlash_joinSlash segs hn (fun s hs => (hseg s hs).2.2)] at hup
    have hlast : segs.reverse.getLast? ≠ some ['.', '.'] := by
      rw [List.getLast?_reverse]
      exact hup
    exact goodRev_no_dotdot _ hg hlast seg (by simpa using hm)
  · rw [hc] at h
    exact absurd (String.ext h) hdot
  · rw [hc] at h
    rw [h] at hrel
    simp at hrel

theorem normalizePath_of_rel (x : String) (segs : List (List Char)) (c : Char)
    (cs : List Char) (hx : x.data = c :: cs) (hc : c ≠ '/')
    (hs : cleanSegs false [] (splitSlash x.data) = segs.reverse)
    (hn : segs ≠ []) (hseg : ∀ seg ∈ segs, IsSeg seg) :
    normalizePath x = String.mk (joinSlash segs) := by
  have hne := joinSlash_ne_nil segs hn hseg
  unfold normalizePath
  have hcc : cleanChars x.data = joinSlash segs := by
    unfold cleanChars
    rw [hx] at hs ⊢
    simp only [hc, decide_False, hs, List.reverse_reverse, Bool.false_eq_true, if_false, hne]
  rw [hcc]
  cases hj : joinSlash segs with
  | nil => exact absurd hj hne
  | cons d ds =>
    simp only
    rw [if_neg (joinSlash_head segs d ds hseg hj)]

theorem normalizePath_of_abs (x : String) (segs : List (List Char)) (cs : List Char)
    (hx : x.data = '/' :: cs)
    (hs : cleanSegs true [] (splitSlash x.data) = segs.reverse) :
    normalizePath x = String.mk (joinSlash segs) := by
  unfold normalizePath
  have hcc : cleanChars x.data = '/' :: joinSlash segs := by
    unfold cleanChars
    rw [hx] at hs ⊢
    simp only [decide_True, hs, List.reverse_reverse, if_true]
  rw [hcc]
  simp

/-- C23: the accepted spellings of a tar name.  For a clean relative path `p` (one that
`filepath.Clean` leaves as it is and that does not start with a separator) other than
`.` whose first element is not `..`, `normalizePath` maps `./p`, `/p`, `p` and `p/` to
`p`; so the update of a tar entry named in any of these ways has the path `p`. -/
theorem normalizePath_spellings (p : String) (hclean : filepathClean p = p)
    (hrel : p.data.head? ≠ some '/') (hdot : p ≠ ".")
    (hup : (splitSlash p.data).head? ≠ some ['.', '.']) :
    normalizePath ("./" ++ p) = p ∧ normalizePath ("/" ++ p) = p ∧ normalizePath p = p ∧
      normalizePath (p ++ "/") = p ∧
      ∀ (τ : Type) (s : Sync τ) (ent : TarEntry) (rest : List TarEntry),
        ent.hdr.name ∈ ["./" ++ p, "/" ++ p, p, p ++ "/"] →
        (s.beginEntry ent rest).upd.Path = p := by
  obtain ⟨segs, hn, hall, hp⟩ := clean_relative_shape p hclean hrel hdot hup
  have hseg : ∀ seg ∈ segs, IsSeg seg := fun seg hm => (hall seg hm).1
  have hns : ∀ seg ∈ segs, '/' ∉ seg := fun seg hm => (hseg seg hm).2.2
  have hne := joinSlash_ne_nil segs hn hseg
  have hpm : String.mk (joinSlash segs) = p := by rw [← hp]
  have hsplit : splitSlash (joinSlash segs) = segs := splitSlash_joinSlash segs hn hns
  have h1 : normalizePath ("./" ++ p) = p := by
    rw [← hpm]
    refine normalizePath_of_rel _ segs '.' ('/' :: joinSlash segs) (by simp [String.data_append])
      (by decide) ?_ hn hseg
    have hd : ("./" ++ String.mk (joinSlash segs)).data = ['.'] ++ '/' :: joinSlash segs := by
      simp [String.data_append]
    rw [hd, splitSlash_append ['.'] _ (by decide), hsplit, cleanSegs, if_pos (Or.inr rfl),
      cleanSegs_plain false segs hall]
    simp
  have h2 : normalizePath ("/" ++ p) = p := by
    rw [← hpm]
    refine normalizePath_of_abs _ segs (joinSlash segs) (by simp [String.data_append]) ?_
    have hd : ("/" ++ String.mk (joinSlash segs)).data = [] ++ '/' :: joinSlash segs := by
      simp [String.data_append]
    rw [hd, splitSlash_append [] _ (by simp), hsplit, cleanSegs, if_pos (Or.inl rfl),
      cleanSegs_plain true segs hall]
    simp
  have h3 : normalizePath p = p := by
    cases hj : joinSlash segs with
    | nil => exact absurd hj hne
    | cons c cs =>
      have hc := joinSlash_head segs c cs hseg hj
      conv_rhs => rw [← hpm]
      refine normalizePath_of_rel p segs c cs (by rw [hp, hj]) hc ?_ hn hseg
      rw [hp, hsplit, cleanSegs_plain false segs hall]
      simp
  have h4 : normalizePath (p ++ "/") = p := by
    cases hj : joinSlash segs with
    | nil => exact absurd hj hne
    | cons c cs =>
      have hc := joinSlash_head segs c cs hseg hj
      have hd : (p ++ "/").data = joinSlash segs ++ '/' :: [] := by
        simp [String.data_append, hp]
      conv_rhs => rw [← hpm]
      refine normalizePath_of_rel _ segs c (cs ++ ['/']) (by rw [hd, hj]; rfl) hc ?_ hn hseg
      rw [hd, splitSlash_joinSlash_append segs [] hn hns, cleanSegs_append,
        cleanSegs_plain false segs hall]
      simp [splitSlash, cleanSegs]
  refine ⟨h1, h2, h3, h4, ?_⟩
  intro τ s ent rest hm
  simp only [List.mem_cons, List.mem_singleton, List.not_mem_nil, or_false] at hm
  show normalizePath ent.hdr.name = p
  rcases hm with h | h | h | h <;> rw [h] <;> assumption

/-- For a rooted path the element loop of `filepath.Clean` keeps no `..`. -/
theorem cleanSegs_rooted (segs : List (List Char)) :
    ∀ out, (∀ s ∈ out, s ≠ ['.', '.']) → ∀ s ∈ cleanSegs true out segs, s ≠ ['.', '.'] := by
  induction segs with
  | nil => intro out h; exact h
  | cons seg rest ih =>
    intro out h
    unfold cleanSegs
    split
    · exact ih out h
    · split
      · split
        · rename_i top below
          split
          · rename_i htop
            exact absurd htop (h top (List.mem_cons_self _ _))
          · exact ih below (fun s hs => h s (List.mem_cons_of_mem _ hs))
        · simp only [if_true]
          exact ih [] (by simp)
      · rename_i hdd
        refine ih (seg :: out) ?_
        intro s hs
        rcases List.mem_cons.1 hs with h1 | h1
        · rw [h1]; exact hdd
        · exact h s h1

/-- C24 (amended): the form of a normalized path.  For every input, the result of
`normalizePath` does not begin with a separator, and it is `.`, or a list of elements
joined by `/` (the empty list, for the empty result, when the input cleans to `/`) in
which no element is empty, `.` or contains a separator and `..` occurs only in front of
every other element; the result of a rooted input holds no `..` at all. -/
theorem normalizePath_canonical (x : String) :
    (normalizePath x).data.head? ≠ some '/' ∧
    ∃ segs, GoodRev segs.reverse ∧
      ((normalizePath x).data = joinSlash segs ∨ (normalizePath x).data = ['.'] ∧ segs = []) ∧
      (x.data.head? = some '/' → ∀ seg ∈ segs, seg ≠ ['.', '.']) := by
  have key : ∃ segs, GoodRev segs.reverse ∧
      ((normalizePath x).data = joinSlash segs ∨ (normalizePath x).data = ['.'] ∧ segs = []) ∧
      (x.data.head? = some '/' → ∀ seg ∈ segs, seg ≠ ['.', '.']) := by
    cases hx : x.data with
    | nil =>
      refine ⟨[], trivial, Or.inr ⟨?_, rfl⟩, by simp⟩
      unfold normalizePath
      rw [hx]
      rfl
    | cons c cs =>
      by_cases hc : c = '/'
      · subst hc
        have hg : GoodRev (cleanSegs true [] (splitSlash x.data)) :=
          cleanSegs_good _ _ [] trivial (splitSlash_noslash _)
        have hn := normalizePath_of_abs x (cleanSegs true [] (splitSlash x.data)).reverse cs hx
          (by simp)
        refine ⟨(cleanSegs true [] (splitSlash x.data)).reverse, by simpa using hg,
          Or.inl (by rw [hn]), fun _ seg hm => ?_⟩
        exact cleanSegs_rooted _ [] (by simp) seg (by simpa using hm)
      · obtain ⟨segs, hg, hsh⟩ := normalizePath_shape x
        exact ⟨segs, hg, hsh, by simp [hc]⟩
  refine ⟨?_, key⟩
  obtain ⟨segs, hg, hsh, _⟩ := key
  have hseg : ∀ seg ∈ segs, IsSeg seg := fun seg hm => goodRev_mem hg seg (by simpa using hm)
  rcases hsh with h | ⟨h, _⟩
  · rw [h]
    cases hj : joinSlash segs with
    | nil => simp
    | cons d ds =>
      have := joinSlash_head segs d ds hseg hj
      simpa using this
  · rw [h]
    simp

set_option maxRecDepth 100000 in
/-- C24, counterexample: results that begin with a `.` or `..` element: the empty name
and `.` give `.`, and a relative name that climbs gives a path that starts with `..`. -/
theorem normalizePath_keeps_leading_dots :
    normalizePath "" = "." ∧ normalizePath "./" = "." ∧ normalizePath "../a" = "../a" ∧
      normalizePath "a/../../b" = "../b" ∧ normalizePath "./.." = ".." := by
  decide

set_option maxRecDepth 100000 in
/-- C30: the spellings of the root.  `normalizePath` gives `.` for the empty name, `.`
and `./`, but the empty string for `/` and `//`: it cleans them to `/` and then drops
the leading separator.  The root check of the deletion phase compares with `.`, so a
root that the walk reports as `/` is not passed over: its inventory entry is the empty
string, lstat finds it, and it is passed to `RemoveAll`.  Here the walk of the reference
destination reports absolute paths, the destination holds `test.txt` and the tar names
it; the run ends with the error of `RemoveAll("")`. -/
theorem root_spelled_with_separator_reaches_RemoveAll :
    (normalizePath "" = "." ∧ normalizePath "." = "." ∧ normalizePath "./" = ".") ∧
    (normalizePath "/" = "" ∧ normalizePath "//" = "") ∧
    (walkFs absWalkFs (New absWalkFs diskFile ⟨[regEntry "/test.txt" "some text" 0o777 T2025], none⟩
      [])).1 = .ok ["test.txt", ""] ∧
    (runLog absWalkFs diskFile [regEntry "/test.txt" "some text" 0o777 T2025] []).map
      (fun l => l.filter (fun c => c.isMutation)) = some [.removeAll ""] ∧
    runResult absWalkFs diskFile [regEntry "/test.txt" "some text" 0o777 T2025] [] =
      some ([], some (.wrap "failed to remove: " (.fault "invalid argument"))) := by
  decide

/-! ## The Preserver -/

/-- C25: `preserveBaseDir(D)` in a state that holds the path `H` with the mtime `M`, when
it returns nil.  If `D = H` it makes no call and leaves the state as it is.  Otherwise
its calls are `chtimes(H, M, M)` when `H` is not empty, then the lstat of `D` when `D` is
not empty, and nothing else; the destination is the one `chtimes` left; afterwards the
held path is `D`, with the mtime that the lstat of `D` reported when `D` is not empty;
the rest of the state is unchanged. -/
theorem preserveBaseDir_spec (F : Fs σ) (D : String) (s : Sync σ)
    (hok : (preserveBaseDir F D s).1 = none) :
    (D = s.baseDirPath → preserveBaseDir F D s = (none, s)) ∧
    (D ≠ s.baseDirPath →
      newCalls s (preserveBaseDir F D s).2 =
        (if s.baseDirPath ≠ "" then
          [Call.chtimes s.baseDirPath s.baseDirModTime s.baseDirModTime] else []) ++
        (if D ≠ "" then [F.lstatCall D] else []) ∧
      (s.baseDirPath ≠ "" →
        (F.exec (.chtimes s.baseDirPath s.baseDirModTime s.baseDirModTime) s.fs).1 = none) ∧
      (preserveBaseDir F D s).2.fs =
        (if s.baseDirPath ≠ "" then
          (F.exec (.chtimes s.baseDirPath s.baseDirModTime s.baseDirModTime) s.fs).2
        else s.fs) ∧
      (preserveBaseDir F D s).2.baseDirPath = D ∧
      (D ≠ "" → ∃ fi, F.lstatOrStat (preserveBaseDir F D s).2.fs D = .ok fi ∧
        (preserveBaseDir F D s).2.baseDirModTime = fi.modTime) ∧
      (D = "" → (preserveBaseDir F D s).2.baseDirModTime = s.baseDirModTime) ∧
      (preserveBaseDir F D s).2.rest = s.rest) := by
  constructor
  · intro h
    unfold preserveBaseDir
    rw [if_pos h]
  · intro hne
    unfold preserveBaseDir at hok ⊢
    rw [if_neg hne] at hok ⊢
    simp only at hok ⊢
    by_cases hH : s.baseDirPath = ""
    · have hr : restoreBaseDir F s = (none, s) := by
        unfold restoreBaseDir
        simp [hH]
      rw [hr] at hok ⊢
      simp only at hok ⊢
      have hD : D ≠ "" := fun h => hne (h.trans hH.symm)
      unfold snapshotBaseDir at hok ⊢
      rw [if_pos hD] at hok ⊢
      simp only at hok ⊢
      cases hl : (LstatOrStat F D s).1 with
      | error e => simp [hl] at hok
      | ok fi =>
        simp only [hl]
        refine ⟨?_, fun h => absurd hH h, by simp [hH, LstatOrStat, Sync.logCall], trivial,
          fun _ => ⟨fi, hl, rfl⟩, fun h => absurd h hD, rfl⟩
        simp [newCalls, LstatOrStat, Sync.logCall, hH, hD]
    · cases hc : (F.exec (.chtimes s.baseDirPath s.baseDirModTime s.baseDirModTime) s.fs).1 with
      | some e =>
        exfalso
        have hr : (restoreBaseDir F s).1 ≠ none := by
          unfold restoreBaseDir
          simp [hH, Sync.call, hc]
        cases hr1 : (restoreBaseDir F s).1 with
        | none => exact hr hr1
        | some e' => simp [hr1] at hok
      | none =>
        have hr : restoreBaseDir F s = (none,
            { (s.call F (.chtimes s.baseDirPath s.baseDirModTime s.baseDirModTime)).2 with
              baseDirPath := "" }) := by
          unfold restoreBaseDir
          simp [hH, Sync.call, hc]
        rw [hr] at hok ⊢
        simp only at hok ⊢
        unfold snapshotBaseDir at hok ⊢
        by_cases hD : D = ""
        · subst hD
          simp [newCalls, Sync.call, hH, Sync.rest]
        · rw [if_pos hD] at hok ⊢
          simp only at hok ⊢
          cases hl : (LstatOrStat F D { (s.call F
              (.chtimes s.baseDirPath s.baseDirModTime s.baseDirModTime)).2 with
              baseDirPath := "" }).1 with
          | error e => simp [hl] at hok
          | ok fi =>
            simp only [hl]
            refine ⟨?_, fun _ => trivial, by simp [hH, LstatOrStat, Sync.logCall, Sync.call],
              trivial, fun _ => ⟨fi, hl, rfl⟩, fun h => absurd h hD, rfl⟩
            simp [newCalls, LstatOrStat, Sync.logCall, Sync.call, hH, hD]

theorem reach_ensurePathMap (F : Fs σ) (Q : StepKind → String → Prop) (s : Sync σ) :
    Reach F Q s (ensurePathMap F s).2 := by
  unfold ensurePathMap
  split
  · exact reach_refl _ _ _
  · have h1 : Reach F Q s (walkFs F s).2 := by
      unfold walkFs
      split <;> exact reach_step (Step.read .walk rfl)
    simp only
    split
    · exact h1
    · exact h1.trans (reach_silent rfl rfl rfl rfl)

/-- One call of `Next` is a sequence of primitive actions of the engine. -/
theorem reach_Next (F : Fs σ) (s : Sync σ) : Reach F AnyStep s (Next F s).2 := by
  unfold Next
  split
  · exact reach_refl _ _ _
  · simp only
    have h1 := reach_ensurePathMap F AnyStep s
    split
    · exact h1.trans (reach_silent rfl rfl rfl rfl)
    · have h2 := h1.trans (reach_tarLoop F AnyStep (ensurePathMap F s).2.tarReader.entries
        (ensurePathMap F s).2 (fun _ _ => ⟨fun _ _ => trivial, fun _ => trivial⟩))
      split
      · exact h2
      · have h3 : Reach F AnyStep (tarLoop F (ensurePathMap F s).2.tarReader.entries
            (ensurePathMap F s).2).2 (flattenPathMap (tarLoop F
              (ensurePathMap F s).2.tarReader.entries (ensurePathMap F s).2).2) := by
          unfold flattenPathMap
          split
          · exact reach_refl _ _ _
          · exact reach_silent rfl rfl rfl rfl
        exact (h2.trans h3).trans (reach_deleteLoop F AnyStep _ _
          (fun _ _ _ _ _ => trivial))

theorem log_split (l0 lm : List Call) {x c : Call} {pre post : List Call}
    (h : lm ++ [x] = l0 ++ (pre ++ c :: post)) :
    (post = [] ∧ x = c ∧ lm = l0 ++ pre) ∨ ∃ post', lm = l0 ++ (pre ++ c :: post') := by
  rcases List.eq_nil_or_concat post with hp | ⟨post', y, hp⟩
  · subst hp
    have h' : lm ++ [x] = (l0 ++ pre) ++ [c] := by simpa using h
    obtain ⟨h1, h2⟩ := List.append_inj' h' rfl
    exact Or.inl ⟨rfl, by simpa using h2, h1⟩
  · subst hp
    have h' : lm ++ [x] = (l0 ++ (pre ++ c :: post')) ++ [y] := by simpa using h
    obtain ⟨h1, _⟩ := List.append_inj' h' rfl
    exact Or.inr ⟨post', h1⟩

theorem structural_isMutation (p : String) (c : Call) (h : c.isStructuralAt p) :
    c.isMutation = true := by
  cases c <;> simp [Call.isStructuralAt] at h <;> rfl

theorem structural_not_attr (p q : String) (c : Call) (h : c.isStructuralAt p) :
    ¬ c.isAttrAt q := by
  cases c <;> simp [Call.isStructuralAt] at h <;> simp [Call.isAttrAt]

theorem structural_path_unique (p q : String) (c : Call) (h : c.isStructuralAt p)
    (h' : c.isStructuralAt q) : p = q := by
  cases c <;> simp [Call.isStructuralAt] at h h' <;> exact h.symm.trans h'

/-- Every creating or removing call in the trace of a sequence of primitive actions was
made in a state that held the parent of its path. -/
theorem reach_structural_held (F : Fs σ) (Q : StepKind → String → Prop) (s s' : Sync σ)
    (h : Reach F Q s s') :
    ∀ pre c post p, s'.log = s.log ++ (pre ++ c :: post) → c.isStructuralAt p →
      ∃ t, Reach F Q s t ∧ t.log = s.log ++ pre ∧ t.baseDirPath = filepathDir p ∧
        Reach F Q (t.call F c).2 s' := by
  induction h with
  | refl =>
    intro pre c post p hlog _
    have := congrArg List.length hlog
    simp at this
  | tail hsm hstep ih =>
    rename_i m s2
    intro pre c post p hlog hc
    have viaIH : ∀ post', m.log = s.log ++ (pre ++ c :: post') →
        ∃ t, Reach F Q s t ∧ t.log = s.log ++ pre ∧ t.baseDirPath = filepathDir p ∧
          Reach F Q (t.call F c).2 s2 := by
      intro post' hm
      obtain ⟨t, t1, t2, t3, t4⟩ := ih pre c post' p hm hc
      exact ⟨t, t1, t2, t3, t4.trans (reach_step hstep)⟩
    cases hstep with
    | silent hfs hp hm hl =>
      rw [hl] at hlog
      exact viaIH post hlog
    | read x hx =>
      rcases log_split s.log m.log hlog with ⟨_, hxc, _⟩ | ⟨post', hm⟩
      · subst hxc
        rw [structural_isMutation p x hc] at hx
        cases hx
      · exact viaIH post' hm
    | restoreFailed h1 hr =>
      rcases log_split s.log m.log hlog with ⟨_, hxc, _⟩ | ⟨post', hm⟩
      · subst hxc
        simp [Call.isStructuralAt] at hc
      · exact viaIH post' hm
    | restore h1 hr =>
      rcases log_split s.log m.log hlog with ⟨_, hxc, _⟩ | ⟨post', hm⟩
      · subst hxc
        simp [Call.isStructuralAt] at hc
      · exact viaIH post' hm
    | snapshot path hQ fi h1 hD hfi => exact viaIH post hlog
    | structural path hQ x hx hl h1 =>
      rcases log_split s.log m.log hlog with ⟨_, hxc, hm⟩ | ⟨post', hm⟩
      · subst hxc
        have hp := structural_path_unique _ _ _ hx hc
        subst hp
        exact ⟨m, hsm, hm, h1, reach_refl _ _ _⟩
      · exact viaIH post' hm
    | attr path hQ x hx =>
      rcases log_split s.log m.log hlog with ⟨_, hxc, _⟩ | ⟨post', hm⟩
      · subst hxc
        exact absurd hx (structural_not_attr _ _ _ hc)
      · exact viaIH post' hm

/-- C26 (amended): the Preserver around mutations.  One call of `Next` is a sequence of
primitive actions of the engine (`Step`), in which a call that creates or removes the
entry at a path (`Mkdir`, `WriteReader`, `Remove`, `RemoveAll`, `SymlinkIfPossible`,
`Link`) is only made in a state whose held base directory is the parent of that path:
for every such call `c` at `p` in the trace of the call of `Next`, the engine was,
right after the calls that precede `c`, in a state `t` holding `filepath.Dir p`, and went
on from the state the call left.  Nothing of the kind is required of the attribute
calls (`Chmod`, `Chown`, `LchownIfPossible`, `Chtimes`). -/
theorem structural_calls_hold_parent (F : Fs σ) (s : Sync σ) :
    Reach F AnyStep s (Next F s).2 ∧
    ∀ pre c post p, (Next F s).2.log = s.log ++ (pre ++ c :: post) → c.isStructuralAt p →
      ∃ t, Reach F AnyStep s t ∧ t.log = s.log ++ pre ∧ t.baseDirPath = filepathDir p ∧
        Reach F AnyStep (t.call F c).2 (Next F s).2 :=
  ⟨reach_Next F s, reach_structural_held F AnyStep s (Next F s).2 (reach_Next F s)⟩

/-! ## Exhaustion -/

/-- When the tar loop ends at the end of the stream, the reader is empty and has not
failed. -/
theorem tarLoop_none (F : Fs σ) (entries : List TarEntry) :
    ∀ s : Sync σ, s.tarReader.entries = entries → (tarLoop F entries s).1 = none →
      (tarLoop F entries s).2.tarReader = ⟨[], none⟩ ∧
      ((tarLoop F entries s).2.pathMap = none ↔ s.pathMap = none) ∧
      (tarLoop F entries s).2.err = s.err := by
  induction entries with
  | nil =>
    intro s hent h
    unfold tarLoop at h ⊢
    cases hf : s.tarReader.fail with
    | some e => simp [hf] at h
    | none =>
      simp only [hf]
      refine ⟨?_, Iff.rfl, rfl⟩
      show s.tarReader = ⟨[], none⟩
      cases ht : s.tarReader with
      | mk es fl =>
        rw [ht] at hent hf
        simp only at hent hf
        rw [hent, hf]
  | cons ent rest ih =>
    intro s hent h
    obtain ⟨c1, _, c3, _, c5⟩ := ctl_fields (ctl_dispatch F ent (s.beginEntry ent rest))
    have dt : (dispatch F ent (s.beginEntry ent rest)).2.tarReader.entries = rest := by
      rw [c1]; rfl
    have dp : (dispatch F ent (s.beginEntry ent rest)).2.pathMap = s.pathMap := c3
    have de : (dispatch F ent (s.beginEntry ent rest)).2.err = s.err := c5
    unfold tarLoop at h ⊢
    simp only at h ⊢
    cases hd : (dispatch F ent (s.beginEntry ent rest)).1 with
    | failed e => simp [hd] at h
    | skipped =>
      simp only [hd] at h ⊢
      obtain ⟨i1, i2, i3⟩ := ih _ dt h
      exact ⟨i1, i2.trans (by rw [dp]), i3.trans de⟩
    | synced =>
      simp only [hd] at h ⊢
      by_cases hem : ((dispatch F ent (s.beginEntry ent rest)).2.forget
          (normalizePath ent.hdr.name)).upd.update.IsEmpty = true
      · simp only [hem, not_true_eq_false, if_false] at h ⊢
        have dt' : ((dispatch F ent (s.beginEntry ent rest)).2.forget
            (normalizePath ent.hdr.name)).tarReader.entries = rest := dt
        obtain ⟨i1, i2, i3⟩ := ih _ dt' h
        refine ⟨i1, i2.trans ?_, i3.trans de⟩
        simp only [Sync.forget, Option.map_eq_none', dp]
      · simp [hem] at h

/-- A call of `Next` that returns false without an error leaves an exhausted state. -/
theorem Next_false_exhausted (F : Fs σ) (s : Sync σ) (h : (Next F s).1 = false)
    (he : (Next F s).2.err = none) : Exhausted (Next F s).2 := by
  unfold Next at h he ⊢
  cases hs : s.err with
  | some e =>
    simp only [hs, Option.isSome_some, if_true] at he
    simp at he
  | none =>
    simp only [hs, Option.isSome_none, Bool.false_eq_true, if_false] at h he ⊢
    cases hw : (ensurePathMap F s).1 with
    | some e => simp [hw, Sync.setErr] at he
    | none =>
      simp only [hw] at h he ⊢
      have hwp : (ensurePathMap F s).2.pathMap ≠ none ∧ (ensurePathMap F s).2.err = none := by
        revert hw
        unfold ensurePathMap
        cases hp : s.pathMap with
        | some m => simp [hp, hs]
        | none =>
          simp only
          unfold walkFs
          cases hwk : F.walk s.fs with
          | error e => simp
          | ok m => simp [Sync.setPathMap, Sync.logCall, hs]
      cases ht : (tarLoop F (ensurePathMap F s).2.tarReader.entries (ensurePathMap F s).2).1 with
      | some b =>
        exfalso
        simp only [ht] at h he
        subst h
        obtain ⟨_, t2, _⟩ := tarLoop_invariant F (fun _ => True)
          (fun _ _ _ _ _ _ _ => ⟨fun _ => trivial, fun _ => trivial⟩) (fun _ _ _ _ _ => trivial)
          (ensurePathMap F s).2.tarReader.entries (ensurePathMap F s).2 hwp.2 hwp.1 rfl trivial
        exact t2 ht he
      | none =>
        simp only [ht] at h he ⊢
        obtain ⟨n1, n2, n3⟩ := tarLoop_none F _ (ensurePathMap F s).2 rfl ht
        obtain ⟨_, _, _, _, f5, _, f7, f8⟩ := flattenPathMap_fields
          (tarLoop F (ensurePathMap F s).2.tarReader.entries (ensurePathMap F s).2).2
        refine (deleteLoop_invariant F (fun t => t.tarReader = ⟨[], none⟩ ∧ t.pathMap ≠ none)
          Exhausted ?_ ?_ ?_ ?_ _ _ (by rw [f5, n3]; exact hwp.2) (by rw [f7, n1])
          (flattenPathMap_deletePaths _)
          ⟨by rw [f7]; exact n1, by rw [f8]; exact fun hc => hwp.1 (n2.mp hc)⟩).2 h he
        · intro t rest _ _ _ hJ
          exact hJ
        · intro t path rest _ _ _ _ _ hJ
          exact hJ
        · intro t path rest fi _ _ _ _ _ hJ _
          obtain ⟨g1, _, g3, _⟩ := deleteEntry_fields F path fi (LstatOrStat F path t).2
          exact ⟨g1.trans hJ.1, by rw [g3]; exact hJ.2⟩
        · intro t hte _ hd hJ hok
          obtain ⟨c1, _, c3, c4, _⟩ := ctl_fields (ctl_preserveBaseDir F "" t)
          exact ⟨rfl, by show (preserveBaseDir F "" t).2.pathMap ≠ none; rw [c3]; exact hJ.2,
            by show (preserveBaseDir F "" t).2.tarReader = _; rw [c1]; exact hJ.1,
            by show (preserveBaseDir F "" t).2.deletePaths = _; rw [c4]; exact hd,
            preserveBaseDir_held F "" t hok⟩

/-- A run that returns a nil error leaves an exhausted state. -/
theorem Run_exhausted (F : Fs σ) (fuel : Nat) (s : Sync σ) (u : List PathUpdate) (s' : Sync σ)
    (h : Run F fuel s = some (u, none, s')) : Exhausted s' :=
  Run_invariant F (fun _ => True) Exhausted
    (fun t _ => ⟨fun _ _ => trivial, Next_false_exhausted F t⟩) fuel s u s' trivial h

/-- In an exhausted state `Next` asks the reader once more and returns false. -/
theorem Next_of_exhausted (F : Fs σ) (s : Sync σ) (h : Exhausted s) :
    Next F s = (false, s.logCall .tarNext) ∧ Exhausted (s.logCall .tarNext) := by
  obtain ⟨h1, h2, h3, h4, h5⟩ := h
  refine ⟨?_, h1, h2, h3, h4, h5⟩
  obtain ⟨m, hm⟩ := Option.ne_none_iff_exists'.mp h2
  unfold Next
  have hw : ensurePathMap F s = (none, s) := by
    unfold ensurePathMap
    simp [hm]
  have ht : tarLoop F s.tarReader.entries s = (none, s.logCall .tarNext) := by
    rw [h3]
    unfold tarLoop
    simp [h3]
  have hf : flattenPathMap (s.logCall .tarNext) = s.logCall .tarNext := by
    unfold flattenPathMap
    have : (s.logCall .tarNext).deletePaths = some [] := h4
    simp [this]
  have hp : preserveBaseDir F "" (s.logCall .tarNext) = (none, s.logCall .tarNext) := by
    unfold preserveBaseDir
    have : (s.logCall .tarNext).baseDirPath = "" := h5
    simp [this]
  have hd : (s.logCall .tarNext).deletePaths.getD [] = [] := by
    have : (s.logCall .tarNext).deletePaths = some [] := h4
    rw [this]
    rfl
  simp only [h1, Option.isSome_none, Bool.false_eq_true, if_false, hw, ht, hf, hd]
  unfold deleteLoop
  simp only [hp]
  have : (s.logCall .tarNext).setErr none = s.logCall .tarNext := by
    simp [Sync.setErr, Sync.logCall, h1]
  rw [this]

/-- C27: exhaustion is stable.  After a run that returned a nil error, every further call
of `Next` returns false: the n-th further call finds the state the run left but for n
more reads of the tar reader in the trace, so no update is set, no error is recorded and
the destination is not touched. -/
theorem exhaustion_is_stable (F : Fs σ) (fuel : Nat) (s : Sync σ) (u : List PathUpdate)
    (s' : Sync σ) (hrun : Run F fuel s = some (u, none, s')) :
    ∀ n : Nat,
      Nat.iterate (fun t => (Next F t).2) n s' =
        { s' with log := s'.log ++ List.replicate n Call.tarNext } ∧
      (Next F (Nat.iterate (fun t => (Next F t).2) n s')).1 = false ∧
      (Nat.iterate (fun t => (Next F t).2) n s').err = none ∧
      (Nat.iterate (fun t => (Next F t).2) n s').fs = s'.fs ∧
      (Nat.iterate (fun t => (Next F t).2) n s').upd = s'.upd := by
  have hex := Run_exhausted F fuel s u s' hrun
  have key : ∀ n : Nat,
      Nat.iterate (fun t => (Next F t).2) n s' =
        { s' with log := s'.log ++ List.replicate n Call.tarNext } ∧
      Exhausted (Nat.iterate (fun t => (Next F t).2) n s') := by
    intro n
    induction n with
    | zero => exact ⟨by simp, hex⟩
    | succ k ih =>
      obtain ⟨i1, i2⟩ := ih
      rw [Function.iterate_succ_apply']
      obtain ⟨n1, n2⟩ := Next_of_exhausted F _ i2
      rw [n1]
      refine ⟨?_, n2⟩
      simp only
      rw [i1]
      simp [Sync.logCall, List.replicate_succ']
  intro n
  obtain ⟨k1, k2⟩ := key n
  refine ⟨k1, ?_, k2.1, by rw [k1], by rw [k1]⟩
  rw [(Next_of_exhausted F _ k2).1]

/-! ## Creating an entry -/

theorem statResult_absent (e0 : Error) (h : e0.isNotExist = true) :
    statResult (.error e0) = .ok none := by
  unfold statResult
  simp [h]

/-- A reconciler that does not find its path goes on to create the entry. -/
theorem reconcile_absent (F : Fs σ) (ent : TarEntry) (s : Sync σ) (e0 : Error)
    (hkind : AlwaysSynced s.opts ent)
    (hmiss : entryStat F ent s.fs = .error e0) (hne : e0.isNotExist = true) :
    ∃ mark : Sync σ → Sync σ, ∃ msg : String,
      dispatch F ent s = dispatched (syncMessage ent) (normalizePath ent.hdr.name)
        (createEntry F ent.hdr (createCallOf ent) msg mark (s.logCall (entryStatCall F ent))) := by
  have hSR : TypeSymlink ≠ TypeReg := by decide
  have hSD : TypeSymlink ≠ TypeDir := by decide
  have hLR : TypeLink ≠ TypeReg := by decide
  have hLD : TypeLink ≠ TypeDir := by decide
  have hLS : TypeLink ≠ TypeSymlink := by decide
  have hDR : TypeDir ≠ TypeReg := by decide
  have hDS : TypeDir ≠ TypeSymlink := by decide
  have hRS : TypeReg ≠ TypeSymlink := by decide
  unfold entryStat at hmiss
  unfold dispatch syncMessage createCallOf entryStatCall
  rcases hkind with h | h | ⟨h, ho⟩ | ⟨h, ho⟩
  · simp only [h, hRS, if_false, if_true] at hmiss ⊢
    refine ⟨Sync.markAdded, "failed to write file: ", ?_⟩
    congr 1
    unfold syncRegularFile
    have hl : (LstatOrStat F (normalizePath ent.hdr.name) s).1 = .error e0 := hmiss
    simp only [hl, statResult_absent e0 hne, dropUnless, upToDate, Bool.false_eq_true, if_false]
    rfl
  · simp only [h, hDR, hDS, if_false, if_true] at hmiss ⊢
    refine ⟨fun t => t.markAdded.markMode (modePermOf ent.hdr.fileMode ||| ModeDir),
      "failed to make file: ", ?_⟩
    congr 1
    unfold syncDir
    have hl : (LstatOrStat F (normalizePath ent.hdr.name) s).1 = .error e0 := hmiss
    simp only [hl, statResult_absent e0 hne, dropUnless]
    rfl
  · simp only [h, hSR, hSD, if_false, if_true, ho, not_true_eq_false] at hmiss ⊢
    refine ⟨fun t => t.markAdded.markLink ent.hdr.linkname, "failed to make link: ", ?_⟩
    congr 1
    unfold syncSymlink
    simp only [hmiss, statResult_absent e0 hne, dropUnless, retarget]
  · simp only [h, hLR, hLD, hLS, if_false, if_true, ho, not_true_eq_false] at hmiss ⊢
    refine ⟨Sync.markAdded, "failed to make link: ", ?_⟩
    congr 1
    unfold syncLink
    have hl : (LstatOrStat F (normalizePath ent.hdr.name) s).1 = .error e0 := hmiss
    simp only [hl, statResult_absent e0 hne, checkLinkTarget]
    rfl

theorem restoreBaseDir_congr (F : Fs σ) (s t : Sync σ) (h1 : t.fs = s.fs)
    (h2 : t.baseDirPath = s.baseDirPath) (h3 : t.baseDirModTime = s.baseDirModTime) :
    (restoreBaseDir F t).1 = (restoreBaseDir F s).1 ∧
      (restoreBaseDir F t).2.fs = (restoreBaseDir F s).2.fs := by
  unfold restoreBaseDir
  rw [h2, h3]
  by_cases hH : s.baseDirPath = ""
  · simp [hH, h1]
  · simp only [ne_eq, hH, not_false_eq_true, if_true, Sync.call, h1]
    split <;> exact ⟨rfl, rfl⟩

/-- The creating step when the Preserver cannot take the parent: no creating call is
made. -/
theorem createEntry_unheld (F : Fs σ) (hdr : Header) (c : Call) (msg : String)
    (mark : Sync σ → Sync σ) (s : Sync σ) (e : Error)
    (hheld : s.baseDirPath ≠ filepathDir (normalizePath hdr.name))
    (hparent : (restoreBaseDir F s).1 = none →
      F.lstatOrStat (restoreBaseDir F s).2.fs (filepathDir (normalizePath hdr.name)) = .error e) :
    (createEntry F hdr c msg mark s).1 =
      some (match (restoreBaseDir F s).1 with
        | some er => er
        | none => .wrap ("failed to stat base dir: " ++ filepathDir (normalizePath hdr.name)) e) ∧
    (createEntry F hdr c msg mark s).2.fs = (restoreBaseDir F s).2.fs ∧
    ∃ calls, (createEntry F hdr c msg mark s).2.log = s.log ++ calls ∧
      (∀ x ∈ calls, x.isMutation = true →
        x = .chtimes s.baseDirPath s.baseDirModTime s.baseDirModTime) ∧
      ((restoreBaseDir F s).1 = none →
        F.lstatCall (filepathDir (normalizePath hdr.name)) ∈ calls) := by
  have hD := filepathDir_ne_empty (normalizePath hdr.name)
  have hrest : Extends (fun x => x.isMutation = true →
      x = .chtimes s.baseDirPath s.baseDirModTime s.baseDirModTime) s (restoreBaseDir F s).2 := by
    unfold restoreBaseDir
    split
    · simp only
      split
      · exact ⟨[_], rfl, by simp⟩
      · exact ⟨[_], rfl, by simp⟩
    · exact extends_refl _ _
  unfold createEntry preserveBaseDir
  simp only [Ne.symm hheld, if_false]
  cases hr : (restoreBaseDir F s).1 with
  | some er =>
    simp only [hr]
    obtain ⟨calls, hc, hP⟩ := hrest
    exact ⟨trivial, trivial, calls, hc, hP, fun h => by simp at h⟩
  | none =>
    have hl : (LstatOrStat F (filepathDir (normalizePath hdr.name)) (restoreBaseDir F s).2).1 =
        .error e := hparent hr
    simp only [hr, snapshotBaseDir, ne_eq, hD, not_false_eq_true, if_true, hl]
    obtain ⟨calls, hc, hP⟩ := hrest
    have hlog : (LstatOrStat F (filepathDir (normalizePath hdr.name)) (restoreBaseDir F s).2).2.log =
        s.log ++ (calls ++ [F.lstatCall (filepathDir (normalizePath hdr.name))]) := by
      simp [LstatOrStat, Sync.logCall, hc]
    refine ⟨trivial, rfl, _, hlog, ?_, fun _ => by simp⟩
    intro x hx hm
    rcases List.mem_append.1 hx with h | h
    · exact hP x h hm
    · rw [List.mem_singleton.1 h, lstatCall_isMutation] at hm
      exact absurd hm (by simp)

/-- C29: an entry that has to be created where the parent directory is missing.  The tar
entry is one `Next` reconciles, nothing is at its path, and the Preserver does not hold
the parent already.  The lstat of the parent fails (once the directory held before has
been restored): the iteration of the tar loop returns false and records that error,
wrapped as "failed to stat base dir: <parent>" by the Preserver and "failed to sync ...:
<path>" by `Next`; the lstat of the parent is in the trace, the only mutating call that
can be there is the `chtimes` that restores the directory held before, and the
destination is as that call left it: nothing is created.  (When that `chtimes` fails,
its error is the one recorded.) -/
theorem create_fails_without_parent (F : Fs σ) (ent : TarEntry) (rest : List TarEntry)
    (s0 : Sync σ) (e0 e : Error)
    (hkind : AlwaysSynced s0.opts ent)
    (hmiss : entryStat F ent s0.fs = .error e0) (hne : e0.isNotExist = true)
    (hheld : s0.baseDirPath ≠ filepathDir (normalizePath ent.hdr.name))
    (hparent : (restoreBaseDir F s0).1 = none →
      F.lstatOrStat (restoreBaseDir F s0).2.fs (filepathDir (normalizePath ent.hdr.name)) =
        .error e) :
    (tarLoop F (ent :: rest) s0).1 = some false ∧
    (tarLoop F (ent :: rest) s0).2.err =
      some (.wrap (syncMessage ent ++ normalizePath ent.hdr.name)
        (match (restoreBaseDir F s0).1 with
          | some er => er
          | none => .wrap ("failed to stat base dir: " ++
              filepathDir (normalizePath ent.hdr.name)) e)) ∧
    (tarLoop F (ent :: rest) s0).2.fs = (restoreBaseDir F s0).2.fs ∧
    (∀ x ∈ newCalls s0 (tarLoop F (ent :: rest) s0).2, x.isMutation = true →
      x = .chtimes s0.baseDirPath s0.baseDirModTime s0.baseDirModTime) ∧
    ((restoreBaseDir F s0).1 = none →
      F.lstatCall (filepathDir (normalizePath ent.hdr.name)) ∈
        newCalls s0 (tarLoop F (ent :: rest) s0).2) := by
  obtain ⟨mark, msg, hd⟩ := reconcile_absent F ent (s0.beginEntry ent rest) e0 hkind hmiss hne
  obtain ⟨g1, g2⟩ := restoreBaseDir_congr F s0
    ((s0.beginEntry ent rest).logCall (entryStatCall F ent)) rfl rfl rfl
  obtain ⟨c1, c2, calls, c3, c4, c5⟩ := createEntry_unheld F ent.hdr (createCallOf ent) msg mark
    ((s0.beginEntry ent rest).logCall (entryStatCall F ent)) e hheld
    (fun h => by rw [g2]; exact hparent (g1 ▸ h))
  have hmut : (entryStatCall F ent).isMutation = false := by
    unfold entryStatCall
    split
    · rfl
    · exact lstatCall_isMutation F _
  have hlog : (createEntry F ent.hdr (createCallOf ent) msg mark
      ((s0.beginEntry ent rest).logCall (entryStatCall F ent))).2.log =
      s0.log ++ ([.tarNext, entryStatCall F ent] ++ calls) := by
    rw [c3]
    simp [Sync.logCall, Sync.beginEntry]
  have hN : ∀ e', newCalls s0 ((createEntry F ent.hdr (createCallOf ent) msg mark
      ((s0.beginEntry ent rest).logCall (entryStatCall F ent))).2.setErr e') =
      [Call.tarNext, entryStatCall F ent] ++ calls := fun e' => newCalls_of_log hlog
  have hfs : ∀ e', ((createEntry F ent.hdr (createCallOf ent) msg mark
      ((s0.beginEntry ent rest).logCall (entryStatCall F ent))).2.setErr e').fs =
      (restoreBaseDir F s0).2.fs := fun e' => c2.trans g2
  rw [g1] at c1 c5
  unfold tarLoop
  simp only [hd, dispatched, c1, hN, hfs]
  refine ⟨trivial, rfl, trivial, ?_, fun h => List.mem_append_right _ (c5 h)⟩
  intro x hx hm
  rcases List.mem_append.1 hx with h | h
  · simp only [List.mem_cons, List.mem_singleton, List.not_mem_nil, or_false] at h
    rcases h with h | h
    · rw [h] at hm; exact absurd hm (by decide)
    · rw [h, hmut] at hm; exact absurd hm (by simp)
  · exact c4 x h hm

/-- C22 (amended): a hard-link entry whose target is missing, with hard-link syncing on.
When something is at the link path, the reconciler fails on the lstat of the target:
the iteration of the tar loop returns false with the error "failed to sync hard link:
<path>: failed to stat link target: <path>: ..." recorded, having made two lstat calls
and nothing else, so what is at the link path is not removed.  When nothing is at the
link path, the target is not lstat-ed at all: the reconciler takes the parent of the
link path and calls `Link`, and it is the failure of `Link` that ends the iteration,
with the error "failed to sync hard link: <path>: failed to make link: <path>: ...". -/
theorem hardlink_with_missing_target (F : Fs σ) (ent : TarEntry) (rest : List TarEntry)
    (s0 : Sync σ) (e : Error)
    (hkind : ent.hdr.typeflag = TypeLink) (hon : s0.opts.withHardLinks = true)
    (htarget : F.lstatOrStat s0.fs (normalizePath ent.hdr.linkname) = .error e) :
    (∀ fi, F.lstatOrStat s0.fs (normalizePath ent.hdr.name) = .ok fi →
      tarLoop F (ent :: rest) s0 =
        (some false,
          (((s0.beginEntry ent rest).logCall (F.lstatCall (normalizePath ent.hdr.name))).logCall
            (F.lstatCall (normalizePath ent.hdr.linkname))).setErr
            (some (.wrap ("failed to sync hard link: " ++ normalizePath ent.hdr.name)
              (.wrap ("failed to stat link target: " ++ normalizePath ent.hdr.name) e))))) ∧
    (∀ e0, F.lstatOrStat s0.fs (normalizePath ent.hdr.name) = .error e0 →
      e0.isNotExist = true →
      (preserveBaseDir F (filepathDir (normalizePath ent.hdr.name))
        ((s0.beginEntry ent rest).logCall (F.lstatCall (normalizePath ent.hdr.name)))).1 = none →
      ∀ e1, ((preserveBaseDir F (filepathDir (normalizePath ent.hdr.name))
        ((s0.beginEntry ent rest).logCall (F.lstatCall (normalizePath ent.hdr.name)))).2.call F
          (.link (normalizePath ent.hdr.linkname) (normalizePath ent.hdr.name))).1 = some e1 →
      tarLoop F (ent :: rest) s0 =
        (some false,
          ((preserveBaseDir F (filepathDir (normalizePath ent.hdr.name))
            ((s0.beginEntry ent rest).logCall (F.lstatCall (normalizePath ent.hdr.name)))).2.call F
              (.link (normalizePath ent.hdr.linkname) (normalizePath ent.hdr.name))).2.setErr
            (some (.wrap ("failed to sync hard link: " ++ normalizePath ent.hdr.name)
              (.wrap ("failed to make link: " ++ normalizePath ent.hdr.name) e1))))) := by
  have hLR : TypeLink ≠ TypeReg := by decide
  have hLD : TypeLink ≠ TypeDir := by decide
  have hLS : TypeLink ≠ TypeSymlink := by decide
  have hon' : (s0.beginEntry ent rest).opts.withHardLinks = true := hon
  constructor
  · intro fi hfi
    have hl : (LstatOrStat F (normalizePath ent.hdr.name) (s0.beginEntry ent rest)).1 = .ok fi := hfi
    have hl2 : (LstatOrStat F (normalizePath ent.hdr.linkname)
        (LstatOrStat F (normalizePath ent.hdr.name) (s0.beginEntry ent rest)).2).1 = .error e :=
      htarget
    unfold tarLoop dispatch
    simp only [hkind, hLR, hLD, hLS, if_false, if_true, hon', not_true_eq_false, dispatched,
      syncLink, hl, statResult, checkLinkTarget, hl2]
    rfl
  · intro e0 he0 hne hp e1 h1
    have hl : (LstatOrStat F (normalizePath ent.hdr.name) (s0.beginEntry ent rest)).1 =
        .error e0 := he0
    have hs1 : (LstatOrStat F (normalizePath ent.hdr.name) (s0.beginEntry ent rest)).2 =
        (s0.beginEntry ent rest).logCall (F.lstatCall (normalizePath ent.hdr.name)) := rfl
    unfold tarLoop dispatch
    simp only [hkind, hLR, hLD, hLS, if_false, if_true, hon', not_true_eq_false, dispatched,
      syncLink, hl, statResult_absent e0 hne, checkLinkTarget, createEntry, hs1, hp, h1]

theorem present_reach (E : String) (s s' : Sync RefFs)
    (h : Reach RefFs.asFs (Spares (fun p => Covers p E)) s s') (h0 : Present s.fs E) :
    Present s'.fs E := by
  unfold Present at h0 ⊢
  rw [reach_ino _ (keyOf E) ?_ s s' h]
  · exact h0
  · intro p hp
    have hp' := hp (by decide)
    simp only [Covers, Bool.not_eq_true] at hp'
    exact hp'

theorem entryStat_present (ent : TarEntry) (fs : RefFs) (fi : FileInfo)
    (h : entryStat RefFs.asFs ent fs = .ok fi) : Present fs (normalizePath ent.hdr.name) := by
  unfold entryStat at h
  split at h
  · exact lstat_some_of_ok fs _ fi h
  · exact lstat_some_of_ok fs _ fi h

/-- The entry a reconciler has synced is on the destination it leaves. -/
theorem dispatch_synced_present (ent : TarEntry) (s : Sync RefFs)
    (hd : (dispatch RefFs.asFs ent s).1 = .synced) :
    Present (dispatch RefFs.asFs ent s).2.fs (normalizePath ent.hdr.name) := by
  obtain ⟨fi0, s0, _, hcase, hok, hs'⟩ := dispatch_ends RefFs.asFs ent s hd
  rw [hs']
  have hr : Reach RefFs.asFs QAttr s0 (syncStat RefFs.asFs ent.hdr fi0 s0).2 :=
    reach_syncStat RefFs.asFs QAttr ent.hdr rfl fi0 s0
  unfold Present
  rw [reach_attr_ino _ _ hr]
  obtain ⟨info, fi2, hfi, _⟩ := syncStat_exact RefFs.asFs ent.hdr fi0 s0 hok
  rcases hcase with ⟨info0, _, hst, _, hfs⟩ | ⟨hnone, _, _⟩
  · rw [hfs]
    exact entryStat_present ent s.fs info0 hst
  · rcases hfi with h | ⟨_, h⟩
    · rw [hnone] at h
      cases h
    · exact lstat_some_of_ok s0.fs _ info h

/-- C28 (amended): what the deletion phase leaves of a reconciled path.  On the
reference destination, let the tar hold an entry that `Next` does not skip, for the path
`E`.  When no later entry names `E` or a directory above it, and every walked path that
is `E` or a directory above it is named by a tar entry that is not skipped, then after a
run that returns a nil error there is an entry at `E`. -/
theorem reconciled_path_kept (fs : RefFs) (pre post : List TarEntry) (ent : TarEntry)
    (fail : Option Error) (opts : List Opt) (fuel : Nat) (u : List PathUpdate)
    (s' : Sync RefFs)
    (hsync : AlwaysSynced (resolveOptions opts) ent)
    (hpost : ∀ e ∈ post, ¬ Covers (normalizePath e.hdr.name) (normalizePath ent.hdr.name))
    (hwalk : ∀ paths, RefFs.walk fs = .ok paths →
      Guarded (fun p => Covers p (normalizePath ent.hdr.name))
        (resolveOptions opts) (pre ++ ent :: post) (paths.map normalizePath))
    (hrun : Run RefFs.asFs fuel (New RefFs.asFs fs ⟨pre ++ ent :: post, fail⟩ opts) =
      some (u, none, s')) :
    ∃ fi, RefFs.lstat s'.fs (normalizePath ent.hdr.name) = .ok fi := by
  obtain ⟨n1, n2, n3, n4, n5, _, _⟩ :=
    New_fields RefFs.asFs fs ⟨pre ++ ent :: post, fail⟩ opts
  have key : Present s'.fs (normalizePath ent.hdr.name) := by
    refine Run_guarded RefFs.asFs
      (fun p => Covers p (normalizePath ent.hdr.name))
      (fun s => s.opts = resolveOptions opts ∧
        ((∃ pre', s.tarReader.entries = pre' ++ ent :: post) ∨
          ((∀ e ∈ s.tarReader.entries,
              ¬ Covers (normalizePath e.hdr.name) (normalizePath ent.hdr.name)) ∧
            Present s.fs (normalizePath ent.hdr.name))))
      (fun s => Present s.fs (normalizePath ent.hdr.name))
      ?_ ?_ ?_ ?_ ?_ ?_ ?_ fuel _ u s' ?_ ?_ hrun
    · -- the walk
      intro s m _ _ hw hJ
      unfold walkFs
      split <;> exact hJ
    · -- one tar entry
      intro s e rest _ _ hent hJ
      obtain ⟨hopt, hph⟩ := hJ
      obtain ⟨c1, c2, _, _, _⟩ := ctl_fields (ctl_dispatch RefFs.asFs e (s.beginEntry e rest))
      have e1 : (dispatch RefFs.asFs e (s.beginEntry e rest)).2.tarReader.entries = rest := by
        rw [c1]; rfl
      have e2 : (dispatch RefFs.asFs e (s.beginEntry e rest)).2.opts = resolveOptions opts := by
        rw [c2]; exact hopt
      rcases hph with ⟨pre', hpre⟩ | ⟨hsafe, hthere⟩
      · rw [hent] at hpre
        cases pre' with
        | nil =>
          simp only [List.nil_append, List.cons.injEq] at hpre
          obtain ⟨h1, h2⟩ := hpre
          subst h1
          subst h2
          constructor
          · intro hd
            refine ⟨e2, Or.inr ⟨?_, ?_⟩⟩
            · intro x hx
              simp only [Sync.forget, e1] at hx
              exact hpost x hx
            · exact dispatch_synced_present e _ hd
          · intro hd
            refine absurd hd (dispatch_alwaysSynced RefFs.asFs e _ ?_)
            have : (s.beginEntry e rest).opts = resolveOptions opts := hopt
            rw [this]
            exact hsync
        | cons x pre'' =>
          simp only [List.cons_append, List.cons.injEq] at hpre
          obtain ⟨_, h2⟩ := hpre
          exact ⟨fun _ => ⟨e2, Or.inl ⟨pre'', by simp only [Sync.forget, e1]; exact h2⟩⟩,
            fun _ => ⟨e2, Or.inl ⟨pre'', by rw [e1]; exact h2⟩⟩⟩
      · have hq := hsafe e (by rw [hent]; exact List.mem_cons_self _ _)
        have hrest : ∀ x ∈ rest,
            ¬ Covers (normalizePath x.hdr.name) (normalizePath ent.hdr.name) :=
          fun x hx => hsafe x (by rw [hent]; exact List.mem_cons_of_mem _ hx)
        have hr : Reach RefFs.asFs (Spares (fun p => Covers p (normalizePath ent.hdr.name))) s
            (dispatch RefFs.asFs e (s.beginEntry e rest)).2 := by
          have h0 : Reach RefFs.asFs (Spares (fun p => Covers p (normalizePath ent.hdr.name))) s
              (s.beginEntry e rest) :=
            (reach_step (Step.read .tarNext rfl)).trans (reach_silent rfl rfl rfl rfl)
          exact h0.trans (reach_dispatch RefFs.asFs _ e (fun _ _ _ => hq)
            (fun _ h => absurd rfl h) (s.beginEntry e rest))
        have hs := present_reach _ _ _ hr hthere
        exact ⟨fun _ => ⟨e2, Or.inr ⟨by simp only [Sync.forget, e1]; exact hrest, hs⟩⟩,
          fun _ => ⟨e2, Or.inr ⟨by rw [e1]; exact hrest, hs⟩⟩⟩
    · -- the end of the stream
      intro s _ _ hent hJ
      obtain ⟨f1, _, _, _, _, f6, f7, _⟩ := flattenPathMap_fields (s.logCall .tarNext)
      obtain ⟨hopt, hph⟩ := hJ
      rcases hph with ⟨pre', hpre⟩ | ⟨_, hthere⟩
      · rw [hent] at hpre
        simp at hpre
      · refine ⟨by rw [f6]; exact hopt, Or.inr ⟨?_, by rw [f1]; exact hthere⟩⟩
        rw [f7]
        intro x hx
        simp only [Sync.logCall, hent] at hx
        simp at hx
    · intro s rest _ _ _ hJ
      exact hJ
    · intro s path rest _ _ _ _ _ hJ
      exact hJ
    · -- a deletion
      intro s path _ fi _ hent _ hne hP hfi hJ hok
      obtain ⟨f1, f2, _, _⟩ := deleteEntry_fields RefFs.asFs path fi (LstatOrStat RefFs.asFs path s).2
      obtain ⟨hopt, hph⟩ := hJ
      rcases hph with ⟨pre', hpre⟩ | ⟨hsafe, hthere⟩
      · rw [hent] at hpre
        simp at hpre
      · have hr : Reach RefFs.asFs (Spares (fun p => Covers p (normalizePath ent.hdr.name))) s
            (deleteEntry RefFs.asFs path (.ok fi) (LstatOrStat RefFs.asFs path s).2).2 :=
          (reach_LstatOrStat RefFs.asFs _ path s).trans
            (reach_deleteEntry RefFs.asFs _ path (fun _ _ _ => hP) _ _)
        refine ⟨by rw [f2]; exact hopt, Or.inr ⟨?_, present_reach _ _ _ hr hthere⟩⟩
        rw [f1]
        exact hsafe
    · -- the final release of the base directory
      intro s _ hent _ hJ _
      obtain ⟨_, hph⟩ := hJ
      rcases hph with ⟨pre', hpre⟩ | ⟨_, hthere⟩
      · rw [hent] at hpre
        simp at hpre
      · have hr : Reach RefFs.asFs (Spares (fun p => Covers p (normalizePath ent.hdr.name))) s
            ((preserveBaseDir RefFs.asFs "" s).2.setErr none) :=
          (reach_releaseBaseDir RefFs.asFs _ s).trans (reach_silent rfl rfl rfl rfl)
        exact present_reach _ _ _ hr hthere
    · -- the inventory of the first state
      refine ⟨fun _ => ⟨n5, ?_⟩, fun m hm => ?_, fun l hl => ?_⟩
      · intro paths hp
        rw [n1] at hp
        rw [n2, n3]
        exact hwalk paths hp
      · rw [n4] at hm
        simp at hm
      · rw [n5] at hl
        simp at hl
    · exact ⟨n3, Or.inl ⟨pre, by rw [n2]⟩⟩
  unfold Present at key
  cases hi : s'.fs.ino (keyOf (normalizePath ent.hdr.name)) with
  | none => exact absurd hi key
  | some i =>
    exact ⟨RefFs.infoOf i (s'.fs.node i), by simp [RefFs.lstat, hi]⟩
/-! ## The creating step, in full -/

/-- The creating step of a reconciler, outcome by outcome: once the Preserver has taken
the parent the creating call is made; once that call has succeeded the marks are on the
update; and the step succeeds exactly when the Preserver, the call and the Metadata
Syncer all do. -/
theorem createEntry_outcomes (F : Fs σ) (hdr : Header) (c : Call) (msg : String)
    (mark : Sync σ → Sync σ) (s : Sync σ) (hmark : ∀ s1, (mark s1).log = s1.log) :
    ((preserveBaseDir F (filepathDir (normalizePath hdr.name)) s).1 = none →
      c ∈ newCalls s (createEntry F hdr c msg mark s).2) ∧
    ((preserveBaseDir F (filepathDir (normalizePath hdr.name)) s).1 = none →
      ((preserveBaseDir F (filepathDir (normalizePath hdr.name)) s).2.call F c).1 = none →
      (createEntry F hdr c msg mark s).2.stable =
        (mark ((preserveBaseDir F (filepathDir (normalizePath hdr.name)) s).2.call F c).2).stable) ∧
    ((createEntry F hdr c msg mark s).1 = none ↔
      (preserveBaseDir F (filepathDir (normalizePath hdr.name)) s).1 = none ∧
      ((preserveBaseDir F (filepathDir (normalizePath hdr.name)) s).2.call F c).1 = none ∧
      (syncStatWrapped F hdr none
        (mark ((preserveBaseDir F (filepathDir (normalizePath hdr.name)) s).2.call F c).2)).1 =
        none) := by
  have h1 := extends_preserveBaseDir (P := fun _ => True) F
    (filepathDir (normalizePath hdr.name)) s trivial trivial
  have e1 := extends_call (P := fun _ => True) F
    (preserveBaseDir F (filepathDir (normalizePath hdr.name)) s).2 c trivial
  have hn : newCalls s ((preserveBaseDir F (filepathDir (normalizePath hdr.name)) s).2.call F c).2 =
      newCalls s (preserveBaseDir F (filepathDir (normalizePath hdr.name)) s).2 ++ [c] := by
    rw [newCalls_append h1 e1]
    simp [newCalls, Sync.call]
  unfold createEntry
  simp only
  cases hp : (preserveBaseDir F (filepathDir (normalizePath hdr.name)) s).1 with
  | some e => simp
  | none =>
    cases hcall : ((preserveBaseDir F (filepathDir (normalizePath hdr.name)) s).2.call F c).1 with
    | some e =>
      refine ⟨fun _ => ?_, fun _ h => Option.noConfusion h, ?_⟩
      · show c ∈ newCalls s
          ((preserveBaseDir F (filepathDir (normalizePath hdr.name)) s).2.call F c).2
        rw [hn]
        simp
      · simp
    | none =>
      have e2 : Extends (fun _ => True)
          ((preserveBaseDir F (filepathDir (normalizePath hdr.name)) s).2.call F c).2
          (syncStatWrapped F hdr none
            (mark ((preserveBaseDir F (filepathDir (normalizePath hdr.name)) s).2.call F c).2)).2 :=
        extends_trans (extends_of_log_eq (hmark _))
          (extends_mono (extends_syncStatWrapped F hdr none _) (fun _ _ => trivial))
      refine ⟨fun _ => ?_, fun _ _ => stable_syncStatWrapped F hdr none _, ?_⟩
      · show c ∈ newCalls s (syncStatWrapped F hdr none
          (mark ((preserveBaseDir F (filepathDir (normalizePath hdr.name)) s).2.call F c).2)).2
        rw [newCalls_append (extends_trans h1 e1) e2, hn]
        simp
      · simp

/-! ## Regular files: when the body is written -/

/-- C7: a regular-file entry whose path holds a regular file.  When the header's size
and mtime are those on disk no write is issued, whatever the file holds, and the update
is not marked added.  When the size or the mtime differs, the Preserver takes the parent
and, unless that fails, the body is written to the path; unless the write fails the
update is marked added; and the reconciler returns nil exactly when the Preserver, the
write and the Metadata Syncer succeed.  Hence, for a reconciler that returns nil, the
body is written and the update marked added if and only if the size or the mtime
differs. -/
theorem syncRegularFile_writes_iff_stale (F : Fs σ) (hdr : Header) (body : String)
    (s : Sync σ) (fi : FileInfo)
    (hstat : F.lstatOrStat s.fs (normalizePath hdr.name) = .ok fi)
    (hreg : modeIsRegular fi.mode = true) (hupd : s.upd.update.Added = false) :
    ((hdr.size = fi.size ∧ hdr.modTime = fi.modTime) →
      (∀ p b, Call.writeReader p b ∉ newCalls s (syncRegularFile F hdr body s).2) ∧
        (syncRegularFile F hdr body s).2.upd.update.Added = false) ∧
    ((hdr.size ≠ fi.size ∨ hdr.modTime ≠ fi.modTime) →
      ((preserveBaseDir F (filepathDir (normalizePath hdr.name))
          (LstatOrStat F (normalizePath hdr.name) s).2).1 = none →
        Call.writeReader (normalizePath hdr.name) body ∈
          newCalls s (syncRegularFile F hdr body s).2) ∧
      ((preserveBaseDir F (filepathDir (normalizePath hdr.name))
          (LstatOrStat F (normalizePath hdr.name) s).2).1 = none →
        ((preserveBaseDir F (filepathDir (normalizePath hdr.name))
          (LstatOrStat F (normalizePath hdr.name) s).2).2.call F
            (.writeReader (normalizePath hdr.name) body)).1 = none →
        (syncRegularFile F hdr body s).2.upd.update.Added = true) ∧
      ((syncRegularFile F hdr body s).1 = none ↔
        (preserveBaseDir F (filepathDir (normalizePath hdr.name))
          (LstatOrStat F (normalizePath hdr.name) s).2).1 = none ∧
        ((preserveBaseDir F (filepathDir (normalizePath hdr.name))
          (LstatOrStat F (normalizePath hdr.name) s).2).2.call F
            (.writeReader (normalizePath hdr.name) body)).1 = none ∧
        (syncStatWrapped F hdr none
          ((preserveBaseDir F (filepathDir (normalizePath hdr.name))
            (LstatOrStat F (normalizePath hdr.name) s).2).2.call F
              (.writeReader (normalizePath hdr.name) body)).2.markAdded).1 = none)) ∧
    ((syncRegularFile F hdr body s).1 = none →
      ((Call.writeReader (normalizePath hdr.name) body ∈
            newCalls s (syncRegularFile F hdr body s).2 ∧
          (syncRegularFile F hdr body s).2.upd.update.Added = true) ↔
        (hdr.size ≠ fi.size ∨ hdr.modTime ≠ fi.modTime))) := by
  rw [syncRegularFile_of_regular F hdr body s fi hstat hreg]
  have hA : (hdr.size = fi.size ∧ hdr.modTime = fi.modTime) →
      (∀ p b, Call.writeReader p b ∉ newCalls s
        (syncStatWrapped F hdr (some fi) (LstatOrStat F (normalizePath hdr.name) s).2).2) ∧
      (syncStatWrapped F hdr (some fi)
        (LstatOrStat F (normalizePath hdr.name) s).2).2.upd.update.Added = false := by
    intro _
    have hne : ∀ c, isSyncStatCall F hdr c → ∀ p b, c ≠ Call.writeReader p b := by
      intro c hc p b
      unfold isSyncStatCall Fs.lstatCall ownerCall at hc
      rcases hc with h | h | h | h <;> (subst h; try split) <;> simp
    have e : Extends (fun c => ∀ p b, c ≠ Call.writeReader p b) s
        (syncStatWrapped F hdr (some fi) (LstatOrStat F (normalizePath hdr.name) s).2).2 :=
      extends_trans (extends_LstatOrStat F _ s (by unfold Fs.lstatCall; split <;> simp))
        (extends_mono (extends_syncStatWrapped F hdr (some fi) _) hne)
    refine ⟨fun p b hmem => extends_new e _ hmem p b rfl, ?_⟩
    rw [added_of_stable (stable_syncStatWrapped F hdr (some fi) _)]
    exact hupd
  by_cases heq : hdr.size = fi.size ∧ hdr.modTime = fi.modTime
  · rw [if_pos heq]
    refine ⟨fun _ => hA heq, fun h => ?_, fun _ => ?_⟩
    · rcases h with h | h
      · exact absurd heq.1 h
      · exact absurd heq.2 h
    · constructor
      · rintro ⟨hw, _⟩
        exact absurd hw ((hA heq).1 _ _)
      · intro h
        rcases h with h | h
        · exact absurd heq.1 h
        · exact absurd heq.2 h
  · rw [if_neg heq]
    have hstale : hdr.size ≠ fi.size ∨ hdr.modTime ≠ fi.modTime := by
      by_contra hcon
      push_neg at hcon
      exact heq ⟨hcon.1, hcon.2⟩
    obtain ⟨o1, o2, o3⟩ := createEntry_outcomes F hdr (.writeReader (normalizePath hdr.name) body)
      "failed to write file: " Sync.markAdded (LstatOrStat F (normalizePath hdr.name) s).2
      (fun _ => rfl)
    have e0 := extends_LstatOrStat (P := fun _ => True) F (normalizePath hdr.name) s trivial
    have e1 := extends_createEntry (P := fun _ => True) F hdr
      (.writeReader (normalizePath hdr.name) body) "failed to write file: " Sync.markAdded
      (LstatOrStat F (normalizePath hdr.name) s).2 (fun _ => rfl) trivial trivial trivial
      (fun _ _ => trivial)
    have hw : (preserveBaseDir F (filepathDir (normalizePath hdr.name))
          (LstatOrStat F (normalizePath hdr.name) s).2).1 = none →
        Call.writeReader (normalizePath hdr.name) body ∈ newCalls s
          (createEntry F hdr (.writeReader (normalizePath hdr.name) body)
            "failed to write file: " Sync.markAdded
            (LstatOrStat F (normalizePath hdr.name) s).2).2 := by
      intro hp
      rw [newCalls_append e0 e1]
      exact List.mem_append_right _ (o1 hp)
    have ha : (preserveBaseDir F (filepathDir (normalizePath hdr.name))
          (LstatOrStat F (normalizePath hdr.name) s).2).1 = none →
        ((preserveBaseDir F (filepathDir (normalizePath hdr.name))
          (LstatOrStat F (normalizePath hdr.name) s).2).2.call F
            (.writeReader (normalizePath hdr.name) body)).1 = none →
        (createEntry F hdr (.writeReader (normalizePath hdr.name) body)
            "failed to write file: " Sync.markAdded
            (LstatOrStat F (normalizePath hdr.name) s).2).2.upd.update.Added = true := by
      intro hp hc
      rw [added_of_stable (o2 hp hc)]
      rfl
    refine ⟨fun h => absurd h heq, fun _ => ⟨hw, ha, o3⟩, fun hok => ?_⟩
    obtain ⟨p1, p2, _⟩ := o3.mp hok
    exact ⟨fun _ => hstale, fun _ => ⟨hw p1, ha p1 p2⟩⟩

/-! ## Symlink entries: ownership -/

/-- C12: a symlink entry never causes a `chown` or a `chmod`, whatever the outcome.
When its reconciliation succeeds, the update has the mode it started with (none in
`Next`, which starts every entry with an empty update), and `lchown` is called on the
link path with the header's uid and gid exactly when ownership is enabled and the uid or
the gid of the link differs from the header's.  Here `info` is the metadata of the link:
what `Lstat` reported of the path when the link was kept; when the link was made, what
the lstat that follows the creating call in the trace reads on the destination that the
calls up to the creating call have left.  The update then carries uid and gid. -/
theorem symlink_entry_uses_lchown (F : Fs σ) (ent : TarEntry) (s : Sync σ)
    (hS : ent.hdr.typeflag = TypeSymlink) :
    (∀ c ∈ newCalls s (dispatch F ent s).2,
      (∀ n u g, c ≠ Call.chown n u g) ∧ (∀ n m, c ≠ Call.chmod n m)) ∧
    ((dispatch F ent s).1 = .synced →
      (dispatch F ent s).2.upd.update.Mode = s.upd.update.Mode ∧
      ∃ info,
        (entryStat F ent s.fs = .ok info ∨
          ∃ pre rest, newCalls s (dispatch F ent s).2 =
              pre ++ createCallOf ent :: F.lstatCall (normalizePath ent.hdr.name) :: rest ∧
            F.lstatOrStat (replay F (pre ++ [createCallOf ent]) s.fs)
              (normalizePath ent.hdr.name) = .ok info) ∧
        (ownerDiffers s.opts ent.hdr info ↔
          Call.lchown (normalizePath ent.hdr.name) ent.hdr.uid ent.hdr.gid ∈
            newCalls s (dispatch F ent s).2) ∧
        (ownerDiffers s.opts ent.hdr info →
          (dispatch F ent s).2.upd.update.Uid = some ent.hdr.uid ∧
          (dispatch F ent s).2.upd.update.Gid = some ent.hdr.gid)) := by
  have hSD : TypeSymlink ≠ TypeDir := by decide
  constructor
  · intro c hc
    have hb : c.isChownOrChmod = false := by
      rcases dispatch_symlink_state F ent s hS with h | h
      · rw [h, newCalls_self] at hc
        simp at hc
      · rw [h] at hc
        exact extends_new (extends_syncSymlink F ent.hdr s hS) c hc
    constructor
    · intro n u g h
      rw [h] at hb
      simp [Call.isChownOrChmod] at hb
    · intro n m h
      rw [h] at hb
      simp [Call.isChownOrChmod] at hb
  · intro hd
    obtain ⟨fi0, s0, hp, hbr, hok, hfin⟩ := dispatch_ends F ent s hd
    obtain ⟨info, fi2, h0, e1, e2, e3, e4, e5⟩ := syncStat_exact F ent.hdr fi0 s0 hok
    have hopt : s0.opts = s.opts := (ctl_fields hp.2).2.1
    have hx := extends_mono (extends_syncStat F ent.hdr fi0 s0) (fun _ _ => trivial)
    have hsplit : newCalls s (dispatch F ent s).2 =
        newCalls s s0 ++ newCalls s0 (syncStat F ent.hdr fi0 s0).2 := by
      rw [hfin]
      exact newCalls_append hp.1 hx
    have hmd : ¬ modeDiffers ent.hdr fi2 := fun h => h.1 hS
    have hmp : modePart ent.hdr fi2 = [] := by
      unfold modePart
      rw [if_neg hmd]
    have hupd0 : s0.upd.update.Mode = s.upd.update.Mode ∧
        s0.upd.update.Uid = s.upd.update.Uid ∧ s0.upd.update.Gid = s.upd.update.Gid := by
      rcases hbr with ⟨_, _, _, hu, _⟩ | ⟨_, hu, _⟩
      · rw [hu]
        exact ⟨rfl, rfl, rfl⟩
      · rw [hu]
        unfold markOf
        rw [hS, if_neg hSD, if_pos rfl]
        exact ⟨rfl, rfl, rfl⟩
    rw [hopt] at e1 e2 e3 e4 e5
    refine ⟨?_, info, ?_, ?_, ?_⟩
    · rw [hfin, e5]
      simp only [hmd, if_false]
      exact hupd0.1
    · rcases hbr with ⟨info0, hf, hes, _, hfs⟩ | ⟨hf, _, hc, hlast, htr⟩
      · left
        rcases h0 with h1 | ⟨h1, _⟩
        · rw [hf] at h1
          simp only [Option.some.injEq] at h1
          rw [← h1]
          exact hes
        · rw [hf] at h1
          simp at h1
      · right
        obtain ⟨pre, hpre⟩ := hlast
        rcases h0 with h1 | ⟨_, hl⟩
        · rw [hf] at h1
          simp at h1
        · refine ⟨pre, ownerPart F ent.hdr info s.opts ++ modePart ent.hdr fi2 ++
            timePart ent.hdr fi2, ?_, ?_⟩
          · rw [hsplit, e3, hpre, hf]
            simp [readPart]
          · rw [← hpre, ← htr]
            exact hl
    · rw [hsplit, e3, hmp]
      constructor
      · intro hod
        refine List.mem_append_right _ (List.mem_append_right _ ?_)
        unfold ownerPart
        rw [if_pos hod, ownerCall_symlink ent.hdr hS]
        simp
      · intro hmem
        by_contra hod
        rcases List.mem_append.mp hmem with hm | hm
        · have := extends_new hp.1 _ hm
          simp [Call.isOwnerOrMode] at this
        · unfold ownerPart readPart timePart at hm
          rw [if_neg hod] at hm
          have hlc : F.lstatCall (normalizePath ent.hdr.name) ≠
              Call.lchown (normalizePath ent.hdr.name) ent.hdr.uid ent.hdr.gid := by
            unfold Fs.lstatCall
            split <;> simp
          split at hm <;> split at hm <;> simp [hlc.symm] at hm
    · intro hod
      rw [hfin, e5]
      simp [hod]

/-! ## Directory entries: the mode of an added directory -/

/-- The directory reconciler on a path that is not there goes on to create it. -/
theorem syncDir_of_absent (F : Fs σ) (hdr : Header) (s : Sync σ) (e : Error)
    (habs : F.lstatOrStat s.fs (normalizePath hdr.name) = .error e) (hne : e.isNotExist = true) :
    syncDir F hdr s =
      createEntry F hdr (.mkdir (normalizePath hdr.name) (modePermOf hdr.fileMode))
        "failed to make file: "
        (fun t => t.markAdded.markMode (modePermOf hdr.fileMode ||| ModeDir))
        (LstatOrStat F (normalizePath hdr.name) s).2 := by
  unfold syncDir
  have hl : (LstatOrStat F (normalizePath hdr.name) s).1 = .error e := habs
  simp only [hl, statResult_absent e hne, dropUnless]

/-- C20 (amended): a directory entry whose path is absent.  When the reconciliation
succeeds, `Mkdir` was called on the path with the permission bits of the header's mode,
and the update is marked added and carries a mode.  Let `info` be what lstat reads of
the path on the destination that `Mkdir` has left, and `fi2` what it reads after the
ownership call when the owner of `info` differs from the header's (with ownership
enabled), `info` itself otherwise.  The mode of the update is the header's whole file
mode (type, permission, setuid, setgid and sticky bits) when that differs from the mode
of `fi2`, in which case `chmod` was called with it, and the header's permission bits
combined with the directory bit otherwise.  The two agree when the header's mode has no
other bit. -/
theorem dir_entry_added (F : Fs σ) (ent : TarEntry) (s : Sync σ)
    (hD : ent.hdr.typeflag = TypeDir)
    (habs : ∃ e, F.lstatOrStat s.fs (normalizePath ent.hdr.name) = .error e ∧
      e.isNotExist = true)
    (hd : (dispatch F ent s).1 = .synced) :
    Call.mkdir (normalizePath ent.hdr.name) (modePermOf ent.hdr.fileMode) ∈
        newCalls s (dispatch F ent s).2 ∧
      (dispatch F ent s).2.upd.update.Added = true ∧
      (∃ info fi2 : FileInfo,
        F.lstatOrStat
            (F.exec (.mkdir (normalizePath ent.hdr.name) (modePermOf ent.hdr.fileMode))
              (preserveBaseDir F (filepathDir (normalizePath ent.hdr.name))
                (LstatOrStat F (normalizePath ent.hdr.name) s).2).2.fs).2
            (normalizePath ent.hdr.name) = .ok info ∧
        (ownerDiffers s.opts ent.hdr info →
          F.lstatOrStat
            (F.exec (ownerCall ent.hdr)
              (F.exec (.mkdir (normalizePath ent.hdr.name) (modePermOf ent.hdr.fileMode))
                (preserveBaseDir F (filepathDir (normalizePath ent.hdr.name))
                  (LstatOrStat F (normalizePath ent.hdr.name) s).2).2.fs).2).2
            (normalizePath ent.hdr.name) = .ok fi2) ∧
        (¬ ownerDiffers s.opts ent.hdr info → fi2 = info) ∧
        (dispatch F ent s).2.upd.update.Mode =
          (if ent.hdr.fileMode ≠ fi2.mode then some ent.hdr.fileMode
            else some (modePermOf ent.hdr.fileMode ||| ModeDir)) ∧
        (ent.hdr.fileMode ≠ fi2.mode ↔
          Call.chmod (normalizePath ent.hdr.name) ent.hdr.fileMode ∈
            newCalls s (dispatch F ent s).2)) ∧
      (ent.hdr.fileMode = modePermOf ent.hdr.fileMode ||| ModeDir →
        (dispatch F ent s).2.upd.update.Mode =
          some (modePermOf ent.hdr.fileMode ||| ModeDir)) := by
  have hDS : TypeDir ≠ TypeSymlink := by decide
  obtain ⟨e, habs, hne⟩ := habs
  obtain ⟨d1, d2⟩ := dispatch_dir_synced F ent s hD hd
  rw [d2]
  rw [syncDir_of_absent F ent.hdr s e habs hne] at d1 ⊢
  obtain ⟨o1, o2, o3⟩ := createEntry_outcomes F ent.hdr
    (.mkdir (normalizePath ent.hdr.name) (modePermOf ent.hdr.fileMode)) "failed to make file: "
    (fun t => t.markAdded.markMode (modePermOf ent.hdr.fileMode ||| ModeDir))
    (LstatOrStat F (normalizePath ent.hdr.name) s).2 (fun _ => rfl)
  obtain ⟨p1, p2, p3⟩ := o3.mp d1
  obtain ⟨w1, w2⟩ := syncStatWrapped_ok F ent.hdr none _ p3
  have hfinal : (createEntry F ent.hdr
      (.mkdir (normalizePath ent.hdr.name) (modePermOf ent.hdr.fileMode)) "failed to make file: "
      (fun t => t.markAdded.markMode (modePermOf ent.hdr.fileMode ||| ModeDir))
      (LstatOrStat F (normalizePath ent.hdr.name) s).2).2 =
      (syncStat F ent.hdr none
        (((preserveBaseDir F (filepathDir (normalizePath ent.hdr.name))
          (LstatOrStat F (normalizePath ent.hdr.name) s).2).2.call F
            (.mkdir (normalizePath ent.hdr.name)
              (modePermOf ent.hdr.fileMode))).2.markAdded.markMode
          (modePermOf ent.hdr.fileMode ||| ModeDir))).2 := by
    unfold createEntry
    simp only [p1, p2]
    exact w2
  generalize hs0 : (((preserveBaseDir F (filepathDir (normalizePath ent.hdr.name))
      (LstatOrStat F (normalizePath ent.hdr.name) s).2).2.call F
        (.mkdir (normalizePath ent.hdr.name)
          (modePermOf ent.hdr.fileMode))).2.markAdded.markMode
      (modePermOf ent.hdr.fileMode ||| ModeDir)) = s0 at w1 w2 hfinal
  have hfs0 : s0.fs = (F.exec (.mkdir (normalizePath ent.hdr.name) (modePermOf ent.hdr.fileMode))
      (preserveBaseDir F (filepathDir (normalizePath ent.hdr.name))
        (LstatOrStat F (normalizePath ent.hdr.name) s).2).2.fs).2 := by
    rw [← hs0]
    rfl
  have hpre : Prepared s s0 := by
    rw [← hs0]
    refine prepared_trans (prepared_trans (prepared_LstatOrStat F _ s)
      (prepared_preserveBaseDir F _ _)) ⟨⟨[_], rfl, ?_⟩, rfl⟩
    intro c hc
    rw [List.mem_singleton.mp hc]
    rfl
  have hopt : s0.opts = s.opts := (ctl_fields hpre.2).2.1
  have hmark : s0.upd.update.Added = true ∧
      s0.upd.update.Mode = some (modePermOf ent.hdr.fileMode ||| ModeDir) := by
    rw [← hs0]
    exact ⟨rfl, rfl⟩
  obtain ⟨info, fi2, h0, e1, e2, e3, e4, e5⟩ := syncStat_exact F ent.hdr none s0 w1
  rw [hopt] at e1 e2 e3 e5
  rw [hfs0] at h0 e1
  have hx := extends_mono (extends_syncStat F ent.hdr none s0) (fun _ _ => trivial)
  have hsplit : newCalls s (syncStat F ent.hdr none s0).2 =
      newCalls s s0 ++ newCalls s0 (syncStat F ent.hdr none s0).2 :=
    newCalls_append hpre.1 hx
  have hmd : modeDiffers ent.hdr fi2 ↔ ent.hdr.fileMode ≠ fi2.mode := by
    unfold modeDiffers
    rw [hD]
    exact ⟨fun h => h.2, fun h => ⟨hDS, h⟩⟩
  have hmode : (syncStat F ent.hdr none s0).2.upd.update.Mode =
      (if ent.hdr.fileMode ≠ fi2.mode then some ent.hdr.fileMode
        else some (modePermOf ent.hdr.fileMode ||| ModeDir)) := by
    rw [e5]
    by_cases h : ent.hdr.fileMode ≠ fi2.mode
    · simp [hmd.mpr h, h]
    · have h' : ¬ modeDiffers ent.hdr fi2 := fun hh => h (hmd.mp hh)
      simp only [h', if_false]
      rw [if_neg h]
      exact hmark.2
  have hinfo : F.lstatOrStat
      (F.exec (.mkdir (normalizePath ent.hdr.name) (modePermOf ent.hdr.fileMode))
        (preserveBaseDir F (filepathDir (normalizePath ent.hdr.name))
          (LstatOrStat F (normalizePath ent.hdr.name) s).2).2.fs).2
      (normalizePath ent.hdr.name) = .ok info := by
    rcases h0 with h | ⟨_, h⟩
    · cases h
    · exact h
  rw [hfinal]
  refine ⟨?_, ?_, ⟨info, fi2, hinfo, fun h => (e1 h).2, e2, hmode, ?_⟩, ?_⟩
  · rw [← hfinal]
    have e0 := extends_LstatOrStat (P := fun _ => True) F (normalizePath ent.hdr.name) s trivial
    have ec := extends_createEntry (P := fun _ => True) F ent.hdr
      (.mkdir (normalizePath ent.hdr.name) (modePermOf ent.hdr.fileMode)) "failed to make file: "
      (fun t => t.markAdded.markMode (modePermOf ent.hdr.fileMode ||| ModeDir))
      (LstatOrStat F (normalizePath ent.hdr.name) s).2 (fun _ => rfl) trivial trivial trivial
      (fun _ _ => trivial)
    rw [newCalls_append e0 ec]
    exact List.mem_append_right _ (o1 p1)
  · rw [e5]
    exact hmark.1
  · rw [hsplit, e3]
    constructor
    · intro h
      refine List.mem_append_right _ (List.mem_append_right _
        (List.mem_append_left _ (List.mem_append_right _ ?_)))
      unfold modePart
      rw [if_pos (hmd.mpr h)]
      simp
    · intro hmem
      by_contra h
      have h' : ¬ modeDiffers ent.hdr fi2 := fun hh => (hmd.mp hh) h
      rcases List.mem_append.mp hmem with hm | hm
      · have := extends_new hpre.1 _ hm
        simp [Call.isOwnerOrMode] at this
      · unfold ownerPart readPart modePart timePart ownerCall at hm
        rw [if_neg h'] at hm
        have hlc : F.lstatCall (normalizePath ent.hdr.name) ≠
            Call.chmod (normalizePath ent.hdr.name) ent.hdr.fileMode := by
          unfold Fs.lstatCall
          split <;> simp
        simp only [hD, hDS, if_false] at hm
        split at hm <;> split at hm <;> simp [hlc.symm] at hm
  · intro heq
    rw [hmode]
    split
    · exact congrArg some heq
    · rfl

/-! ## Destinations with hard links: what the calls keep -/

namespace RefFs

theorem neat_of_tidy (fs : RefFs) (h : Tidy fs) : Neat fs := ⟨h.1, h.2.2.1, h.2.2.2⟩

theorem neat_of_same (fs fs' : RefFs) (h1 : fs'.ino = fs.ino) (h2 : fs'.nextIno = fs.nextIno)
    (h3 : fs'.known = fs.known) (h : Neat fs) : Neat fs' := by
  obtain ⟨t1, t3, t4⟩ := h
  refine ⟨fun k i hk => ?_, fun k i hk => ?_, fun k i hk => ?_⟩
  · rw [h2]; exact t1 k i (h1 ▸ hk)
  · rw [h3]; exact t3 k i (h1 ▸ hk)
  · exact t4 k i (h1 ▸ hk)

theorem neat_touchParent (fs : RefFs) (k : Key) (h : Neat fs) : Neat (fs.touchParent k) :=
  neat_of_same fs _ (touchParent_ino fs k) (touchParent_nextIno fs k) (touchParent_known fs k) h

theorem neat_addEntry (fs : RefFs) (k : Key) (n : Inode) (hk : GoodRev k.reverse)
    (h : Neat fs) : Neat (fs.addEntry k n) := by
  obtain ⟨t1, t3, t4⟩ := h
  unfold addEntry
  simp only
  refine neat_of_same _ _ rfl rfl rfl (neat_touchParent _ k
    ⟨fun q i hq => ?_, fun q i hq => ?_, fun q i hq => ?_⟩)
  · simp only at hq ⊢
    split at hq
    · simp only [Option.some.injEq] at hq
      omega
    · have := t1 q i hq
      omega
  · simp only at hq ⊢
    split at hq
    · rename_i hqk
      rw [hqk]
      exact List.mem_cons_self _ _
    · exact List.mem_cons_of_mem _ (t3 q i hq)
  · simp only at hq
    split at hq
    · rename_i hqk
      rw [hqk]
      exact hk
    · exact t4 q i hq

theorem neat_dropEntries (fs : RefFs) (k : Key) (gone : Key → Bool) (h : Neat fs) :
    Neat (fs.dropEntries k gone) := by
  obtain ⟨t1, t3, t4⟩ := h
  unfold dropEntries
  simp only
  refine neat_of_same _ _ rfl rfl rfl (neat_touchParent _ k
    ⟨fun q i hq => ?_, fun q i hq => ?_, fun q i hq => ?_⟩)
  · simp only at hq ⊢
    split at hq
    · simp at hq
    · exact t1 q i hq
  · simp only at hq ⊢
    split at hq
    · simp at hq
    · exact t3 q i hq
  · simp only at hq
    split at hq
    · simp at hq
    · exact t4 q i hq

/-- Every call leaves a neat destination neat. -/
theorem neat_exec (c : Call) (fs : RefFs) (h : Neat fs) : Neat (asFs.exec c fs).2 := by
  cases c with
  | tarNext => exact h
  | stat _ => exact h
  | lstat _ => exact h
  | readlink _ => exact h
  | walk => exact h
  | mkdir name perm =>
    simp only [Fs.exec, asFs, mkdir]
    split
    · exact h
    · exact neat_addEntry _ _ _ (goodRev_keyOf name) h
  | writeReader name body =>
    simp only [Fs.exec, asFs, writeReader]
    split
    · split
      · exact neat_of_same fs _ rfl rfl rfl h
      · exact h
    · split
      · exact h
      · exact neat_addEntry _ _ _ (goodRev_keyOf name) h
  | remove name =>
    simp only [Fs.exec, asFs, remove]
    split
    · exact h
    · split
      · exact h
      · split
        · exact h
        · exact neat_dropEntries _ _ _ h
  | removeAll name =>
    simp only [Fs.exec, asFs, removeAll]
    split
    · exact h
    · split
      · exact h
      · exact neat_dropEntries _ _ _ h
  | chmod name mode =>
    simp only [Fs.exec, asFs, chmod]
    split
    · exact h
    · exact neat_of_same fs _ rfl rfl rfl h
  | chown name uid gid =>
    simp only [Fs.exec, asFs, chown]
    split
    · exact h
    · exact neat_of_same fs _ rfl rfl rfl h
  | lchown name uid gid =>
    simp only [Fs.exec, asFs, chown]
    split
    · exact h
    · exact neat_of_same fs _ rfl rfl rfl h
  | chtimes name atime mtime =>
    simp only [Fs.exec, asFs, chtimes]
    split
    · exact h
    · exact neat_of_same fs _ rfl rfl rfl h
  | symlink target name =>
    simp only [Fs.exec, asFs, symlink]
    split
    · exact h
    · exact neat_addEntry _ _ _ (goodRev_keyOf name) h
  | link oldname newname =>
    simp only [Fs.exec, asFs, link]
    split
    · exact h
    · rename_i i hi
      split
      · exact h
      · split
        · exact h
        · obtain ⟨t1, t3, t4⟩ := h
          refine neat_of_same _ _ rfl rfl rfl (neat_touchParent _ _
            ⟨fun q j hq => ?_, fun q j hq => ?_, fun q j hq => ?_⟩)
          · simp only at hq ⊢
            split at hq
            · simp only [Option.some.injEq] at hq
              subst hq
              exact t1 _ _ hi
            · exact t1 q j hq
          · simp only at hq ⊢
            split at hq
            · rename_i hqk
              rw [hqk]
              exact List.mem_cons_self _ _
            · exact List.mem_cons_of_mem _ (t3 q j hq)
          · simp only at hq
            split at hq
            · rename_i hqk
              rw [hqk]
              exact goodRev_keyOf newname
            · exact t4 q j hq

/-- No call lowers the next free inode number. -/
theorem exec_nextIno_le (c : Call) (fs : RefFs) : fs.nextIno ≤ (asFs.exec c fs).2.nextIno := by
  cases c with
  | tarNext => exact le_refl _
  | stat _ => exact le_refl _
  | lstat _ => exact le_refl _
  | readlink _ => exact le_refl _
  | walk => exact le_refl _
  | mkdir name perm =>
    simp only [Fs.exec, asFs, mkdir]
    split
    · exact le_refl _
    · simp [addEntry, tick]
  | writeReader name body =>
    simp only [Fs.exec, asFs, writeReader]
    split
    · split
      · exact le_refl _
      · exact le_refl _
    · split
      · exact le_refl _
      · simp [addEntry, tick]
  | remove name =>
    simp only [Fs.exec, asFs, remove]
    split
    · exact le_refl _
    · split
      · exact le_refl _
      · split
        · exact le_refl _
        · simp [dropEntries, tick]
  | removeAll name =>
    simp only [Fs.exec, asFs, removeAll]
    split
    · exact le_refl _
    · split
      · exact le_refl _
      · simp [dropEntries, tick]
  | chmod name mode =>
    simp only [Fs.exec, asFs, chmod]
    split <;> exact le_refl _
  | chown name uid gid =>
    simp only [Fs.exec, asFs, chown]
    split <;> exact le_refl _
  | lchown name uid gid =>
    simp only [Fs.exec, asFs, chown]
    split <;> exact le_refl _
  | chtimes name atime mtime =>
    simp only [Fs.exec, asFs, chtimes]
    split <;> exact le_refl _
  | symlink target name =>
    simp only [Fs.exec, asFs, symlink]
    split
    · exact le_refl _
    · simp [addEntry, tick]
  | link oldname newname =>
    simp only [Fs.exec, asFs, link]
    split
    · exact le_refl _
    · split
      · exact le_refl _
      · split
        · exact le_refl _
        · simp [tick]

/-- After a call that creates or removes the entry at `path`, not a hard link, the name
is on the inode it was on, or gone, or on a fresh inode. -/
theorem exec_structural_at (c : Call) (path : String) (hc : c.isStructuralAt path)
    (hl : ∀ old, c ≠ .link old path) (fs : RefFs) :
    (asFs.exec c fs).2.ino (keyOf path) = fs.ino (keyOf path) ∨
      (asFs.exec c fs).2.ino (keyOf path) = none ∨
      (asFs.exec c fs).2.ino (keyOf path) = some fs.nextIno := by
  cases c <;> simp only [Call.isStructuralAt] at hc <;> subst hc
  · simp only [Fs.exec, asFs, mkdir]
    split
    · exact Or.inl rfl
    · exact Or.inr (Or.inr (by simp [addEntry_ino]))
  · simp only [Fs.exec, asFs, writeReader]
    split
    · split
      · exact Or.inl rfl
      · exact Or.inl rfl
    · split
      · exact Or.inl rfl
      · exact Or.inr (Or.inr (by simp [addEntry_ino]))
  · simp only [Fs.exec, asFs, remove]
    split
    · exact Or.inl rfl
    · split
      · exact Or.inl rfl
      · split
        · exact Or.inl rfl
        · exact Or.inr (Or.inl (by simp [dropEntries_ino]))
  · simp only [Fs.exec, asFs, removeAll]
    split
    · exact Or.inl rfl
    · split
      · exact Or.inl rfl
      · exact Or.inr (Or.inl (by simp [dropEntries_ino, isPrefixOf_self]))
  · simp only [Fs.exec, asFs, symlink]
    split
    · exact Or.inl rfl
    · exact Or.inr (Or.inr (by simp [addEntry_ino]))
  · exact absurd rfl (hl _)

/-- A call that creates or removes the entry at `path` changes at most the mtime of an
inode in use, unless it writes the file on that inode. -/
theorem exec_structural_blind (c : Call) (path : String) (hc : c.isStructuralAt path)
    (fs : RefFs) (j : Nat) (hj : j < fs.nextIno)
    (hk : ∀ body, c = .writeReader path body → fs.ino (keyOf path) ≠ some j) :
    ∃ t, (asFs.exec c fs).2.node j = { fs.node j with mtime := t } := by
  by_cases hl : ∀ old, c ≠ .link old path
  · by_cases hw : ∃ body, c = .writeReader path body
    · obtain ⟨body, hw⟩ := hw
      exact exec_structural_mtime c path hc hl fs j hj (hk body hw)
    · have hsame : ∃ t, fs.node j = { fs.node j with mtime := t } := ⟨(fs.node j).mtime, rfl⟩
      have hadd : ∀ n, fs.ino (keyOf path) = none →
          ∃ t, (fs.addEntry (keyOf path) n).node j = { fs.node j with mtime := t } := by
        intro n hn
        rw [addEntry_node fs _ n j hj hn]
        by_cases hp : fs.ino (keyOf path).dropLast = some j
        · rw [if_pos hp]
          exact ⟨_, rfl⟩
        · rw [if_neg hp]
          exact hsame
      have hdrop : ∀ gone, ∃ t, (fs.dropEntries (keyOf path) gone).node j
          = { fs.node j with mtime := t } := by
        intro gone
        simp only [dropEntries, tick, touchParent_node]
        by_cases hp : (if gone (keyOf path).dropLast = true then none
            else fs.ino (keyOf path).dropLast) = some j
        · rw [if_pos hp]
          exact ⟨_, rfl⟩
        · rw [if_neg hp]
          exact hsame
      cases c <;> simp only [Call.isStructuralAt] at hc <;> subst hc
      · simp only [Fs.exec, asFs, mkdir]
        split
        · exact hsame
        · rename_i hb
          exact hadd _ (createBlocked_none _ _ hb).1
      · exact absurd ⟨_, rfl⟩ hw
      · simp only [Fs.exec, asFs, remove]
        split
        · exact hsame
        · split
          · exact hsame
          · split
            · exact hsame
            · exact hdrop _
      · simp only [Fs.exec, asFs, removeAll]
        split
        · exact hsame
        · split
          · exact hsame
          · exact hdrop _
      · simp only [Fs.exec, asFs, symlink]
        split
        · exact hsame
        · rename_i hb
          exact hadd _ (createBlocked_none _ _ hb).1
      · exact absurd rfl (hl _)
  · simp only [not_forall, not_not] at hl
    obtain ⟨old, hl⟩ := hl
    subst hl
    simp only [Fs.exec, asFs, link]
    split
    · exact ⟨(fs.node j).mtime, rfl⟩
    · split
      · exact ⟨(fs.node j).mtime, rfl⟩
      · split
        · exact ⟨(fs.node j).mtime, rfl⟩
        · have hif : ∀ (b : Prop) [Decidable b], ∃ t,
              (if b then { fs.node j with mtime := fs.clock } else fs.node j) =
                { fs.node j with mtime := t } := by
            intro b _
            by_cases hb : b
            · exact ⟨_, by rw [if_pos hb]⟩
            · exact ⟨(fs.node j).mtime, by rw [if_neg hb]⟩
          simp only [tick, touchParent_node]
          exact hif _

/-- A call that creates or removes the entry at `path` changes no inode in use but
that of the parent of `path`, unless it writes the file on that inode. -/
theorem exec_structural_same (c : Call) (path : String) (hc : c.isStructuralAt path)
    (fs : RefFs) (j : Nat) (hj : j < fs.nextIno)
    (hk : ∀ body, c = .writeReader path body → fs.ino (keyOf path) ≠ some j)
    (hp : fs.ino (keyOf path).dropLast ≠ some j) : (asFs.exec c fs).2.node j = fs.node j := by
  cases c <;> simp only [Call.isStructuralAt] at hc <;> subst hc
  · simp only [Fs.exec, asFs, mkdir]
    split
    · rfl
    · rename_i hb
      rw [addEntry_node _ _ _ j hj (createBlocked_none _ _ hb).1, if_neg hp]
  · simp only [Fs.exec, asFs, writeReader]
    split
    · split
      · rename_i i hi hreg
        simp only [tick, setNode]
        split
        · rename_i h
          subst h
          exact absurd hi (hk _ rfl)
        · rfl
      · rfl
    · split
      · rfl
      · rename_i hb
        dsimp only
        rw [addEntry_node _ _ _ j hj (createBlocked_none _ _ hb).1, if_neg hp]
  · simp only [Fs.exec, asFs, remove]
    split
    · rfl
    · split
      · rfl
      · split
        · rfl
        · exact dropEntries_node _ _ _ j hp
  · simp only [Fs.exec, asFs, removeAll]
    split
    · rfl
    · split
      · rfl
      · exact dropEntries_node _ _ _ j hp
  · simp only [Fs.exec, asFs, symlink]
    split
    · rfl
    · rename_i hb
      rw [addEntry_node _ _ _ j hj (createBlocked_none _ _ hb).1, if_neg hp]
  · simp only [Fs.exec, asFs, link]
    split
    · rfl
    · rename_i i hi
      split
      · rfl
      · split
        · rfl
        · rename_i hb
          obtain ⟨b1, pi, b2, _⟩ := createBlocked_none _ _ hb
          simp only [tick, touchParent_node]
          refine if_neg (fun h => ?_)
          split at h
          · rename_i hkk
            rw [hkk, b1] at b2
            simp at b2
          · exact hp h

end RefFs

theorem not_prefix_dropLast (k : Key) (h : k ≠ []) : k.isPrefixOf k.dropLast = false := by
  cases hb : k.isPrefixOf k.dropLast with
  | false => rfl
  | true =>
    have hp := List.isPrefixOf_iff_prefix.mp hb
    have hl := hp.length_le
    simp only [List.length_dropLast] at hl
    cases k with
    | nil => exact absurd rfl h
    | cons a as =>
      simp at hl

theorem mem_solidKeys_root (tar : List TarEntry) : ([] : Key) ∈ solidKeys tar :=
  List.mem_cons_self _ _

theorem mem_solidKeys_of (tar : List TarEntry) (e : TarEntry) (he : e ∈ tar)
    (hl : e.hdr.typeflag ≠ TypeLink) : keyOf (normalizePath e.hdr.name) ∈ solidKeys tar :=
  List.mem_cons_of_mem _
    (List.mem_map.mpr ⟨e, List.mem_filter.mpr ⟨he, by simpa using hl⟩, rfl⟩)

theorem mem_solidKeys_iff (tar : List TarEntry) (k : Key) :
    k ∈ solidKeys tar ↔ k = [] ∨ ∃ e ∈ tar, e.hdr.typeflag ≠ TypeLink ∧
      keyOf (normalizePath e.hdr.name) = k := by
  unfold solidKeys
  simp only [List.mem_cons, List.mem_map, List.mem_filter, decide_eq_true_eq]
  constructor
  · rintro (h | ⟨e, ⟨he, hl⟩, hk⟩)
    · exact Or.inl h
    · exact Or.inr ⟨e, he, hl, hk⟩
  · rintro (h | ⟨e, he, hl, hk⟩)
    · exact Or.inl h
    · exact Or.inr ⟨e, ⟨he, hl⟩, hk⟩

/-- Two solid names on one inode are one name. -/
theorem plainApart_eq (tar : List TarEntry) (fs : RefFs) (h : PlainApart tar fs) (k k' : Key)
    (i : Nat) (hk : k ∈ solidKeys tar) (hk' : k' ∈ solidKeys tar) (hi : fs.ino k = some i)
    (hi' : fs.ino k' = some i) : k = k' :=
  h k hk k' hk' (by rw [hi]; simp) (hi.trans hi'.symm)

/-- A call keeps the solid names apart, when it makes no hard link at a solid name. -/
theorem plainApart_exec (tar : List TarEntry) (c : Call) (fs : RefFs)
    (hl : ∀ old new, c = .link old new → keyOf new ∉ solidKeys tar)
    (hn : RefFs.Neat fs) (h : PlainApart tar fs) : PlainApart tar (RefFs.asFs.exec c fs).2 := by
  by_cases hs : ∃ path, c.isStructuralAt path
  · obtain ⟨path, hc⟩ := hs
    intro k hk k' hk' hne heq
    obtain ⟨j, hj⟩ := Option.ne_none_iff_exists'.mp hne
    have hj' : (RefFs.asFs.exec c fs).2.ino k' = some j := heq ▸ hj
    by_contra hkk
    by_cases hlink : ∃ old, c = .link old path
    · obtain ⟨old, hlink⟩ := hlink
      have hns := hl old path hlink
      have h1 : k ≠ keyOf path := fun h => hns (h ▸ hk)
      have h2 : k' ≠ keyOf path := fun h => hns (h ▸ hk')
      exact hkk (plainApart_eq tar fs h k k' j hk hk'
        (RefFs.exec_structural_keeps c path hc fs k j h1 hj)
        (RefFs.exec_structural_keeps c path hc fs k' j h2 hj'))
    · have hnl : ∀ old, c ≠ .link old path := fun old h => hlink ⟨old, h⟩
      have key : ∀ a b : Key, a ∈ solidKeys tar → b ∈ solidKeys tar →
          (RefFs.asFs.exec c fs).2.ino a = some j → (RefFs.asFs.exec c fs).2.ino b = some j →
          a = keyOf path → b ≠ keyOf path → a = b := by
        intro a b ha hb hja hjb hap hbp
        have hb0 := RefFs.exec_structural_keeps c path hc fs b j hbp hjb
        rcases RefFs.exec_structural_at c path hc hnl fs with h1 | h1 | h1
        · rw [← hap, hja] at h1
          exact plainApart_eq tar fs h a b j ha hb h1.symm hb0
        · rw [← hap, hja] at h1
          simp at h1
        · rw [← hap, hja] at h1
          simp only [Option.some.injEq] at h1
          have := hn.1 b j hb0
          omega
      by_cases h1 : k = keyOf path
      · by_cases h2 : k' = keyOf path
        · exact hkk (h1.trans h2.symm)
        · exact hkk (key k k' hk hk' hj hj' h1 h2)
      · by_cases h2 : k' = keyOf path
        · exact hkk (key k' k hk' hk hj' hj h2 h1).symm
        · exact hkk (plainApart_eq tar fs h k k' j hk hk'
            (RefFs.exec_structural_keeps c path hc fs k j h1 hj)
            (RefFs.exec_structural_keeps c path hc fs k' j h2 hj'))
  · have hino : (RefFs.asFs.exec c fs).2.ino = fs.ino := by
      cases c with
      | tarNext => rfl
      | stat _ => rfl
      | lstat _ => rfl
      | readlink _ => rfl
      | walk => rfl
      | mkdir name perm => exact absurd ⟨name, by simp [Call.isStructuralAt]⟩ hs
      | writeReader name body => exact absurd ⟨name, by simp [Call.isStructuralAt]⟩ hs
      | remove name => exact absurd ⟨name, by simp [Call.isStructuralAt]⟩ hs
      | removeAll name => exact absurd ⟨name, by simp [Call.isStructuralAt]⟩ hs
      | chmod name mode => exact RefFs.exec_attr_ino _ name (by simp [Call.isAttrAt]) fs
      | chown name uid gid => exact RefFs.exec_attr_ino _ name (by simp [Call.isAttrAt]) fs
      | lchown name uid gid => exact RefFs.exec_attr_ino _ name (by simp [Call.isAttrAt]) fs
      | chtimes name atime mtime => exact RefFs.exec_attr_ino _ name (by simp [Call.isAttrAt]) fs
      | symlink target name => exact absurd ⟨name, by simp [Call.isStructuralAt]⟩ hs
      | link oldname newname => exact absurd ⟨newname, by simp [Call.isStructuralAt]⟩ hs
    unfold PlainApart
    rw [hino]
    exact h

/-! ## Destinations with hard links: what the primitive actions keep -/

theorem neat_step (Q : StepKind → String → Prop) (s s' : Sync RefFs)
    (h : Step RefFs.asFs Q s s') (hw : RefFs.Neat s.fs) : RefFs.Neat s'.fs := by
  cases h with
  | silent hfs hp hm hl => rw [hfs]; exact hw
  | read c hc => exact hw
  | restoreFailed h1 hr => exact RefFs.neat_exec _ _ hw
  | restore h1 hr => exact RefFs.neat_exec _ _ hw
  | snapshot path hQ fi h1 hD hfi => exact hw
  | structural path hQ' c hc hl h1 => exact RefFs.neat_exec _ _ hw
  | attr path hQ' c hc => exact RefFs.neat_exec _ _ hw

theorem neat_reach (Q : StepKind → String → Prop) (s s' : Sync RefFs)
    (h : Reach RefFs.asFs Q s s') (hw : RefFs.Neat s.fs) : RefFs.Neat s'.fs :=
  reach_invariant (fun t => RefFs.Neat t.fs) (fun t t' ht => neat_step Q t t' ht) h hw

theorem plainApart_step (tar : List TarEntry) (Q : StepKind → String → Prop)
    (hQ : ∀ p old, Q .structural p → Q .target old → keyOf p ∉ solidKeys tar)
    (s s' : Sync RefFs) (h : Step RefFs.asFs Q s s') (hn : RefFs.Neat s.fs)
    (hw : PlainApart tar s.fs) : PlainApart tar s'.fs := by
  cases h with
  | silent hfs hp hm hl => rw [hfs]; exact hw
  | read c hc => exact hw
  | restoreFailed h1 hr => exact plainApart_exec tar _ _ (fun _ _ h => by cases h) hn hw
  | restore h1 hr => exact plainApart_exec tar _ _ (fun _ _ h => by cases h) hn hw
  | snapshot path hQ fi h1 hD hfi => exact hw
  | structural path hQ' c hc hl h1 =>
    refine plainApart_exec tar _ _ ?_ hn hw
    intro old new h
    subst h
    simp only [Call.isStructuralAt] at hc
    subst hc
    exact hQ _ old hQ' (hl old rfl)
  | attr path hQ' c hc =>
    refine plainApart_exec tar _ _ ?_ hn hw
    intro old new h
    subst h
    simp [Call.isAttrAt] at hc

theorem plainApart_reach (tar : List TarEntry) (Q : StepKind → String → Prop)
    (hQ : ∀ p old, Q .structural p → Q .target old → keyOf p ∉ solidKeys tar)
    (s s' : Sync RefFs) (h : Reach RefFs.asFs Q s s') (hn : RefFs.Neat s.fs)
    (hw : PlainApart tar s.fs) : RefFs.Neat s'.fs ∧ PlainApart tar s'.fs :=
  reach_invariant (fun t => RefFs.Neat t.fs ∧ PlainApart tar t.fs)
    (fun t t' ht hI => ⟨neat_step Q t t' ht hI.1, plainApart_step tar Q hQ t t' ht hI.1 hI.2⟩)
    h ⟨hn, hw⟩

/-- A call that changes an attribute of a path on another inode keeps the entry. -/
theorem stays_call_attr (N : Inode → Prop) (E : String) (T : Int) (s : Sync RefFs) (c : Call)
    (path : String) (hc : c.isAttrAt path)
    (hne : s.fs.ino (keyOf path) ≠ s.fs.ino (keyOf E)) (h0 : Stays N E T s) :
    Stays N E T (s.call RefFs.asFs c).2 := by
  obtain ⟨i, hi, hlt, hn, hm⟩ := h0
  have hino := RefFs.exec_attr_ino c path hc s.fs
  have hsame := RefFs.exec_attr_node c path hc s.fs i (fun h => hne (h.trans hi.symm))
  refine ⟨i, (congrFun hino _).trans hi, ?_, ?_, ?_⟩
  · simp only [Sync.call]
    rw [RefFs.exec_attr_nextIno c path hc]
    exact hlt
  · simp only [Sync.call]
    rw [hsame]
    exact hn
  · simp only [Sync.call]
    rw [hsame, hino]
    exact hm

/-- A call that creates or removes the entry at `path`, whose parent the Preserver
holds, keeps an entry that `path` does not cover, unless it writes the file on the
inode of the entry. -/
theorem stays_call_structural (N : Inode → Prop) (hN : MtimeBlind N) (E : String) (T : Int)
    (s : Sync RefFs) (c : Call) (path : String) (hc : c.isStructuralAt path)
    (hcov : ¬ Covers path E) (hnorm : Normal path) (hheld : s.baseDirPath = filepathDir path)
    (hw : ∀ body, c = .writeReader path body → s.fs.ino (keyOf path) ≠ s.fs.ino (keyOf E))
    (h0 : Stays N E T s) : Stays N E T (s.call RefFs.asFs c).2 := by
  obtain ⟨i, hi, hlt, hn, hm⟩ := h0
  have hk0 : keyOf path ≠ [] := by
    intro h
    apply hcov
    unfold Covers
    rw [h]
    cases keyOf E <;> rfl
  have hw' : ∀ body, c = .writeReader path body → s.fs.ino (keyOf path) ≠ some i :=
    fun body hb h => hw body hb (h.trans hi.symm)
  obtain ⟨t, ht⟩ := RefFs.exec_structural_blind c path hc s.fs i hlt hw'
  have hinoE : (RefFs.asFs.exec c s.fs).2.ino (keyOf E) = some i := by
    refine (RefFs.exec_structural_ino c path hc s.fs (keyOf E) ?_).trans hi
    unfold Covers at hcov
    simpa only [Bool.not_eq_true] using hcov
  have hinoP : (RefFs.asFs.exec c s.fs).2.ino (keyOf (filepathDir path)) =
      s.fs.ino (keyOf (filepathDir path)) := by
    refine RefFs.exec_structural_ino c path hc s.fs _ ?_
    rw [hnorm]
    exact not_prefix_dropLast _ hk0
  refine ⟨i, hinoE, lt_of_lt_of_le hlt (RefFs.exec_nextIno_le c s.fs), ?_, ?_⟩
  · simp only [Sync.call]
    rw [ht]
    exact hN _ t hn
  · simp only [Sync.call]
    rw [hheld, hinoP]
    rw [hheld] at hm
    split
    · rename_i hcond
      rw [if_pos hcond] at hm
      exact hm
    · rename_i hcond
      rw [if_neg hcond] at hm
      have hp : s.fs.ino (keyOf path).dropLast ≠ some i := by
        intro h
        apply hcond
        refine ⟨filepathDir_ne_empty path, ?_⟩
        rw [hnorm]
        exact h
      rw [RefFs.exec_structural_same c path hc s.fs i hlt hw' hp]
      exact hm

/-- A primitive action keeps an entry that its path does not cover, when it neither
writes the file nor changes an attribute on the inode of the entry. -/
theorem stays_step (N : Inode → Prop) (hN : MtimeBlind N) (E : String) (T : Int)
    (Q : StepKind → String → Prop) (s s' : Sync RefFs) (h : Step RefFs.asFs Q s s')
    (hS : ∀ p, Q .structural p → ¬ Covers p E ∧ Normal p ∧
      s.fs.ino (keyOf p) ≠ s.fs.ino (keyOf E))
    (hA : ∀ p, Q .attr p → s.fs.ino (keyOf p) ≠ s.fs.ino (keyOf E))
    (h0 : Stays N E T s) : Stays N E T s' := by
  cases h with
  | silent hfs hp hm' hl =>
    obtain ⟨i, hi, hlt, hn, hm⟩ := h0
    refine ⟨i, by rw [hfs]; exact hi, by rw [hfs]; exact hlt, by rw [hfs]; exact hn, ?_⟩
    rw [hp, hm', hfs]
    exact hm
  | read c hc => exact h0
  | restoreFailed h1 hr =>
    obtain ⟨i, hi, hlt, hn, hm⟩ := h0
    have hA' : (Call.chtimes s.baseDirPath s.baseDirModTime s.baseDirModTime).isAttrAt
        s.baseDirPath := by simp [Call.isAttrAt]
    have hino := RefFs.exec_attr_ino _ _ hA' s.fs
    obtain ⟨t, ht⟩ := RefFs.chtimes_node s.fs s.baseDirPath s.baseDirModTime s.baseDirModTime i
    refine ⟨i, (congrFun hino _).trans hi, ?_, ?_, ?_⟩
    · simp only [Sync.call]
      rw [RefFs.exec_attr_nextIno _ _ hA']
      exact hlt
    · simp only [Sync.call, Fs.exec, RefFs.asFs]
      rw [ht]
      exact hN _ t hn
    · simp only [Sync.call]
      rw [hino]
      split
      · rename_i hcond
        rw [if_pos hcond] at hm
        exact hm
      · rename_i hcond
        rw [if_neg hcond] at hm
        rw [RefFs.exec_attr_node _ _ hA' s.fs i (fun h => hcond ⟨h1, h⟩)]
        exact hm
  | restore h1 hr =>
    obtain ⟨i, hi, hlt, hn, hm⟩ := h0
    have hA' : (Call.chtimes s.baseDirPath s.baseDirModTime s.baseDirModTime).isAttrAt
        s.baseDirPath := by simp [Call.isAttrAt]
    have hino := RefFs.exec_attr_ino _ _ hA' s.fs
    obtain ⟨t, ht⟩ := RefFs.chtimes_node s.fs s.baseDirPath s.baseDirModTime s.baseDirModTime i
    refine ⟨i, (congrFun hino _).trans hi, ?_, ?_, ?_⟩
    · simp only [Sync.call]
      rw [RefFs.exec_attr_nextIno _ _ hA']
      exact hlt
    · simp only [Sync.call, Fs.exec, RefFs.asFs]
      rw [ht]
      exact hN _ t hn
    · simp only [ne_eq, not_true_eq_false, false_and, if_false]
      by_cases hcond : s.baseDirPath ≠ "" ∧ s.fs.ino (keyOf s.baseDirPath) = some i
      · rw [if_pos hcond] at hm
        obtain ⟨j, hj, hjm⟩ := RefFs.chtimes_ok s.fs s.baseDirPath s.baseDirModTime
          s.baseDirModTime hr
        rw [hcond.2] at hj
        simp only [Option.some.injEq] at hj
        subst hj
        simp only [Sync.call]
        exact hjm.trans hm
      · rw [if_neg hcond] at hm
        simp only [Sync.call]
        rw [RefFs.exec_attr_node _ _ hA' s.fs i (fun h => hcond ⟨h1, h⟩)]
        exact hm
  | snapshot path hQ fi h1 hD hfi =>
    obtain ⟨i, hi, hlt, hn, hm⟩ := h0
    refine ⟨i, hi, hlt, hn, ?_⟩
    have hc : ¬ (s.baseDirPath ≠ "" ∧ s.fs.ino (keyOf s.baseDirPath) = some i) :=
      fun hc => hc.1 h1
    rw [if_neg hc] at hm
    simp only
    split
    · rename_i hk
      obtain ⟨j, hj, hfj⟩ := RefFs.lstat_ok s.fs _ fi hfi
      rw [hk.2] at hj
      simp only [Option.some.injEq] at hj
      subst hj
      rw [hfj]
      exact hm
    · exact hm
  | structural path hQ' c hc hl h1 =>
    obtain ⟨hcov, hnorm, hne⟩ := hS path hQ'
    exact stays_call_structural N hN E T s c path hc hcov hnorm h1 (fun _ _ => hne) h0
  | attr path hQ' c hc =>
    exact stays_call_attr N E T s c path hc (hA path hQ') h0

/-! ## Destinations with hard links: the Metadata Syncer -/

theorem onInode_attr (E : String) (i : Nat) (s : Sync RefFs) (c : Call) (path : String)
    (hc : c.isAttrAt path) (h : OnInode E i s) : OnInode E i (s.call RefFs.asFs c).2 :=
  (congrFun (RefFs.exec_attr_ino c path hc s.fs) _).trans h

theorem lstat_onInode (E : String) (i : Nat) (s : Sync RefFs) (fi : FileInfo) (h : OnInode E i s)
    (hl : RefFs.lstat s.fs E = .ok fi) : fi = RefFs.infoOf i (s.fs.node i) := by
  obtain ⟨j, hj, hfj⟩ := RefFs.lstat_ok s.fs E fi hl
  rw [h] at hj
  simp only [Option.some.injEq] at hj
  subst hj
  exact hfj

theorem syncStatOwner_set (hdr : Header) (fi fi2 : FileInfo) (s : Sync RefFs) (i : Nat)
    (h : OnInode (normalizePath hdr.name) i s) (hfi : fi = RefFs.infoOf i (s.fs.node i))
    (hok : (syncStatOwner RefFs.asFs hdr fi s).1 = .ok fi2) :
    OnInode (normalizePath hdr.name) i (syncStatOwner RefFs.asFs hdr fi s).2 ∧
      fi2 = RefFs.infoOf i ((syncStatOwner RefFs.asFs hdr fi s).2.fs.node i) ∧
      SameBody (s.fs.node i) ((syncStatOwner RefFs.asFs hdr fi s).2.fs.node i) ∧
      (s.opts.withOwnership = true →
        hdr.uid = ((syncStatOwner RefFs.asFs hdr fi s).2.fs.node i).uid ∧
        hdr.gid = ((syncStatOwner RefFs.asFs hdr fi s).2.fs.node i).gid) ∧
      (syncStatOwner RefFs.asFs hdr fi s).2.baseDirPath = s.baseDirPath ∧
      (syncStatOwner RefFs.asFs hdr fi s).2.baseDirModTime = s.baseDirModTime ∧
      (syncStatOwner RefFs.asFs hdr fi s).2.opts = s.opts := by
  unfold syncStatOwner at hok ⊢
  simp only at hok ⊢
  split at hok
  · rename_i hcond
    rw [if_pos hcond]
    cases hr : (s.call RefFs.asFs (ownerCall hdr)).1 with
    | some e => simp [hr] at hok
    | none =>
      simp only [hr] at hok ⊢
      have hs1 : OnInode (normalizePath hdr.name) i
          ((s.call RefFs.asFs (ownerCall hdr)).2.markOwner hdr.uid hdr.gid) :=
        onInode_attr _ i s _ _ (ownerCall_isAttrAt hdr) h
      cases hl : (LstatOrStat RefFs.asFs (normalizePath hdr.name)
          ((s.call RefFs.asFs (ownerCall hdr)).2.markOwner hdr.uid hdr.gid)).1 with
      | error e => simp [hl] at hok
      | ok fi3 =>
        simp only [hl, Except.ok.injEq] at hok ⊢
        subst hok
        obtain ⟨c1, c2, _, c4⟩ := RefFs.chown_at s.fs (normalizePath hdr.name) hdr.uid hdr.gid i h
        refine ⟨hs1, lstat_onInode _ i _ fi3 hs1 hl, ?_, fun _ => ?_, rfl, rfl, rfl⟩
        · simp only [LstatOrStat, Sync.logCall, Sync.markOwner, Sync.call, ownerCall_exec]
          exact c4
        · simp only [LstatOrStat, Sync.logCall, Sync.markOwner, Sync.call, ownerCall_exec]
          exact ⟨c1.symm, c2.symm⟩
  · rename_i hcond
    rw [if_neg hcond]
    simp only [Except.ok.injEq] at hok
    subst hok
    refine ⟨h, hfi, sameBody_refl _, fun ho => ?_, rfl, rfl, rfl⟩
    simp only [ho, true_and, not_or, not_not] at hcond
    rw [hfi] at hcond
    exact hcond

theorem syncStatMode_set (hdr : Header) (fi : FileInfo) (s : Sync RefFs) (i : Nat)
    (h : OnInode (normalizePath hdr.name) i s) (hfi : fi = RefFs.infoOf i (s.fs.node i))
    (hok : (syncStatMode RefFs.asFs hdr fi s).1 = none) :
    OnInode (normalizePath hdr.name) i (syncStatMode RefFs.asFs hdr fi s).2 ∧
      SameBody (s.fs.node i) ((syncStatMode RefFs.asFs hdr fi s).2.fs.node i) ∧
      ((syncStatMode RefFs.asFs hdr fi s).2.fs.node i).uid = (s.fs.node i).uid ∧
      ((syncStatMode RefFs.asFs hdr fi s).2.fs.node i).gid = (s.fs.node i).gid ∧
      ((syncStatMode RefFs.asFs hdr fi s).2.fs.node i).mtime = (s.fs.node i).mtime ∧
      (hdr.typeflag ≠ TypeSymlink → ModeFits hdr (s.fs.node i) →
        ((syncStatMode RefFs.asFs hdr fi s).2.fs.node i).mode = hdr.fileMode) ∧
      (syncStatMode RefFs.asFs hdr fi s).2.baseDirPath = s.baseDirPath ∧
      (syncStatMode RefFs.asFs hdr fi s).2.baseDirModTime = s.baseDirModTime ∧
      (syncStatMode RefFs.asFs hdr fi s).2.opts = s.opts := by
  unfold syncStatMode at hok ⊢
  simp only at hok ⊢
  split at hok
  · rename_i hcond
    rw [if_pos hcond]
    cases hr : (s.call RefFs.asFs (.chmod (normalizePath hdr.name) hdr.fileMode)).1 with
    | some e => simp [hr] at hok
    | none =>
      simp only [hr]
      have hs1 : OnInode (normalizePath hdr.name) i
          (s.call RefFs.asFs (.chmod (normalizePath hdr.name) hdr.fileMode)).2 :=
        onInode_attr _ i s _ (normalizePath hdr.name) (by simp [Call.isAttrAt]) h
      have hn := RefFs.chmod_at s.fs (normalizePath hdr.name) hdr.fileMode i h
      have hn' : ((s.call RefFs.asFs (.chmod (normalizePath hdr.name) hdr.fileMode)).2.markMode
          hdr.fileMode).fs.node i = { s.fs.node i with
            mode := ((s.fs.node i).mode &&& ModeType) ||| (hdr.fileMode &&& RefFs.chmodMask) } := hn
      rw [hn']
      refine ⟨hs1, ⟨rfl, rfl, modeTypeOf_chmod _ _⟩, rfl, rfl, rfl, fun _ hfit => ?_, rfl, rfl, rfl⟩
      exact hfit.symm
  · rename_i hcond
    rw [if_neg hcond]
    refine ⟨h, sameBody_refl _, rfl, rfl, rfl, fun hsym _ => ?_, rfl, rfl, rfl⟩
    simp only [hsym, ne_eq, not_false_eq_true, true_and, not_not] at hcond
    rw [hcond, hfi]
    rfl

theorem syncStatTime_set (hdr : Header) (fi : FileInfo) (s : Sync RefFs) (i : Nat)
    (h : OnInode (normalizePath hdr.name) i s) (hfi : fi.modTime = (s.fs.node i).mtime)
    (hok : (syncStatTime RefFs.asFs hdr fi s).1 = none) :
    OnInode (normalizePath hdr.name) i (syncStatTime RefFs.asFs hdr fi s).2 ∧
      (syncStatTime RefFs.asFs hdr fi s).2.fs.node i =
        { s.fs.node i with mtime := hdr.modTime } ∧
      (syncStatTime RefFs.asFs hdr fi s).2.baseDirPath = s.baseDirPath ∧
      (syncStatTime RefFs.asFs hdr fi s).2.baseDirModTime = s.baseDirModTime ∧
      (syncStatTime RefFs.asFs hdr fi s).2.opts = s.opts := by
  unfold syncStatTime at hok ⊢
  simp only at hok ⊢
  split at hok
  · rename_i hcond
    rw [if_pos hcond]
    have hs1 : OnInode (normalizePath hdr.name) i
        (s.call RefFs.asFs (.chtimes (normalizePath hdr.name) hdr.modTime hdr.modTime)).2 :=
      onInode_attr _ i s _ (normalizePath hdr.name) (by simp [Call.isAttrAt]) h
    cases hr : (s.call RefFs.asFs
        (.chtimes (normalizePath hdr.name) hdr.modTime hdr.modTime)).1 with
    | some e => simp [hr] at hok
    | none =>
      simp only [hr]
      exact ⟨hs1, RefFs.chtimes_at s.fs (normalizePath hdr.name) hdr.modTime hdr.modTime i h,
        rfl, rfl, rfl⟩
  · rename_i hcond
    rw [if_neg hcond]
    simp only [ne_eq, not_not] at hcond
    refine ⟨h, ?_, rfl, rfl, rfl⟩
    rw [hcond, hfi]

theorem syncStatWith_set (hdr : Header) (fi : FileInfo) (s : Sync RefFs) (i : Nat)
    (h : OnInode (normalizePath hdr.name) i s) (hfi : fi = RefFs.infoOf i (s.fs.node i))
    (hok : (syncStatWith RefFs.asFs hdr fi s).1 = none) :
    StatSet hdr i s (syncStatWith RefFs.asFs hdr fi s).2 := by
  unfold syncStatWith at hok ⊢
  simp only at hok ⊢
  cases ho : (syncStatOwner RefFs.asFs hdr fi s).1 with
  | error e => simp [ho] at hok
  | ok fi2 =>
    simp only [ho] at hok ⊢
    obtain ⟨o1, o2, o3, o4, o5, o6, o7⟩ := syncStatOwner_set hdr fi fi2 s i h hfi ho
    cases hm : (syncStatMode RefFs.asFs hdr fi2 (syncStatOwner RefFs.asFs hdr fi s).2).1 with
    | some e => simp [hm] at hok
    | none =>
      simp only [hm] at hok ⊢
      obtain ⟨m1, m2, m3, m4, m5, m6, m7, m8, m9⟩ :=
        syncStatMode_set hdr fi2 (syncStatOwner RefFs.asFs hdr fi s).2 i o1 o2 hm
      obtain ⟨t1, t2, t3, t4, t5⟩ := syncStatTime_set hdr fi2 _ i m1
        (by rw [m5, o2]; rfl) hok
      refine ⟨t1, ?_, fun hown => ?_, fun hsym hfit => ?_, ?_, t3.trans (m7.trans o5),
        t4.trans (m8.trans o6), t5.trans (m9.trans o7)⟩
      · rw [t2]
        exact sameBody_trans o3 m2
      · rw [t2]
        simp only
        rw [m3, m4]
        exact o4 hown
      · rw [t2]
        simp only
        exact m6 hsym (modeFits_of_sameBody hdr o3 hfit)
      · rw [t2]

theorem syncStatWrapped_set (hdr : Header) (fi : Option FileInfo) (s : Sync RefFs) (i : Nat)
    (h : OnInode (normalizePath hdr.name) i s)
    (hfi : ∀ info, fi = some info → info = RefFs.infoOf i (s.fs.node i))
    (hok : (syncStatWrapped RefFs.asFs hdr fi s).1 = none) :
    StatSet hdr i s (syncStatWrapped RefFs.asFs hdr fi s).2 := by
  unfold syncStatWrapped at hok ⊢
  simp only at hok ⊢
  cases hr : (syncStat RefFs.asFs hdr fi s).1 with
  | some e => simp [hr] at hok
  | none =>
    simp only [hr]
    unfold syncStat at hr ⊢
    simp only at hr ⊢
    cases fi with
    | some info =>
      simp only at hr ⊢
      exact syncStatWith_set hdr info s i h (hfi info rfl) hr
    | none =>
      simp only at hr ⊢
      cases hl : (LstatOrStat RefFs.asFs (normalizePath hdr.name) s).1 with
      | error e => simp [hl] at hr
      | ok info =>
        simp only [hl] at hr ⊢
        have hinfo := lstat_onInode _ i s info h hl
        exact syncStatWith_set hdr info (LstatOrStat RefFs.asFs (normalizePath hdr.name) s).2 i
          h hinfo hr

/-! ## Destinations with hard links: the reconcilers -/

/-- A successful `createEntry` whose creating call makes an entry with body `B`: the
entry is there with that body and the header's attributes, and the Preserver holds its
parent. -/
theorem createEntry_settles (hdr : Header) (c : Call) (msg : String)
    (mark : Sync RefFs → Sync RefFs) (s : Sync RefFs) (B : Inode → Prop)
    (hB : ∀ n n', SameBody n n' → B n → B n')
    (hmark : MarkOnly mark) (hmo : ∀ s1, (mark s1).opts = s1.opts)
    (hcall : ∀ fs : RefFs, (RefFs.asFs.exec c fs).1 = none →
      (keyOf (normalizePath hdr.name)).dropLast ≠ keyOf (normalizePath hdr.name) ∧
      ∃ i, (RefFs.asFs.exec c fs).2.ino (keyOf (normalizePath hdr.name)) = some i ∧
        B ((RefFs.asFs.exec c fs).2.node i))
    (hok : (createEntry RefFs.asFs hdr c msg mark s).1 = none) :
    ∃ i, OnInode (normalizePath hdr.name) i (createEntry RefFs.asFs hdr c msg mark s).2 ∧
      B ((createEntry RefFs.asFs hdr c msg mark s).2.fs.node i) ∧
      (s.opts.withOwnership = true →
        hdr.uid = ((createEntry RefFs.asFs hdr c msg mark s).2.fs.node i).uid ∧
        hdr.gid = ((createEntry RefFs.asFs hdr c msg mark s).2.fs.node i).gid) ∧
      (hdr.typeflag ≠ TypeSymlink → (∀ n, B n → ModeFits hdr n) →
        ((createEntry RefFs.asFs hdr c msg mark s).2.fs.node i).mode = hdr.fileMode) ∧
      ((createEntry RefFs.asFs hdr c msg mark s).2.fs.node i).mtime = hdr.modTime ∧
      ¬ ((createEntry RefFs.asFs hdr c msg mark s).2.baseDirPath ≠ "" ∧
        keyOf (createEntry RefFs.asFs hdr c msg mark s).2.baseDirPath =
          keyOf (normalizePath hdr.name)) := by
  unfold createEntry at hok ⊢
  simp only at hok ⊢
  cases hp : (preserveBaseDir RefFs.asFs (filepathDir (normalizePath hdr.name)) s).1 with
  | some e => simp [hp] at hok
  | none =>
    simp only [hp] at hok ⊢
    have hheld := preserveBaseDir_held RefFs.asFs _ s hp
    have hopt : (preserveBaseDir RefFs.asFs (filepathDir (normalizePath hdr.name)) s).2.opts
        = s.opts := (ctl_fields (ctl_preserveBaseDir RefFs.asFs _ s)).2.1
    generalize (preserveBaseDir RefFs.asFs (filepathDir (normalizePath hdr.name)) s).2 = s2
      at hok hheld hopt ⊢
    cases hc : (s2.call RefFs.asFs c).1 with
    | some e => simp [hc] at hok
    | none =>
      simp only [hc] at hok ⊢
      obtain ⟨hdrop, i, hi, hb⟩ := hcall s2.fs hc
      obtain ⟨k1, k2, k3, _⟩ := hmark (s2.call RefFs.asFs c).2
      have hpl : OnInode (normalizePath hdr.name) i (mark (s2.call RefFs.asFs c).2) := by
        unfold OnInode
        rw [k1]
        exact hi
      obtain ⟨t1, t2, t3, t4, t5, t6, _, _⟩ := syncStatWrapped_set hdr none _ i hpl
        (by intro info h1; simp at h1) hok
      refine ⟨i, t1, hB _ _ t2 (by rw [k1]; exact hb), fun ho => t3 ?_, fun hsym hfit => ?_, t5, ?_⟩
      · rw [hmo]
        exact hopt.symm ▸ ho
      · exact t4 hsym (hfit _ (by rw [k1]; exact hb))
      · rw [t6, k2]
        intro hcond
        have hkey : keyOf s2.baseDirPath = (keyOf (normalizePath hdr.name)).dropLast := by
          rw [hheld]
          exact keyOf_filepathDir hdr.name
        exact hdrop (hkey.symm.trans hcond.2)


/-- A successful `syncRegularFile` leaves the regular file its entry describes, with
the body of the entry when the quick check was sound. -/
theorem syncRegularFile_settles (C : Prop) (ent : TarEntry) (s : Sync RefFs)
    (hReg : ent.hdr.typeflag = TypeReg) (hfit : HeaderFits ent)
    (hroot : keyOf (normalizePath ent.hdr.name) ≠ [])
    (h0 : ¬ (s.baseDirPath ≠ "" ∧ keyOf s.baseDirPath = keyOf (normalizePath ent.hdr.name))) (hq : C → Quick ent s.fs)
    (hok : (syncRegularFile RefFs.asFs ent.hdr ent.body s).1 = none) :
    Settled (NodeHolds C s.opts ent) (normalizePath ent.hdr.name) ent.hdr.modTime
      (syncRegularFile RefFs.asFs ent.hdr ent.body s).2 := by
  obtain ⟨hsize, hmode⟩ := hfit.1 hReg
  have hSR : ent.hdr.typeflag ≠ TypeSymlink := by rw [hReg]; decide
  unfold syncRegularFile at hok ⊢
  simp only at hok ⊢
  cases hst : statResult (LstatOrStat RefFs.asFs (normalizePath ent.hdr.name) s).1 with
  | error e => simp [hst] at hok
  | ok fi =>
    simp only [hst] at hok ⊢
    cases hd : (dropUnless RefFs.asFs (normalizePath ent.hdr.name)
        (fun info => modeIsRegular info.mode) (.removeAll (normalizePath ent.hdr.name))
        "failed to remove: " fi (LstatOrStat RefFs.asFs (normalizePath ent.hdr.name) s).2).1 with
    | some e => simp [hd] at hok
    | none =>
      simp only [hd] at hok ⊢
      have hr1 : Reach RefFs.asFs NoLink s (dropUnless RefFs.asFs (normalizePath ent.hdr.name)
          (fun info => modeIsRegular info.mode) (.removeAll (normalizePath ent.hdr.name))
          "failed to remove: " fi
          (LstatOrStat RefFs.asFs (normalizePath ent.hdr.name) s).2).2.2 :=
        (reach_LstatOrStat RefFs.asFs NoLink (normalizePath ent.hdr.name) s).trans
          (reach_dropUnless RefFs.asFs NoLink (normalizePath ent.hdr.name) (fun _ hk => hk)
            _ _ _ fi _ (by simp [Call.isStructuralAt]) (fun _ h => by cases h))
      have hopt1 : (dropUnless RefFs.asFs (normalizePath ent.hdr.name)
          (fun info => modeIsRegular info.mode) (.removeAll (normalizePath ent.hdr.name))
          "failed to remove: " fi
          (LstatOrStat RefFs.asFs (normalizePath ent.hdr.name) s).2).2.2.opts = s.opts :=
        (ctl_fields (ctl_dropUnless RefFs.asFs _ _ _ _ fi _)).2.1
      by_cases hup : upToDate ent.hdr (dropUnless RefFs.asFs (normalizePath ent.hdr.name)
          (fun info => modeIsRegular info.mode) (.removeAll (normalizePath ent.hdr.name))
          "failed to remove: " fi
          (LstatOrStat RefFs.asFs (normalizePath ent.hdr.name) s).2).2.1 = true
      · rw [if_pos hup] at hok ⊢
        cases hk : (dropUnless RefFs.asFs (normalizePath ent.hdr.name)
            (fun info => modeIsRegular info.mode) (.removeAll (normalizePath ent.hdr.name))
            "failed to remove: " fi
            (LstatOrStat RefFs.asFs (normalizePath ent.hdr.name) s).2).2.1 with
        | none =>
          rw [hk] at hup
          simp [upToDate] at hup
        | some info =>
          rw [hk] at hup
          obtain ⟨k1, k2, k3⟩ := dropUnless_kept RefFs.asFs _ _ _ _ fi _ info hk
          subst k1
          simp only [hk, k3] at hok ⊢
          have hl : RefFs.lstat s.fs (normalizePath ent.hdr.name) = .ok info :=
            statResult_some _ _ hst
          obtain ⟨i, hi, hfi⟩ := RefFs.lstat_ok _ _ _ hl
          have hpl : OnInode (normalizePath ent.hdr.name) i
              (LstatOrStat RefFs.asFs (normalizePath ent.hdr.name) s).2 := hi
          obtain ⟨t1, t2, t3, t4, t5, t6, _, _⟩ := syncStatWrapped_set ent.hdr (some info) _ i hpl
            (by
              intro info1 h1
              simp only [Option.some.injEq] at h1
              subst h1
              exact hfi) hok
          have hreg0 : modeTypeOf (s.fs.node i).mode = 0 := by
            rw [hfi] at k2
            exact (RefFs.modeIsRegular_iff _).mp k2
          simp only [upToDate, decide_eq_true_eq] at hup
          refine ⟨i, t1, ⟨⟨Or.inl ⟨hReg, ?_, ?_⟩, t3, fun _ => ?_⟩, fun hC _ => ?_⟩, t5, ?_⟩
          · exact (RefFs.modeIsRegular_iff _).mpr (t2.2.2.trans hreg0)
          · rw [t2.1, hup.1, hfi]
            rfl
          · have hmf : ModeFits ent.hdr (s.fs.node i) := by
              unfold ModeFits
              rw [hreg0]
              exact hmode
            exact (t4 hSR hmf).symm
          · rw [t2.1]
            have hqq := hq hC
            unfold Quick at hqq
            rw [hi] at hqq
            refine hqq ((RefFs.modeIsRegular_iff _).mpr hreg0) ?_ ?_
            · rw [hup.1, hfi]
              rfl
            · have := hup.2
              rw [hfi] at this
              exact this.symm
          · rw [t6]
            exact h0
      · rw [if_neg hup] at hok ⊢
        generalize (dropUnless RefFs.asFs (normalizePath ent.hdr.name)
            (fun info => modeIsRegular info.mode) (.removeAll (normalizePath ent.hdr.name))
            "failed to remove: " fi
            (LstatOrStat RefFs.asFs (normalizePath ent.hdr.name) s).2).2.2 = s1
          at hok hr1 hopt1 ⊢
        obtain ⟨i, c1, c2, c3, c4, c5, c6⟩ := createEntry_settles ent.hdr
          (.writeReader (normalizePath ent.hdr.name) ent.body) "failed to write file: "
          Sync.markAdded s1
          (fun n => modeIsRegular n.mode = true ∧ n.content = ent.body)
          (fun n n' hs hn => ⟨(RefFs.modeIsRegular_iff _).mpr
            (hs.2.2.trans ((RefFs.modeIsRegular_iff _).mp hn.1)), hs.1.trans hn.2⟩)
          (fun _ => ⟨rfl, rfl, rfl, rfl⟩) (fun _ => rfl)
          (fun fs hc => ⟨RefFs.dropLast_ne_self _ hroot,
            RefFs.writeReader_ok fs (normalizePath ent.hdr.name) ent.body hc⟩)
          hok
        refine ⟨i, c1, ⟨⟨Or.inl ⟨hReg, c2.1, ?_⟩, fun ho => c3 (hopt1 ▸ ho), fun _ => ?_⟩,
          fun _ _ => c2.2⟩, c5, c6⟩
        · rw [c2.2]
          exact hsize
        · refine (c4 hSR ?_).symm
          intro n hn
          unfold ModeFits
          rw [(RefFs.modeIsRegular_iff _).mp hn.1]
          exact hmode

/-- A successful `syncDir` leaves the directory its entry describes. -/
theorem syncDir_settles (ent : TarEntry) (s : Sync RefFs)
    (hDir : ent.hdr.typeflag = TypeDir) (hfit : HeaderFits ent)
    (h0 : ¬ (s.baseDirPath ≠ "" ∧ keyOf s.baseDirPath = keyOf (normalizePath ent.hdr.name)))
    (hok : (syncDir RefFs.asFs ent.hdr s).1 = none) :
    Settled (NodeFits s.opts ent) (normalizePath ent.hdr.name) ent.hdr.modTime
      (syncDir RefFs.asFs ent.hdr s).2 := by
  have hmode := hfit.2 hDir
  have hSR : ent.hdr.typeflag ≠ TypeSymlink := by rw [hDir]; decide
  unfold syncDir at hok ⊢
  simp only at hok ⊢
  cases hst : statResult (LstatOrStat RefFs.asFs (normalizePath ent.hdr.name) s).1 with
  | error e => simp [hst] at hok
  | ok fi =>
    simp only [hst] at hok ⊢
    cases hd : (dropUnless RefFs.asFs (normalizePath ent.hdr.name)
        (fun info => decide (modeTypeOf info.mode = ModeDir))
        (.remove (normalizePath ent.hdr.name))
        "failed to remove: " fi (LstatOrStat RefFs.asFs (normalizePath ent.hdr.name) s).2).1 with
    | some e => simp [hd] at hok
    | none =>
      simp only [hd] at hok ⊢
      have hr1 : Reach RefFs.asFs NoLink s (dropUnless RefFs.asFs (normalizePath ent.hdr.name)
          (fun info => decide (modeTypeOf info.mode = ModeDir))
          (.remove (normalizePath ent.hdr.name)) "failed to remove: " fi
          (LstatOrStat RefFs.asFs (normalizePath ent.hdr.name) s).2).2.2 :=
        (reach_LstatOrStat RefFs.asFs NoLink (normalizePath ent.hdr.name) s).trans
          (reach_dropUnless RefFs.asFs NoLink (normalizePath ent.hdr.name) (fun _ hk => hk)
            _ _ _ fi _ (by simp [Call.isStructuralAt]) (fun _ h => by cases h))
      have hopt1 : (dropUnless RefFs.asFs (normalizePath ent.hdr.name)
          (fun info => decide (modeTypeOf info.mode = ModeDir))
          (.remove (normalizePath ent.hdr.name)) "failed to remove: " fi
          (LstatOrStat RefFs.asFs (normalizePath ent.hdr.name) s).2).2.2.opts = s.opts :=
        (ctl_fields (ctl_dropUnless RefFs.asFs _ _ _ _ fi _)).2.1
      cases hk : (dropUnless RefFs.asFs (normalizePath ent.hdr.name)
          (fun info => decide (modeTypeOf info.mode = ModeDir))
          (.remove (normalizePath ent.hdr.name)) "failed to remove: " fi
          (LstatOrStat RefFs.asFs (normalizePath ent.hdr.name) s).2).2.1 with
      | some info =>
        simp only [hk] at hok ⊢
        obtain ⟨k1, k2, k3⟩ := dropUnless_kept RefFs.asFs _ _ _ _ fi _ info hk
        subst k1
        simp only [k3] at hok ⊢
        have hl : RefFs.lstat s.fs (normalizePath ent.hdr.name) = .ok info :=
          statResult_some _ _ hst
        obtain ⟨i, hi, hfi⟩ := RefFs.lstat_ok _ _ _ hl
        have hpl : OnInode (normalizePath ent.hdr.name) i
            (LstatOrStat RefFs.asFs (normalizePath ent.hdr.name) s).2 := hi
        obtain ⟨t1, t2, t3, t4, t5, t6, _, _⟩ := syncStatWrapped_set ent.hdr (some info) _ i hpl
          (by
            intro info1 h1
            simp only [Option.some.injEq] at h1
            subst h1
            exact hfi) hok
        have hdir0 : modeTypeOf (s.fs.node i).mode = ModeDir := by
          rw [hfi] at k2
          simpa [RefFs.infoOf] using k2
        have hmf : ModeFits ent.hdr (s.fs.node i) := by
          unfold ModeFits
          rw [hdir0]
          exact hmode
        refine ⟨i, t1, ⟨Or.inr (Or.inl ⟨hDir, t2.2.2.trans hdir0⟩), t3,
          fun _ => (t4 hSR hmf).symm⟩, t5, ?_⟩
        rw [t6]
        exact h0
      | none =>
        simp only [hk] at hok ⊢
        generalize (dropUnless RefFs.asFs (normalizePath ent.hdr.name)
            (fun info => decide (modeTypeOf info.mode = ModeDir))
            (.remove (normalizePath ent.hdr.name)) "failed to remove: " fi
            (LstatOrStat RefFs.asFs (normalizePath ent.hdr.name) s).2).2.2 = s1
          at hok hr1 hopt1 ⊢
        obtain ⟨i, c1, c2, c3, c4, c5, c6⟩ := createEntry_settles ent.hdr
          (.mkdir (normalizePath ent.hdr.name) (modePermOf ent.hdr.fileMode))
          "failed to make file: "
          (fun s => s.markAdded.markMode (modePermOf ent.hdr.fileMode ||| ModeDir)) s1
          (fun n => modeTypeOf n.mode = ModeDir)
          (fun n n' hs hn => hs.2.2.trans hn)
          (fun _ => ⟨rfl, rfl, rfl, rfl⟩) (fun _ => rfl)
          (fun fs hc => by
            obtain ⟨m1, ⟨pi, m2⟩, m3, m4⟩ := RefFs.mkdir_ok fs (normalizePath ent.hdr.name)
              (modePermOf ent.hdr.fileMode) hc
            refine ⟨fun hkk => ?_, fs.nextIno, m3, (RefFs.isDirNode_iff _).mp m4⟩
            rw [hkk, m1] at m2
            simp at m2)
          hok
        refine ⟨i, c1, ⟨Or.inr (Or.inl ⟨hDir, c2⟩), fun ho => c3 (hopt1 ▸ ho),
          fun _ => ?_⟩, c5, c6⟩
        · refine (c4 hSR ?_).symm
          intro n hn
          unfold ModeFits
          rw [hn]
          exact hmode

/-- A successful `syncSymlink` leaves the symlink its entry describes. -/
theorem syncSymlink_settles (ent : TarEntry) (s : Sync RefFs)
    (hSym : ent.hdr.typeflag = TypeSymlink)
    (h0 : ¬ (s.baseDirPath ≠ "" ∧ keyOf s.baseDirPath = keyOf (normalizePath ent.hdr.name)))
    (hok : (syncSymlink RefFs.asFs ent.hdr s).1 = none) :
    Settled (NodeFits s.opts ent) (normalizePath ent.hdr.name) ent.hdr.modTime
      (syncSymlink RefFs.asFs ent.hdr s).2 := by
  unfold syncSymlink at hok ⊢
  simp only at hok ⊢
  cases hst : statResult (RefFs.asFs.lstat s.fs (normalizePath ent.hdr.name)) with
  | error e => simp [hst] at hok
  | ok fi =>
    simp only [hst] at hok ⊢
    cases hd : (dropUnless RefFs.asFs (normalizePath ent.hdr.name)
        (fun info => decide (modeTypeOf info.mode = ModeSymlink))
        (.removeAll (normalizePath ent.hdr.name))
        "failed to remove: " fi (s.logCall (.lstat (normalizePath ent.hdr.name)))).1 with
    | some e => simp [hd] at hok
    | none =>
      simp only [hd] at hok ⊢
      have hr1 : Reach RefFs.asFs NoLink s (dropUnless RefFs.asFs (normalizePath ent.hdr.name)
          (fun info => decide (modeTypeOf info.mode = ModeSymlink))
          (.removeAll (normalizePath ent.hdr.name)) "failed to remove: " fi
          (s.logCall (.lstat (normalizePath ent.hdr.name)))).2.2 := by
        have r0 : Reach RefFs.asFs NoLink s (s.logCall (.lstat (normalizePath ent.hdr.name))) :=
          reach_step (Step.read _ rfl)
        exact r0.trans
          (reach_dropUnless RefFs.asFs NoLink (normalizePath ent.hdr.name) (fun _ hk => hk)
            _ _ _ fi _ (by simp [Call.isStructuralAt]) (fun _ h => by cases h))
      have hopt1 : (dropUnless RefFs.asFs (normalizePath ent.hdr.name)
          (fun info => decide (modeTypeOf info.mode = ModeSymlink))
          (.removeAll (normalizePath ent.hdr.name)) "failed to remove: " fi
          (s.logCall (.lstat (normalizePath ent.hdr.name)))).2.2.opts = s.opts :=
        (ctl_fields (ctl_dropUnless RefFs.asFs _ _ _ _ fi _)).2.1
      have hkeep : ∀ info, (dropUnless RefFs.asFs (normalizePath ent.hdr.name)
          (fun info => decide (modeTypeOf info.mode = ModeSymlink))
          (.removeAll (normalizePath ent.hdr.name)) "failed to remove: " fi
          (s.logCall (.lstat (normalizePath ent.hdr.name)))).2.1 = some info →
          fi = some info ∧ modeTypeOf info.mode = ModeSymlink ∧
          (dropUnless RefFs.asFs (normalizePath ent.hdr.name)
            (fun info => decide (modeTypeOf info.mode = ModeSymlink))
            (.removeAll (normalizePath ent.hdr.name)) "failed to remove: " fi
            (s.logCall (.lstat (normalizePath ent.hdr.name)))).2.2 =
              s.logCall (.lstat (normalizePath ent.hdr.name)) := by
        intro info hk
        obtain ⟨k1, k2, k3⟩ := dropUnless_kept RefFs.asFs _ _ _ _ fi _ info hk
        exact ⟨k1, by simpa using k2, k3⟩
      generalize (dropUnless RefFs.asFs (normalizePath ent.hdr.name)
          (fun info => decide (modeTypeOf info.mode = ModeSymlink))
          (.removeAll (normalizePath ent.hdr.name)) "failed to remove: " fi
          (s.logCall (.lstat (normalizePath ent.hdr.name)))).2 = d at hok hr1 hopt1 hkeep ⊢
      cases ht : (retarget RefFs.asFs ent.hdr d.1 d.2).1 with
      | some e => simp [ht] at hok
      | none =>
        simp only [ht] at hok ⊢
        have hr2 : Reach RefFs.asFs NoLink s (retarget RefFs.asFs ent.hdr d.1 d.2).2.2 :=
          hr1.trans (reach_retarget RefFs.asFs NoLink ent.hdr (fun _ hk => hk) d.1 d.2)
        have hopt2 : (retarget RefFs.asFs ent.hdr d.1 d.2).2.2.opts = s.opts :=
          ((ctl_fields (ctl_retarget RefFs.asFs ent.hdr d.1 d.2)).2.1).trans hopt1
        cases hk : (retarget RefFs.asFs ent.hdr d.1 d.2).2.1 with
        | some info =>
          simp only [hk] at hok ⊢
          obtain ⟨r1, r2, r3, r4⟩ := retarget_kept ent.hdr d.1 d.2 info hk
          obtain ⟨k1, k2, k3⟩ := hkeep info r1
          subst k1
          have hfs : (retarget RefFs.asFs ent.hdr d.1 d.2).2.2.fs = s.fs := by
            rw [r2, k3]; rfl
          have hheld : (retarget RefFs.asFs ent.hdr d.1 d.2).2.2.baseDirPath = s.baseDirPath := by
            rw [r3, k3]; rfl
          have hl : RefFs.lstat s.fs (normalizePath ent.hdr.name) = .ok info :=
            statResult_some _ _ hst
          obtain ⟨i, hi, hfi⟩ := RefFs.lstat_ok _ _ _ hl
          have hpl : OnInode (normalizePath ent.hdr.name) i
              (retarget RefFs.asFs ent.hdr d.1 d.2).2.2 := by
            unfold OnInode
            rw [hfs]
            exact hi
          obtain ⟨t1, t2, t3, _, t5, t6, _, _⟩ := syncStatWrapped_set ent.hdr (some info) _ i hpl
            (by
              intro info1 h1
              simp only [Option.some.injEq] at h1
              subst h1
              rw [hfs]
              exact hfi) hok
          rw [hfs] at t2
          have htype : modeTypeOf (s.fs.node i).mode = ModeSymlink := by
            rw [hfi] at k2
            exact k2
          have htarget : (s.fs.node i).target = ent.hdr.linkname := by
            refine readlink_ok s.fs _ _ i hi ?_
            rw [k3] at r4
            exact r4
          refine ⟨i, t1, ⟨Or.inr (Or.inr ⟨hSym, t2.2.2.trans htype,
            t2.2.1.trans htarget⟩), fun ho => t3 (hopt2 ▸ ho), fun hne => absurd hSym hne⟩, t5, ?_⟩
          rw [t6, hheld]
          exact h0
        | none =>
          simp only [hk] at hok ⊢
          generalize (retarget RefFs.asFs ent.hdr d.1 d.2).2.2 = s1 at hok hr2 hopt2 ⊢
          obtain ⟨i, c1, c2, c3, _, c5, c6⟩ := createEntry_settles ent.hdr
            (.symlink ent.hdr.linkname (normalizePath ent.hdr.name)) "failed to make link: "
            (fun s => s.markAdded.markLink ent.hdr.linkname) s1
            (fun n => modeTypeOf n.mode = ModeSymlink ∧ n.target = ent.hdr.linkname)
            (fun n n' hs hn => ⟨hs.2.2.trans hn.1, hs.2.1.trans hn.2⟩)
            (fun _ => ⟨rfl, rfl, rfl, rfl⟩) (fun _ => rfl)
            (fun fs hc => RefFs.symlink_ok fs ent.hdr.linkname (normalizePath ent.hdr.name) hc)
            hok
          refine ⟨i, c1, ⟨Or.inr (Or.inr ⟨hSym, c2.1, c2.2⟩),
            fun ho => c3 (hopt2 ▸ ho), fun hne => absurd hSym hne⟩, c5, c6⟩

theorem settled_mono (N N' : Inode → Prop) (h : ∀ n, N n → N' n) (E : String) (T : Int)
    (s : Sync RefFs) (hk : Settled N E T s) : Settled N' E T s := by
  obtain ⟨i, hi, hn, hm, hh⟩ := hk
  exact ⟨i, hi, h _ hn, hm, hh⟩

/-- A synced entry of a plain kind is left as its tar entry describes it. -/
theorem dispatch_settles (C : Prop) (ent : TarEntry) (s : Sync RefFs) (hkind : PlainKind ent)
    (hfit : HeaderFits ent)
    (hroot : ent.hdr.typeflag ≠ TypeDir → keyOf (normalizePath ent.hdr.name) ≠ [])
    (h0 : ¬ (s.baseDirPath ≠ "" ∧ keyOf s.baseDirPath = keyOf (normalizePath ent.hdr.name))) (hq : C → Quick ent s.fs)
    (hd : (dispatch RefFs.asFs ent s).1 = .synced) :
    Settled (NodeHolds C s.opts ent) (normalizePath ent.hdr.name) ent.hdr.modTime
      (dispatch RefFs.asFs ent s).2 := by
  rcases hkind with hk | hk | hk
  · obtain ⟨d1, d2⟩ := dispatch_reg_synced RefFs.asFs ent s hk hd
    rw [d2]
    exact syncRegularFile_settles C ent s hk hfit (hroot (by rw [hk]; decide)) h0 hq d1
  · obtain ⟨d1, d2⟩ := dispatch_dir_synced RefFs.asFs ent s hk hd
    rw [d2]
    exact settled_mono _ _ (fun n hn => ⟨hn, fun _ hR => absurd (hk.symm.trans hR) (by decide)⟩) _ _ _
      (syncDir_settles ent s hk hfit h0 d1)
  · obtain ⟨d1, d2⟩ := dispatch_symlink_synced RefFs.asFs ent s hk hd
    rw [d2]
    exact settled_mono _ _ (fun n hn => ⟨hn, fun _ hR => absurd (hk.symm.trans hR) (by decide)⟩) _ _ _
      (syncSymlink_settles ent s hk h0 d1)

/-! ## Destinations with hard links: an entry that has been reconciled -/

/-- What the Preserver holds after actions at `E`: what it held, nothing, or the parent
of `E`. -/
theorem held_reach (F : Fs σ) (Q : StepKind → String → Prop) (E : String)
    (hQ : ∀ p, Q .hold p → p = E) (s s' : Sync σ) (h : Reach F Q s s') :
    s'.baseDirPath = s.baseDirPath ∨ s'.baseDirPath = "" ∨ s'.baseDirPath = filepathDir E := by
  refine reach_invariant (fun t => t.baseDirPath = s.baseDirPath ∨ t.baseDirPath = "" ∨
    t.baseDirPath = filepathDir E) ?_ h (Or.inl rfl)
  intro t t' hstep ht
  cases hstep with
  | silent hfs hp hm hl => rw [hp]; exact ht
  | read c hc => exact ht
  | restoreFailed h1 hr => exact ht
  | restore h1 hr => exact Or.inr (Or.inl rfl)
  | snapshot path hQ' fi h1 hD hfi =>
    rw [hQ path hQ']
    exact Or.inr (Or.inr rfl)
  | structural path hQ' c hc hl h1 => exact ht
  | attr path hQ' c hc => exact ht

theorem keptIn_step (tar : List TarEntry) (N : Inode → Prop) (hN : MtimeBlind N) (E : String)
    (T : Int) (Q : StepKind → String → Prop)
    (hL : ∀ p old, Q .structural p → Q .target old → keyOf p ∉ solidKeys tar)
    (s s' : Sync RefFs) (h : Step RefFs.asFs Q s s')
    (hS : ∀ p, Q .structural p → ¬ Covers p E ∧ Normal p ∧
      s.fs.ino (keyOf p) ≠ s.fs.ino (keyOf E))
    (hA : ∀ p, Q .attr p → s.fs.ino (keyOf p) ≠ s.fs.ino (keyOf E))
    (h0 : KeptIn tar N E T s) : KeptIn tar N E T s' :=
  ⟨neat_step Q s s' h h0.1, plainApart_step tar Q hL s s' h h0.1 h0.2.1,
    stays_step N hN E T Q s s' h hS hA h0.2.2⟩

/-- A solid name other than `E` is on another inode than `E`. -/
theorem ino_ne_of_solid (tar : List TarEntry) (N : Inode → Prop) (E : String) (T : Int)
    (s : Sync RefFs) (h0 : KeptIn tar N E T s) (hE : keyOf E ∈ solidKeys tar) (k : Key)
    (hk : k ∈ solidKeys tar) (hne : k ≠ keyOf E) : s.fs.ino k ≠ s.fs.ino (keyOf E) := by
  obtain ⟨_, hp, i, hi, _⟩ := h0
  intro h
  exact hne (plainApart_eq tar s.fs hp k (keyOf E) i hk hE (h.trans hi) hi)

theorem ne_key_of_not_covers (p E : String) (h : ¬ Covers p E) : keyOf p ≠ keyOf E := by
  intro heq
  apply h
  unfold Covers
  rw [heq]
  exact RefFs.isPrefixOf_self _

/-- Actions at solid names that do not cover `E`, none of them a hard link, keep `E`. -/
theorem keptIn_reach_solid (tar : List TarEntry) (N : Inode → Prop) (hN : MtimeBlind N)
    (E : String) (T : Int) (Q : StepKind → String → Prop) (hT : ∀ p, ¬ Q .target p)
    (hQ : ∀ p, Q .structural p ∨ Q .attr p →
      ¬ Covers p E ∧ Normal p ∧ keyOf p ∈ solidKeys tar)
    (hE : keyOf E ∈ solidKeys tar) (s s' : Sync RefFs) (h : Reach RefFs.asFs Q s s')
    (h0 : KeptIn tar N E T s) : KeptIn tar N E T s' := by
  refine reach_invariant (KeptIn tar N E T) ?_ h h0
  intro t t' hstep ht
  refine keptIn_step tar N hN E T Q (fun p old _ ho => absurd ho (hT old)) t t' hstep ?_ ?_ ht
  · intro p hp
    obtain ⟨h1, h2, h3⟩ := hQ p (Or.inl hp)
    exact ⟨h1, h2, ino_ne_of_solid tar N E T t ht hE _ h3 (ne_key_of_not_covers p E h1)⟩
  · intro p hp
    obtain ⟨h1, _, h3⟩ := hQ p (Or.inr hp)
    exact ino_ne_of_solid tar N E T t ht hE _ h3 (ne_key_of_not_covers p E h1)

/-- What the Preserver does keeps `E`. -/
theorem keptIn_reach_hold (tar : List TarEntry) (N : Inode → Prop) (hN : MtimeBlind N)
    (E : String) (T : Int) (s s' : Sync RefFs) (h : Reach RefFs.asFs HoldOnly s s')
    (h0 : KeptIn tar N E T s) : KeptIn tar N E T s' := by
  refine reach_invariant (KeptIn tar N E T) ?_ h h0
  intro t t' hstep ht
  refine keptIn_step tar N hN E T HoldOnly (fun p old hp _ => ?_) t t' hstep ?_ ?_ ht
  · exact absurd hp (by simp [HoldOnly])
  · intro p hp
    exact absurd hp (by simp [HoldOnly])
  · intro p hp
    exact absurd hp (by simp [HoldOnly])

/-- Attribute changes at a path on another inode keep `E`. -/
theorem keptIn_reach_attr (tar : List TarEntry) (N : Inode → Prop) (hN : MtimeBlind N)
    (E : String) (T : Int) (p : String) (s s' : Sync RefFs)
    (h : Reach RefFs.asFs (AttrAt p) s s')
    (hne : s.fs.ino (keyOf p) ≠ s.fs.ino (keyOf E))
    (h0 : KeptIn tar N E T s) : KeptIn tar N E T s' := by
  have key := reach_invariant (fun t => KeptIn tar N E T t ∧ t.fs.ino = s.fs.ino) ?_ h ⟨h0, rfl⟩
  · exact key.1
  intro t t' hstep ht
  obtain ⟨hk, hino⟩ := ht
  have hino' : t'.fs.ino = t.fs.ino :=
    funext (fun q => step_ino (AttrAt p) q (fun _ hq => by simp [AttrAt] at hq) t t' hstep)
  refine ⟨keptIn_step tar N hN E T (AttrAt p) (fun _ _ hq _ => ?_) t t' hstep ?_ ?_ hk,
    hino'.trans hino⟩
  · simp [AttrAt] at hq
  · intro q hq
    simp [AttrAt] at hq
  · intro q hq
    rw [hq.2, hino]
    exact hne

/-- A synced entry of a plain kind stays as its tar entry describes it. -/
theorem dispatch_keptIn (tar : List TarEntry) (C : Prop) (ent : TarEntry) (s : Sync RefFs)
    (hkind : PlainKind ent) (hfit : HeaderFits ent)
    (hroot : ent.hdr.typeflag ≠ TypeDir → keyOf (normalizePath ent.hdr.name) ≠ [])
    (hE : keyOf (normalizePath ent.hdr.name) ∈ solidKeys tar)
    (hP : keyOf (filepathDir (normalizePath ent.hdr.name)) ∈ solidKeys tar)
    (hn : RefFs.Neat s.fs) (hp : PlainApart tar s.fs)
    (hfree : s.baseDirPath ≠ "" → keyOf s.baseDirPath ∈ solidKeys tar ∧
      keyOf s.baseDirPath ≠ keyOf (normalizePath ent.hdr.name))
    (hq : C → Quick ent s.fs)
    (hd : (dispatch RefFs.asFs ent s).1 = .synced) :
    KeptIn tar (NodeHolds C s.opts ent) (normalizePath ent.hdr.name) ent.hdr.modTime
      (dispatch RefFs.asFs ent s).2 := by
  have hnl : ent.hdr.typeflag ≠ TypeLink := by
    intro hl
    rcases hkind with h | h | h <;> rw [hl] at h <;> exact absurd h (by decide)
  have hr : Reach RefFs.asFs (AtPath (normalizePath ent.hdr.name)) s
      (dispatch RefFs.asFs ent s).2 :=
    reach_dispatch RefFs.asFs _ ent (fun _ hk => ⟨hk, rfl⟩) (fun h => absurd h hnl) s
  obtain ⟨hn', hp'⟩ := plainApart_reach tar _
    (fun _ old _ ho => absurd ho (atPath_target _ old)) s _ hr hn hp
  obtain ⟨i, hi, hN, hm, hh⟩ := dispatch_settles C ent s hkind hfit hroot
    (fun hc => (hfree hc.1).2 hc.2) hq hd
  refine ⟨hn', hp', i, hi, hn'.1 _ _ hi, hN, ?_⟩
  rw [if_neg ?_]
  · exact hm
  · rintro ⟨h1, h2⟩
    have hsolid : keyOf (dispatch RefFs.asFs ent s).2.baseDirPath ∈ solidKeys tar := by
      rcases held_reach RefFs.asFs _ (normalizePath ent.hdr.name) (fun _ hq => hq.2) s _ hr
        with h | h | h
      · rw [h]
        refine (hfree ?_).1
        rw [← h]
        exact h1
      · exact absurd h h1
      · rw [h]
        exact hP
    exact hh ⟨h1, plainApart_eq tar _ hp' _ _ i hsolid hE h2 hi⟩

/-- The deletion of a path that does not cover `E` keeps `E`. -/
theorem deleteEntry_keptIn (tar : List TarEntry) (N : Inode → Prop) (hN : MtimeBlind N)
    (E : String) (T : Int) (path : String) (fi : FileInfo) (s : Sync RefFs)
    (hcov : ¬ Covers path E) (hnorm : Normal path) (h0 : KeptIn tar N E T s)
    (hok : (deleteEntry RefFs.asFs path (.ok fi) s).1 = true) :
    KeptIn tar N E T (deleteEntry RefFs.asFs path (.ok fi) s).2 := by
  unfold deleteEntry at hok ⊢
  simp only at hok ⊢
  cases hp : (preserveBaseDir RefFs.asFs (filepathDir path) s).1 with
  | some e => simp [hp] at hok
  | none =>
    simp only [hp] at hok ⊢
    have hheld := preserveBaseDir_held RefFs.asFs _ s hp
    have h1 : KeptIn tar N E T (preserveBaseDir RefFs.asFs (filepathDir path) s).2 :=
      keptIn_reach_hold tar N hN E T _ _
        (reach_preserveBaseDir RefFs.asFs HoldOnly path rfl s) h0
    generalize (preserveBaseDir RefFs.asFs (filepathDir path) s).2 = s2 at hok hheld h1 ⊢
    cases hc : (s2.call RefFs.asFs (.removeAll path)).1 with
    | some e => simp [hc] at hok
    | none =>
      simp only [hc]
      have h2 : KeptIn tar N E T (s2.call RefFs.asFs (.removeAll path)).2 :=
        ⟨RefFs.neat_exec _ _ h1.1,
          plainApart_exec tar _ _ (fun _ _ h => by cases h) h1.1 h1.2.1,
          stays_call_structural N hN E T s2 _ path (by simp [Call.isStructuralAt]) hcov hnorm
            hheld (fun _ h => by cases h) h1.2.2⟩
      exact h2

/-! ## Destinations with hard links: the hard-link reconciler -/

theorem checkLinkTarget_inv (hdr : Header) (fi : Option FileInfo) (s : Sync RefFs)
    (I : Sync RefFs → Prop) (hread : ∀ t c, I t → I (t.logCall c))
    (hpres : ∀ t, I t →
      (preserveBaseDir RefFs.asFs (filepathDir (normalizePath hdr.name)) t).1 = none →
      I (preserveBaseDir RefFs.asFs (filepathDir (normalizePath hdr.name)) t).2)
    (hcall : ∀ t c, I t → t.baseDirPath = filepathDir (normalizePath hdr.name) →
      (c = .removeAll (normalizePath hdr.name) ∨
        c = .link (normalizePath hdr.linkname) (normalizePath hdr.name)) →
      I (t.call RefFs.asFs c).2)
    (hok : (checkLinkTarget RefFs.asFs hdr fi s).1 = none) (h0 : I s) :
    I (checkLinkTarget RefFs.asFs hdr fi s).2.2 := by
  unfold checkLinkTarget at hok ⊢
  simp only at hok ⊢
  cases fi with
  | none => exact h0
  | some info =>
    simp only at hok ⊢
    have h1 : I (LstatOrStat RefFs.asFs (normalizePath hdr.linkname) s).2 := hread _ _ h0
    cases hti : (LstatOrStat RefFs.asFs (normalizePath hdr.linkname) s).1 with
    | error e => simp [hti] at hok
    | ok ti =>
      simp only [hti] at hok ⊢
      by_cases hne : info.ino ≠ ti.ino
      · rw [if_pos hne] at hok ⊢
        simp only at hok ⊢
        unfold removeExisting at hok ⊢
        simp only at hok ⊢
        generalize (LstatOrStat RefFs.asFs (normalizePath hdr.linkname) s).2 = s1 at hok h1 ⊢
        cases hp : (preserveBaseDir RefFs.asFs (filepathDir (normalizePath hdr.name)) s1).1 with
        | some e => simp [hp] at hok
        | none =>
          simp only [hp] at hok ⊢
          have h2 := hpres s1 h1 hp
          have hheld := preserveBaseDir_held RefFs.asFs _ s1 hp
          have h3 := hcall _ (.removeAll (normalizePath hdr.name)) h2 hheld (Or.inl rfl)
          split <;> exact h3
      · rw [if_neg hne]
        exact h1

/-- The stages of a successful `syncLink`: reads, the Preserver, `RemoveAll` and `Link`
at the link path while its parent is held, then `syncStat` in a state in which the link
path and the link target are on one inode. -/
theorem syncLink_stages (hdr : Header) (s : Sync RefFs) (I : Sync RefFs → Prop)
    (hread : ∀ t c, I t → I (t.logCall c))
    (hpres : ∀ t, I t →
      (preserveBaseDir RefFs.asFs (filepathDir (normalizePath hdr.name)) t).1 = none →
      I (preserveBaseDir RefFs.asFs (filepathDir (normalizePath hdr.name)) t).2)
    (hcall : ∀ t c, I t → t.baseDirPath = filepathDir (normalizePath hdr.name) →
      (c = .removeAll (normalizePath hdr.name) ∨
        c = .link (normalizePath hdr.linkname) (normalizePath hdr.name)) →
      I (t.call RefFs.asFs c).2)
    (hmark : ∀ t, I t → I t.markAdded)
    (hok : (syncLink RefFs.asFs hdr s).1 = none) (h0 : I s) :
    ∃ s1 fi j, I s1 ∧ s1.fs.ino (keyOf (normalizePath hdr.name)) = some j ∧
      s1.fs.ino (keyOf (normalizePath hdr.linkname)) = some j ∧
      (∀ info, fi = some info → info = RefFs.infoOf j (s1.fs.node j)) ∧
      (syncStatWrapped RefFs.asFs hdr fi s1).1 = none ∧
      (syncLink RefFs.asFs hdr s).2 = (syncStatWrapped RefFs.asFs hdr fi s1).2 := by
  unfold syncLink at hok ⊢
  simp only at hok ⊢
  cases hst : statResult (LstatOrStat RefFs.asFs (normalizePath hdr.name) s).1 with
  | error e => simp [hst] at hok
  | ok fi =>
    simp only [hst] at hok ⊢
    have h1 : I (LstatOrStat RefFs.asFs (normalizePath hdr.name) s).2 := hread _ _ h0
    cases hd : (checkLinkTarget RefFs.asFs hdr fi
        (LstatOrStat RefFs.asFs (normalizePath hdr.name) s).2).1 with
    | some e => simp [hd] at hok
    | none =>
      simp only [hd] at hok ⊢
      have h2 := checkLinkTarget_inv hdr fi _ I hread hpres hcall hd h1
      cases hk : (checkLinkTarget RefFs.asFs hdr fi
          (LstatOrStat RefFs.asFs (normalizePath hdr.name) s).2).2.1 with
      | some info =>
        simp only [hk] at hok ⊢
        obtain ⟨k1, k2, ti, k3, k4⟩ := checkLinkTarget_kept RefFs.asFs hdr fi _ info hk
        have hl : RefFs.lstat s.fs (normalizePath hdr.name) = .ok info := by
          subst k1
          exact statResult_some _ _ hst
        have ha : RefFs.lstat s.fs (normalizePath hdr.linkname) = .ok ti := k3
        obtain ⟨i, hi, ei⟩ := RefFs.lstat_ok _ _ _ hl
        obtain ⟨j, hj, ej⟩ := RefFs.lstat_ok _ _ _ ha
        have hij : i = j := by
          rw [ei, ej] at k4
          simpa [RefFs.infoOf] using k4
        subst hij
        have hfs : (checkLinkTarget RefFs.asFs hdr fi
            (LstatOrStat RefFs.asFs (normalizePath hdr.name) s).2).2.2.fs = s.fs := k2
        refine ⟨_, some info, i, h2, by rw [hfs]; exact hi, by rw [hfs]; exact hj, ?_, hok, rfl⟩
        intro info1 h
        simp only [Option.some.injEq] at h
        subst h
        rw [hfs]
        exact ei
      | none =>
        simp only [hk] at hok ⊢
        generalize (checkLinkTarget RefFs.asFs hdr fi
          (LstatOrStat RefFs.asFs (normalizePath hdr.name) s).2).2.2 = s1 at hok h2 ⊢
        unfold createEntry at hok ⊢
        simp only at hok ⊢
        cases hp : (preserveBaseDir RefFs.asFs (filepathDir (normalizePath hdr.name)) s1).1 with
        | some e => simp [hp] at hok
        | none =>
          simp only [hp] at hok ⊢
          have h3 := hpres s1 h2 hp
          have hheld := preserveBaseDir_held RefFs.asFs _ s1 hp
          generalize (preserveBaseDir RefFs.asFs (filepathDir (normalizePath hdr.name)) s1).2 = s2
            at hok h3 hheld ⊢
          cases hc : (s2.call RefFs.asFs
              (.link (normalizePath hdr.linkname) (normalizePath hdr.name))).1 with
          | some e => simp [hc] at hok
          | none =>
            simp only [hc] at hok ⊢
            obtain ⟨j, hj1, hj2⟩ := RefFs.link_ok s2.fs (normalizePath hdr.linkname)
              (normalizePath hdr.name) hc
            refine ⟨_, none, j, hmark _ (hcall s2 _ h3 hheld (Or.inr rfl)), hj1, hj2, ?_, hok,
              rfl⟩
            intro info h
            cases h

/-- What `syncStat` for a hard link leaves on the inode of its target satisfies what
held of the inode before. -/
theorem keptIn_statSet (tar : List TarEntry) (N : Inode → Prop) (E : String) (T : Int)
    (hdr : Header) (fi : Option FileInfo) (s1 : Sync RefFs) (i : Nat)
    (hi : s1.fs.ino (keyOf (normalizePath hdr.name)) = some i)
    (hiE : s1.fs.ino (keyOf E) = some i)
    (hfi : ∀ info, fi = some info → info = RefFs.infoOf i (s1.fs.node i))
    (hok : (syncStatWrapped RefFs.asFs hdr fi s1).1 = none)
    (hsame : ∀ s2, N (s1.fs.node i) → StatSet hdr i s1 s2 → N (s2.fs.node i) ∧ hdr.modTime = T)
    (h0 : KeptIn tar N E T s1) :
    KeptIn tar N E T (syncStatWrapped RefFs.asFs hdr fi s1).2 := by
  have hr : Reach RefFs.asFs QAttr s1 (syncStatWrapped RefFs.asFs hdr fi s1).2 :=
    reach_syncStatWrapped RefFs.asFs QAttr hdr rfl fi s1
  have hino := reach_attr_ino _ _ hr
  obtain ⟨hn', hp'⟩ := plainApart_reach tar QAttr
    (fun _ _ hq _ => by simp [QAttr] at hq) _ _ hr h0.1 h0.2.1
  obtain ⟨t1, t2, t3, t4, t5, t6, t7, t8⟩ := syncStatWrapped_set hdr fi s1 i hi hfi hok
  obtain ⟨_, _, i', hi', _, hN, hm⟩ := h0
  rw [hiE] at hi'
  simp only [Option.some.injEq] at hi'
  subst hi'
  obtain ⟨hN', hT⟩ := hsame _ hN ⟨t1, t2, t3, t4, t5, t6, t7, t8⟩
  have hiE' : (syncStatWrapped RefFs.asFs hdr fi s1).2.fs.ino (keyOf E) = some i := by
    rw [hino]; exact hiE
  refine ⟨hn', hp', i, hiE', hn'.1 _ _ hiE', hN', ?_⟩
  rw [t6, t7, hino]
  split
  · rename_i hc
    rw [if_pos hc] at hm
    exact hm
  · rw [t5]
    exact hT

/-- A successful `syncLink` at a path that is not solid and does not cover `E` keeps
`E`: its target is a solid name, `E` itself or a name on another inode; when it is `E`,
the attributes the link's header sets on the inode are those that held of it. -/
theorem syncLink_keptIn (tar : List TarEntry) (N : Inode → Prop) (hN : MtimeBlind N)
    (E : String) (T : Int) (hdr : Header) (s : Sync RefFs)
    (hcov : ¬ Covers (normalizePath hdr.name) E)
    (hL : keyOf (normalizePath hdr.name) ∉ solidKeys tar)
    (hE : keyOf E ∈ solidKeys tar)
    (ha : keyOf (normalizePath hdr.linkname) ∈ solidKeys tar)
    (hsame : keyOf (normalizePath hdr.linkname) = keyOf E → ∀ (s1 s2 : Sync RefFs) (i : Nat),
      s1.opts = s.opts → N (s1.fs.node i) → StatSet hdr i s1 s2 →
      N (s2.fs.node i) ∧ hdr.modTime = T)
    (h0 : KeptIn tar N E T s)
    (hok : (syncLink RefFs.asFs hdr s).1 = none) :
    KeptIn tar N E T (syncLink RefFs.asFs hdr s).2 := by
  have hnorm : Normal (normalizePath hdr.name) := keyOf_filepathDir hdr.name
  obtain ⟨s1, fi, j, ⟨h1, ho1⟩, hj1, hj2, hfi, hok1, hfin⟩ := syncLink_stages hdr s
    (fun t => KeptIn tar N E T t ∧ t.opts = s.opts)
    (fun t c ht => ht)
    (fun t ht _ => ⟨keptIn_reach_hold tar N hN E T _ _
        (reach_preserveBaseDir RefFs.asFs HoldOnly (normalizePath hdr.name) rfl t) ht.1,
      ((ctl_fields (ctl_preserveBaseDir RefFs.asFs _ t)).2.1).trans ht.2⟩)
    (fun t c ht hheld hc => ⟨⟨RefFs.neat_exec _ _ ht.1.1,
        plainApart_exec tar _ _ (by
          intro old new h
          rcases hc with hc | hc
          · rw [hc] at h
            cases h
          · rw [hc] at h
            cases h
            exact hL) ht.1.1 ht.1.2.1,
        stays_call_structural N hN E T t c (normalizePath hdr.name) (by
          rcases hc with hc | hc <;> rw [hc] <;> simp [Call.isStructuralAt]) hcov hnorm hheld (by
          intro body h
          rcases hc with hc | hc <;> rw [hc] at h <;> cases h) ht.1.2.2⟩, ht.2⟩)
    (fun t ht => ht) hok ⟨h0, rfl⟩
  rw [hfin]
  by_cases hkey : keyOf (normalizePath hdr.linkname) = keyOf E
  · rw [hkey] at hj2
    exact keptIn_statSet tar N E T hdr fi s1 j hj1 hj2 hfi hok1
      (fun s2 hN1 hset => hsame hkey s1 s2 j ho1 hN1 hset) h1
  · refine keptIn_reach_attr tar N hN E T (normalizePath hdr.name) _ _
      (reach_syncStatWrapped RefFs.asFs _ hdr ⟨rfl, rfl⟩ fi s1) ?_ h1
    rw [hj1, ← hj2]
    exact ino_ne_of_solid tar N E T s1 h1 hE _ ha hkey

/-! ## Destinations with hard links: an entry that is still to be reconciled -/

theorem pendingIn_call_attr (tar : List TarEntry) (C : Prop) (ent : TarEntry) (s : Sync RefFs)
    (c : Call) (path : String) (hc : c.isAttrAt path)
    (hne : ∀ i, s.fs.ino (keyOf (normalizePath ent.hdr.name)) = some i →
      s.fs.ino (keyOf path) ≠ some i)
    (h0 : PendingIn tar C ent s) : PendingIn tar C ent (s.call RefFs.asFs c).2 := by
  obtain ⟨hn, hp, hh, hq⟩ := h0
  refine ⟨RefFs.neat_exec _ _ hn, plainApart_exec tar _ _ ?_ hn hp, hh, fun hC => ?_⟩
  · intro old new h
    subst h
    simp [Call.isAttrAt] at hc
  · refine quick_of_node ent s.fs _ (fun i hi => ?_) (hq hC)
    have hi' : s.fs.ino (keyOf (normalizePath ent.hdr.name)) = some i :=
      (congrFun (RefFs.exec_attr_ino c path hc s.fs) _).symm.trans hi
    exact ⟨hi', RefFs.exec_attr_node c path hc s.fs i (hne i hi')⟩

theorem pendingIn_call_structural (tar : List TarEntry) (C : Prop) (ent : TarEntry)
    (s : Sync RefFs) (c : Call) (path : String) (hc : c.isStructuralAt path)
    (hnorm : Normal path) (hkE : keyOf path ≠ keyOf (normalizePath ent.hdr.name))
    (hheld : s.baseDirPath = filepathDir path)
    (hE : keyOf (normalizePath ent.hdr.name) ∈ solidKeys tar)
    (hl : ∀ old new, c = .link old new → keyOf new ∉ solidKeys tar)
    (hw : ∀ body, c = .writeReader path body → keyOf path ∈ solidKeys tar)
    (h0 : PendingIn tar C ent s) : PendingIn tar C ent (s.call RefFs.asFs c).2 := by
  obtain ⟨hn, hp, hh, hq⟩ := h0
  refine ⟨RefFs.neat_exec _ _ hn, plainApart_exec tar _ _ hl hn hp, hh, fun hC => ?_⟩
  refine quick_of_node ent s.fs _ (fun i hi => ?_) (hq hC)
  have hi' : s.fs.ino (keyOf (normalizePath ent.hdr.name)) = some i :=
    RefFs.exec_structural_keeps c path hc s.fs _ i (Ne.symm hkE) hi
  refine ⟨hi', RefFs.exec_structural_same c path hc s.fs i (hn.1 _ _ hi') ?_ ?_⟩
  · intro body hb h
    exact hkE (plainApart_eq tar s.fs hp _ _ i (hw body hb) hE h hi')
  · intro h
    obtain ⟨h1, h2⟩ := hh (by rw [hheld]; exact filepathDir_ne_empty path)
    rw [hheld, hnorm] at h1 h2
    exact h2 (plainApart_eq tar s.fs hp _ _ i h1 hE h hi')

theorem pendingIn_held_ne (tar : List TarEntry) (C : Prop) (ent : TarEntry)
    (hE : keyOf (normalizePath ent.hdr.name) ∈ solidKeys tar) (t : Sync RefFs)
    (h0 : PendingIn tar C ent t) (h1 : t.baseDirPath ≠ "") :
    ∀ i, t.fs.ino (keyOf (normalizePath ent.hdr.name)) = some i →
      t.fs.ino (keyOf t.baseDirPath) ≠ some i := by
  intro i hi h
  obtain ⟨a, b⟩ := h0.2.2.1 h1
  exact b (plainApart_eq tar t.fs h0.2.1 _ _ i a hE h hi)

theorem pendingIn_restore (tar : List TarEntry) (C : Prop) (ent : TarEntry)
    (hE : keyOf (normalizePath ent.hdr.name) ∈ solidKeys tar) (t : Sync RefFs)
    (h0 : PendingIn tar C ent t) (h1 : t.baseDirPath ≠ "") :
    PendingIn tar C ent
      { (t.call RefFs.asFs (.chtimes t.baseDirPath t.baseDirModTime t.baseDirModTime)).2 with
        baseDirPath := "" } := by
  have := pendingIn_call_attr tar C ent t _ t.baseDirPath
    (show (Call.chtimes t.baseDirPath t.baseDirModTime t.baseDirModTime).isAttrAt
      t.baseDirPath by simp [Call.isAttrAt])
    (pendingIn_held_ne tar C ent hE t h0 h1) h0
  exact ⟨this.1, this.2.1, fun h => absurd rfl h, this.2.2.2⟩

/-- A primitive action at a solid name other than the path of `ent`, none of them a
hard link, leaves `ent` pending. -/
theorem pendingIn_step (tar : List TarEntry) (C : Prop) (ent : TarEntry)
    (Q : StepKind → String → Prop) (hT : ∀ p, ¬ Q .target p)
    (hE : keyOf (normalizePath ent.hdr.name) ∈ solidKeys tar)
    (hH : ∀ p, Q .hold p → keyOf (filepathDir p) ∈ solidKeys tar ∧
      keyOf (filepathDir p) ≠ keyOf (normalizePath ent.hdr.name))
    (hS : ∀ p, Q .structural p ∨ Q .attr p → Normal p ∧ keyOf p ∈ solidKeys tar ∧
      keyOf p ≠ keyOf (normalizePath ent.hdr.name))
    (s s' : Sync RefFs) (h : Step RefFs.asFs Q s s') (h0 : PendingIn tar C ent s) :
    PendingIn tar C ent s' := by
  cases h with
  | silent hfs hp hm hl =>
    obtain ⟨hn, hpa, hh, hq⟩ := h0
    refine ⟨by rw [hfs]; exact hn, by rw [hfs]; exact hpa, by rw [hp]; exact hh, ?_⟩
    rw [hfs]
    exact hq
  | read c hc => exact h0
  | restoreFailed h1 hr =>
    exact pendingIn_call_attr tar C ent s _ s.baseDirPath (by simp [Call.isAttrAt])
      (pendingIn_held_ne tar C ent hE s h0 h1) h0
  | restore h1 hr => exact pendingIn_restore tar C ent hE s h0 h1
  | snapshot path hQ fi h1 hD hfi =>
    exact ⟨h0.1, h0.2.1, fun _ => hH path hQ, h0.2.2.2⟩
  | structural path hQ' c hc hl h1 =>
    obtain ⟨a, b, d⟩ := hS path (Or.inl hQ')
    refine pendingIn_call_structural tar C ent s c path hc a d h1 hE ?_ (fun _ _ => b) h0
    intro old new h
    subst h
    simp only [Call.isStructuralAt] at hc
    subst hc
    exact absurd (hl old rfl) (hT old)
  | attr path hQ' c hc =>
    obtain ⟨_, b, d⟩ := hS path (Or.inr hQ')
    refine pendingIn_call_attr tar C ent s c path hc ?_ h0
    intro i hi h
    exact d (plainApart_eq tar s.fs h0.2.1 _ _ i b hE h hi)

theorem pendingIn_reach (tar : List TarEntry) (C : Prop) (ent : TarEntry)
    (Q : StepKind → String → Prop) (hT : ∀ p, ¬ Q .target p)
    (hE : keyOf (normalizePath ent.hdr.name) ∈ solidKeys tar)
    (hH : ∀ p, Q .hold p → keyOf (filepathDir p) ∈ solidKeys tar ∧
      keyOf (filepathDir p) ≠ keyOf (normalizePath ent.hdr.name))
    (hS : ∀ p, Q .structural p ∨ Q .attr p → Normal p ∧ keyOf p ∈ solidKeys tar ∧
      keyOf p ≠ keyOf (normalizePath ent.hdr.name))
    (s s' : Sync RefFs) (h : Reach RefFs.asFs Q s s') (h0 : PendingIn tar C ent s) :
    PendingIn tar C ent s' :=
  reach_invariant (PendingIn tar C ent)
    (fun t t' ht => pendingIn_step tar C ent Q hT hE hH hS t t' ht) h h0

/-- Attribute changes at a path on another inode leave `ent` pending. -/
theorem pendingIn_reach_attr (tar : List TarEntry) (C : Prop) (ent : TarEntry) (p : String)
    (hE : keyOf (normalizePath ent.hdr.name) ∈ solidKeys tar)
    (s s' : Sync RefFs) (h : Reach RefFs.asFs (AttrAt p) s s')
    (hne : ∀ i, s.fs.ino (keyOf (normalizePath ent.hdr.name)) = some i →
      s.fs.ino (keyOf p) ≠ some i)
    (h0 : PendingIn tar C ent s) : PendingIn tar C ent s' := by
  have key := reach_invariant (fun t => PendingIn tar C ent t ∧ t.fs.ino = s.fs.ino) ?_ h
    ⟨h0, rfl⟩
  · exact key.1
  intro t t' hstep ht
  obtain ⟨hk, hino⟩ := ht
  have hino' : t'.fs.ino = t.fs.ino :=
    funext (fun q => step_ino (AttrAt p) q (fun _ hq => by simp [AttrAt] at hq) t t' hstep)
  refine ⟨?_, hino'.trans hino⟩
  cases hstep with
  | silent hfs hp hm hl =>
    obtain ⟨hn, hpa, hh, hq⟩ := hk
    refine ⟨by rw [hfs]; exact hn, by rw [hfs]; exact hpa, by rw [hp]; exact hh, ?_⟩
    rw [hfs]
    exact hq
  | read c hc => exact hk
  | restoreFailed h1 hr =>
    exact pendingIn_call_attr tar C ent t _ t.baseDirPath (by simp [Call.isAttrAt])
      (pendingIn_held_ne tar C ent hE t hk h1) hk
  | restore h1 hr => exact pendingIn_restore tar C ent hE t hk h1
  | snapshot path hQ fi h1 hD hfi => exact absurd hQ.1 (by decide)
  | structural path hQ' c hc hl h1 => exact absurd hQ'.1 (by decide)
  | attr path hQ' c hc =>
    refine pendingIn_call_attr tar C ent t c path hc ?_ hk
    rw [hQ'.2, hino]
    exact hne

/-- A successful `syncLink` for another path, whose target is a solid name other than
the path of `ent`, leaves `ent` pending. -/
theorem syncLink_pendingIn (tar : List TarEntry) (C : Prop) (ent : TarEntry) (hdr : Header)
    (s : Sync RefFs)
    (hkE : keyOf (normalizePath hdr.name) ≠ keyOf (normalizePath ent.hdr.name))
    (hL : keyOf (normalizePath hdr.name) ∉ solidKeys tar)
    (hE : keyOf (normalizePath ent.hdr.name) ∈ solidKeys tar)
    (hP : keyOf (filepathDir (normalizePath hdr.name)) ∈ solidKeys tar)
    (hPne : keyOf (filepathDir (normalizePath hdr.name)) ≠ keyOf (normalizePath ent.hdr.name))
    (ha : keyOf (normalizePath hdr.linkname) ∈ solidKeys tar)
    (hane : keyOf (normalizePath hdr.linkname) ≠ keyOf (normalizePath ent.hdr.name))
    (h0 : PendingIn tar C ent s)
    (hok : (syncLink RefFs.asFs hdr s).1 = none) :
    PendingIn tar C ent (syncLink RefFs.asFs hdr s).2 := by
  have hnorm : Normal (normalizePath hdr.name) := keyOf_filepathDir hdr.name
  obtain ⟨s1, fi, j, h1, hj1, hj2, hfi, hok1, hfin⟩ := syncLink_stages hdr s
    (PendingIn tar C ent)
    (fun t c ht => ht)
    (fun t ht _ => pendingIn_reach tar C ent (HoldAt (normalizePath hdr.name))
      (fun _ hq => by simp [HoldAt] at hq) hE
      (fun p hq => by rw [hq.2]; exact ⟨hP, hPne⟩)
      (fun p hq => by rcases hq with hq | hq <;> simp [HoldAt] at hq) t _
      (reach_preserveBaseDir RefFs.asFs _ (normalizePath hdr.name) ⟨rfl, rfl⟩ t) ht)
    (fun t c ht hheld hc => pendingIn_call_structural tar C ent t c (normalizePath hdr.name)
      (by rcases hc with hc | hc <;> rw [hc] <;> simp [Call.isStructuralAt]) hnorm hkE hheld hE
      (by
        intro old new h
        rcases hc with hc | hc
        · rw [hc] at h
          cases h
        · rw [hc] at h
          cases h
          exact hL)
      (by
        intro body h
        rcases hc with hc | hc <;> rw [hc] at h <;> cases h) ht)
    (fun t ht => ht) hok h0
  rw [hfin]
  refine pendingIn_reach_attr tar C ent (normalizePath hdr.name) hE _ _
    (reach_syncStatWrapped RefFs.asFs _ hdr ⟨rfl, rfl⟩ fi s1) ?_ h1
  intro i hi h
  rw [hj1] at h
  simp only [Option.some.injEq] at h
  subst h
  exact hane (plainApart_eq tar s1.fs h1.2.1 _ _ j ha hE hj2 hi)

/-! ## Archives with hard links -/

/-- In a parents-first tar no two entries have one path. -/
theorem entry_of_key (tar : List TarEntry) (h : ParentsFirst tar) (e e' : TarEntry)
    (he : e ∈ tar) (he' : e' ∈ tar)
    (hk : keyOf (normalizePath e.hdr.name) = keyOf (normalizePath e'.hdr.name)) : e = e' := by
  have hp : tar.Pairwise (fun a b => a = b ∨
      keyOf (normalizePath a.hdr.name) ≠ keyOf (normalizePath b.hdr.name)) := by
    refine List.Pairwise.imp ?_ h
    intro a b hab
    refine Or.inr (fun hkk => hab ?_)
    unfold Covers
    rw [hkk]
    exact RefFs.isPrefixOf_self _
  have hall := List.Pairwise.forall_of_forall (l := tar)
    (R := fun a b => a = b ∨
      keyOf (normalizePath a.hdr.name) ≠ keyOf (normalizePath b.hdr.name))
    (fun a b hab => by
      rcases hab with h1 | h1
      · exact Or.inl h1.symm
      · exact Or.inr (Ne.symm h1))
    (fun x _ => Or.inl rfl) hp
  rcases hall he he' with h1 | h1
  · exact h1
  · exact absurd hk h1

theorem parentsListed_of_dirs (tar : List TarEntry) (h : DirsListed tar) : ParentsListed tar := by
  intro e he
  rcases h e he with h0 | ⟨e', he', _, hk⟩
  · exact Or.inl h0
  · exact Or.inr ⟨e', he', hk⟩

/-- The parent of every entry is a solid name. -/
theorem parent_solid (tar : List TarEntry) (h : DirsListed tar) (e : TarEntry) (he : e ∈ tar) :
    (keyOf (normalizePath e.hdr.name)).dropLast ∈ solidKeys tar := by
  rcases h e he with h0 | ⟨e', he', hd, hk⟩
  · rw [h0]
    exact mem_solidKeys_root tar
  · rw [← hk]
    exact mem_solidKeys_of tar e' he' (by rw [hd]; decide)

/-- The path of a hard-link entry is not a solid name. -/
theorem link_not_solid (o : Options) (tar : List TarEntry) (h : Archive o tar) (e : TarEntry)
    (he : e ∈ tar) (hl : e.hdr.typeflag = TypeLink) :
    keyOf (normalizePath e.hdr.name) ∉ solidKeys tar := by
  intro hs
  rcases (mem_solidKeys_iff tar _).mp hs with h0 | ⟨e', he', hnl, hk⟩
  · exact (h.1 e he).2.2.2 (by rw [hl]; decide) h0
  · have := entry_of_key tar h.2.1 e' e he' he hk
    subst this
    exact hnl hl

theorem takeWhile_ne_append (e : TarEntry) (pre rest : List TarEntry) (he : e ∈ pre) :
    (pre ++ rest).takeWhile (fun x => decide (x ≠ e)) =
      pre.takeWhile (fun x => decide (x ≠ e)) := by
  induction pre with
  | nil => simp at he
  | cons x xs ih =>
    by_cases hx : x = e
    · subst hx
      simp [List.takeWhile]
    · have hm : e ∈ xs := by
        rcases List.mem_cons.1 he with h | h
        · exact absurd h.symm hx
        · exact h
      simp only [List.cons_append, List.takeWhile_cons, hx, ne_eq, not_false_eq_true,
        decide_True, if_true]
      rw [ih hm]

theorem mem_of_mem_takeWhile_ne (e t : TarEntry) (l : List TarEntry)
    (h : t ∈ l.takeWhile (fun x => decide (x ≠ e))) : t ∈ l :=
  (List.takeWhile_sublist _).subset h

/-- The target of a hard-link entry: a regular-file entry of the tar. -/
theorem link_target (o : Options) (tar : List TarEntry) (h : Archive o tar) (e : TarEntry)
    (he : e ∈ tar) (hl : e.hdr.typeflag = TypeLink) :
    ∃ t ∈ tar, LinkOf t e ∧ keyOf (normalizePath e.hdr.linkname) ∈ solidKeys tar := by
  obtain ⟨t, ht, hlo⟩ := h.2.2.2 e he hl
  have htm := mem_of_mem_takeWhile_ne e t tar ht
  refine ⟨t, htm, hlo, ?_⟩
  rw [← hlo.2.1]
  exact mem_solidKeys_of tar t htm (by rw [hlo.1]; decide)

/-- The target of a hard-link entry that precedes `ent` precedes `ent`. -/
theorem link_target_before (o : Options) (pre post : List TarEntry) (ent : TarEntry)
    (h : Archive o (pre ++ ent :: post)) (e : TarEntry) (he : e ∈ pre)
    (hl : e.hdr.typeflag = TypeLink) :
    keyOf (normalizePath e.hdr.linkname) ≠ keyOf (normalizePath ent.hdr.name) := by
  obtain ⟨t, ht, hlo⟩ := h.2.2.2 e (List.mem_append_left _ he) hl
  rw [takeWhile_ne_append e pre _ he] at ht
  have htp : t ∈ pre := mem_of_mem_takeWhile_ne e t pre ht
  intro hk
  have hfirst := h.2.1
  unfold ParentsFirst at hfirst
  rw [List.pairwise_append] at hfirst
  apply hfirst.2.2 t htp ent (List.mem_cons_self _ _)
  unfold Covers
  rw [← hk, ← hlo.2.1]
  exact RefFs.isPrefixOf_self _

/-- What `syncStat` for a hard link of the regular-file entry `ent` leaves of the inode
of `ent`. -/
theorem nodeHolds_statSet (C : Prop) (o : Options) (ent e : TarEntry) (s1 s2 : Sync RefFs)
    (i : Nat) (hl : e.hdr.typeflag = TypeLink) (hlo : LinkOf ent e) (hfit : HeaderFits ent)
    (ho : s1.opts = o) (hN : NodeHolds C o ent (s1.fs.node i)) (hset : StatSet e.hdr i s1 s2) :
    NodeHolds C o ent (s2.fs.node i) ∧ e.hdr.modTime = ent.hdr.modTime := by
  obtain ⟨hReg, _, huid, hgid, hmode, hmt⟩ := hlo
  obtain ⟨_, t2, t3, t4, _, _, _, _⟩ := hset
  obtain ⟨⟨hkind, hown, hm⟩, hbody⟩ := hN
  have hreg1 : modeTypeOf (s1.fs.node i).mode = 0 := by
    rcases hkind with ⟨_, h, _⟩ | ⟨h, _⟩ | ⟨h, _⟩
    · exact (RefFs.modeIsRegular_iff _).mp h
    · rw [hReg] at h
      exact absurd h (by decide)
    · rw [hReg] at h
      exact absurd h (by decide)
  have hsize : ent.hdr.size = (s1.fs.node i).content.length := by
    rcases hkind with ⟨_, _, h⟩ | ⟨h, _⟩ | ⟨h, _⟩
    · exact h
    · rw [hReg] at h
      exact absurd h (by decide)
    · rw [hReg] at h
      exact absurd h (by decide)
  have hmf : ModeFits e.hdr (s1.fs.node i) := by
    unfold ModeFits
    rw [hreg1, ← hmode]
    exact (hfit.1 hReg).2
  refine ⟨⟨⟨Or.inl ⟨hReg, (RefFs.modeIsRegular_iff _).mpr (t2.2.2.trans hreg1), ?_⟩, ?_, ?_⟩,
    ?_⟩, hmt.symm⟩
  · rw [t2.1]
    exact hsize
  · intro hon
    obtain ⟨a, b⟩ := t3 (by rw [ho]; exact hon)
    exact ⟨huid.trans a, hgid.trans b⟩
  · intro _
    rw [t4 (by rw [hl]; decide) hmf]
    exact hmode
  · intro hC hR
    rw [t2.1]
    exact hbody hC hR

/-! ## Archives with hard links: one entry through a whole run -/

/-- One entry of a plain kind through a whole run.  On a neat reference destination
whose solid names are apart, let the tar be an archive.  When every walked path that is
the path of the entry or a directory above it is named by a tar entry, then after a run
that returns a nil error the path is there as the entry describes it, a regular file
with the body of the entry when the quick check was sound on the destination. -/
theorem entry_stays_after_run (fs : RefFs) (pre post : List TarEntry) (ent : TarEntry)
    (fail : Option Error) (opts : List Opt) (fuel : Nat) (u : List PathUpdate)
    (s' : Sync RefFs)
    (hkind : PlainKind ent) (harch : Archive (resolveOptions opts) (pre ++ ent :: post))
    (hneat : RefFs.Neat fs) (hapart : PlainApart (pre ++ ent :: post) fs)
    (hwalk : ∀ paths, RefFs.walk fs = .ok paths →
      Guarded (fun p => Covers p (normalizePath ent.hdr.name))
        (resolveOptions opts) (pre ++ ent :: post) (paths.map normalizePath))
    (hrun : Run RefFs.asFs fuel (New RefFs.asFs fs ⟨pre ++ ent :: post, fail⟩ opts) =
      some (u, none, s')) :
    ∃ i, s'.fs.ino (keyOf (normalizePath ent.hdr.name)) = some i ∧
      NodeHolds (Quick ent fs) (resolveOptions opts) ent (s'.fs.node i) ∧
      (s'.fs.node i).mtime = ent.hdr.modTime := by
  obtain ⟨n1, n2, n3, n4, n5, n6, _⟩ :=
    New_fields RefFs.asFs fs ⟨pre ++ ent :: post, fail⟩ opts
  have hN := nodeHolds_blind (Quick ent fs) (resolveOptions opts) ent
  have hmem : ent ∈ pre ++ ent :: post := List.mem_append_right _ (List.mem_cons_self _ _)
  have hnlE : ent.hdr.typeflag ≠ TypeLink := by
    intro hl
    rcases hkind with h | h | h <;> rw [hl] at h <;> exact absurd h (by decide)
  obtain ⟨_, hsyncE, hfit, hroot⟩ := harch.1 ent hmem
  have hE : keyOf (normalizePath ent.hdr.name) ∈ solidKeys (pre ++ ent :: post) :=
    mem_solidKeys_of _ ent hmem hnlE
  have hPE : keyOf (filepathDir (normalizePath ent.hdr.name)) ∈
      solidKeys (pre ++ ent :: post) := by
    rw [keyOf_filepathDir]
    exact parent_solid _ harch.2.2.1 ent hmem
  have hfirst := harch.2.1
  unfold ParentsFirst at hfirst
  rw [List.pairwise_append] at hfirst
  obtain ⟨_, hco, hcross⟩ := hfirst
  rw [List.pairwise_cons] at hco
  have hpre : ∀ e ∈ pre, ¬ Covers (normalizePath ent.hdr.name) (normalizePath e.hdr.name) :=
    fun e he => hcross e he ent (List.mem_cons_self _ _)
  have hpost : ∀ e ∈ post, ¬ Covers (normalizePath e.hdr.name) (normalizePath ent.hdr.name) :=
    fun e he => hco.1 e he
  have hprekey : ∀ e ∈ pre,
      keyOf (normalizePath e.hdr.name) ≠ keyOf (normalizePath ent.hdr.name) := by
    intro e he hk
    apply hpre e he
    unfold Covers
    rw [hk]
    exact RefFs.isPrefixOf_self _
  have hprepar : ∀ e ∈ pre,
      keyOf (filepathDir (normalizePath e.hdr.name)) ∈ solidKeys (pre ++ ent :: post) ∧
      keyOf (filepathDir (normalizePath e.hdr.name)) ≠ keyOf (normalizePath ent.hdr.name) := by
    intro e he
    rw [keyOf_filepathDir]
    refine ⟨parent_solid _ harch.2.2.1 e (List.mem_append_left _ he), fun hk => ?_⟩
    apply hpre e he
    unfold Covers
    rw [← hk]
    exact isPrefixOf_dropLast _
  have key : KeptIn (pre ++ ent :: post)
      (NodeHolds (Quick ent fs) (resolveOptions opts) ent) (normalizePath ent.hdr.name)
      ent.hdr.modTime s' ∧ s'.baseDirPath = "" := by
    refine Run_guarded RefFs.asFs
      (fun p => Covers p (normalizePath ent.hdr.name) ∨ ¬ Normal p)
      (fun s => s.opts = resolveOptions opts ∧
        ((∃ pre', s.tarReader.entries = pre' ++ ent :: post ∧ (∀ e ∈ pre', e ∈ pre) ∧
          PendingIn (pre ++ ent :: post) (Quick ent fs) ent s) ∨
        ((∀ e ∈ s.tarReader.entries, e ∈ post) ∧
          KeptIn (pre ++ ent :: post) (NodeHolds (Quick ent fs) (resolveOptions opts) ent)
            (normalizePath ent.hdr.name) ent.hdr.modTime s)))
      (fun s => KeptIn (pre ++ ent :: post)
        (NodeHolds (Quick ent fs) (resolveOptions opts) ent) (normalizePath ent.hdr.name)
        ent.hdr.modTime s ∧ s.baseDirPath = "")
      ?_ ?_ ?_ ?_ ?_ ?_ ?_ fuel _ u s' ?_ ?_ hrun
    · -- the walk
      intro s m _ _ hw hJ
      unfold walkFs
      split <;> exact hJ
    · -- one tar entry
      intro s e rest _ _ hent hJ
      obtain ⟨hopt, hJ⟩ := hJ
      obtain ⟨c1, c2, _, _, _⟩ := ctl_fields (ctl_dispatch RefFs.asFs e (s.beginEntry e rest))
      have e1 : (dispatch RefFs.asFs e (s.beginEntry e rest)).2.tarReader.entries = rest := by
        rw [c1]; rfl
      have e2 : (dispatch RefFs.asFs e (s.beginEntry e rest)).2.opts = resolveOptions opts := by
        rw [c2]; exact hopt
      have ho : (s.beginEntry e rest).opts = resolveOptions opts := hopt
      rcases hJ with ⟨pre', hpre', hin, hpend⟩ | ⟨hsafe, hkept⟩
      · rw [hent] at hpre'
        have hpend' : PendingIn (pre ++ ent :: post) (Quick ent fs) ent (s.beginEntry e rest) :=
          hpend
        cases pre' with
        | nil =>
          simp only [List.nil_append, List.cons.injEq] at hpre'
          obtain ⟨h1, h2⟩ := hpre'
          subst h1
          subst h2
          constructor
          · intro hd
            refine ⟨e2, Or.inr ⟨?_, ?_⟩⟩
            · intro x hx
              simp only [Sync.forget, e1] at hx
              exact hx
            · have := dispatch_keptIn (pre ++ e :: rest) (Quick e fs) e (s.beginEntry e rest)
                hkind hfit hroot hE hPE hpend'.1 hpend'.2.1 hpend'.2.2.1 hpend'.2.2.2 hd
              rw [ho] at this
              exact this
          · intro hd
            exact absurd hd (dispatch_alwaysSynced RefFs.asFs e _ (by rw [ho]; exact hsyncE))
        | cons x pre'' =>
          simp only [List.cons_append, List.cons.injEq] at hpre'
          obtain ⟨h1, h2⟩ := hpre'
          subst h1
          have hep : e ∈ pre := hin e (List.mem_cons_self _ _)
          have hem : e ∈ pre ++ ent :: post := List.mem_append_left _ hep
          have hin' : ∀ x ∈ pre'', x ∈ pre := fun x hx => hin x (List.mem_cons_of_mem _ hx)
          obtain ⟨hk, hsy, _, _⟩ := harch.1 e hem
          have hnext : ((dispatch RefFs.asFs e (s.beginEntry e rest)).1 = .synced ∨
              (dispatch RefFs.asFs e (s.beginEntry e rest)).1 = .skipped) →
              PendingIn (pre ++ ent :: post) (Quick ent fs) ent
                (dispatch RefFs.asFs e (s.beginEntry e rest)).2 := by
            intro hd
            rcases hk with hk | hl
            · have hnl : e.hdr.typeflag ≠ TypeLink := by
                intro hl
                rcases hk with h | h | h <;> rw [hl] at h <;> exact absurd h (by decide)
              have hr : Reach RefFs.asFs (AtPath (normalizePath e.hdr.name))
                  (s.beginEntry e rest) (dispatch RefFs.asFs e (s.beginEntry e rest)).2 :=
                reach_dispatch RefFs.asFs _ e (fun _ hk => ⟨hk, rfl⟩) (fun h => absurd h hnl)
                  (s.beginEntry e rest)
              refine pendingIn_reach _ _ ent _ (atPath_target _) hE ?_ ?_ _ _ hr hpend'
              · intro p hp
                rw [hp.2]
                exact hprepar e hep
              · intro p hp
                have hpp : p = normalizePath e.hdr.name := by
                  rcases hp with hp | hp <;> exact hp.2
                rw [hpp]
                exact ⟨keyOf_filepathDir e.hdr.name, mem_solidKeys_of _ e hem hnl,
                  hprekey e hep⟩
            · rcases hd with hd | hd
              · obtain ⟨d1, d2⟩ := dispatch_link_synced RefFs.asFs e _ hl hd
                rw [d2]
                obtain ⟨t, _, hlo, ha⟩ := link_target _ _ harch e hem hl
                exact syncLink_pendingIn _ _ ent e.hdr (s.beginEntry e rest) (hprekey e hep)
                  (link_not_solid _ _ harch e hem hl) hE (hprepar e hep).1 (hprepar e hep).2
                  ha (link_target_before _ pre post ent harch e hep hl) hpend' d1
              · exact absurd hd (dispatch_alwaysSynced RefFs.asFs e _ (by rw [ho]; exact hsy))
          exact ⟨fun hd => ⟨e2, Or.inl ⟨pre'', by simp only [Sync.forget, e1]; exact h2, hin',
              hnext (Or.inl hd)⟩⟩,
            fun hd => ⟨e2, Or.inl ⟨pre'', by rw [e1]; exact h2, hin', hnext (Or.inr hd)⟩⟩⟩
      · have hepo : e ∈ post := hsafe e (by rw [hent]; exact List.mem_cons_self _ _)
        have hem : e ∈ pre ++ ent :: post :=
          List.mem_append_right _ (List.mem_cons_of_mem _ hepo)
        have hrest : ∀ x ∈ rest, x ∈ post :=
          fun x hx => hsafe x (by rw [hent]; exact List.mem_cons_of_mem _ hx)
        have hkept' : KeptIn (pre ++ ent :: post)
            (NodeHolds (Quick ent fs) (resolveOptions opts) ent) (normalizePath ent.hdr.name)
            ent.hdr.modTime (s.beginEntry e rest) := hkept
        obtain ⟨hk, hsy, _, _⟩ := harch.1 e hem
        have hnext : ((dispatch RefFs.asFs e (s.beginEntry e rest)).1 = .synced ∨
            (dispatch RefFs.asFs e (s.beginEntry e rest)).1 = .skipped) →
            KeptIn (pre ++ ent :: post)
              (NodeHolds (Quick ent fs) (resolveOptions opts) ent) (normalizePath ent.hdr.name)
              ent.hdr.modTime (dispatch RefFs.asFs e (s.beginEntry e rest)).2 := by
          intro hd
          rcases hk with hk | hl
          · have hnl : e.hdr.typeflag ≠ TypeLink := by
              intro hl
              rcases hk with h | h | h <;> rw [hl] at h <;> exact absurd h (by decide)
            have hr : Reach RefFs.asFs (AtPath (normalizePath e.hdr.name))
                (s.beginEntry e rest) (dispatch RefFs.asFs e (s.beginEntry e rest)).2 :=
              reach_dispatch RefFs.asFs _ e (fun _ hk => ⟨hk, rfl⟩) (fun h => absurd h hnl)
                (s.beginEntry e rest)
            refine keptIn_reach_solid _ _ hN _ _ _ (atPath_target _) ?_ hE _ _ hr hkept'
            intro p hp
            have hpp : p = normalizePath e.hdr.name := by
              rcases hp with hp | hp <;> exact hp.2
            rw [hpp]
            exact ⟨hpost e hepo, keyOf_filepathDir e.hdr.name, mem_solidKeys_of _ e hem hnl⟩
          · rcases hd with hd | hd
            · obtain ⟨d1, d2⟩ := dispatch_link_synced RefFs.asFs e _ hl hd
              rw [d2]
              obtain ⟨t, htm, hlo, ha⟩ := link_target _ _ harch e hem hl
              refine syncLink_keptIn _ _ hN _ _ e.hdr (s.beginEntry e rest) (hpost e hepo)
                (link_not_solid _ _ harch e hem hl) hE ha ?_ hkept' d1
              intro hkk s1 s2 i ho1 hN1 hset
              have hte : t = ent :=
                entry_of_key _ harch.2.1 t ent htm hmem (hlo.2.1.trans hkk)
              subst hte
              exact nodeHolds_statSet _ _ t e s1 s2 i hl hlo hfit (ho1.trans ho) hN1 hset
            · exact absurd hd (dispatch_alwaysSynced RefFs.asFs e _ (by rw [ho]; exact hsy))
        exact ⟨fun hd => ⟨e2, Or.inr ⟨by simp only [Sync.forget, e1]; exact hrest,
            hnext (Or.inl hd)⟩⟩,
          fun hd => ⟨e2, Or.inr ⟨by rw [e1]; exact hrest, hnext (Or.inr hd)⟩⟩⟩
    · -- the end of the stream
      intro s _ _ hent hJ
      obtain ⟨hopt, hJ⟩ := hJ
      obtain ⟨f1, _, f3, f4, _, f6, f7, _⟩ := flattenPathMap_fields (s.logCall .tarNext)
      rcases hJ with ⟨pre', hpre', _⟩ | ⟨_, hkept⟩
      · rw [hent] at hpre'
        simp at hpre'
      · refine ⟨by rw [f6]; exact hopt, Or.inr ⟨?_, ?_⟩⟩
        · rw [f7]
          intro x hx
          simp only [Sync.logCall, hent] at hx
          simp at hx
        · unfold KeptIn Stays
          rw [f1, f3, f4]
          exact hkept
    · intro s rest _ _ _ hJ
      exact hJ
    · intro s path rest _ _ _ _ _ hJ
      exact hJ
    · -- a deletion
      intro s path _ fi _ hent _ hne hP hfi hJ hok
      obtain ⟨hopt, hJ⟩ := hJ
      obtain ⟨f1, f2, _, _⟩ := deleteEntry_fields RefFs.asFs path fi (LstatOrStat RefFs.asFs path s).2
      rcases hJ with ⟨pre', hpre', _⟩ | ⟨hsafe, hkept⟩
      · rw [hent] at hpre'
        simp at hpre'
      · simp only [not_or, not_not] at hP
        have hkept' : KeptIn (pre ++ ent :: post)
            (NodeHolds (Quick ent fs) (resolveOptions opts) ent) (normalizePath ent.hdr.name)
            ent.hdr.modTime (LstatOrStat RefFs.asFs path s).2 := hkept
        refine ⟨by rw [f2]; exact hopt, Or.inr ⟨?_,
          deleteEntry_keptIn _ _ hN _ _ path fi _ hP.1 hP.2 hkept' hok⟩⟩
        rw [f1]
        exact hsafe
    · -- the final release of the base directory
      intro s _ hent _ hJ hok
      obtain ⟨_, hJ⟩ := hJ
      rcases hJ with ⟨pre', hpre', _⟩ | ⟨_, hkept⟩
      · rw [hent] at hpre'
        simp at hpre'
      · have hr : Reach RefFs.asFs HoldOnly s
            ((preserveBaseDir RefFs.asFs "" s).2.setErr none) :=
          (reach_releaseBaseDir RefFs.asFs _ s).trans (reach_silent rfl rfl rfl rfl)
        exact ⟨keptIn_reach_hold _ _ hN _ _ _ _ hr hkept,
          preserveBaseDir_held RefFs.asFs "" s hok⟩
    · -- the inventory of the first state
      refine ⟨fun _ => ⟨n5, ?_⟩, fun m hm => ?_, fun l hl => ?_⟩
      · intro paths hp p hpm hne hP
        rw [n1] at hp
        rw [n2, n3]
        refine hwalk paths hp p hpm hne ?_
        rcases hP with hP | hP
        · exact hP
        · exfalso
          obtain ⟨x, _, hx⟩ := List.mem_map.mp hpm
          apply hP
          rw [← hx]
          exact keyOf_filepathDir x
      · rw [n4] at hm
        simp at hm
      · rw [n5] at hl
        simp at hl
    · refine ⟨n3, Or.inl ⟨pre, by rw [n2], fun e he => he, ?_, ?_, ?_, ?_⟩⟩
      · rw [n1]; exact hneat
      · rw [n1]; exact hapart
      · rw [n6]; simp
      · rw [n1]; exact id
  obtain ⟨⟨_, _, i, hi, _, hn, hm⟩, hheld⟩ := key
  rw [if_neg (by rw [hheld]; simp)] at hm
  exact ⟨i, hi, hn, hm⟩

/-! ## Archives with hard links: the names a run leaves -/

theorem rootDir_step_neat (Q : StepKind → String → Prop) (s s' : Sync RefFs)
    (h : Step RefFs.asFs Q s s') (ht : RefFs.Neat s.fs) (hr : RefFs.RootDir s.fs) :
    RefFs.RootDir s'.fs := by
  obtain ⟨i, hi, hd⟩ := hr
  have hattr : ∀ (c : Call) (path : String), c.isAttrAt path →
      RefFs.RootDir (s.call RefFs.asFs c).2.fs := by
    intro c path hc
    refine ⟨i, (congrFun (RefFs.exec_attr_ino c path hc s.fs) _).trans hi, ?_⟩
    exact (RefFs.exec_attr_isDir c path hc s.fs i).trans hd
  cases h with
  | silent hfs hp hm hl => rw [hfs]; exact ⟨i, hi, hd⟩
  | read c hc => exact ⟨i, hi, hd⟩
  | restoreFailed h1 hr =>
    exact hattr (.chtimes s.baseDirPath s.baseDirModTime s.baseDirModTime) s.baseDirPath
      (by simp [Call.isAttrAt])
  | restore h1 hr =>
    exact hattr (.chtimes s.baseDirPath s.baseDirModTime s.baseDirModTime) s.baseDirPath
      (by simp [Call.isAttrAt])
  | snapshot path hQ fi h1 hD hfi => exact ⟨i, hi, hd⟩
  | structural path hQ c hc hl h1 =>
    by_cases hk : keyOf path = []
    · have : (s.call RefFs.asFs c).2.fs = s.fs := exec_structural_root c path hc s.fs hk i hi hd
      rw [this]
      exact ⟨i, hi, hd⟩
    · refine ⟨i, ?_, ?_⟩
      · refine (RefFs.exec_structural_ino c path hc s.fs [] ?_).trans hi
        cases hkk : keyOf path with
        | nil => exact absurd hkk hk
        | cons a as => rfl
      · exact (RefFs.exec_structural_isDir c path hc s.fs i (ht.1 [] i hi)).trans hd
  | attr path hQ c hc => exact hattr c path hc

theorem rootDir_reach_neat (Q : StepKind → String → Prop)
    (s s' : Sync RefFs) (h : Reach RefFs.asFs Q s s') (ht : RefFs.Neat s.fs)
    (hr : RefFs.RootDir s.fs) : RefFs.RootDir s'.fs :=
  (reach_invariant (fun t => RefFs.Neat t.fs ∧ RefFs.RootDir t.fs)
    (fun t t' hs hI => ⟨neat_step Q t t' hs hI.1, rootDir_step_neat Q t t' hs hI.1 hI.2⟩) h
    ⟨ht, hr⟩).2

theorem reach_sub_target (E : String) (s s' : Sync RefFs)
    (h : Reach RefFs.asFs (AtOrTarget E) s s') (q : Key) (hq : s'.fs.ino q ≠ none) :
    s.fs.ino q ≠ none ∨ q = keyOf E := by
  induction h with
  | refl => exact Or.inl hq
  | tail _ hstep ih =>
    rcases step_sub _ _ _ hstep q hq with h | ⟨p, hp, h⟩
    · exact ih h
    · rcases hp with hp | hp
      · exact absurd hp (by decide)
      · rw [hp] at h
        exact Or.inr h

/-- After a run with a nil error on a neat destination, the destination is neat and
holds no name but the root and the names of the reconciled tar entries. -/
theorem names_after_run (fs : RefFs) (tar : List TarEntry) (fail : Option Error)
    (opts : List Opt) (fuel : Nat) (u : List PathUpdate) (s' : Sync RefFs)
    (hneat : RefFs.Neat fs)
    (hrun : Run RefFs.asFs fuel (New RefFs.asFs fs ⟨tar, fail⟩ opts) = some (u, none, s')) :
    RefFs.Neat s'.fs ∧ (RefFs.RootDir fs → RefFs.RootDir s'.fs) ∧
      ∀ k, s'.fs.ino k ≠ none →
        k = [] ∨ NamedBy (tar.filter (fun e => decide (AlwaysSynced (resolveOptions opts) e))) k := by
  generalize hT : tar.filter (fun e => decide (AlwaysSynced (resolveOptions opts) e)) = T
  have hTm : ∀ e ∈ tar, AlwaysSynced (resolveOptions opts) e → e ∈ T := by
    intro e he ha
    rw [← hT]
    exact List.mem_filter.mpr ⟨he, by simpa using ha⟩
  obtain ⟨n1, n2, n3, n4, n5, n6, _⟩ := New_fields RefFs.asFs fs ⟨tar, fail⟩ opts
  refine Run_guarded RefFs.asFs (fun _ => False)
    (fun s => s.opts = resolveOptions opts ∧ (∀ e ∈ s.tarReader.entries, e ∈ tar) ∧
      (RefFs.Neat s.fs ∧ (RefFs.RootDir fs → RefFs.RootDir s.fs)) ∧
      (s.pathMap = none → s.deletePaths = none) ∧
      (s.pathMap ≠ none → ∀ k, s.fs.ino k ≠ none → k = [] ∨ NamedBy T k ∨ Queued s k))
    (fun s => RefFs.Neat s.fs ∧ (RefFs.RootDir fs → RefFs.RootDir s.fs) ∧
      ∀ k, s.fs.ino k ≠ none → k = [] ∨ NamedBy T k)
    ?_ ?_ ?_ ?_ ?_ ?_ ?_ fuel _ u s' ?_ ?_ hrun
  · -- the walk
    intro s m _ hp hw hJ
    obtain ⟨hopt, hin, ⟨ht, hrd⟩, hdp, _⟩ := hJ
    have hfs : (walkFs RefFs.asFs s).2 = s.logCall .walk := by
      unfold walkFs; split <;> rfl
    rw [hfs]
    refine ⟨hopt, hin, ⟨ht, hrd⟩, fun h => by simp [Sync.setPathMap] at h, ?_⟩
    intro _ k hk
    refine Or.inr (Or.inr ?_)
    have hd : ((s.logCall .walk).setPathMap m).deletePaths = none := hdp hp
    unfold Queued
    rw [hd]
    refine ⟨m, rfl, ?_⟩
    have hw' : (walkFs RefFs.asFs s).1 =
        .ok ((((s.fs.known.filter (fun k => (s.fs.ino k).isSome)).map nameOf).foldl
          (fun m p => setInsert m (normalizePath p)) [])) := rfl
    rw [hw'] at hw
    simp only [Except.ok.injEq] at hw
    rw [← hw]
    refine mem_walk_fold_of _ _ _ (Or.inr ⟨nameOf k, ?_, rfl⟩)
    have hk' : ((s.logCall .walk).setPathMap m).fs.ino k = s.fs.ino k := rfl
    rw [hk'] at hk
    obtain ⟨i, hi⟩ := Option.ne_none_iff_exists'.mp hk
    refine List.mem_map.mpr ⟨k, List.mem_filter.mpr ⟨ht.2.1 k i hi, by simp [hi]⟩, rfl⟩
  · -- one tar entry
    intro s e rest _ hpm hent hJ
    obtain ⟨hopt, hin, ⟨ht, hrd⟩, hdp, hq⟩ := hJ
    obtain ⟨c1, c2, c3, c4, _⟩ := ctl_fields (ctl_dispatch RefFs.asFs e (s.beginEntry e rest))
    have e1 : (dispatch RefFs.asFs e (s.beginEntry e rest)).2.tarReader.entries = rest := by
      rw [c1]; rfl
    have e2 : (dispatch RefFs.asFs e (s.beginEntry e rest)).2.opts = resolveOptions opts := by
      rw [c2]; exact hopt
    have e3 : (dispatch RefFs.asFs e (s.beginEntry e rest)).2.pathMap = s.pathMap := by
      rw [c3]; rfl
    have e4 : (dispatch RefFs.asFs e (s.beginEntry e rest)).2.deletePaths = s.deletePaths := by
      rw [c4]; rfl
    have hmem : e ∈ tar := hin e (by rw [hent]; exact List.mem_cons_self _ _)
    constructor
    · intro hdy
      have hal : AlwaysSynced (resolveOptions opts) e := by
        have := dispatch_synced_alwaysSynced RefFs.asFs e (s.beginEntry e rest) hdy
        have ho : (s.beginEntry e rest).opts = resolveOptions opts := hopt
        rw [ho] at this
        exact this
      have hmT : e ∈ T := hTm e hmem hal
      have hr : Reach RefFs.asFs (AtOrTarget (normalizePath e.hdr.name))
          (s.beginEntry e rest) (dispatch RefFs.asFs e (s.beginEntry e rest)).2 :=
        reach_dispatch RefFs.asFs _ e (fun _ _ => Or.inr rfl) (fun _ => Or.inl rfl)
          (s.beginEntry e rest)
      have ht' := neat_reach _ _ _ hr ht
      have hrd' : RefFs.RootDir fs →
          RefFs.RootDir (dispatch RefFs.asFs e (s.beginEntry e rest)).2.fs :=
        fun h => rootDir_reach_neat _ _ _ hr ht (hrd h)
      refine ⟨e2, ?_, ⟨ht', hrd'⟩, ?_, ?_⟩
      · intro x hx
        simp only [Sync.forget, e1] at hx
        exact hin x (by rw [hent]; exact List.mem_cons_of_mem _ hx)
      · intro h
        simp only [Sync.forget, e3, Option.map_eq_none'] at h
        exact absurd h hpm
      · intro _ k hk
        have hk' : (dispatch RefFs.asFs e (s.beginEntry e rest)).2.fs.ino k ≠ none := hk
        rcases reach_sub_target _ _ _ hr k hk' with h | h
        · have h' : s.fs.ino k ≠ none := h
          rcases hq hpm k h' with h1 | h1 | h1
          · exact Or.inl h1
          · exact Or.inr (Or.inl h1)
          · obtain ⟨i, hi⟩ := Option.ne_none_iff_exists'.mp h'
            have hg := ht.2.2 k i hi
            by_cases hnm : normalizePath (nameOf k) = normalizePath e.hdr.name
            · refine Or.inr (Or.inl ⟨e, hmT, ?_⟩)
              rw [← hnm]
              exact keyOf_normalizePath_nameOf k hg
            · refine Or.inr (Or.inr ?_)
              unfold Queued at h1 ⊢
              simp only [Sync.forget, e3, e4]
              cases hd : s.deletePaths with
              | some l => rw [hd] at h1; exact h1
              | none =>
                rw [hd] at h1
                obtain ⟨m, hm, hmm⟩ := h1
                refine ⟨m.filter (fun k => k ≠ normalizePath e.hdr.name), by rw [hm]; rfl, ?_⟩
                exact List.mem_filter.mpr ⟨hmm, by simpa using hnm⟩
        · exact Or.inr (Or.inl ⟨e, hmT, h.symm⟩)
    · intro hd
      rw [dispatch_skipped_state RefFs.asFs e _ hd]
      refine ⟨hopt, ?_, ⟨ht, hrd⟩, hdp, ?_⟩
      · intro x hx
        exact hin x (by rw [hent]; exact List.mem_cons_of_mem _ hx)
      · intro _ k hk
        exact hq hpm k hk
  · -- the end of the stream
    intro s _ hpm hent hJ
    obtain ⟨hopt, hin, ⟨ht, hrd⟩, hdp, hq⟩ := hJ
    obtain ⟨f1, _, f3, f4, _, f6, f7, f8⟩ := flattenPathMap_fields (s.logCall .tarNext)
    refine ⟨by rw [f6]; exact hopt, ?_, by rw [f1]; exact ⟨ht, hrd⟩, ?_, ?_⟩
    · rw [f7]; exact hin
    · intro h
      rw [f8] at h
      exact absurd h hpm
    · intro _ k hk
      rw [f1] at hk
      rcases hq hpm k hk with h1 | h1 | h1
      · exact Or.inl h1
      · exact Or.inr (Or.inl h1)
      · refine Or.inr (Or.inr ?_)
        unfold Queued at h1 ⊢
        unfold flattenPathMap
        cases hd : s.deletePaths with
        | some l =>
          rw [hd] at h1
          have : (s.logCall .tarNext).deletePaths = some l := hd
          simp only [this]
          exact h1
        | none =>
          rw [hd] at h1
          obtain ⟨m, hm, hmm⟩ := h1
          have h2 : (s.logCall .tarNext).deletePaths = none := hd
          have h3 : (s.logCall .tarNext).pathMap = some m := hm
          simp only [h2, h3, Option.getD_some]
          exact mem_sortStrings_of hmm
  · -- the root in the queue
    intro s rest _ hent hd hJ
    obtain ⟨hopt, hin, ⟨ht, hrd⟩, hdp, hq⟩ := hJ
    have hpm : s.pathMap ≠ none := fun h => by rw [hdp h] at hd; simp at hd
    refine ⟨hopt, hin, ⟨ht, hrd⟩, fun h => absurd h hpm, ?_⟩
    intro _ k hk
    have hk' : s.fs.ino k ≠ none := hk
    rcases hq hpm k hk' with h1 | h1 | h1
    · exact Or.inl h1
    · exact Or.inr (Or.inl h1)
    · by_cases hk0 : k = []
      · exact Or.inl hk0
      · refine Or.inr (Or.inr ?_)
        obtain ⟨i, hi⟩ := Option.ne_none_iff_exists'.mp hk'
        have hg := ht.2.2 k i hi
        unfold Queued at h1 ⊢
        rw [hd] at h1
        simp only [Sync.popDelete]
        rcases List.mem_cons.1 h1 with h2 | h2
        · exact absurd h2 (normalizePath_nameOf_ne_dot k hg hk0)
        · exact h2
  · -- a path that is gone
    intro s path rest _ hent hd hne hsk hJ
    obtain ⟨hopt, hin, ⟨ht, hrd⟩, hdp, hq⟩ := hJ
    have hpm : s.pathMap ≠ none := fun h => by rw [hdp h] at hd; simp at hd
    refine ⟨hopt, hin, ⟨ht, hrd⟩, fun h => absurd h hpm, ?_⟩
    intro _ k hk
    have hk' : s.fs.ino k ≠ none := hk
    rcases hq hpm k hk' with h1 | h1 | h1
    · exact Or.inl h1
    · exact Or.inr (Or.inl h1)
    · refine Or.inr (Or.inr ?_)
      obtain ⟨i, hi⟩ := Option.ne_none_iff_exists'.mp hk'
      have hg := ht.2.2 k i hi
      unfold Queued at h1 ⊢
      rw [hd] at h1
      simp only [Sync.popDelete]
      rcases List.mem_cons.1 h1 with h2 | h2
      · exfalso
        have h3 := lstat_none_of_skips s.fs path hsk
        rw [← h2, keyOf_normalizePath_nameOf k hg] at h3
        exact hk' h3
      · exact h2
  · -- a deletion
    intro s path rest fi _ hent hd hne _ hfi hJ hok
    obtain ⟨hopt, hin, ⟨ht, hrd⟩, hdp, hq⟩ := hJ
    have hpm : s.pathMap ≠ none := fun h => by rw [hdp h] at hd; simp at hd
    obtain ⟨f1, f2, f3, f4⟩ :=
      deleteEntry_fields RefFs.asFs path fi (LstatOrStat RefFs.asFs path s).2
    have hr : Reach RefFs.asFs (AtPath path) s
        (deleteEntry RefFs.asFs path (.ok fi) (LstatOrStat RefFs.asFs path s).2).2 :=
      (reach_LstatOrStat RefFs.asFs _ path s).trans
        (reach_deleteEntry RefFs.asFs _ path (fun _ hk => ⟨hk, rfl⟩) _ _)
    refine ⟨by rw [f2]; exact hopt, by rw [f1]; exact hin,
      ⟨neat_reach _ _ _ hr ht,
        fun h => rootDir_reach_neat _ _ _ hr ht (hrd h)⟩, ?_, ?_⟩
    · intro h
      rw [f3] at h
      exact absurd h hpm
    · intro _ k hk
      have hk' : s.fs.ino k ≠ none := by
        rcases reach_sub _ _ _ hr k hk with h | h
        · exact h
        · rw [h]
          exact lstat_some_of_ok s.fs path fi hfi
      rcases hq hpm k hk' with h1 | h1 | h1
      · exact Or.inl h1
      · exact Or.inr (Or.inl h1)
      · refine Or.inr (Or.inr ?_)
        unfold Queued at h1 ⊢
        rw [f4, f3]
        exact h1
  · -- the final release of the base directory
    intro s _ hent hd hJ hok
    obtain ⟨hopt, hin, ⟨ht, hrd⟩, hdp, hq⟩ := hJ
    have hpm : s.pathMap ≠ none := fun h => by rw [hdp h] at hd; simp at hd
    have hr : Reach RefFs.asFs (AtPath "") s
        ((preserveBaseDir RefFs.asFs "" s).2.setErr none) :=
      (reach_releaseBaseDir RefFs.asFs _ s).trans (reach_silent rfl rfl rfl rfl)
    have hino : ∀ k, ((preserveBaseDir RefFs.asFs "" s).2.setErr none).fs.ino k = s.fs.ino k := by
      intro k
      have hr0 : Reach RefFs.asFs QAttr s ((preserveBaseDir RefFs.asFs "" s).2.setErr none) :=
        (reach_releaseBaseDir RefFs.asFs _ s).trans (reach_silent rfl rfl rfl rfl)
      exact reach_attr_ino _ _ hr0 k
    refine ⟨neat_reach _ _ _ hr ht,
      fun h => rootDir_reach_neat _ _ _ hr ht (hrd h), ?_⟩
    intro k hk
    rw [hino k] at hk
    rcases hq hpm k hk with h1 | h1 | h1
    · exact Or.inl h1
    · exact Or.inr h1
    · exfalso
      unfold Queued at h1
      rw [hd] at h1
      simp at h1
  · -- the inventory of the first state
    refine ⟨fun _ => ⟨n5, ?_⟩, fun m hm => ?_, fun l hl => ?_⟩
    · intro paths _ p _ _ hP
      exact absurd hP id
    · intro p _ _ hP
      exact absurd hP id
    · rw [n5] at hl
      simp at hl
  · refine ⟨n3, ?_, by rw [n1]; exact ⟨hneat, id⟩, fun _ => n5, fun h => absurd n4 h⟩
    rw [n2]
    exact fun e he => he

/-! ## Archives with hard links: what a run leaves -/

/-- Every walked path that is the path of a tar entry or a directory above it is named
by a tar entry, when the tar names every parent. -/
theorem walk_guarded (fs : RefFs) (o : Options) (tar : List TarEntry) (hneat : RefFs.Neat fs)
    (hsync : ∀ e ∈ tar, AlwaysSynced o e) (hlisted : ParentsListed tar) (x : TarEntry)
    (hx : x ∈ tar) (X : String) (hX : keyOf X = keyOf (normalizePath x.hdr.name))
    (paths : List String) (hp : RefFs.walk fs = .ok paths) :
    Guarded (fun p => Covers p X) o tar (paths.map normalizePath) := by
  intro p hpm hne hcov
  have hp' : paths = (fs.known.filter (fun k => (fs.ino k).isSome)).map nameOf := by
    unfold RefFs.walk at hp
    simpa using hp.symm
  subst hp'
  simp only [List.map_map, List.mem_map, List.mem_filter, Function.comp] at hpm
  obtain ⟨k, ⟨_, hk⟩, hkp⟩ := hpm
  obtain ⟨i, hi⟩ := Option.isSome_iff_exists.mp hk
  have hg := hneat.2.2 k i hi
  have hkey := keyOf_normalizePath_nameOf k hg
  rw [hkp] at hkey
  have hk0 : k ≠ [] := by
    intro h0
    subst h0
    apply hne
    rw [← hkp]
    decide
  unfold Covers at hcov
  rw [hkey, hX, List.isPrefixOf_iff_prefix] at hcov
  obtain ⟨e', he', hk'⟩ := named_of_prefix _ hlisted _ x hx (le_refl _) k hk0 hcov
  refine ⟨e', he', hsync e' he', ?_⟩
  rw [normalizePath_of_key e'.hdr.name k hk0 hk', ← hkp, normalizePath_nameOf k hg hk0]

theorem takeWhile_ne_subset (e : TarEntry) (pre post : List TarEntry) :
    ∀ t ∈ (pre ++ e :: post).takeWhile (fun x => decide (x ≠ e)), t ∈ pre := by
  induction pre with
  | nil =>
    intro t ht
    simp [List.takeWhile] at ht
  | cons x xs ih =>
    intro t ht
    by_cases hx : x = e
    · subst hx
      simp [List.takeWhile] at ht
    · simp only [List.cons_append, List.takeWhile_cons, hx, ne_eq, not_false_eq_true,
        decide_True, if_true, List.mem_cons] at ht
      rcases ht with h | h
      · rw [h]
        exact List.mem_cons_self _ _
      · exact List.mem_cons_of_mem _ (ih t h)

/-- A plain entry of an archive after a run. -/
theorem plain_entry_after_run (fs : RefFs) (tar : List TarEntry) (ent : TarEntry)
    (fail : Option Error) (opts : List Opt) (fuel : Nat) (u : List PathUpdate)
    (s' : Sync RefFs) (he : ent ∈ tar) (hkind : PlainKind ent)
    (harch : Archive (resolveOptions opts) tar)
    (hneat : RefFs.Neat fs) (hapart : PlainApart tar fs)
    (hrun : Run RefFs.asFs fuel (New RefFs.asFs fs ⟨tar, fail⟩ opts) = some (u, none, s')) :
    ∃ i, s'.fs.ino (keyOf (normalizePath ent.hdr.name)) = some i ∧
      NodeHolds (Quick ent fs) (resolveOptions opts) ent (s'.fs.node i) ∧
      (s'.fs.node i).mtime = ent.hdr.modTime := by
  obtain ⟨pre, post, hsplit⟩ := List.append_of_mem he
  subst hsplit
  exact entry_stays_after_run fs pre post ent fail opts fuel u s' hkind harch hneat hapart
    (fun paths hp => walk_guarded fs _ _ hneat (fun e he => (harch.1 e he).2.1)
      (parentsListed_of_dirs _ harch.2.2.1) ent he _ rfl paths hp) hrun

/-- A hard-link entry of an archive after a run: its path is on the inode of its
target. -/
theorem link_entry_after_run (fs : RefFs) (tar : List TarEntry) (e : TarEntry)
    (fail : Option Error) (opts : List Opt) (fuel : Nat) (u : List PathUpdate)
    (s' : Sync RefFs) (he : e ∈ tar) (hl : e.hdr.typeflag = TypeLink)
    (harch : Archive (resolveOptions opts) tar) (hneat : RefFs.Neat fs)
    (hrun : Run RefFs.asFs fuel (New RefFs.asFs fs ⟨tar, fail⟩ opts) = some (u, none, s')) :
    (resolveOptions opts).withHardLinks = true ∧
    ∃ t ∈ tar, LinkOf t e ∧
      SameInode s'.fs (normalizePath e.hdr.name) (normalizePath e.hdr.linkname) := by
  have ho : (resolveOptions opts).withHardLinks = true := by
    rcases (harch.1 e he).2.1 with h | h | h | h
    · rw [hl] at h; exact absurd h (by decide)
    · rw [hl] at h; exact absurd h (by decide)
    · rw [hl] at h; exact absurd h.1 (by decide)
    · exact h.2
  obtain ⟨pre, post, hsplit⟩ := List.append_of_mem he
  subst hsplit
  obtain ⟨t, ht, hlo⟩ := harch.2.2.2 e he hl
  have htp : t ∈ pre := takeWhile_ne_subset e pre post t ht
  have hfirst := harch.2.1
  unfold ParentsFirst at hfirst
  rw [List.pairwise_append] at hfirst
  obtain ⟨_, hco, hcross⟩ := hfirst
  rw [List.pairwise_cons] at hco
  refine ⟨ho, t, List.mem_append_left _ htp, hlo, ?_⟩
  refine link_sameInode_after_run fs pre post e fail opts fuel u s' hl ho ?_ ?_ hrun
  · intro x hx hc
    rcases hc with hc | hc
    · exact hco.1 x hx hc
    · apply hcross t htp x (List.mem_cons_of_mem _ hx)
      unfold Covers at hc ⊢
      rw [hlo.2.1]
      exact hc
  · intro paths hp p hpm hne hP
    rcases hP with hP | hP
    · exact walk_guarded fs _ _ hneat (fun e he => (harch.1 e he).2.1)
        (parentsListed_of_dirs _ harch.2.2.1) e he _ rfl paths hp p hpm hne hP
    · exact walk_guarded fs _ _ hneat (fun e he => (harch.1 e he).2.1)
        (parentsListed_of_dirs _ harch.2.2.1) t (List.mem_append_left _ htp) _ hlo.2.1.symm
        paths hp p hpm hne hP

/-- After a run with a nil error over an archive, on a neat destination whose solid
names are apart, the destination holds no name but the root and the names of the tar
entries, and every entry matches: a plain entry as its header describes it (a regular
file with the body of the entry when the quick check was sound), a hard link on the
inode of its target. -/
theorem run_settles_links (fs : RefFs) (tar : List TarEntry) (fail : Option Error)
    (opts : List Opt) (fuel : Nat) (u : List PathUpdate) (s' : Sync RefFs)
    (hneat : RefFs.Neat fs) (hapart : PlainApart tar fs)
    (harch : Archive (resolveOptions opts) tar)
    (hrun : Run RefFs.asFs fuel (New RefFs.asFs fs ⟨tar, fail⟩ opts) = some (u, none, s')) :
    RefFs.Neat s'.fs ∧ (RefFs.RootDir fs → RefFs.RootDir s'.fs) ∧
      (∀ k, s'.fs.ino k ≠ none → k = [] ∨ NamedBy tar k) ∧
      ∀ e ∈ tar, EntryMatches RefFs.asFs s'.fs (resolveOptions opts) e ∧
        (e.hdr.typeflag = TypeReg → Quick e fs →
          RefFs.contentAt s'.fs (normalizePath e.hdr.name) = some e.body) ∧
        (e.hdr.typeflag = TypeLink → ∃ t ∈ tar, LinkOf t e ∧ (Quick t fs →
          RefFs.contentAt s'.fs (normalizePath e.hdr.name) = some t.body)) := by
  obtain ⟨hn', hrd, hnames⟩ := names_after_run fs tar fail opts fuel u s' hneat hrun
  refine ⟨hn', hrd, fun k hk => ?_, fun e he => ?_⟩
  · rcases hnames k hk with h | ⟨e, he, hek⟩
    · exact Or.inl h
    · exact Or.inr ⟨e, (List.mem_filter.mp he).1, hek⟩
  · rcases (harch.1 e he).1 with hkind | hl
    · obtain ⟨i, hi, hn, hm⟩ := plain_entry_after_run fs tar e fail opts fuel u s' he hkind
        harch hneat hapart hrun
      refine ⟨entryMatches_of_nodeFits s'.fs _ e i hi hn.1 hm (harch.1 e he).2.1,
        fun hR hq => ?_, fun hl => ?_⟩
      · unfold RefFs.contentAt
        rw [hi]
        exact congrArg some (hn.2 hq hR)
      · rcases hkind with h | h | h <;> rw [hl] at h <;> exact absurd h (by decide)
    · obtain ⟨ho, t, ht, hlo, j, hj1, hj2⟩ := link_entry_after_run fs tar e fail opts fuel u s'
        he hl harch hneat hrun
      have htk : PlainKind t := Or.inl hlo.1
      obtain ⟨i, hi, hn, hm⟩ := plain_entry_after_run fs tar t fail opts fuel u s' ht htk
        harch hneat hapart hrun
      rw [hlo.2.1, hj2] at hi
      simp only [Option.some.injEq] at hi
      subst hi
      refine ⟨Or.inr (Or.inr (Or.inr ⟨hl, ho, RefFs.infoOf j (s'.fs.node j),
        RefFs.infoOf j (s'.fs.node j), ?_, ?_, rfl, ?_⟩)), fun hR => ?_,
        fun _ => ⟨t, ht, hlo, fun hq => ?_⟩⟩
      · show RefFs.lstat s'.fs (normalizePath e.hdr.name) = _
        unfold RefFs.lstat
        rw [hj1]
      · show RefFs.lstat s'.fs (normalizePath e.hdr.linkname) = _
        unfold RefFs.lstat
        rw [hj2]
      · obtain ⟨⟨_, hown, hmode⟩, _⟩ := hn
        refine ⟨fun hon => ?_, fun _ => ?_, ?_⟩
        · obtain ⟨a, b⟩ := hown hon
          exact ⟨hlo.2.2.1.symm.trans a, hlo.2.2.2.1.symm.trans b⟩
        · exact hlo.2.2.2.2.1.symm.trans (hmode (by rw [hlo.1]; decide))
        · exact hlo.2.2.2.2.2.symm.trans hm.symm
      · rw [hl] at hR
        exact absurd hR (by decide)
      · unfold RefFs.contentAt
        rw [hj1]
        exact congrArg some (hn.2 hq hlo.1)

/-- C1 (amended): the destination after a run.  Let the reference destination be neat
(names may share inodes) with the root and the paths of the tar entries that are no hard
links on inodes of their own, and let the tar be an archive for the options: regular
files, directories, symlinks and hard links that `Next` does not skip, with headers as
`tar.FileInfoHeader` writes them, only directories at the root, no entry naming the path
of an earlier entry or a directory above it, the parent of every entry named by a
directory entry, and every hard link after the regular-file entry it links to, with the
owner, mode and mtime of that entry.  Let the quick check be sound for the regular-file
entries: a regular file of the destination at the path of such an entry, with the size
and the mtime of its header, has the body of the entry.  Then after a run that returns a
nil error every name of the destination is the root or the path of a tar entry, and every
tar entry is there: a regular file, a directory or a symlink with the kind, size, link
target, uid and gid (with ownership enabled), mode (not for a symlink) and mtime of its
header, a regular file with the body of its entry; a hard link on the inode of its link
name, with the uid, gid, mode and mtime of its header and the body of the entry it links
to. -/
theorem run_leaves_what_tar_describes (fs : RefFs) (tar : List TarEntry)
    (fail : Option Error) (opts : List Opt) (fuel : Nat) (u : List PathUpdate)
    (s' : Sync RefFs)
    (hneat : RefFs.Neat fs) (hapart : PlainApart tar fs)
    (harch : Archive (resolveOptions opts) tar)
    (hquick : ∀ e ∈ tar, e.hdr.typeflag = TypeReg → Quick e fs)
    (hrun : Run RefFs.asFs fuel (New RefFs.asFs fs ⟨tar, fail⟩ opts) = some (u, none, s')) :
    (∀ name fi, RefFs.lstat s'.fs name = .ok fi → keyOf name = [] ∨ NamedBy tar (keyOf name)) ∧
    ∀ e ∈ tar, EntryMatches RefFs.asFs s'.fs (resolveOptions opts) e ∧
      (e.hdr.typeflag = TypeReg →
        RefFs.contentAt s'.fs (normalizePath e.hdr.name) = some e.body) ∧
      (e.hdr.typeflag = TypeLink → ∃ t ∈ tar, LinkOf t e ∧
        RefFs.contentAt s'.fs (normalizePath e.hdr.name) = some t.body) := by
  obtain ⟨_, _, honly, hents⟩ := run_settles_links fs tar fail opts fuel u s' hneat hapart harch
    hrun
  refine ⟨fun name fi hl => honly _ (lstat_some_of_ok _ _ _ hl), fun e he => ?_⟩
  obtain ⟨hm, hreg, hlink⟩ := hents e he
  refine ⟨hm, fun hR => hreg hR (hquick e he hR), fun hl => ?_⟩
  obtain ⟨t, ht, hlo, hc⟩ := hlink hl
  exact ⟨t, ht, hlo, hc (hquick t ht hlo.1)⟩

/-- C2 (amended): idempotence.  Let the reference destination be neat (names may share
inodes), its root a directory, with the root and the paths of the tar entries that are no
hard links on inodes of their own, and let the tar end without a read error and be an
archive for the options: regular files, directories, symlinks and hard links that `Next`
does not skip, with headers as `tar.FileInfoHeader` writes them, only directories at the
root, no entry naming the path of an earlier entry or a directory above it, the parent of
every entry named by a directory entry, and every hard link after the regular-file entry
it links to, with the owner, mode and mtime of that entry.  When a first run returns a
nil error, a second run on the destination it leaves, with the same tar and options,
returns an empty update list and a nil error, leaves the destination as it was and makes
no mutating call. -/
theorem second_run_yields_no_update (fs : RefFs) (tar : List TarEntry) (opts : List Opt)
    (fuel fuel2 : Nat) (u : List PathUpdate) (s' : Sync RefFs)
    (hneat : RefFs.Neat fs) (hroot : RefFs.RootDir fs) (hapart : PlainApart tar fs)
    (harch : Archive (resolveOptions opts) tar) (hfuel : 0 < fuel2)
    (hrun : Run RefFs.asFs fuel (New RefFs.asFs fs ⟨tar, none⟩ opts) = some (u, none, s')) :
    ∃ s'' : Sync RefFs,
      Run RefFs.asFs fuel2 (New RefFs.asFs s'.fs ⟨tar, none⟩ opts) = some ([], none, s'') ∧
      s''.fs = s'.fs ∧ ∀ c ∈ s''.log, c.isMutation = false := by
  obtain ⟨hn, hrd, honly, hents⟩ := run_settles_links fs tar none opts fuel u s' hneat hapart
    harch hrun
  refine run_of_matching_destination RefFs.asFs s'.fs ⟨tar, none⟩ opts
    ((s'.fs.known.filter (fun k => (s'.fs.ino k).isSome)).map nameOf) fuel2 hfuel
    (New_asFs_err s'.fs _ opts (hrd hroot)) rfl rfl ?_ ?_
  · intro p hp
    simp only [List.mem_map, List.mem_filter] at hp
    obtain ⟨k, ⟨_, hk⟩, hkp⟩ := hp
    obtain ⟨i, hi⟩ := Option.isSome_iff_exists.mp hk
    have hg := hn.2.2 k i hi
    subst hkp
    rcases honly k (by rw [hi]; simp) with h0 | ⟨e, he, hke⟩
    · subst h0
      exact Or.inl (by decide)
    · by_cases hk0 : k = []
      · subst hk0
        exact Or.inl (by decide)
      · refine Or.inr ⟨e, he, ?_⟩
        rw [normalizePath_of_key e.hdr.name k hk0 hke, normalizePath_nameOf k hg hk0]
  · intro e he
    exact (hents e he).1

/-! ## The theorems at concrete inputs -/

set_option maxRecDepth 100000 in
/-- C3, counterexample: with symlink syncing off, a symlink that is on the destination
exactly as the tar describes it (same kind, target, owner and mtime, and nothing else on
the destination) is deleted by the run. -/
theorem noop_fails_with_symlinks_off :
    (RefFs.lstat diskSymlink "l").toOption.map (fun fi => (modeTypeOf fi.mode, fi.modTime, fi.uid, fi.gid))
        = some (ModeSymlink, T2025, 0, 0) ∧
      RefFs.readlink diskSymlink "l" = .ok "t" ∧
      RefFs.walk diskSymlink = .ok ["l", "."] ∧
      runResult RefFs.asFs diskSymlink [symlinkEntry "./l" "t" T2025] [.WithSymlinks false] =
        some ([{ Path := "l", update := { Deleted := true } }], none) ∧
      ((runFs RefFs.asFs diskSymlink [symlinkEntry "./l" "t" T2025] [.WithSymlinks false]).map
        (fun fs => (fs.lstat "l").toOption)) = some none := by
  decide

set_option maxRecDepth 100000 in
/-- C8, counterexample: a regular-file entry over a path that is a hard link to another
file is not replaced: nothing is removed, nothing is marked added, and the two names
still share their inode. -/
theorem regular_entry_over_hard_link_kept :
    (RefFs.lstat diskLinked "l").toOption.map (fun fi => fi.ino) =
        (RefFs.lstat diskLinked "a").toOption.map (fun fi => fi.ino) ∧
      (RefFs.lstat diskLinked "l").toOption.isSome = true ∧
      (dispatch RefFs.asFs (regEntry "./l" "some text" 0o777 T2025)
        (Sync.at diskLinked allOn)).1 = .synced ∧
      (dispatch RefFs.asFs (regEntry "./l" "some text" 0o777 T2025)
        (Sync.at diskLinked allOn)).2.upd.update.Added = false ∧
      (dispatch RefFs.asFs (regEntry "./l" "some text" 0o777 T2025)
        (Sync.at diskLinked allOn)).2.log = [.lstat "l"] ∧
      (RefFs.lstat (dispatch RefFs.asFs (regEntry "./l" "some text" 0o777 T2025)
          (Sync.at diskLinked allOn)).2.fs "l").toOption.map (fun fi => fi.ino) =
        (RefFs.lstat diskLinked "a").toOption.map (fun fi => fi.ino) := by
  decide

set_option maxRecDepth 100000 in
/-- C4, the failing input evaluated: when the lstat of a queued path fails with an error
other than not-exists, `Next` returns true although `Update()` is the empty update, and
`Run` returns a list that holds it. -/
theorem Next_yields_empty_update_after_lstat_failure :
    (Next lockedFs (New lockedFs diskLocked ⟨[], none⟩ [])).1 = true ∧
      (Next lockedFs (New lockedFs diskLocked ⟨[], none⟩ [])).2.Update.update.IsEmpty = true ∧
      runResult lockedFs diskLocked [] [] =
        some ([{}], some (.wrap "failed to stat: locked" (.fault "permission denied"))) := by
  decide

set_option maxRecDepth 100000 in
/-- C5, the failing input evaluated: the call to `Next` that records the lstat failure
goes on to remove the path and returns true. -/
theorem Next_returns_true_with_error_recorded :
    (Next lockedFs (New lockedFs diskLocked ⟨[], none⟩ [])).2.err =
        some (.wrap "failed to stat: locked" (.fault "permission denied")) ∧
      (Next lockedFs (New lockedFs diskLocked ⟨[], none⟩ [])).1 = true ∧
      (Next lockedFs (New lockedFs diskLocked ⟨[], none⟩ [])).2.log =
        [.stat ".", .walk, .tarNext, .lstat "locked", .lstat ".", .removeAll "locked"] ∧
      (RefFs.lstat (Next lockedFs (New lockedFs diskLocked ⟨[], none⟩ [])).2.fs "locked").toOption
        = none := by
  decide

set_option maxRecDepth 100000 in
/-- C3, witness: the destination of `RegularFile/Noop` (one file, as in the tar). -/
theorem noop_run_witness :
    ∃ s' : Sync RefFs,
      Run RefFs.asFs 1 (New RefFs.asFs diskFile ⟨[regEntry "./test.txt" "some text" 0o777 T2025], none⟩ [])
        = some ([], none, s') ∧ s'.fs = diskFile ∧ ∀ c ∈ s'.log, c.isMutation = false :=
  noop_run RefFs.asFs diskFile ⟨[regEntry "./test.txt" "some text" 0o777 T2025], none⟩ []
    ["test.txt", "."] 1 (by decide) (by decide) rfl (by decide) (by decide)
    (by
      intro ent he
      have he' : ent = regEntry "./test.txt" "some text" 0o777 T2025 := by simpa using he
      subst he'
      exact Or.inl ⟨rfl, fileInfoOnDisk, by decide, by decide, by decide,
        ⟨fun _ => by decide, fun _ => by decide, by decide⟩⟩)


set_option maxRecDepth 100000 in
/-- C8, witness: the regular file of `RegularFile/Overwrite/Dir` replaces a directory. -/
theorem typeChange_replaces_witness :
    CalledBefore (removeCallOf (regEntry "./test.txt" "some text" 0o777 T2025).hdr)
        (createCallOf (regEntry "./test.txt" "some text" 0o777 T2025))
        (newCalls (Sync.at diskDir allOn)
          (dispatch RefFs.asFs (regEntry "./test.txt" "some text" 0o777 T2025)
            (Sync.at diskDir allOn)).2) ∧
      (dispatch RefFs.asFs (regEntry "./test.txt" "some text" 0o777 T2025)
        (Sync.at diskDir allOn)).2.upd.update.Added = true :=
  typeChange_replaces RefFs.asFs (regEntry "./test.txt" "some text" 0o777 T2025)
    (Sync.at diskDir allOn) (Or.inl ⟨rfl, dirInfoOnDisk, by decide, by decide⟩) (by decide)

set_option maxRecDepth 100000 in
/-- C10, counterexample: the regular file `a` is on the destination and the tar names
the hard link `l -> a` and then the directory `a`.  The run links `l` to the file, then
replaces `a` by the directory: it returns a nil error and leaves `l`, a regular file,
and `a`, a directory, on two inodes. -/
theorem hardlink_then_target_replaced :
    runResult RefFs.asFs diskOld
        [linkEntry "./l" "./a" 0o777 T2025, dirEntry "./a/" 0o755 T2025] [] =
      some ([{ Path := "l", update := { Added := true, ModTime := some T2025 } },
             { Path := "a", update := { Added := true, Mode := some (0o755 ||| ModeDir),
                                        ModTime := some T2025 } }],
            none) ∧
      (runLog RefFs.asFs diskOld
        [linkEntry "./l" "./a" 0o777 T2025, dirEntry "./a/" 0o755 T2025] []).map
        (fun l => l.filter (fun c => c.isMutation)) =
        some [.link "a" "l", .chtimes "l" T2025 T2025, .remove "a", .mkdir "a" 0o755,
          .chtimes "a" T2025 T2025, .chtimes "." 1 1] ∧
      ((runFs RefFs.asFs diskOld
        [linkEntry "./l" "./a" 0o777 T2025, dirEntry "./a/" 0o755 T2025] []).map
        (fun fs => ((fs.lstat "l").toOption.map (fun fi => (fi.ino, modeIsRegular fi.mode)),
          (fs.lstat "a").toOption.map (fun fi => (fi.ino, decide (modeTypeOf fi.mode = ModeDir)))))) =
        some (some (1, true), some (2, true)) := by
  decide

set_option maxRecDepth 100000 in
/-- C10, witness: the tar names the file `a`, then the hard link `l` to it. -/
theorem hardlink_identity_after_run_witness :
    ∃ fl fa,
      RefFs.lstat (finalState RefFs.asFs 64 (New RefFs.asFs diskOld
          ⟨[regEntry "./a" "body" 0o777 T2025] ++ linkEntry "./l" "./a" 0o777 T2025 :: [], none⟩
          [])).fs (normalizePath (linkEntry "./l" "./a" 0o777 T2025).hdr.name) = .ok fl ∧
      RefFs.lstat (finalState RefFs.asFs 64 (New RefFs.asFs diskOld
          ⟨[regEntry "./a" "body" 0o777 T2025] ++ linkEntry "./l" "./a" 0o777 T2025 :: [], none⟩
          [])).fs (normalizePath (linkEntry "./l" "./a" 0o777 T2025).hdr.linkname) = .ok fa ∧
      fl.ino = fa.ino :=
  hardlink_identity_after_run diskOld [regEntry "./a" "body" 0o777 T2025] []
    (linkEntry "./l" "./a" 0o777 T2025) none [] 64 _ _ rfl (by decide) (by decide)
    (fun paths h => by cases h; decide) (Run_eq_of_nil _ _ _ (by decide))

set_option maxRecDepth 100000 in
/-- C9, counterexample: the tar names the file `etc/test.txt` before the directory
`etc`.  The Preserver holds `etc` with its old mtime 5 while the directory entry sets
the mtime `T2025`, and restores 5 at the end: the run returns a nil error and `etc` is
left with mtime 5. -/
theorem dir_mtime_lost_when_child_first :
    (RefFs.lstat diskEtc "etc").toOption.map (fun fi => fi.modTime) = some 5 ∧
      (runResult RefFs.asFs diskEtc
        [regEntry "./etc/test.txt" "some text" 0o777 T2025, dirEntry "./etc/" 0o755 T2025]
        []).map (fun r => r.2) = some none ∧
      (runLog RefFs.asFs diskEtc
        [regEntry "./etc/test.txt" "some text" 0o777 T2025, dirEntry "./etc/" 0o755 T2025]
        []).map (fun l => l.filter (fun c => c.isMutation)) =
        some [.writeReader "etc/test.txt" "some text", .chmod "etc/test.txt" 0o777,
          .chtimes "etc/test.txt" T2025 T2025, .chtimes "etc" T2025 T2025, .chtimes "etc" 5 5] ∧
      ((runFs RefFs.asFs diskEtc
        [regEntry "./etc/test.txt" "some text" 0o777 T2025, dirEntry "./etc/" 0o755 T2025]
        []).map (fun fs => (fs.lstat "etc").toOption.map (fun fi => fi.modTime))) =
        some (some 5) := by
  decide

set_option maxRecDepth 100000 in
/-- C9, witness: `Dir/PreserveModTime`: the tar names `etc`, then a new file in it, and
`etc/todelete` is deleted. -/
theorem dir_mtime_after_run_witness :
    ∃ fi,
      RefFs.lstat (finalState RefFs.asFs 64 (New RefFs.asFs diskEtcFile
          ⟨[] ++ dirEntry "./etc/" 0o755 T2025 ::
            [regEntry "./etc/test.txt" "some text" 0o777 T2025], none⟩ [])).fs
          (normalizePath (dirEntry "./etc/" 0o755 T2025).hdr.name) = .ok fi ∧
      modeTypeOf fi.mode = ModeDir ∧ fi.modTime = (dirEntry "./etc/" 0o755 T2025).hdr.modTime :=
  dir_mtime_after_run diskEtcFile [] [regEntry "./etc/test.txt" "some text" 0o777 T2025]
    (dirEntry "./etc/" 0o755 T2025) none [] 64 _ _ rfl
    (RefFs.wf_exec (.chtimes "etc" T2025 T2025) _
      (RefFs.wf_exec (.writeReader "etc/todelete" "x") _
        (RefFs.wf_exec (.mkdir "etc" 0o755) _ wf_init)))
    (by decide) (by decide) (fun paths h => by cases h; decide) (Run_eq_of_nil _ _ _ (by decide))

theorem neat_init : RefFs.Neat RefFs.init := RefFs.neat_of_tidy _ tidy_init

theorem neat_diskEtcLinks : RefFs.Neat diskEtcLinks :=
  RefFs.neat_exec (.chtimes "etc" T2025 T2025) _
    (RefFs.neat_exec (.link "etc/test.txt" "spare") _
      (RefFs.neat_exec (.link "etc/todelete" "etc/hardlink") _
        (RefFs.neat_exec (.writeReader "etc/todelete" "x") _
          (RefFs.neat_exec (.writeReader "etc/test.txt" "old") _
            (RefFs.neat_exec (.mkdir "etc" 0o755) _ neat_init)))))

set_option maxRecDepth 100000 in
/-- C1, witness: the destination holds `etc` with an old `test.txt` that has a second
name `spare`, and `todelete` with a second name `etc/hardlink`; the tar names `etc`,
`etc/test.txt`, the hard link `etc/hardlink` to it and the symlink `etc/l`. -/
theorem run_leaves_what_tar_describes_witness :
    (∀ name fi, RefFs.lstat (finalState RefFs.asFs 64
        (New RefFs.asFs diskEtcLinks ⟨tarEtcLinks, none⟩ [])).fs name = .ok fi →
      keyOf name = [] ∨ NamedBy tarEtcLinks (keyOf name)) ∧
    ∀ e ∈ tarEtcLinks, EntryMatches RefFs.asFs (finalState RefFs.asFs 64
        (New RefFs.asFs diskEtcLinks ⟨tarEtcLinks, none⟩ [])).fs (resolveOptions []) e ∧
      (e.hdr.typeflag = TypeReg →
        RefFs.contentAt (finalState RefFs.asFs 64
          (New RefFs.asFs diskEtcLinks ⟨tarEtcLinks, none⟩ [])).fs (normalizePath e.hdr.name) =
          some e.body) ∧
      (e.hdr.typeflag = TypeLink → ∃ t ∈ tarEtcLinks, LinkOf t e ∧
        RefFs.contentAt (finalState RefFs.asFs 64
          (New RefFs.asFs diskEtcLinks ⟨tarEtcLinks, none⟩ [])).fs (normalizePath e.hdr.name) =
          some t.body) :=
  run_leaves_what_tar_describes diskEtcLinks tarEtcLinks none [] 64 _ _ neat_diskEtcLinks
    (by decide) (by decide) (by decide) (Run_eq_of_nil _ _ _ (by decide))

set_option maxRecDepth 100000 in
/-- C2, witness: the second run after the run of the C1 witness. -/
theorem second_run_yields_no_update_witness :
    ∃ s'' : Sync RefFs,
      Run RefFs.asFs 64 (New RefFs.asFs (finalState RefFs.asFs 64
        (New RefFs.asFs diskEtcLinks ⟨tarEtcLinks, none⟩ [])).fs ⟨tarEtcLinks, none⟩ []) =
        some ([], none, s'') ∧
      s''.fs = (finalState RefFs.asFs 64
        (New RefFs.asFs diskEtcLinks ⟨tarEtcLinks, none⟩ [])).fs ∧
      ∀ c ∈ s''.log, c.isMutation = false :=
  second_run_yields_no_update diskEtcLinks tarEtcLinks [] 64 64 _ _ neat_diskEtcLinks
    ⟨0, by decide, by decide⟩ (by decide) (by decide) (by decide)
    (Run_eq_of_nil _ _ _ (by decide))

set_option maxRecDepth 100000 in
/-- C1, counterexample (all options enabled, nil error in every run).  (1) The
destination holds `a` with the content `SOME TEXT`, the tar names `a` with the body
`some text`, the same size and mtime: the run yields no update and `a` keeps
`SOME TEXT`.  (2) The destination holds the directory `etc`, the tar names
`etc/test.txt` only: the file is written, then `etc` is removed with the file in it, and
the path of the tar entry is not there.  (3) `a` and `b` are two names of one file and
the tar names both as regular files, `one` and `two`: the body of `a` is written, after
which `b` has the size and the mtime of its header and is left with `one`.  (4) The tar
names the file `a` with mode 0644 and the hard link `l` to it with mode 0600: `a` is
left with mode 0600.  (5) The destination holds the symlink `a`, the tar names the hard
link `l` to `a` before the regular file `a`: `l` is linked to the symlink, which is then
replaced, and `l` and `a` are left on two inodes, `l` a symlink. -/
theorem nil_error_run_leaves_other_content :
    (runResult RefFs.asFs diskUpper [regEntry "./a" "some text" 0o644 T2025] [] =
        some ([], none) ∧
      (runFs RefFs.asFs diskUpper [regEntry "./a" "some text" 0o644 T2025] []).map
        (fun fs => fs.contentAt "a") = some (some "SOME TEXT")) ∧
    (runResult RefFs.asFs diskEtc [regEntry "./etc/test.txt" "some text" 0o644 T2025] [] =
        some ([{ Path := "etc/test.txt",
                 update := { Added := true, Mode := some 0o644, ModTime := some T2025 } },
               { Path := "etc", update := { Deleted := true } }], none) ∧
      (runFs RefFs.asFs diskEtc [regEntry "./etc/test.txt" "some text" 0o644 T2025] []).map
        (fun fs => (fs.lstat "etc/test.txt").toOption.map (fun fi => fi.size)) =
        some none) ∧
    (Archive (resolveOptions []) tarTwoBodies ∧ (∀ e ∈ tarTwoBodies, Quick e diskTwoNames) ∧
      (runResult RefFs.asFs diskTwoNames tarTwoBodies []).map (fun r => r.2) = some none ∧
      (runFs RefFs.asFs diskTwoNames tarTwoBodies []).map
        (fun fs => (fs.contentAt "a", fs.contentAt "b")) =
        some (some "one", some "one")) ∧
    ((runResult RefFs.asFs RefFs.init tarLinkMode []).map (fun r => r.2) = some none ∧
      (runFs RefFs.asFs RefFs.init tarLinkMode []).map
        (fun fs => (fs.lstat "a").toOption.map (fun fi => fi.mode)) = some (some 0o600)) ∧
    ((runResult RefFs.asFs diskSymA tarLinkFirst []).map (fun r => r.2) = some none ∧
      (runFs RefFs.asFs diskSymA tarLinkFirst []).map
        (fun fs => ((fs.lstat "l").toOption.map (fun fi => (fi.ino, modeTypeOf fi.mode)),
          (fs.lstat "a").toOption.map (fun fi => (fi.ino, modeTypeOf fi.mode)))) =
        some (some (1, ModeSymlink), some (2, 0))) := by
  decide

set_option maxRecDepth 100000 in
/-- C2, counterexample (nil error in every run).  (1) The destination holds the
directory `etc` with mtime 5; the tar names the file `etc/test.txt` before the directory
`etc` with mtime `T2025`.  The first run leaves `etc` with mtime 5; the second run with
the same tar yields an update for `etc`.  (2) `a` and `b` are two names of one file and
the tar names them as regular files with the modes 0644 and 0600: the first run leaves
the file with mode 0600, and the second run changes the mode twice.  (3) The tar names
the file `a` with mode 0644 and the hard link `l` to it with mode 0600: the second run
changes the mode twice.  (4) The destination holds the symlink `a`, the tar names the
hard link `l` to `a` before the regular file `a`: the second run links `l` again. -/
theorem second_run_updates_directory_mtime :
    ((runResult RefFs.asFs diskEtc
        [regEntry "./etc/test.txt" "some text" 0o777 T2025, dirEntry "./etc/" 0o755 T2025]
        []).map (fun r => r.2) = some none ∧
      (runFs RefFs.asFs diskEtc
        [regEntry "./etc/test.txt" "some text" 0o777 T2025, dirEntry "./etc/" 0o755 T2025]
        []).bind (fun fs => runResult RefFs.asFs fs
          [regEntry "./etc/test.txt" "some text" 0o777 T2025, dirEntry "./etc/" 0o755 T2025]
          []) =
        some ([{ Path := "etc", update := { ModTime := some T2025 } }], none)) ∧
    (Archive (resolveOptions []) tarTwoModes ∧
      (runResult RefFs.asFs diskTwoNames tarTwoModes []).map (fun r => r.2) = some none ∧
      (runFs RefFs.asFs diskTwoNames tarTwoModes []).bind
          (fun fs => runResult RefFs.asFs fs tarTwoModes []) =
        some ([{ Path := "a", update := { Mode := some 0o644 } },
               { Path := "b", update := { Mode := some 0o600 } }], none)) ∧
    ((runResult RefFs.asFs RefFs.init tarLinkMode []).map (fun r => r.2) = some none ∧
      (runFs RefFs.asFs RefFs.init tarLinkMode []).bind
          (fun fs => runResult RefFs.asFs fs tarLinkMode []) =
        some ([{ Path := "a", update := { Mode := some 0o644 } },
               { Path := "l", update := { Mode := some 0o600 } }], none)) ∧
    ((runResult RefFs.asFs diskSymA tarLinkFirst []).map (fun r => r.2) = some none ∧
      (runFs RefFs.asFs diskSymA tarLinkFirst []).bind
          (fun fs => runResult RefFs.asFs fs tarLinkFirst []) =
        some ([{ Path := "l", update := { Added := true } }], none)) := by
  decide

set_option maxRecDepth 100000 in
/-- C11, witness: `RegularFile/Chown/Setgid` on a filesystem whose `chown` clears
setgid, the file having the header's mode already: `chown` clears setgid, the mode read
again differs, `chmod` follows, and the file is left with the header's mode. -/
theorem syncStat_chown_chmod_chtimes_witness :
    (∃ info fi2,
      ((none : Option FileInfo) = some info ∨ (none : Option FileInfo) = none ∧
        RefFs.asFs.lstatOrStat setgidState.fs (normalizePath setgidHdr.name) = .ok info) ∧
      (newCalls setgidState (syncStat RefFs.asFs setgidHdr none setgidState).2).filter
          (fun c => c.isMutation) =
        (if ownerDiffers setgidState.opts setgidHdr info
          then [Call.chown (normalizePath setgidHdr.name) setgidHdr.uid setgidHdr.gid]
          else []) ++
        (if setgidHdr.fileMode ≠ fi2.mode
          then [Call.chmod (normalizePath setgidHdr.name) setgidHdr.fileMode] else []) ++
        (if setgidHdr.modTime ≠ fi2.modTime
          then [Call.chtimes (normalizePath setgidHdr.name) setgidHdr.modTime setgidHdr.modTime]
          else []) ∧
      (syncStat RefFs.asFs setgidHdr none setgidState).2.fs =
        replay RefFs.asFs (newCalls setgidState (syncStat RefFs.asFs setgidHdr none setgidState).2)
          setgidState.fs ∧
      (ownerDiffers setgidState.opts setgidHdr info →
        (RefFs.asFs.chown setgidState.fs (normalizePath setgidHdr.name) setgidHdr.uid
          setgidHdr.gid).1 = none ∧
        RefFs.asFs.lstatOrStat (RefFs.asFs.chown setgidState.fs (normalizePath setgidHdr.name)
          setgidHdr.uid setgidHdr.gid).2 (normalizePath setgidHdr.name) = .ok fi2 ∧
        (syncStat RefFs.asFs setgidHdr none setgidState).2.upd.update.Uid = some setgidHdr.uid ∧
        (syncStat RefFs.asFs setgidHdr none setgidState).2.upd.update.Gid = some setgidHdr.gid) ∧
      (¬ ownerDiffers setgidState.opts setgidHdr info → fi2 = info) ∧
      (syncStat RefFs.asFs setgidHdr none setgidState).2.upd.update.Mode =
        (if setgidHdr.fileMode ≠ fi2.mode then some setgidHdr.fileMode
          else setgidState.upd.update.Mode) ∧
      (setgidHdr.fileMode &&& ModeSetgid ≠ 0 → fi2.mode &&& ModeSetgid = 0 →
        (syncStat RefFs.asFs setgidHdr none setgidState).2.upd.update.Mode =
          some setgidHdr.fileMode ∧
        Call.chmod (normalizePath setgidHdr.name) setgidHdr.fileMode ∈
          newCalls setgidState (syncStat RefFs.asFs setgidHdr none setgidState).2)) ∧
    (newCalls setgidState (syncStat RefFs.asFs setgidHdr none setgidState).2 =
        [.lstat "test.txt", .chown "test.txt" 1000 1001, .lstat "test.txt",
          .chmod "test.txt" (0o777 ||| ModeSetgid)] ∧
      (RefFs.lstat (syncStat RefFs.asFs setgidHdr none setgidState).2.fs "test.txt").toOption.map
        (fun fi => fi.mode) = some (0o777 ||| ModeSetgid)) :=
  ⟨syncStat_chown_chmod_chtimes RefFs.asFs setgidHdr none setgidState (by decide) (by decide),
    by decide⟩

set_option maxRecDepth 100000 in
/-- C11, counterexample: the header mode has setgid and uid and gid differ, but the
file has the header's mode already and `chown` leaves it alone: the run yields an update
with uid and gid and no mode. -/
theorem chown_alone_yields_no_mode :
    setgidHdr.fileMode &&& ModeSetgid ≠ 0 ∧
      (RefFs.lstat diskSetgid "test.txt").toOption.map (fun fi => (fi.mode, fi.uid, fi.gid)) =
        some (0o777 ||| ModeSetgid, 0, 0) ∧
      runResult RefFs.asFs diskSetgid
        [ownedEntry "./test.txt" "some text" 0o2777 T2025 1000 1001] [] =
        some ([{ Path := "test.txt", update := { Uid := some 1000, Gid := some 1001 } }], none) := by
  decide

set_option maxRecDepth 100000 in
/-- C13, witness: `test.txt` is there with the header's uid, mode and mtime and another
gid. -/
theorem syncStat_sets_fields_witness :
    ∃ info fi2,
      (some fileInfoOnDisk = some info ∨ some fileInfoOnDisk = none ∧
        RefFs.asFs.lstatOrStat fileState.fs (normalizePath gidHdr.name) = .ok info) ∧
      (ownerDiffers fileState.opts gidHdr info →
        RefFs.asFs.lstatOrStat (RefFs.asFs.exec (ownerCall gidHdr) fileState.fs).2
          (normalizePath gidHdr.name) = .ok fi2) ∧
      (¬ ownerDiffers fileState.opts gidHdr info → fi2 = info) ∧
      (syncStat RefFs.asFs gidHdr (some fileInfoOnDisk) fileState).2.upd.update.Uid =
        (if ownerDiffers fileState.opts gidHdr info then some gidHdr.uid
          else fileState.upd.update.Uid) ∧
      (syncStat RefFs.asFs gidHdr (some fileInfoOnDisk) fileState).2.upd.update.Gid =
        (if ownerDiffers fileState.opts gidHdr info then some gidHdr.gid
          else fileState.upd.update.Gid) ∧
      (syncStat RefFs.asFs gidHdr (some fileInfoOnDisk) fileState).2.upd.update.Mode =
        (if gidHdr.typeflag ≠ TypeSymlink ∧ gidHdr.fileMode ≠ fi2.mode then some gidHdr.fileMode
          else fileState.upd.update.Mode) ∧
      (syncStat RefFs.asFs gidHdr (some fileInfoOnDisk) fileState).2.upd.update.ModTime =
        (if gidHdr.modTime ≠ fi2.modTime then some gidHdr.modTime
          else fileState.upd.update.ModTime) ∧
      (syncStat RefFs.asFs gidHdr (some fileInfoOnDisk) fileState).2.upd.update.Link =
        fileState.upd.update.Link ∧
      (syncStat RefFs.asFs gidHdr (some fileInfoOnDisk) fileState).2.upd.update.Added =
        fileState.upd.update.Added ∧
      (syncStat RefFs.asFs gidHdr (some fileInfoOnDisk) fileState).2.upd.update.Deleted =
        fileState.upd.update.Deleted ∧
      (syncStat RefFs.asFs gidHdr (some fileInfoOnDisk) fileState).2.upd.Path =
        fileState.upd.Path :=
  syncStat_sets_fields RefFs.asFs gidHdr (some fileInfoOnDisk) fileState (by decide)

set_option maxRecDepth 100000 in
/-- C13, counterexample: `test.txt` is there with the header's uid and another gid; the
update carries the uid although the uid on the destination did not differ. -/
theorem uid_present_when_only_gid_differs :
    (RefFs.lstat diskFile "test.txt").toOption.map (fun fi => (fi.uid, fi.gid)) = some (0, 0) ∧
      gidHdr.uid = 0 ∧ gidHdr.gid = 1000 ∧
      runResult RefFs.asFs diskFile
        [ownedEntry "./test.txt" "some text" 0o777 T2025 0 1000] [] =
        some ([{ Path := "test.txt", update := { Uid := some 0, Gid := some 1000 } }], none) := by
  decide


set_option maxRecDepth 100000 in
/-- C20, counterexample: a directory entry with the sticky bit (mode `1777`) on an empty
destination.  `Mkdir` gets the permission bits `777`, the mode read back lacks the sticky
bit, `chmod` follows, and the update carries the header's whole mode, sticky bit
included, not the permission bits combined with the directory bit. -/
theorem sticky_dir_added_with_full_mode :
    runResult RefFs.asFs RefFs.init [dirEntry "./tmp/" 0o1777 T2025] [] =
        some ([{ Path := "tmp",
                 update := { Added := true, Mode := some (ModeDir ||| ModeSticky ||| 0o777),
                             ModTime := some T2025 } }], none) ∧
      modePermOf (dirEntry "./tmp/" 0o1777 T2025).hdr.fileMode ||| ModeDir = ModeDir ||| 0o777 ∧
      ModeDir ||| ModeSticky ||| 0o777 ≠ ModeDir ||| 0o777 ∧
      (runLog RefFs.asFs RefFs.init [dirEntry "./tmp/" 0o1777 T2025] []).map
        (fun l => l.filter (fun c => c.isMutation)) =
        some [.mkdir "tmp" 0o777, .chmod "tmp" (ModeDir ||| ModeSticky ||| 0o777),
          .chtimes "tmp" T2025 T2025, .chtimes "." 0 0] := by
  decide

set_option maxRecDepth 100000 in
/-- C14, witness: the first `Next` of `RegularFile/Delete` yields an update that is
marked deleted and nothing else. -/
theorem yielded_update_is_marked_witness :
    ((Next RefFs.asFs deleteState).1 = true ∧ (Next RefFs.asFs deleteState).2.err = none) ∧
    ((Next RefFs.asFs deleteState).2.Update.update = { Deleted := true } ∨
      ((Next RefFs.asFs deleteState).2.Update.update.Deleted = false ∧
        ((Next RefFs.asFs deleteState).2.Update.update.Added = true ∨
          (Next RefFs.asFs deleteState).2.Update.update.Mode ≠ none ∨
          (Next RefFs.asFs deleteState).2.Update.update.Uid ≠ none ∨
          (Next RefFs.asFs deleteState).2.Update.update.Gid ≠ none ∨
          (Next RefFs.asFs deleteState).2.Update.update.ModTime ≠ none ∨
          (Next RefFs.asFs deleteState).2.Update.update.Link ≠ none))) ∧
    (Next RefFs.asFs deleteState).2.Update =
      { Path := "test.txt", update := { Deleted := true } } :=
  ⟨⟨by decide, by decide⟩,
    yielded_update_is_marked RefFs.asFs deleteState (by decide) (by decide), by decide⟩

set_option maxRecDepth 100000 in
/-- C14, counterexample: `RegularFile/Add` of the tests.  The one update the run yields
is marked added and carries a mode and an mtime as well: two of the three alternatives
hold for it. -/
theorem added_update_carries_mode_and_mtime :
    runResult RefFs.asFs RefFs.init [regEntry "./test.txt" "some text" 0o777 T2025] [] =
      some ([{ Path := "test.txt",
               update := { Added := true, Mode := some 0o777, ModTime := some T2025 } }], none) := by
  decide

set_option maxRecDepth 100000 in
/-- C15, witness: the first `Next` of `RegularFile/Add` yields from the tar loop, an
update that is marked added and not deleted. -/
theorem added_excludes_deleted_witness :
    ((Next RefFs.asFs addState).1 = true ∧ yieldsFromTar RefFs.asFs addState) ∧
    (¬ ((Next RefFs.asFs addState).2.Update.update.Added = true ∧
        (Next RefFs.asFs addState).2.Update.update.Deleted = true) ∧
      (yieldsFromTar RefFs.asFs addState →
        (Next RefFs.asFs addState).2.upd.update.Deleted = false ∧
        (Next RefFs.asFs addState).2.Update.update.Deleted = false) ∧
      (¬ yieldsFromTar RefFs.asFs addState →
        (Next RefFs.asFs addState).2.upd.update = { Deleted := true } ∧
        ((Next RefFs.asFs addState).2.err = none →
          (Next RefFs.asFs addState).2.Update.update = { Deleted := true }))) ∧
    (Next RefFs.asFs addState).2.Update.update.Added = true :=
  ⟨⟨by decide, by decide⟩, added_excludes_deleted RefFs.asFs addState (by decide), by decide⟩

set_option maxRecDepth 100000 in
/-- C17, witness: a queue that starts with a path that is not on the destination; the
loop goes on to `test.txt`, which it removes and yields. -/
theorem deleteLoop_skips_witness :
    ("gone" = "." ∨ lstatSkips (RefFs.asFs.lstatOrStat fileState.fs "gone") = true) ∧
    deleteLoop RefFs.asFs ("gone" :: ["test.txt"]) fileState =
      deleteLoop RefFs.asFs ["test.txt"] { fileState with
        log := fileState.log ++ (if "gone" = "." then [] else [RefFs.asFs.lstatCall "gone"]),
        deletePaths := some ["test.txt"] } ∧
    (deleteLoop RefFs.asFs ("gone" :: ["test.txt"]) fileState).1 = true ∧
    (deleteLoop RefFs.asFs ("gone" :: ["test.txt"]) fileState).2.upd =
      { Path := "test.txt", update := { Deleted := true } } ∧
    (deleteLoop RefFs.asFs ("gone" :: ["test.txt"]) fileState).2.err = none ∧
    (deleteLoop RefFs.asFs ("gone" :: ["test.txt"]) fileState).2.log.filter
        (fun c => c.isMutation) = [.removeAll "test.txt"] :=
  ⟨by decide, deleteLoop_skips RefFs.asFs "gone" ["test.txt"] fileState (by decide),
    by decide, by decide, by decide, by decide⟩

set_option maxRecDepth 100000 in
/-- C19, witness: a tar with a named pipe. -/
theorem unknown_typeflag_is_fatal_witness :
    (fifoEnt.hdr.typeflag ≠ TypeReg ∧ fifoEnt.hdr.typeflag ≠ TypeDir ∧
      fifoEnt.hdr.typeflag ≠ TypeSymlink ∧ fifoEnt.hdr.typeflag ≠ TypeLink) ∧
    (Next RefFs.asFs fifoState =
        (false, ((ensurePathMap RefFs.asFs fifoState).2.beginEntry fifoEnt []).setErr (some (.plain
          ("unexpected file type in tar: " ++ normalizePath fifoEnt.hdr.name ++ ": " ++
            toString fifoEnt.hdr.typeflag)))) ∧
      (Next RefFs.asFs fifoState).2.fs = fifoState.fs ∧
      (∀ c ∈ newCalls fifoState (Next RefFs.asFs fifoState).2, c.isFs = true → c = .walk) ∧
      Next RefFs.asFs (Next RefFs.asFs fifoState).2 = (false, (Next RefFs.asFs fifoState).2)) ∧
    runResult RefFs.asFs diskFile [fifoEnt] [] =
      some ([], some (.plain "unexpected file type in tar: run/pipe: 54")) :=
  ⟨by decide,
    (unknown_typeflag_is_fatal RefFs.asFs fifoEnt (by decide)).2 [] fifoState (by decide)
      (by decide) (by decide),
    by decide⟩

theorem tidy_diskSymlink : RefFs.Tidy diskSymlink :=
  RefFs.tidy_exec (.chtimes "l" T2025 T2025) _ (fun _ _ h => by cases h)
    (RefFs.tidy_exec (.symlink "t" "l") _ (fun _ _ h => by cases h) tidy_init)

set_option maxRecDepth 100000 in
/-- C18, witness: the symlink `l -> t` is on the destination, the tar holds the same
symlink and symlink syncing is off. -/
theorem skipped_entry_left_to_deletion_witness :
    (∀ (τ : Type) (F : Fs τ) (rest : List TarEntry) (s : Sync τ),
      s.opts = resolveOptions [.WithSymlinks false] →
      tarLoop F (symlinkEntry "./l" "t" T2025 :: rest) s =
        tarLoop F rest (s.beginEntry (symlinkEntry "./l" "t" T2025) rest)) ∧
    (finalState RefFs.asFs 64 (New RefFs.asFs diskSymlink
      ⟨[symlinkEntry "./l" "t" T2025], none⟩ [.WithSymlinks false])).fs.lstat
        (normalizePath (symlinkEntry "./l" "t" T2025).hdr.name) = .error .notExist :=
  skipped_entry_left_to_deletion diskSymlink [symlinkEntry "./l" "t" T2025] none
    [.WithSymlinks false] 64 _ _ (symlinkEntry "./l" "t" T2025) tidy_diskSymlink (by decide)
    (by decide) (by decide) (by decide) (Run_eq_of_nil _ _ _ (by decide))

set_option maxRecDepth 100000 in
/-- C18, counterexample: a skipped entry whose path is on the destination is deleted by
the run.  With symlink syncing off, the symlink `l` that the tar names (with another
target) is still in the inventory after the tar loop, and the run removes it; with
hard-link syncing off, the second name `l` of the file `a` goes the same way. -/
theorem skipped_entries_are_deleted :
    ((RefFs.lstat diskSymlink "l").toOption.isSome = true ∧
      (tarLoop RefFs.asFs [symlinkEntry "./l" "elsewhere" T2025]
        (ensurePathMap RefFs.asFs (New RefFs.asFs diskSymlink
          ⟨[symlinkEntry "./l" "elsewhere" T2025], none⟩ [.WithSymlinks false])).2).2.pathMap =
        some ["l", "."] ∧
      runResult RefFs.asFs diskSymlink [symlinkEntry "./l" "elsewhere" T2025]
        [.WithSymlinks false] = some ([{ Path := "l", update := { Deleted := true } }], none) ∧
      (runLog RefFs.asFs diskSymlink [symlinkEntry "./l" "elsewhere" T2025]
        [.WithSymlinks false]).map (fun l => l.filter (fun c => c.isMutation)) =
        some [.removeAll "l", .chtimes "." 1 1] ∧
      (runFs RefFs.asFs diskSymlink [symlinkEntry "./l" "elsewhere" T2025]
        [.WithSymlinks false]).map (fun fs => (fs.lstat "l").toOption) = some none) ∧
    ((RefFs.lstat diskLinked "l").toOption.isSome = true ∧
      runResult RefFs.asFs diskLinked
        [regEntry "./a" "some text" 0o777 T2025, linkEntry "./l" "a" 0o777 T2025]
        [.WithHardLinks false] = some ([{ Path := "l", update := { Deleted := true } }], none) ∧
      (runFs RefFs.asFs diskLinked
        [regEntry "./a" "some text" 0o777 T2025, linkEntry "./l" "a" 0o777 T2025]
        [.WithHardLinks false]).map (fun fs => (fs.lstat "l").toOption) = some none) := by
  decide

/-- On the reference destination, lstat reports not-exists after `RemoveAll`. -/
theorem removeAll_gone (fs : RefFs) (p : String)
    (h : (RefFs.asFs.exec (.removeAll p) fs).1 = none) :
    lstatSkips (RefFs.asFs.lstatOrStat (RefFs.asFs.exec (.removeAll p) fs).2 p) = true := by
  have e1 : RefFs.asFs.exec (.removeAll p) fs = RefFs.removeAll fs p := rfl
  rw [e1] at h
  rw [lstatOrStat_asFs, e1]
  unfold RefFs.removeAll at h ⊢
  simp only at h ⊢
  by_cases hk : keyOf p = []
  · simp [hk] at h
  · simp only [hk, if_false] at h ⊢
    cases hi : fs.ino (keyOf p) with
    | none =>
      simp only [RefFs.lstat, hi]
      rfl
    | some i =>
      have hpre : List.isPrefixOf (keyOf p) (keyOf p) = true := by simp
      simp only [RefFs.lstat, RefFs.dropEntries_ino, hpre, if_true]
      rfl

set_option maxRecDepth 100000 in
/-- C16, witness: the destination holds `b`, `d`, `d/x`, `a` and `keep`; the tar names
`keep` (with another mode) and `new`.  The run yields the two updates from the tar, then
the deletions of `a`, `b` and `d` in this order; `d/x` is gone with `d` and yields
nothing. -/
theorem deletions_follow_in_order_witness :
    (∃ (m : List String) (tarUpds : List PathUpdate) (dels : List String),
      (walkFs RefFs.asFs (New RefFs.asFs diskMany
        ⟨[regEntry "./keep" "some text" 0o600 T2025, regEntry "./new" "text" 0o644 T2025],
          none⟩ [])).1 = .ok m ∧
      runUpdates RefFs.asFs 64 (New RefFs.asFs diskMany
        ⟨[regEntry "./keep" "some text" 0o600 T2025, regEntry "./new" "text" 0o644 T2025],
          none⟩ []) = tarUpds ++ dels.map deletionOf ∧
      (∀ x ∈ tarUpds, x.update.Deleted = false ∧
        ∃ ent ∈ [regEntry "./keep" "some text" 0o600 T2025, regEntry "./new" "text" 0o644 T2025],
          AlwaysSynced (resolveOptions []) ent ∧ x.Path = normalizePath ent.hdr.name) ∧
      Ascending dels ∧
      ∀ p ∈ dels, p ∈ m ∧
        ∀ ent ∈ [regEntry "./keep" "some text" 0o600 T2025, regEntry "./new" "text" 0o644 T2025],
          AlwaysSynced (resolveOptions []) ent → normalizePath ent.hdr.name ≠ p) ∧
    runResult RefFs.asFs diskMany
      [regEntry "./keep" "some text" 0o600 T2025, regEntry "./new" "text" 0o644 T2025] [] =
      some ([{ Path := "keep", update := { Mode := some 0o600 } },
             { Path := "new", update := { Added := true, Mode := some 0o644, ModTime := some T2025 } },
             deletionOf "a", deletionOf "b", deletionOf "d"], none) ∧
    (walkFs RefFs.asFs (New RefFs.asFs diskMany
        ⟨[regEntry "./keep" "some text" 0o600 T2025, regEntry "./new" "text" 0o644 T2025],
          none⟩ [])).1 = .ok ["keep", "a", "d/x", "d", "b", "."] :=
  ⟨deletions_follow_in_order RefFs.asFs diskMany
      [regEntry "./keep" "some text" 0o600 T2025, regEntry "./new" "text" 0o644 T2025] none []
      64 _ _ removeAll_gone (Run_eq_of_nil _ _ _ (by decide)),
    by decide, by decide⟩

set_option maxRecDepth 100000 in
/-- C21, witness: the `Summary` test: one path added, three updated, two deleted. -/
theorem summary_add_counts_witness :
    ((updatesSummary.length : Int) < 2 ^ 63) ∧
    ((updatesSummary.foldl Summary.Add {}).Added =
      (updatesSummary.filter (fun u => u.Added)).length ∧
    (updatesSummary.foldl Summary.Add {}).Deleted =
      (updatesSummary.filter (fun u => !u.Added && u.Deleted)).length ∧
    (updatesSummary.foldl Summary.Add {}).Updated =
      (updatesSummary.filter (fun u => !u.Added && !u.Deleted)).length ∧
    (updatesSummary.foldl Summary.Add {}).Added + (updatesSummary.foldl Summary.Add {}).Updated +
      (updatesSummary.foldl Summary.Add {}).Deleted = updatesSummary.length) ∧
    updatesSummary.length = 6 ∧
    updatesSummary.foldl Summary.Add {} = { Added := 1, Updated := 3, Deleted := 2 } :=
  ⟨by decide, (summary_add_counts updatesSummary (by decide)).2.2, by decide, by decide⟩

set_option maxRecDepth 100000 in
/-- C22, witness: `test.txt` is on the destination and the tar names it as a hard link
to `a`, which is not there. -/
theorem hardlink_with_missing_target_witness :
    RefFs.asFs.lstatOrStat (Sync.at diskFile allOn).fs
        (normalizePath (linkEntry "./test.txt" "a" 0o777 T2025).hdr.linkname) =
      .error .notExist ∧
    tarLoop RefFs.asFs (linkEntry "./test.txt" "a" 0o777 T2025 :: []) (Sync.at diskFile allOn) =
      (some false,
        ((((Sync.at diskFile allOn).beginEntry (linkEntry "./test.txt" "a" 0o777 T2025) []).logCall
          (RefFs.asFs.lstatCall (normalizePath (linkEntry "./test.txt" "a" 0o777 T2025).hdr.name))).logCall
          (RefFs.asFs.lstatCall
            (normalizePath (linkEntry "./test.txt" "a" 0o777 T2025).hdr.linkname))).setErr
          (some (.wrap ("failed to sync hard link: " ++
              normalizePath (linkEntry "./test.txt" "a" 0o777 T2025).hdr.name)
            (.wrap ("failed to stat link target: " ++
              normalizePath (linkEntry "./test.txt" "a" 0o777 T2025).hdr.name) .notExist)))) ∧
    (tarLoop RefFs.asFs [linkEntry "./test.txt" "a" 0o777 T2025] (Sync.at diskFile allOn)).2.log =
      [.tarNext, .lstat "test.txt", .lstat "a"] ∧
    (RefFs.lstat (tarLoop RefFs.asFs [linkEntry "./test.txt" "a" 0o777 T2025]
      (Sync.at diskFile allOn)).2.fs "test.txt").toOption.map (fun fi => fi.ino) = some 1 :=
  ⟨by decide,
    (hardlink_with_missing_target RefFs.asFs (linkEntry "./test.txt" "a" 0o777 T2025) []
      (Sync.at diskFile allOn) .notExist rfl rfl (by decide)).1 fileInfoOnDisk (by decide),
    by decide, by decide⟩

set_option maxRecDepth 100000 in
/-- C22, counterexample: nothing is at the link path `l` and the target `a` is missing.
The target is not lstat-ed: the reconciler takes the parent of `l` and calls `Link`,
whose failure is the error of the run. -/
theorem missing_target_fails_in_Link :
    runLog RefFs.asFs RefFs.init [linkEntry "./l" "a" 0o777 T2025] [] =
      some [.stat ".", .walk, .tarNext, .lstat "l", .lstat ".", .link "a" "l"] ∧
    runResult RefFs.asFs RefFs.init [linkEntry "./l" "a" 0o777 T2025] [] =
      some ([], some (.wrap "failed to sync hard link: l"
        (.wrap "failed to make link: l" .notExist))) := by
  decide

set_option maxRecDepth 100000 in
/-- C23, witness: the spellings of `etc`, and the examples `./test.txt` and `./etc/`. -/
theorem normalizePath_spellings_witness :
    (filepathClean "etc" = "etc" ∧ normalizePath ("./" ++ "etc") = "etc" ∧
      normalizePath ("/" ++ "etc") = "etc" ∧ normalizePath "etc" = "etc" ∧
      normalizePath ("etc" ++ "/") = "etc") ∧
    ((Sync.at diskEtc allOn).beginEntry (dirEntry "./etc/" 0o755 T2025) []).upd.Path = "etc" ∧
    normalizePath "./test.txt" = "test.txt" ∧ normalizePath "./etc/" = "etc" ∧
    normalizePath "/foo/bar" = "foo/bar" ∧ normalizePath "./foo/bar/" = "foo/bar" :=
  ⟨⟨by decide,
      (normalizePath_spellings "etc" (by decide) (by decide) (by decide) (by decide)).1,
      (normalizePath_spellings "etc" (by decide) (by decide) (by decide) (by decide)).2.1,
      (normalizePath_spellings "etc" (by decide) (by decide) (by decide) (by decide)).2.2.1,
      (normalizePath_spellings "etc" (by decide) (by decide) (by decide) (by decide)).2.2.2.1⟩,
    by decide, by decide, by decide, by decide, by decide⟩

set_option maxRecDepth 100000 in
/-- C25, witness: holding `etc` with the mtime 5, the Preserver is asked for `.`: it
restores `etc` and holds `.` with the mtime 1 that lstat reports. -/
theorem preserveBaseDir_spec_witness :
    (preserveBaseDir RefFs.asFs "." heldEtc).1 = none ∧
    (newCalls heldEtc (preserveBaseDir RefFs.asFs "." heldEtc).2 =
        (if heldEtc.baseDirPath ≠ "" then
          [Call.chtimes heldEtc.baseDirPath heldEtc.baseDirModTime heldEtc.baseDirModTime]
          else []) ++
        (if "." ≠ "" then [RefFs.asFs.lstatCall "."] else []) ∧
      (preserveBaseDir RefFs.asFs "." heldEtc).2.baseDirPath = ".") ∧
    (preserveBaseDir RefFs.asFs heldEtc.baseDirPath heldEtc = (none, heldEtc)) ∧
    (preserveBaseDir RefFs.asFs "." heldEtc).2.log = [.chtimes "etc" 5 5, .lstat "."] ∧
    (preserveBaseDir RefFs.asFs "." heldEtc).2.baseDirModTime = 1 :=
  ⟨by decide,
    ⟨((preserveBaseDir_spec RefFs.asFs "." heldEtc (by decide)).2 (by decide)).1,
      ((preserveBaseDir_spec RefFs.asFs "." heldEtc (by decide)).2 (by decide)).2.2.2.1⟩,
    (preserveBaseDir_spec RefFs.asFs heldEtc.baseDirPath heldEtc (by decide)).1 rfl,
    by decide, by decide⟩

set_option maxRecDepth 100000 in
/-- C26, counterexample: `etc/test.txt` is on the destination with the content, size and
mtime the tar gives it and another mode.  `Next` sets the mode with `Chmod` while the
Preserver holds nothing: the parent `etc` is not lstat-ed, and the held base directory
is empty when `Next` returns. -/
theorem chmod_without_held_parent :
    (New RefFs.asFs diskEtcTest ⟨[regEntry "./etc/test.txt" "some text" 0o600 T2025], none⟩
      []).baseDirPath = "" ∧
    (Next RefFs.asFs (New RefFs.asFs diskEtcTest
      ⟨[regEntry "./etc/test.txt" "some text" 0o600 T2025], none⟩ [])).1 = true ∧
    (Next RefFs.asFs (New RefFs.asFs diskEtcTest
      ⟨[regEntry "./etc/test.txt" "some text" 0o600 T2025], none⟩ [])).2.log =
      [.stat ".", .walk, .tarNext, .lstat "etc/test.txt", .chmod "etc/test.txt" 0o600] ∧
    (Next RefFs.asFs (New RefFs.asFs diskEtcTest
      ⟨[regEntry "./etc/test.txt" "some text" 0o600 T2025], none⟩ [])).2.baseDirPath = "" ∧
    filepathDir "etc/test.txt" = "etc" := by
  decide

set_option maxRecDepth 100000 in
/-- C27, witness: after the run that finds `test.txt` as the tar describes it, two more
calls of `Next`. -/
theorem exhaustion_is_stable_witness :
    Nat.iterate (fun t => (Next RefFs.asFs t).2) 2
        (finalState RefFs.asFs 64 (New RefFs.asFs diskFile
          ⟨[regEntry "./test.txt" "some text" 0o777 T2025], none⟩ [])) =
      { finalState RefFs.asFs 64 (New RefFs.asFs diskFile
          ⟨[regEntry "./test.txt" "some text" 0o777 T2025], none⟩ []) with
        log := (finalState RefFs.asFs 64 (New RefFs.asFs diskFile
          ⟨[regEntry "./test.txt" "some text" 0o777 T2025], none⟩ [])).log ++
            List.replicate 2 Call.tarNext } ∧
    (Next RefFs.asFs (Nat.iterate (fun t => (Next RefFs.asFs t).2) 2
      (finalState RefFs.asFs 64 (New RefFs.asFs diskFile
        ⟨[regEntry "./test.txt" "some text" 0o777 T2025], none⟩ [])))).1 = false ∧
    (Nat.iterate (fun t => (Next RefFs.asFs t).2) 2
      (finalState RefFs.asFs 64 (New RefFs.asFs diskFile
        ⟨[regEntry "./test.txt" "some text" 0o777 T2025], none⟩ []))).err = none ∧
    (Nat.iterate (fun t => (Next RefFs.asFs t).2) 2
      (finalState RefFs.asFs 64 (New RefFs.asFs diskFile
        ⟨[regEntry "./test.txt" "some text" 0o777 T2025], none⟩ []))).fs =
      (finalState RefFs.asFs 64 (New RefFs.asFs diskFile
        ⟨[regEntry "./test.txt" "some text" 0o777 T2025], none⟩ [])).fs ∧
    (Nat.iterate (fun t => (Next RefFs.asFs t).2) 2
      (finalState RefFs.asFs 64 (New RefFs.asFs diskFile
        ⟨[regEntry "./test.txt" "some text" 0o777 T2025], none⟩ []))).upd =
      (finalState RefFs.asFs 64 (New RefFs.asFs diskFile
        ⟨[regEntry "./test.txt" "some text" 0o777 T2025], none⟩ [])).upd :=
  exhaustion_is_stable RefFs.asFs 64 (New RefFs.asFs diskFile
    ⟨[regEntry "./test.txt" "some text" 0o777 T2025], none⟩ []) _ _
    (Run_eq_of_nil _ _ _ (by decide)) 2

set_option maxRecDepth 100000 in
/-- C28, witness: the tar names the directory `etc`, which is on the destination, and
the file `etc/test.txt`. -/
theorem reconciled_path_kept_witness :
    ∃ fi, RefFs.lstat (finalState RefFs.asFs 64 (New RefFs.asFs diskEtc
        ⟨[dirEntry "./etc/" 0o755 T2025] ++ regEntry "./etc/test.txt" "some text" 0o600 T2025 :: [],
          none⟩ [])).fs
      (normalizePath (regEntry "./etc/test.txt" "some text" 0o600 T2025).hdr.name) = .ok fi :=
  reconciled_path_kept diskEtc [dirEntry "./etc/" 0o755 T2025] []
    (regEntry "./etc/test.txt" "some text" 0o600 T2025) none [] 64 _ _ (Or.inl rfl) (by decide)
    (fun paths h => by cases h; decide) (Run_eq_of_nil _ _ _ (by decide))

set_option maxRecDepth 100000 in
/-- C28, counterexample: the destination holds the directory `etc` and the tar names the
file `etc/test.txt` only.  The file is added; the deletion phase then removes `etc`,
which no entry names, and the file with it: the run returns a nil error and nothing is
at `etc/test.txt`. -/
theorem reconciled_file_removed_with_its_directory :
    runResult RefFs.asFs diskEtc [regEntry "./etc/test.txt" "some text" 0o600 T2025] [] =
      some ([{ Path := "etc/test.txt",
               update := { Added := true, Mode := some 0o600, ModTime := some T2025 } },
             { Path := "etc", update := { Deleted := true } }], none) ∧
    (runLog RefFs.asFs diskEtc [regEntry "./etc/test.txt" "some text" 0o600 T2025] []).map
      (fun l => l.filter (fun c => c.isMutation)) =
      some [.writeReader "etc/test.txt" "some text", .chmod "etc/test.txt" 0o600,
        .chtimes "etc/test.txt" T2025 T2025, .chtimes "etc" 5 5, .removeAll "etc",
        .chtimes "." 1 1] ∧
    (runFs RefFs.asFs diskEtc [regEntry "./etc/test.txt" "some text" 0o600 T2025] []).map
      (fun fs => (fs.lstat "etc/test.txt").toOption.map (fun fi => fi.ino)) = some none := by
  decide

set_option maxRecDepth 100000 in
/-- C29, witness: the tar names the file `etc/test.txt` and the destination is empty. -/
theorem create_fails_without_parent_witness :
    entryStat RefFs.asFs (regEntry "./etc/test.txt" "x" 0o777 T2025)
      (Sync.at RefFs.init {}).fs = .error .notExist ∧
    (tarLoop RefFs.asFs (regEntry "./etc/test.txt" "x" 0o777 T2025 :: [])
      (Sync.at RefFs.init {})).1 = some false ∧
    (tarLoop RefFs.asFs (regEntry "./etc/test.txt" "x" 0o777 T2025 :: [])
      (Sync.at RefFs.init {})).2.fs = (restoreBaseDir RefFs.asFs (Sync.at RefFs.init {})).2.fs ∧
    (tarLoop RefFs.asFs [regEntry "./etc/test.txt" "x" 0o777 T2025]
      (Sync.at RefFs.init {})).2.err =
      some (.wrap "failed to sync regular file: etc/test.txt"
        (.wrap "failed to stat base dir: etc" .notExist)) ∧
    (tarLoop RefFs.asFs [regEntry "./etc/test.txt" "x" 0o777 T2025]
      (Sync.at RefFs.init {})).2.log = [.tarNext, .lstat "etc/test.txt", .lstat "etc"] ∧
    (RefFs.lstat (tarLoop RefFs.asFs [regEntry "./etc/test.txt" "x" 0o777 T2025]
      (Sync.at RefFs.init {})).2.fs "etc/test.txt").toOption.map (fun fi => fi.ino) = none :=
  ⟨by decide,
    (create_fails_without_parent RefFs.asFs (regEntry "./etc/test.txt" "x" 0o777 T2025) []
      (Sync.at RefFs.init {}) .notExist .notExist (Or.inl rfl) (by decide) (by decide)
      (by decide) (fun _ => by decide)).1,
    (create_fails_without_parent RefFs.asFs (regEntry "./etc/test.txt" "x" 0o777 T2025) []
      (Sync.at RefFs.init {}) .notExist .notExist (Or.inl rfl) (by decide) (by decide)
      (by decide) (fun _ => by decide)).2.2.1,
    by decide, by decide, by decide⟩

set_option maxRecDepth 100000 in
/-- C7, witness: `test.txt` is on the destination with nine bytes and the tar entry has
ten: the body is written, the update is marked added and the reconciler returns nil. -/
theorem syncRegularFile_writes_iff_stale_witness :
    ((regEntry "./test.txt" "more text!" 0o777 T2025).hdr.size ≠ fileInfoOnDisk.size ∨
      (regEntry "./test.txt" "more text!" 0o777 T2025).hdr.modTime ≠ fileInfoOnDisk.modTime) ∧
    (syncRegularFile RefFs.asFs (regEntry "./test.txt" "more text!" 0o777 T2025).hdr
      "more text!" (Sync.at diskFile allOn)).1 = none ∧
    (Call.writeReader (normalizePath (regEntry "./test.txt" "more text!" 0o777 T2025).hdr.name)
          "more text!" ∈ newCalls (Sync.at diskFile allOn)
            (syncRegularFile RefFs.asFs (regEntry "./test.txt" "more text!" 0o777 T2025).hdr
              "more text!" (Sync.at diskFile allOn)).2 ∧
      (syncRegularFile RefFs.asFs (regEntry "./test.txt" "more text!" 0o777 T2025).hdr
        "more text!" (Sync.at diskFile allOn)).2.upd.update.Added = true) ∧
    newCalls (Sync.at diskFile allOn)
      (syncRegularFile RefFs.asFs (regEntry "./test.txt" "more text!" 0o777 T2025).hdr
        "more text!" (Sync.at diskFile allOn)).2 =
      [.lstat "test.txt", .lstat ".", .writeReader "test.txt" "more text!", .lstat "test.txt",
        .chtimes "test.txt" T2025 T2025] ∧
    (RefFs.contentAt (syncRegularFile RefFs.asFs
      (regEntry "./test.txt" "more text!" 0o777 T2025).hdr "more text!"
      (Sync.at diskFile allOn)).2.fs "test.txt") = some "more text!" :=
  ⟨Or.inl (by decide), by decide,
    ((syncRegularFile_writes_iff_stale RefFs.asFs
      (regEntry "./test.txt" "more text!" 0o777 T2025).hdr "more text!" (Sync.at diskFile allOn)
      fileInfoOnDisk (by decide) (by decide) (by decide)).2.2 (by decide)).mpr
      (Or.inl (by decide)),
    by decide, by decide⟩

set_option maxRecDepth 100000 in
/-- C12, witness: the symlink `l -> t`, owned by 1000:1000 in the tar, on an empty
destination: the link is made, the lstat that follows reads the owner 0:0, and `lchown`
repairs it. -/
theorem symlink_entry_uses_lchown_witness :
    (dispatch RefFs.asFs symEnt emptyState).1 = .synced ∧
    ((dispatch RefFs.asFs symEnt emptyState).2.upd.update.Mode = emptyState.upd.update.Mode ∧
      ∃ info,
        (entryStat RefFs.asFs symEnt emptyState.fs = .ok info ∨
          ∃ pre rest, newCalls emptyState (dispatch RefFs.asFs symEnt emptyState).2 =
              pre ++ createCallOf symEnt :: RefFs.asFs.lstatCall (normalizePath symEnt.hdr.name) :: rest ∧
            RefFs.asFs.lstatOrStat (replay RefFs.asFs (pre ++ [createCallOf symEnt]) emptyState.fs)
              (normalizePath symEnt.hdr.name) = .ok info) ∧
        (ownerDiffers emptyState.opts symEnt.hdr info ↔
          Call.lchown (normalizePath symEnt.hdr.name) symEnt.hdr.uid symEnt.hdr.gid ∈
            newCalls emptyState (dispatch RefFs.asFs symEnt emptyState).2) ∧
        (ownerDiffers emptyState.opts symEnt.hdr info →
          (dispatch RefFs.asFs symEnt emptyState).2.upd.update.Uid = some symEnt.hdr.uid ∧
          (dispatch RefFs.asFs symEnt emptyState).2.upd.update.Gid = some symEnt.hdr.gid)) ∧
    newCalls emptyState (dispatch RefFs.asFs symEnt emptyState).2 =
      [.lstat "l", .lstat ".", .symlink "t" "l", .lstat "l", .lchown "l" 1000 1000, .lstat "l",
        .chtimes "l" T2025 T2025] ∧
    (dispatch RefFs.asFs symEnt emptyState).2.upd.update =
      { Added := true, Uid := some 1000, Gid := some 1000, ModTime := some T2025,
        Link := some "t" } :=
  ⟨by decide, (symlink_entry_uses_lchown RefFs.asFs symEnt emptyState (by decide)).2 (by decide),
    by decide, by decide⟩

set_option maxRecDepth 100000 in
/-- C20, witness: `Dir/Add`, the directory `etc` with mode `rwxr-xr-x` on an empty
destination. -/
theorem dir_entry_added_witness :
    (Call.mkdir (normalizePath etcEnt.hdr.name) (modePermOf etcEnt.hdr.fileMode) ∈
          newCalls emptyState (dispatch RefFs.asFs etcEnt emptyState).2 ∧
        (dispatch RefFs.asFs etcEnt emptyState).2.upd.update.Added = true ∧
        (∃ info fi2 : FileInfo,
          RefFs.asFs.lstatOrStat
              (RefFs.asFs.exec (.mkdir (normalizePath etcEnt.hdr.name) (modePermOf etcEnt.hdr.fileMode))
                (preserveBaseDir RefFs.asFs (filepathDir (normalizePath etcEnt.hdr.name))
                  (LstatOrStat RefFs.asFs (normalizePath etcEnt.hdr.name) emptyState).2).2.fs).2
              (normalizePath etcEnt.hdr.name) = .ok info ∧
          (ownerDiffers emptyState.opts etcEnt.hdr info →
            RefFs.asFs.lstatOrStat
              (RefFs.asFs.exec (ownerCall etcEnt.hdr)
                (RefFs.asFs.exec (.mkdir (normalizePath etcEnt.hdr.name) (modePermOf etcEnt.hdr.fileMode))
                  (preserveBaseDir RefFs.asFs (filepathDir (normalizePath etcEnt.hdr.name))
                    (LstatOrStat RefFs.asFs (normalizePath etcEnt.hdr.name) emptyState).2).2.fs).2).2
              (normalizePath etcEnt.hdr.name) = .ok fi2) ∧
          (¬ ownerDiffers emptyState.opts etcEnt.hdr info → fi2 = info) ∧
          (dispatch RefFs.asFs etcEnt emptyState).2.upd.update.Mode =
            (if etcEnt.hdr.fileMode ≠ fi2.mode then some etcEnt.hdr.fileMode
              else some (modePermOf etcEnt.hdr.fileMode ||| ModeDir)) ∧
          (etcEnt.hdr.fileMode ≠ fi2.mode ↔
            Call.chmod (normalizePath etcEnt.hdr.name) etcEnt.hdr.fileMode ∈
              newCalls emptyState (dispatch RefFs.asFs etcEnt emptyState).2)) ∧
        (etcEnt.hdr.fileMode = modePermOf etcEnt.hdr.fileMode ||| ModeDir →
          (dispatch RefFs.asFs etcEnt emptyState).2.upd.update.Mode =
            some (modePermOf etcEnt.hdr.fileMode ||| ModeDir)) ) ∧
    (RefFs.asFs.lstatOrStat
        (RefFs.asFs.exec (.mkdir "etc" 0o755)
          (preserveBaseDir RefFs.asFs "." (LstatOrStat RefFs.asFs "etc" emptyState).2).2.fs).2
        "etc").toOption.map (fun fi => fi.mode) = some (0o755 ||| ModeDir) ∧
    (dispatch RefFs.asFs etcEnt emptyState).2.upd.update =
      { Added := true, Mode := some (0o755 ||| ModeDir), ModTime := some T2025 } :=
  ⟨dir_entry_added RefFs.asFs etcEnt emptyState (by decide) ⟨.notExist, by decide, by decide⟩
    (by decide), by decide, by decide⟩

end Aferosync
